import Mathlib

/-!
Fully dynamic connectivity (Holm, de Lichtenberg, Thorup) over Euler tour treaps.

A shallow embedding of `dynamic_connectivity_online.h`.

* Pointers `Node*` are `Option Nat` (`none` is `nullptr`); the free store is a `Heap`.
* A dereference of `nullptr` or of a freed cell, and an out-of-range `vector` index,
  have no defined behaviour in the source: the embedding returns `none` there.
* `Node*&` out-parameters are returned as values; the caller stores them into the
  variable or field the reference named.
* The global `generator` is a fixed stream of priorities with a draw counter.
* `std::unordered_set<int>` is a duplicate-free list; iteration follows the list.
* Recursion over pointers is bounded by fuel, taken from the allocation counter.
-/

namespace DynConn

/-- Treap node of the Euler tour tree (`struct Node`). -/
structure Node where
  key : Int × Int
  size : Int
  size_of_min_level : Bool
  size_of_adjacent : Bool
  is_min_level : Bool
  is_has_adjacent : Bool
  level : Int
  priority : Int
  left : Option Nat
  right : Option Nat
  parent : Option Nat
deriving DecidableEq, Repr

/-- Constructor `Node(key, priority, lvl)`. -/
def Node.mk3 (key : Int × Int) (priority : Int) (lvl : Int) : Node :=
  { key := key, size := 1, size_of_min_level := false, size_of_adjacent := false,
    is_min_level := false, is_has_adjacent := false, level := lvl, priority := priority,
    left := none, right := none, parent := none }

/-- The free store: live cells and the allocation counter. -/
structure Heap where
  cells : Nat → Option Node
  next : Nat

def Heap.empty : Heap := { cells := fun _ => none, next := 0 }

def Heap.get (h : Heap) (p : Nat) : Option Node := h.cells p

def Heap.set (h : Heap) (p : Nat) (nd : Node) : Heap :=
  { h with cells := fun q => if q = p then some nd else h.cells q }

/-- Operator `new Node(...)`. -/
def Heap.alloc (h : Heap) (nd : Node) : Heap × Nat :=
  ({ cells := fun q => if q = h.next then some nd else h.cells q, next := h.next + 1 }, h.next)

/-- Operator `delete p` for a non-null pointer. -/
def Heap.free (h : Heap) (p : Nat) : Option Heap :=
  match h.get p with
  | none => none
  | some _ => some { h with cells := fun q => if q = p then none else h.cells q }

/-- The global `generator` with distribution `prior`: a stream and the number of draws. -/
structure Gen where
  out : Nat → Int
  drawn : Nat

def Gen.draw (g : Gen) : Int × Gen := (g.out g.drawn, { g with drawn := g.drawn + 1 })

def get_size (h : Heap) : Option Nat → Option Int
  | none => some 0
  | some p => (h.get p).map (fun nd => nd.size)

def get_size_min_level (h : Heap) : Option Nat → Option Bool
  | none => some false
  | some p => (h.get p).map (fun nd => nd.size_of_min_level)

def get_size_adjacent (h : Heap) : Option Nat → Option Bool
  | none => some false
  | some p => (h.get p).map (fun nd => nd.size_of_adjacent)

def update_size (h : Heap) : Option Nat → Option Heap
  | none => some h
  | some p =>
    match h.get p with
    | none => none
    | some nd =>
      match get_size h nd.left, get_size h nd.right with
      | some sl, some sr => some (h.set p { nd with size := sl + sr + 1 })
      | _, _ => none

def update_size_flag (h : Heap) : Option Nat → Option Heap
  | none => some h
  | some p =>
    match h.get p with
    | none => none
    | some nd =>
      match get_size_min_level h nd.left, get_size_min_level h nd.right,
            get_size_adjacent h nd.left, get_size_adjacent h nd.right with
      | some ml, some mr, some al, some ar =>
        some (h.set p { nd with size_of_min_level := (ml || mr || nd.is_min_level),
                                size_of_adjacent := (al || ar || nd.is_has_adjacent) })
      | _, _, _, _ => none

/-- Both refreshes in the order the source calls them. -/
def update_both (h : Heap) (p : Option Nat) : Option Heap :=
  (update_size h p).bind (fun h1 => update_size_flag h1 p)

def update_up : Nat → Heap → Option Nat → Option Heap
  | 0, _, _ => none
  | _ + 1, _, none => none
  | f + 1, h, some p =>
    match update_size_flag h (some p) with
    | none => none
    | some h1 =>
      match h1.get p with
      | none => none
      | some nd =>
        match nd.parent with
        | none => some h1
        | some q => update_up f h1 (some q)

/-- Assignment `p->parent = par` guarded by `if (p)`. -/
def set_parent (h : Heap) (p : Option Nat) (par : Option Nat) : Option Heap :=
  match p with
  | none => some h
  | some q =>
    match h.get q with
    | none => none
    | some nd => some (h.set q { nd with parent := par })

/-- Function `split(root, key, left, right)`; returns the heap, `left` and `right`. -/
def split : Nat → Heap → Option Nat → Int → Option (Heap × Option Nat × Option Nat)
  | _, h, none, _ => some (h, none, none)
  | 0, _, some _, _ => none
  | f + 1, h, some r, key =>
    match h.get r with
    | none => none
    | some nd =>
      match get_size h nd.left with
      | none => none
      | some sl =>
        if sl ≥ key then
          match split f h nd.left key with
          | none => none
          | some (h1, left, rl) =>
            match h1.get r with
            | none => none
            | some nd1 =>
              let h2 := h1.set r { nd1 with left := rl }
              (set_parent h2 left none).bind fun h3 =>
              (set_parent h3 rl (some r)).bind fun h4 =>
              (update_both h4 left).bind fun h5 =>
              (update_both h5 (some r)).bind fun h6 =>
              some (h6, left, some r)
        else
          match split f h nd.right (key - sl - 1) with
          | none => none
          | some (h1, rr, right) =>
            match h1.get r with
            | none => none
            | some nd1 =>
              let h2 := h1.set r { nd1 with right := rr }
              (set_parent h2 right none).bind fun h3 =>
              (set_parent h3 rr (some r)).bind fun h4 =>
              (update_both h4 (some r)).bind fun h5 =>
              (update_both h5 right).bind fun h6 =>
              some (h6, some r, right)

/-- Tail of `merge` after the recursive call: re-parent both children, refresh the root. -/
def merge_fix (h : Heap) (root : Nat) : Option Heap :=
  match h.get root with
  | none => none
  | some nd =>
    (set_parent h nd.left (some root)).bind fun h1 =>
    match h1.get root with
    | none => none
    | some nd1 =>
      (set_parent h1 nd1.right (some root)).bind fun h2 =>
      update_both h2 (some root)

/-- Function `merge(root, left, right)`; returns the heap and `root`. -/
def merge : Nat → Heap → Option Nat → Option Nat → Option (Heap × Option Nat)
  | _, h, none, right =>
    (set_parent h right none).bind fun h1 =>
    (update_both h1 right).bind fun h2 => some (h2, right)
  | _, h, some l, none =>
    (set_parent h (some l) none).bind fun h1 =>
    (update_both h1 (some l)).bind fun h2 => some (h2, some l)
  | 0, _, some _, some _ => none
  | f + 1, h, some l, some r =>
    match h.get l, h.get r with
    | some nl, some nr =>
      if nl.priority < nr.priority then
        match merge f h nl.right (some r) with
        | none => none
        | some (h1, res) =>
          match h1.get l with
          | none => none
          | some nl1 =>
            (merge_fix (h1.set l { nl1 with right := res }) l).bind fun h2 => some (h2, some l)
      else
        match merge f h (some l) nr.left with
        | none => none
        | some (h1, res) =>
          match h1.get r with
          | none => none
          | some nr1 =>
            (merge_fix (h1.set r { nr1 with left := res }) r).bind fun h2 => some (h2, some r)
    | _, _ => none

def lift : Nat → Heap → Option Nat → Option (Option Nat)
  | _, _, none => some none
  | 0, _, some _ => none
  | f + 1, h, some p =>
    match h.get p with
    | none => none
    | some nd =>
      match nd.parent with
      | none => some (some p)
      | some q => lift f h (some q)

/-- Function `get_normal_key(parent, start_loop, result)`; returns `result`. -/
def get_normal_key : Nat → Heap → Option Nat → Option Nat → Int → Option Int
  | _, _, none, _, result => some result
  | 0, _, some _, _, _ => none
  | f + 1, h, some p, start_loop, result =>
    match h.get p with
    | none => none
    | some nd =>
      if nd.right = start_loop then
        match get_size h nd.left with
        | none => none
        | some sl => get_normal_key f h nd.parent (some p) (result + sl + 1)
      else get_normal_key f h nd.parent (some p) result

/-- Node registry `map_edges`: `none` for a missing key, `some none` for a null entry. -/
abbrev EdgeMap := Int × Int → Option (Option Nat)

/-- Expression `map_edges[k]`: the stored pointer, a null entry being created when missing. -/
def EdgeMap.at (m : EdgeMap) (k : Int × Int) : EdgeMap × Option Nat :=
  match m k with
  | some p => (m, p)
  | none => (fun q => if q = k then some none else m q, none)

def EdgeMap.set (m : EdgeMap) (k : Int × Int) (p : Option Nat) : EdgeMap :=
  fun q => if q = k then some p else m q

def EdgeMap.erase (m : EdgeMap) (k : Int × Int) : EdgeMap :=
  fun q => if q = k then none else m q

/-- Position of node `p` in its treap: `get_size(p->left)` plus `get_normal_key` upward. -/
def position (h : Heap) (p : Option Nat) : Option Int :=
  match p with
  | none => none
  | some q =>
    match h.get q with
    | none => none
    | some nd =>
      match get_size h nd.left with
      | none => none
      | some k => get_normal_key (h.next + 1) h nd.parent (some q) k

/-- Function `reroot(root, start, end, map_edges)`; returns heap, registry and `root`. -/
def reroot (h : Heap) (root : Option Nat) (start end_ : Int) (m : EdgeMap) :
    Option (Heap × EdgeMap × Option Nat) :=
  let (m1, start_loop) := m.at (start, end_)
  match position h start_loop with
  | none => none
  | some key =>
    match split (h.next + 1) h root key with
    | none => none
    | some (h1, root1, first) =>
      match merge (h1.next + 1) h1 first root1 with
      | none => none
      | some (h2, root2) => some (h2, m1, root2)

/-- Level maps `spanning_edges_levels` and `not_spanning_edges_levels`. -/
abbrev LevelMap := List ((Int × Int) × Int)

def LevelMap.find : LevelMap → Int × Int → Option Int
  | [], _ => none
  | (k1, v) :: rest, k => if k1 = k then some v else LevelMap.find rest k

def LevelMap.erase (m : LevelMap) (k : Int × Int) : LevelMap :=
  m.filter (fun e => decide (e.1 ≠ k))

/-- Assignment `m[k] = v`. -/
def LevelMap.set (m : LevelMap) (k : Int × Int) (v : Int) : LevelMap :=
  (k, v) :: LevelMap.erase m k

/-- Read of `m[k]`, a zero entry being created when missing. -/
def LevelMap.at (m : LevelMap) (k : Int × Int) : LevelMap × Int :=
  match LevelMap.find m k with
  | some v => (m, v)
  | none => ((k, 0) :: m, 0)

/-- Statement `++m[k]`. -/
def LevelMap.incr (m : LevelMap) (k : Int × Int) : LevelMap :=
  let (m1, v) := LevelMap.at m k
  LevelMap.set m1 k (v + 1)

def LevelMap.count (m : LevelMap) (k : Int × Int) : Nat :=
  if (LevelMap.find m k).isSome then 1 else 0

/-- Spanning forest of one level (`struct DynamicForest`). -/
structure DynamicForest where
  map_edges : EdgeMap
  adjacent_edges : Int → List Int
  level : Int

def set_insert (s : List Int) (x : Int) : List Int := if x ∈ s then s else x :: s

def set_erase (s : List Int) (x : Int) : List Int := s.filter (fun y => decide (y ≠ x))

def adj_insert (a : Int → List Int) (u x : Int) : Int → List Int :=
  fun w => if w = u then set_insert (a u) x else a w

def adj_erase (a : Int → List Int) (u x : Int) : Int → List Int :=
  fun w => if w = u then set_erase (a u) x else a w

/-- Loop of the constructor `DynamicForest(nn, level)`, for `i` from `i` to `i + k - 1`. -/
def forest_init : Nat → Int → Heap → Gen → EdgeMap → Heap × Gen × EdgeMap
  | 0, _, h, g, m => (h, g, m)
  | k + 1, i, h, g, m =>
    let (value, g1) := g.draw
    let (h1, it) := h.alloc (Node.mk3 (i, i) value (-1))
    forest_init k (i + 1) h1 g1 (m.set (i, i) (some it))

def DynamicForest.new (h : Heap) (g : Gen) (nn : Int) (level : Int) :
    Heap × Gen × DynamicForest :=
  let (h1, g1, m) := forest_init nn.toNat 0 h g (fun _ => none)
  (h1, g1, { map_edges := m, adjacent_edges := fun _ => [], level := level })

def is_connected (h : Heap) (F : DynamicForest) (uu vv : Int) :
    Option (DynamicForest × Bool) :=
  let (m1, pu) := F.map_edges.at (uu, uu)
  let (m2, pv) := m1.at (vv, vv)
  match lift (h.next + 1) h pu, lift (h.next + 1) h pv with
  | some a, some b => some ({ F with map_edges := m2 }, decide (a = b))
  | _, _ => none

def set_is_min_level (h : Heap) (p : Nat) (b : Bool) : Option Heap :=
  (h.get p).map (fun nd => h.set p { nd with is_min_level := b })

def set_is_has_adjacent (h : Heap) (p : Nat) (b : Bool) : Option Heap :=
  (h.get p).map (fun nd => h.set p { nd with is_has_adjacent := b })

def add_edge (h : Heap) (g : Gen) (F : DynamicForest) (uu vv lvl : Int) :
    Option (Heap × Gen × DynamicForest) :=
  let (m1, pu) := F.map_edges.at (uu, uu)
  (lift (h.next + 1) h pu).bind fun left =>
  (reroot h left uu uu m1).bind fun (h1, m2, left1) =>
  let (m3, pv) := m2.at (vv, vv)
  (lift (h1.next + 1) h1 pv).bind fun right =>
  (reroot h1 right vv vv m3).bind fun (h2, m4, right1) =>
  let (value, g1) := g.draw
  let (h3, to_) := h2.alloc
    { Node.mk3 (uu, vv) value lvl with is_min_level := (decide (F.level = lvl) && decide (uu < vv)) }
  let (value2, g2) := g1.draw
  let (h4, from_) := h3.alloc
    { Node.mk3 (vv, uu) value2 lvl with is_min_level := (decide (F.level = lvl) && decide (vv < uu)) }
  let m5 := (m4.set (uu, vv) (some to_)).set (vv, uu) (some from_)
  (merge (h4.next + 1) h4 left1 (some to_)).bind fun (h5, left2) =>
  (merge (h5.next + 1) h5 left2 right1).bind fun (h6, left3) =>
  (merge (h6.next + 1) h6 left3 (some from_)).bind fun (h7, _) =>
  some (h7, g2, { F with map_edges := m5 })

/-- Operator `delete p`, a no-op on `nullptr`. -/
def delete_ptr (h : Heap) : Option Nat → Option Heap
  | none => some h
  | some p => h.free p

def delete_edge (h : Heap) (F : DynamicForest) (uu vv : Int) :
    Option (Heap × DynamicForest) :=
  let (m1, puv) := F.map_edges.at (uu, vv)
  (lift (h.next + 1) h puv).bind fun treap =>
  (reroot h treap uu vv m1).bind fun (h1, m2, treap1) =>
  (split (h1.next + 1) h1 treap1 1).bind fun (h2, temporary, treap2) =>
  let (m3, vu) := m2.at (vv, uu)
  (position h2 vu).bind fun key =>
  (split (h2.next + 1) h2 treap2 key).bind fun (h3, _, treap3) =>
  (split (h3.next + 1) h3 treap3 1).bind fun (h4, _, _) =>
  (delete_ptr h4 vu).bind fun h5 =>
  (delete_ptr h5 temporary).bind fun h6 =>
  some (h6, { F with map_edges := (m3.erase (uu, vv)).erase (vv, uu) })

/-- Top-level structure (`class DynamicGraph`) with the free store, the generator and
the text written to `std::cout`. -/
structure DynamicGraph where
  mx_level : Int
  n_ : Int
  components : Int
  spanning_trees : List DynamicForest
  spanning_edges_levels : LevelMap
  not_spanning_edges_levels : LevelMap
  heap : Heap
  gen : Gen
  cout : List String

/-- Element `spanning_trees[lvl]`. -/
def DynamicGraph.forest (G : DynamicGraph) (lvl : Int) : Option DynamicForest :=
  if 0 ≤ lvl then G.spanning_trees.get? lvl.toNat else none

def DynamicGraph.setForest (G : DynamicGraph) (lvl : Int) (F : DynamicForest) : DynamicGraph :=
  { G with spanning_trees := G.spanning_trees.set lvl.toNat F }

/-- Method `build(level)`. -/
def DynamicGraph.build (G : DynamicGraph) (level : Int) : DynamicGraph :=
  if level = (G.spanning_trees.length : Int) then
    let (h1, g1, F) := DynamicForest.new G.heap G.gen G.n_ level
    { G with spanning_trees := G.spanning_trees ++ [F], heap := h1, gen := g1 }
  else G

/-- Constructor `DynamicGraph(nn)`; `out` is the stream the generator will produce. -/
def DynamicGraph.new (out : Nat → Int) (nn : Int) : DynamicGraph :=
  DynamicGraph.build
    { mx_level := 0, n_ := nn, components := nn, spanning_trees := [],
      spanning_edges_levels := [], not_spanning_edges_levels := [],
      heap := Heap.empty, gen := { out := out, drawn := 0 }, cout := [] } 0

/-- Call `spanning_trees[lvl]->is_connected(a, b)`. -/
def DynamicGraph.connectedAt (G : DynamicGraph) (lvl : Int) (a b : Int) :
    Option (DynamicGraph × Bool) :=
  (G.forest lvl).bind fun F =>
  (is_connected G.heap F a b).bind fun (F1, c) => some (G.setForest lvl F1, c)

/-- Call `spanning_trees[lvl]->add_edge(a, b, l)`. -/
def DynamicGraph.addEdgeAt (G : DynamicGraph) (lvl : Int) (a b l : Int) : Option DynamicGraph :=
  (G.forest lvl).bind fun F =>
  (add_edge G.heap G.gen F a b l).bind fun (h1, g1, F1) =>
  some { G.setForest lvl F1 with heap := h1, gen := g1 }

/-- Call `spanning_trees[lvl]->delete_edge(a, b)`. -/
def DynamicGraph.deleteEdgeAt (G : DynamicGraph) (lvl : Int) (a b : Int) : Option DynamicGraph :=
  (G.forest lvl).bind fun F =>
  (delete_edge G.heap F a b).bind fun (h1, F1) =>
  some { G.setForest lvl F1 with heap := h1 }

/-- Expression `spanning_trees[lvl]->map_edges[{a, a}]`. -/
def DynamicGraph.selfNode (G : DynamicGraph) (lvl : Int) (a : Int) :
    Option (DynamicGraph × Option Nat) :=
  (G.forest lvl).bind fun F =>
  let (m1, p) := F.map_edges.at (a, a)
  some (G.setForest lvl { F with map_edges := m1 }, p)

/-- Statement `spanning_trees[lvl]->adjacent_edges[a].insert(b)`. -/
def DynamicGraph.adjInsert (G : DynamicGraph) (lvl : Int) (a b : Int) : Option DynamicGraph :=
  (G.forest lvl).bind fun F =>
  some (G.setForest lvl { F with adjacent_edges := adj_insert F.adjacent_edges a b })

/-- Statement `spanning_trees[lvl]->adjacent_edges[a].erase(b)`. -/
def DynamicGraph.adjErase (G : DynamicGraph) (lvl : Int) (a b : Int) : Option DynamicGraph :=
  (G.forest lvl).bind fun F =>
  some (G.setForest lvl { F with adjacent_edges := adj_erase F.adjacent_edges a b })

/-- Block `if (p->is_has_adjacent == false) { p->is_has_adjacent = true; update_up(p); }`. -/
def raise_adjacent (h : Heap) (p : Option Nat) : Option Heap :=
  match p with
  | none => none
  | some q =>
    match h.get q with
    | none => none
    | some nd =>
      if nd.is_has_adjacent = false then
        (set_is_has_adjacent h q true).bind fun h1 => update_up (h1.next + 1) h1 (some q)
      else some h

/-- Block `if (adjacent_edges[a].empty()) { p = map_edges[{a, a}]; p->is_has_adjacent = false;
update_up(p); }` on forest `lvl`; `up` tells whether `update_up` is called. -/
def DynamicGraph.clearIfEmpty (G : DynamicGraph) (lvl : Int) (a : Int) (up : Bool) :
    Option DynamicGraph :=
  (G.forest lvl).bind fun F =>
  if (F.adjacent_edges a).isEmpty then
    (G.selfNode lvl a).bind fun (G1, p) =>
    match p with
    | none => none
    | some q =>
      (set_is_has_adjacent G1.heap q false).bind fun h1 =>
      if up then
        (update_up (h1.next + 1) h1 (some q)).bind fun h2 => some { G1 with heap := h2 }
      else some { G1 with heap := h1 }
  else some G

def AddEdge (G : DynamicGraph) (u_ v_ : Int) : Option DynamicGraph :=
  (G.connectedAt 0 u_ v_).bind fun (G1, connected) =>
  if connected then
    let G2 := { G1 with not_spanning_edges_levels :=
      (G1.not_spanning_edges_levels.set (u_, v_) 0).set (v_, u_) 0 }
    (G2.adjInsert 0 u_ v_).bind fun G3 =>
    (G3.adjInsert 0 v_ u_).bind fun G4 =>
    (G4.selfNode 0 u_).bind fun (G5, uu) =>
    (G5.selfNode 0 v_).bind fun (G6, vv) =>
    (raise_adjacent G6.heap uu).bind fun h1 =>
    (raise_adjacent h1 vv).bind fun h2 =>
    some { G6 with heap := h2 }
  else
    let G2 := { G1 with components := G1.components - 1,
                        spanning_edges_levels :=
                          (G1.spanning_edges_levels.set (u_, v_) 0).set (v_, u_) 0 }
    G2.addEdgeAt 0 u_ v_ 0

/-- Block `if (root->is_min_level) { ... }` of `IncreaseLevel`: the tree edge of the node
`r` moves one level up. -/
def promote_tree_edge (G : DynamicGraph) (r : Nat) (nd : Node) : Option DynamicGraph :=
  (set_is_min_level G.heap r false).bind fun h1 =>
  let new_level := nd.level + 1
  let G1 := { G with heap := h1, mx_level := max G.mx_level new_level }
  let G2 := if new_level = (G1.spanning_trees.length : Int) then G1.build new_level
            else G1
  let u_ := nd.key.1
  let v_ := nd.key.2
  (G2.addEdgeAt new_level u_ v_ new_level).bind fun G3 =>
  some { G3 with spanning_edges_levels :=
    (G3.spanning_edges_levels.incr (u_, v_)).incr (v_, u_) }

/-- Method `IncreaseLevel(root)`. -/
def IncreaseLevel : Nat → DynamicGraph → Option Nat → Option DynamicGraph
  | _, G, none => some G
  | 0, _, some _ => none
  | f + 1, G, some r =>
    match G.heap.get r with
    | none => none
    | some nd =>
      if nd.size_of_min_level then
        let step1 : Option DynamicGraph :=
          if nd.is_min_level then promote_tree_edge G r nd else some G
        step1.bind fun G4 =>
        (G4.heap.get r).bind fun nd1 =>
        (IncreaseLevel f G4 nd1.left).bind fun G5 =>
        (G5.heap.get r).bind fun nd2 =>
        (IncreaseLevel f G5 nd2.right).bind fun G6 =>
        (update_up (G6.heap.next + 1) G6.heap (some r)).bind fun h2 =>
        some { G6 with heap := h2 }
      else some G

/-- Block of the first loop of `BruteforceAdjacentEdges` that takes the edge `{u_, to_}`
as the replacement: it leaves both adjacency sets. -/
def take_candidate (level : Int) (u_ to_ : Int) (G : DynamicGraph) : Option DynamicGraph :=
  (G.adjErase level u_ to_).bind fun G2 =>
  (G2.adjErase level to_ u_).bind fun G3 =>
  (G3.clearIfEmpty level u_ false).bind fun G4 =>
  G4.clearIfEmpty level to_ true

/-- First loop of `BruteforceAdjacentEdges`, over the neighbours of `u_` still to visit;
returns the state, `to_delete` and `result`. -/
def scan_adjacent (level : Int) (u_ : Int) :
    List Int → DynamicGraph → List Int → Option (DynamicGraph × List Int × (Int × Int))
  | [], G, to_delete => some (G, to_delete, (-1, -1))
  | to_ :: rest, G, to_delete =>
    (G.connectedAt 0 to_ u_).bind fun (G1, c) =>
    if c then scan_adjacent level u_ rest G1 (to_delete ++ [to_])
    else (take_candidate level u_ to_ G1).bind fun G5 => some (G5, to_delete, (u_, to_))

/-- Body of the second loop of `BruteforceAdjacentEdges`: the non-tree edge `{u_, to_}`
moves one level up. -/
def promote_nontree_edge (level : Int) (u_ to_ : Int) (G : DynamicGraph) :
    Option DynamicGraph :=
  let new_level := level + 1
  let G1 := { G with mx_level := max G.mx_level new_level }
  let G2 := if new_level = (G1.spanning_trees.length : Int) then G1.build new_level else G1
  (G2.adjErase level u_ to_).bind fun G3 =>
  (G3.adjErase level to_ u_).bind fun G4 =>
  (G4.adjInsert new_level u_ to_).bind fun G5 =>
  (G5.adjInsert new_level to_ u_).bind fun G6 =>
  (G6.selfNode new_level u_).bind fun (G7, ffu) =>
  (raise_adjacent G7.heap ffu).bind fun h1 =>
  let G8 := { G7 with heap := h1 }
  (G8.selfNode new_level to_).bind fun (G9, ffto) =>
  (raise_adjacent G9.heap ffto).bind fun h2 =>
  let G10 := { G9 with heap := h2,
                       not_spanning_edges_levels :=
                         (G9.not_spanning_edges_levels.incr (u_, to_)).incr (to_, u_) }
  G10.clearIfEmpty level to_ true

/-- Second loop of `BruteforceAdjacentEdges`, over `to_delete`. -/
def promote_adjacent (level : Int) (u_ : Int) : List Int → DynamicGraph → Option DynamicGraph
  | [], G => some G
  | to_ :: rest, G =>
    (promote_nontree_edge level u_ to_ G).bind fun G11 => promote_adjacent level u_ rest G11

/-- Block `if (root->is_has_adjacent) { ... }` of `BruteforceAdjacentEdges`: the adjacency
set of the vertex of the node is scanned, then the edges found inside the tree move up. -/
def visit_adjacent (G : DynamicGraph) (nd : Node) (level : Int) :
    Option (DynamicGraph × (Int × Int)) :=
  let u_ := nd.key.1
  (G.forest level).bind fun F =>
  (scan_adjacent level u_ (F.adjacent_edges u_) G []).bind fun (G1, to_delete, result1) =>
  (promote_adjacent level u_ to_delete G1).bind fun G2 =>
  (G2.clearIfEmpty level u_ false).bind fun G3 =>
  some (G3, result1)

/-- Method `BruteforceAdjacentEdges(root, result, level)`; returns the state and `result`. -/
def BruteforceAdjacentEdges : Nat → DynamicGraph → Option Nat → Int × Int → Int →
    Option (DynamicGraph × (Int × Int))
  | _, G, none, result, _ => some (G, result)
  | 0, _, some _, _, _ => none
  | f + 1, G, some r, result, level =>
    if result ≠ (-1, -1) then some (G, result)
    else
      match G.heap.get r with
      | none => none
      | some nd =>
        if nd.size_of_adjacent then
          let step1 : Option (DynamicGraph × (Int × Int)) :=
            if nd.is_has_adjacent then visit_adjacent G nd level else some (G, result)
          step1.bind fun (G4, result2) =>
          (G4.heap.get r).bind fun nd1 =>
          (BruteforceAdjacentEdges f G4 nd1.left result2 level).bind fun (G5, result3) =>
          (G5.heap.get r).bind fun nd2 =>
          (BruteforceAdjacentEdges f G5 nd2.right result3 level).bind fun (G6, result4) =>
          (update_up (G6.heap.next + 1) G6.heap (some r)).bind fun h2 =>
          some ({ G6 with heap := h2 }, result4)
        else some (G, result)

/-- Loop `for (lvl = level; lvl >= 0; --lvl) spanning_trees[lvl]->add_edge(a, b, level)`,
entered with `lvl = k`. -/
def add_edge_down (a b level : Int) : Nat → DynamicGraph → Option DynamicGraph
  | 0, G => G.addEdgeAt 0 a b level
  | k + 1, G => (G.addEdgeAt ((k : Int) + 1) a b level).bind fun G1 => add_edge_down a b level k G1

/-- Loop `for (lvl = current_level; lvl >= 0; --lvl) spanning_trees[lvl]->delete_edge(a, b)`,
entered with `lvl = k`. -/
def delete_edge_down (a b : Int) : Nat → DynamicGraph → Option DynamicGraph
  | 0, G => G.deleteEdgeAt 0 a b
  | k + 1, G => (G.deleteEdgeAt ((k : Int) + 1) a b).bind fun G1 => delete_edge_down a b k G1

/-- Method `FindNewEdge(u_, v_, level, okay)`; the fuel bounds the recursion on `level`. -/
def FindNewEdge : Nat → DynamicGraph → Int → Int → Int → Bool → Option (DynamicGraph × Bool)
  | 0, _, _, _, _, _ => none
  | f + 1, G, u_, v_, level, okay =>
    if okay then some (G, okay)
    else
      (G.selfNode level u_).bind fun (G1, pu) =>
      (G1.selfNode level v_).bind fun (G2, pv) =>
      (lift (G2.heap.next + 1) G2.heap pu).bind fun u_pointer =>
      (lift (G2.heap.next + 1) G2.heap pv).bind fun v_pointer =>
      (get_size G2.heap u_pointer).bind fun su =>
      (get_size G2.heap v_pointer).bind fun sv =>
      let u_pointer1 := if su > sv then v_pointer else u_pointer
      (IncreaseLevel (G2.heap.next + 1) G2 u_pointer1).bind fun G3 =>
      (BruteforceAdjacentEdges (G3.heap.next + 1) G3 u_pointer1 (-1, -1) level).bind
        fun (G4, result) =>
      if result = (-1, -1) then
        if level = 0 then some (G4, okay)
        else FindNewEdge f G4 u_ v_ (level - 1) okay
      else
        let G5 := { G4 with
          spanning_edges_levels :=
            (G4.spanning_edges_levels.set result level).set (result.2, result.1) level,
          not_spanning_edges_levels :=
            (G4.not_spanning_edges_levels.erase result).erase (result.2, result.1) }
        (if 0 ≤ level then add_edge_down result.1 result.2 level level.toNat G5 else some G5).bind
          fun G6 => some (G6, true)

def RemoveEdge (G : DynamicGraph) (u_ v_ : Int) : Option DynamicGraph :=
  if G.not_spanning_edges_levels.count (u_, v_) ≠ 0 then
    let (m1, current_level) := G.not_spanning_edges_levels.at (u_, v_)
    let G1 := { G with not_spanning_edges_levels := (m1.erase (u_, v_)).erase (v_, u_) }
    (G1.adjErase current_level u_ v_).bind fun G2 =>
    (G2.adjErase current_level v_ u_).bind fun G3 =>
    (G3.clearIfEmpty current_level u_ true).bind fun G4 =>
    G4.clearIfEmpty current_level v_ true
  else if G.spanning_edges_levels.count (u_, v_) ≠ 0 then
    let (m1, current_level) := G.spanning_edges_levels.at (u_, v_)
    let G1 := { G with spanning_edges_levels := m1 }
    (if 0 ≤ current_level then delete_edge_down u_ v_ current_level.toNat G1 else some G1).bind
      fun G2 =>
    (FindNewEdge (current_level.toNat + 1) G2 u_ v_ current_level false).bind fun (G3, okay) =>
    let G4 := { G3 with spanning_edges_levels :=
      (G3.spanning_edges_levels.erase (u_, v_)).erase (v_, u_) }
    if okay = false then some { G4 with components := G4.components + 1 } else some G4
  else
    some { G with cout := G.cout ++ ["impossible\n"] }

def IsConnected (G : DynamicGraph) (u_ v_ : Int) : Option (DynamicGraph × Bool) :=
  G.connectedAt 0 u_ v_

def GetComponentsNumber (G : DynamicGraph) : Int := G.components

def GetMax (G : DynamicGraph) : Int := G.mx_level

/-- Shape of a treap: the pointers of its nodes, as a binary tree. -/
inductive Tree where
  | nil : Tree
  | node (l : Tree) (p : Nat) (r : Tree) : Tree

def Tree.root : Tree → Option Nat
  | .nil => none
  | .node _ p _ => some p

/-- In-order sequence of the node pointers. -/
def Tree.toList : Tree → List Nat
  | .nil => []
  | .node l p r => l.toList ++ p :: r.toList

def Tree.size : Tree → Nat
  | .nil => 0
  | .node l _ r => l.size + r.size + 1

/-- The node at `q`, when `q` is not null, is live and has parent field `par`. -/
def ParentIs (h : Heap) (q : Option Nat) (par : Option Nat) : Prop :=
  ∀ x, q = some x → ∃ nd, h.get x = some nd ∧ nd.parent = par

/-- The heap holds the treap `t`: child links, parent links below the root and size
fields are those of `t`. The parent field of the root itself is left open. -/
def ShapeU (h : Heap) : Tree → Prop
  | .nil => True
  | .node l p r => ∃ nd, h.get p = some nd ∧ nd.left = l.root ∧ nd.right = r.root ∧
      nd.size = ((l.size + r.size + 1 : Nat) : Int) ∧
      ShapeU h l ∧ ShapeU h r ∧ ParentIs h l.root (some p) ∧ ParentIs h r.root (some p)

/-- Both subtree aggregates of the node at `p` are the OR of its own flag with the
aggregates of its children. -/
def Cons (h : Heap) (p : Nat) : Prop :=
  ∃ nd ml mr al ar, h.get p = some nd ∧
    get_size_min_level h nd.left = some ml ∧ get_size_min_level h nd.right = some mr ∧
    get_size_adjacent h nd.left = some al ∧ get_size_adjacent h nd.right = some ar ∧
    nd.size_of_min_level = (ml || mr || nd.is_min_level) ∧
    nd.size_of_adjacent = (al || ar || nd.is_has_adjacent)

/-- The fields of a node that the treap operations never write. -/
def Node.data (nd : Node) : (Int × Int) × Int × Int × Bool × Bool :=
  (nd.key, nd.priority, nd.level, nd.is_min_level, nd.is_has_adjacent)

/-- The link and size fields of a node. -/
def Node.links (nd : Node) : Option Nat × Option Nat × Option Nat × Int :=
  (nd.left, nd.right, nd.parent, nd.size)

/-- Two heaps hold the same cells with the same data fields. -/
def DataEq (h h1 : Heap) : Prop :=
  h1.next = h.next ∧ ∀ p, (h1.get p).map Node.data = (h.get p).map Node.data

/-- Two heaps hold the same cells with the same link and size fields. -/
def LinksEq (h h1 : Heap) : Prop :=
  h1.next = h.next ∧ ∀ p, (h1.get p).map Node.links = (h.get p).map Node.links

/-- The fields of a node that the aggregate check of it or of its parent reads. -/
def Node.cview (nd : Node) : Option Nat × Option Nat × Bool × Bool × Bool × Bool :=
  (nd.left, nd.right, nd.size_of_min_level, nd.size_of_adjacent, nd.is_min_level,
    nd.is_has_adjacent)

/-- No cell at or beyond the allocation counter is live. -/
def Heap.WF (h : Heap) : Prop := ∀ p, h.next ≤ p → h.get p = none

/-- Key of the node at `p`. -/
def keyOf (h : Heap) (p : Nat) : Int × Int :=
  match h.get p with
  | some nd => nd.key
  | none => (0, 0)

/-- A whole treap of the heap: its root has no parent and every aggregate is consistent. -/
def GoodTree (h : Heap) (t : Tree) : Prop :=
  ShapeU h t ∧ ParentIs h t.root none ∧ ∀ p ∈ t.toList, Cons h p

/-- The registry `m` names exactly the nodes of the treaps `ts`, each by its key, and the
treaps share no node. -/
structure FRep (h : Heap) (m : EdgeMap) (ts : List Tree) : Prop where
  good : ∀ t ∈ ts, GoodTree h t
  nodup : (ts.flatMap Tree.toList).Nodup
  reg : ∀ k p, m k = some (some p) ↔ (p ∈ ts.flatMap Tree.toList ∧ keyOf h p = k)
  nonull : ∀ k, m k ≠ some none

/-- Rotation of a sequence that brings index `k` to the front. -/
def rot (s : List Nat) (k : Nat) : List Nat := s.drop k ++ s.take k

/-- Euler tours of trees, as key sequences: a lone vertex; two tours joined by an edge,
each written from its endpoint of the edge; any rotation of a tour. -/
inductive ET : List (Int × Int) → Prop where
  | single (v : Int) : ET [(v, v)]
  | link (u v : Int) (A B : List (Int × Int)) : ET ((u, u) :: A) → ET ((v, v) :: B) →
      ET ((u, u) :: A ++ (u, v) :: ((v, v) :: B ++ [(v, u)]))
  | rot (s s1 : List (Int × Int)) : ET s → s.IsRotated s1 → ET s1

/-- Key sequence of a treap, in order. -/
def tourKeys (h : Heap) (t : Tree) : List (Int × Int) := t.toList.map (keyOf h)

/-- Number of vertices on a tour: the keys of the form `(v, v)`. -/
def selfCount (s : List (Int × Int)) : Nat := (s.filter (fun k => decide (k.1 = k.2))).length

/-- Operations of a script: `AddEdge(u, v)` and `RemoveEdge(u, v)`. -/
inductive Op where
  | add (u v : Int)
  | remove (u v : Int)

def applyOp (G : DynamicGraph) : Op → Option DynamicGraph
  | .add u v => AddEdge G u v
  | .remove u v => RemoveEdge G u v

/-- Run a script from a given state. -/
def runOps : List Op → DynamicGraph → Option DynamicGraph
  | [], G => some G
  | op :: rest, G => (applyOp G op).bind (runOps rest)

/-- Edge `{u, v}` is among the edges added and not yet removed. -/
def present (E : List (Int × Int)) (u v : Int) : Bool := E.contains (u, v) || E.contains (v, u)

/-- Edge set after one operation. -/
def stepEdges (E : List (Int × Int)) : Op → List (Int × Int)
  | .add u v => (u, v) :: E
  | .remove u v => E.filter (fun e => decide (e ≠ (u, v)) && decide (e ≠ (v, u)))

/-- Edge set after a script. -/
def edgesFrom : List (Int × Int) → List Op → List (Int × Int)
  | E, [] => E
  | E, op :: rest => edgesFrom (stepEdges E op) rest

/-- One operation is valid on `n` vertices with edge set `E`: both vertices in range and
distinct, an added edge absent, a removed edge present. -/
def validOp (n : Nat) (E : List (Int × Int)) : Op → Bool
  | .add u v => decide (0 ≤ u) && decide (u < n) && decide (0 ≤ v) && decide (v < n) &&
      decide (u ≠ v) && !present E u v
  | .remove u v => decide (0 ≤ u) && decide (u < n) && decide (0 ≤ v) && decide (v < n) &&
      decide (u ≠ v) && present E u v

/-- Every operation of the script is valid when its turn comes. -/
def validFrom (n : Nat) : List (Int × Int) → List Op → Bool
  | _, [] => true
  | E, op :: rest => validOp n E op && validFrom n (stepEdges E op) rest

/-- The undirected graph on the vertices `0 .. n-1` whose edges are the pairs added and not
yet removed. -/
def edgeGraph (n : Nat) (E : List (Int × Int)) : SimpleGraph (Fin n) where
  Adj a b := a ≠ b ∧ present E ((a : Nat) : Int) ((b : Nat) : Int) = true
  symm := fun a b h => ⟨h.1.symm, by
    have h2 := h.2
    simp only [present] at h2 ⊢
    rw [Bool.or_comm]
    exact h2⟩
  loopless := fun a h => h.1 rfl

/-- Largest value stored in a level map, `0` for an empty map. -/
def LevelMap.maxValue (m : LevelMap) : Int := m.foldl (fun acc e => max acc e.2) 0

/-- Largest level of an edge currently recorded in either level map. -/
def maxStoredLevel (G : DynamicGraph) : Int :=
  max (LevelMap.maxValue G.spanning_edges_levels) (LevelMap.maxValue G.not_spanning_edges_levels)

/-- Pointer part of `FRep`: the registry names exactly the nodes of the treaps, each treap
is well linked with a parentless root, and the treaps share no node. -/
structure FShape (h : Heap) (m : EdgeMap) (ts : List Tree) : Prop where
  shape : ∀ t ∈ ts, ShapeU h t ∧ ParentIs h t.root none
  nodup : (ts.flatMap Tree.toList).Nodup
  reg : ∀ k p, m k = some (some p) ↔ (p ∈ ts.flatMap Tree.toList ∧ keyOf h p = k)
  nonull : ∀ k, m k ≠ some none

/-- All node pointers of a list of treaps. -/
def nodesOf (ts : List Tree) : List Nat := ts.flatMap Tree.toList

/-- The treaps of level `l`. -/
def treesAt (tss : List (List Tree)) (l : Nat) : List Tree := (tss[l]?).getD []

/-- Representation invariant of the whole structure: forest `l` holds the treaps `tss[l]`;
aggregates are consistent at every node outside the set `D`; forests of different levels
share no node. -/
structure Rep (G : DynamicGraph) (tss : List (List Tree)) (D : Set Nat) : Prop where
  wf : G.heap.WF
  len : tss.length = G.spanning_trees.length
  flevel : ∀ (l : Nat) F, G.spanning_trees[l]? = some F → F.level = (l : Int)
  shape : ∀ (l : Nat) F, G.spanning_trees[l]? = some F → FShape G.heap F.map_edges (treesAt tss l)
  cons : ∀ l p, p ∈ nodesOf (treesAt tss l) → p ∉ D → Cons G.heap p
  sep : ∀ l1 l2 p, l1 ≠ l2 → p ∈ nodesOf (treesAt tss l1) → p ∉ nodesOf (treesAt tss l2)

/-- What the graph algorithm sees of a state: the level maps, the tours of every forest as
key sequences, the adjacency sets and the flags of the node registered under each key. -/
@[ext] structure View where
  n : Int
  L : Nat
  mx : Int
  comps : Int
  lvT : LevelMap
  lvN : LevelMap
  tours : Nat → List (List (Int × Int))
  adj : Nat → Int → List Int
  dat : Nat → Int × Int → Option (Bool × Bool × Int)

/-- Flags `(is_min_level, is_has_adjacent, level)` of the node registered under `k`. -/
def datOf (h : Heap) (F : DynamicForest) (k : Int × Int) : Option (Bool × Bool × Int) :=
  match F.map_edges k with
  | some (some p) => (h.get p).map (fun nd => (nd.is_min_level, nd.is_has_adjacent, nd.level))
  | _ => none

def viewOf (G : DynamicGraph) (tss : List (List Tree)) : View :=
  { n := G.n_, L := G.spanning_trees.length, mx := G.mx_level, comps := G.components,
    lvT := G.spanning_edges_levels, lvN := G.not_spanning_edges_levels,
    tours := fun l => (treesAt tss l).map (tourKeys G.heap),
    adj := fun l a =>
      match G.spanning_trees[l]? with
      | some F => F.adjacent_edges a
      | none => [],
    dat := fun l k =>
      match G.spanning_trees[l]? with
      | some F => datOf G.heap F k
      | none => none }

/-- Two vertices lie on one tour of the list. -/
def SameT (ts : List (List (Int × Int))) (a b : Int) : Prop :=
  ∃ s ∈ ts, (a, a) ∈ s ∧ (b, b) ∈ s

/-- Parameters of the invariant between the steps of one operation. -/
structure Par where
  /-- The edges added and not yet removed. -/
  E : List (Int × Int)
  /-- Levels at which a recorded tree edge may be registered. -/
  W : Int × Int → Nat → Prop
  /-- The tree edge under removal and the level down to which the search has come. -/
  pe : Option (Int × Int × Int)
  /-- Whether the edge under removal is already cut out of forest 0. -/
  sep : Bool
  /-- The replacement edge found by the search. -/
  r : Option (Int × Int)
  /-- Non-tree edges taken out of the adjacency sets while still recorded. -/
  Y : Int × Int → Prop
  /-- Levels and vertices whose adjacency flag may be set over an empty adjacency set. -/
  Z : Nat → Int → Prop
  /-- Number of trees of forest 0 minus `components`. -/
  dc : Int
  /-- Number of keys of the tree-edge map minus `2 * (n - components)`. -/
  dk : Int

/-- Parameters between operations. -/
def Par.normal (E : List (Int × Int)) : Par :=
  { E := E, W := fun _ _ => True, pe := none, sep := false, r := none, Y := fun _ => False,
    Z := fun _ _ => False, dc := 0, dk := 0 }

/-- Parameters while the tree edge `(u, v)` of level `cl` is cut out of the forests, from
the top level down: it is gone from the levels above `k`. -/
def Par.cutting (E : List (Int × Int)) (u v cl k : Int) : Par :=
  { E := E, W := fun key l => (key = (u, v) ∨ key = (v, u)) → (l : Int) ≤ k,
    pe := some (u, v, cl), sep := decide (k < 0), r := none, Y := fun _ => False,
    Z := fun _ _ => False, dc := if k < 0 then 1 else 0, dk := 0 }

/-- Parameters while a replacement for the tree edge `(u, v)` is searched at level `κ`;
`r` is the replacement once found. -/
def Par.search (E : List (Int × Int)) (u v κ : Int) (r : Option (Int × Int)) : Par :=
  { E := E, W := fun key _ => key ≠ (u, v) ∧ key ≠ (v, u),
    pe := some (u, v, κ), sep := true, r := r, Y := fun k => r = some k,
    Z := fun _ _ => False, dc := 1, dk := 0 }

/-- Parameters while the replacement `(x, y)` is linked into the forests, from its level
down: it is registered at the levels above `k`. -/
def Par.linking (E : List (Int × Int)) (u v x y k : Int) : Par :=
  { E := E,
    W := fun key l => (key ≠ (u, v) ∧ key ≠ (v, u)) ∧
      ((key = (x, y) ∨ key = (y, x)) → k < (l : Int)),
    pe := some (u, v, k), sep := decide (0 ≤ k), r := none, Y := fun _ => False,
    Z := fun _ _ => False, dc := if 0 ≤ k then 1 else 0, dk := 2 }

/-- Relation required of the endpoints of a non-tree edge of level `l`: on one tour, or on
the two tours left by the edge under removal when the search has not yet passed `l`. -/
def Joined (V : View) (pe : Option (Int × Int × Int)) (l : Nat) (a b : Int) : Prop :=
  SameT (V.tours l) a b ∨
  ∃ u v κ, pe = some (u, v, κ) ∧ (l : Int) ≤ κ ∧
    ((SameT (V.tours l) a u ∧ SameT (V.tours l) v b) ∨
     (SameT (V.tours l) a v ∧ SameT (V.tours l) u b))

/-- The invariant of the level structure, over a view. -/
structure Abs (V : View) (P : Par) : Prop where
  n_nonneg : 0 ≤ V.n
  mx_len : (V.L : Int) = V.mx + 1
  mx_nonneg : 0 ≤ V.mx
  keysT : (V.lvT.map Prod.fst).Nodup
  keysN : (V.lvN.map Prod.fst).Nodup
  symT : ∀ a b, V.lvT.find (a, b) = V.lvT.find (b, a)
  symN : ∀ a b, V.lvN.find (a, b) = V.lvN.find (b, a)
  excl : ∀ k, (V.lvT.find k).isSome → V.lvN.find k = none
  rngT : ∀ a b lv, V.lvT.find (a, b) = some lv →
    a ≠ b ∧ 0 ≤ a ∧ a < V.n ∧ 0 ≤ b ∧ b < V.n ∧ 0 ≤ lv ∧ lv ≤ V.mx
  rngN : ∀ a b lv, V.lvN.find (a, b) = some lv →
    a ≠ b ∧ 0 ≤ a ∧ a < V.n ∧ 0 ≤ b ∧ b < V.n ∧ 0 ≤ lv ∧ lv ≤ V.mx
  pres : ∀ a b, present P.E a b = true ↔
    ((V.lvT.find (a, b)).isSome ∨ (V.lvN.find (a, b)).isSome)
  beyond : ∀ l, V.L ≤ l → V.tours l = []
  et : ∀ l s, s ∈ V.tours l → ET s
  nodup : ∀ l, (V.tours l).flatten.Nodup
  verts : ∀ l, l < V.L → ∀ a, (a, a) ∈ (V.tours l).flatten ↔ (0 ≤ a ∧ a < V.n)
  reg : ∀ (l : Nat), l < V.L → ∀ a b, a ≠ b → ((a, b) ∈ (V.tours l).flatten ↔
    ((∃ lv, V.lvT.find (a, b) = some lv ∧ (l : Int) ≤ lv) ∧ P.W (a, b) l))
  size : ∀ l s, s ∈ V.tours l → 2 ^ l * (selfCount s : Int) ≤ V.n
  psize : ∀ u v κ, P.pe = some (u, v, κ) → ∀ (l : Nat) s1 s2, (l : Int) ≤ κ →
    s1 ∈ V.tours l → s2 ∈ V.tours l → (u, u) ∈ s1 → (v, v) ∈ s2 → (v, v) ∉ s1 →
    2 ^ l * ((selfCount s1 : Int) + (selfCount s2 : Int)) ≤ V.n
  sep0 : ∀ u v κ, P.pe = some (u, v, κ) → P.sep = true → ¬ SameT (V.tours 0) u v
  dat_iff : ∀ l k, (V.dat l k).isSome ↔ k ∈ (V.tours l).flatten
  dself : ∀ l a m f x, V.dat l (a, a) = some (m, f, x) →
    m = false ∧ (V.adj l a ≠ [] → f = true) ∧ (f = true → V.adj l a ≠ [] ∨ P.Z l a)
  dedge : ∀ (l : Nat) a b m f x, a ≠ b → V.dat l (a, b) = some (m, f, x) →
    f = false ∧ (m = true ↔ (a < b ∧ V.lvT.find (a, b) = some (l : Int))) ∧
    (m = true → x = (l : Int))
  adj_sound : ∀ (l : Nat) a b, b ∈ V.adj l a → V.lvN.find (a, b) = some (l : Int)
  adj_compl : ∀ (l : Nat) a b, V.lvN.find (a, b) = some (l : Int) →
    b ∈ V.adj l a ∨ P.Y (a, b) ∨ P.Y (b, a)
  adj_out : ∀ a b, P.Y (a, b) → ∀ l, b ∉ V.adj l a ∧ a ∉ V.adj l b
  adj_nodup : ∀ l a, (V.adj l a).Nodup
  conn : ∀ a b (l : Nat), V.lvN.find (a, b) = some (l : Int) → Joined V P.pe l a b
  cnt1 : V.comps + P.dc = ((V.tours 0).length : Int)
  cnt2 : 2 * (V.n - V.comps) + P.dk = (V.lvT.length : Int)
  rfact : ∀ a b, P.r = some (a, b) → P.Y (a, b) ∧ ¬ SameT (V.tours 0) a b ∧
    ∀ u v κ, P.pe = some (u, v, κ) → V.lvN.find (a, b) = some κ
  pefact : ∀ u v κ, P.pe = some (u, v, κ) →
    u ≠ v ∧ -1 ≤ κ ∧ κ ≤ V.mx ∧ (V.lvT.find (u, v)).isSome

/-- The subtrees of a treap. -/
inductive Tree.Sub : Tree → Tree → Prop where
  | refl (t : Tree) : Tree.Sub t t
  | left {s l r : Tree} {p : Nat} : Tree.Sub s l → Tree.Sub s (.node l p r)
  | right {s l r : Tree} {p : Nat} : Tree.Sub s r → Tree.Sub s (.node l p r)

/-- The view with the tours and node flags of level `l` replaced. -/
def View.setLevel (V : View) (l : Nat) (ts : List (List (Int × Int)))
    (d : Int × Int → Option (Bool × Bool × Int)) : View :=
  { V with tours := fun l1 => if l1 = l then ts else V.tours l1,
           dat := fun l1 k => if l1 = l then d k else V.dat l1 k }

/-- The view after `add_edge(a, b, lvl)` on forest `l`: the tours of `a` and `b`, written
from their self-nodes, are joined through the two new edge nodes. -/
def View.link (V : View) (l : Nat) (a b lvl : Int) (A B : List (Int × Int))
    (rest : List (List (Int × Int))) : View :=
  V.setLevel l (((a, a) :: A ++ (a, b) :: ((b, b) :: B ++ [(b, a)])) :: rest)
    (fun k => if k = (b, a) then some (decide ((l : Int) = lvl) && decide (b < a), false, lvl)
      else if k = (a, b) then some (decide ((l : Int) = lvl) && decide (a < b), false, lvl)
      else V.dat l k)

/-- The view after `delete_edge(a, b)` on forest `l`: one tour falls into two. -/
def View.cut (V : View) (l : Nat) (a b : Int) (S U : List (Int × Int))
    (rest : List (List (Int × Int))) : View :=
  V.setLevel l (S :: U :: rest)
    (fun k => if k = (a, b) ∨ k = (b, a) then none else V.dat l k)

/-- The view after a write to the flags of the node registered under `k` at level `l`. -/
def View.setDat (V : View) (l : Nat) (k : Int × Int) (d : Bool × Bool × Int) : View :=
  { V with dat := fun l1 k1 => if l1 = l ∧ k1 = k then some d else V.dat l1 k1 }

/-- The view after a write to the adjacency set of `a` at level `l`. -/
def View.setAdj (V : View) (l : Nat) (a : Int) (xs : List Int) : View :=
  { V with adj := fun l1 a1 => if l1 = l ∧ a1 = a then xs else V.adj l1 a1 }

/-- The view after the block `if (adjacent_edges[a].empty()) flag(a) = false` at level `l`. -/
def View.clr (V : View) (l : Nat) (a : Int) : View :=
  { V with dat := fun l1 k => if l1 = l ∧ k = (a, a) ∧ V.adj l a = [] then
      (V.dat l1 k).map (fun d => (d.1, false, d.2.2)) else V.dat l1 k }

/-- The view after `is_has_adjacent` of the vertex `a` is set at level `l`. -/
def View.raise (V : View) (l : Nat) (a : Int) : View :=
  { V with dat := fun l1 k => if l1 = l ∧ k = (a, a) then
      (V.dat l1 k).map (fun d => (d.1, true, d.2.2)) else V.dat l1 k }

/-- The view after `is_min_level` of the node registered under `k` is cleared at level `l`. -/
def View.unmin (V : View) (l : Nat) (k : Int × Int) : View :=
  { V with dat := fun l1 k1 => if l1 = l ∧ k1 = k then
      (V.dat l1 k1).map (fun d => (false, d.2.1, d.2.2)) else V.dat l1 k1 }

/-- The view after both directions of the edge `{a, b}` leave the adjacency sets of level
`l`. -/
def View.erase2 (V : View) (l : Nat) (a b : Int) : View :=
  { V with adj := fun l1 c => if l1 = l ∧ c = b then set_erase (V.adj l b) a
      else if l1 = l ∧ c = a then set_erase (V.adj l a) b else V.adj l1 c }

/-- The view after both directions of the edge `{a, b}` enter the adjacency sets of level
`l`. -/
def View.insert2 (V : View) (l : Nat) (a b : Int) : View :=
  { V with adj := fun l1 c => if l1 = l ∧ c = b then set_insert (V.adj l b) a
      else if l1 = l ∧ c = a then set_insert (V.adj l a) b else V.adj l1 c }

/-- The view after `build`: one more forest, of single vertices. -/
def View.build (V : View) : View :=
  { V with L := V.L + 1,
           tours := fun l => if l = V.L then
               (List.range V.n.toNat).map (fun (i : Nat) => [((i : Int), (i : Int))])
             else V.tours l,
           dat := fun l k => if l = V.L then
               (if k.1 = k.2 ∧ 0 ≤ k.1 ∧ k.1 < V.n then some (false, false, -1) else none)
             else V.dat l k,
           adj := fun l a => if l = V.L then [] else V.adj l a }

/-- The node registered under `k` at level `l`, if any, does not carry `is_min_level`. -/
def NoMin (V : View) (l : Nat) (k : Int × Int) : Prop :=
  ∀ m f x, V.dat l k = some (m, f, x) → m = false

/-- The node registered under `k` at level `l`, if any, does not carry `is_has_adjacent`. -/
def NoAdj (V : View) (l : Nat) (k : Int × Int) : Prop :=
  ∀ m f x, V.dat l k = some (m, f, x) → f = false

/-- What a step of `IncreaseLevel` at level `κ` keeps. -/
def StepI (κ : Nat) (V V1 : View) : Prop :=
  V1.tours κ = V.tours κ ∧ V1.n = V.n ∧ ∀ k, NoMin V κ k → NoMin V1 κ k

/-- What a step of `BruteforceAdjacentEdges` at level `κ` keeps. -/
def StepB (κ : Nat) (V V1 : View) : Prop :=
  V1.tours = V.tours ∧ V1.L = V.L ∧ V1.n = V.n ∧ ∀ k, NoAdj V κ k → NoAdj V1 κ k

/-- All vertices of the tour `s` lie on one tour of level `κ + 1`. -/
def Up1 (V : View) (κ : Nat) (s : List (Int × Int)) : Prop :=
  ∀ a b, (a, a) ∈ s → (b, b) ∈ s → a ≠ b → κ + 1 < V.L ∧ SameT (V.tours (κ + 1)) a b

/-- The replacement edge carried by `result`, where `(-1, -1)` stands for none. -/
def candidate (res : Int × Int) : Option (Int × Int) :=
  if res = (-1, -1) then none else some res

/-- The invariant of the states between operations. -/
def Inv (G : DynamicGraph) (n : Nat) (E : List (Int × Int)) : Prop :=
  G.n_ = (n : Int) ∧ ∃ tss, Rep G tss ∅ ∧ Abs (viewOf G tss) (Par.normal E)

/-- Every field of a node but the four flags: key, priority, level, links and size. -/
def Node.skel (nd : Node) :
    (Int × Int) × Int × Int × Option Nat × Option Nat × Option Nat × Int :=
  (nd.key, nd.priority, nd.level, nd.left, nd.right, nd.parent, nd.size)

/-- Two heaps hold the same cells and agree on every field but the flags. -/
def SkelEq (h h1 : Heap) : Prop :=
  h1.next = h.next ∧ ∀ p, (h1.get p).map Node.skel = (h.get p).map Node.skel

/-- The heap with every flag of every node cleared. -/
def Heap.unflag (h : Heap) : Heap :=
  { cells := fun p => (h.cells p).map (fun nd =>
      { nd with size_of_min_level := false, size_of_adjacent := false,
                is_min_level := false, is_has_adjacent := false }),
    next := h.next }

/-- Priority of the node at `p`. -/
def prioOf (h : Heap) (p : Nat) : Int :=
  match h.get p with
  | some nd => nd.priority
  | none => 0

/-- Heap order with the least priority on top: the priority of every node is at most the
priority of each of its children. -/
def MinHeapOrd (h : Heap) : Tree → Prop
  | .nil => True
  | .node l p r =>
    (∀ c, (l.root = some c ∨ r.root = some c) → prioOf h p ≤ prioOf h c) ∧
    MinHeapOrd h l ∧ MinHeapOrd h r

/-- Heap order with the greatest priority on top: the priority of every node is at least
the priority of each of its children. -/
def MaxHeapOrd (h : Heap) : Tree → Prop
  | .nil => True
  | .node l p r =>
    (∀ c, (l.root = some c ∨ r.root = some c) → prioOf h c ≤ prioOf h p) ∧
    MaxHeapOrd h l ∧ MaxHeapOrd h r

/-- A node with all flags clear and level 0, for the examples. -/
def exNode (key : Int × Int) (size priority : Int) (left right parent : Option Nat) : Node :=
  { key := key, size := size, size_of_min_level := false, size_of_adjacent := false,
    is_min_level := false, is_has_adjacent := false, level := 0, priority := priority,
    left := left, right := right, parent := parent }

/-- Example heap: the one-node treaps of vertex 0 (priority 1) and vertex 1 (priority 2). -/
def exHeapLR : Heap :=
  { cells := fun p =>
      if p = 0 then some (exNode (0, 0) 1 1 none none none)
      else if p = 1 then some (exNode (1, 1) 1 2 none none none)
      else none,
    next := 2 }

/-- Example heap: one treap of two nodes, node 0 on top with node 1 as its right child. -/
def exHeapPair : Heap :=
  { cells := fun p =>
      if p = 0 then some (exNode (0, 0) 2 1 none (some 1) none)
      else if p = 1 then some (exNode (1, 1) 1 2 none none (some 0))
      else none,
    next := 2 }

/-- Example forest over `exHeapLR`: the vertices 0 and 1, each a tree of its own. -/
def exForestLR : DynamicForest :=
  { map_edges := fun k =>
      if k = (0, 0) then some (some 0)
      else if k = (1, 1) then some (some 1)
      else none,
    adjacent_edges := fun _ => [],
    level := 0 }

/-- Example heap: one treap holding the Euler tour `(0,0) (0,1) (1,1) (1,0)` of the tree with
the single edge `{0, 1}`, as a right spine of the nodes 0, 2, 1, 3. -/
def exHeapTour : Heap :=
  { cells := fun p =>
      if p = 0 then some (exNode (0, 0) 4 1 none (some 2) none)
      else if p = 2 then some (exNode (0, 1) 3 2 none (some 1) (some 0))
      else if p = 1 then some (exNode (1, 1) 2 3 none (some 3) (some 2))
      else if p = 3 then some (exNode (1, 0) 1 4 none none (some 1))
      else none,
    next := 4 }

/-- Example forest over `exHeapTour`: the registry of its four nodes. -/
def exForestTour : DynamicForest :=
  { map_edges := fun k =>
      if k = (0, 0) then some (some 0)
      else if k = (0, 1) then some (some 2)
      else if k = (1, 1) then some (some 1)
      else if k = (1, 0) then some (some 3)
      else none,
    adjacent_edges := fun _ => [],
    level := 0 }

/-- The treap of `exHeapTour`. -/
def exTreeTour : Tree :=
  .node .nil 0 (.node .nil 2 (.node .nil 1 (.node .nil 3 .nil)))

/-- Node sequence of the treap under `root` as `BruteforceAdjacentEdges` and
`IncreaseLevel` walk it: the node, then its left subtree, then its right subtree. -/
def preorderOf : Nat → Heap → Option Nat → List Nat
  | _, _, none => []
  | 0, _, some _ => []
  | f + 1, h, some p =>
    match h.get p with
    | none => []
    | some nd => p :: (preorderOf f h nd.left ++ preorderOf f h nd.right)

/-- Node sequence of the treap under `root` in sequence (in-order) order. -/
def inorderOf : Nat → Heap → Option Nat → List Nat
  | _, _, none => []
  | 0, _, some _ => []
  | f + 1, h, some p =>
    match h.get p with
    | none => []
    | some nd => inorderOf f h nd.left ++ p :: inorderOf f h nd.right

/-- Pre-order node sequence of a treap. -/
def Tree.preList : Tree → List Nat
  | .nil => []
  | .node l p r => p :: (l.preList ++ r.preList)

/-- The set `spanning_trees[level]->adjacent_edges[a]`, empty when there is no such
forest. -/
def DynamicGraph.adjAt (G : DynamicGraph) (level : Int) (a : Int) : List Int :=
  match G.forest level with
  | some F => F.adjacent_edges a
  | none => []

/-- The test of the first loop of `BruteforceAdjacentEdges`: the edge `{a, b}` replaces the
removed one when `spanning_trees[0]->is_connected(b, a)` is false. -/
def DynamicGraph.replaces (G : DynamicGraph) (a b : Int) : Bool :=
  match G.connectedAt 0 b a with
  | some (_, c) => !c
  | none => false

/-- The node `q` is the self-node of a vertex with a non-tree edge of level `level` that
replaces the removed edge. -/
def DynamicGraph.candidateNode (G : DynamicGraph) (level : Int) (q : Nat) : Bool :=
  let k := keyOf G.heap q
  decide (k.1 = k.2) && (G.adjAt level k.1).any (fun b => G.replaces k.1 b)

/-- The part of `FindNewEdge` before the call of `BruteforceAdjacentEdges`: the smaller of
the two trees is chosen and its tree edges of this level move up; returns the state and
the root handed to `BruteforceAdjacentEdges`. -/
def searchEntry (G : DynamicGraph) (u_ v_ level : Int) : Option (DynamicGraph × Option Nat) :=
  (G.selfNode level u_).bind fun (G1, pu) =>
  (G1.selfNode level v_).bind fun (G2, pv) =>
  (lift (G2.heap.next + 1) G2.heap pu).bind fun u_pointer =>
  (lift (G2.heap.next + 1) G2.heap pv).bind fun v_pointer =>
  (get_size G2.heap u_pointer).bind fun su =>
  (get_size G2.heap v_pointer).bind fun sv =>
  let u_pointer1 := if su > sv then v_pointer else u_pointer
  (IncreaseLevel (G2.heap.next + 1) G2 u_pointer1).bind fun G3 => some (G3, u_pointer1)

/-- The calls `BruteforceAdjacentEdges(root, result, level)` made by
`FindNewEdge(u_, v_, level, okay)` entered with `okay = false`, in order: the state at the
call, the root and the level. -/
def searchCalls : Nat → DynamicGraph → Int → Int → Int →
    List (DynamicGraph × Option Nat × Int)
  | 0, _, _, _, _ => []
  | f + 1, G, u_, v_, level =>
    match searchEntry G u_ v_ level with
    | none => []
    | some (G3, root) =>
      (G3, root, level) ::
        match BruteforceAdjacentEdges (G3.heap.next + 1) G3 root (-1, -1) level with
        | none => []
        | some (G4, result) =>
          if result = (-1, -1) then
            if level = 0 then [] else searchCalls f G4 u_ v_ (level - 1)
          else []

/-- The calls of `BruteforceAdjacentEdges` made by `RemoveEdge(u_, v_)`. -/
def removeSearches (G : DynamicGraph) (u_ v_ : Int) : List (DynamicGraph × Option Nat × Int) :=
  if G.not_spanning_edges_levels.count (u_, v_) ≠ 0 then []
  else if G.spanning_edges_levels.count (u_, v_) ≠ 0 then
    let (m1, current_level) := G.spanning_edges_levels.at (u_, v_)
    let G1 := { G with spanning_edges_levels := m1 }
    match (if 0 ≤ current_level then delete_edge_down u_ v_ current_level.toNat G1
           else some G1) with
    | none => []
    | some G2 => searchCalls (current_level.toNat + 1) G2 u_ v_ current_level
  else []

/-- The adjacency sets of level `κ` agree on every pair that `S` does not relate. -/
def CandKeep (S : Int → Int → Prop) (κ : Nat) (V V1 : View) : Prop :=
  ∀ x y, ¬ S y x → (y ∈ V1.adj κ x ↔ y ∈ V.adj κ x)

/-- The vertex `a` has a non-tree edge of level `κ` whose other end is not on its tour of
forest 0. -/
def CandV (V : View) (κ : Nat) (a : Int) : Prop :=
  ∃ b, b ∈ V.adj κ a ∧ ¬ SameT (V.tours 0) b a

/-- Example script on four vertices: the path 0 - 1 - 2 - 3 of tree edges and the two
non-tree edges `{0, 3}` and `{1, 3}`. -/
def exScript : List Op := [.add 0 1, .add 2 3, .add 1 2, .add 0 3, .add 1 3]

/-- Example stream of priorities: the `i`-th node drawn gets priority `i`. -/
def exPriorities : Nat → Int := fun i => (i : Int)

/-- The heap holds the treap `t` as far as `split` and `merge` read it: child links and
size fields are those of `t`; nothing is said of the parent links. -/
def ShapeC (h : Heap) : Tree → Prop
  | .nil => True
  | .node l p r => ∃ nd, h.get p = some nd ∧ nd.left = l.root ∧ nd.right = r.root ∧
      nd.size = ((l.size + r.size + 1 : Nat) : Int) ∧ ShapeC h l ∧ ShapeC h r

/-- Parent links of the treap `t` are consistent: the root has a null parent, and the
parent of every other node `p` is a node of the treap with `parent.left == p` or
`parent.right == p`. -/
def ParentLinked (h : Heap) (t : Tree) : Prop :=
  (∀ x, t.root = some x → ∃ nd, h.get x = some nd ∧ nd.parent = none) ∧
  ∀ p ∈ t.toList, t.root ≠ some p → ∃ nd q nq, h.get p = some nd ∧ nd.parent = some q ∧
    q ∈ t.toList ∧ h.get q = some nq ∧ (nq.left = some p ∨ nq.right = some p)

/-! ### Heap primitives -/

@[simp] theorem Heap.get_set (h : Heap) (p q : Nat) (nd : Node) :
    (h.set p nd).get q = if q = p then some nd else h.get q := rfl

@[simp] theorem Heap.next_set (h : Heap) (p : Nat) (nd : Node) : (h.set p nd).next = h.next := rfl

theorem Heap.get_set_self (h : Heap) (p : Nat) (nd : Node) : (h.set p nd).get p = some nd := by
  simp

theorem Heap.get_set_ne (h : Heap) {p q : Nat} (nd : Node) (hne : q ≠ p) :
    (h.set p nd).get q = h.get q := by
  simp [hne]

theorem Heap.ext_get {h h1 : Heap} (hn : h1.next = h.next) (hg : ∀ p, h1.get p = h.get p) :
    h1 = h := by
  cases h; cases h1
  simp only [Heap.get] at hg
  simp only at hn
  subst hn
  congr
  funext p
  exact hg p

theorem Heap.set_set (h : Heap) (p : Nat) (a b : Node) : (h.set p a).set p b = h.set p b := by
  apply Heap.ext_get
  · rfl
  · intro q; simp only [Heap.get_set]; split <;> rfl

theorem Heap.set_get_self (h : Heap) (p : Nat) (nd : Node) (hp : h.get p = some nd) :
    h.set p nd = h := by
  apply Heap.ext_get
  · rfl
  · intro q; simp only [Heap.get_set]; split
    · next he => rw [he, hp]
    · rfl

/-! ### Trees -/

theorem Tree.length_toList (t : Tree) : t.toList.length = t.size := by
  induction t with
  | nil => rfl
  | node l p r ihl ihr => simp [Tree.toList, Tree.size, ihl, ihr]; omega

theorem Tree.root_mem {t : Tree} {x : Nat} (hx : t.root = some x) : x ∈ t.toList := by
  cases t with
  | nil => simp [Tree.root] at hx
  | node l p r => simp [Tree.root] at hx; subst hx; simp [Tree.toList]

theorem Tree.root_eq_none {t : Tree} (hx : t.root = none) : t = .nil := by
  cases t with
  | nil => rfl
  | node l p r => simp [Tree.root] at hx

theorem Tree.toList_eq_nil {t : Tree} (hx : t.toList = []) : t = .nil := by
  cases t with
  | nil => rfl
  | node l p r => simp [Tree.toList] at hx

theorem ParentIs.none (h : Heap) (par : Option Nat) : ParentIs h none par := by
  intro x hx; cases hx

theorem ParentIs.congr_parent {h h1 : Heap} {q par : Option Nat}
    (hq : ∀ x, q = some x → h1.get x = h.get x) (hp : ParentIs h q par) : ParentIs h1 q par := by
  intro x hx
  obtain ⟨nd, h1', h2⟩ := hp x hx
  exact ⟨nd, by rw [hq x hx]; exact h1', h2⟩

/-- Nodes of a tree are live. -/
theorem ShapeU.live_shape {h : Heap} : ∀ {t : Tree}, ShapeU h t → ∀ p ∈ t.toList, ∃ nd, h.get p = some nd
  | .nil, _, p, hp => by simp [Tree.toList] at hp
  | .node l x r, hs, p, hp => by
    obtain ⟨nd, hg, _, _, _, hl, hr, _, _⟩ := hs
    simp only [Tree.toList, List.mem_append, List.mem_cons] at hp
    rcases hp with hp | hp | hp
    · exact ShapeU.live_shape hl p hp
    · subst hp; exact ⟨nd, hg⟩
    · exact ShapeU.live_shape hr p hp

theorem ShapeU.size_root {h : Heap} {t : Tree} (hs : ShapeU h t) :
    get_size h t.root = some (t.size : Int) := by
  cases t with
  | nil => rfl
  | node l x r =>
    obtain ⟨nd, hg, _, _, hsz, _⟩ := hs
    simp only [Tree.root, get_size, hg, Option.map_some', hsz, Tree.size]

/-- The shape predicate reads, at each node of the tree, the child links and the size,
and the parent link except at the root. -/
theorem ShapeU.congr_shape {h h1 : Heap} : ∀ {t : Tree}, t.toList.Nodup →
    (∀ q ∈ t.toList, ∀ nd, h.get q = some nd → ∃ nd1, h1.get q = some nd1 ∧
      nd1.left = nd.left ∧ nd1.right = nd.right ∧ nd1.size = nd.size ∧
      (t.root ≠ some q → nd1.parent = nd.parent)) →
    ShapeU h t → ShapeU h1 t
  | .nil, _, _, _ => trivial
  | .node l x r, hnd, hag, hs => by
    obtain ⟨nd, hg, hl, hr, hsz, hsl, hsr, hpl, hpr⟩ := hs
    simp only [Tree.toList] at hnd hag
    have hnd' := List.nodup_append.mp hnd
    have hxl : x ∉ l.toList := fun hm => hnd'.2.2 hm (List.mem_cons_self _ _)
    have hnr := (List.nodup_cons.mp hnd'.2.1)
    have hxr : x ∉ r.toList := hnr.1
    obtain ⟨nd1, hg1, e1, e2, e3, _⟩ := hag x (by simp) nd hg
    refine ⟨nd1, hg1, by rw [e1, hl], by rw [e2, hr], by rw [e3, hsz], ?_, ?_, ?_, ?_⟩
    · apply ShapeU.congr_shape hnd'.1 _ hsl
      intro q hq nd' hg'
      obtain ⟨nd1', a, b, c, d, e⟩ := hag q (by simp [hq]) nd' hg'
      exact ⟨nd1', a, b, c, d, fun _ => e (by simp [Tree.root]; rintro rfl; exact hxl hq)⟩
    · apply ShapeU.congr_shape hnr.2 _ hsr
      intro q hq nd' hg'
      obtain ⟨nd1', a, b, c, d, e⟩ := hag q (by simp [hq]) nd' hg'
      exact ⟨nd1', a, b, c, d, fun _ => e (by simp [Tree.root]; rintro rfl; exact hxr hq)⟩
    · intro y hy
      obtain ⟨ndy, hgy, hpy⟩ := hpl y hy
      have hym : y ∈ l.toList := Tree.root_mem hy
      obtain ⟨nd1', a, _, _, _, e⟩ := hag y (by simp [hym]) ndy hgy
      exact ⟨nd1', a, by rw [e (by simp [Tree.root]; rintro rfl; exact hxl hym), hpy]⟩
    · intro y hy
      obtain ⟨ndy, hgy, hpy⟩ := hpr y hy
      have hym : y ∈ r.toList := Tree.root_mem hy
      obtain ⟨nd1', a, _, _, _, e⟩ := hag y (by simp [hym]) ndy hgy
      exact ⟨nd1', a, by rw [e (by simp [Tree.root]; rintro rfl; exact hxr hym), hpy]⟩

theorem ShapeU.frame_shape {h h1 : Heap} {t : Tree} (hnd : t.toList.Nodup)
    (hag : ∀ q ∈ t.toList, h1.get q = h.get q) (hs : ShapeU h t) : ShapeU h1 t := by
  apply ShapeU.congr_shape hnd _ hs
  intro q hq nd hg
  exact ⟨nd, by rw [hag q hq]; exact hg, rfl, rfl, rfl, fun _ => rfl⟩

theorem DataEq.refl_data (h : Heap) : DataEq h h := ⟨rfl, fun _ => rfl⟩

theorem DataEq.trans_data {a b c : Heap} (h1 : DataEq a b) (h2 : DataEq b c) : DataEq a c :=
  ⟨h2.1.trans h1.1, fun p => (h2.2 p).trans (h1.2 p)⟩

theorem DataEq.symm {a b : Heap} (h1 : DataEq a b) : DataEq b a :=
  ⟨h1.1.symm, fun p => (h1.2 p).symm⟩

theorem DataEq.set_data {h : Heap} {x : Nat} {nd nd1 : Node} (hg : h.get x = some nd)
    (hd : nd1.data = nd.data) : DataEq h (h.set x nd1) := by
  refine ⟨rfl, fun p => ?_⟩
  simp only [Heap.get_set]
  split
  · next he => subst he; simp [hg, hd]
  · rfl

theorem DataEq.live_data {h h1 : Heap} (hd : DataEq h h1) {p : Nat} {nd : Node}
    (hg : h.get p = some nd) : ∃ nd1, h1.get p = some nd1 ∧ nd1.data = nd.data := by
  have := hd.2 p
  rw [hg] at this
  cases hq : h1.get p with
  | none => rw [hq] at this; simp at this
  | some nd1 => rw [hq] at this; simp at this; exact ⟨nd1, rfl, this⟩

theorem Heap.WF.set_wf {h : Heap} (hw : h.WF) {x : Nat} {nd : Node} (nd1 : Node)
    (hg : h.get x = some nd) : (h.set x nd1).WF := by
  intro p hp
  simp only [Heap.get_set]
  split
  · next he =>
    subst he
    have := hw p hp
    rw [hg] at this; cases this
  · exact hw p hp

theorem Heap.WF.lt {h : Heap} (hw : h.WF) {x : Nat} {nd : Node} (hg : h.get x = some nd) :
    x < h.next := by
  by_contra hc
  have := hw x (Nat.le_of_not_lt hc)
  rw [hg] at this; cases this

theorem Heap.WF.of_dataEq {h h1 : Heap} (hw : h.WF) (hd : DataEq h h1) : h1.WF := by
  intro p hp
  have h2 := hd.2 p
  rw [hw p (by rw [← hd.1]; exact hp)] at h2
  cases hq : h1.get p with
  | none => rfl
  | some nd => rw [hq] at h2; simp at h2

/-! ### Primitive writes -/

theorem set_parent_some {h : Heap} {x : Nat} {nd : Node} (hg : h.get x = some nd)
    (par : Option Nat) : set_parent h (some x) par = some (h.set x { nd with parent := par }) := by
  simp only [set_parent, hg]

theorem update_both_some {h : Heap} {x : Nat} {nd : Node} {sl sr : Int} {ml mr al ar : Bool}
    (hg : h.get x = some nd)
    (hsl : get_size h nd.left = some sl) (hsr : get_size h nd.right = some sr)
    (hml : get_size_min_level h nd.left = some ml) (hmr : get_size_min_level h nd.right = some mr)
    (hal : get_size_adjacent h nd.left = some al) (har : get_size_adjacent h nd.right = some ar) :
    update_both h (some x) = some (h.set x { nd with
      size := sl + sr + 1,
      size_of_min_level := (ml || mr || nd.is_min_level),
      size_of_adjacent := (al || ar || nd.is_has_adjacent) }) := by
  have e1 : update_size h (some x) = some (h.set x { nd with size := sl + sr + 1 }) := by
    simp only [update_size, hg, hsl, hsr]
  have key : ∀ (o : Option Nat),
      get_size_min_level (h.set x { nd with size := sl + sr + 1 }) o = get_size_min_level h o ∧
      get_size_adjacent (h.set x { nd with size := sl + sr + 1 }) o = get_size_adjacent h o := by
    intro o
    cases o with
    | none => exact ⟨rfl, rfl⟩
    | some q =>
      simp only [get_size_min_level, get_size_adjacent, Heap.get_set]
      by_cases hq : q = x
      · subst hq; simp [hg]
      · simp [hq]
  simp only [update_both, e1, Option.bind, update_size_flag, Heap.get_set_self,
    (key _).1, (key _).2, hml, hmr, hal, har, Heap.set_set]

/-- Children aggregates can be read at every node whose children are live. -/
theorem get_agg_live {h : Heap} {o : Option Nat} (hl : ∀ x, o = some x → ∃ nd, h.get x = some nd) :
    (∃ m, get_size_min_level h o = some m) ∧ (∃ a, get_size_adjacent h o = some a) := by
  cases o with
  | none => exact ⟨⟨false, rfl⟩, ⟨false, rfl⟩⟩
  | some x =>
    obtain ⟨nd, hg⟩ := hl x rfl
    simp [get_size_min_level, get_size_adjacent, hg]

/-- Children of a tree node are tree nodes. -/
theorem ShapeU.kids {h : Heap} : ∀ {t : Tree}, ShapeU h t → ∀ p ∈ t.toList, ∀ nd,
    h.get p = some nd →
    (∀ c, nd.left = some c → c ∈ t.toList) ∧ (∀ c, nd.right = some c → c ∈ t.toList)
  | .nil, _, p, hp, _, _ => by simp [Tree.toList] at hp
  | .node l x r, hs, p, hp, nd, hg => by
    obtain ⟨nd0, hg0, hl0, hr0, _, hsl, hsr, _, _⟩ := hs
    simp only [Tree.toList, List.mem_append, List.mem_cons] at hp ⊢
    rcases hp with hp | hp | hp
    · have := ShapeU.kids hsl p hp nd hg
      exact ⟨fun c hc => Or.inl (this.1 c hc), fun c hc => Or.inl (this.2 c hc)⟩
    · subst hp
      rw [hg0] at hg; cases hg
      constructor
      · intro c hc; rw [hl0] at hc; exact Or.inl (Tree.root_mem hc)
      · intro c hc; rw [hr0] at hc; exact Or.inr (Or.inr (Tree.root_mem hc))
    · have := ShapeU.kids hsr p hp nd hg
      exact ⟨fun c hc => Or.inr (Or.inr (this.1 c hc)), fun c hc => Or.inr (Or.inr (this.2 c hc))⟩

theorem get_agg_congr {h h1 : Heap} {o : Option Nat}
    (hc : ∀ x, o = some x → (h1.get x).map Node.cview = (h.get x).map Node.cview) :
    get_size_min_level h1 o = get_size_min_level h o ∧
    get_size_adjacent h1 o = get_size_adjacent h o := by
  cases o with
  | none => exact ⟨rfl, rfl⟩
  | some x =>
    have := hc x rfl
    simp only [get_size_min_level, get_size_adjacent]
    cases h1x : h1.get x with
    | none =>
      rw [h1x] at this
      cases hx : h.get x with
      | none => simp
      | some nd => rw [hx] at this; simp at this
    | some nd1 =>
      rw [h1x] at this
      cases hx : h.get x with
      | none => rw [hx] at this; simp at this
      | some nd =>
        rw [hx] at this
        simp only [Option.map_some', Option.some.injEq, Node.cview, Prod.mk.injEq] at this
        simp [this.2.2.1, this.2.2.2.1]

/-- The aggregate check at `p` reads the view of `p` and of its children. -/
theorem Cons.congr_cons {h h1 : Heap} {p : Nat}
    (hp : (h1.get p).map Node.cview = (h.get p).map Node.cview)
    (hk : ∀ nd, h.get p = some nd → ∀ c, (nd.left = some c ∨ nd.right = some c) →
      (h1.get c).map Node.cview = (h.get c).map Node.cview)
    (hc : Cons h p) : Cons h1 p := by
  obtain ⟨nd, ml, mr, al, ar, hg, hml, hmr, hal, har, e1, e2⟩ := hc
  rw [hg] at hp
  cases h1p : h1.get p with
  | none => rw [h1p] at hp; simp at hp
  | some nd1 =>
    rw [h1p] at hp
    simp only [Option.map_some', Option.some.injEq, Node.cview, Prod.mk.injEq] at hp
    obtain ⟨a1, a2, a3, a4, a5, a6⟩ := hp
    have kl := @get_agg_congr h h1 nd.left
      (fun x hx => hk nd hg x (Or.inl hx))
    have kr := @get_agg_congr h h1 nd.right
      (fun x hx => hk nd hg x (Or.inr hx))
    refine ⟨nd1, ml, mr, al, ar, h1p, ?_, ?_, ?_, ?_, ?_, ?_⟩
    · rw [a1, kl.1, hml]
    · rw [a2, kr.1, hmr]
    · rw [a1, kl.2, hal]
    · rw [a2, kr.2, har]
    · rw [a3, a5, e1]
    · rw [a4, a6, e2]

/-- Aggregate checks inside a tree survive writes that keep the views of its nodes. -/
theorem Cons.frame_tree {h h1 : Heap} {t : Tree} (hs : ShapeU h t)
    (hv : ∀ q ∈ t.toList, (h1.get q).map Node.cview = (h.get q).map Node.cview)
    {p : Nat} (hp : p ∈ t.toList) (hc : Cons h p) : Cons h1 p := by
  apply Cons.congr_cons (hv p hp) _ hc
  intro nd hg c hc'
  have := hs.kids p hp nd hg
  rcases hc' with hc' | hc'
  · exact hv c (this.1 c hc')
  · exact hv c (this.2 c hc')

/-- Refreshing a consistent root changes nothing. -/
theorem update_both_id {h : Heap} {t : Tree} (hs : ShapeU h t)
    (hc : ∀ x, t.root = some x → Cons h x) : update_both h t.root = some h := by
  cases t with
  | nil => rfl
  | node l x r =>
    obtain ⟨nd, ml, mr, al, ar, hg, hml, hmr, hal, har, e1, e2⟩ := hc x rfl
    obtain ⟨nd0, hg0, hl0, hr0, hsz, hsl, hsr, _, _⟩ := hs
    rw [hg] at hg0; cases hg0
    have s1 := hsl.size_root
    have s2 := hsr.size_root
    rw [← hl0] at s1
    rw [← hr0] at s2
    rw [Tree.root, update_both_some hg s1 s2 hml hmr hal har]
    congr 1
    apply Heap.set_get_self
    rw [hg]
    congr 1
    cases nd
    simp only [Node.mk.injEq, true_and, and_true] at *
    refine ⟨?_, ?_, ?_⟩
    · rw [hsz]; push_cast; ring
    · exact e1
    · exact e2

theorem cview_of_eq {h h1 : Heap} {q : Nat} (he : h1.get q = h.get q) :
    (h1.get q).map Node.cview = (h.get q).map Node.cview := by rw [he]

/-- Writing the parent field of the root of a tree. -/
theorem set_parent_root {h : Heap} {t : Tree} (par : Option Nat) (hs : ShapeU h t)
    (hnd : t.toList.Nodup) :
    ∃ h1, set_parent h t.root par = some h1 ∧ ShapeU h1 t ∧ ParentIs h1 t.root par ∧
      (∀ q, t.root ≠ some q → h1.get q = h.get q) ∧
      (∀ q, (h1.get q).map Node.cview = (h.get q).map Node.cview) ∧ DataEq h h1 := by
  cases t with
  | nil =>
    exact ⟨h, rfl, trivial, ParentIs.none _ _, fun _ _ => rfl, fun _ => rfl, DataEq.refl_data h⟩
  | node l x r =>
    obtain ⟨nd, hg, hl0, hr0, hsz, hsl, hsr, hpl, hpr⟩ := hs
    have hs : ShapeU h (.node l x r) := ⟨nd, hg, hl0, hr0, hsz, hsl, hsr, hpl, hpr⟩
    refine ⟨_, set_parent_some hg par, ?_, ?_, ?_, ?_, ?_⟩
    · apply ShapeU.congr_shape hnd _ hs
      intro q hq ndq hgq
      by_cases hqx : q = x
      · subst hqx
        rw [hg] at hgq; cases hgq
        exact ⟨_, Heap.get_set_self _ _ _, rfl, rfl, rfl, fun hne => absurd rfl hne⟩
      · exact ⟨ndq, by rw [Heap.get_set_ne _ _ hqx]; exact hgq, rfl, rfl, rfl, fun _ => rfl⟩
    · intro y hy
      simp only [Tree.root, Option.some.injEq] at hy
      subst hy
      exact ⟨_, Heap.get_set_self _ _ _, rfl⟩
    · intro q hq
      apply Heap.get_set_ne
      intro he; apply hq; rw [he]; rfl
    · intro q
      simp only [Heap.get_set]
      split
      · next he => subst he; rw [hg]; rfl
      · rfl
    · exact DataEq.set_data hg rfl

/-- Refreshing a node whose two subtrees are in place. -/
theorem update_both_node {h : Heap} {A B : Tree} {p : Nat} {nd : Node}
    (hg : h.get p = some nd) (hl : nd.left = A.root) (hr : nd.right = B.root)
    (hA : ShapeU h A) (hB : ShapeU h B)
    (hpA : ParentIs h A.root (some p)) (hpB : ParentIs h B.root (some p))
    (hnd : (Tree.node A p B).toList.Nodup)
    (hcA : ∀ q ∈ A.toList, Cons h q) (hcB : ∀ q ∈ B.toList, Cons h q) :
    ∃ h1 nd1, update_both h (some p) = some h1 ∧ ShapeU h1 (.node A p B) ∧
      (∀ q ∈ (Tree.node A p B).toList, Cons h1 q) ∧
      (∀ q, q ≠ p → h1.get q = h.get q) ∧
      h1.get p = some nd1 ∧ nd1.data = nd.data ∧ nd1.parent = nd.parent ∧ DataEq h h1 := by
  simp only [Tree.toList] at hnd
  have hnd' := List.nodup_append.mp hnd
  have hxl : p ∉ A.toList := fun hm => hnd'.2.2 hm (List.mem_cons_self _ _)
  have hnr := (List.nodup_cons.mp hnd'.2.1)
  have hxr : p ∉ B.toList := hnr.1
  have s1 := hA.size_root
  have s2 := hB.size_root
  rw [← hl] at s1
  rw [← hr] at s2
  obtain ⟨⟨ml, hml⟩, ⟨al, hal⟩⟩ := get_agg_live (h := h) (o := nd.left)
    (fun x hx => hA.live_shape x (Tree.root_mem (by rw [← hl]; exact hx)))
  obtain ⟨⟨mr, hmr⟩, ⟨ar, har⟩⟩ := get_agg_live (h := h) (o := nd.right)
    (fun x hx => hB.live_shape x (Tree.root_mem (by rw [← hr]; exact hx)))
  have hu := update_both_some hg s1 s2 hml hmr hal har
  have hne : ∀ q, q ≠ p → (h.set p { nd with
      size := (A.size : Int) + B.size + 1,
      size_of_min_level := (ml || mr || nd.is_min_level),
      size_of_adjacent := (al || ar || nd.is_has_adjacent) }).get q = h.get q :=
    fun q hq => Heap.get_set_ne _ _ hq
  have hA1 := ShapeU.frame_shape hnd'.1 (fun q hq => hne q (by rintro rfl; exact hxl hq)) hA
  have hB1 := ShapeU.frame_shape hnr.2 (fun q hq => hne q (by rintro rfl; exact hxr hq)) hB
  refine ⟨_, _, hu, ?_, ?_, hne, Heap.get_set_self _ _ _, rfl, rfl, DataEq.set_data hg rfl⟩
  · refine ⟨_, Heap.get_set_self _ _ _, hl, hr, by push_cast; ring, hA1, hB1, ?_, ?_⟩
    · exact hpA.congr_parent (fun x hx => hne x (by rintro rfl; exact hxl (Tree.root_mem hx)))
    · exact hpB.congr_parent (fun x hx => hne x (by rintro rfl; exact hxr (Tree.root_mem hx)))
  · intro q hq
    simp only [Tree.toList, List.mem_append, List.mem_cons] at hq
    rcases hq with hq | hq | hq
    · exact Cons.frame_tree hA (fun c hc => cview_of_eq (hne c (by rintro rfl; exact hxl hc)))
        hq (hcA q hq)
    · subst hq
      refine ⟨_, ml, mr, al, ar, Heap.get_set_self _ _ _, ?_, ?_, ?_, ?_, rfl, rfl⟩
      · rw [← hml]
        exact (get_agg_congr (fun x hx => cview_of_eq (hne x (by
          rintro rfl; exact hxl (Tree.root_mem (by rw [← hl]; exact hx)))))).1
      · rw [← hmr]
        exact (get_agg_congr (fun x hx => cview_of_eq (hne x (by
          rintro rfl; exact hxr (Tree.root_mem (by rw [← hr]; exact hx)))))).1
      · rw [← hal]
        exact (get_agg_congr (fun x hx => cview_of_eq (hne x (by
          rintro rfl; exact hxl (Tree.root_mem (by rw [← hl]; exact hx)))))).2
      · rw [← har]
        exact (get_agg_congr (fun x hx => cview_of_eq (hne x (by
          rintro rfl; exact hxr (Tree.root_mem (by rw [← hr]; exact hx)))))).2
    · exact Cons.frame_tree hB (fun c hc => cview_of_eq (hne c (by rintro rfl; exact hxr hc)))
        hq (hcB q hq)

/-- Tail of `split` when the cut falls in the left subtree: `L` is detached, `A` becomes
the left child of `p`. -/
theorem split_tail_left {h : Heap} {L A B : Tree} {p : Nat} {nd : Node}
    (hg : h.get p = some nd) (hr : nd.right = B.root)
    (hL : ShapeU h L) (hA : ShapeU h A) (hB : ShapeU h B)
    (hpB : ParentIs h B.root (some p))
    (hnd : (L.toList ++ (A.toList ++ p :: B.toList)).Nodup)
    (hcL : ∀ q ∈ L.toList, Cons h q) (hcA : ∀ q ∈ A.toList, Cons h q)
    (hcB : ∀ q ∈ B.toList, Cons h q) :
    ∃ h6 nd6,
      ((set_parent (h.set p { nd with left := A.root }) L.root none).bind fun h3 =>
        (set_parent h3 A.root (some p)).bind fun h4 =>
        (update_both h4 L.root).bind fun h5 =>
        (update_both h5 (some p)).bind fun h6 => some (h6, L.root, some p))
        = some (h6, L.root, some p) ∧
      ShapeU h6 L ∧ ShapeU h6 (.node A p B) ∧ ParentIs h6 L.root none ∧
      (∀ q ∈ L.toList ++ (A.toList ++ p :: B.toList), Cons h6 q) ∧
      DataEq h h6 ∧
      (∀ q, q ∉ L.toList ++ (A.toList ++ p :: B.toList) → h6.get q = h.get q) ∧
      h6.get p = some nd6 ∧ nd6.parent = nd.parent := by
  have hnd1 := List.nodup_append.mp hnd
  have hndL := hnd1.1
  have hnd2 := List.nodup_append.mp hnd1.2.1
  have hndA := hnd2.1
  have hnd3 := List.nodup_cons.mp hnd2.2.1
  have hndB := hnd3.2
  have hpB' : p ∉ B.toList := hnd3.1
  have hpA : p ∉ A.toList := fun hm => hnd2.2.2 hm (List.mem_cons_self _ _)
  have hpL : p ∉ L.toList := fun hm => hnd1.2.2 hm (by simp)
  have hLA : ∀ q, q ∈ L.toList → q ∉ A.toList := fun q h1 h2 => hnd1.2.2 h1 (by simp [h2])
  have hLB : ∀ q, q ∈ L.toList → q ∉ B.toList := fun q h1 h2 => hnd1.2.2 h1 (by simp [h2])
  have hAB : ∀ q, q ∈ A.toList → q ∉ B.toList := fun q h1 h2 => hnd2.2.2 h1 (by simp [h2])
  -- h2
  have e2 : ∀ q, q ≠ p → (h.set p { nd with left := A.root }).get q = h.get q :=
    fun q hq => Heap.get_set_ne _ _ hq
  have hL2 := ShapeU.frame_shape hndL (fun q hq => e2 q (by rintro rfl; exact hpL hq)) hL
  have hA2 := ShapeU.frame_shape hndA (fun q hq => e2 q (by rintro rfl; exact hpA hq)) hA
  have hB2 := ShapeU.frame_shape hndB (fun q hq => e2 q (by rintro rfl; exact hpB' hq)) hB
  have d2 : DataEq h (h.set p { nd with left := A.root }) := DataEq.set_data hg rfl
  -- h3
  obtain ⟨h3, hs3, hL3, hpL3, e3, v3, d3⟩ := set_parent_root none hL2 hndL
  have hA3 := ShapeU.frame_shape hndA (fun q hq => e3 q (fun he =>
    hLA q (Tree.root_mem he) hq)) hA2
  have hB3 := ShapeU.frame_shape hndB (fun q hq => e3 q (fun he =>
    hLB q (Tree.root_mem he) hq)) hB2
  -- h4
  obtain ⟨h4, hs4, hA4, hpA4, e4, v4, d4⟩ := set_parent_root (some p) hA3 hndA
  have hL4 := ShapeU.frame_shape hndL (fun q hq => e4 q (fun he =>
    hLA q hq (Tree.root_mem he))) hL3
  have hB4 := ShapeU.frame_shape hndB (fun q hq => e4 q (fun he =>
    hAB q (Tree.root_mem he) hq)) hB3
  have hpL4 : ParentIs h4 L.root none :=
    hpL3.congr_parent (fun x hx => e4 x (fun he => hLA x (Tree.root_mem hx) (Tree.root_mem he)))
  have hg4 : h4.get p = some { nd with left := A.root } := by
    rw [e4 p (fun he => hpA (Tree.root_mem he)), e3 p (fun he => hpL (Tree.root_mem he))]
    exact Heap.get_set_self _ _ _
  have v24 : ∀ q, q ≠ p → (h4.get q).map Node.cview = (h.get q).map Node.cview := by
    intro q hq
    rw [v4 q, v3 q, e2 q hq]
  have hcL4 : ∀ q ∈ L.toList, Cons h4 q := fun q hq =>
    Cons.frame_tree hL (fun c hc => v24 c (by rintro rfl; exact hpL hc)) hq (hcL q hq)
  have hcA4 : ∀ q ∈ A.toList, Cons h4 q := fun q hq =>
    Cons.frame_tree hA (fun c hc => v24 c (by rintro rfl; exact hpA hc)) hq (hcA q hq)
  have hcB4 : ∀ q ∈ B.toList, Cons h4 q := fun q hq =>
    Cons.frame_tree hB (fun c hc => v24 c (by rintro rfl; exact hpB' hc)) hq (hcB q hq)
  have hs5 : update_both h4 L.root = some h4 :=
    update_both_id hL4 (fun x hx => hcL4 x (Tree.root_mem hx))
  have hpB4 : ParentIs h4 B.root (some p) := by
    apply hpB.congr_parent
    intro x hx
    have hxB := Tree.root_mem hx
    rw [e4 x (fun he => hAB x (Tree.root_mem he) hxB),
      e3 x (fun he => hLB x (Tree.root_mem he) hxB), e2 x (by rintro rfl; exact hpB' hxB)]
  obtain ⟨h6, nd6, hs6, hT6, hc6, e6, hg6, _, hp6, d6⟩ :=
    update_both_node hg4 rfl hr hA4 hB4 hpA4 hpB4 hnd1.2.1 hcA4 hcB4
  refine ⟨h6, nd6, ?_, ?_, hT6, ?_, ?_, ?_, ?_, hg6, hp6⟩
  · simp only [hs3, hs4, hs5, hs6, Option.bind]
  · exact ShapeU.frame_shape hndL (fun q hq => e6 q (by rintro rfl; exact hpL hq)) hL4
  · exact hpL4.congr_parent (fun x hx => e6 x (by rintro rfl; exact hpL (Tree.root_mem hx)))
  · intro q hq
    rcases List.mem_append.mp hq with hq | hq
    · exact Cons.frame_tree hL4
        (fun c hc => cview_of_eq (e6 c (by rintro rfl; exact hpL hc))) hq (hcL4 q hq)
    · exact hc6 q (by simpa [Tree.toList] using hq)
  · exact ((d2.trans_data d3).trans_data d4).trans_data d6
  · intro q hq
    simp only [List.mem_append, List.mem_cons, not_or] at hq
    rw [e6 q hq.2.2.1, e4 q (fun he => hq.2.1 (Tree.root_mem he)),
      e3 q (fun he => hq.1 (Tree.root_mem he)), e2 q hq.2.2.1]

/-- Tail of `split` when the cut falls in the right subtree: `R` is detached, `B` becomes
the right child of `p`. -/
theorem split_tail_right {h : Heap} {A B R : Tree} {p : Nat} {nd : Node}
    (hg : h.get p = some nd) (hl : nd.left = A.root)
    (hA : ShapeU h A) (hB : ShapeU h B) (hR : ShapeU h R)
    (hpA : ParentIs h A.root (some p))
    (hnd : ((A.toList ++ p :: B.toList) ++ R.toList).Nodup)
    (hcA : ∀ q ∈ A.toList, Cons h q) (hcB : ∀ q ∈ B.toList, Cons h q)
    (hcR : ∀ q ∈ R.toList, Cons h q) :
    ∃ h6 nd6,
      ((set_parent (h.set p { nd with right := B.root }) R.root none).bind fun h3 =>
        (set_parent h3 B.root (some p)).bind fun h4 =>
        (update_both h4 (some p)).bind fun h5 =>
        (update_both h5 R.root).bind fun h6 => some (h6, some p, R.root))
        = some (h6, some p, R.root) ∧
      ShapeU h6 (.node A p B) ∧ ShapeU h6 R ∧ ParentIs h6 R.root none ∧
      (∀ q ∈ (A.toList ++ p :: B.toList) ++ R.toList, Cons h6 q) ∧
      DataEq h h6 ∧
      (∀ q, q ∉ (A.toList ++ p :: B.toList) ++ R.toList → h6.get q = h.get q) ∧
      h6.get p = some nd6 ∧ nd6.parent = nd.parent := by
  have hnd1 := List.nodup_append.mp hnd
  have hndR := hnd1.2.1
  have hnd2 := List.nodup_append.mp hnd1.1
  have hndA := hnd2.1
  have hnd3 := List.nodup_cons.mp hnd2.2.1
  have hndB := hnd3.2
  have hpB' : p ∉ B.toList := hnd3.1
  have hpA' : p ∉ A.toList := fun hm => hnd2.2.2 hm (List.mem_cons_self _ _)
  have hpR : p ∉ R.toList := fun hm => hnd1.2.2 (by simp) hm
  have hAR : ∀ q, q ∈ A.toList → q ∉ R.toList := fun q h1 h2 => hnd1.2.2 (by simp [h1]) h2
  have hBR : ∀ q, q ∈ B.toList → q ∉ R.toList := fun q h1 h2 => hnd1.2.2 (by simp [h1]) h2
  have hAB : ∀ q, q ∈ A.toList → q ∉ B.toList := fun q h1 h2 => hnd2.2.2 h1 (by simp [h2])
  have e2 : ∀ q, q ≠ p → (h.set p { nd with right := B.root }).get q = h.get q :=
    fun q hq => Heap.get_set_ne _ _ hq
  have hR2 := ShapeU.frame_shape hndR (fun q hq => e2 q (by rintro rfl; exact hpR hq)) hR
  have hA2 := ShapeU.frame_shape hndA (fun q hq => e2 q (by rintro rfl; exact hpA' hq)) hA
  have hB2 := ShapeU.frame_shape hndB (fun q hq => e2 q (by rintro rfl; exact hpB' hq)) hB
  have d2 : DataEq h (h.set p { nd with right := B.root }) := DataEq.set_data hg rfl
  obtain ⟨h3, hs3, hR3, hpR3, e3, v3, d3⟩ := set_parent_root none hR2 hndR
  have hA3 := ShapeU.frame_shape hndA (fun q hq => e3 q (fun he =>
    hAR q hq (Tree.root_mem he))) hA2
  have hB3 := ShapeU.frame_shape hndB (fun q hq => e3 q (fun he =>
    hBR q hq (Tree.root_mem he))) hB2
  obtain ⟨h4, hs4, hB4, hpB4, e4, v4, d4⟩ := set_parent_root (some p) hB3 hndB
  have hR4 := ShapeU.frame_shape hndR (fun q hq => e4 q (fun he =>
    hBR q (Tree.root_mem he) hq)) hR3
  have hA4 := ShapeU.frame_shape hndA (fun q hq => e4 q (fun he =>
    hAB q hq (Tree.root_mem he))) hA3
  have hpR4 : ParentIs h4 R.root none :=
    hpR3.congr_parent (fun x hx => e4 x (fun he => hBR x (Tree.root_mem he) (Tree.root_mem hx)))
  have hg4 : h4.get p = some { nd with right := B.root } := by
    rw [e4 p (fun he => hpB' (Tree.root_mem he)), e3 p (fun he => hpR (Tree.root_mem he))]
    exact Heap.get_set_self _ _ _
  have v24 : ∀ q, q ≠ p → (h4.get q).map Node.cview = (h.get q).map Node.cview := by
    intro q hq
    rw [v4 q, v3 q, e2 q hq]
  have hcR4 : ∀ q ∈ R.toList, Cons h4 q := fun q hq =>
    Cons.frame_tree hR (fun c hc => v24 c (by rintro rfl; exact hpR hc)) hq (hcR q hq)
  have hcA4 : ∀ q ∈ A.toList, Cons h4 q := fun q hq =>
    Cons.frame_tree hA (fun c hc => v24 c (by rintro rfl; exact hpA' hc)) hq (hcA q hq)
  have hcB4 : ∀ q ∈ B.toList, Cons h4 q := fun q hq =>
    Cons.frame_tree hB (fun c hc => v24 c (by rintro rfl; exact hpB' hc)) hq (hcB q hq)
  have hpA4 : ParentIs h4 A.root (some p) := by
    apply hpA.congr_parent
    intro x hx
    have hxA := Tree.root_mem hx
    rw [e4 x (fun he => hAB x hxA (Tree.root_mem he)),
      e3 x (fun he => hAR x hxA (Tree.root_mem he)), e2 x (by rintro rfl; exact hpA' hxA)]
  obtain ⟨h6, nd6, hs6, hT6, hc6, e6, hg6, _, hp6, d6⟩ :=
    update_both_node hg4 hl rfl hA4 hB4 hpA4 hpB4 hnd1.1 hcA4 hcB4
  have hR6 := ShapeU.frame_shape hndR (fun q hq => e6 q (by rintro rfl; exact hpR hq)) hR4
  have hcR6 : ∀ q ∈ R.toList, Cons h6 q := fun q hq =>
    Cons.frame_tree hR4
      (fun c hc => cview_of_eq (e6 c (by rintro rfl; exact hpR hc))) hq (hcR4 q hq)
  have hs7 : update_both h6 R.root = some h6 :=
    update_both_id hR6 (fun x hx => hcR6 x (Tree.root_mem hx))
  refine ⟨h6, nd6, ?_, hT6, hR6, ?_, ?_, ?_, ?_, hg6, hp6⟩
  · simp only [hs3, hs4, hs6, hs7, Option.bind]
  · exact hpR4.congr_parent (fun x hx => e6 x (by rintro rfl; exact hpR (Tree.root_mem hx)))
  · intro q hq
    rcases List.mem_append.mp hq with hq | hq
    · exact hc6 q (by simpa [Tree.toList] using hq)
    · exact hcR6 q hq
  · exact ((d2.trans_data d3).trans_data d4).trans_data d6
  · intro q hq
    simp only [List.mem_append, List.mem_cons, not_or] at hq
    rw [e6 q hq.1.2.1, e4 q (fun he => hq.1.2.2 (Tree.root_mem he)),
      e3 q (fun he => hq.2 (Tree.root_mem he)), e2 q hq.1.2.1]

/-- Function `split` cuts the in-order sequence of a treap at position `key`. -/
theorem split_spec : ∀ (t : Tree) (f : Nat) (h : Heap) (key : Int),
    ShapeU h t → t.toList.Nodup → (∀ p ∈ t.toList, Cons h p) → t.size ≤ f →
    ∃ h1 tl tr, split f h t.root key = some (h1, tl.root, tr.root) ∧
      ShapeU h1 tl ∧ ShapeU h1 tr ∧
      tl.toList = t.toList.take key.toNat ∧ tr.toList = t.toList.drop key.toNat ∧
      (∀ p ∈ t.toList, Cons h1 p) ∧ DataEq h h1 ∧
      (∀ p, p ∉ t.toList → h1.get p = h.get p) ∧
      (∀ par, ParentIs h t.root par → ∀ x, (tl.root = some x ∨ tr.root = some x) →
        ∃ nd, h1.get x = some nd ∧ (nd.parent = none ∨ nd.parent = par))
  | .nil, f, h, key, _, _, _, _ => by
    refine ⟨h, .nil, .nil, ?_, trivial, trivial, ?_, ?_, ?_, DataEq.refl_data h, fun _ _ => rfl, ?_⟩
    · cases f <;> rfl
    · simp [Tree.toList]
    · simp [Tree.toList]
    · intro p hp; simp [Tree.toList] at hp
    · intro par _ x hx; simp [Tree.root] at hx
  | .node l p r, 0, h, key, _, _, _, hf => by simp [Tree.size] at hf
  | .node l p r, f + 1, h, key, hs, hnd, hc, hf => by
    obtain ⟨nd, hg, hl0, hr0, hsz, hsl, hsr, hpl, hpr⟩ := hs
    simp only [Tree.toList] at hnd hc
    have hnd1 := List.nodup_append.mp hnd
    have hnd2 := List.nodup_cons.mp hnd1.2.1
    have hpl' : p ∉ l.toList := fun hm => hnd1.2.2 hm (List.mem_cons_self _ _)
    have hlr : ∀ q, q ∈ l.toList → q ∉ r.toList := fun q h1 h2 => hnd1.2.2 h1 (by simp [h2])
    have hf' : l.size ≤ f ∧ r.size ≤ f := by simp only [Tree.size] at hf; omega
    have hszl : get_size h nd.left = some (l.size : Int) := by rw [hl0]; exact hsl.size_root
    by_cases hk : (l.size : Int) ≥ key
    · obtain ⟨h1, tl, tr, hsp, hS1, hS2, hL1, hL2, hC1, hD1, hF1, _⟩ :=
        split_spec l f h key hsl hnd1.1 (fun q hq => hc q (by simp [hq])) hf'.1
      have hgp : h1.get p = some nd := by rw [hF1 p hpl']; exact hg
      have hsplit : l.toList = tl.toList ++ tr.toList := by
        rw [hL1, hL2, List.take_append_drop]
      have hr1 : ShapeU h1 r :=
        ShapeU.frame_shape hnd2.2 (fun q hq => hF1 q (fun hm => hlr q hm hq)) hsr
      have hpr1 : ParentIs h1 r.root (some p) :=
        hpr.congr_parent (fun x hx => hF1 x (fun hm => hlr x hm (Tree.root_mem hx)))
      have hndT : (tl.toList ++ (tr.toList ++ p :: r.toList)).Nodup := by
        rw [← List.append_assoc, ← hsplit]; exact hnd
      have hcr1 : ∀ q ∈ r.toList, Cons h1 q := fun q hq =>
        Cons.frame_tree hsr (fun c hc' => cview_of_eq (hF1 c (fun hm => hlr c hm hc')))
          hq (hc q (by simp [hq]))
      obtain ⟨h6, nd6, hE, hT1, hT2, hP, hC6, hD6, hF6, hg6, hp6⟩ :=
        split_tail_left hgp hr0 hS1 hS2 hr1 hpr1 hndT
          (fun q hq => hC1 q (by rw [hsplit]; simp [hq]))
          (fun q hq => hC1 q (by rw [hsplit]; simp [hq])) hcr1
      have hkn : key.toNat ≤ l.toList.length := by
        rw [Tree.length_toList]; omega
      refine ⟨h6, tl, .node tr p r, ?_, hT1, hT2, ?_, ?_, ?_, hD1.trans_data hD6, ?_, ?_⟩
      · show split (f + 1) h (some p) key = _
        simp only [split, hg, hszl, if_pos hk]
        rw [hl0, hsp]
        simp only [hgp]
        exact hE
      · simp only [Tree.toList]
        rw [List.take_append_of_le_length hkn]; exact hL1
      · simp only [Tree.toList]
        rw [List.drop_append_of_le_length hkn, hL2]
      · intro q hq
        apply hC6
        simp only [Tree.toList, List.mem_append, List.mem_cons] at hq ⊢
        rcases hq with hq | hq | hq
        · rw [hsplit, List.mem_append] at hq
          rcases hq with hq | hq
          · exact Or.inl hq
          · exact Or.inr (Or.inl hq)
        · exact Or.inr (Or.inr (Or.inl hq))
        · exact Or.inr (Or.inr (Or.inr hq))
      · intro q hq
        simp only [Tree.toList, List.mem_append, List.mem_cons, not_or] at hq
        rw [hF6 q, hF1 q hq.1]
        simp only [List.mem_append, List.mem_cons, not_or]
        have : q ∉ tl.toList ∧ q ∉ tr.toList := by
          have := hq.1
          rw [hsplit, List.mem_append, not_or] at this
          exact this
        exact ⟨this.1, this.2, hq.2.1, hq.2.2⟩
      · intro par hpar x hx
        rcases hx with hx | hx
        · obtain ⟨ndx, hgx, hpx⟩ := hP x hx
          exact ⟨ndx, hgx, Or.inl hpx⟩
        · simp only [Tree.root, Option.some.injEq] at hx
          subst hx
          obtain ⟨nd', hg', hp'⟩ := hpar p rfl
          rw [hg] at hg'; cases hg'
          exact ⟨nd6, hg6, Or.inr (hp6.trans hp')⟩
    · have hk' : (l.size : Int) < key := not_le.mp hk
      obtain ⟨h1, tl, tr, hsp, hS1, hS2, hL1, hL2, hC1, hD1, hF1, _⟩ :=
        split_spec r f h (key - l.size - 1) hsr hnd2.2 (fun q hq => hc q (by simp [hq])) hf'.2
      have hpr' : p ∉ r.toList := hnd2.1
      have hgp : h1.get p = some nd := by rw [hF1 p hpr']; exact hg
      have hsplit : r.toList = tl.toList ++ tr.toList := by
        rw [hL1, hL2, List.take_append_drop]
      have hl1 : ShapeU h1 l :=
        ShapeU.frame_shape hnd1.1 (fun q hq => hF1 q (fun hm => hlr q hq hm)) hsl
      have hpl1 : ParentIs h1 l.root (some p) :=
        hpl.congr_parent (fun x hx => hF1 x (fun hm => hlr x (Tree.root_mem hx) hm))
      have hndT : ((l.toList ++ p :: tl.toList) ++ tr.toList).Nodup := by
        rw [List.append_assoc, List.cons_append, ← hsplit]; exact hnd
      have hcl1 : ∀ q ∈ l.toList, Cons h1 q := fun q hq =>
        Cons.frame_tree hsl (fun c hc' => cview_of_eq (hF1 c (fun hm => hlr c hc' hm)))
          hq (hc q (by simp [hq]))
      obtain ⟨h6, nd6, hE, hT1, hT2, hP, hC6, hD6, hF6, hg6, hp6⟩ :=
        split_tail_right hgp hl0 hl1 hS1 hS2 hpl1 hndT hcl1
          (fun q hq => hC1 q (by rw [hsplit]; simp [hq]))
          (fun q hq => hC1 q (by rw [hsplit]; simp [hq]))
      have hkn : key.toNat = l.toList.length + 1 + (key - l.size - 1).toNat := by
        rw [Tree.length_toList]; omega
      refine ⟨h6, .node l p tl, tr, ?_, hT1, hT2, ?_, ?_, ?_, hD1.trans_data hD6, ?_, ?_⟩
      · show split (f + 1) h (some p) key = _
        simp only [split, hg, hszl, if_neg hk]
        rw [hr0, hsp]
        simp only [hgp]
        exact hE
      · simp only [Tree.toList]
        rw [hkn, Nat.add_assoc, List.take_append, Nat.add_comm 1, List.take_succ_cons, hL1]
      · simp only [Tree.toList]
        rw [hkn, Nat.add_assoc, List.drop_append, Nat.add_comm 1, List.drop_succ_cons, hL2]
      · intro q hq
        apply hC6
        simp only [Tree.toList, List.mem_append, List.mem_cons] at hq ⊢
        rcases hq with hq | hq | hq
        · exact Or.inl (Or.inl hq)
        · exact Or.inl (Or.inr (Or.inl hq))
        · rw [hsplit, List.mem_append] at hq
          rcases hq with hq | hq
          · exact Or.inl (Or.inr (Or.inr hq))
          · exact Or.inr hq
      · intro q hq
        simp only [Tree.toList, List.mem_append, List.mem_cons, not_or] at hq
        rw [hF6 q, hF1 q hq.2.2]
        simp only [List.mem_append, List.mem_cons, not_or]
        have : q ∉ tl.toList ∧ q ∉ tr.toList := by
          have := hq.2.2
          rw [hsplit, List.mem_append, not_or] at this
          exact this
        exact ⟨⟨hq.1, hq.2.1, this.1⟩, this.2⟩
      · intro par hpar x hx
        rcases hx with hx | hx
        · simp only [Tree.root, Option.some.injEq] at hx
          subst hx
          obtain ⟨nd', hg', hp'⟩ := hpar p rfl
          rw [hg] at hg'; cases hg'
          exact ⟨nd6, hg6, Or.inr (hp6.trans hp')⟩
        · obtain ⟨ndx, hgx, hpx⟩ := hP x hx
          exact ⟨ndx, hgx, Or.inl hpx⟩

/-- Base case of `merge`: the surviving tree gets a null parent and a refreshed root. -/
theorem merge_base {h : Heap} {t : Tree} (hs : ShapeU h t) (hnd : t.toList.Nodup)
    (hc : ∀ p ∈ t.toList, t.root ≠ some p → Cons h p) :
    ∃ h2, ((set_parent h t.root none).bind fun h1 =>
        (update_both h1 t.root).bind fun h2 => some (h2, t.root)) = some (h2, t.root) ∧
      ShapeU h2 t ∧ ParentIs h2 t.root none ∧ (∀ p ∈ t.toList, Cons h2 p) ∧ DataEq h h2 ∧
      (∀ p, p ∉ t.toList → h2.get p = h.get p) := by
  obtain ⟨h1, hs1, hS1, hP1, e1, v1, d1⟩ := set_parent_root none hs hnd
  cases t with
  | nil =>
    simp only [Tree.root, set_parent, Option.some.injEq] at hs1
    subst hs1
    exact ⟨h, rfl, trivial, ParentIs.none _ _, fun p hp => by simp [Tree.toList] at hp,
      DataEq.refl_data h, fun _ _ => rfl⟩
  | node A x B =>
    obtain ⟨nd, hg, hl0, hr0, hsz, hsl, hsr, hpl, hpr⟩ := hS1
    have hnd0 := hnd
    simp only [Tree.toList] at hnd hc
    have hnd1 := List.nodup_append.mp hnd
    have hnd2 := List.nodup_cons.mp hnd1.2.1
    have hxA : x ∉ A.toList := fun hm => hnd1.2.2 hm (List.mem_cons_self _ _)
    have hxB : x ∉ B.toList := hnd2.1
    obtain ⟨-, -, -, -, -, hsl0, hsr0, -, -⟩ := hs
    have hcA : ∀ q ∈ A.toList, Cons h1 q := fun q hq =>
      Cons.frame_tree hsl0 (fun c _ => v1 c) hq
        (hc q (by simp [hq]) (fun he => hxA (by
          simp only [Tree.root, Option.some.injEq] at he; rw [he]; exact hq)))
    have hcB : ∀ q ∈ B.toList, Cons h1 q := fun q hq =>
      Cons.frame_tree hsr0 (fun c _ => v1 c) hq
        (hc q (by simp [hq]) (fun he => hxB (by
          simp only [Tree.root, Option.some.injEq] at he; rw [he]; exact hq)))
    obtain ⟨h2, nd2, hs2, hT2, hc2, e2, hg2, _, hp2, d2⟩ :=
      update_both_node hg hl0 hr0 hsl hsr hpl hpr hnd0 hcA hcB
    refine ⟨h2, ?_, hT2, ?_, hc2, d1.trans_data d2, ?_⟩
    · simp only [hs1, Option.bind]
      simp only [Tree.root] at hs2 ⊢
      simp only [hs2]
    · intro y hy
      simp only [Tree.root, Option.some.injEq] at hy
      subst hy
      obtain ⟨nd', hg', hp'⟩ := hP1 x rfl
      rw [hg] at hg'; cases hg'
      exact ⟨nd2, hg2, hp2.trans hp'⟩
    · intro p hp
      simp only [Tree.toList, List.mem_append, List.mem_cons, not_or] at hp
      have hne : (Tree.node A x B).root ≠ some p := by
        simp only [Tree.root, ne_eq, Option.some.injEq]
        intro he; exact hp.2.1 he.symm
      rw [e2 p hp.2.1, e1 p hne]

/-- Tail of `merge`: both children of `p` are re-parented and `p` is refreshed. -/
theorem merge_fix_spec {h : Heap} {A B : Tree} {p : Nat} {nd : Node}
    (hg : h.get p = some nd) (hl : nd.left = A.root) (hr : nd.right = B.root)
    (hA : ShapeU h A) (hB : ShapeU h B)
    (hnd : (Tree.node A p B).toList.Nodup)
    (hcA : ∀ q ∈ A.toList, Cons h q) (hcB : ∀ q ∈ B.toList, Cons h q) :
    ∃ h3 nd3, merge_fix h p = some h3 ∧ ShapeU h3 (.node A p B) ∧
      (∀ q ∈ (Tree.node A p B).toList, Cons h3 q) ∧ DataEq h h3 ∧
      (∀ q, q ∉ (Tree.node A p B).toList → h3.get q = h.get q) ∧
      h3.get p = some nd3 ∧ nd3.parent = nd.parent := by
  have hnd0 := hnd
  simp only [Tree.toList] at hnd
  have hnd1 := List.nodup_append.mp hnd
  have hnd2 := List.nodup_cons.mp hnd1.2.1
  have hxA : p ∉ A.toList := fun hm => hnd1.2.2 hm (List.mem_cons_self _ _)
  have hxB : p ∉ B.toList := hnd2.1
  have hAB : ∀ q, q ∈ A.toList → q ∉ B.toList := fun q h1 h2 => hnd1.2.2 h1 (by simp [h2])
  obtain ⟨h1, hs1, hA1, hpA1, e1, v1, d1⟩ := set_parent_root (some p) hA hnd1.1
  have hB1 := ShapeU.frame_shape hnd2.2 (fun q hq => e1 q (fun he => hAB q (Tree.root_mem he) hq)) hB
  have hg1 : h1.get p = some nd := by rw [e1 p (fun he => hxA (Tree.root_mem he))]; exact hg
  obtain ⟨h2, hs2, hB2, hpB2, e2, v2, d2⟩ := set_parent_root (some p) hB1 hnd2.2
  have hA2 := ShapeU.frame_shape hnd1.1 (fun q hq => e2 q (fun he => hAB q hq (Tree.root_mem he))) hA1
  have hg2 : h2.get p = some nd := by rw [e2 p (fun he => hxB (Tree.root_mem he))]; exact hg1
  have hpA2 : ParentIs h2 A.root (some p) :=
    hpA1.congr_parent (fun x hx => e2 x (fun he => hAB x (Tree.root_mem hx) (Tree.root_mem he)))
  have v12 : ∀ q, (h2.get q).map Node.cview = (h.get q).map Node.cview := fun q => by
    rw [v2 q, v1 q]
  have hcA2 : ∀ q ∈ A.toList, Cons h2 q := fun q hq =>
    Cons.frame_tree hA (fun c _ => v12 c) hq (hcA q hq)
  have hcB2 : ∀ q ∈ B.toList, Cons h2 q := fun q hq =>
    Cons.frame_tree hB (fun c _ => v12 c) hq (hcB q hq)
  obtain ⟨h3, nd3, hs3, hT3, hc3, e3, hg3, _, hp3, d3⟩ :=
    update_both_node hg2 hl hr hA2 hB2 hpA2 hpB2 hnd0 hcA2 hcB2
  refine ⟨h3, nd3, ?_, hT3, hc3, (d1.trans_data d2).trans_data d3, ?_, hg3, hp3⟩
  · simp only [merge_fix, hg, hl, hs1, Option.bind, hg1, hr, hs2, hs3]
  · intro q hq
    simp only [Tree.toList, List.mem_append, List.mem_cons, not_or] at hq
    rw [e3 q hq.2.1, e2 q (fun he => hq.2.2 (Tree.root_mem he)),
      e1 q (fun he => hq.1 (Tree.root_mem he))]

/-- Function `merge` concatenates the in-order sequences of two treaps. -/
theorem merge_spec : ∀ (f : Nat) (tl tr : Tree) (h : Heap),
    ShapeU h tl → ShapeU h tr → (tl.toList ++ tr.toList).Nodup →
    (∀ p ∈ tl.toList, tl.root ≠ some p → Cons h p) →
    (∀ p ∈ tr.toList, tr.root ≠ some p → Cons h p) →
    tl.size + tr.size ≤ f →
    ∃ h1 t, merge f h tl.root tr.root = some (h1, t.root) ∧ ShapeU h1 t ∧
      t.toList = tl.toList ++ tr.toList ∧ (∀ p ∈ t.toList, Cons h1 p) ∧ DataEq h h1 ∧
      (∀ p, p ∉ tl.toList ++ tr.toList → h1.get p = h.get p) ∧
      (∀ x, t.root = some x → (tl.root = some x ∨ tr.root = some x) ∧ ∃ nd1,
        h1.get x = some nd1 ∧
        (nd1.parent = none ∨ ∃ nd, h.get x = some nd ∧ nd1.parent = nd.parent))
  | f, .nil, tr, h, _, hsr, hnd, _, hcr, _ => by
    simp only [Tree.toList, List.nil_append] at hnd
    obtain ⟨h2, he, hS, hP, hC, hD, hF⟩ := merge_base hsr hnd hcr
    refine ⟨h2, tr, ?_, hS, by simp [Tree.toList], hC, hD, ?_, ?_⟩
    · show merge f h none tr.root = _
      rw [merge]; exact he
    · intro p hp; exact hF p (by simpa [Tree.toList] using hp)
    · intro x hx
      obtain ⟨nd, hg, hp⟩ := hP x hx
      exact ⟨Or.inr hx, nd, hg, Or.inl hp⟩
  | f, .node A l B, .nil, h, hsl, _, hnd, hcl, _, _ => by
    simp only [Tree.toList, List.append_nil] at hnd
    have hnd' : (Tree.node A l B).toList.Nodup := by simpa [Tree.toList] using hnd
    obtain ⟨h2, he, hS, hP, hC, hD, hF⟩ := merge_base hsl hnd' hcl
    refine ⟨h2, .node A l B, ?_, hS, by simp [Tree.toList], hC, hD, ?_, ?_⟩
    · show merge f h (some l) none = _
      rw [merge]; exact he
    · intro p hp; exact hF p (by simpa [Tree.toList] using hp)
    · intro x hx
      obtain ⟨nd, hg, hp⟩ := hP x hx
      exact ⟨Or.inl hx, nd, hg, Or.inl hp⟩
  | 0, .node A l B, .node C r D, h, _, _, _, _, _, hf => by
    simp [Tree.size] at hf
  | f + 1, .node A l B, .node C r D, h, hsl, hsr, hnd, hcl, hcr, hf => by
    have hsl0 := hsl
    have hsr0 := hsr
    obtain ⟨nl, hgl, hll, hlr, hlsz, hsA, hsB, hpA, hpB⟩ := hsl
    obtain ⟨nr, hgr, hrl, hrr, hrsz, hsC, hsD, hpC, hpD⟩ := hsr
    simp only [Tree.toList] at hnd hcl hcr
    have hn1 := List.nodup_append.mp hnd
    have hn2 := List.nodup_append.mp hn1.1
    have hn3 := List.nodup_cons.mp hn2.2.1
    have hn4 := List.nodup_append.mp hn1.2.1
    have hn5 := List.nodup_cons.mp hn4.2.1
    have dLR : ∀ q, q ∈ A.toList ++ l :: B.toList → q ∉ C.toList ++ r :: D.toList :=
      fun q h1 h2 => hn1.2.2 h1 h2
    have hlA : l ∉ A.toList := fun hm => hn2.2.2 hm (List.mem_cons_self _ _)
    have hlB : l ∉ B.toList := hn3.1
    have hrC : r ∉ C.toList := fun hm => hn4.2.2 hm (List.mem_cons_self _ _)
    have hrD : r ∉ D.toList := hn5.1
    have dAB : ∀ q, q ∈ A.toList → q ∉ B.toList := fun q h1 h2 => hn2.2.2 h1 (by simp [h2])
    have dCD : ∀ q, q ∈ C.toList → q ∉ D.toList := fun q h1 h2 => hn4.2.2 h1 (by simp [h2])
    have hf' : B.size + (Tree.node C r D).size ≤ f ∧ (Tree.node A l B).size + C.size ≤ f := by
      simp only [Tree.size] at hf ⊢; omega
    have cA : ∀ q ∈ A.toList, Cons h q := fun q hq =>
      hcl q (by simp [hq]) (fun he => hlA (by
        simp only [Tree.root, Option.some.injEq] at he; rw [he]; exact hq))
    have cB : ∀ q ∈ B.toList, Cons h q := fun q hq =>
      hcl q (by simp [hq]) (fun he => hlB (by
        simp only [Tree.root, Option.some.injEq] at he; rw [he]; exact hq))
    have cC : ∀ q ∈ C.toList, Cons h q := fun q hq =>
      hcr q (by simp [hq]) (fun he => hrC (by
        simp only [Tree.root, Option.some.injEq] at he; rw [he]; exact hq))
    have cD : ∀ q ∈ D.toList, Cons h q := fun q hq =>
      hcr q (by simp [hq]) (fun he => hrD (by
        simp only [Tree.root, Option.some.injEq] at he; rw [he]; exact hq))
    by_cases hpr : nl.priority < nr.priority
    · -- the left root stays on top
      have hndR : (B.toList ++ (Tree.node C r D).toList).Nodup := by
        simp only [Tree.toList]
        refine List.nodup_append.mpr ⟨hn3.2, hn1.2.1, ?_⟩
        intro q h1 h2
        exact dLR q (by simp [h1]) h2
      obtain ⟨h1, t1, hm, hS1, hL1, hC1, hD1, hF1, _⟩ :=
        merge_spec f B (.node C r D) h hsB hsr0 hndR (fun q hq _ => cB q hq)
          (by simpa [Tree.toList] using hcr) hf'.1
      have nmL : ∀ q, q ∈ A.toList ++ l :: B.toList → q ∉ B.toList →
          q ∉ B.toList ++ (Tree.node C r D).toList := by
        intro q hq hqB hm
        rcases List.mem_append.mp hm with hm | hm
        · exact hqB hm
        · exact dLR q hq (by simpa [Tree.toList] using hm)
      have hl1 : l ∉ B.toList ++ (Tree.node C r D).toList := nmL l (by simp) hlB
      have hg1 : h1.get l = some nl := by rw [hF1 l hl1]; exact hgl
      have hlt1 : l ∉ t1.toList := by rw [hL1]; exact hl1
      have e2 : ∀ q, q ≠ l → (h1.set l { nl with right := t1.root }).get q = h1.get q :=
        fun q hq => Heap.get_set_ne _ _ hq
      have hA2 : ShapeU (h1.set l { nl with right := t1.root }) A := by
        apply ShapeU.frame_shape hn2.1 _ hsA
        intro q hq
        rw [e2 q (by rintro rfl; exact hlA hq), hF1 q (nmL q (by simp [hq]) (dAB q hq))]
      have hndt : t1.toList.Nodup := by rw [hL1]; exact hndR
      have hT2 : ShapeU (h1.set l { nl with right := t1.root }) t1 :=
        ShapeU.frame_shape hndt (fun q hq => e2 q (by rintro rfl; exact hlt1 hq)) hS1
      have hndN : (Tree.node A l t1).toList.Nodup := by
        simp only [Tree.toList, hL1]
        simpa [Tree.toList, List.append_assoc] using hnd
      have cA2 : ∀ q ∈ A.toList, Cons (h1.set l { nl with right := t1.root }) q := fun q hq =>
        Cons.frame_tree hsA (fun c hc => by
          rw [e2 c (by rintro rfl; exact hlA hc), hF1 c (nmL c (by simp [hc]) (dAB c hc))])
          hq (cA q hq)
      have cT2 : ∀ q ∈ t1.toList, Cons (h1.set l { nl with right := t1.root }) q := fun q hq =>
        Cons.frame_tree hS1 (fun c hc => cview_of_eq (e2 c (by rintro rfl; exact hlt1 hc)))
          hq (hC1 q hq)
      have hgs : (h1.set l { nl with right := t1.root }).get l =
          some { nl with right := t1.root } := Heap.get_set_self _ _ _
      obtain ⟨h3, nd3, hmf, hS3, hC3, hD3, hF3, hg3, hp3⟩ :=
        merge_fix_spec (A := A) (B := t1) hgs hll rfl hA2 hT2 hndN cA2 cT2
      refine ⟨h3, .node A l t1, ?_, hS3, ?_, hC3, ?_, ?_, ?_⟩
      · show merge (f + 1) h (some l) (some r) = some (h3, some l)
        simp only [merge, hgl, hgr, if_pos hpr]
        rw [hlr, show some r = (Tree.node C r D).root from rfl, hm]
        simp only [hg1, hmf, Option.bind]
      · simp only [Tree.toList, hL1, List.append_assoc, List.cons_append]
      · have d2 : DataEq h1 (h1.set l { nl with right := t1.root }) := DataEq.set_data hg1 rfl
        exact (hD1.trans_data d2).trans_data hD3
      · intro q hq
        have hq' : q ∉ (Tree.node A l t1).toList := by
          simp only [Tree.toList, hL1]
          simpa [Tree.toList, List.append_assoc] using hq
        have hql : q ≠ l := by rintro rfl; exact hq (by simp [Tree.toList])
        rw [hF3 q hq', e2 q hql, hF1 q]
        simp only [Tree.toList, List.mem_append, List.mem_cons, not_or] at hq ⊢
        exact ⟨hq.1.2.2, hq.2⟩
      · intro x hx
        simp only [Tree.root, Option.some.injEq] at hx
        subst hx
        exact ⟨Or.inl rfl, nd3, hg3, Or.inr ⟨nl, hgl, hp3⟩⟩
    · -- the right root stays on top
      have hndL : ((Tree.node A l B).toList ++ C.toList).Nodup := by
        simp only [Tree.toList]
        refine List.nodup_append.mpr ⟨hn1.1, hn4.1, ?_⟩
        intro q h1 h2
        exact dLR q h1 (by simp [h2])
      obtain ⟨h1, t1, hm, hS1, hL1, hC1, hD1, hF1, _⟩ :=
        merge_spec f (.node A l B) C h hsl0 hsC hndL
          (by simpa [Tree.toList] using hcl) (fun q hq _ => cC q hq) hf'.2
      have nmR : ∀ q, q ∈ C.toList ++ r :: D.toList → q ∉ C.toList →
          q ∉ (Tree.node A l B).toList ++ C.toList := by
        intro q hq hqC hm
        rcases List.mem_append.mp hm with hm | hm
        · exact dLR q (by simpa [Tree.toList] using hm) hq
        · exact hqC hm
      have hr1 : r ∉ (Tree.node A l B).toList ++ C.toList := nmR r (by simp) hrC
      have hg1 : h1.get r = some nr := by rw [hF1 r hr1]; exact hgr
      have hrt1 : r ∉ t1.toList := by rw [hL1]; exact hr1
      have e2 : ∀ q, q ≠ r → (h1.set r { nr with left := t1.root }).get q = h1.get q :=
        fun q hq => Heap.get_set_ne _ _ hq
      have hD2 : ShapeU (h1.set r { nr with left := t1.root }) D := by
        apply ShapeU.frame_shape hn5.2 _ hsD
        intro q hq
        rw [e2 q (by rintro rfl; exact hrD hq),
          hF1 q (nmR q (by simp [hq]) (fun hm => dCD q hm hq))]
      have hndt : t1.toList.Nodup := by rw [hL1]; exact hndL
      have hT2 : ShapeU (h1.set r { nr with left := t1.root }) t1 :=
        ShapeU.frame_shape hndt (fun q hq => e2 q (by rintro rfl; exact hrt1 hq)) hS1
      have hndN : (Tree.node t1 r D).toList.Nodup := by
        simp only [Tree.toList, hL1]
        simpa [Tree.toList, List.append_assoc] using hnd
      have cD2 : ∀ q ∈ D.toList, Cons (h1.set r { nr with left := t1.root }) q := fun q hq =>
        Cons.frame_tree hsD (fun c hc => by
          rw [e2 c (by rintro rfl; exact hrD hc),
            hF1 c (nmR c (by simp [hc]) (fun hm => dCD c hm hc))])
          hq (cD q hq)
      have cT2 : ∀ q ∈ t1.toList, Cons (h1.set r { nr with left := t1.root }) q := fun q hq =>
        Cons.frame_tree hS1 (fun c hc => cview_of_eq (e2 c (by rintro rfl; exact hrt1 hc)))
          hq (hC1 q hq)
      have hgs : (h1.set r { nr with left := t1.root }).get r =
          some { nr with left := t1.root } := Heap.get_set_self _ _ _
      obtain ⟨h3, nd3, hmf, hS3, hC3, hD3, hF3, hg3, hp3⟩ :=
        merge_fix_spec (A := t1) (B := D) hgs rfl hrr hT2 hD2 hndN cT2 cD2
      refine ⟨h3, .node t1 r D, ?_, hS3, ?_, hC3, ?_, ?_, ?_⟩
      · show merge (f + 1) h (some l) (some r) = some (h3, some r)
        simp only [merge, hgl, hgr, if_neg hpr]
        rw [hrl, show some l = (Tree.node A l B).root from rfl, hm]
        simp only [hg1, hmf, Option.bind]
      · simp only [Tree.toList, hL1, List.append_assoc, List.cons_append]
      · have d2 : DataEq h1 (h1.set r { nr with left := t1.root }) := DataEq.set_data hg1 rfl
        exact (hD1.trans_data d2).trans_data hD3
      · intro q hq
        have hq' : q ∉ (Tree.node t1 r D).toList := by
          simp only [Tree.toList, hL1]
          simpa [Tree.toList, List.append_assoc] using hq
        have hqr : q ≠ r := by rintro rfl; exact hq (by simp [Tree.toList])
        rw [hF3 q hq', e2 q hqr, hF1 q]
        simp only [Tree.toList, List.mem_append, List.mem_cons, not_or] at hq ⊢
        exact ⟨hq.1, hq.2.1⟩
      · intro x hx
        simp only [Tree.root, Option.some.injEq] at hx
        subst hx
        exact ⟨Or.inr rfl, nd3, hg3, Or.inr ⟨nr, hgr, hp3⟩⟩

theorem Tree.root_of_mem {t : Tree} {p : Nat} (hp : p ∈ t.toList) : ∃ y, t.root = some y := by
  cases t with
  | nil => simp [Tree.toList] at hp
  | node l x r => exact ⟨x, rfl⟩

theorem lift_step {h : Heap} {y x : Nat} {nd : Node} (hg : h.get y = some nd)
    (hp : nd.parent = some x) (f : Nat) : lift (f + 1) h (some y) = lift f h (some x) := by
  cases f <;> simp only [lift, hg, hp]

theorem lift_root {h : Heap} {x : Nat} {nd : Node} (hg : h.get x = some nd)
    (hp : nd.parent = none) (f : Nat) : lift (f + 1) h (some x) = some (some x) := by
  simp only [lift, hg, hp]

/-- From a node of a treap, `lift` climbs to the root of the treap. -/
theorem lift_in_tree : ∀ (t : Tree) (h : Heap), ShapeU h t → ∀ p ∈ t.toList,
    ∃ d, d < t.size ∧ ∀ f, lift (f + d) h (some p) = lift f h t.root
  | .nil, _, _, p, hp => by simp [Tree.toList] at hp
  | .node l x r, h, hs, p, hp => by
    obtain ⟨nd, hg, hl0, hr0, hsz, hsl, hsr, hpl, hpr⟩ := hs
    simp only [Tree.toList, List.mem_append, List.mem_cons] at hp
    rcases hp with hp | hp | hp
    · obtain ⟨d, hd, hlift⟩ := lift_in_tree l h hsl p hp
      obtain ⟨y, hy⟩ := Tree.root_of_mem hp
      obtain ⟨ndy, hgy, hpy⟩ := hpl y hy
      refine ⟨d + 1, by simp only [Tree.size]; omega, fun f => ?_⟩
      have := hlift (f + 1)
      rw [show f + (d + 1) = f + 1 + d by omega, this, hy]
      exact lift_step hgy hpy f
    · subst hp
      exact ⟨0, by simp [Tree.size], fun f => rfl⟩
    · obtain ⟨d, hd, hlift⟩ := lift_in_tree r h hsr p hp
      obtain ⟨y, hy⟩ := Tree.root_of_mem hp
      obtain ⟨ndy, hgy, hpy⟩ := hpr y hy
      refine ⟨d + 1, by simp only [Tree.size]; omega, fun f => ?_⟩
      have := hlift (f + 1)
      rw [show f + (d + 1) = f + 1 + d by omega, this, hy]
      exact lift_step hgy hpy f

theorem lift_spec {t : Tree} {h : Heap} (hs : ShapeU h t) (hpar : ParentIs h t.root none)
    {p : Nat} (hp : p ∈ t.toList) {f : Nat} (hf : t.size ≤ f) :
    lift f h (some p) = some t.root := by
  obtain ⟨d, hd, hlift⟩ := lift_in_tree t h hs p hp
  cases t with
  | nil => simp [Tree.toList] at hp
  | node l x r =>
    obtain ⟨nd, hg, hpn⟩ := hpar x rfl
    have := hlift (f - d - 1 + 1)
    rw [show f - d - 1 + 1 + d = f by omega] at this
    rw [this]
    exact lift_root hg hpn _

theorem gnk_none (f : Nat) (h : Heap) (c : Option Nat) (acc : Int) :
    get_normal_key f h none c acc = some acc := by
  cases f <;> rfl

theorem gnk_step_left {h : Heap} {y x : Nat} {nd : Node} (hg : h.get x = some nd)
    (hne : nd.right ≠ some y) (f : Nat) (acc : Int) :
    get_normal_key (f + 1) h (some x) (some y) acc = get_normal_key f h nd.parent (some x) acc := by
  simp only [get_normal_key, hg, if_neg hne]

theorem gnk_step_right {h : Heap} {y x : Nat} {nd : Node} {sl : Int} (hg : h.get x = some nd)
    (he : nd.right = some y) (hsl : get_size h nd.left = some sl) (f : Nat) (acc : Int) :
    get_normal_key (f + 1) h (some x) (some y) acc =
      get_normal_key f h nd.parent (some x) (acc + sl + 1) := by
  simp only [get_normal_key, hg, if_pos he, hsl]

/-- Climbing from a node to the root of its treap, `get_normal_key` adds up the in-order
index of the node. -/
theorem gnk_in_tree : ∀ (t : Tree) (h : Heap), ShapeU h t → t.toList.Nodup → ∀ p ∈ t.toList,
    ∃ d nd sl, d < t.size ∧ h.get p = some nd ∧ get_size h nd.left = some sl ∧
      ∀ x ndx, t.root = some x → h.get x = some ndx → ∀ f acc,
        get_normal_key (f + d) h nd.parent (some p) (acc + sl) =
          get_normal_key f h ndx.parent (some x) (acc + (t.toList.indexOf p : Int))
  | .nil, _, _, _, p, hp => by simp [Tree.toList] at hp
  | .node l x r, h, hs, hnd, p, hp => by
    obtain ⟨nd0, hg0, hl0, hr0, hsz, hsl, hsr, hpl, hpr⟩ := hs
    simp only [Tree.toList] at hnd
    have hnd1 := List.nodup_append.mp hnd
    have hnd2 := List.nodup_cons.mp hnd1.2.1
    have hxl : x ∉ l.toList := fun hm => hnd1.2.2 hm (List.mem_cons_self _ _)
    have hlr : ∀ q, q ∈ l.toList → q ∉ r.toList := fun q h1 h2 => hnd1.2.2 h1 (by simp [h2])
    have hszl : get_size h nd0.left = some (l.size : Int) := by rw [hl0]; exact hsl.size_root
    simp only [Tree.toList, List.mem_append, List.mem_cons] at hp
    rcases hp with hp | hp | hp
    · obtain ⟨d, nd, sl, hd, hg, hsz', hk⟩ := gnk_in_tree l h hsl hnd1.1 p hp
      obtain ⟨y, hy⟩ := Tree.root_of_mem hp
      obtain ⟨ndy, hgy, hpy⟩ := hpl y hy
      refine ⟨d + 1, nd, sl, by simp only [Tree.size]; omega, hg, hsz', ?_⟩
      intro x' ndx hx' hgx f acc
      simp only [Tree.root, Option.some.injEq] at hx'
      subst hx'
      rw [hg0] at hgx; cases hgx
      have := hk y ndy hy hgy (f + 1) acc
      rw [show f + (d + 1) = f + 1 + d by omega, this, hpy]
      have hne : nd0.right ≠ some y := by
        rw [hr0]
        intro he
        exact hlr y (Tree.root_mem hy) (Tree.root_mem he)
      rw [gnk_step_left hg0 hne]
      rw [show (Tree.node l x r).toList = l.toList ++ x :: r.toList from rfl,
        List.indexOf_append_of_mem hp]
    · subst hp
      refine ⟨0, nd0, l.size, by simp [Tree.size], hg0, hszl, ?_⟩
      intro x' ndx hx' hgx f acc
      simp only [Tree.root, Option.some.injEq] at hx'
      subst hx'
      rw [hg0] at hgx; cases hgx
      rw [show (Tree.node l p r).toList = l.toList ++ p :: r.toList from rfl,
        List.indexOf_append_of_not_mem hxl, List.indexOf_cons_self, Tree.length_toList]
      rfl
    · obtain ⟨d, nd, sl, hd, hg, hsz', hk⟩ := gnk_in_tree r h hsr hnd2.2 p hp
      obtain ⟨y, hy⟩ := Tree.root_of_mem hp
      obtain ⟨ndy, hgy, hpy⟩ := hpr y hy
      refine ⟨d + 1, nd, sl, by simp only [Tree.size]; omega, hg, hsz', ?_⟩
      intro x' ndx hx' hgx f acc
      simp only [Tree.root, Option.some.injEq] at hx'
      subst hx'
      rw [hg0] at hgx; cases hgx
      have := hk y ndy hy hgy (f + 1) acc
      rw [show f + (d + 1) = f + 1 + d by omega, this, hpy]
      rw [gnk_step_right hg0 (hr0.trans hy) hszl]
      have hpl' : p ∉ l.toList := fun hm => hlr p hm hp
      have hpx : x ≠ p := by rintro rfl; exact hnd2.1 hp
      rw [show (Tree.node l x r).toList = l.toList ++ x :: r.toList from rfl,
        List.indexOf_append_of_not_mem hpl', List.indexOf_cons_ne _ hpx, Tree.length_toList]
      congr 1
      push_cast
      ring

/-- The position computed upward from a node is its in-order index. -/
theorem position_spec {t : Tree} {h : Heap} (hs : ShapeU h t) (hnd : t.toList.Nodup)
    (hpar : ParentIs h t.root none) {p : Nat} (hp : p ∈ t.toList) (hf : t.size ≤ h.next + 1) :
    position h (some p) = some (t.toList.indexOf p : Int) := by
  obtain ⟨d, nd, sl, hd, hg, hsz, hk⟩ := gnk_in_tree t h hs hnd p hp
  cases t with
  | nil => simp [Tree.toList] at hp
  | node l x r =>
    obtain ⟨ndx, hgx, hpx⟩ := hpar x rfl
    have := hk x ndx rfl hgx (h.next + 1 - d) 0
    rw [show h.next + 1 - d + d = h.next + 1 by omega, hpx, gnk_none] at this
    simp only [position, hg, hsz]
    simpa using this

theorem LinksEq.refl_links (h : Heap) : LinksEq h h := ⟨rfl, fun _ => rfl⟩

theorem LinksEq.trans_links {a b c : Heap} (h1 : LinksEq a b) (h2 : LinksEq b c) : LinksEq a c :=
  ⟨h2.1.trans h1.1, fun p => (h2.2 p).trans (h1.2 p)⟩

theorem LinksEq.live_links {h h1 : Heap} (hd : LinksEq h h1) {p : Nat} {nd : Node}
    (hg : h.get p = some nd) : ∃ nd1, h1.get p = some nd1 ∧ nd1.left = nd.left ∧
      nd1.right = nd.right ∧ nd1.parent = nd.parent ∧ nd1.size = nd.size := by
  have := hd.2 p
  rw [hg] at this
  cases hq : h1.get p with
  | none => rw [hq] at this; simp at this
  | some nd1 =>
    rw [hq] at this
    simp only [Option.map_some', Option.some.injEq, Node.links, Prod.mk.injEq] at this
    exact ⟨nd1, rfl, this.1, this.2.1, this.2.2.1, this.2.2.2⟩

theorem LinksEq.set_links {h : Heap} {x : Nat} {nd nd1 : Node} (hg : h.get x = some nd)
    (hd : nd1.links = nd.links) : LinksEq h (h.set x nd1) := by
  refine ⟨rfl, fun p => ?_⟩
  simp only [Heap.get_set]
  split
  · next he => subst he; simp [hg, hd]
  · rfl

theorem ParentIs.parent_of_linksEq {h h1 : Heap} (hd : LinksEq h h1) {q par : Option Nat}
    (hp : ParentIs h q par) : ParentIs h1 q par := by
  intro x hx
  obtain ⟨nd, hg, hpn⟩ := hp x hx
  obtain ⟨nd1, hg1, _, _, e, _⟩ := hd.live_links hg
  exact ⟨nd1, hg1, e.trans hpn⟩

theorem ShapeU.shape_of_linksEq {h h1 : Heap} (hd : LinksEq h h1) :
    ∀ {t : Tree}, ShapeU h t → ShapeU h1 t
  | .nil, _ => trivial
  | .node _ x _, hs => by
    obtain ⟨nd, hg, hl0, hr0, hsz, hsl, hsr, hpl, hpr⟩ := hs
    obtain ⟨nd1, hg1, e1, e2, _, e4⟩ := hd.live_links hg
    exact ⟨nd1, hg1, e1.trans hl0, e2.trans hr0, e4.trans hsz, ShapeU.shape_of_linksEq hd hsl,
      ShapeU.shape_of_linksEq hd hsr, hpl.parent_of_linksEq hd, hpr.parent_of_linksEq hd⟩

theorem update_size_flag_some {h : Heap} {x : Nat} {nd : Node} {ml mr al ar : Bool}
    (hg : h.get x = some nd)
    (hml : get_size_min_level h nd.left = some ml) (hmr : get_size_min_level h nd.right = some mr)
    (hal : get_size_adjacent h nd.left = some al) (har : get_size_adjacent h nd.right = some ar) :
    update_size_flag h (some x) = some (h.set x { nd with
      size_of_min_level := (ml || mr || nd.is_min_level),
      size_of_adjacent := (al || ar || nd.is_has_adjacent) }) := by
  simp only [update_size_flag, hg, hml, hmr, hal, har]

/-- One step of `update_up` at the root of a tree. -/
theorem update_size_flag_root {h : Heap} {l r : Tree} {x : Nat}
    (hs : ShapeU h (.node l x r)) (hnd : (Tree.node l x r).toList.Nodup) :
    ∃ h1 nd nd1, update_size_flag h (some x) = some h1 ∧ h.get x = some nd ∧
      h1.get x = some nd1 ∧ nd1.parent = nd.parent ∧
      LinksEq h h1 ∧ DataEq h h1 ∧ (∀ q, q ≠ x → h1.get q = h.get q) ∧ Cons h1 x ∧
      (∀ q ∈ (Tree.node l x r).toList, q ≠ x → Cons h q → Cons h1 q) := by
  have hs0 := hs
  obtain ⟨nd, hg, hl0, hr0, hsz, hsl, hsr, hpl, hpr⟩ := hs
  simp only [Tree.toList] at hnd
  have hnd1 := List.nodup_append.mp hnd
  have hnd2 := List.nodup_cons.mp hnd1.2.1
  have hxl : x ∉ l.toList := fun hm => hnd1.2.2 hm (List.mem_cons_self _ _)
  have hxr : x ∉ r.toList := hnd2.1
  obtain ⟨⟨ml, hml⟩, ⟨al, hal⟩⟩ := get_agg_live (h := h) (o := nd.left)
    (fun y hy => hsl.live_shape y (Tree.root_mem (by rw [← hl0]; exact hy)))
  obtain ⟨⟨mr, hmr⟩, ⟨ar, har⟩⟩ := get_agg_live (h := h) (o := nd.right)
    (fun y hy => hsr.live_shape y (Tree.root_mem (by rw [← hr0]; exact hy)))
  have hu := update_size_flag_some hg hml hmr hal har
  have hne : ∀ q, q ≠ x → (h.set x { nd with
      size_of_min_level := (ml || mr || nd.is_min_level),
      size_of_adjacent := (al || ar || nd.is_has_adjacent) }).get q = h.get q :=
    fun q hq => Heap.get_set_ne _ _ hq
  refine ⟨_, nd, _, hu, hg, Heap.get_set_self _ _ _, rfl, LinksEq.set_links hg rfl, DataEq.set_data hg rfl,
    hne, ?_, ?_⟩
  · refine ⟨_, ml, mr, al, ar, Heap.get_set_self _ _ _, ?_, ?_, ?_, ?_, rfl, rfl⟩
    · rw [← hml]
      exact (get_agg_congr (fun y hy => cview_of_eq (hne y (by
        rintro rfl; exact hxl (Tree.root_mem (by rw [← hl0]; exact hy)))))).1
    · rw [← hmr]
      exact (get_agg_congr (fun y hy => cview_of_eq (hne y (by
        rintro rfl; exact hxr (Tree.root_mem (by rw [← hr0]; exact hy)))))).1
    · rw [← hal]
      exact (get_agg_congr (fun y hy => cview_of_eq (hne y (by
        rintro rfl; exact hxl (Tree.root_mem (by rw [← hl0]; exact hy)))))).2
    · rw [← har]
      exact (get_agg_congr (fun y hy => cview_of_eq (hne y (by
        rintro rfl; exact hxr (Tree.root_mem (by rw [← hr0]; exact hy)))))).2
  · intro q hq hqx hc
    simp only [Tree.toList, List.mem_append, List.mem_cons] at hq
    rcases hq with hq | hq | hq
    · exact Cons.frame_tree hsl
        (fun c hc' => cview_of_eq (hne c (by rintro rfl; exact hxl hc'))) hq hc
    · exact absurd hq hqx
    · exact Cons.frame_tree hsr
        (fun c hc' => cview_of_eq (hne c (by rintro rfl; exact hxr hc'))) hq hc

theorem update_up_unfold {h h1 : Heap} {x : Nat} {nd1 : Node}
    (hu : update_size_flag h (some x) = some h1) (hg : h1.get x = some nd1) (f : Nat) :
    update_up (f + 1) h (some x) =
      match nd1.parent with
      | none => some h1
      | some q => update_up f h1 (some q) := by
  rw [update_up]
  simp only [hu, hg]
  try (cases nd1.parent <;> rfl)

/-- Climbing from a node to the root of its treap, `update_up` rewrites aggregates only
and leaves every node it passed, and every node that was consistent, consistent. -/
theorem update_up_in_tree : ∀ (t : Tree) (h : Heap), ShapeU h t → t.toList.Nodup →
    ∀ p ∈ t.toList,
    ∃ d h1, d < t.size ∧ LinksEq h h1 ∧ DataEq h h1 ∧
      (∀ q, q ∉ t.toList → h1.get q = h.get q) ∧
      (∀ q ∈ t.toList, (q ≠ p → Cons h q) → Cons h1 q) ∧
      ∀ x ndx, t.root = some x → h.get x = some ndx → ∀ f,
        update_up (f + d + 1) h (some p) =
          match ndx.parent with
          | none => some h1
          | some q => update_up f h1 (some q)
  | .nil, _, _, _, p, hp => by simp [Tree.toList] at hp
  | .node l x r, h, hs, hnd, p, hp => by
    have hs0 := hs
    have hnd0 := hnd
    obtain ⟨nd0, hg0, hl0, hr0, hsz, hsl, hsr, hpl, hpr⟩ := hs
    simp only [Tree.toList] at hnd
    have hnd1 := List.nodup_append.mp hnd
    have hnd2 := List.nodup_cons.mp hnd1.2.1
    have hxl : x ∉ l.toList := fun hm => hnd1.2.2 hm (List.mem_cons_self _ _)
    have hxr : x ∉ r.toList := hnd2.1
    have hlr : ∀ q, q ∈ l.toList → q ∉ r.toList := fun q h1 h2 => hnd1.2.2 h1 (by simp [h2])
    -- the final step at the root `x`, from any heap with the same links
    have last : ∀ (h1 : Heap), LinksEq h h1 → DataEq h h1 →
        ∃ h2, LinksEq h h2 ∧ DataEq h h2 ∧ (∀ q, q ≠ x → h2.get q = h1.get q) ∧ Cons h2 x ∧
          (∀ q ∈ (Tree.node l x r).toList, q ≠ x → Cons h1 q → Cons h2 q) ∧
          ∀ f, update_up (f + 1) h1 (some x) =
            match nd0.parent with
            | none => some h2
            | some q => update_up f h2 (some q) := by
      intro h1 hL hD
      obtain ⟨h2, nd, nd1, hu, hg, hg1, hp1, hL2, hD2, e2, hc2, hcq⟩ :=
        update_size_flag_root (ShapeU.shape_of_linksEq hL hs0) hnd0
      obtain ⟨nd', hg', _, _, hp', _⟩ := hL.live_links hg0
      rw [hg] at hg'; cases hg'
      refine ⟨h2, hL.trans_links hL2, hD.trans_data hD2, e2, hc2, hcq, fun f => ?_⟩
      rw [update_up_unfold hu hg1 f, hp1, hp']
    simp only [Tree.toList, List.mem_append, List.mem_cons] at hp
    rcases hp with hp | hp | hp
    · obtain ⟨d, h1, hd, hL1, hD1, hF1, hC1, hE1⟩ := update_up_in_tree l h hsl hnd1.1 p hp
      obtain ⟨y, hy⟩ := Tree.root_of_mem hp
      obtain ⟨ndy, hgy, hpy⟩ := hpl y hy
      obtain ⟨h2, hL2, hD2, e2, hc2, hcq, hE2⟩ := last h1 hL1 hD1
      refine ⟨d + 1, h2, by simp only [Tree.size]; omega, hL2, hD2, ?_, ?_, ?_⟩
      · intro q hq
        simp only [Tree.toList, List.mem_append, List.mem_cons, not_or] at hq
        rw [e2 q hq.2.1, hF1 q hq.1]
      · intro q hq hcq'
        by_cases hqx : q = x
        · subst hqx; exact hc2
        · apply hcq q hq hqx
          simp only [Tree.toList, List.mem_append, List.mem_cons] at hq
          rcases hq with hq | hq | hq
          · exact hC1 q hq hcq'
          · exact absurd hq hqx
          · have hqp : q ≠ p := by rintro rfl; exact hlr q hp hq
            exact Cons.frame_tree hsr
              (fun c hc' => cview_of_eq (hF1 c (fun hm => hlr c hm hc'))) hq (hcq' hqp)
      · intro x' ndx hx' hgx f
        simp only [Tree.root, Option.some.injEq] at hx'
        subst hx'
        rw [hg0] at hgx; cases hgx
        have := hE1 y ndy hy hgy (f + 1)
        rw [show f + (d + 1) + 1 = f + 1 + d + 1 by omega, this, hpy]
        exact hE2 f
    · subst hp
      obtain ⟨h2, hL2, hD2, e2, hc2, hcq, hE2⟩ := last h (LinksEq.refl_links h) (DataEq.refl_data h)
      refine ⟨0, h2, by simp [Tree.size], hL2, hD2, ?_, ?_, ?_⟩
      · intro q hq
        simp only [Tree.toList, List.mem_append, List.mem_cons, not_or] at hq
        exact e2 q hq.2.1
      · intro q hq hcq'
        by_cases hqx : q = p
        · subst hqx; exact hc2
        · exact hcq q hq hqx (hcq' hqx)
      · intro x' ndx hx' hgx f
        simp only [Tree.root, Option.some.injEq] at hx'
        subst hx'
        rw [hg0] at hgx; cases hgx
        exact hE2 f
    · obtain ⟨d, h1, hd, hL1, hD1, hF1, hC1, hE1⟩ := update_up_in_tree r h hsr hnd2.2 p hp
      obtain ⟨y, hy⟩ := Tree.root_of_mem hp
      obtain ⟨ndy, hgy, hpy⟩ := hpr y hy
      obtain ⟨h2, hL2, hD2, e2, hc2, hcq, hE2⟩ := last h1 hL1 hD1
      refine ⟨d + 1, h2, by simp only [Tree.size]; omega, hL2, hD2, ?_, ?_, ?_⟩
      · intro q hq
        simp only [Tree.toList, List.mem_append, List.mem_cons, not_or] at hq
        rw [e2 q hq.2.1, hF1 q hq.2.2]
      · intro q hq hcq'
        by_cases hqx : q = x
        · subst hqx; exact hc2
        · apply hcq q hq hqx
          simp only [Tree.toList, List.mem_append, List.mem_cons] at hq
          rcases hq with hq | hq | hq
          · have hqp : q ≠ p := by rintro rfl; exact hlr q hq hp
            exact Cons.frame_tree hsl
              (fun c hc' => cview_of_eq (hF1 c (fun hm => hlr c hc' hm))) hq (hcq' hqp)
          · exact absurd hq hqx
          · exact hC1 q hq hcq'
      · intro x' ndx hx' hgx f
        simp only [Tree.root, Option.some.injEq] at hx'
        subst hx'
        rw [hg0] at hgx; cases hgx
        have := hE1 y ndy hy hgy (f + 1)
        rw [show f + (d + 1) + 1 = f + 1 + d + 1 by omega, this, hpy]
        exact hE2 f

/-- From a node of a treap with a parentless root, `update_up` returns. -/
theorem update_up_spec {t : Tree} {h : Heap} (hs : ShapeU h t) (hnd : t.toList.Nodup)
    (hpar : ParentIs h t.root none) {p : Nat} (hp : p ∈ t.toList) {f : Nat} (hf : t.size ≤ f) :
    ∃ h1, update_up f h (some p) = some h1 ∧ LinksEq h h1 ∧ DataEq h h1 ∧
      (∀ q, q ∉ t.toList → h1.get q = h.get q) ∧
      (∀ q ∈ t.toList, (q ≠ p → Cons h q) → Cons h1 q) := by
  obtain ⟨d, h1, hd, hL, hD, hF, hC, hE⟩ := update_up_in_tree t h hs hnd p hp
  obtain ⟨x, hx⟩ := Tree.root_of_mem hp
  obtain ⟨ndx, hgx, hpx⟩ := hpar x hx
  refine ⟨h1, ?_, hL, hD, hF, hC⟩
  have := hE x ndx hx hgx (f - d - 1)
  rw [show f - d - 1 + d + 1 = f by omega, hpx] at this
  exact this

theorem ShapeU.lt_next {h : Heap} (hw : h.WF) {t : Tree} (hs : ShapeU h t) :
    ∀ p ∈ t.toList, p < h.next := by
  intro p hp
  obtain ⟨nd, hg⟩ := hs.live_shape p hp
  exact hw.lt hg

theorem ShapeU.size_le_next {h : Heap} (hw : h.WF) {t : Tree} (hs : ShapeU h t)
    (hnd : t.toList.Nodup) : t.size ≤ h.next := by
  have hsub : t.toList ⊆ List.range h.next := by
    intro p hp
    exact List.mem_range.mpr (hs.lt_next hw p hp)
  have := (List.subperm_of_subset hnd hsub).length_le
  rw [Tree.length_toList, List.length_range] at this
  exact this

theorem GoodTree.frame_good {h h1 : Heap} {t : Tree} (hnd : t.toList.Nodup)
    (hag : ∀ q ∈ t.toList, h1.get q = h.get q) (hg : GoodTree h t) : GoodTree h1 t := by
  obtain ⟨hs, hp, hc⟩ := hg
  refine ⟨hs.frame_shape hnd hag, hp.congr_parent (fun x hx => hag x (Tree.root_mem hx)), ?_⟩
  intro p hp'
  exact Cons.frame_tree hs (fun c hc' => cview_of_eq (hag c hc')) hp' (hc p hp')

theorem keyOf_of_dataEq {h h1 : Heap} (hd : DataEq h h1) (p : Nat) : keyOf h1 p = keyOf h p := by
  have := hd.2 p
  simp only [keyOf]
  cases h1p : h1.get p with
  | none =>
    rw [h1p] at this
    cases hp : h.get p with
    | none => rfl
    | some nd => rw [hp] at this; simp at this
  | some nd1 =>
    rw [h1p] at this
    cases hp : h.get p with
    | none => rw [hp] at this; simp at this
    | some nd =>
      rw [hp] at this
      simp only [Option.map_some', Option.some.injEq, Node.data, Prod.mk.injEq] at this
      exact this.1

theorem keyOf_eq {h : Heap} {p : Nat} {nd : Node} (hg : h.get p = some nd) :
    keyOf h p = nd.key := by
  simp only [keyOf, hg]

theorem EdgeMap.at_some {m : EdgeMap} {k : Int × Int} {p : Option Nat} (hm : m k = some p) :
    m.at k = (m, p) := by
  simp only [EdgeMap.at, hm]

theorem rot_length (s : List Nat) (k : Nat) : (rot s k).length = s.length := by
  simp only [rot, List.length_append, List.length_drop, List.length_take]
  omega

theorem rot_perm (s : List Nat) (k : Nat) : (rot s k).Perm s := by
  have := @List.perm_append_comm _ (s.drop k) (s.take k)
  rw [List.take_append_drop] at this
  exact this

theorem mem_rot {s : List Nat} {k : Nat} {p : Nat} : p ∈ rot s k ↔ p ∈ s :=
  (rot_perm s k).mem_iff

/-- Function `reroot` rotates the treap so that the registered node comes first. -/
theorem reroot_spec {h : Heap} {t : Tree} {m : EdgeMap} {a b : Int} {p : Nat}
    (hw : h.WF) (hg : GoodTree h t) (hnd : t.toList.Nodup)
    (hm : m (a, b) = some (some p)) (hp : p ∈ t.toList) :
    ∃ h2 t2, reroot h t.root a b m = some (h2, m, t2.root) ∧ GoodTree h2 t2 ∧
      t2.toList = rot t.toList (t.toList.indexOf p) ∧ DataEq h h2 ∧
      (∀ q, q ∉ t.toList → h2.get q = h.get q) := by
  obtain ⟨hs, hpar, hc⟩ := hg
  have hsz := hs.size_le_next hw hnd
  have hpos := position_spec hs hnd hpar hp (by omega)
  obtain ⟨h1, tl, tr, hsp, hS1, hS2, hL1, hL2, hC1, hD1, hF1, hP1⟩ :=
    split_spec t (h.next + 1) h (t.toList.indexOf p : Int) hs hnd hc (by omega)
  have hsplit : t.toList = tl.toList ++ tr.toList := by
    rw [hL1, hL2, List.take_append_drop]
  have hnd' : (tr.toList ++ tl.toList).Nodup := by
    have : (tl.toList ++ tr.toList).Nodup := by rw [← hsplit]; exact hnd
    exact (List.perm_append_comm.nodup_iff).mp this
  have hsz1 : tr.size + tl.size ≤ h1.next + 1 := by
    have := congrArg List.length hsplit
    rw [List.length_append, Tree.length_toList, Tree.length_toList, Tree.length_toList] at this
    rw [hD1.1]; omega
  obtain ⟨h2, t2, hmg, hS3, hL3, hC3, hD3, hF3, hP3⟩ :=
    merge_spec (h1.next + 1) tr tl h1 hS2 hS1 hnd'
      (fun q hq _ => hC1 q (by rw [hsplit]; simp [hq]))
      (fun q hq _ => hC1 q (by rw [hsplit]; simp [hq])) hsz1
  refine ⟨h2, t2, ?_, ⟨hS3, ?_, hC3⟩, ?_, hD1.trans_data hD3, ?_⟩
  · simp only [reroot, EdgeMap.at_some hm, hpos, hsp, hmg]
  · intro x hx
    obtain ⟨hxr, nd1, hg1, hpp⟩ := hP3 x hx
    refine ⟨nd1, hg1, ?_⟩
    rcases hpp with hpp | ⟨nd, hgn, hpp⟩
    · exact hpp
    · obtain ⟨nd', hg', hp'⟩ := hP1 none hpar x hxr.symm
      rw [hgn] at hg'; cases hg'
      rw [hpp]
      rcases hp' with hp' | hp' <;> exact hp'
  · rw [hL3, hL1, hL2]; simp [rot]
  · intro q hq
    rw [hF3 q (by rw [hsplit] at hq; simpa [or_comm] using hq), hF1 q hq]

theorem nodup_length_le {l : List Nat} {n : Nat} (hnd : l.Nodup) (hlt : ∀ p ∈ l, p < n) :
    l.length ≤ n := by
  have hsub : l ⊆ List.range n := fun p hp => List.mem_range.mpr (hlt p hp)
  have := (List.subperm_of_subset hnd hsub).length_le
  rw [List.length_range] at this
  exact this

/-- Function `merge` on two whole treaps, of which only the roots may have stale
aggregates, gives a whole treap. -/
theorem merge_good {h : Heap} {tl tr : Tree} (hw : h.WF)
    (hsl : ShapeU h tl) (hpl : ParentIs h tl.root none)
    (hcl : ∀ p ∈ tl.toList, tl.root ≠ some p → Cons h p)
    (hsr : ShapeU h tr) (hpr : ParentIs h tr.root none)
    (hcr : ∀ p ∈ tr.toList, tr.root ≠ some p → Cons h p)
    (hnd : (tl.toList ++ tr.toList).Nodup) :
    ∃ h1 t, merge (h.next + 1) h tl.root tr.root = some (h1, t.root) ∧ GoodTree h1 t ∧
      t.toList = tl.toList ++ tr.toList ∧ DataEq h h1 ∧
      (∀ p, p ∉ tl.toList ++ tr.toList → h1.get p = h.get p) := by
  have hlen : (tl.toList ++ tr.toList).length ≤ h.next := by
    apply nodup_length_le hnd
    intro p hp
    rcases List.mem_append.mp hp with hp | hp
    · exact hsl.lt_next hw p hp
    · exact hsr.lt_next hw p hp
  rw [List.length_append, Tree.length_toList, Tree.length_toList] at hlen
  obtain ⟨h1, t, hm, hS, hL, hC, hD, hF, hP⟩ :=
    merge_spec (h.next + 1) tl tr h hsl hsr hnd hcl hcr (by omega)
  refine ⟨h1, t, hm, ⟨hS, ?_, hC⟩, hL, hD, hF⟩
  intro x hx
  obtain ⟨hxr, nd1, hg1, hpp⟩ := hP x hx
  refine ⟨nd1, hg1, ?_⟩
  rcases hpp with hpp | ⟨nd, hgn, hpp⟩
  · exact hpp
  · rw [hpp]
    rcases hxr with hxr | hxr
    · obtain ⟨nd', hg', hp'⟩ := hpl x hxr
      rw [hgn] at hg'; cases hg'; exact hp'
    · obtain ⟨nd', hg', hp'⟩ := hpr x hxr
      rw [hgn] at hg'; cases hg'; exact hp'

theorem Heap.get_alloc (h : Heap) (nd : Node) (q : Nat) :
    (h.alloc nd).1.get q = if q = h.next then some nd else h.get q := rfl

theorem Heap.next_alloc (h : Heap) (nd : Node) : (h.alloc nd).1.next = h.next + 1 := rfl

theorem Heap.snd_alloc (h : Heap) (nd : Node) : (h.alloc nd).2 = h.next := rfl

theorem Heap.WF.alloc {h : Heap} (hw : h.WF) (nd : Node) : (h.alloc nd).1.WF := by
  intro p hp
  rw [Heap.next_alloc] at hp
  rw [Heap.get_alloc, if_neg (by omega)]
  exact hw p (by omega)

theorem Heap.get_alloc_lt {h : Heap} (nd : Node) {q : Nat} (hq : q < h.next) :
    (h.alloc nd).1.get q = h.get q := by
  rw [Heap.get_alloc, if_neg (by omega)]

/-- A node fresh from the constructor is a one-node treap. -/
theorem ShapeU.single {h : Heap} {x : Nat} {nd : Node} (hg : h.get x = some nd)
    (hl : nd.left = none) (hr : nd.right = none) (hsz : nd.size = 1) :
    ShapeU h (.node .nil x .nil) :=
  ⟨nd, hg, hl, hr, by simp [hsz, Tree.size], trivial, trivial, ParentIs.none _ _, ParentIs.none _ _⟩

theorem FRep.perm {h : Heap} {m : EdgeMap} {ts ts1 : List Tree} (hp : ts.Perm ts1)
    (hr : FRep h m ts) : FRep h m ts1 := by
  have hfl : (ts.flatMap Tree.toList).Perm (ts1.flatMap Tree.toList) := hp.flatMap_right _
  refine ⟨fun t ht => hr.good t (hp.mem_iff.mpr ht), hfl.nodup_iff.mp hr.nodup, ?_, hr.nonull⟩
  intro k p
  rw [hr.reg k p, hfl.mem_iff]

theorem FRep.mem_of_reg {h : Heap} {m : EdgeMap} {ts : List Tree} (hr : FRep h m ts)
    {k : Int × Int} {p : Nat} (hm : m k = some (some p)) :
    ∃ t ∈ ts, p ∈ t.toList := by
  have := ((hr.reg k p).mp hm).1
  rw [List.mem_flatMap] at this
  exact this

theorem FRep.nodup_tree {h : Heap} {m : EdgeMap} {ts : List Tree} (hr : FRep h m ts)
    {t : Tree} (ht : t ∈ ts) : t.toList.Nodup :=
  (List.nodup_flatMap.mp hr.nodup).1 t ht

theorem flatMap_cons2 (tA tB : Tree) (rest : List Tree) :
    (tA :: tB :: rest).flatMap Tree.toList =
      tA.toList ++ (tB.toList ++ rest.flatMap Tree.toList) := by
  simp [List.flatMap_cons]

/-- Method `add_edge` links two treaps of a forest: the tour of the result is the tour of
the first rerooted at `uu`, the new node `(uu, vv)`, the tour of the second rerooted at
`vv`, and the new node `(vv, uu)`. -/
theorem add_edge_spec {h : Heap} {g : Gen} {F : DynamicForest} {tA tB : Tree}
    {rest : List Tree} {uu vv lvl : Int} {pu pv : Nat}
    (hw : h.WF) (hr : FRep h F.map_edges (tA :: tB :: rest))
    (hmu : F.map_edges (uu, uu) = some (some pu)) (hpu : pu ∈ tA.toList)
    (hmv : F.map_edges (vv, vv) = some (some pv)) (hpv : pv ∈ tB.toList)
    (hne : uu ≠ vv) (huv : F.map_edges (uu, vv) = none) (hvu : F.map_edges (vv, uu) = none) :
    ∃ h7 T, add_edge h g F uu vv lvl = some (h7, { g with drawn := g.drawn + 1 + 1 },
        { F with map_edges :=
            (F.map_edges.set (uu, vv) (some h.next)).set (vv, uu) (some (h.next + 1)) }) ∧
      FRep h7 ((F.map_edges.set (uu, vv) (some h.next)).set (vv, uu) (some (h.next + 1)))
        (T :: rest) ∧
      T.toList = rot tA.toList (tA.toList.indexOf pu) ++
        h.next :: (rot tB.toList (tB.toList.indexOf pv) ++ [h.next + 1]) ∧
      h7.WF ∧ h7.next = h.next + 2 ∧
      (∀ q, q < h.next → (h7.get q).map Node.data = (h.get q).map Node.data) ∧
      (∀ q, q < h.next → q ∉ tA.toList → q ∉ tB.toList → h7.get q = h.get q) ∧
      (h7.get h.next).map Node.data =
        some ((uu, vv), g.out g.drawn, lvl, (decide (F.level = lvl) && decide (uu < vv)), false) ∧
      (h7.get (h.next + 1)).map Node.data =
        some ((vv, uu), g.out (g.drawn + 1), lvl,
          (decide (F.level = lvl) && decide (vv < uu)), false) := by
  have hndAll := hr.nodup
  rw [flatMap_cons2] at hndAll
  have hn1 := List.nodup_append.mp hndAll
  have hn2 := List.nodup_append.mp hn1.2.1
  have hndA := hn1.1
  have hndB := hn2.1
  have dAB : ∀ q, q ∈ tA.toList → q ∉ tB.toList := fun q h1 h2 => hn1.2.2 h1 (by simp [h2])
  have dAR : ∀ q, q ∈ tA.toList → q ∉ rest.flatMap Tree.toList :=
    fun q h1 h2 => hn1.2.2 h1 (by simp only [List.mem_append]; exact Or.inr h2)
  have dBR : ∀ q, q ∈ tB.toList → q ∉ rest.flatMap Tree.toList := fun q h1 h2 => hn2.2.2 h1 h2
  have hgA := hr.good tA (by simp)
  have hgB := hr.good tB (by simp)
  -- reroot the first treap
  have hszA := hgA.1.size_le_next hw hndA
  have hl1 : lift (h.next + 1) h (some pu) = some tA.root :=
    lift_spec hgA.1 hgA.2.1 hpu (by omega)
  obtain ⟨h1, tA1, hre1, hgA1, hLA, hD1, hF1⟩ := reroot_spec hw hgA hndA hmu hpu
  have hw1 : h1.WF := hw.of_dataEq hD1
  have hgB1 : GoodTree h1 tB := hgB.frame_good hndB (fun q hq => hF1 q (fun hm => dAB q hm hq))
  -- reroot the second treap
  have hszB := hgB1.1.size_le_next hw1 hndB
  have hl2 : lift (h1.next + 1) h1 (some pv) = some tB.root :=
    lift_spec hgB1.1 hgB1.2.1 hpv (by omega)
  obtain ⟨h2, tB1, hre2, hgB2, hLB, hD2, hF2⟩ := reroot_spec hw1 hgB1 hndB hmv hpv
  have hw2 : h2.WF := hw1.of_dataEq hD2
  have hmemA : ∀ q, q ∈ tA1.toList ↔ q ∈ tA.toList := fun q => by rw [hLA]; exact mem_rot
  have hmemB : ∀ q, q ∈ tB1.toList ↔ q ∈ tB.toList := fun q => by rw [hLB]; exact mem_rot
  have hndA1 : tA1.toList.Nodup := by rw [hLA]; exact (rot_perm _ _).nodup_iff.mpr hndA
  have hndB1 : tB1.toList.Nodup := by rw [hLB]; exact (rot_perm _ _).nodup_iff.mpr hndB
  have hgA2 : GoodTree h2 tA1 :=
    hgA1.frame_good hndA1 (fun q hq => hF2 q (fun hm => dAB q ((hmemA q).mp hq) hm))
  have hnx2 : h2.next = h.next := by rw [hD2.1, hD1.1]
  -- the two new nodes
  generalize hto : ({ Node.mk3 (uu, vv) (g.out g.drawn) lvl with
      is_min_level := (decide (F.level = lvl) && decide (uu < vv)) } : Node) = ndto
  generalize hfrom : ({ Node.mk3 (vv, uu) (g.out (g.drawn + 1)) lvl with
      is_min_level := (decide (F.level = lvl) && decide (vv < uu)) } : Node) = ndfrom
  have hltA : ∀ q, q ∈ tA1.toList → q < h.next := fun q hq => by
    rw [← hnx2]; exact hgA2.1.lt_next hw2 q hq
  have hltB : ∀ q, q ∈ tB1.toList → q < h.next := fun q hq => by
    rw [← hnx2]; exact hgB2.1.lt_next hw2 q hq
  have e4 : ∀ q, q < h.next → ((h2.alloc ndto).1.alloc ndfrom).1.get q = h2.get q := by
    intro q hq
    rw [Heap.get_alloc_lt _ (by rw [Heap.next_alloc, hnx2]; omega),
      Heap.get_alloc_lt _ (by rw [hnx2]; exact hq)]
  have hw4 : ((h2.alloc ndto).1.alloc ndfrom).1.WF := (hw2.alloc _).alloc _
  have hnx4 : ((h2.alloc ndto).1.alloc ndfrom).1.next = h.next + 2 := by
    rw [Heap.next_alloc, Heap.next_alloc, hnx2]
  have hgto : ((h2.alloc ndto).1.alloc ndfrom).1.get h.next = some ndto := by
    rw [Heap.get_alloc, if_neg (by rw [Heap.next_alloc, hnx2]; omega), Heap.get_alloc,
      if_pos hnx2.symm]
  have hgfrom : ((h2.alloc ndto).1.alloc ndfrom).1.get (h.next + 1) = some ndfrom := by
    rw [Heap.get_alloc, if_pos (by rw [Heap.next_alloc, hnx2])]
  have hgA4 : GoodTree ((h2.alloc ndto).1.alloc ndfrom).1 tA1 :=
    hgA2.frame_good hndA1 (fun q hq => e4 q (hltA q hq))
  have hgB4 : GoodTree ((h2.alloc ndto).1.alloc ndfrom).1 tB1 :=
    hgB2.frame_good hndB1 (fun q hq => e4 q (hltB q hq))
  have hSto : ShapeU ((h2.alloc ndto).1.alloc ndfrom).1 (.node .nil h.next .nil) :=
    ShapeU.single hgto (by rw [← hto]; rfl) (by rw [← hto]; rfl) (by rw [← hto]; rfl)
  have hSfrom : ShapeU ((h2.alloc ndto).1.alloc ndfrom).1 (.node .nil (h.next + 1) .nil) :=
    ShapeU.single hgfrom (by rw [← hfrom]; rfl) (by rw [← hfrom]; rfl) (by rw [← hfrom]; rfl)
  have hPto : ParentIs ((h2.alloc ndto).1.alloc ndfrom).1
      (Tree.node .nil h.next .nil).root none := by
    intro x hx
    simp only [Tree.root, Option.some.injEq] at hx
    subst hx
    exact ⟨ndto, hgto, by rw [← hto]; rfl⟩
  have hPfrom : ParentIs ((h2.alloc ndto).1.alloc ndfrom).1
      (Tree.node .nil (h.next + 1) .nil).root none := by
    intro x hx
    simp only [Tree.root, Option.some.injEq] at hx
    subst hx
    exact ⟨ndfrom, hgfrom, by rw [← hfrom]; rfl⟩
  -- first merge: the first tour and the node `(uu, vv)`
  have hnd5 : (tA1.toList ++ (Tree.node .nil h.next .nil).toList).Nodup := by
    simp only [Tree.toList, List.nil_append]
    refine List.nodup_append.mpr ⟨hndA1, by simp, ?_⟩
    intro q h1 h2
    simp only [List.mem_singleton] at h2
    have := hltA q h1
    omega
  obtain ⟨h5, t5, hm5, hg5, hL5, hD5, hF5⟩ :=
    merge_good hw4 hgA4.1 hgA4.2.1 (fun p hp _ => hgA4.2.2 p hp) hSto hPto
      (fun p hp hne' => by
        simp only [Tree.toList, List.nil_append, List.mem_singleton] at hp
        subst hp
        exact absurd rfl hne') hnd5
  have hw5 : h5.WF := hw4.of_dataEq hD5
  simp only [Tree.toList, List.nil_append] at hL5 hF5
  -- second merge: the second tour
  have hgB5 : GoodTree h5 tB1 := by
    apply hgB4.frame_good hndB1
    intro q hq
    apply hF5
    simp only [List.mem_append, List.mem_singleton, not_or]
    refine ⟨fun hm => dAB q ((hmemA q).mp hm) ((hmemB q).mp hq), ?_⟩
    have := hltB q hq
    omega
  have hnd6 : (t5.toList ++ tB1.toList).Nodup := by
    rw [hL5]
    refine List.nodup_append.mpr ⟨by simpa [Tree.toList] using hnd5, hndB1, ?_⟩
    intro q h1 h2
    simp only [List.mem_append, List.mem_singleton] at h1
    rcases h1 with h1 | h1
    · exact dAB q ((hmemA q).mp h1) ((hmemB q).mp h2)
    · have := hltB q h2
      omega
  obtain ⟨h6, t6, hm6, hg6, hL6, hD6, hF6⟩ :=
    merge_good hw5 hg5.1 hg5.2.1 (fun p hp _ => hg5.2.2 p hp) hgB5.1 hgB5.2.1
      (fun p hp _ => hgB5.2.2 p hp) hnd6
  have hw6 : h6.WF := hw5.of_dataEq hD6
  -- third merge: the node `(vv, uu)`
  have hfr6 : h6.get (h.next + 1) = some ndfrom := by
    rw [hF6, hF5, hgfrom]
    · simp only [List.mem_append, List.mem_singleton, not_or]
      exact ⟨fun hm => by have := hltA _ hm; omega, by omega⟩
    · rw [hL5]
      simp only [List.mem_append, List.mem_singleton, not_or]
      exact ⟨⟨fun hm => by have := hltA _ hm; omega, by omega⟩,
        fun hm => by have := hltB _ hm; omega⟩
  have hSfrom6 : ShapeU h6 (.node .nil (h.next + 1) .nil) :=
    ShapeU.single hfr6 (by rw [← hfrom]; rfl) (by rw [← hfrom]; rfl) (by rw [← hfrom]; rfl)
  have hPfrom6 : ParentIs h6 (Tree.node .nil (h.next + 1) .nil).root none := by
    intro x hx
    simp only [Tree.root, Option.some.injEq] at hx
    subst hx
    exact ⟨ndfrom, hfr6, by rw [← hfrom]; rfl⟩
  have hnd7 : (t6.toList ++ (Tree.node .nil (h.next + 1) .nil).toList).Nodup := by
    simp only [Tree.toList, List.nil_append]
    refine List.nodup_append.mpr ⟨by rw [hL6]; exact hnd6, by simp, ?_⟩
    intro q h1 h2
    simp only [List.mem_singleton] at h2
    rw [hL6, hL5] at h1
    simp only [List.mem_append, List.mem_singleton] at h1
    rcases h1 with (h1 | h1) | h1
    · have := hltA q h1; omega
    · omega
    · have := hltB q h1; omega
  obtain ⟨h7, T, hm7, hg7, hL7, hD7, hF7⟩ :=
    merge_good hw6 hg6.1 hg6.2.1 (fun p hp _ => hg6.2.2 p hp) hSfrom6 hPfrom6
      (fun p hp hne' => by
        simp only [Tree.toList, List.nil_append, List.mem_singleton] at hp
        subst hp
        exact absurd rfl hne') hnd7
  have hw7 : h7.WF := hw6.of_dataEq hD7
  simp only [Tree.toList, List.nil_append] at hL7 hF7
  have hLT : T.toList = tA1.toList ++ h.next :: (tB1.toList ++ [h.next + 1]) := by
    rw [hL7, hL6, hL5]; simp
  have hD47 : DataEq ((h2.alloc ndto).1.alloc ndfrom).1 h7 := (hD5.trans_data hD6).trans_data hD7
  have hD02 : DataEq h h2 := hD1.trans_data hD2
  have hmemT : ∀ q, q ∈ T.toList ↔
      (q ∈ tA.toList ∨ q ∈ tB.toList ∨ q = h.next ∨ q = h.next + 1) := by
    intro q
    rw [hLT]
    simp only [List.mem_append, List.mem_cons, List.mem_singleton, hmemA, hmemB]
    tauto
  have hold : ∀ q, q < h.next → q ∉ tA.toList → q ∉ tB.toList → h7.get q = h.get q := by
    intro q hq hqA hqB
    have hq1 : q ∉ t6.toList ++ [h.next + 1] := by
      rw [hL6, hL5]
      simp only [List.mem_append, List.mem_singleton, not_or, hmemA, hmemB]
      exact ⟨⟨⟨hqA, by omega⟩, hqB⟩, by omega⟩
    have hq2 : q ∉ t5.toList ++ tB1.toList := by
      rw [hL5]
      simp only [List.mem_append, List.mem_singleton, not_or, hmemA, hmemB]
      exact ⟨⟨hqA, by omega⟩, hqB⟩
    have hq3 : q ∉ tA1.toList ++ [h.next] := by
      simp only [List.mem_append, List.mem_singleton, not_or, hmemA]
      exact ⟨hqA, by omega⟩
    rw [hF7 q hq1, hF6 q hq2, hF5 q hq3, e4 q hq, hF2 q hqB, hF1 q hqA]
  have hdata : ∀ q, q < h.next → (h7.get q).map Node.data = (h.get q).map Node.data := by
    intro q hq
    rw [hD47.2 q, e4 q hq, hD02.2 q]
  have hdto : (h7.get h.next).map Node.data =
      some ((uu, vv), g.out g.drawn, lvl, (decide (F.level = lvl) && decide (uu < vv)), false) := by
    rw [hD47.2, hgto, ← hto]; rfl
  have hdfrom : (h7.get (h.next + 1)).map Node.data =
      some ((vv, uu), g.out (g.drawn + 1), lvl,
        (decide (F.level = lvl) && decide (vv < uu)), false) := by
    rw [hD47.2, hgfrom, ← hfrom]; rfl
  have hkold : ∀ q, q < h.next → keyOf h7 q = keyOf h q := by
    intro q hq
    have := hdata q hq
    simp only [keyOf]
    cases h7q : h7.get q with
    | none =>
      rw [h7q] at this
      cases hq' : h.get q with
      | none => rfl
      | some nd => rw [hq'] at this; simp at this
    | some nd1 =>
      rw [h7q] at this
      cases hq' : h.get q with
      | none => rw [hq'] at this; simp at this
      | some nd =>
        rw [hq'] at this
        simp only [Option.map_some', Option.some.injEq, Node.data, Prod.mk.injEq] at this
        exact this.1
  have hkto : keyOf h7 h.next = (uu, vv) := by
    cases h7q : h7.get h.next with
    | none => rw [h7q] at hdto; simp at hdto
    | some nd =>
      rw [h7q] at hdto
      simp only [Option.map_some', Option.some.injEq, Node.data, Prod.mk.injEq] at hdto
      rw [keyOf_eq h7q]; exact hdto.1
  have hkfrom : keyOf h7 (h.next + 1) = (vv, uu) := by
    cases h7q : h7.get (h.next + 1) with
    | none => rw [h7q] at hdfrom; simp at hdfrom
    | some nd =>
      rw [h7q] at hdfrom
      simp only [Option.map_some', Option.some.injEq, Node.data, Prod.mk.injEq] at hdfrom
      rw [keyOf_eq h7q]; exact hdfrom.1
  have hltR : ∀ q, q ∈ rest.flatMap Tree.toList → q < h.next := by
    intro q hq
    obtain ⟨t, ht, hqt⟩ := List.mem_flatMap.mp hq
    exact (hr.good t (by simp [ht])).1.lt_next hw q hqt
  have hltAll : ∀ q, q ∈ (tA :: tB :: rest).flatMap Tree.toList → q < h.next := by
    intro q hq
    obtain ⟨t, ht, hqt⟩ := List.mem_flatMap.mp hq
    exact (hr.good t ht).1.lt_next hw q hqt
  refine ⟨h7, T, ?_, ?_, ?_, hw7, ?_, hdata, hold, hdto, hdfrom⟩
  · simp only [add_edge, EdgeMap.at_some hmu, hl1, Option.bind, hre1, EdgeMap.at_some hmv, hl2,
      hre2, Gen.draw, Heap.snd_alloc, Heap.next_alloc, hnx2, hto, hfrom]
    have hm5' : merge (h.next + 1 + 1 + 1) ((h2.alloc ndto).1.alloc ndfrom).1 tA1.root
        (some h.next) = some (h5, t5.root) := by
      have := hm5; rw [hnx4] at this; exact this
    have hm7' : merge (h6.next + 1) h6 t6.root (some (h.next + 1)) = some (h7, T.root) := hm7
    simp only [hm5', hm6, hm7']
  · have hfl : (T :: rest).flatMap Tree.toList = T.toList ++ rest.flatMap Tree.toList := by
      simp [List.flatMap_cons]
    have hmemOld : ∀ q, q ∈ (tA :: tB :: rest).flatMap Tree.toList ↔
        (q ∈ tA.toList ∨ q ∈ tB.toList ∨ q ∈ rest.flatMap Tree.toList) := by
      intro q; rw [flatMap_cons2]; simp only [List.mem_append]
    constructor
    · intro t ht
      rcases List.mem_cons.mp ht with ht | ht
      · subst ht; exact hg7
      · have hgt := hr.good t (by simp [ht])
        have hndt := hr.nodup_tree (t := t) (by simp [ht])
        apply hgt.frame_good hndt
        intro q hq
        have hqR : q ∈ rest.flatMap Tree.toList := List.mem_flatMap.mpr ⟨t, ht, hq⟩
        exact hold q (hltR q hqR) (fun hm => dAR q hm hqR) (fun hm => dBR q hm hqR)
    · rw [hfl]
      refine List.nodup_append.mpr ⟨by rw [hL7]; simpa [Tree.toList] using hnd7, hn2.2.1, ?_⟩
      intro q h1 h2
      have hq := hltR q h2
      rcases (hmemT q).mp h1 with h1 | h1 | h1 | h1
      · exact dAR q h1 h2
      · exact dBR q h1 h2
      · omega
      · omega
    · intro k p
      rw [hfl, List.mem_append, hmemT]
      simp only [EdgeMap.set]
      constructor
      · intro hk
        by_cases hk1 : k = (vv, uu)
        · rw [if_pos hk1] at hk
          simp only [Option.some.injEq] at hk
          subst hk
          exact ⟨Or.inl (Or.inr (Or.inr (Or.inr rfl))), by rw [hkfrom, hk1]⟩
        · rw [if_neg hk1] at hk
          by_cases hk2 : k = (uu, vv)
          · rw [if_pos hk2] at hk
            simp only [Option.some.injEq] at hk
            subst hk
            exact ⟨Or.inl (Or.inr (Or.inr (Or.inl rfl))), by rw [hkto, hk2]⟩
          · rw [if_neg hk2] at hk
            obtain ⟨hp1, hp2⟩ := (hr.reg k p).mp hk
            have hlt := hltAll p hp1
            refine ⟨?_, by rw [hkold p hlt]; exact hp2⟩
            rcases (hmemOld p).mp hp1 with hp1 | hp1 | hp1
            · exact Or.inl (Or.inl hp1)
            · exact Or.inl (Or.inr (Or.inl hp1))
            · exact Or.inr hp1
      · rintro ⟨hp1, hp2⟩
        have old : p ∈ (tA :: tB :: rest).flatMap Tree.toList →
            (if k = (vv, uu) then some (some (h.next + 1))
              else if k = (uu, vv) then some (some h.next) else F.map_edges k) =
              some (some p) := by
          intro hpo
          have hlt := hltAll p hpo
          have hmk : F.map_edges k = some (some p) :=
            (hr.reg k p).mpr ⟨hpo, by rw [← hkold p hlt]; exact hp2⟩
          have hk1 : k ≠ (vv, uu) := by rintro rfl; rw [hvu] at hmk; cases hmk
          have hk2 : k ≠ (uu, vv) := by rintro rfl; rw [huv] at hmk; cases hmk
          rw [if_neg hk1, if_neg hk2, hmk]
        rcases hp1 with (hp1 | hp1 | hp1 | hp1) | hp1
        · exact old ((hmemOld p).mpr (Or.inl hp1))
        · exact old ((hmemOld p).mpr (Or.inr (Or.inl hp1)))
        · subst hp1
          rw [hkto] at hp2
          subst hp2
          have : (uu, vv) ≠ (vv, uu) := by
            intro he
            simp only [Prod.mk.injEq] at he
            exact hne he.1
          rw [if_neg this, if_pos rfl]
        · subst hp1
          rw [hkfrom] at hp2
          subst hp2
          rw [if_pos rfl]
        · exact old ((hmemOld p).mpr (Or.inr (Or.inr hp1)))
    · intro k
      simp only [EdgeMap.set]
      split
      · simp
      · split
        · simp
        · exact hr.nonull k
  · rw [hLT, hLA, hLB]
  · rw [hD47.1, hnx4]

/-- Function `split` on a whole treap gives two whole treaps. -/
theorem split_good {h : Heap} {t : Tree} (hw : h.WF) (hg : GoodTree h t) (hnd : t.toList.Nodup)
    (key : Int) :
    ∃ h1 tl tr, split (h.next + 1) h t.root key = some (h1, tl.root, tr.root) ∧
      GoodTree h1 tl ∧ GoodTree h1 tr ∧
      tl.toList = t.toList.take key.toNat ∧ tr.toList = t.toList.drop key.toNat ∧
      DataEq h h1 ∧ (∀ p, p ∉ t.toList → h1.get p = h.get p) := by
  obtain ⟨hs, hpar, hc⟩ := hg
  have hsz := hs.size_le_next hw hnd
  obtain ⟨h1, tl, tr, hsp, hS1, hS2, hL1, hL2, hC1, hD1, hF1, hP1⟩ :=
    split_spec t (h.next + 1) h key hs hnd hc (by omega)
  have hsplit : t.toList = tl.toList ++ tr.toList := by
    rw [hL1, hL2, List.take_append_drop]
  refine ⟨h1, tl, tr, hsp, ⟨hS1, ?_, ?_⟩, ⟨hS2, ?_, ?_⟩, hL1, hL2, hD1, hF1⟩
  · intro x hx
    obtain ⟨nd, hg', hp'⟩ := hP1 none hpar x (Or.inl hx)
    exact ⟨nd, hg', by rcases hp' with hp' | hp' <;> exact hp'⟩
  · intro p hp; exact hC1 p (by rw [hsplit]; simp [hp])
  · intro x hx
    obtain ⟨nd, hg', hp'⟩ := hP1 none hpar x (Or.inr hx)
    exact ⟨nd, hg', by rcases hp' with hp' | hp' <;> exact hp'⟩
  · intro p hp; exact hC1 p (by rw [hsplit]; simp [hp])

theorem Heap.free_some {h : Heap} {p : Nat} {nd : Node} (hg : h.get p = some nd) :
    ∃ h1, h.free p = some h1 ∧ h1.next = h.next ∧
      ∀ q, h1.get q = if q = p then none else h.get q := by
  refine ⟨{ h with cells := fun q => if q = p then none else h.cells q }, ?_, rfl, fun q => rfl⟩
  simp only [Heap.free, hg]

theorem Tree.root_of_single {t : Tree} {p : Nat} (ht : t.toList = [p]) : t.root = some p := by
  cases t with
  | nil => simp [Tree.toList] at ht
  | node l x r =>
    simp only [Tree.toList] at ht
    have hl : l.toList = [] := by
      cases hl : l.toList with
      | nil => rfl
      | cons a as =>
        rw [hl] at ht
        have := congrArg List.length ht
        simp at this
    rw [hl] at ht
    simp only [List.nil_append, List.cons.injEq] at ht
    rw [Tree.root, ht.1]

theorem rot_indexOf {s : List Nat} {p : Nat} (hp : p ∈ s) :
    rot s (s.indexOf p) = p :: (s.drop (s.indexOf p + 1) ++ s.take (s.indexOf p)) := by
  have hlt : s.indexOf p < s.length := List.indexOf_lt_length.mpr hp
  rw [rot, List.drop_eq_getElem_cons hlt, List.getElem_indexOf hlt]
  rfl

theorem drop_indexOf {s : List Nat} {p : Nat} (hp : p ∈ s) :
    s.drop (s.indexOf p) = p :: s.drop (s.indexOf p + 1) := by
  have hlt : s.indexOf p < s.length := List.indexOf_lt_length.mpr hp
  rw [List.drop_eq_getElem_cons hlt, List.getElem_indexOf hlt]

theorem DataEq.get_none {h h1 : Heap} (hd : DataEq h h1) {p : Nat} (hg : h.get p = none) :
    h1.get p = none := by
  have := hd.2 p
  rw [hg] at this
  cases hq : h1.get p with
  | none => rfl
  | some nd => rw [hq] at this; simp at this

/-- Method `delete_edge` cuts a treap of a forest at the two nodes of an edge: read from
the node `(uu, vv)`, the tour is that node, the tour of the first part, the node
`(vv, uu)`, and the tour of the second part; both nodes are freed. -/
theorem delete_edge_spec {h : Heap} {F : DynamicForest} {t : Tree} {rest : List Tree}
    {uu vv : Int} {puv pvu : Nat}
    (hw : h.WF) (hr : FRep h F.map_edges (t :: rest))
    (hm1 : F.map_edges (uu, vv) = some (some puv)) (hm2 : F.map_edges (vv, uu) = some (some pvu))
    (hp1 : puv ∈ t.toList) (hp2 : pvu ∈ t.toList) (hne : uu ≠ vv) :
    ∃ h6 tV tU, delete_edge h F uu vv = some (h6,
        { F with map_edges := (F.map_edges.erase (uu, vv)).erase (vv, uu) }) ∧
      FRep h6 ((F.map_edges.erase (uu, vv)).erase (vv, uu)) (tV :: tU :: rest) ∧
      rot t.toList (t.toList.indexOf puv) = puv :: (tV.toList ++ pvu :: tU.toList) ∧
      h6.WF ∧ h6.next = h.next ∧
      (∀ q, q ≠ puv → q ≠ pvu → (h6.get q).map Node.data = (h.get q).map Node.data) ∧
      (∀ q, q ∉ t.toList → h6.get q = h.get q) ∧ h6.get puv = none ∧ h6.get pvu = none := by
  have hndAll := hr.nodup
  simp only [List.flatMap_cons] at hndAll
  have hn1 := List.nodup_append.mp hndAll
  have hndt := hn1.1
  have dTR : ∀ q, q ∈ t.toList → q ∉ rest.flatMap Tree.toList := fun q h1 h2 => hn1.2.2 h1 h2
  have hgt := hr.good t (by simp)
  have hk1 : keyOf h puv = (uu, vv) := ((hr.reg _ _).mp hm1).2
  have hk2 : keyOf h pvu = (vv, uu) := ((hr.reg _ _).mp hm2).2
  have hpne : puv ≠ pvu := by
    rintro rfl
    rw [hk1] at hk2
    simp only [Prod.mk.injEq] at hk2
    exact hne hk2.1
  -- reroot at the node `(uu, vv)`
  have hszt := hgt.1.size_le_next hw hndt
  have hl1 : lift (h.next + 1) h (some puv) = some t.root :=
    lift_spec hgt.1 hgt.2.1 hp1 (by omega)
  obtain ⟨h1, t1, hre1, hg1, hL1, hD1, hF1⟩ := reroot_spec hw hgt hndt hm1 hp1
  have hw1 : h1.WF := hw.of_dataEq hD1
  generalize hX : t.toList.drop (t.toList.indexOf puv + 1) ++ t.toList.take (t.toList.indexOf puv)
    = X at *
  have hrot : rot t.toList (t.toList.indexOf puv) = puv :: X := by
    rw [rot_indexOf hp1, hX]
  rw [hrot] at hL1
  have hmem1 : ∀ q, q ∈ t.toList ↔ (q = puv ∨ q ∈ X) := fun q => by
    rw [← mem_rot (k := t.toList.indexOf puv), hrot, List.mem_cons]
  have hnd1 : (puv :: X).Nodup := by
    rw [← hrot]; exact (rot_perm _ _).nodup_iff.mpr hndt
  have hndX := (List.nodup_cons.mp hnd1).2
  have hpX : puv ∉ X := (List.nodup_cons.mp hnd1).1
  -- detach the node `(uu, vv)`
  obtain ⟨h2, tT, t2, hsp2, hgT2, hg2, hLT, hL2, hD2, hF2⟩ :=
    split_good hw1 hg1 (by rw [hL1]; exact hnd1) 1
  have hw2 : h2.WF := hw1.of_dataEq hD2
  rw [hL1] at hLT hL2 hF2
  simp only [Int.toNat_one, List.take_succ_cons, List.take_zero, List.drop_succ_cons,
    List.drop_zero] at hLT hL2
  -- locate the node `(vv, uu)`
  have hvX : pvu ∈ X := by
    rcases (hmem1 pvu).mp hp2 with h' | h'
    · exact absurd h'.symm hpne
    · exact h'
  have hsz2 := hg2.1.size_le_next hw2 (by rw [hL2]; exact hndX)
  have hpos : position h2 (some pvu) = some (X.indexOf pvu : Int) := by
    have := position_spec hg2.1 (by rw [hL2]; exact hndX) hg2.2.1 (p := pvu)
      (by rw [hL2]; exact hvX) (by omega)
    rw [hL2] at this
    exact this
  obtain ⟨h3, tV, t3, hsp3, hgV3, hg3, hLV, hL3, hD3, hF3⟩ :=
    split_good hw2 hg2 (by rw [hL2]; exact hndX) (X.indexOf pvu : Int)
  have hw3 : h3.WF := hw2.of_dataEq hD3
  rw [hL2] at hLV hL3 hF3
  simp only [Int.toNat_ofNat] at hLV hL3
  rw [drop_indexOf hvX] at hL3
  generalize hU : X.drop (X.indexOf pvu + 1) = U at *
  have hXeq : X = tV.toList ++ pvu :: U := by
    have := List.take_append_drop (X.indexOf pvu) X
    rw [drop_indexOf hvX, hU, ← hLV] at this
    exact this.symm
  have hndX' : (tV.toList ++ pvu :: U).Nodup := by rw [← hXeq]; exact hndX
  have hnX1 := List.nodup_append.mp hndX'
  have hnX2 := List.nodup_cons.mp hnX1.2.1
  -- detach the node `(vv, uu)`
  obtain ⟨h4, tS, tU, hsp4, hgS4, hgU4, hLS, hLU, hD4, hF4⟩ :=
    split_good hw3 hg3 (by rw [hL3]; exact hnX1.2.1) 1
  have hw4 : h4.WF := hw3.of_dataEq hD4
  rw [hL3] at hLS hLU hF4
  simp only [Int.toNat_one, List.take_succ_cons, List.take_zero, List.drop_succ_cons,
    List.drop_zero] at hLS hLU
  -- free both nodes
  obtain ⟨ndv, hgv⟩ := hgS4.1.live_shape pvu (by rw [hLS]; simp)
  obtain ⟨h5, hfr5, hnx5, hg5⟩ := Heap.free_some hgv
  have hD14 : DataEq h h4 := ((hD1.trans_data hD2).trans_data hD3).trans_data hD4
  obtain ⟨ndu0, hgu0⟩ := hgt.1.live_shape puv hp1
  obtain ⟨ndu, hgu, _⟩ := hD14.live_data hgu0
  have hgu5 : h5.get puv = some ndu := by rw [hg5, if_neg hpne]; exact hgu
  obtain ⟨h6, hfr6, hnx6, hg6⟩ := Heap.free_some hgu5
  have e6 : ∀ q, q ≠ puv → q ≠ pvu → h6.get q = h4.get q := by
    intro q hq1 hq2
    rw [hg6, if_neg hq1, hg5, if_neg hq2]
  have hw6 : h6.WF := by
    intro p hp
    rw [hg6]
    split
    · rfl
    · rw [hg5]
      split
      · rfl
      · exact hw4 p (by rw [hnx6, hnx5] at hp; exact hp)
  have hmemt : ∀ q, q ∈ t.toList ↔ (q = puv ∨ q ∈ tV.toList ∨ q = pvu ∨ q ∈ U) := by
    intro q
    rw [hmem1, hXeq]
    simp only [List.mem_append, List.mem_cons]
  have hold : ∀ q, q ∉ t.toList → h6.get q = h.get q := by
    intro q hq
    have hq' := hq
    rw [hmemt] at hq'
    simp only [not_or] at hq'
    obtain ⟨a, b, c, d⟩ := hq'
    rw [e6 q a c, hF4 q (by simp only [List.mem_cons, not_or]; exact ⟨c, d⟩),
      hF3 q (by rw [hXeq]; simp only [List.mem_append, List.mem_cons, not_or]; exact ⟨b, c, d⟩),
      hF2 q (by rw [hXeq]
                simp only [List.mem_append, List.mem_cons, not_or]; exact ⟨a, b, c, d⟩),
      hF1 q hq]
  have hgV6 : GoodTree h6 tV := by
    have hV4 : GoodTree h4 tV := hgV3.frame_good hnX1.1 (fun q hq => hF4 q (by
      intro hm
      exact hnX1.2.2 hq hm))
    apply hV4.frame_good hnX1.1
    intro q hq
    apply e6
    · rintro rfl; exact hpX (by rw [hXeq]; simp [hq])
    · rintro rfl; exact hnX1.2.2 hq (by simp)
  have hgU6 : GoodTree h6 tU := by
    apply hgU4.frame_good (by rw [hLU]; exact hnX2.2)
    intro q hq
    rw [hLU] at hq
    apply e6
    · rintro rfl; exact hpX (by rw [hXeq]; simp [hq])
    · rintro rfl; exact hnX2.1 hq
  have hdata : ∀ q, q ≠ puv → q ≠ pvu →
      (h6.get q).map Node.data = (h.get q).map Node.data := by
    intro q a b
    rw [e6 q a b, hD14.2 q]
  have hkold : ∀ q, q ≠ puv → q ≠ pvu → keyOf h6 q = keyOf h q := by
    intro q a b
    simp only [keyOf, e6 q a b]
    exact keyOf_of_dataEq hD14 q
  refine ⟨h6, tV, tU, ?_, ?_, ?_, hw6, ?_, hdata, hold, ?_, ?_⟩
  · have hsp2' : split (h1.next + 1) h1 t1.root 1 = some (h2, some puv, t2.root) := by
      rw [hsp2, Tree.root_of_single hLT]
    have hsp4' : split (h3.next + 1) h3 t3.root 1 = some (h4, some pvu, tU.root) := by
      rw [hsp4, Tree.root_of_single hLS]
    simp only [delete_edge, EdgeMap.at_some hm1, hl1, Option.bind, hre1, hsp2',
      EdgeMap.at_some hm2, hpos, hsp3, hsp4', delete_ptr, hfr5, hfr6]
  · constructor
    · intro t' ht'
      simp only [List.mem_cons] at ht'
      rcases ht' with ht' | ht' | ht'
      · subst ht'; exact hgV6
      · subst ht'; exact hgU6
      · have hgt' := hr.good t' (by simp [ht'])
        have hndt' := hr.nodup_tree (t := t') (by simp [ht'])
        apply hgt'.frame_good hndt'
        intro q hq
        have hqR : q ∈ rest.flatMap Tree.toList := List.mem_flatMap.mpr ⟨t', ht', hq⟩
        exact hold q (fun hm => dTR q hm hqR)
    · simp only [List.flatMap_cons]
      rw [← List.append_assoc]
      refine List.nodup_append.mpr ⟨?_, hn1.2.1, ?_⟩
      · rw [hLU]
        refine List.nodup_append.mpr ⟨hnX1.1, hnX2.2, ?_⟩
        intro q h1 h2
        exact hnX1.2.2 h1 (by simp [h2])
      · intro q h1 h2
        apply dTR q _ h2
        rw [hmemt]
        rw [hLU] at h1
        rcases List.mem_append.mp h1 with h1 | h1
        · exact Or.inr (Or.inl h1)
        · exact Or.inr (Or.inr (Or.inr h1))
    · intro k p
      simp only [List.flatMap_cons, List.mem_append, EdgeMap.erase, hLU]
      constructor
      · intro hk
        by_cases hk1' : k = (vv, uu)
        · rw [if_pos hk1'] at hk; cases hk
        · rw [if_neg hk1'] at hk
          by_cases hk2' : k = (uu, vv)
          · rw [if_pos hk2'] at hk; cases hk
          · rw [if_neg hk2'] at hk
            obtain ⟨hpm, hpk⟩ := (hr.reg k p).mp hk
            have hp1' : p ≠ puv := by rintro rfl; rw [hk1] at hpk; exact hk2' hpk.symm
            have hp2' : p ≠ pvu := by rintro rfl; rw [hk2] at hpk; exact hk1' hpk.symm
            refine ⟨?_, by rw [hkold p hp1' hp2']; exact hpk⟩
            simp only [List.flatMap_cons, List.mem_append] at hpm
            rcases hpm with hpm | hpm
            · rcases (hmemt p).mp hpm with h' | h' | h' | h'
              · exact absurd h' hp1'
              · exact Or.inl h'
              · exact absurd h' hp2'
              · exact Or.inr (Or.inl h')
            · exact Or.inr (Or.inr hpm)
      · rintro ⟨hpm, hpk⟩
        have hp1' : p ≠ puv := by
          rintro rfl
          rcases hpm with hpm | hpm | hpm
          · exact hpX (by rw [hXeq]; simp [hpm])
          · exact hpX (by rw [hXeq]; simp [hpm])
          · exact dTR p hp1 hpm
        have hp2' : p ≠ pvu := by
          rintro rfl
          rcases hpm with hpm | hpm | hpm
          · exact hnX1.2.2 hpm (by simp)
          · exact hnX2.1 hpm
          · exact dTR p hp2 hpm
        have hpo : p ∈ (t :: rest).flatMap Tree.toList := by
          simp only [List.flatMap_cons, List.mem_append]
          rcases hpm with hpm | hpm | hpm
          · exact Or.inl ((hmemt p).mpr (Or.inr (Or.inl hpm)))
          · exact Or.inl ((hmemt p).mpr (Or.inr (Or.inr (Or.inr hpm))))
          · exact Or.inr hpm
        have hmk : F.map_edges k = some (some p) :=
          (hr.reg k p).mpr ⟨hpo, by rw [← hkold p hp1' hp2']; exact hpk⟩
        have hk1' : k ≠ (vv, uu) := by
          rintro rfl
          rw [hm2] at hmk
          simp only [Option.some.injEq] at hmk
          exact hp2' hmk.symm
        have hk2' : k ≠ (uu, vv) := by
          rintro rfl
          rw [hm1] at hmk
          simp only [Option.some.injEq] at hmk
          exact hp1' hmk.symm
        rw [if_neg hk1', if_neg hk2', hmk]
    · intro k
      simp only [EdgeMap.erase]
      split
      · simp
      · split
        · simp
        · exact hr.nonull k
  · rw [hrot, hXeq, hLU]
  · rw [hnx6, hnx5, hD14.1]
  · rw [hg6, if_pos rfl]
  · rw [hg6]
    split
    · rfl
    · rw [hg5, if_pos rfl]

theorem isRotated_iff_split {α : Type} {s s1 : List α} :
    s.IsRotated s1 ↔ ∃ x y, s = x ++ y ∧ s1 = y ++ x := by
  constructor
  · intro h
    obtain ⟨n, hn, he⟩ := List.isRotated_iff_mod.mp h
    refine ⟨s.take n, s.drop n, (List.take_append_drop n s).symm, ?_⟩
    rw [← he, List.rotate_eq_drop_append_take hn]
  · rintro ⟨x, y, rfl, rfl⟩
    exact List.isRotated_append

/-- A duplicate-free sequence has one rotation that starts with a given element. -/
theorem rot_head_unique {α : Type} {a : α} {t1 t2 : List α} (hnd : (a :: t1).Nodup)
    (h : (a :: t1).IsRotated (a :: t2)) : t1 = t2 := by
  obtain ⟨x, y, h1, h2⟩ := isRotated_iff_split.mp h
  cases y with
  | nil =>
    simp only [List.append_nil, List.nil_append] at h1 h2
    rw [← h1] at h2
    exact (List.cons.inj h2).2.symm
  | cons b y' =>
    cases x with
    | nil =>
      simp only [List.append_nil, List.nil_append] at h1 h2
      rw [← h1] at h2
      exact (List.cons.inj h2).2.symm
    | cons c x' =>
      exfalso
      simp only [List.cons_append, List.cons.injEq] at h1 h2
      obtain ⟨rfl, h1⟩ := h1
      obtain ⟨rfl, _⟩ := h2
      rw [h1] at hnd
      have := (List.nodup_cons.mp hnd).1
      exact this (by simp)

/-- In a duplicate-free sequence, the place of an element is unique. -/
theorem split_unique {α : Type} {k : α} : ∀ {X Y X1 Y1 : List α}, (X ++ k :: Y).Nodup →
    X ++ k :: Y = X1 ++ k :: Y1 → X = X1 ∧ Y = Y1
  | [], Y, [], Y1, _, h => by simpa using h
  | [], Y, c :: X1, Y1, hnd, h => by
    exfalso
    simp only [List.nil_append, List.cons_append, List.cons.injEq] at h
    obtain ⟨rfl, h⟩ := h
    rw [h] at hnd
    exact (List.nodup_cons.mp hnd).1 (by simp)
  | c :: X, Y, [], Y1, hnd, h => by
    exfalso
    simp only [List.nil_append, List.cons_append, List.cons.injEq] at h
    obtain ⟨rfl, _⟩ := h
    exact (List.nodup_cons.mp hnd).1 (by simp)
  | c :: X, Y, d :: X1, Y1, hnd, h => by
    simp only [List.cons_append, List.cons.injEq] at h
    obtain ⟨rfl, h⟩ := h
    have := split_unique (List.nodup_cons.mp hnd).2 h
    exact ⟨by rw [this.1], this.2⟩

theorem ET.ne_nil {s : List (Int × Int)} (h : ET s) : s ≠ [] := by
  induction h with
  | single v => simp
  | link u v A B _ _ _ _ => simp
  | rot s s1 _ hr ih =>
    intro he
    subst he
    exact ih (List.isRotated_nil_iff.mp hr)

/-- Both directions of an edge lie on the same tour. -/
theorem ET.rev_mem {s : List (Int × Int)} (h : ET s) :
    ∀ a b, (a, b) ∈ s → (b, a) ∈ s := by
  induction h with
  | single v =>
    intro a b hm
    simp only [List.mem_singleton, Prod.mk.injEq] at hm ⊢
    exact ⟨hm.2, hm.1⟩
  | link u v A B _ _ ihA ihB =>
    intro a b hm
    have inA : ∀ k, k ∈ (u, u) :: A → k ∈ (u, u) :: A ++ (u, v) :: ((v, v) :: B ++ [(v, u)]) :=
      fun k hk => List.mem_append_left _ hk
    have inB : ∀ k, k ∈ (v, v) :: B → k ∈ (u, u) :: A ++ (u, v) :: ((v, v) :: B ++ [(v, u)]) := by
      intro k hk
      apply List.mem_append_right
      exact List.mem_cons_of_mem _ (List.mem_append_left _ hk)
    rcases List.mem_append.mp hm with hm | hm
    · exact inA _ (ihA a b hm)
    · rcases List.mem_cons.mp hm with hm | hm
      · simp only [Prod.mk.injEq] at hm
        obtain ⟨rfl, rfl⟩ := hm
        simp
      · rcases List.mem_append.mp hm with hm | hm
        · exact inB _ (ihB a b hm)
        · simp only [List.mem_singleton, Prod.mk.injEq] at hm
          obtain ⟨rfl, rfl⟩ := hm
          simp
  | rot s s1 _ hr ih =>
    intro a b hm
    exact hr.mem_iff.mp (ih a b (hr.mem_iff.mpr hm))

/-- Both endpoints of every key of a tour are vertices of the tour. -/
theorem ET.self_mem {s : List (Int × Int)} (h : ET s) :
    ∀ a b, (a, b) ∈ s → (a, a) ∈ s ∧ (b, b) ∈ s := by
  induction h with
  | single v =>
    intro a b hm
    simp only [List.mem_singleton, Prod.mk.injEq] at hm ⊢
    exact ⟨⟨hm.1, hm.1⟩, ⟨hm.2, hm.2⟩⟩
  | link u v A B _ _ ihA ihB =>
    intro a b hm
    have hu : (u, u) ∈ (u, u) :: A ++ (u, v) :: ((v, v) :: B ++ [(v, u)]) := by simp
    have hv : (v, v) ∈ (u, u) :: A ++ (u, v) :: ((v, v) :: B ++ [(v, u)]) := by simp
    have inA : ∀ k, k ∈ (u, u) :: A → k ∈ (u, u) :: A ++ (u, v) :: ((v, v) :: B ++ [(v, u)]) :=
      fun k hk => List.mem_append_left _ hk
    have inB : ∀ k, k ∈ (v, v) :: B → k ∈ (u, u) :: A ++ (u, v) :: ((v, v) :: B ++ [(v, u)]) := by
      intro k hk
      apply List.mem_append_right
      exact List.mem_cons_of_mem _ (List.mem_append_left _ hk)
    rcases List.mem_append.mp hm with hm | hm
    · have := ihA a b hm
      exact ⟨inA _ this.1, inA _ this.2⟩
    · rcases List.mem_cons.mp hm with hm | hm
      · simp only [Prod.mk.injEq] at hm
        obtain ⟨rfl, rfl⟩ := hm
        exact ⟨hu, hv⟩
      · rcases List.mem_append.mp hm with hm | hm
        · have := ihB a b hm
          exact ⟨inB _ this.1, inB _ this.2⟩
        · simp only [List.mem_singleton, Prod.mk.injEq] at hm
          obtain ⟨rfl, rfl⟩ := hm
          exact ⟨hv, hu⟩
  | rot s s1 _ hr ih =>
    intro a b hm
    have := ih a b (hr.mem_iff.mpr hm)
    exact ⟨hr.mem_iff.mp this.1, hr.mem_iff.mp this.2⟩

/-- Inserting, just before the vertex `a` of one tour, a second tour between the two
nodes of a new edge from `a` gives a tour. -/
theorem ET.insert {P Q B : List (Int × Int)} {a b : Int} (hA : ET (P ++ (a, a) :: Q))
    (hB : ET ((b, b) :: B)) :
    ET (P ++ (a, b) :: ((b, b) :: B ++ (b, a) :: (a, a) :: Q)) := by
  have h1 : ET ((a, a) :: (Q ++ P)) := by
    apply ET.rot _ _ hA
    have := @List.isRotated_append _ P ((a, a) :: Q)
    simpa using this
  have h2 := ET.link a b (Q ++ P) B h1 hB
  apply ET.rot _ _ h2
  have := @List.isRotated_append _ ((a, a) :: Q) (P ++ (a, b) :: ((b, b) :: B ++ [(b, a)]))
  simpa using this

theorem cut_exists {s : List (Int × Int)} {u v : Int} (hne : u ≠ v)
    (h1 : (u, v) ∈ s) (h2 : (v, u) ∈ s) :
    ∃ V U, s.IsRotated ((u, v) :: V ++ (v, u) :: U) := by
  obtain ⟨X, Y, rfl⟩ := List.append_of_mem h1
  have h3 : (v, u) ∈ Y ++ X := by
    simp only [List.mem_append, List.mem_cons, Prod.mk.injEq] at h2 ⊢
    rcases h2 with h2 | h2 | h2
    · exact Or.inr h2
    · exact absurd h2.1.symm hne
    · exact Or.inl h2
  obtain ⟨V, U, hVU⟩ := List.append_of_mem h3
  refine ⟨V, U, isRotated_iff_split.mpr ⟨X, (u, v) :: Y, rfl, ?_⟩⟩
  rw [List.cons_append, List.cons_append, hVU]

theorem cut_unique {s : List (Int × Int)} {k1 k2 : Int × Int} {V U V1 U1 : List (Int × Int)}
    (hnd : s.Nodup) (h1 : s.IsRotated (k1 :: V ++ k2 :: U))
    (h2 : s.IsRotated (k1 :: V1 ++ k2 :: U1)) : V = V1 ∧ U = U1 := by
  have hnd1 : (k1 :: V ++ k2 :: U).Nodup := h1.nodup_iff.mp hnd
  have h3 : (k1 :: (V ++ k2 :: U)).IsRotated (k1 :: (V1 ++ k2 :: U1)) := h1.symm.trans h2
  have h4 := rot_head_unique hnd1 h3
  exact split_unique (List.nodup_cons.mp hnd1).2 h4

/-- Cutting a tour at the two nodes of an edge leaves two tours, one for each side. -/
theorem ET.cut {s : List (Int × Int)} (h : ET s) : s.Nodup → ∀ u v V U, u ≠ v →
    s.IsRotated ((u, v) :: V ++ (v, u) :: U) → ET V ∧ ET U ∧ (v, v) ∈ V ∧ (u, u) ∈ U := by
  induction h with
  | single w =>
    intro _ u v V U _ hr
    have := hr.perm.length_eq
    simp at this
  | rot s s1 _ hrs ih =>
    intro hnd u v V U hne hr
    exact ih (hrs.nodup_iff.mpr hnd) u v V U hne (hrs.trans hr)
  | link u0 v0 A B hA hB ihA ihB =>
    intro hnd u v V U hne hr
    have hndA : ((u0, u0) :: A).Nodup := (List.nodup_append.mp hnd).1
    have hndB : ((v0, v0) :: B).Nodup := by
      have := (List.nodup_append.mp hnd).2.1
      have := (List.nodup_cons.mp this).2
      exact (List.nodup_append.mp this).1
    have hm : (u, v) ∈ (u0, u0) :: A ++ (u0, v0) :: ((v0, v0) :: B ++ [(v0, u0)]) :=
      hr.mem_iff.mpr (by simp)
    -- it is enough to exhibit one cut with the required properties
    suffices hex : ∃ V1 U1,
        ((u0, u0) :: A ++ (u0, v0) :: ((v0, v0) :: B ++ [(v0, u0)])).IsRotated
          ((u, v) :: V1 ++ (v, u) :: U1) ∧ ET V1 ∧ ET U1 ∧ (v, v) ∈ V1 ∧ (u, u) ∈ U1 by
      obtain ⟨V1, U1, hr1, e1, e2, e3, e4⟩ := hex
      obtain ⟨rfl, rfl⟩ := cut_unique hnd hr hr1
      exact ⟨e1, e2, e3, e4⟩
    rcases List.mem_append.mp hm with hm | hm
    · -- the edge lies on the first tour
      have hmA : (u, v) ∈ A := by
        rcases List.mem_cons.mp hm with hm | hm
        · simp only [Prod.mk.injEq] at hm
          exact absurd (hm.1.trans hm.2.symm) hne
        · exact hm
      obtain ⟨VA, UA, hrA⟩ := cut_exists hne hm (hA.rev_mem u v hm)
      obtain ⟨eV, eU, mV, mU⟩ := ihA hndA u v VA UA hne hrA
      have hu0 : (u0, u0) ∈ (u, v) :: VA ++ (v, u) :: UA := hrA.mem_iff.mp (by simp)
      simp only [List.cons_append, List.mem_cons, List.mem_append, Prod.mk.injEq] at hu0
      rcases hu0 with hu0 | hu0 | hu0 | hu0
      · exact absurd (hu0.1.symm.trans hu0.2) hne
      · -- the root of the first tour is on the far side of the edge
        obtain ⟨P, Q, rfl⟩ := List.append_of_mem hu0
        have hA2 : ((u0, u0) :: A).IsRotated
            ((u0, u0) :: (Q ++ (v, u) :: UA ++ (u, v) :: P)) :=
          hrA.trans (isRotated_iff_split.mpr ⟨(u, v) :: P, (u0, u0) :: Q ++ (v, u) :: UA,
            by simp, by simp⟩)
        have hAeq := rot_head_unique hndA hA2
        subst hAeq
        refine ⟨P ++ (u0, v0) :: ((v0, v0) :: B ++ (v0, u0) :: (u0, u0) :: Q), UA, ?_,
          ET.insert eV hB, eU, ?_, mU⟩
        · exact isRotated_iff_split.mpr ⟨(u0, u0) :: Q ++ (v, u) :: UA,
            (u, v) :: P ++ (u0, v0) :: ((v0, v0) :: B ++ [(v0, u0)]), by simp, by simp⟩
        · simp only [List.mem_append, List.mem_cons] at mV ⊢
          tauto
      · exact absurd (hu0.1.symm.trans hu0.2).symm hne
      · -- the root of the first tour is on the near side of the edge
        obtain ⟨P, Q, rfl⟩ := List.append_of_mem hu0
        have hA2 : ((u0, u0) :: A).IsRotated
            ((u0, u0) :: (Q ++ (u, v) :: VA ++ (v, u) :: P)) :=
          hrA.trans (isRotated_iff_split.mpr ⟨(u, v) :: VA ++ (v, u) :: P, (u0, u0) :: Q,
            by simp, by simp⟩)
        have hAeq := rot_head_unique hndA hA2
        subst hAeq
        refine ⟨VA, P ++ (u0, v0) :: ((v0, v0) :: B ++ (v0, u0) :: (u0, u0) :: Q), ?_,
          eV, ET.insert eU hB, mV, ?_⟩
        · exact isRotated_iff_split.mpr ⟨(u0, u0) :: Q,
            (u, v) :: VA ++ (v, u) :: P ++ (u0, v0) :: ((v0, v0) :: B ++ [(v0, u0)]),
            by simp, by simp⟩
        · simp only [List.mem_append, List.mem_cons] at mU ⊢
          tauto
    · rcases List.mem_cons.mp hm with hm | hm
      · -- the edge is the linking edge
        simp only [Prod.mk.injEq] at hm
        obtain ⟨rfl, rfl⟩ := hm
        exact ⟨(v, v) :: B, (u, u) :: A,
          isRotated_iff_split.mpr ⟨(u, u) :: A, (u, v) :: ((v, v) :: B ++ [(v, u)]),
            by simp, by simp⟩, hB, hA, by simp, by simp⟩
      · rcases List.mem_append.mp hm with hm | hm
        · -- the edge lies on the second tour
          obtain ⟨VB, UB, hrB⟩ := cut_exists hne hm (hB.rev_mem u v hm)
          obtain ⟨eV, eU, mV, mU⟩ := ihB hndB u v VB UB hne hrB
          have hv0 : (v0, v0) ∈ (u, v) :: VB ++ (v, u) :: UB := hrB.mem_iff.mp (by simp)
          simp only [List.cons_append, List.mem_cons, List.mem_append, Prod.mk.injEq] at hv0
          rcases hv0 with hv0 | hv0 | hv0 | hv0
          · exact absurd (hv0.1.symm.trans hv0.2) hne
          · obtain ⟨P, Q, rfl⟩ := List.append_of_mem hv0
            have hB2 : ((v0, v0) :: B).IsRotated
                ((v0, v0) :: (Q ++ (v, u) :: UB ++ (u, v) :: P)) :=
              hrB.trans (isRotated_iff_split.mpr ⟨(u, v) :: P, (v0, v0) :: Q ++ (v, u) :: UB,
                by simp, by simp⟩)
            have hBeq := rot_head_unique hndB hB2
            subst hBeq
            refine ⟨P ++ (v0, u0) :: ((u0, u0) :: A ++ (u0, v0) :: (v0, v0) :: Q), UB, ?_,
              ET.insert eV hA, eU, ?_, mU⟩
            · exact isRotated_iff_split.mpr
                ⟨(u0, u0) :: A ++ (u0, v0) :: (v0, v0) :: Q ++ (v, u) :: UB,
                (u, v) :: P ++ [(v0, u0)], by simp, by simp⟩
            · simp only [List.mem_append, List.mem_cons] at mV ⊢
              tauto
          · exact absurd (hv0.1.symm.trans hv0.2).symm hne
          · obtain ⟨P, Q, rfl⟩ := List.append_of_mem hv0
            have hB2 : ((v0, v0) :: B).IsRotated
                ((v0, v0) :: (Q ++ (u, v) :: VB ++ (v, u) :: P)) :=
              hrB.trans (isRotated_iff_split.mpr ⟨(u, v) :: VB ++ (v, u) :: P, (v0, v0) :: Q,
                by simp, by simp⟩)
            have hBeq := rot_head_unique hndB hB2
            subst hBeq
            refine ⟨VB, P ++ (v0, u0) :: ((u0, u0) :: A ++ (u0, v0) :: (v0, v0) :: Q), ?_,
              eV, ET.insert eU hA, mV, ?_⟩
            · exact isRotated_iff_split.mpr
                ⟨(u0, u0) :: A ++ (u0, v0) :: (v0, v0) :: Q,
                (u, v) :: VB ++ (v, u) :: P ++ [(v0, u0)], by simp, by simp⟩
            · simp only [List.mem_append, List.mem_cons] at mU ⊢
              tauto
        · -- the edge is the linking edge, reversed
          simp only [List.mem_singleton, Prod.mk.injEq] at hm
          obtain ⟨rfl, rfl⟩ := hm
          exact ⟨(v, v) :: A, (u, u) :: B,
            isRotated_iff_split.mpr ⟨(v, v) :: A ++ (v, u) :: (u, u) :: B, [(u, v)],
              by simp, by simp⟩, hA, hB, by simp, by simp⟩

/-- Any two vertices of a tour are joined by a path of edges of the tour. -/
theorem ET.connected {s : List (Int × Int)} (h : ET s) :
    ∀ a b, (a, a) ∈ s → (b, b) ∈ s → Relation.ReflTransGen (fun x y => (x, y) ∈ s) a b := by
  induction h with
  | single v =>
    intro a b ha hb
    simp only [List.mem_singleton, Prod.mk.injEq] at ha hb
    rw [ha.1, hb.1]
  | rot s s1 _ hr ih =>
    intro a b ha hb
    exact Relation.ReflTransGen.mono (fun x y hxy => hr.mem_iff.mp hxy)
      (ih a b (hr.mem_iff.mpr ha) (hr.mem_iff.mpr hb))
  | link u v A B _ _ ihA ihB =>
    intro a b ha hb
    have inA : ∀ k, k ∈ (u, u) :: A → k ∈ (u, u) :: A ++ (u, v) :: ((v, v) :: B ++ [(v, u)]) :=
      fun k hk => List.mem_append_left _ hk
    have inB : ∀ k, k ∈ (v, v) :: B → k ∈ (u, u) :: A ++ (u, v) :: ((v, v) :: B ++ [(v, u)]) := by
      intro k hk
      apply List.mem_append_right
      exact List.mem_cons_of_mem _ (List.mem_append_left _ hk)
    have side : ∀ c, (c, c) ∈ (u, u) :: A ++ (u, v) :: ((v, v) :: B ++ [(v, u)]) →
        (c, c) ∈ (u, u) :: A ∨ (c, c) ∈ (v, v) :: B := by
      intro c hc
      rcases List.mem_append.mp hc with hc | hc
      · exact Or.inl hc
      · rcases List.mem_cons.mp hc with hc | hc
        · simp only [Prod.mk.injEq] at hc
          left; rw [hc.1]; simp
        · rcases List.mem_append.mp hc with hc | hc
          · exact Or.inr hc
          · simp only [List.mem_singleton, Prod.mk.injEq] at hc
            right; rw [hc.1]; simp
    have pA : ∀ x y, (x, x) ∈ (u, u) :: A → (y, y) ∈ (u, u) :: A →
        Relation.ReflTransGen
          (fun x y => (x, y) ∈ (u, u) :: A ++ (u, v) :: ((v, v) :: B ++ [(v, u)])) x y :=
      fun x y hx hy => Relation.ReflTransGen.mono (fun p q hpq => inA _ hpq) (ihA x y hx hy)
    have pB : ∀ x y, (x, x) ∈ (v, v) :: B → (y, y) ∈ (v, v) :: B →
        Relation.ReflTransGen
          (fun x y => (x, y) ∈ (u, u) :: A ++ (u, v) :: ((v, v) :: B ++ [(v, u)])) x y :=
      fun x y hx hy => Relation.ReflTransGen.mono (fun p q hpq => inB _ hpq) (ihB x y hx hy)
    have huv : (u, v) ∈ (u, u) :: A ++ (u, v) :: ((v, v) :: B ++ [(v, u)]) := by simp
    have hvu : (v, u) ∈ (u, u) :: A ++ (u, v) :: ((v, v) :: B ++ [(v, u)]) := by simp
    rcases side a ha with ha | ha <;> rcases side b hb with hb | hb
    · exact pA a b ha hb
    · exact ((pA a u ha (by simp)).tail huv).trans (pB v b (by simp) hb)
    · exact ((pB a v ha (by simp)).tail hvu).trans (pA u b (by simp) hb)
    · exact pB a b ha hb

/-- A tour is a tree: without an edge of the tour, the ends of that edge are not joined
by the other edges of the tour. -/
theorem ET.acyclic {s : List (Int × Int)} (h : ET s) (hnd : s.Nodup) {a b : Int}
    (hab : (a, b) ∈ s) (hne : a ≠ b) {R : Int → Int → Prop}
    (hR : ∀ x y, R x y → (x, y) ∈ s ∧ (x, y) ≠ (a, b) ∧ (x, y) ≠ (b, a)) :
    ¬ Relation.ReflTransGen R a b := by
  obtain ⟨V, U, hr⟩ := cut_exists hne hab (h.rev_mem a b hab)
  obtain ⟨eV, eU, mV, mU⟩ := h.cut hnd a b V U hne hr
  have hnd1 : ((a, b) :: V ++ (b, a) :: U).Nodup := hr.nodup_iff.mp hnd
  have hdis : ∀ k, k ∈ V → k ∉ U := by
    intro k h1 h2
    have := (List.nodup_append.mp hnd1).2.2
    exact this (List.mem_cons_of_mem _ h1) (List.mem_cons_of_mem _ h2)
  have key : ∀ x, Relation.ReflTransGen R a x → (x, x) ∈ U := by
    intro x hx
    induction hx with
    | refl => exact mU
    | tail _ hstep ih =>
      rename_i y z
      obtain ⟨h1, h2, h3⟩ := hR _ _ hstep
      have h4 := hr.mem_iff.mp h1
      simp only [List.cons_append, List.mem_cons, List.mem_append] at h4
      rcases h4 with h4 | h4 | h4 | h4
      · exact absurd h4 h2
      · exact absurd ih (hdis _ (eV.self_mem _ _ h4).1)
      · exact absurd h4 h3
      · exact (eU.self_mem _ _ h4).2
  intro hp
  exact hdis _ mV (key b hp)

theorem selfCount_append (s t : List (Int × Int)) :
    selfCount (s ++ t) = selfCount s + selfCount t := by
  simp [selfCount, List.filter_append]

theorem selfCount_cons_self (v : Int) (s : List (Int × Int)) :
    selfCount ((v, v) :: s) = selfCount s + 1 := by
  simp [selfCount, List.filter_cons]

theorem selfCount_cons_edge {u v : Int} (hne : u ≠ v) (s : List (Int × Int)) :
    selfCount ((u, v) :: s) = selfCount s := by
  simp [selfCount, List.filter_cons, hne]

theorem selfCount_perm {s t : List (Int × Int)} (h : s.Perm t) : selfCount s = selfCount t := by
  simp only [selfCount]
  exact (h.filter _).length_eq

/-- A tour of `c` vertices has `3 c - 2` nodes. -/
theorem ET.length {s : List (Int × Int)} (h : ET s) : s.Nodup →
    s.length + 2 = 3 * selfCount s := by
  induction h with
  | single v => intro _; simp [selfCount]
  | rot s s1 _ hr ih =>
    intro hnd
    rw [← hr.perm.length_eq, ← selfCount_perm hr.perm]
    exact ih (hr.nodup_iff.mpr hnd)
  | link u v A B _ _ ihA ihB =>
    intro hnd
    have hndA : ((u, u) :: A).Nodup := (List.nodup_append.mp hnd).1
    have hndB : ((v, v) :: B).Nodup := by
      have := (List.nodup_append.mp hnd).2.1
      have := (List.nodup_cons.mp this).2
      exact (List.nodup_append.mp this).1
    have hne : u ≠ v := by
      rintro rfl
      have := (List.nodup_append.mp hnd).2.2
      exact this (List.mem_cons_self _ _) (List.mem_cons_self _ _)
    have h1 := ihA hndA
    have h2 := ihB hndB
    rw [selfCount_append, selfCount_cons_edge hne, selfCount_append,
      selfCount_cons_edge (Ne.symm hne)]
    simp only [List.length_append, List.length_cons, List.length_nil, selfCount,
      List.filter_nil] at h1 h2 ⊢
    omega

theorem forest_cast (G : DynamicGraph) (l : Nat) : G.forest (l : Int) = G.spanning_trees[l]? := by
  simp [DynamicGraph.forest]

theorem list_set_self {α : Type} {xs : List α} {i : Nat} {x : α} (h : xs[i]? = some x) :
    xs.set i x = xs := by
  apply List.ext_getElem?
  intro j
  rw [List.getElem?_set]
  split
  · next hij =>
    subst hij
    split
    · exact h.symm
    · next hlt => rw [List.getElem?_eq_none_iff.mpr (by omega)]
  · rfl

theorem getElem?_lt_length {α : Type} {xs : List α} {i : Nat} {x : α} (h : xs[i]? = some x) :
    i < xs.length := by
  by_contra hc
  rw [List.getElem?_eq_none_iff.mpr (by omega)] at h
  exact Option.noConfusion h

theorem setForest_self {G : DynamicGraph} {l : Nat} {F : DynamicForest}
    (h : G.spanning_trees[l]? = some F) : G.setForest (l : Int) F = G := by
  simp only [DynamicGraph.setForest, Int.toNat_ofNat, list_set_self h]

theorem treesAt_of_le {tss : List (List Tree)} {l : Nat} (h : tss.length ≤ l) :
    treesAt tss l = [] := by
  simp only [treesAt, List.getElem?_eq_none_iff.mpr h, Option.getD_none]

theorem treesAt_set (tss : List (List Tree)) {l : Nat} (ts : List Tree) (hl : l < tss.length)
    (l1 : Nat) : treesAt (tss.set l ts) l1 = if l1 = l then ts else treesAt tss l1 := by
  simp only [treesAt, List.getElem?_set]
  by_cases h : l = l1
  · subst h
    simp [hl]
  · rw [if_neg h, if_neg (fun h1 => h h1.symm)]

theorem mem_nodesOf {ts : List Tree} {p : Nat} : p ∈ nodesOf ts ↔ ∃ t ∈ ts, p ∈ t.toList := by
  simp only [nodesOf, List.mem_flatMap]

theorem FShape.live {h : Heap} {m : EdgeMap} {ts : List Tree} (hs : FShape h m ts)
    {p : Nat} (hp : p ∈ nodesOf ts) : ∃ nd, h.get p = some nd := by
  obtain ⟨t, ht, hpt⟩ := mem_nodesOf.mp hp
  exact (hs.shape t ht).1.live_shape p hpt

theorem FShape.nodup_one {h : Heap} {m : EdgeMap} {ts : List Tree} (hs : FShape h m ts)
    {t : Tree} (ht : t ∈ ts) : t.toList.Nodup :=
  (List.nodup_flatMap.mp hs.nodup).1 t ht

/-- Two treaps of a forest that share a node are the same treap. -/
theorem FShape.same_tree {h : Heap} {m : EdgeMap} {ts : List Tree} (hs : FShape h m ts)
    {t1 t2 : Tree} (h1 : t1 ∈ ts) (h2 : t2 ∈ ts) {p : Nat} (hp1 : p ∈ t1.toList)
    (hp2 : p ∈ t2.toList) : t1 = t2 := by
  by_contra hne
  have hpw := (List.nodup_flatMap.mp hs.nodup).2
  have hsym : Symmetric (fun a b : Tree => List.Disjoint a.toList b.toList) :=
    fun a b hab => hab.symm
  have := hpw.forall hsym h1 h2 hne
  exact this hp1 hp2

theorem FShape.reg_mem {h : Heap} {m : EdgeMap} {ts : List Tree} (hs : FShape h m ts)
    {k : Int × Int} {p : Nat} (hm : m k = some (some p)) :
    ∃ t ∈ ts, p ∈ t.toList ∧ keyOf h p = k := by
  obtain ⟨h1, h2⟩ := (hs.reg k p).mp hm
  obtain ⟨t, ht, hpt⟩ := List.mem_flatMap.mp h1
  exact ⟨t, ht, hpt, h2⟩

theorem mem_tourKeys {h : Heap} {t : Tree} {k : Int × Int} :
    k ∈ tourKeys h t ↔ ∃ p ∈ t.toList, keyOf h p = k := by
  simp only [tourKeys, List.mem_map]

theorem FShape.key_reg {h : Heap} {m : EdgeMap} {ts : List Tree} (hs : FShape h m ts)
    {t : Tree} (ht : t ∈ ts) {k : Int × Int} (hk : k ∈ tourKeys h t) :
    ∃ p, m k = some (some p) ∧ p ∈ t.toList := by
  obtain ⟨p, hp, hkp⟩ := mem_tourKeys.mp hk
  exact ⟨p, (hs.reg k p).mpr ⟨List.mem_flatMap.mpr ⟨t, ht, hp⟩, hkp⟩, hp⟩

theorem FShape.key_inj {h : Heap} {m : EdgeMap} {ts : List Tree} (hs : FShape h m ts)
    {p q : Nat} (hp : p ∈ nodesOf ts) (hq : q ∈ nodesOf ts) (hk : keyOf h p = keyOf h q) :
    p = q := by
  have h1 := (hs.reg (keyOf h q) p).mpr ⟨hp, hk⟩
  have h2 := (hs.reg (keyOf h q) q).mpr ⟨hq, rfl⟩
  rw [h1] at h2
  simpa using h2

theorem flatten_map_tourKeys (h : Heap) (ts : List Tree) :
    (ts.map (tourKeys h)).flatten = (nodesOf ts).map (keyOf h) := by
  induction ts with
  | nil => rfl
  | cons t rest ih =>
    simp only [List.map_cons, List.flatten_cons, ih, nodesOf, List.flatMap_cons, List.map_append,
      tourKeys]

theorem FShape.keys_nodup {h : Heap} {m : EdgeMap} {ts : List Tree} (hs : FShape h m ts) :
    ((ts.map (tourKeys h)).flatten).Nodup := by
  rw [flatten_map_tourKeys]
  exact List.Nodup.map_on (fun p hp q hq hk => hs.key_inj hp hq hk) hs.nodup

theorem FShape.mem_keys {h : Heap} {m : EdgeMap} {ts : List Tree} (hs : FShape h m ts)
    {k : Int × Int} : k ∈ (ts.map (tourKeys h)).flatten ↔ ∃ p, m k = some (some p) := by
  rw [flatten_map_tourKeys, List.mem_map]
  constructor
  · rintro ⟨p, hp, hk⟩
    exact ⟨p, (hs.reg k p).mpr ⟨hp, hk⟩⟩
  · rintro ⟨p, hm⟩
    exact ⟨p, ((hs.reg k p).mp hm).1, ((hs.reg k p).mp hm).2⟩

/-- A level with a tour has a forest. -/
theorem Rep.forest_of_tree {G : DynamicGraph} {tss : List (List Tree)} {D : Set Nat}
    (hR : Rep G tss D) {l : Nat} {t : Tree} (ht : t ∈ treesAt tss l) :
    ∃ F, G.spanning_trees[l]? = some F := by
  have hl : l < tss.length := by
    by_contra hc
    rw [treesAt_of_le (by omega)] at ht
    exact List.not_mem_nil _ ht
  rw [hR.len] at hl
  exact ⟨G.spanning_trees[l], List.getElem?_eq_getElem hl⟩

theorem Rep.mono {G : DynamicGraph} {tss : List (List Tree)} {D D1 : Set Nat}
    (hR : Rep G tss D) (hD : D ⊆ D1) : Rep G tss D1 :=
  { hR with cons := fun l p hp hn => hR.cons l p hp (fun hd => hn (hD hd)) }

/-- The full forest predicate at a level none of whose nodes is exempt. -/
theorem Rep.frep {G : DynamicGraph} {tss : List (List Tree)} {D : Set Nat}
    (hR : Rep G tss D) {l : Nat} {F : DynamicForest} (hF : G.spanning_trees[l]? = some F)
    (hD : ∀ p ∈ nodesOf (treesAt tss l), p ∉ D) :
    FRep G.heap F.map_edges (treesAt tss l) := by
  have hs := hR.shape l F hF
  refine ⟨fun t ht => ⟨(hs.shape t ht).1, (hs.shape t ht).2, fun p hp => ?_⟩, hs.nodup, hs.reg,
    hs.nonull⟩
  have hp1 : p ∈ nodesOf (treesAt tss l) := mem_nodesOf.mpr ⟨t, ht, hp⟩
  exact hR.cons l p hp1 (hD p hp1)

theorem mem_view_tours {G : DynamicGraph} {tss : List (List Tree)} {l : Nat}
    {s : List (Int × Int)} :
    s ∈ (viewOf G tss).tours l ↔ ∃ t ∈ treesAt tss l, s = tourKeys G.heap t := by
  simp only [viewOf, List.mem_map]
  constructor
  · rintro ⟨t, ht, rfl⟩; exact ⟨t, ht, rfl⟩
  · rintro ⟨t, ht, rfl⟩; exact ⟨t, ht, rfl⟩

theorem mem_view_keys {G : DynamicGraph} {tss : List (List Tree)} {l : Nat} {k : Int × Int} :
    k ∈ ((viewOf G tss).tours l).flatten ↔ ∃ t ∈ treesAt tss l, k ∈ tourKeys G.heap t := by
  rw [List.mem_flatten]
  constructor
  · rintro ⟨s, hs, hk⟩
    obtain ⟨t, ht, rfl⟩ := mem_view_tours.mp hs
    exact ⟨t, ht, hk⟩
  · rintro ⟨t, ht, hk⟩
    exact ⟨_, mem_view_tours.mpr ⟨t, ht, rfl⟩, hk⟩

/-- The registered node of a key of a tour. -/
theorem Rep.lookup {G : DynamicGraph} {tss : List (List Tree)} {D : Set Nat}
    (hR : Rep G tss D) {l : Nat} {t : Tree} (ht : t ∈ treesAt tss l) {k : Int × Int}
    (hk : k ∈ tourKeys G.heap t) :
    ∃ F p nd, G.spanning_trees[l]? = some F ∧ F.map_edges k = some (some p) ∧ p ∈ t.toList ∧
      G.heap.get p = some nd ∧ nd.key = k := by
  obtain ⟨F, hF⟩ := hR.forest_of_tree ht
  have hs := hR.shape l F hF
  obtain ⟨p, hm, hp⟩ := hs.key_reg ht hk
  obtain ⟨nd, hg⟩ := (hs.shape t ht).1.live_shape p hp
  refine ⟨F, p, nd, hF, hm, hp, hg, ?_⟩
  rw [← keyOf_eq hg]
  exact ((hs.reg k p).mp hm).2

/-- Call `is_connected` on two registered vertices: the state is unchanged and the answer
says whether the two self-nodes lie in one treap. -/
theorem Rep.connectedAt_spec {G : DynamicGraph} {tss : List (List Tree)} {D : Set Nat}
    (hR : Rep G tss D) {l : Nat} {a b : Int}
    (ha : (a, a) ∈ ((viewOf G tss).tours l).flatten)
    (hb : (b, b) ∈ ((viewOf G tss).tours l).flatten) :
    ∃ c, G.connectedAt (l : Int) a b = some (G, c) ∧
      (c = true ↔ SameT ((viewOf G tss).tours l) a b) := by
  obtain ⟨tA, htA, hka⟩ := mem_view_keys.mp ha
  obtain ⟨tB, htB, hkb⟩ := mem_view_keys.mp hb
  obtain ⟨F, pa, nda, hF, hma, hpa, hga, -⟩ := hR.lookup htA hka
  obtain ⟨F1, pb, ndb, hF1, hmb, hpb, hgb, -⟩ := hR.lookup htB hkb
  rw [hF] at hF1
  cases Option.some.inj hF1
  have hs := hR.shape l F hF
  have hla := lift_spec (hs.shape tA htA).1 (hs.shape tA htA).2 hpa
    (f := G.heap.next + 1)
    (by have := (hs.shape tA htA).1.size_le_next hR.wf (hs.nodup_one htA); omega)
  have hlb := lift_spec (hs.shape tB htB).1 (hs.shape tB htB).2 hpb
    (f := G.heap.next + 1)
    (by have := (hs.shape tB htB).1.size_le_next hR.wf (hs.nodup_one htB); omega)
  refine ⟨decide (tA.root = tB.root), ?_, ?_⟩
  · simp only [DynamicGraph.connectedAt, forest_cast, hF, Option.some_bind, is_connected,
      EdgeMap.at_some hma, EdgeMap.at_some hmb, hla, hlb, Option.some.injEq, Prod.mk.injEq,
      and_true]
    exact setForest_self hF
  · rw [decide_eq_true_iff]
    constructor
    · intro hroot
      obtain ⟨ra, hra⟩ := Tree.root_of_mem hpa
      have h1 : ra ∈ tA.toList := Tree.root_mem hra
      have h2 : ra ∈ tB.toList := Tree.root_mem (hroot ▸ hra)
      have := hs.same_tree htA htB h1 h2
      subst this
      exact ⟨_, mem_view_tours.mpr ⟨tA, htA, rfl⟩, hka, hkb⟩
    · rintro ⟨s, hs1, hsa, hsb⟩
      obtain ⟨t, ht, rfl⟩ := mem_view_tours.mp hs1
      obtain ⟨p1, hm1, hp1⟩ := hs.key_reg ht hsa
      obtain ⟨p2, hm2, hp2⟩ := hs.key_reg ht hsb
      rw [hma] at hm1
      rw [hmb] at hm2
      simp only [Option.some.injEq] at hm1 hm2
      subst hm1 hm2
      rw [hs.same_tree htA ht hpa hp1, hs.same_tree htB ht hpb hp2]

/-- Expression `map_edges[{a, a}]` on a registered vertex returns its node and leaves the
state unchanged. -/
theorem Rep.selfNode_spec {G : DynamicGraph} {tss : List (List Tree)} {D : Set Nat}
    (hR : Rep G tss D) {l : Nat} {t : Tree} (ht : t ∈ treesAt tss l) {a : Int}
    (ha : (a, a) ∈ tourKeys G.heap t) :
    ∃ p nd, G.selfNode (l : Int) a = some (G, some p) ∧ p ∈ t.toList ∧
      G.heap.get p = some nd ∧ nd.key = (a, a) := by
  obtain ⟨F, p, nd, hF, hm, hp, hg, hk⟩ := hR.lookup ht ha
  refine ⟨p, nd, ?_, hp, hg, hk⟩
  simp only [DynamicGraph.selfNode, forest_cast, hF, Option.some_bind, EdgeMap.at_some hm,
    Option.some.injEq, Prod.mk.injEq, and_true]
  exact setForest_self hF

theorem keyOf_congr {h h1 : Heap} {p : Nat} (hg : h1.get p = h.get p) : keyOf h1 p = keyOf h p := by
  simp only [keyOf, hg]

theorem tourKeys_congr {h h1 : Heap} {t : Tree} (hg : ∀ p ∈ t.toList, h1.get p = h.get p) :
    tourKeys h1 t = tourKeys h t := by
  simp only [tourKeys]
  exact List.map_congr_left (fun p hp => keyOf_congr (hg p hp))

/-- A forest whose nodes are untouched is still represented. -/
theorem FShape.frame_forest {h h1 : Heap} {m : EdgeMap} {ts : List Tree} (hs : FShape h m ts)
    (hg : ∀ p ∈ nodesOf ts, h1.get p = h.get p) : FShape h1 m ts := by
  refine ⟨fun t ht => ?_, hs.nodup, fun k p => ?_, hs.nonull⟩
  · have hgt : ∀ q ∈ t.toList, h1.get q = h.get q :=
      fun q hq => hg q (mem_nodesOf.mpr ⟨t, ht, hq⟩)
    exact ⟨(hs.shape t ht).1.frame_shape (hs.nodup_one ht) hgt,
      (hs.shape t ht).2.congr_parent (fun x hx => hgt x (Tree.root_mem hx))⟩
  · rw [hs.reg k p]
    constructor
    · rintro ⟨h1', h2⟩
      exact ⟨h1', by rw [keyOf_congr (hg p h1'), h2]⟩
    · rintro ⟨h1', h2⟩
      exact ⟨h1', by rw [← keyOf_congr (hg p h1'), h2]⟩

theorem FShape.cons_frame {h h1 : Heap} {m : EdgeMap} {ts : List Tree} (hs : FShape h m ts)
    (hg : ∀ p ∈ nodesOf ts, h1.get p = h.get p) {p : Nat} (hp : p ∈ nodesOf ts)
    (hc : Cons h p) : Cons h1 p := by
  obtain ⟨t, ht, hpt⟩ := mem_nodesOf.mp hp
  exact Cons.frame_tree (hs.shape t ht).1
    (fun q hq => by rw [hg q (mem_nodesOf.mpr ⟨t, ht, hq⟩)]) hpt hc

theorem FShape.node_lt_next {h : Heap} {m : EdgeMap} {ts : List Tree} (hs : FShape h m ts)
    (hw : h.WF) {p : Nat} (hp : p ∈ nodesOf ts) : p < h.next := by
  obtain ⟨nd, hg⟩ := hs.live hp
  exact hw.lt hg

theorem Rep.level_lt {G : DynamicGraph} {tss : List (List Tree)} {D : Set Nat}
    (hR : Rep G tss D) {l : Nat} {F : DynamicForest} (hF : G.spanning_trees[l]? = some F) :
    l < tss.length := by
  rw [hR.len]
  exact getElem?_lt_length hF

theorem Rep.forest_of_node {G : DynamicGraph} {tss : List (List Tree)} {D : Set Nat}
    (hR : Rep G tss D) {l : Nat} {p : Nat} (hp : p ∈ nodesOf (treesAt tss l)) :
    ∃ F, G.spanning_trees[l]? = some F := by
  obtain ⟨t, ht, -⟩ := mem_nodesOf.mp hp
  exact hR.forest_of_tree ht

theorem Rep.node_lt {G : DynamicGraph} {tss : List (List Tree)} {D : Set Nat}
    (hR : Rep G tss D) {l : Nat} {p : Nat} (hp : p ∈ nodesOf (treesAt tss l)) :
    p < G.heap.next := by
  obtain ⟨F, hF⟩ := hR.forest_of_node hp
  exact (hR.shape l F hF).node_lt_next hR.wf hp

/-- Replacing forest `l` by a forest that is represented in a heap which leaves the nodes
of the other levels untouched. -/
theorem Rep.replace {G G1 : DynamicGraph} {tss : List (List Tree)} {D : Set Nat}
    (hR : Rep G tss D) {l : Nat} {F F1 : DynamicForest} (hF : G.spanning_trees[l]? = some F)
    {ts1 : List Tree} {D1 : Set Nat}
    (hG : G1.spanning_trees = G.spanning_trees.set l F1)
    (hw : G1.heap.WF) (hlev : F1.level = F.level)
    (hs : FShape G1.heap F1.map_edges ts1)
    (hc : ∀ p ∈ nodesOf ts1, p ∉ D1 → Cons G1.heap p)
    (hfr : ∀ l1, l1 ≠ l → ∀ p ∈ nodesOf (treesAt tss l1), G1.heap.get p = G.heap.get p)
    (hD : ∀ l1, l1 ≠ l → ∀ p ∈ nodesOf (treesAt tss l1), p ∉ D1 → p ∉ D)
    (hnew : ∀ p ∈ nodesOf ts1, p ∈ nodesOf (treesAt tss l) ∨ G.heap.next ≤ p) :
    Rep G1 (tss.set l ts1) D1 := by
  have hl := hR.level_lt hF
  have hforest : ∀ l1 F2, G1.spanning_trees[l1]? = some F2 →
      (l1 = l ∧ F2 = F1) ∨ (l1 ≠ l ∧ G.spanning_trees[l1]? = some F2) := by
    intro l1 F2 h2
    rw [hG, List.getElem?_set] at h2
    by_cases h : l = l1
    · subst h
      rw [if_pos rfl, if_pos (getElem?_lt_length hF)] at h2
      exact Or.inl ⟨rfl, (Option.some.inj h2).symm⟩
    · rw [if_neg h] at h2
      exact Or.inr ⟨fun h1 => h h1.symm, h2⟩
  refine ⟨hw, ?_, ?_, ?_, ?_, ?_⟩
  · rw [List.length_set, hG, List.length_set]
    exact hR.len
  · intro l1 F2 h2
    rcases hforest l1 F2 h2 with ⟨rfl, rfl⟩ | ⟨-, h3⟩
    · rw [hlev]; exact hR.flevel _ F hF
    · exact hR.flevel l1 F2 h3
  · intro l1 F2 h2
    rw [treesAt_set tss ts1 hl]
    rcases hforest l1 F2 h2 with ⟨rfl, rfl⟩ | ⟨hne, h3⟩
    · rw [if_pos rfl]; exact hs
    · rw [if_neg hne]
      exact (hR.shape l1 F2 h3).frame_forest (hfr l1 hne)
  · intro l1 p hp hd
    rw [treesAt_set tss ts1 hl] at hp
    by_cases h : l1 = l
    · rw [if_pos h] at hp
      exact hc p hp hd
    · rw [if_neg h] at hp
      obtain ⟨F2, hF2⟩ := hR.forest_of_node hp
      exact (hR.shape l1 F2 hF2).cons_frame (hfr l1 h) hp (hR.cons l1 p hp (hD l1 h p hp hd))
  · intro l1 l2 p hne hp1 hp2
    rw [treesAt_set tss ts1 hl] at hp1 hp2
    by_cases h1 : l1 = l
    · rw [if_pos h1] at hp1
      have h2 : l2 ≠ l := fun h => hne (h1.trans h.symm)
      rw [if_neg h2] at hp2
      rcases hnew p hp1 with h3 | h3
      · exact hR.sep l l2 p (fun h => h2 h.symm) h3 hp2
      · have := hR.node_lt hp2
        omega
    · rw [if_neg h1] at hp1
      by_cases h2 : l2 = l
      · rw [if_pos h2] at hp2
        rcases hnew p hp2 with h3 | h3
        · exact hR.sep l1 l p h1 hp1 h3
        · have := hR.node_lt hp1
          omega
      · rw [if_neg h2] at hp2
        exact hR.sep l1 l2 p hne hp1 hp2

theorem datOf_frame {h h1 : Heap} {ts : List Tree} {F : DynamicForest}
    (hs : FShape h F.map_edges ts)
    (hg : ∀ p ∈ nodesOf ts, h1.get p = h.get p) (k : Int × Int) :
    datOf h1 F k = datOf h F k := by
  simp only [datOf]
  cases hm : F.map_edges k with
  | none => rfl
  | some o =>
    cases o with
    | none => rfl
    | some p =>
      simp only
      rw [hg p ((hs.reg k p).mp hm).1]

/-- The view after forest `l` is replaced. -/
theorem viewOf_replace {G G1 : DynamicGraph} {tss : List (List Tree)} {D : Set Nat}
    (hR : Rep G tss D) {l : Nat} {F F1 : DynamicForest} (hF : G.spanning_trees[l]? = some F)
    {ts1 : List Tree}
    (hG : G1.spanning_trees = G.spanning_trees.set l F1)
    (hfr : ∀ l1, l1 ≠ l → ∀ p ∈ nodesOf (treesAt tss l1), G1.heap.get p = G.heap.get p)
    (hadj : F1.adjacent_edges = F.adjacent_edges)
    (hn : G1.n_ = G.n_) (hmx : G1.mx_level = G.mx_level) (hcomp : G1.components = G.components)
    (hT : G1.spanning_edges_levels = G.spanning_edges_levels)
    (hN : G1.not_spanning_edges_levels = G.not_spanning_edges_levels) :
    viewOf G1 (tss.set l ts1) =
      (viewOf G tss).setLevel l (ts1.map (tourKeys G1.heap)) (datOf G1.heap F1) := by
  have hl := hR.level_lt hF
  have hlF := getElem?_lt_length hF
  apply View.ext
  · exact hn
  · simp only [viewOf, View.setLevel, hG, List.length_set]
  · exact hmx
  · exact hcomp
  · exact hT
  · exact hN
  · funext l1
    simp only [viewOf, View.setLevel, treesAt_set tss ts1 hl]
    by_cases h : l1 = l
    · rw [if_pos h, if_pos h]
    · rw [if_neg h, if_neg h]
      apply List.map_congr_left
      intro t ht
      exact tourKeys_congr (fun p hp => hfr l1 h p (mem_nodesOf.mpr ⟨t, ht, hp⟩))
  · funext l1 a
    simp only [viewOf, View.setLevel, hG, List.getElem?_set]
    by_cases h : l = l1
    · subst h
      rw [if_pos rfl, if_pos hlF, hF]
      simp only [hadj]
    · rw [if_neg h]
  · funext l1 k
    simp only [viewOf, View.setLevel, hG, List.getElem?_set]
    by_cases h : l = l1
    · subst h
      rw [if_pos rfl, if_pos hlF, if_pos rfl]
    · rw [if_neg h, if_neg (fun h1 => h h1.symm)]
      cases hF2 : G.spanning_trees[l1]? with
      | none => rfl
      | some F2 =>
        simp only
        exact datOf_frame (hR.shape l1 F2 hF2) (hfr l1 (fun h1 => h h1.symm)) k

theorem FRep.toShape {h : Heap} {m : EdgeMap} {ts : List Tree} (hr : FRep h m ts) :
    FShape h m ts :=
  ⟨fun t ht => ⟨(hr.good t ht).1, (hr.good t ht).2.1⟩, hr.nodup, hr.reg, hr.nonull⟩

theorem FRep.cons_all {h : Heap} {m : EdgeMap} {ts : List Tree} (hr : FRep h m ts)
    {p : Nat} (hp : p ∈ nodesOf ts) : Cons h p := by
  obtain ⟨t, ht, hpt⟩ := mem_nodesOf.mp hp
  exact (hr.good t ht).2.2 p hpt

theorem keyOf_of_data {h h1 : Heap} {p : Nat}
    (hd : (h1.get p).map Node.data = (h.get p).map Node.data) : keyOf h1 p = keyOf h p := by
  simp only [keyOf]
  cases h1p : h1.get p with
  | none =>
    rw [h1p] at hd
    cases hp : h.get p with
    | none => rfl
    | some nd => rw [hp] at hd; simp at hd
  | some nd1 =>
    rw [h1p] at hd
    cases hp : h.get p with
    | none => rw [hp] at hd; simp at hd
    | some nd =>
      rw [hp] at hd
      simp only [Option.map_some', Option.some.injEq, Node.data, Prod.mk.injEq] at hd
      exact hd.1

theorem flags_of_data {h h1 : Heap} {p : Nat}
    (hd : (h1.get p).map Node.data = (h.get p).map Node.data) :
    (h1.get p).map (fun nd => (nd.is_min_level, nd.is_has_adjacent, nd.level)) =
      (h.get p).map (fun nd => (nd.is_min_level, nd.is_has_adjacent, nd.level)) := by
  cases h1p : h1.get p with
  | none =>
    rw [h1p] at hd
    cases hp : h.get p with
    | none => rfl
    | some nd => rw [hp] at hd; simp at hd
  | some nd1 =>
    rw [h1p] at hd
    cases hp : h.get p with
    | none => rw [hp] at hd; simp at hd
    | some nd =>
      rw [hp] at hd
      simp only [Option.map_some', Option.some.injEq, Node.data, Prod.mk.injEq] at hd
      simp only [Option.map_some', hd.2.2.1, hd.2.2.2.1, hd.2.2.2.2]

theorem flags_of_data_some {h1 : Heap} {p : Nat} {k : Int × Int} {pr lv : Int} {m f : Bool}
    (hd : (h1.get p).map Node.data = some (k, pr, lv, m, f)) :
    (h1.get p).map (fun nd => (nd.is_min_level, nd.is_has_adjacent, nd.level)) =
      some (m, f, lv) ∧ keyOf h1 p = k := by
  cases h1p : h1.get p with
  | none => rw [h1p] at hd; simp at hd
  | some nd1 =>
    rw [h1p] at hd
    simp only [Option.map_some', Option.some.injEq, Node.data, Prod.mk.injEq] at hd
    simp only [Option.map_some', hd.2.2.1, hd.2.2.2.1, hd.2.2.2.2, keyOf, h1p, hd.1, and_self]

theorem map_none_of_not_mem {h : Heap} {m : EdgeMap} {ts : List Tree} (hs : FShape h m ts)
    {k : Int × Int} (hk : k ∉ (ts.map (tourKeys h)).flatten) : m k = none := by
  cases hm : m k with
  | none => rfl
  | some o =>
    cases o with
    | none => exact absurd hm (hs.nonull k)
    | some p => exact absurd (hs.mem_keys.mpr ⟨p, hm⟩) hk

theorem rot_isRotated (s : List Nat) (k : Nat) : s.IsRotated (rot s k) := by
  rw [isRotated_iff_split]
  exact ⟨s.take k, s.drop k, (List.take_append_drop k s).symm, rfl⟩

theorem setForest_trees (G : DynamicGraph) (l : Nat) (F : DynamicForest) :
    (G.setForest (l : Int) F).spanning_trees = G.spanning_trees.set l F := by
  simp only [DynamicGraph.setForest, Int.toNat_ofNat]

/-- Call `spanning_trees[l]->add_edge(a, b, lvl)` on two vertices of different treaps. -/
theorem Rep.addEdgeAt_spec {G : DynamicGraph} {tss : List (List Tree)} {D : Set Nat}
    (hR : Rep G tss D) {l : Nat} {tA tB : Tree} {rest : List Tree}
    (hperm : (treesAt tss l).Perm (tA :: tB :: rest))
    (hD : ∀ p ∈ nodesOf (treesAt tss l), p ∉ D)
    {a b : Int} (lvl : Int)
    (ha : (a, a) ∈ tourKeys G.heap tA) (hb : (b, b) ∈ tourKeys G.heap tB) (hne : a ≠ b)
    (hab : (a, b) ∉ ((viewOf G tss).tours l).flatten)
    (hba : (b, a) ∉ ((viewOf G tss).tours l).flatten) :
    ∃ G1 T A B, G.addEdgeAt (l : Int) a b lvl = some G1 ∧
      Rep G1 (tss.set l (T :: rest)) D ∧
      (tourKeys G.heap tA).IsRotated ((a, a) :: A) ∧
      (tourKeys G.heap tB).IsRotated ((b, b) :: B) ∧
      viewOf G1 (tss.set l (T :: rest)) =
        (viewOf G tss).link l a b lvl A B (rest.map (tourKeys G.heap)) ∧
      G1.cout = G.cout := by
  have htA : tA ∈ treesAt tss l := hperm.mem_iff.mpr (List.mem_cons_self _ _)
  have htB : tB ∈ treesAt tss l :=
    hperm.mem_iff.mpr (List.mem_cons_of_mem _ (List.mem_cons_self _ _))
  have hrest : ∀ t ∈ rest, t ∈ treesAt tss l := fun t ht =>
    hperm.mem_iff.mpr (List.mem_cons_of_mem _ (List.mem_cons_of_mem _ ht))
  obtain ⟨F, hF⟩ := hR.forest_of_tree htA
  have hs := hR.shape l F hF
  have hfr0 := hR.frep hF hD
  have hfr := hfr0.perm hperm
  obtain ⟨pu, hmu, hpu⟩ := hs.key_reg htA ha
  obtain ⟨pv, hmv, hpv⟩ := hs.key_reg htB hb
  have huv : F.map_edges (a, b) = none := map_none_of_not_mem hs hab
  have hvu : F.map_edges (b, a) = none := map_none_of_not_mem hs hba
  obtain ⟨h7, T, hadd, hrep7, hT, hw7, hnext7, hdata, hframe, hd1, hd2⟩ :=
    @add_edge_spec G.heap G.gen F tA tB rest a b lvl pu pv hR.wf hfr hmu hpu hmv hpv hne huv hvu
  have hlevF := hR.flevel l F hF
  -- the new state
  let F1 : DynamicForest := { F with map_edges :=
    (F.map_edges.set (a, b) (some G.heap.next)).set (b, a) (some (G.heap.next + 1)) }
  let G1 : DynamicGraph :=
    { G.setForest (l : Int) F1 with heap := h7, gen := { G.gen with drawn := G.gen.drawn + 1 + 1 } }
  have hG1 : G1.spanning_trees = G.spanning_trees.set l F1 := setForest_trees G l F1
  have hframe1 : ∀ l1, l1 ≠ l → ∀ p ∈ nodesOf (treesAt tss l1), G1.heap.get p = G.heap.get p := by
    intro l1 hl1 p hp
    apply hframe p (hR.node_lt hp)
    · intro hpa
      exact hR.sep l1 l p hl1 hp (mem_nodesOf.mpr ⟨tA, htA, hpa⟩)
    · intro hpb
      exact hR.sep l1 l p hl1 hp (mem_nodesOf.mpr ⟨tB, htB, hpb⟩)
  have hTmem : ∀ p ∈ T.toList, p ∈ tA.toList ∨ p ∈ tB.toList ∨ p = G.heap.next ∨
      p = G.heap.next + 1 := by
    intro p hp
    rw [hT] at hp
    simp only [List.mem_append, List.mem_cons, mem_rot, List.mem_singleton,
      List.not_mem_nil, or_false] at hp
    rcases hp with hp | hp | hp | hp
    · exact Or.inl hp
    · exact Or.inr (Or.inr (Or.inl hp))
    · exact Or.inr (Or.inl hp)
    · exact Or.inr (Or.inr (Or.inr hp))
  have hRep1 : Rep G1 (tss.set l (T :: rest)) D := by
    refine hR.replace hF hG1 hw7 rfl hrep7.toShape (fun p hp _ => hrep7.cons_all hp) hframe1
      (fun _ _ _ _ hd => hd) ?_
    intro p hp
    obtain ⟨t, ht, hpt⟩ := mem_nodesOf.mp hp
    rcases List.mem_cons.mp ht with rfl | ht
    · rcases hTmem p hpt with h1 | h1 | h1 | h1
      · exact Or.inl (mem_nodesOf.mpr ⟨tA, htA, h1⟩)
      · exact Or.inl (mem_nodesOf.mpr ⟨tB, htB, h1⟩)
      · exact Or.inr (by omega)
      · exact Or.inr (by omega)
    · exact Or.inl (mem_nodesOf.mpr ⟨t, hrest t ht, hpt⟩)
  -- keys of old nodes
  have hkey : ∀ q, q < G.heap.next → keyOf h7 q = keyOf G.heap q :=
    fun q hq => keyOf_of_data (hdata q hq)
  have hkA : ∀ q ∈ tA.toList, keyOf h7 q = keyOf G.heap q :=
    fun q hq => hkey q (hR.node_lt (mem_nodesOf.mpr ⟨tA, htA, hq⟩))
  have hkB : ∀ q ∈ tB.toList, keyOf h7 q = keyOf G.heap q :=
    fun q hq => hkey q (hR.node_lt (mem_nodesOf.mpr ⟨tB, htB, hq⟩))
  have hku : keyOf G.heap pu = (a, a) := ((hs.reg _ _).mp hmu).2
  have hkv : keyOf G.heap pv = (b, b) := ((hs.reg _ _).mp hmv).2
  obtain ⟨hf1, hk1⟩ := flags_of_data_some hd1
  obtain ⟨hf2, hk2⟩ := flags_of_data_some hd2
  refine ⟨G1, T, (tA.toList.drop (tA.toList.indexOf pu + 1) ++
      tA.toList.take (tA.toList.indexOf pu)).map (keyOf G.heap),
    (tB.toList.drop (tB.toList.indexOf pv + 1) ++
      tB.toList.take (tB.toList.indexOf pv)).map (keyOf G.heap), ?_, hRep1, ?_, ?_, ?_, rfl⟩
  · simp only [DynamicGraph.addEdgeAt, forest_cast, hF, Option.some_bind, hadd]
  · have := (rot_isRotated tA.toList (tA.toList.indexOf pu)).map (keyOf G.heap)
    rw [rot_indexOf hpu, List.map_cons, hku] at this
    exact this
  · have := (rot_isRotated tB.toList (tB.toList.indexOf pv)).map (keyOf G.heap)
    rw [rot_indexOf hpv, List.map_cons, hkv] at this
    exact this
  · rw [viewOf_replace hR hF hG1 hframe1 rfl rfl rfl rfl rfl rfl]
    simp only [View.link]
    congr 1
    · -- tours
      simp only [List.map_cons]
      congr 1
      · show (T.toList).map (keyOf h7) = _
        rw [hT, rot_indexOf hpu, rot_indexOf hpv]
        simp only [List.map_append, List.map_cons, List.map_nil, List.cons_append]
        have e1 : keyOf h7 pu = (a, a) := by rw [hkA pu hpu, hku]
        have e2 : keyOf h7 pv = (b, b) := by rw [hkB pv hpv, hkv]
        have e3 : ∀ (xs : List Nat), (∀ q ∈ xs, q ∈ tA.toList) →
            xs.map (keyOf h7) = xs.map (keyOf G.heap) :=
          fun xs hxs => List.map_congr_left (fun q hq => hkA q (hxs q hq))
        have e4 : ∀ (xs : List Nat), (∀ q ∈ xs, q ∈ tB.toList) →
            xs.map (keyOf h7) = xs.map (keyOf G.heap) :=
          fun xs hxs => List.map_congr_left (fun q hq => hkB q (hxs q hq))
        rw [e1, e2, hk1, hk2, e3 _ (fun q hq => List.mem_of_mem_drop hq),
          e3 _ (fun q hq => List.mem_of_mem_take hq), e4 _ (fun q hq => List.mem_of_mem_drop hq),
          e4 _ (fun q hq => List.mem_of_mem_take hq)]
      · apply List.map_congr_left
        intro t ht
        simp only [tourKeys]
        exact List.map_congr_left
          (fun q hq => hkey q (hR.node_lt (mem_nodesOf.mpr ⟨t, hrest t ht, hq⟩)))
    · -- flags
      funext k
      by_cases hkba : k = (b, a)
      · subst hkba
        rw [if_pos rfl]
        simp only [datOf, F1, EdgeMap.set, if_true]
        rw [hf2, hlevF]
      · rw [if_neg hkba]
        by_cases hkab : k = (a, b)
        · subst hkab
          rw [if_pos rfl]
          simp only [datOf, F1, EdgeMap.set, if_neg hkba, if_true]
          rw [hf1, hlevF]
        · rw [if_neg hkab]
          simp only [datOf, F1, EdgeMap.set, if_neg hkba, if_neg hkab, viewOf, hF]
          cases hm : F.map_edges k with
          | none => rfl
          | some o =>
            cases o with
            | none => rfl
            | some p =>
              simp only
              exact flags_of_data (hdata p (hs.node_lt_next hR.wf ((hs.reg k p).mp hm).1))

/-- Call `spanning_trees[l]->delete_edge(a, b)` on a tree edge of the treap `t`. -/
theorem Rep.deleteEdgeAt_spec {G : DynamicGraph} {tss : List (List Tree)} {D : Set Nat}
    (hR : Rep G tss D) {l : Nat} {t : Tree} {rest : List Tree}
    (hperm : (treesAt tss l).Perm (t :: rest))
    (hD : ∀ p ∈ nodesOf (treesAt tss l), p ∉ D)
    {a b : Int} (hne : a ≠ b)
    (hab : (a, b) ∈ tourKeys G.heap t) (hba : (b, a) ∈ tourKeys G.heap t) :
    ∃ G1 tV tU S U, G.deleteEdgeAt (l : Int) a b = some G1 ∧
      Rep G1 (tss.set l (tV :: tU :: rest)) D ∧
      (tourKeys G.heap t).IsRotated ((a, b) :: S ++ (b, a) :: U) ∧
      viewOf G1 (tss.set l (tV :: tU :: rest)) =
        (viewOf G tss).cut l a b S U (rest.map (tourKeys G.heap)) ∧
      G1.cout = G.cout := by
  have ht : t ∈ treesAt tss l := hperm.mem_iff.mpr (List.mem_cons_self _ _)
  have hrest : ∀ t1 ∈ rest, t1 ∈ treesAt tss l := fun t1 ht1 =>
    hperm.mem_iff.mpr (List.mem_cons_of_mem _ ht1)
  obtain ⟨F, hF⟩ := hR.forest_of_tree ht
  have hs := hR.shape l F hF
  have hfr := (hR.frep hF hD).perm hperm
  obtain ⟨puv, hm1, hp1⟩ := hs.key_reg ht hab
  obtain ⟨pvu, hm2, hp2⟩ := hs.key_reg ht hba
  obtain ⟨h6, tV, tU, hdel, hrep6, hrot, hw6, hnext6, hdata, hframe, hfree1, hfree2⟩ :=
    delete_edge_spec hR.wf hfr hm1 hm2 hp1 hp2 hne
  let F1 : DynamicForest :=
    { F with map_edges := (F.map_edges.erase (a, b)).erase (b, a) }
  let G1 : DynamicGraph := { G.setForest (l : Int) F1 with heap := h6 }
  have hG1 : G1.spanning_trees = G.spanning_trees.set l F1 := setForest_trees G l F1
  have hframe1 : ∀ l1, l1 ≠ l → ∀ p ∈ nodesOf (treesAt tss l1), G1.heap.get p = G.heap.get p := by
    intro l1 hl1 p hp
    apply hframe p
    intro hpt
    exact hR.sep l1 l p hl1 hp (mem_nodesOf.mpr ⟨t, ht, hpt⟩)
  -- the nodes of the two parts
  have hndt : t.toList.Nodup := hs.nodup_one ht
  have hndrot : (puv :: (tV.toList ++ pvu :: tU.toList)).Nodup := by
    rw [← hrot]
    exact (rot_perm _ _).nodup_iff.mpr hndt
  have hmemV : ∀ q ∈ tV.toList, q ∈ t.toList ∧ q ≠ puv ∧ q ≠ pvu := by
    intro q hq
    have h1 : q ∈ rot t.toList (t.toList.indexOf puv) := by
      rw [hrot]; simp [hq]
    refine ⟨mem_rot.mp h1, ?_, ?_⟩
    · rintro rfl
      exact (List.nodup_cons.mp hndrot).1 (by simp [hq])
    · rintro rfl
      have := (List.nodup_append.mp (List.nodup_cons.mp hndrot).2).2.2
      exact this hq (List.mem_cons_self _ _)
  have hmemU : ∀ q ∈ tU.toList, q ∈ t.toList ∧ q ≠ puv ∧ q ≠ pvu := by
    intro q hq
    have h1 : q ∈ rot t.toList (t.toList.indexOf puv) := by
      rw [hrot]; simp [hq]
    refine ⟨mem_rot.mp h1, ?_, ?_⟩
    · rintro rfl
      exact (List.nodup_cons.mp hndrot).1 (by simp [hq])
    · rintro rfl
      have := (List.nodup_cons.mp (List.nodup_append.mp (List.nodup_cons.mp hndrot).2).2.1).1
      exact this hq
  have hRep1 : Rep G1 (tss.set l (tV :: tU :: rest)) D := by
    refine hR.replace hF hG1 hw6 rfl hrep6.toShape (fun p hp _ => hrep6.cons_all hp) hframe1
      (fun _ _ _ _ hd => hd) ?_
    intro p hp
    obtain ⟨t1, ht1, hpt⟩ := mem_nodesOf.mp hp
    rcases List.mem_cons.mp ht1 with rfl | ht1
    · exact Or.inl (mem_nodesOf.mpr ⟨t, ht, (hmemV p hpt).1⟩)
    · rcases List.mem_cons.mp ht1 with rfl | ht1
      · exact Or.inl (mem_nodesOf.mpr ⟨t, ht, (hmemU p hpt).1⟩)
      · exact Or.inl (mem_nodesOf.mpr ⟨t1, hrest t1 ht1, hpt⟩)
  have hkuv : keyOf G.heap puv = (a, b) := ((hs.reg _ _).mp hm1).2
  have hkvu : keyOf G.heap pvu = (b, a) := ((hs.reg _ _).mp hm2).2
  have hkey : ∀ q, q ≠ puv → q ≠ pvu → keyOf h6 q = keyOf G.heap q :=
    fun q h1 h2 => keyOf_of_data (hdata q h1 h2)
  have hkV : tourKeys h6 tV = tV.toList.map (keyOf G.heap) :=
    List.map_congr_left (fun q hq => hkey q (hmemV q hq).2.1 (hmemV q hq).2.2)
  have hkU : tourKeys h6 tU = tU.toList.map (keyOf G.heap) :=
    List.map_congr_left (fun q hq => hkey q (hmemU q hq).2.1 (hmemU q hq).2.2)
  refine ⟨G1, tV, tU, tV.toList.map (keyOf G.heap), tU.toList.map (keyOf G.heap), ?_, hRep1, ?_,
    ?_, rfl⟩
  · simp only [DynamicGraph.deleteEdgeAt, forest_cast, hF, Option.some_bind, hdel]
  · have := (rot_isRotated t.toList (t.toList.indexOf puv)).map (keyOf G.heap)
    rw [hrot, List.map_cons, List.map_append, List.map_cons, hkuv, hkvu] at this
    exact this
  · rw [viewOf_replace hR hF hG1 hframe1 rfl rfl rfl rfl rfl rfl]
    simp only [View.cut]
    congr 1
    · simp only [List.map_cons]
      rw [hkV, hkU]
      congr 2
      apply List.map_congr_left
      intro t1 ht1
      apply tourKeys_congr
      intro q hq
      apply hframe q
      intro hqt
      have := hs.same_tree (hrest t1 ht1) ht hq hqt
      subst this
      have hnd2 := (List.nodup_flatMap.mp hfr.nodup).2
      rw [List.pairwise_cons] at hnd2
      exact hnd2.1 _ ht1 hq hq
    · funext k
      by_cases hk : k = (a, b) ∨ k = (b, a)
      · rw [if_pos hk]
        rcases hk with rfl | rfl
        · simp only [datOf, F1, EdgeMap.erase]
          by_cases h : ((a, b) : Int × Int) = (b, a)
          · simp [h]
          · simp [h]
        · simp only [datOf, F1, EdgeMap.erase, if_true]
      · rw [if_neg hk]
        rw [not_or] at hk
        simp only [datOf, F1, EdgeMap.erase, if_neg hk.1, if_neg hk.2, viewOf, hF]
        cases hm : F.map_edges k with
        | none => rfl
        | some o =>
          cases o with
          | none => rfl
          | some p =>
            simp only
            apply flags_of_data
            apply hdata p
            · rintro rfl
              exact hk.1 (((hs.reg _ _).mp hm).2.symm.trans hkuv)
            · rintro rfl
              exact hk.2 (((hs.reg _ _).mp hm).2.symm.trans hkvu)

theorem get_agg_set {h : Heap} {p : Nat} {nd nd1 : Node} (hg : h.get p = some nd)
    (ha1 : nd1.size_of_min_level = nd.size_of_min_level)
    (ha2 : nd1.size_of_adjacent = nd.size_of_adjacent) (o : Option Nat) :
    get_size_min_level (h.set p nd1) o = get_size_min_level h o ∧
    get_size_adjacent (h.set p nd1) o = get_size_adjacent h o := by
  cases o with
  | none => exact ⟨rfl, rfl⟩
  | some x =>
    simp only [get_size_min_level, get_size_adjacent, Heap.get_set]
    by_cases hx : x = p
    · subst hx
      simp [hg, ha1, ha2]
    · simp [hx]

/-- A write to the flags of `p` leaves the aggregate check intact elsewhere. -/
theorem Cons.of_set_flags {h : Heap} {p q : Nat} {nd nd1 : Node} (hg : h.get p = some nd)
    (ha1 : nd1.size_of_min_level = nd.size_of_min_level)
    (ha2 : nd1.size_of_adjacent = nd.size_of_adjacent) (hq : q ≠ p) (hc : Cons h q) :
    Cons (h.set p nd1) q := by
  obtain ⟨ndq, ml, mr, al, ar, hgq, hml, hmr, hal, har, e1, e2⟩ := hc
  refine ⟨ndq, ml, mr, al, ar, ?_, ?_, ?_, ?_, ?_, e1, e2⟩
  · rw [Heap.get_set_ne _ _ hq, hgq]
  · rw [(get_agg_set hg ha1 ha2 _).1, hml]
  · rw [(get_agg_set hg ha1 ha2 _).1, hmr]
  · rw [(get_agg_set hg ha1 ha2 _).2, hal]
  · rw [(get_agg_set hg ha1 ha2 _).2, har]

theorem keyOf_set {h : Heap} {p : Nat} {nd nd1 : Node} (hg : h.get p = some nd)
    (hk : nd1.key = nd.key) (q : Nat) : keyOf (h.set p nd1) q = keyOf h q := by
  simp only [keyOf, Heap.get_set]
  by_cases hq : q = p
  · subst hq
    simp [hg, hk]
  · simp [hq]

theorem FShape.of_links {h h1 : Heap} {m : EdgeMap} {ts : List Tree} (hs : FShape h m ts)
    (hl : LinksEq h h1) (hk : ∀ q, keyOf h1 q = keyOf h q) : FShape h1 m ts := by
  refine ⟨fun t ht => ⟨(hs.shape t ht).1.shape_of_linksEq hl,
    (hs.shape t ht).2.parent_of_linksEq hl⟩, hs.nodup, fun k p => ?_, hs.nonull⟩
  rw [hs.reg k p, hk p]

theorem treesAt_self {tss : List (List Tree)} {l : Nat} (hl : l < tss.length) :
    tss.set l (treesAt tss l) = tss := by
  apply list_set_self
  simp only [treesAt, List.getElem?_eq_getElem hl, Option.getD_some]

theorem View.setLevel_dat (V : View) (l : Nat) (k : Int × Int) (d : Bool × Bool × Int) :
    V.setLevel l (V.tours l) (fun k1 => if k1 = k then some d else V.dat l k1) =
      V.setDat l k d := by
  apply View.ext <;> try rfl
  · funext l1
    simp only [View.setLevel, View.setDat]
    by_cases h : l1 = l
    · subst h; simp
    · simp [h]
  · funext l1 k1
    simp only [View.setLevel, View.setDat]
    by_cases h : l1 = l
    · subst h; simp
    · simp [h]

theorem View.setDat_self (V : View) (l : Nat) (k : Int × Int) (d : Bool × Bool × Int)
    (h : V.dat l k = some d) : V.setDat l k d = V := by
  apply View.ext <;> try rfl
  funext l1 k1
  simp only [View.setDat]
  split
  · next h1 => rw [h1.1, h1.2, h]
  · rfl

/-- A write to the flag fields of a node of level `l`. -/
theorem Rep.write_flags {G : DynamicGraph} {tss : List (List Tree)} {D : Set Nat}
    (hR : Rep G tss D) {l : Nat} {p : Nat} (hp : p ∈ nodesOf (treesAt tss l)) {nd nd1 : Node}
    (hg : G.heap.get p = some nd) (hlinks : nd1.links = nd.links) (hkey : nd1.key = nd.key)
    (ha1 : nd1.size_of_min_level = nd.size_of_min_level)
    (ha2 : nd1.size_of_adjacent = nd.size_of_adjacent) :
    Rep { G with heap := G.heap.set p nd1 } tss (D ∪ {p}) ∧
    viewOf { G with heap := G.heap.set p nd1 } tss =
      (viewOf G tss).setDat l nd.key (nd1.is_min_level, nd1.is_has_adjacent, nd1.level) := by
  obtain ⟨F, hF⟩ := hR.forest_of_node hp
  have hs := hR.shape l F hF
  have hl := hR.level_lt hF
  have hG1 : ({ G with heap := G.heap.set p nd1 } : DynamicGraph).spanning_trees =
      G.spanning_trees.set l F := (list_set_self hF).symm
  have hfr : ∀ l1, l1 ≠ l → ∀ q ∈ nodesOf (treesAt tss l1),
      ({ G with heap := G.heap.set p nd1 } : DynamicGraph).heap.get q = G.heap.get q := by
    intro l1 hl1 q hq
    apply Heap.get_set_ne
    rintro rfl
    exact hR.sep l1 l q hl1 hq hp
  have hk : ∀ q, keyOf (G.heap.set p nd1) q = keyOf G.heap q := keyOf_set hg hkey
  constructor
  · have : Rep { G with heap := G.heap.set p nd1 } (tss.set l (treesAt tss l)) (D ∪ {p}) :=
      hR.replace hF hG1 (hR.wf.set_wf nd1 hg) rfl
      (hs.of_links (LinksEq.set_links hg hlinks) hk)
      (fun q _ hd => Cons.of_set_flags hg ha1 ha2
        (fun h => hd (Or.inr h)) (hR.cons l q ‹_› (fun h => hd (Or.inl h))))
      hfr (fun _ _ _ _ hd h => hd (Or.inl h)) (fun q hq => Or.inl hq)
    rw [treesAt_self hl] at this
    exact this
  · have : viewOf { G with heap := G.heap.set p nd1 } (tss.set l (treesAt tss l)) = _ :=
      viewOf_replace hR hF hG1 hfr rfl rfl rfl rfl rfl rfl
    rw [treesAt_self hl] at this
    rw [this, ← View.setLevel_dat]
    congr 1
    · simp only [viewOf]
      apply List.map_congr_left
      intro t _
      simp only [tourKeys]
      exact List.map_congr_left (fun q _ => hk q)
    · funext k
      have hkp : keyOf G.heap p = nd.key := keyOf_eq hg
      by_cases hkk : k = nd.key
      · subst hkk
        rw [if_pos rfl]
        have hm : F.map_edges nd.key = some (some p) := (hs.reg _ _).mpr ⟨hp, hkp⟩
        simp only [datOf, hm, Heap.get_set_self, Option.map_some']
      · rw [if_neg hkk]
        simp only [viewOf, hF, datOf]
        cases hm : F.map_edges k with
        | none => rfl
        | some o =>
          cases o with
          | none => rfl
          | some q =>
            simp only
            rw [Heap.get_set_ne]
            rintro rfl
            exact hkk (((hs.reg _ _).mp hm).2.symm.trans hkp)

/-- A heap that keeps every data field shows the same view. -/
theorem viewOf_data {G : DynamicGraph} {tss : List (List Tree)} {h1 : Heap}
    (hd : ∀ q, (h1.get q).map Node.data = (G.heap.get q).map Node.data) :
    viewOf { G with heap := h1 } tss = viewOf G tss := by
  apply View.ext <;> try rfl
  · funext l
    simp only [viewOf]
    apply List.map_congr_left
    intro t _
    simp only [tourKeys]
    exact List.map_congr_left (fun q _ => keyOf_of_data (hd q))
  · funext l k
    simp only [viewOf]
    cases G.spanning_trees[l]? with
    | none => rfl
    | some F =>
      simp only [datOf]
      cases F.map_edges k with
      | none => rfl
      | some o =>
        cases o with
        | none => rfl
        | some q => exact flags_of_data (hd q)

/-- Call `update_up(p)` on a node of level `l`: the aggregates on the way to the root are
refreshed, nothing else changes. -/
theorem Rep.update_up_rep {G : DynamicGraph} {tss : List (List Tree)} {D : Set Nat}
    (hR : Rep G tss D) {l : Nat} {t : Tree} (ht : t ∈ treesAt tss l) {p : Nat}
    (hp : p ∈ t.toList) :
    ∃ h1, update_up (G.heap.next + 1) G.heap (some p) = some h1 ∧ h1.next = G.heap.next ∧
      Rep { G with heap := h1 } tss (D \ {p}) ∧
      viewOf { G with heap := h1 } tss = viewOf G tss ∧
      (∀ q, (h1.get q).map Node.data = (G.heap.get q).map Node.data) := by
  obtain ⟨F, hF⟩ := hR.forest_of_tree ht
  have hs := hR.shape l F hF
  have hl := hR.level_lt hF
  have hndt := hs.nodup_one ht
  obtain ⟨h1, hup, hlinks, hdata, hframe, hcons⟩ :=
    DynConn.update_up_spec (hs.shape t ht).1 hndt (hs.shape t ht).2 hp (f := G.heap.next + 1)
      (by have := (hs.shape t ht).1.size_le_next hR.wf hndt; omega)
  have hG1 : ({ G with heap := h1 } : DynamicGraph).spanning_trees =
      G.spanning_trees.set l F := (list_set_self hF).symm
  have hfr : ∀ l1, l1 ≠ l → ∀ q ∈ nodesOf (treesAt tss l1),
      ({ G with heap := h1 } : DynamicGraph).heap.get q = G.heap.get q := by
    intro l1 hl1 q hq
    apply hframe
    intro hqt
    exact hR.sep l1 l q hl1 hq (mem_nodesOf.mpr ⟨t, ht, hqt⟩)
  refine ⟨h1, hup, hdata.1, ?_, viewOf_data hdata.2, hdata.2⟩
  have : Rep { G with heap := h1 } (tss.set l (treesAt tss l)) (D \ {p}) :=
    hR.replace hF hG1 (hR.wf.of_dataEq hdata) rfl
    (hs.of_links hlinks (fun q => keyOf_of_dataEq hdata q)) ?_ hfr ?_ (fun q hq => Or.inl hq)
  · rw [treesAt_self hl] at this
    exact this
  · intro q hq hd
    obtain ⟨t1, ht1, hqt1⟩ := mem_nodesOf.mp hq
    by_cases hqt : q ∈ t.toList
    · apply hcons q hqt
      intro hne
      exact hR.cons l q hq (fun h => hd ⟨h, hne⟩)
    · have hqp : q ≠ p := fun h => hqt (h ▸ hp)
      have hc := hR.cons l q hq (fun h => hd ⟨h, hqp⟩)
      apply Cons.frame_tree (hs.shape t1 ht1).1 _ hqt1 hc
      intro c hc1
      rw [hframe c]
      intro hct
      have := hs.same_tree ht1 ht hc1 hct
      subst this
      exact hqt hqt1
  · intro l1 hl1 q hq hd h
    apply hd
    refine ⟨h, ?_⟩
    rintro rfl
    exact hR.sep l1 l q hl1 hq (mem_nodesOf.mpr ⟨t, ht, hp⟩)

/-- The view shows the flags of a node under its key. -/
theorem Rep.dat_node {G : DynamicGraph} {tss : List (List Tree)} {D : Set Nat}
    (hR : Rep G tss D) {l : Nat} {p : Nat} (hp : p ∈ nodesOf (treesAt tss l)) {nd : Node}
    (hg : G.heap.get p = some nd) :
    (viewOf G tss).dat l nd.key = some (nd.is_min_level, nd.is_has_adjacent, nd.level) := by
  obtain ⟨F, hF⟩ := hR.forest_of_node hp
  have hs := hR.shape l F hF
  have hm : F.map_edges nd.key = some (some p) := (hs.reg _ _).mpr ⟨hp, keyOf_eq hg⟩
  simp only [viewOf, hF, datOf, hm, hg, Option.map_some']

/-- The flags the view shows under a key are those of the registered node. -/
theorem Rep.node_of_dat {G : DynamicGraph} {tss : List (List Tree)} {D : Set Nat}
    (hR : Rep G tss D) {l : Nat} {k : Int × Int} {d : Bool × Bool × Int}
    (hd : (viewOf G tss).dat l k = some d) :
    ∃ t p nd, t ∈ treesAt tss l ∧ p ∈ t.toList ∧ G.heap.get p = some nd ∧ nd.key = k ∧
      d = (nd.is_min_level, nd.is_has_adjacent, nd.level) := by
  simp only [viewOf] at hd
  cases hF : G.spanning_trees[l]? with
  | none => rw [hF] at hd; exact Option.noConfusion hd
  | some F =>
    rw [hF] at hd
    simp only [datOf] at hd
    have hs := hR.shape l F hF
    cases hm : F.map_edges k with
    | none => rw [hm] at hd; exact Option.noConfusion hd
    | some o =>
      cases o with
      | none => rw [hm] at hd; exact Option.noConfusion hd
      | some p =>
        rw [hm] at hd
        simp only at hd
        obtain ⟨t, ht, hpt, hk⟩ := hs.reg_mem hm
        cases hg : G.heap.get p with
        | none => rw [hg] at hd; exact Option.noConfusion hd
        | some nd =>
          rw [hg] at hd
          simp only [Option.map_some', Option.some.injEq] at hd
          refine ⟨t, p, nd, ht, hpt, hg, ?_, hd.symm⟩
          rw [← keyOf_eq hg, hk]

/-- Block `if (!p->is_has_adjacent) { p->is_has_adjacent = true; update_up(p); }`. -/
theorem Rep.raise_adjacent_rep {G : DynamicGraph} {tss : List (List Tree)} {D : Set Nat}
    (hR : Rep G tss D) {l : Nat} {t : Tree} (ht : t ∈ treesAt tss l) {p : Nat}
    (hp : p ∈ t.toList) {nd : Node} (hg : G.heap.get p = some nd) :
    ∃ h1, raise_adjacent G.heap (some p) = some h1 ∧ Rep { G with heap := h1 } tss D ∧
      viewOf { G with heap := h1 } tss =
        (viewOf G tss).setDat l nd.key (nd.is_min_level, true, nd.level) ∧
      h1.next = G.heap.next ∧
      (∀ q, q ≠ p → (h1.get q).map Node.data = (G.heap.get q).map Node.data) := by
  have hpn : p ∈ nodesOf (treesAt tss l) := mem_nodesOf.mpr ⟨t, ht, hp⟩
  by_cases hflag : nd.is_has_adjacent = false
  · obtain ⟨hR1, hV1⟩ := @Rep.write_flags G tss D hR l p hpn nd
      { nd with is_has_adjacent := true } hg rfl rfl rfl rfl
    obtain ⟨h2, hup, hnx, hR2, hV2, hd2⟩ := hR1.update_up_rep ht hp
    refine ⟨h2, ?_, hR2.mono ?_, ?_, hnx, ?_⟩
    · simp only [raise_adjacent, hg, hflag, if_true, set_is_has_adjacent, Option.map_some',
        Option.some_bind]
      exact hup
    · rintro x ⟨hx1 | hx1, hx2⟩
      · exact hx1
      · exact absurd hx1 hx2
    · exact hV2.trans hV1
    · intro q hq
      rw [hd2 q]
      show Option.map Node.data ((G.heap.set p _).get q) = _
      rw [Heap.get_set_ne _ _ hq]
  · have hflag1 : nd.is_has_adjacent = true := by
      cases h : nd.is_has_adjacent
      · exact absurd h hflag
      · rfl
    refine ⟨G.heap, ?_, hR, ?_, rfl, fun _ _ => rfl⟩
    · simp only [raise_adjacent, hg, hflag1, Bool.true_eq_false, if_false]
    · rw [View.setDat_self _ _ _ _ (by rw [hR.dat_node hpn hg, hflag1])]

theorem viewOf_adj {G : DynamicGraph} {tss : List (List Tree)} {l : Nat} {F : DynamicForest}
    (hF : G.spanning_trees[l]? = some F) (a : Int) :
    (viewOf G tss).adj l a = F.adjacent_edges a := by
  simp only [viewOf, hF]

/-- Block `if (adjacent_edges[a].empty()) { p = map_edges[{a, a}]; p->is_has_adjacent = false;
update_up(p); }`, the last call being optional. -/
theorem Rep.clearIfEmpty_rep {G : DynamicGraph} {tss : List (List Tree)} {D : Set Nat}
    (hR : Rep G tss D) {l : Nat} {t : Tree} (ht : t ∈ treesAt tss l) {a : Int}
    (ha : (a, a) ∈ tourKeys G.heap t) (up : Bool) :
    ∃ G1 p nd, G.clearIfEmpty (l : Int) a up = some G1 ∧ p ∈ t.toList ∧
      G.heap.get p = some nd ∧ nd.key = (a, a) ∧
      Rep G1 tss (if up = true then D else D ∪ {p}) ∧
      viewOf G1 tss = (if (viewOf G tss).adj l a = [] then
        (viewOf G tss).setDat l (a, a) (nd.is_min_level, false, nd.level) else viewOf G tss) ∧
      G1.cout = G.cout ∧ G1.heap.next = G.heap.next ∧
      (∀ q, q ≠ p → (G1.heap.get q).map Node.data = (G.heap.get q).map Node.data) := by
  obtain ⟨F, hF⟩ := hR.forest_of_tree ht
  obtain ⟨p, nd, hself, hp, hg, hk⟩ := hR.selfNode_spec ht ha
  have hpn : p ∈ nodesOf (treesAt tss l) := mem_nodesOf.mpr ⟨t, ht, hp⟩
  have hmono : D ⊆ (if up = true then D else D ∪ {p}) := by
    intro x hx
    split
    · exact hx
    · exact Or.inl hx
  by_cases hemp : F.adjacent_edges a = []
  · obtain ⟨hR1, hV1⟩ := @Rep.write_flags G tss D hR l p hpn nd
      { nd with is_has_adjacent := false } hg rfl rfl rfl rfl
    cases up with
    | false =>
      refine ⟨{ G with heap := G.heap.set p { nd with is_has_adjacent := false } }, p, nd, ?_,
        hp, hg, hk, ?_, ?_, rfl, rfl, ?_⟩
      · simp only [DynamicGraph.clearIfEmpty, forest_cast, hF, Option.some_bind, hemp,
          List.isEmpty_nil, if_true, hself, set_is_has_adjacent, hg, Option.map_some',
          Bool.false_eq_true, if_false]
      · simpa using hR1
      · rw [viewOf_adj hF, if_pos hemp, ← hk]
        exact hV1
      · intro q hq
        show Option.map Node.data ((G.heap.set p _).get q) = _
        rw [Heap.get_set_ne _ _ hq]
    | true =>
      obtain ⟨h2, hup, hnext, hR2, hV2, hd2⟩ := hR1.update_up_rep ht hp
      refine ⟨{ G with heap := h2 }, p, nd, ?_, hp, hg, hk, ?_, ?_, rfl, hnext, ?_⟩
      · simp only [DynamicGraph.clearIfEmpty, forest_cast, hF, Option.some_bind, hemp,
          List.isEmpty_nil, if_true, hself, set_is_has_adjacent, hg, Option.map_some']
        simp only [hup, Option.some_bind]
      · simp only [if_true]
        apply hR2.mono
        rintro x ⟨hx1 | hx1, hx2⟩
        · exact hx1
        · exact absurd hx1 hx2
      · rw [viewOf_adj hF, if_pos hemp, ← hk]
        exact hV2.trans hV1
      · intro q hq
        rw [hd2 q]
        show Option.map Node.data ((G.heap.set p _).get q) = _
        rw [Heap.get_set_ne _ _ hq]
  · refine ⟨G, p, nd, ?_, hp, hg, hk, hR.mono hmono, ?_, rfl, rfl, fun _ _ => rfl⟩
    · have : (F.adjacent_edges a).isEmpty = false := by
        cases h : F.adjacent_edges a with
        | nil => exact absurd h hemp
        | cons x xs => rfl
      simp only [DynamicGraph.clearIfEmpty, forest_cast, hF, Option.some_bind, this,
        Bool.false_eq_true, if_false]
    · rw [viewOf_adj hF, if_neg hemp]

/-- A write to the adjacency sets of forest `l`. -/
theorem Rep.adj_change {G : DynamicGraph} {tss : List (List Tree)} {D : Set Nat}
    (hR : Rep G tss D) {l : Nat} {F : DynamicForest} (hF : G.spanning_trees[l]? = some F)
    (a : Int) (xs : List Int) :
    Rep (G.setForest (l : Int)
      { F with adjacent_edges := fun w => if w = a then xs else F.adjacent_edges w }) tss D ∧
    viewOf (G.setForest (l : Int)
      { F with adjacent_edges := fun w => if w = a then xs else F.adjacent_edges w }) tss =
      (viewOf G tss).setAdj l a xs := by
  have hl := hR.level_lt hF
  have hlF := getElem?_lt_length hF
  constructor
  · have : Rep (G.setForest (l : Int)
        { F with adjacent_edges := fun w => if w = a then xs else F.adjacent_edges w })
        (tss.set l (treesAt tss l)) D :=
      hR.replace hF (setForest_trees G l _) hR.wf rfl (hR.shape l F hF)
        (fun p hp hd => hR.cons l p hp hd) (fun _ _ _ _ => rfl) (fun _ _ _ _ hd => hd)
        (fun p hp => Or.inl hp)
    rw [treesAt_self hl] at this
    exact this
  · apply View.ext <;> try rfl
    · simp only [viewOf, setForest_trees, List.length_set, View.setAdj]
    · funext l1 a1
      simp only [viewOf, View.setAdj, setForest_trees, List.getElem?_set]
      by_cases h : l = l1
      · subst h
        rw [if_pos rfl, if_pos hlF, hF]
        by_cases h1 : a1 = a
        · simp [h1]
        · simp [h1]
      · rw [if_neg h]
        have : ¬ (l1 = l ∧ a1 = a) := fun h1 => h h1.1.symm
        rw [if_neg this]
    · funext l1 k
      simp only [viewOf, View.setAdj, setForest_trees, List.getElem?_set]
      by_cases h : l = l1
      · subst h
        rw [if_pos rfl, if_pos hlF, hF]
        rfl
      · rw [if_neg h]
        rfl

theorem Rep.adjInsert_rep {G : DynamicGraph} {tss : List (List Tree)} {D : Set Nat}
    (hR : Rep G tss D) {l : Nat} (hl : l < G.spanning_trees.length) (a b : Int) :
    ∃ G1, G.adjInsert (l : Int) a b = some G1 ∧ Rep G1 tss D ∧
      viewOf G1 tss = (viewOf G tss).setAdj l a (set_insert ((viewOf G tss).adj l a) b) ∧
      G1.heap = G.heap ∧ G1.cout = G.cout := by
  have hF : G.spanning_trees[l]? = some G.spanning_trees[l] := List.getElem?_eq_getElem hl
  obtain ⟨h1, h2⟩ := hR.adj_change hF a (set_insert (G.spanning_trees[l].adjacent_edges a) b)
  refine ⟨_, ?_, h1, ?_, rfl, rfl⟩
  · simp only [DynamicGraph.adjInsert, forest_cast, hF, Option.some_bind]
    rfl
  · rw [h2, viewOf_adj hF]

theorem Rep.adjErase_rep {G : DynamicGraph} {tss : List (List Tree)} {D : Set Nat}
    (hR : Rep G tss D) {l : Nat} (hl : l < G.spanning_trees.length) (a b : Int) :
    ∃ G1, G.adjErase (l : Int) a b = some G1 ∧ Rep G1 tss D ∧
      viewOf G1 tss = (viewOf G tss).setAdj l a (set_erase ((viewOf G tss).adj l a) b) ∧
      G1.heap = G.heap ∧ G1.cout = G.cout := by
  have hF : G.spanning_trees[l]? = some G.spanning_trees[l] := List.getElem?_eq_getElem hl
  obtain ⟨h1, h2⟩ := hR.adj_change hF a (set_erase (G.spanning_trees[l].adjacent_edges a) b)
  refine ⟨_, ?_, h1, ?_, rfl, rfl⟩
  · simp only [DynamicGraph.adjErase, forest_cast, hF, Option.some_bind]
    rfl
  · rw [h2, viewOf_adj hF]



theorem data_some {h h1 : Heap} {q : Nat} {nd : Node}
    (hd : (h1.get q).map Node.data = (h.get q).map Node.data) (hg : h.get q = some nd) :
    ∃ nd1, h1.get q = some nd1 ∧ nd1.key = nd.key ∧ nd1.is_min_level = nd.is_min_level ∧
      nd1.is_has_adjacent = nd.is_has_adjacent ∧ nd1.level = nd.level := by
  rw [hg] at hd
  cases h1q : h1.get q with
  | none => rw [h1q] at hd; simp at hd
  | some nd1 =>
    rw [h1q] at hd
    simp only [Option.map_some', Option.some.injEq, Node.data, Prod.mk.injEq] at hd
    exact ⟨nd1, rfl, hd.1, hd.2.2.2.1, hd.2.2.2.2, hd.2.2.1⟩

/-- The loop of the forest constructor allocates one fresh one-node treap per vertex and
registers it under the key of the vertex. -/
theorem forest_init_spec : ∀ (k : Nat) (i : Int) (h : Heap) (g : Gen) (m : EdgeMap), h.WF →
    ∃ h1 g1 m1, forest_init k i h g m = (h1, g1, m1) ∧ h1.WF ∧ h1.next = h.next + k ∧
      (∀ q, q < h.next → h1.get q = h.get q) ∧
      (∀ j : Nat, j < k → ∃ pr, h1.get (h.next + j) =
        some (Node.mk3 (i + (j : Int), i + (j : Int)) pr (-1))) ∧
      (∀ j : Nat, j < k → m1 (i + (j : Int), i + (j : Int)) = some (some (h.next + j))) ∧
      (∀ key, (∀ j : Nat, j < k → key ≠ (i + (j : Int), i + (j : Int))) → m1 key = m key)
  | 0, i, h, g, m, hw => by
    refine ⟨h, g, m, rfl, hw, rfl, fun _ _ => rfl, ?_, ?_, fun _ _ => rfl⟩
    · intro j hj; omega
    · intro j hj; omega
  | k + 1, i, h, g, m, hw => by
    obtain ⟨h1, g1, m1, he, hw1, hn1, hfr1, hnode1, hreg1, hother1⟩ :=
      forest_init_spec k (i + 1) (h.alloc (Node.mk3 (i, i) (g.draw).1 (-1))).1 (g.draw).2
        (m.set (i, i) (some h.next)) (hw.alloc _)
    rw [Heap.next_alloc] at hn1 hfr1 hnode1 hreg1
    refine ⟨h1, g1, m1, ?_, hw1, by omega, ?_, ?_, ?_, ?_⟩
    · rw [forest_init]
      exact he
    · intro q hq
      rw [hfr1 q (by omega), Heap.get_alloc_lt _ hq]
    · intro j hj
      cases j with
      | zero =>
        refine ⟨(g.draw).1, ?_⟩
        rw [hfr1 _ (by omega), Heap.get_alloc]
        simp
      | succ j1 =>
        obtain ⟨pr, hpr⟩ := hnode1 j1 (by omega)
        refine ⟨pr, ?_⟩
        rw [show h.next + (j1 + 1) = h.next + 1 + j1 by omega, hpr]
        push_cast
        rw [show i + 1 + (j1 : Int) = i + ((j1 : Int) + 1) by ring]
    · intro j hj
      cases j with
      | zero =>
        rw [hother1]
        · simp [EdgeMap.set]
        · intro j1 _ hc
          simp only [Prod.mk.injEq] at hc
          have := hc.1
          push_cast at this
          omega
      | succ j1 =>
        have := hreg1 j1 (by omega)
        push_cast
        rw [show i + ((j1 : Int) + 1) = i + 1 + (j1 : Int) by ring, this]
        congr 2
        omega
    · intro key hkey
      rw [hother1]
      · simp only [EdgeMap.set]
        rw [if_neg]
        have := hkey 0 (by omega)
        simpa using this
      · intro j1 hj1
        have := hkey (j1 + 1) (by omega)
        push_cast at this
        rw [show i + ((j1 : Int) + 1) = i + 1 + (j1 : Int) by ring] at this
        exact this

theorem treesAt_append (tss : List (List Tree)) (ts : List Tree) (l : Nat) :
    treesAt (tss ++ [ts]) l = if l = tss.length then ts else treesAt tss l := by
  simp only [treesAt]
  by_cases h : l = tss.length
  · subst h
    simp
  · rw [if_neg h]
    by_cases h1 : l < tss.length
    · rw [List.getElem?_append_left h1]
    · rw [List.getElem?_eq_none_iff.mpr (by simp; omega),
        List.getElem?_eq_none_iff.mpr (by omega)]

theorem getElem?_append_one {α : Type} (xs : List α) (x : α) (l : Nat) :
    (xs ++ [x])[l]? = if l = xs.length then some x else xs[l]? := by
  by_cases h : l = xs.length
  · subst h
    simp
  · rw [if_neg h]
    by_cases h1 : l < xs.length
    · rw [List.getElem?_append_left h1]
    · rw [List.getElem?_eq_none_iff.mpr (by simp; omega),
        List.getElem?_eq_none_iff.mpr (by omega)]

theorem Cons.fresh {h : Heap} {p : Nat} {k : Int × Int} {pr lv : Int}
    (hg : h.get p = some (Node.mk3 k pr lv)) : Cons h p :=
  ⟨_, false, false, false, false, hg, rfl, rfl, rfl, rfl, rfl, rfl⟩

/-- Method `build` at the next free level adds a forest of single vertices. -/
theorem Rep.build_rep {G : DynamicGraph} {tss : List (List Tree)} {D : Set Nat}
    (hR : Rep G tss D) (hD : ∀ p ∈ D, p < G.heap.next) :
    ∃ ts, Rep (G.build (G.spanning_trees.length : Int)) (tss ++ [ts]) D ∧
      viewOf (G.build (G.spanning_trees.length : Int)) (tss ++ [ts]) = (viewOf G tss).build ∧
      (G.build (G.spanning_trees.length : Int)).cout = G.cout ∧
      (∀ q, q < G.heap.next → (G.build (G.spanning_trees.length : Int)).heap.get q =
        G.heap.get q) := by
  obtain ⟨h1, g1, m1, he, hw1, hn1, hfr1, hnode1, hreg1, hother1⟩ :=
    forest_init_spec G.n_.toNat 0 G.heap G.gen (fun _ => none) hR.wf
  have hbuild : G.build (G.spanning_trees.length : Int) =
      { G with heap := h1, gen := g1, spanning_trees := G.spanning_trees ++
          [DynamicForest.mk m1 (fun _ => []) (G.spanning_trees.length : Int)] } := by
    simp only [DynamicGraph.build, if_true, DynamicForest.new, he]
  rw [hbuild]
  have hlen := hR.len
  -- the new treaps
  have hmem : ∀ {t : Tree}, t ∈ (List.range G.n_.toNat).map
      (fun j => Tree.node .nil (G.heap.next + j) .nil) ↔
      ∃ j, j < G.n_.toNat ∧ t = Tree.node .nil (G.heap.next + j) .nil := by
    intro t
    simp only [List.mem_map, List.mem_range]
    constructor
    · rintro ⟨j, hj, rfl⟩; exact ⟨j, hj, rfl⟩
    · rintro ⟨j, hj, rfl⟩; exact ⟨j, hj, rfl⟩
  have hnodes : ∀ {p : Nat}, p ∈ nodesOf ((List.range G.n_.toNat).map
      (fun j => Tree.node .nil (G.heap.next + j) .nil)) ↔
      ∃ j, j < G.n_.toNat ∧ p = G.heap.next + j := by
    intro p
    rw [mem_nodesOf]
    constructor
    · rintro ⟨t, ht, hp⟩
      obtain ⟨j, hj, rfl⟩ := hmem.mp ht
      simp only [Tree.toList, List.nil_append, List.mem_singleton] at hp
      exact ⟨j, hj, hp⟩
    · rintro ⟨j, hj, rfl⟩
      exact ⟨_, hmem.mpr ⟨j, hj, rfl⟩, by simp [Tree.toList]⟩
  have hkeyNew : ∀ j, j < G.n_.toNat → keyOf h1 (G.heap.next + j) = ((j : Int), (j : Int)) := by
    intro j hj
    obtain ⟨pr, hpr⟩ := hnode1 j hj
    rw [keyOf_eq hpr]
    simp [Node.mk3]
  have hshape : FShape h1 m1 ((List.range G.n_.toNat).map
      (fun j => Tree.node .nil (G.heap.next + j) .nil)) := by
    refine ⟨?_, ?_, ?_, ?_⟩
    · intro t ht
      obtain ⟨j, hj, rfl⟩ := hmem.mp ht
      obtain ⟨pr, hpr⟩ := hnode1 j hj
      refine ⟨ShapeU.single hpr rfl rfl rfl, ?_⟩
      intro x hx
      simp only [Tree.root, Option.some.injEq] at hx
      subst hx
      exact ⟨_, hpr, rfl⟩
    · have : ((List.range G.n_.toNat).map
          (fun j => Tree.node .nil (G.heap.next + j) .nil)).flatMap Tree.toList =
          (List.range G.n_.toNat).map (fun j => G.heap.next + j) := by
        induction (List.range G.n_.toNat) with
        | nil => rfl
        | cons a as ih =>
          simp only [List.map_cons, List.flatMap_cons, ih, Tree.toList, List.nil_append,
            List.singleton_append]
      rw [this]
      exact (List.nodup_range _).map (fun a b hab => by simpa using hab)
    · intro key p
      constructor
      · intro hm
        by_cases hk : ∃ j : Nat, j < G.n_.toNat ∧ key = ((0 : Int) + (j : Int), (0 : Int) + (j : Int))
        · obtain ⟨j, hj, rfl⟩ := hk
          rw [hreg1 j hj] at hm
          simp only [Option.some.injEq] at hm
          subst hm
          refine ⟨hnodes.mpr ⟨j, hj, rfl⟩, ?_⟩
          rw [hkeyNew j hj]
          simp
        · rw [hother1 key (fun j hj hc => hk ⟨j, hj, hc⟩)] at hm
          exact Option.noConfusion hm
      · rintro ⟨hp, hk⟩
        obtain ⟨j, hj, rfl⟩ := hnodes.mp hp
        rw [hkeyNew j hj] at hk
        subst hk
        have := hreg1 j hj
        simpa using this
    · intro key hm
      by_cases hk : ∃ j : Nat, j < G.n_.toNat ∧ key = ((0 : Int) + (j : Int), (0 : Int) + (j : Int))
      · obtain ⟨j, hj, rfl⟩ := hk
        rw [hreg1 j hj] at hm
        simp at hm
      · rw [hother1 key (fun j hj hc => hk ⟨j, hj, hc⟩)] at hm
        exact Option.noConfusion hm
  have hold : ∀ l p, p ∈ nodesOf (treesAt tss l) → h1.get p = G.heap.get p :=
    fun l p hp => hfr1 p (hR.node_lt hp)
  refine ⟨(List.range G.n_.toNat).map (fun j => Tree.node .nil (G.heap.next + j) .nil),
    ⟨hw1, ?_, ?_, ?_, ?_, ?_⟩, ?_, rfl, hfr1⟩
  · simp only [List.length_append, List.length_singleton, hlen]
  · intro l F hF
    simp only [getElem?_append_one] at hF
    by_cases h : l = G.spanning_trees.length
    · rw [if_pos h] at hF
      rw [← Option.some.inj hF, h]
    · rw [if_neg h] at hF
      exact hR.flevel l F hF
  · intro l F hF
    simp only [getElem?_append_one] at hF
    rw [treesAt_append]
    by_cases h : l = G.spanning_trees.length
    · rw [if_pos h] at hF
      rw [if_pos (h.trans hlen.symm), ← Option.some.inj hF]
      exact hshape
    · rw [if_neg h] at hF
      rw [if_neg (fun h1 => h (h1.trans hlen))]
      exact (hR.shape l F hF).frame_forest (hold l)
  · intro l p hp hd
    rw [treesAt_append] at hp
    by_cases h : l = tss.length
    · rw [if_pos h] at hp
      obtain ⟨j, hj, rfl⟩ := hnodes.mp hp
      obtain ⟨pr, hpr⟩ := hnode1 j hj
      exact Cons.fresh hpr
    · rw [if_neg h] at hp
      obtain ⟨F, hF⟩ := hR.forest_of_node hp
      exact (hR.shape l F hF).cons_frame (hold l) hp (hR.cons l p hp hd)
  · intro l1 l2 p hne hp1 hp2
    rw [treesAt_append] at hp1 hp2
    by_cases h1' : l1 = tss.length
    · rw [if_pos h1'] at hp1
      rw [if_neg (fun h => hne (h1'.trans h.symm))] at hp2
      obtain ⟨j, hj, rfl⟩ := hnodes.mp hp1
      have := hR.node_lt hp2
      omega
    · rw [if_neg h1'] at hp1
      by_cases h2' : l2 = tss.length
      · rw [if_pos h2'] at hp2
        obtain ⟨j, hj, rfl⟩ := hnodes.mp hp2
        have := hR.node_lt hp1
        omega
      · rw [if_neg h2'] at hp2
        exact hR.sep l1 l2 p hne hp1 hp2
  · apply View.ext <;> try rfl
    · simp only [viewOf, View.build, List.length_append, List.length_singleton]
    · funext l
      simp only [viewOf, View.build, treesAt_append]
      by_cases h : l = G.spanning_trees.length
      · rw [if_pos (h.trans hlen.symm), if_pos h]
        simp only [List.map_map]
        apply List.map_congr_left
        intro j hj
        simp only [Function.comp, tourKeys, Tree.toList, List.nil_append, List.map_cons,
          List.map_nil]
        rw [hkeyNew j (List.mem_range.mp hj)]
      · rw [if_neg (fun h1 => h (h1.trans hlen)), if_neg h]
        apply List.map_congr_left
        intro t ht
        exact tourKeys_congr (fun p hp => hold l p (mem_nodesOf.mpr ⟨t, ht, hp⟩))
    · funext l a
      simp only [viewOf, View.build, getElem?_append_one]
      by_cases h : l = G.spanning_trees.length
      · rw [if_pos h, if_pos h]
      · rw [if_neg h, if_neg h]
    · funext l key
      simp only [viewOf, View.build, getElem?_append_one]
      by_cases h : l = G.spanning_trees.length
      · rw [if_pos h, if_pos h]
        simp only [datOf]
        by_cases hk : key.1 = key.2 ∧ 0 ≤ key.1 ∧ key.1 < G.n_
        · rw [if_pos hk]
          obtain ⟨k1, k2⟩ := key
          simp only at hk
          obtain ⟨rfl, hk0, hk1⟩ := hk
          have hj : k1.toNat < G.n_.toNat := by omega
          have := hreg1 k1.toNat hj
          rw [show (0 : Int) + ((k1.toNat : Nat) : Int) = k1 by omega] at this
          rw [this]
          obtain ⟨pr, hpr⟩ := hnode1 k1.toNat hj
          simp only [hpr, Option.map_some', Node.mk3]
        · rw [if_neg hk]
          rw [hother1]
          intro j hj hc
          apply hk
          rw [hc]
          simp only [zero_add, true_and]
          omega
      · rw [if_neg h, if_neg h]
        cases hF : G.spanning_trees[l]? with
        | none => rfl
        | some F => exact datOf_frame (hR.shape l F hF) (hold l) key

theorem count_cons_key {α : Type} [DecidableEq α] (k k1 : α) (s : List α) :
    List.count k (k1 :: s) = List.count k s + if k = k1 then 1 else 0 := by
  rw [List.count_cons]
  by_cases h : k = k1
  · subst h; simp
  · have : ¬ k1 = k := fun h1 => h h1.symm
    simp [h, this]

/-- Keys after a link, with multiplicity. -/
theorem link_count {α : Type} [DecidableEq α] {ts rest : List (List α)} {sA sB A B : List α}
    {x y e1 e2 : α} (hp : ts.Perm (sA :: sB :: rest)) (hA : sA.IsRotated (x :: A))
    (hB : sB.IsRotated (y :: B)) (k : α) :
    List.count k (((x :: A ++ e1 :: (y :: B ++ [e2])) :: rest).flatten) =
      List.count k ts.flatten + (if k = e1 then 1 else 0) + (if k = e2 then 1 else 0) := by
  have e1' : List.count k ts.flatten =
      List.count k sA + List.count k sB + List.count k rest.flatten := by
    rw [hp.flatten.count_eq]
    simp only [List.flatten_cons, List.count_append]
    omega
  have e2' := hA.perm.count_eq k
  have e3' := hB.perm.count_eq k
  rw [e1', e2', e3']
  simp only [List.flatten_cons, List.count_append, count_cons_key, List.count_nil,
    List.cons_append]
  omega

theorem link_mem_gen {α : Type} [DecidableEq α] {ts rest : List (List α)} {sA sB A B : List α}
    {x y e1 e2 : α} (hp : ts.Perm (sA :: sB :: rest)) (hA : sA.IsRotated (x :: A))
    (hB : sB.IsRotated (y :: B)) (k : α) :
    k ∈ ((x :: A ++ e1 :: (y :: B ++ [e2])) :: rest).flatten ↔
      (k ∈ ts.flatten ∨ k = e1 ∨ k = e2) := by
  rw [← List.count_pos_iff, link_count hp hA hB, ← List.count_pos_iff]
  by_cases h1 : k = e1 <;> by_cases h2 : k = e2 <;> simp [h1, h2]

theorem link_nodup_gen {α : Type} [DecidableEq α] {ts rest : List (List α)}
    {sA sB A B : List α} {x y e1 e2 : α} (hp : ts.Perm (sA :: sB :: rest))
    (hA : sA.IsRotated (x :: A)) (hB : sB.IsRotated (y :: B)) (hnd : ts.flatten.Nodup)
    (hne : e1 ≠ e2) (hab : e1 ∉ ts.flatten) (hba : e2 ∉ ts.flatten) :
    (((x :: A ++ e1 :: (y :: B ++ [e2])) :: rest).flatten).Nodup := by
  rw [List.nodup_iff_count_le_one]
  intro k
  rw [link_count hp hA hB]
  have h0 := List.nodup_iff_count_le_one.mp hnd k
  by_cases h1 : k = e1
  · subst h1
    rw [List.count_eq_zero_of_not_mem hab, if_pos rfl, if_neg hne]
  · by_cases h2 : k = e2
    · subst h2
      rw [List.count_eq_zero_of_not_mem hba, if_neg h1, if_pos rfl]
    · rw [if_neg h1, if_neg h2]
      omega

/-- Keys before a cut, with multiplicity. -/
theorem cut_count {α : Type} [DecidableEq α] {ts rest : List (List α)} {s S U : List α}
    {e1 e2 : α} (hp : ts.Perm (s :: rest)) (hs : s.IsRotated (e1 :: S ++ e2 :: U)) (k : α) :
    List.count k ts.flatten = List.count k ((S :: U :: rest).flatten) +
      (if k = e1 then 1 else 0) + (if k = e2 then 1 else 0) := by
  rw [hp.flatten.count_eq]
  simp only [List.flatten_cons, List.count_append]
  rw [hs.perm.count_eq k]
  simp only [List.cons_append, List.count_append, count_cons_key]
  omega

theorem cut_mem_gen {α : Type} [DecidableEq α] {ts rest : List (List α)} {s S U : List α}
    {e1 e2 : α} (hp : ts.Perm (s :: rest)) (hs : s.IsRotated (e1 :: S ++ e2 :: U))
    (hnd : ts.flatten.Nodup) (k : α) :
    k ∈ (S :: U :: rest).flatten ↔ (k ∈ ts.flatten ∧ k ≠ e1 ∧ k ≠ e2) := by
  have h0 := List.nodup_iff_count_le_one.mp hnd k
  have h1 := cut_count hp hs k
  rw [← List.count_pos_iff, ← List.count_pos_iff]
  by_cases h2 : k = e1
  · rw [if_pos h2] at h1
    simp only [h2, ne_eq, not_true_eq_false, false_and, and_false, iff_false, not_lt,
      Nat.le_zero_eq]
    rw [← h2]
    omega
  · by_cases h3 : k = e2
    · rw [if_pos h3] at h1
      simp only [h3, ne_eq, not_true_eq_false, and_false, iff_false, not_lt, Nat.le_zero_eq]
      rw [← h3]
      omega
    · rw [if_neg h2, if_neg h3] at h1
      simp only [ne_eq, h2, not_false_eq_true, h3, and_self, and_true]
      omega

theorem cut_nodup_gen {α : Type} [DecidableEq α] {ts rest : List (List α)} {s S U : List α}
    {e1 e2 : α} (hp : ts.Perm (s :: rest)) (hs : s.IsRotated (e1 :: S ++ e2 :: U))
    (hnd : ts.flatten.Nodup) : ((S :: U :: rest).flatten).Nodup := by
  rw [List.nodup_iff_count_le_one]
  intro k
  have h0 := List.nodup_iff_count_le_one.mp hnd k
  have h1 := cut_count hp hs k
  omega

/-- A key lies on one tour only. -/
theorem tour_unique {ts : List (List (Int × Int))} (hnd : ts.flatten.Nodup)
    {s1 s2 : List (Int × Int)} (h1 : s1 ∈ ts) (h2 : s2 ∈ ts) {k : Int × Int}
    (hk1 : k ∈ s1) (hk2 : k ∈ s2) : s1 = s2 := by
  by_contra hne
  have hpw := (List.nodup_flatten.mp hnd).2
  have hsym : Symmetric (fun a b : List (Int × Int) => List.Disjoint a b) :=
    fun a b hab => hab.symm
  exact hpw.forall hsym h1 h2 hne hk1 hk2

theorem SameT.symm_same {ts : List (List (Int × Int))} {a b : Int} (h : SameT ts a b) :
    SameT ts b a := by
  obtain ⟨s, hs, ha, hb⟩ := h
  exact ⟨s, hs, hb, ha⟩

theorem SameT.trans_same {ts : List (List (Int × Int))} (hnd : ts.flatten.Nodup) {a b c : Int}
    (h1 : SameT ts a b) (h2 : SameT ts b c) : SameT ts a c := by
  obtain ⟨s, hs, ha, hb⟩ := h1
  obtain ⟨s1, hs1, hb1, hc⟩ := h2
  have := tour_unique hnd hs hs1 hb hb1
  subst this
  exact ⟨s, hs, ha, hc⟩

theorem SameT.refl_same {ts : List (List (Int × Int))} {a : Int} (h : (a, a) ∈ ts.flatten) :
    SameT ts a a := by
  obtain ⟨s, hs, ha⟩ := List.mem_flatten.mp h
  exact ⟨s, hs, ha, ha⟩

theorem SameT.mem_left {ts : List (List (Int × Int))} {a b : Int} (h : SameT ts a b) :
    (a, a) ∈ ts.flatten := by
  obtain ⟨s, hs, ha, -⟩ := h
  exact List.mem_flatten.mpr ⟨s, hs, ha⟩

theorem SameT.mem_right {ts : List (List (Int × Int))} {a b : Int} (h : SameT ts a b) :
    (b, b) ∈ ts.flatten := h.symm_same.mem_left

/-- Both endpoints of a key of a tour are vertices of the tour. -/
theorem sameT_of_key {ts : List (List (Int × Int))} (het : ∀ s ∈ ts, ET s) {a b : Int}
    (h : (a, b) ∈ ts.flatten) : SameT ts a b := by
  obtain ⟨s, hs, hk⟩ := List.mem_flatten.mp h
  have := (het s hs).self_mem a b hk
  exact ⟨s, hs, this.1, this.2⟩

theorem link_mem {ts rest : List (List (Int × Int))} {sA sB A B : List (Int × Int)}
    {a b : Int} (hp : ts.Perm (sA :: sB :: rest)) (hA : sA.IsRotated ((a, a) :: A))
    (hB : sB.IsRotated ((b, b) :: B)) (k : Int × Int) :
    k ∈ (((a, a) :: A ++ (a, b) :: ((b, b) :: B ++ [(b, a)])) :: rest).flatten ↔
      (k ∈ ts.flatten ∨ k = (a, b) ∨ k = (b, a)) :=
  link_mem_gen hp hA hB k

theorem link_nodup {ts rest : List (List (Int × Int))} {sA sB A B : List (Int × Int)}
    {a b : Int} (hp : ts.Perm (sA :: sB :: rest)) (hA : sA.IsRotated ((a, a) :: A))
    (hB : sB.IsRotated ((b, b) :: B)) (hnd : ts.flatten.Nodup) (hne : a ≠ b)
    (hab : (a, b) ∉ ts.flatten) (hba : (b, a) ∉ ts.flatten) :
    ((((a, a) :: A ++ (a, b) :: ((b, b) :: B ++ [(b, a)])) :: rest).flatten).Nodup :=
  link_nodup_gen hp hA hB hnd (fun h => hne (Prod.mk.inj h).1) hab hba

theorem link_tour_et {sA sB A B : List (Int × Int)} {a b : Int} (hsA : ET sA) (hsB : ET sB)
    (hA : sA.IsRotated ((a, a) :: A)) (hB : sB.IsRotated ((b, b) :: B)) :
    ET ((a, a) :: A ++ (a, b) :: ((b, b) :: B ++ [(b, a)])) :=
  ET.link a b A B (ET.rot _ _ hsA hA) (ET.rot _ _ hsB hB)

theorem mem_of_perm3 {ts rest : List (List (Int × Int))} {sA sB : List (Int × Int)}
    (hp : ts.Perm (sA :: sB :: rest)) {s : List (Int × Int)} :
    s ∈ ts ↔ (s = sA ∨ s = sB ∨ s ∈ rest) := by
  rw [hp.mem_iff]
  simp only [List.mem_cons]

/-- Vertices on one tour stay on one tour after a link. -/
theorem link_same {ts rest : List (List (Int × Int))} {sA sB A B : List (Int × Int)}
    {a b : Int} (hp : ts.Perm (sA :: sB :: rest)) (hA : sA.IsRotated ((a, a) :: A))
    (hB : sB.IsRotated ((b, b) :: B)) {x y : Int} (h : SameT ts x y) :
    SameT ((((a, a) :: A ++ (a, b) :: ((b, b) :: B ++ [(b, a)])) :: rest)) x y := by
  obtain ⟨s, hs, hx, hy⟩ := h
  rcases (mem_of_perm3 hp).mp hs with rfl | rfl | hr
  · refine ⟨_, List.mem_cons_self _ _, ?_, ?_⟩
    · have := hA.mem_iff.mp hx
      exact List.mem_append_left _ this
    · have := hA.mem_iff.mp hy
      exact List.mem_append_left _ this
  · refine ⟨_, List.mem_cons_self _ _, ?_, ?_⟩
    · have := hB.mem_iff.mp hx
      exact List.mem_append_right _ (List.mem_cons_of_mem _ (List.mem_append_left _ this))
    · have := hB.mem_iff.mp hy
      exact List.mem_append_right _ (List.mem_cons_of_mem _ (List.mem_append_left _ this))
  · exact ⟨s, List.mem_cons_of_mem _ hr, hx, hy⟩

/-- The two tours joined by a link become one. -/
theorem link_join {ts rest : List (List (Int × Int))} {sA sB A B : List (Int × Int)}
    {a b : Int} (hp : ts.Perm (sA :: sB :: rest)) (hA : sA.IsRotated ((a, a) :: A))
    (hB : sB.IsRotated ((b, b) :: B)) {x y : Int} (hx : (x, x) ∈ sA) (hy : (y, y) ∈ sB) :
    SameT ((((a, a) :: A ++ (a, b) :: ((b, b) :: B ++ [(b, a)])) :: rest)) x y := by
  refine ⟨_, List.mem_cons_self _ _, ?_, ?_⟩
  · exact List.mem_append_left _ (hA.mem_iff.mp hx)
  · exact List.mem_append_right _
      (List.mem_cons_of_mem _ (List.mem_append_left _ (hB.mem_iff.mp hy)))

theorem link_selfCount {sA sB A B : List (Int × Int)} {a b : Int} (hne : a ≠ b)
    (hA : sA.IsRotated ((a, a) :: A)) (hB : sB.IsRotated ((b, b) :: B)) :
    selfCount ((a, a) :: A ++ (a, b) :: ((b, b) :: B ++ [(b, a)])) =
      selfCount sA + selfCount sB := by
  rw [selfCount_append, selfCount_cons_edge hne, selfCount_append, selfCount_perm hA.perm,
    selfCount_perm hB.perm]
  have : selfCount [(b, a)] = 0 := by
    rw [selfCount_cons_edge (fun h => hne h.symm)]
    rfl
  omega

theorem cut_mem {ts rest : List (List (Int × Int))} {s S U : List (Int × Int)} {a b : Int}
    (hp : ts.Perm (s :: rest)) (hs : s.IsRotated ((a, b) :: S ++ (b, a) :: U))
    (hnd : ts.flatten.Nodup) (k : Int × Int) :
    k ∈ (S :: U :: rest).flatten ↔ (k ∈ ts.flatten ∧ k ≠ (a, b) ∧ k ≠ (b, a)) :=
  cut_mem_gen hp hs hnd k

theorem cut_nodup {ts rest : List (List (Int × Int))} {s S U : List (Int × Int)} {a b : Int}
    (hp : ts.Perm (s :: rest)) (hs : s.IsRotated ((a, b) :: S ++ (b, a) :: U))
    (hnd : ts.flatten.Nodup) : ((S :: U :: rest).flatten).Nodup :=
  cut_nodup_gen hp hs hnd

theorem cut_selfCount {s S U : List (Int × Int)} {a b : Int} (hne : a ≠ b)
    (hs : s.IsRotated ((a, b) :: S ++ (b, a) :: U)) :
    selfCount s = selfCount S + selfCount U := by
  rw [selfCount_perm hs.perm, List.cons_append, selfCount_cons_edge hne, selfCount_append,
    selfCount_cons_edge (fun h => hne h.symm)]

/-- Vertices on one tour after a cut were on one tour before. -/
theorem cut_same {ts rest : List (List (Int × Int))} {s S U : List (Int × Int)} {a b : Int}
    (hp : ts.Perm (s :: rest)) (hs : s.IsRotated ((a, b) :: S ++ (b, a) :: U)) {x y : Int}
    (h : SameT (S :: U :: rest) x y) : SameT ts x y := by
  obtain ⟨s1, hs1, hx, hy⟩ := h
  have hmem : ∀ k, k ∈ S ∨ k ∈ U → k ∈ s := by
    intro k hk
    apply hs.mem_iff.mpr
    rcases hk with hk | hk
    · exact List.mem_cons_of_mem _ (List.mem_append_left _ hk)
    · exact List.mem_cons_of_mem _ (List.mem_append_right _ (List.mem_cons_of_mem _ hk))
  have hsm : s ∈ ts := hp.mem_iff.mpr (List.mem_cons_self _ _)
  rcases List.mem_cons.mp hs1 with rfl | hs1
  · exact ⟨s, hsm, hmem _ (Or.inl hx), hmem _ (Or.inl hy)⟩
  · rcases List.mem_cons.mp hs1 with rfl | hs1
    · exact ⟨s, hsm, hmem _ (Or.inr hx), hmem _ (Or.inr hy)⟩
    · exact ⟨s1, hp.mem_iff.mpr (List.mem_cons_of_mem _ hs1), hx, hy⟩

/-- Vertices on one tour before a cut are on one tour after it or on the two parts. -/
theorem cut_split {ts rest : List (List (Int × Int))} {s S U : List (Int × Int)} {a b : Int}
    (hp : ts.Perm (s :: rest)) (hs : s.IsRotated ((a, b) :: S ++ (b, a) :: U)) (hne : a ≠ b)
    {x y : Int} (h : SameT ts x y) :
    SameT (S :: U :: rest) x y ∨ ((x, x) ∈ S ∧ (y, y) ∈ U) ∨ ((x, x) ∈ U ∧ (y, y) ∈ S) := by
  obtain ⟨s1, hs1, hx, hy⟩ := h
  rcases List.mem_cons.mp (hp.mem_iff.mp hs1) with rfl | hr
  · have key : ∀ z : Int, (z, z) ∈ s1 → (z, z) ∈ S ∨ (z, z) ∈ U := by
      intro z hz
      have := hs.mem_iff.mp hz
      simp only [List.cons_append, List.mem_cons, List.mem_append, Prod.mk.injEq] at this
      rcases this with ⟨h1, h2⟩ | h3 | ⟨h1, h2⟩ | h3
      · exact absurd (h1.symm.trans h2) hne
      · exact Or.inl h3
      · exact absurd (h2.symm.trans h1) hne
      · exact Or.inr h3
    rcases key x hx with h1 | h1 <;> rcases key y hy with h2 | h2
    · exact Or.inl ⟨S, List.mem_cons_self _ _, h1, h2⟩
    · exact Or.inr (Or.inl ⟨h1, h2⟩)
    · exact Or.inr (Or.inr ⟨h1, h2⟩)
    · exact Or.inl ⟨U, List.mem_cons_of_mem _ (List.mem_cons_self _ _), h1, h2⟩
  · exact Or.inl ⟨s1, List.mem_cons_of_mem _ (List.mem_cons_of_mem _ hr), hx, hy⟩

theorem selfCount_filter (s : List (Int × Int)) :
    selfCount s = (s.filter (fun k => decide (k.1 = k.2))).length := rfl

/-- A duplicate-free tour has at most as many vertices as there are vertices in range. -/
theorem selfCount_le_range {s : List (Int × Int)} {n : Int} (hn : 0 ≤ n) (hnd : s.Nodup)
    (hr : ∀ a, (a, a) ∈ s → 0 ≤ a ∧ a < n) : (selfCount s : Int) ≤ n := by
  have h1 : ((s.filter (fun k => decide (k.1 = k.2))).map (fun k => k.1.toNat)).Nodup := by
    apply List.Nodup.map_on _ (hnd.filter _)
    intro x hx y hy hxy
    obtain ⟨x1, x2⟩ := x
    obtain ⟨y1, y2⟩ := y
    simp only [List.mem_filter, decide_eq_true_eq] at hx hy
    obtain ⟨hxs, rfl⟩ := hx
    obtain ⟨hys, rfl⟩ := hy
    have := hr x1 hxs
    have := hr y1 hys
    simp only at hxy
    have : x1 = y1 := by omega
    subst this
    rfl
  have h2 : ∀ p ∈ (s.filter (fun k => decide (k.1 = k.2))).map (fun k => k.1.toNat),
      p < n.toNat := by
    intro p hp
    simp only [List.mem_map, List.mem_filter, decide_eq_true_eq] at hp
    obtain ⟨⟨x1, x2⟩, ⟨hxs, hx⟩, rfl⟩ := hp
    simp only at hx
    subst hx
    have := hr x1 hxs
    simp only
    omega
  have := nodup_length_le h1 h2
  rw [List.length_map] at this
  rw [selfCount_filter]
  omega

/-- A duplicate-free tour whose vertices all lie on another has no more vertices. -/
theorem selfCount_le_subset {s1 s2 : List (Int × Int)} (hnd : s1.Nodup)
    (hsub : ∀ a, (a, a) ∈ s1 → (a, a) ∈ s2) : selfCount s1 ≤ selfCount s2 := by
  rw [selfCount_filter, selfCount_filter]
  apply (List.subperm_of_subset (hnd.filter _) _).length_le
  intro k hk
  simp only [List.mem_filter, decide_eq_true_eq] at hk ⊢
  obtain ⟨k1, k2⟩ := k
  simp only at hk
  obtain ⟨hk1, rfl⟩ := hk
  exact ⟨hsub _ hk1, rfl⟩

theorem LevelMap.find_nil (k : Int × Int) : LevelMap.find [] k = none := rfl

theorem LevelMap.find_cons (k1 : Int × Int) (v : Int) (m : LevelMap) (k : Int × Int) :
    LevelMap.find ((k1, v) :: m) k = if k1 = k then some v else LevelMap.find m k := rfl

theorem LevelMap.find_erase (m : LevelMap) (k k1 : Int × Int) :
    LevelMap.find (LevelMap.erase m k) k1 = if k1 = k then none else LevelMap.find m k1 := by
  induction m with
  | nil => simp [LevelMap.erase, LevelMap.find]
  | cons e rest ih =>
    obtain ⟨k2, v⟩ := e
    simp only [LevelMap.erase, List.filter_cons] at ih ⊢
    by_cases h2 : k2 = k
    · subst h2
      simp only [ne_eq, not_true_eq_false, decide_False, Bool.false_eq_true, if_false, ih,
        LevelMap.find_cons]
      by_cases h1 : k1 = k2
      · simp [h1]
      · have : ¬ k2 = k1 := fun h => h1 h.symm
        simp [h1, this]
    · simp only [ne_eq, h2, not_false_eq_true, decide_True, if_true, LevelMap.find_cons, ih]
      by_cases h1 : k1 = k
      · subst h1
        simp [h2]
      · simp [h1]

theorem LevelMap.find_set (m : LevelMap) (k : Int × Int) (v : Int) (k1 : Int × Int) :
    LevelMap.find (LevelMap.set m k v) k1 = if k1 = k then some v else LevelMap.find m k1 := by
  simp only [LevelMap.set, LevelMap.find_cons, LevelMap.find_erase]
  by_cases h1 : k1 = k
  · subst h1; simp
  · have : ¬ k = k1 := fun h => h1 h.symm
    simp [h1, this]

theorem LevelMap.find_isSome (m : LevelMap) (k : Int × Int) :
    (LevelMap.find m k).isSome = true ↔ k ∈ m.map Prod.fst := by
  induction m with
  | nil => simp [LevelMap.find]
  | cons e rest ih =>
    obtain ⟨k2, v⟩ := e
    simp only [LevelMap.find_cons, List.map_cons, List.mem_cons]
    by_cases h : k2 = k
    · subst h; simp
    · have : ¬ k = k2 := fun h1 => h h1.symm
      simp [h, this, ih]

theorem LevelMap.find_none (m : LevelMap) (k : Int × Int) :
    LevelMap.find m k = none ↔ k ∉ m.map Prod.fst := by
  rw [← LevelMap.find_isSome]
  cases LevelMap.find m k <;> simp

theorem LevelMap.erase_absent (m : LevelMap) (k : Int × Int) (h : LevelMap.find m k = none) :
    LevelMap.erase m k = m := by
  rw [LevelMap.find_none] at h
  simp only [LevelMap.erase]
  apply List.filter_eq_self.mpr
  intro e he
  simp only [ne_eq, decide_eq_true_eq]
  rintro rfl
  exact h (List.mem_map_of_mem _ he)

theorem LevelMap.keys_erase (m : LevelMap) (k : Int × Int) :
    (LevelMap.erase m k).map Prod.fst = (m.map Prod.fst).filter (fun x => decide (x ≠ k)) := by
  simp only [LevelMap.erase, List.filter_map]
  rfl

theorem LevelMap.nodup_erase {m : LevelMap} (h : (m.map Prod.fst).Nodup) (k : Int × Int) :
    ((LevelMap.erase m k).map Prod.fst).Nodup := by
  rw [LevelMap.keys_erase]
  exact h.filter _

theorem LevelMap.nodup_set {m : LevelMap} (h : (m.map Prod.fst).Nodup) (k : Int × Int)
    (v : Int) : ((LevelMap.set m k v).map Prod.fst).Nodup := by
  simp only [LevelMap.set, List.map_cons, List.nodup_cons]
  refine ⟨?_, LevelMap.nodup_erase h k⟩
  rw [LevelMap.keys_erase]
  simp

theorem LevelMap.length_erase {m : LevelMap} (h : (m.map Prod.fst).Nodup) (k : Int × Int) :
    (LevelMap.erase m k).length + (if (LevelMap.find m k).isSome then 1 else 0) = m.length := by
  induction m with
  | nil => simp [LevelMap.erase, LevelMap.find]
  | cons e rest ih =>
    obtain ⟨k2, v⟩ := e
    simp only [List.map_cons, List.nodup_cons] at h
    have ih1 := ih h.2
    by_cases h2 : k2 = k
    · subst h2
      have hn : LevelMap.find rest k2 = none := (LevelMap.find_none _ _).mpr h.1
      have e1 : LevelMap.erase ((k2, v) :: rest) k2 = LevelMap.erase rest k2 := by
        simp [LevelMap.erase]
      have e2 : LevelMap.find ((k2, v) :: rest) k2 = some v := by
        simp [LevelMap.find_cons]
      rw [hn] at ih1
      rw [e1, e2]
      simp only [Option.isSome_none, Bool.false_eq_true, if_false, add_zero] at ih1
      simp only [Option.isSome_some, if_true, List.length_cons]
      omega
    · have e1 : LevelMap.erase ((k2, v) :: rest) k = (k2, v) :: LevelMap.erase rest k := by
        simp [LevelMap.erase, h2]
      have e2 : LevelMap.find ((k2, v) :: rest) k = LevelMap.find rest k := by
        simp [LevelMap.find_cons, h2]
      rw [e1, e2, List.length_cons, List.length_cons]
      omega

theorem LevelMap.length_set {m : LevelMap} (h : (m.map Prod.fst).Nodup) (k : Int × Int)
    (v : Int) : (LevelMap.set m k v).length + (if (LevelMap.find m k).isSome then 1 else 0) =
      m.length + 1 := by
  have := LevelMap.length_erase h k
  simp only [LevelMap.set, List.length_cons]
  omega

theorem LevelMap.at_present {m : LevelMap} {k : Int × Int} {v : Int}
    (h : LevelMap.find m k = some v) : LevelMap.at m k = (m, v) := by
  simp only [LevelMap.at, h]

theorem LevelMap.incr_some {m : LevelMap} {k : Int × Int} {v : Int}
    (h : LevelMap.find m k = some v) : LevelMap.incr m k = LevelMap.set m k (v + 1) := by
  simp only [LevelMap.incr, LevelMap.at_present h]

theorem LevelMap.count_ne_zero (m : LevelMap) (k : Int × Int) :
    LevelMap.count m k ≠ 0 ↔ (LevelMap.find m k).isSome = true := by
  simp only [LevelMap.count]
  cases LevelMap.find m k <;> simp

theorem present_cons (E : List (Int × Int)) (a b x y : Int) :
    present ((a, b) :: E) x y = true ↔
      ((x, y) = (a, b) ∨ (x, y) = (b, a) ∨ present E x y = true) := by
  simp only [present, List.contains_cons, Bool.or_eq_true, beq_iff_eq, Prod.mk.injEq]
  constructor
  · rintro ((h | h) | (h | h))
    · exact Or.inl h
    · exact Or.inr (Or.inr (Or.inl h))
    · exact Or.inr (Or.inl ⟨h.2, h.1⟩)
    · exact Or.inr (Or.inr (Or.inr h))
  · rintro (h | h | h | h)
    · exact Or.inl (Or.inl h)
    · exact Or.inr (Or.inl ⟨h.2, h.1⟩)
    · exact Or.inl (Or.inr h)
    · exact Or.inr (Or.inr h)

theorem present_comm (E : List (Int × Int)) (x y : Int) : present E x y = present E y x := by
  simp only [present, Bool.or_comm]

/-- Every tour of forest 0 respects the size bound of level 0. -/
theorem size_zero {ts : List (List (Int × Int))} {n : Int} (hn : 0 ≤ n)
    (hnd : ts.flatten.Nodup) (hv : ∀ a, (a, a) ∈ ts.flatten → 0 ≤ a ∧ a < n)
    {s : List (Int × Int)} (hs : s ∈ ts) : 2 ^ 0 * (selfCount s : Int) ≤ n := by
  have h1 : s.Nodup := (List.nodup_flatten.mp hnd).1 s hs
  have := selfCount_le_range hn h1 (fun a ha => hv a (List.mem_flatten.mpr ⟨s, hs, ha⟩))
  simpa using this

theorem Abs.pos_L {V : View} {P : Par} (hA : Abs V P) : 0 < V.L := by
  have := hA.mx_len
  have := hA.mx_nonneg
  omega

theorem Abs.absent_T {V : View} {P : Par} (hA : Abs V P) {a b : Int}
    (h : present P.E a b = false) : V.lvT.find (a, b) = none ∧ V.lvN.find (a, b) = none := by
  constructor
  · cases h1 : V.lvT.find (a, b) with
    | none => rfl
    | some v =>
      have := (hA.pres a b).mpr (Or.inl (by rw [h1]; rfl))
      rw [h] at this
      exact absurd this (by simp)
  · cases h1 : V.lvN.find (a, b) with
    | none => rfl
    | some v =>
      have := (hA.pres a b).mpr (Or.inr (by rw [h1]; rfl))
      rw [h] at this
      exact absurd this (by simp)

/-- The invariant after `AddEdge(a, b)` joins two trees of forest 0. -/
theorem Abs.add_tree {V : View} {E : List (Int × Int)} (hA : Abs V (Par.normal E)) {a b : Int}
    (ha : 0 ≤ a ∧ a < V.n) (hb : 0 ≤ b ∧ b < V.n) (hne : a ≠ b)
    (hnp : present E a b = false)
    {sA sB A B : List (Int × Int)} {rest : List (List (Int × Int))}
    (hp : (V.tours 0).Perm (sA :: sB :: rest))
    (hrA : sA.IsRotated ((a, a) :: A)) (hrB : sB.IsRotated ((b, b) :: B)) :
    Abs (View.link { V with comps := V.comps - 1,
                            lvT := LevelMap.set (LevelMap.set V.lvT (a, b) 0) (b, a) 0 }
          0 a b 0 A B rest) (Par.normal ((a, b) :: E)) := by
  have hL := hA.pos_L
  have hE : (Par.normal E).E = E := rfl
  obtain ⟨hTab, hNab⟩ := hA.absent_T (a := a) (b := b) hnp
  have hTba : V.lvT.find (b, a) = none := (hA.symT a b).symm.trans hTab
  have hNba : V.lvN.find (b, a) = none := (hA.symN a b).symm.trans hNab
  have hkab : (a, b) ∉ (V.tours 0).flatten := by
    intro h
    obtain ⟨⟨lv, h1, -⟩, -⟩ := (hA.reg 0 hL a b hne).mp h
    rw [hTab] at h1
    exact Option.noConfusion h1
  have hkba : (b, a) ∉ (V.tours 0).flatten := by
    intro h
    obtain ⟨⟨lv, h1, -⟩, -⟩ := (hA.reg 0 hL b a (fun h => hne h.symm)).mp h
    rw [hTba] at h1
    exact Option.noConfusion h1
  have hfind : ∀ k, LevelMap.find (LevelMap.set (LevelMap.set V.lvT (a, b) 0) (b, a) 0) k =
      if k = (b, a) then some 0 else if k = (a, b) then some 0 else LevelMap.find V.lvT k :=
    fun k => by rw [LevelMap.find_set, LevelMap.find_set]
  have hkeys := link_mem hp hrA hrB
  have hsAm : sA ∈ V.tours 0 := hp.mem_iff.mpr (List.mem_cons_self _ _)
  have hsBm : sB ∈ V.tours 0 := hp.mem_iff.mpr (List.mem_cons_of_mem _ (List.mem_cons_self _ _))
  have hrestm : ∀ s ∈ rest, s ∈ V.tours 0 := fun s hs =>
    hp.mem_iff.mpr (List.mem_cons_of_mem _ (List.mem_cons_of_mem _ hs))
  have hnab : ((a, b) : Int × Int) ≠ (b, a) := fun h => hne (Prod.mk.inj h).1
  have hnd0 := link_nodup hp hrA hrB (hA.nodup 0) hne hkab hkba
  have hverts0 : ∀ x, (x, x) ∈ (((a, a) :: A ++ (a, b) :: ((b, b) :: B ++ [(b, a)])) ::
      rest).flatten ↔ (0 ≤ x ∧ x < V.n) := by
    intro x
    rw [hkeys, ← hA.verts 0 hL x]
    constructor
    · rintro (h | h | h)
      · exact h
      · exact absurd ((Prod.mk.inj h).1.symm.trans (Prod.mk.inj h).2) hne
      · exact absurd ((Prod.mk.inj h).2.symm.trans (Prod.mk.inj h).1) hne
    · exact Or.inl
  refine
    { n_nonneg := hA.n_nonneg, mx_len := hA.mx_len, mx_nonneg := hA.mx_nonneg,
      keysT := LevelMap.nodup_set (LevelMap.nodup_set hA.keysT _ _) _ _,
      keysN := hA.keysN, symT := ?_, symN := hA.symN, excl := ?_, rngT := ?_, rngN := hA.rngN,
      pres := ?_, beyond := ?_, et := ?_, nodup := ?_, verts := ?_, reg := ?_, size := ?_,
      psize := ?_, sep0 := ?_, dat_iff := ?_, dself := ?_, dedge := ?_,
      adj_sound := hA.adj_sound, adj_compl := hA.adj_compl, adj_out := hA.adj_out,
      adj_nodup := hA.adj_nodup, conn := ?_, cnt1 := ?_, cnt2 := ?_,
      rfact := fun _ _ h => Option.noConfusion h,
      pefact := fun _ _ _ h => Option.noConfusion h }
  · -- symT
    intro x y
    simp only [View.link, View.setLevel]
    rw [hfind, hfind]
    simp only [Prod.mk.injEq]
    by_cases h1 : x = b ∧ y = a
    · simp [h1]
    · by_cases h2 : x = a ∧ y = b
      · simp [h2]
      · have h3 : ¬ (y = b ∧ x = a) := fun h => h2 ⟨h.2, h.1⟩
        have h4 : ¬ (y = a ∧ x = b) := fun h => h1 ⟨h.2, h.1⟩
        rw [if_neg h1, if_neg h2, if_neg h3, if_neg h4]
        exact hA.symT x y
  · -- excl
    intro k hk
    simp only [View.link, View.setLevel]
    simp only [View.link, View.setLevel] at hk
    rw [hfind] at hk
    by_cases h1 : k = (b, a)
    · rw [h1]; exact hNba
    · by_cases h2 : k = (a, b)
      · rw [h2]; exact hNab
      · rw [if_neg h1, if_neg h2] at hk
        exact hA.excl k hk
  · -- rngT
    intro x y lv hlv
    simp only [View.link, View.setLevel] at hlv
    rw [hfind] at hlv
    by_cases h1 : (x, y) = (b, a)
    · rw [if_pos h1] at hlv
      obtain ⟨rfl, rfl⟩ := Prod.mk.inj h1
      have : lv = 0 := (Option.some.inj hlv).symm
      subst this
      exact ⟨fun h => hne h.symm, hb.1, hb.2, ha.1, ha.2, le_refl _, hA.mx_nonneg⟩
    · rw [if_neg h1] at hlv
      by_cases h2 : (x, y) = (a, b)
      · rw [if_pos h2] at hlv
        obtain ⟨rfl, rfl⟩ := Prod.mk.inj h2
        have : lv = 0 := (Option.some.inj hlv).symm
        subst this
        exact ⟨hne, ha.1, ha.2, hb.1, hb.2, le_refl _, hA.mx_nonneg⟩
      · rw [if_neg h2] at hlv
        exact hA.rngT x y lv hlv
  · -- pres
    intro x y
    simp only [View.link, View.setLevel, Par.normal]
    rw [present_cons, hfind]
    have := hA.pres x y
    rw [hE] at this
    by_cases h1 : (x, y) = (b, a)
    · simp [h1]
    · by_cases h2 : (x, y) = (a, b)
      · simp [h2]
      · rw [if_neg h1, if_neg h2, this]
        simp [h1, h2]
  · -- beyond
    intro l hl
    simp only [View.link, View.setLevel] at hl ⊢
    rw [if_neg (by omega)]
    exact hA.beyond l hl
  · -- et
    intro l s hs
    simp only [View.link, View.setLevel] at hs
    by_cases hl : l = 0
    · rw [if_pos hl] at hs
      rcases List.mem_cons.mp hs with rfl | hs
      · exact link_tour_et (hA.et 0 sA hsAm) (hA.et 0 sB hsBm) hrA hrB
      · exact hA.et 0 s (hrestm s hs)
    · rw [if_neg hl] at hs
      exact hA.et l s hs
  · -- nodup
    intro l
    simp only [View.link, View.setLevel]
    by_cases hl : l = 0
    · rw [if_pos hl]; exact hnd0
    · rw [if_neg hl]; exact hA.nodup l
  · -- verts
    intro l hl x
    simp only [View.link, View.setLevel]
    by_cases hl0 : l = 0
    · rw [if_pos hl0]; exact hverts0 x
    · rw [if_neg hl0]; exact hA.verts l hl x
  · -- reg
    intro l hl x y hxy
    simp only [View.link, View.setLevel]
    rw [hfind]
    have hold := hA.reg l hl x y hxy
    by_cases hl0 : l = 0
    · subst hl0
      rw [if_pos rfl, hkeys]
      by_cases h1 : (x, y) = (b, a)
      · simp [h1, Par.normal]
      · by_cases h2 : (x, y) = (a, b)
        · simp [h2, Par.normal]
        · rw [if_neg h1, if_neg h2, hold]
          simp [h1, h2, Par.normal]
    · rw [if_neg hl0, hold]
      have hl1 : ¬ ((l : Int) ≤ 0) := by omega
      by_cases h1 : (x, y) = (b, a)
      · rw [if_pos h1, h1, hTba]
        simp [hl1, Par.normal]
      · by_cases h2 : (x, y) = (a, b)
        · rw [if_neg h1, if_pos h2, h2, hTab]
          simp [hl1, Par.normal]
        · rw [if_neg h1, if_neg h2]
          simp [Par.normal]
  · -- size
    intro l s hs
    simp only [View.link, View.setLevel] at hs
    by_cases hl : l = 0
    · subst hl
      rw [if_pos rfl] at hs
      exact size_zero hA.n_nonneg hnd0 (fun x hx => (hverts0 x).mp hx) hs
    · rw [if_neg hl] at hs
      exact hA.size l s hs
  · -- psize
    intro u v κ h
    exact Option.noConfusion h
  · -- sep0
    intro u v κ h
    exact Option.noConfusion h
  · -- dat_iff
    intro l k
    simp only [View.link, View.setLevel]
    by_cases hl : l = 0
    · subst hl
      rw [if_pos rfl, if_pos rfl, hkeys]
      by_cases h1 : k = (b, a)
      · simp [h1]
      · by_cases h2 : k = (a, b)
        · rw [if_neg h1, if_pos h2]
          simp [h2]
        · rw [if_neg h1, if_neg h2, hA.dat_iff 0 k]
          simp [h1, h2]
    · rw [if_neg hl, if_neg hl]
      exact hA.dat_iff l k
  · -- dself
    intro l x m f z hd
    simp only [View.link, View.setLevel] at hd
    have hx1 : ((x, x) : Int × Int) ≠ (b, a) :=
      fun h => hne ((Prod.mk.inj h).2.symm.trans (Prod.mk.inj h).1)
    have hx2 : ((x, x) : Int × Int) ≠ (a, b) :=
      fun h => hne ((Prod.mk.inj h).1.symm.trans (Prod.mk.inj h).2)
    have hd1 : V.dat l (x, x) = some (m, f, z) := by
      by_cases hl : l = 0
      · subst hl
        rw [if_pos rfl, if_neg hx1, if_neg hx2] at hd
        exact hd
      · rw [if_neg hl] at hd
        exact hd
    exact hA.dself l x m f z hd1
  · -- dedge
    intro l x y m f z hxy hd
    simp only [View.link, View.setLevel] at hd
    simp only [View.link, View.setLevel]
    rw [hfind]
    have hno : ∀ l1, l1 ≠ 0 → ∀ k d, (k = (a, b) ∨ k = (b, a)) → V.dat l1 k ≠ some d := by
      intro l1 hl1 k d hk hdd
      have h1 : k ∈ (V.tours l1).flatten := (hA.dat_iff l1 k).mp (by rw [hdd]; rfl)
      have hl1L : l1 < V.L := by
        by_contra hc
        rw [hA.beyond l1 (by omega)] at h1
        simp at h1
      rcases hk with rfl | rfl
      · obtain ⟨⟨lv, h2, -⟩, -⟩ := (hA.reg l1 hl1L a b hne).mp h1
        rw [hTab] at h2
        exact Option.noConfusion h2
      · obtain ⟨⟨lv, h2, -⟩, -⟩ := (hA.reg l1 hl1L b a (fun h => hne h.symm)).mp h1
        rw [hTba] at h2
        exact Option.noConfusion h2
    by_cases hl : l = 0
    · subst hl
      rw [if_pos rfl] at hd
      by_cases h1 : (x, y) = (b, a)
      · rw [if_pos h1] at hd
        obtain ⟨rfl, rfl⟩ := Prod.mk.inj h1
        simp only [Option.some.injEq, Prod.mk.injEq] at hd
        obtain ⟨rfl, rfl, rfl⟩ := hd
        simp
      · rw [if_neg h1] at hd
        by_cases h2 : (x, y) = (a, b)
        · rw [if_pos h2] at hd
          obtain ⟨rfl, rfl⟩ := Prod.mk.inj h2
          simp only [Option.some.injEq, Prod.mk.injEq] at hd
          obtain ⟨rfl, rfl, rfl⟩ := hd
          simp [h1]
        · rw [if_neg h2] at hd
          rw [if_neg h1, if_neg h2]
          exact hA.dedge 0 x y m f z hxy hd
    · rw [if_neg hl] at hd
      by_cases h1 : (x, y) = (b, a)
      · exact absurd hd (hno l hl _ _ (Or.inr h1))
      · by_cases h2 : (x, y) = (a, b)
        · exact absurd hd (hno l hl _ _ (Or.inl h2))
        · rw [if_neg h1, if_neg h2]
          exact hA.dedge l x y m f z hxy hd
  · -- conn
    intro x y l hl
    have := hA.conn x y l hl
    rcases this with h | ⟨u, v, κ, h, -⟩
    · left
      simp only [View.link, View.setLevel]
      by_cases hl0 : l = 0
      · subst hl0
        rw [if_pos rfl]
        exact link_same hp hrA hrB h
      · rw [if_neg hl0]
        exact h
    · exact Option.noConfusion h
  · -- cnt1
    have h1 : V.comps + 0 = ((V.tours 0).length : Int) := hA.cnt1
    rw [hp.length_eq] at h1
    simp only [View.link, View.setLevel, Par.normal, if_true, List.length_cons] at h1 ⊢
    push_cast at h1 ⊢
    omega
  · -- cnt2
    have h0 : 2 * (V.n - V.comps) + 0 = (V.lvT.length : Int) := hA.cnt2
    have h1 := LevelMap.length_set hA.keysT (a, b) 0
    have h2 := LevelMap.length_set (LevelMap.nodup_set hA.keysT (a, b) 0) (b, a) 0
    have e : LevelMap.find (LevelMap.set V.lvT (a, b) 0) (b, a) = none := by
      rw [LevelMap.find_set, if_neg (fun h => hnab h.symm)]
      exact hTba
    rw [e] at h2
    rw [hTab] at h1
    simp only [Option.isSome_none, Bool.false_eq_true, if_false, add_zero] at h1 h2
    simp only [View.link, View.setLevel, Par.normal]
    rw [h2, h1]
    push_cast
    omega

theorem mem_set_insert {s : List Int} {x y : Int} : y ∈ set_insert s x ↔ (y = x ∨ y ∈ s) := by
  simp only [set_insert]
  split
  · next h =>
    constructor
    · exact Or.inr
    · rintro (rfl | h1)
      · exact h
      · exact h1
  · exact List.mem_cons

theorem nodup_set_insert {s : List Int} (h : s.Nodup) (x : Int) : (set_insert s x).Nodup := by
  simp only [set_insert]
  split
  · exact h
  · next hx => exact List.nodup_cons.mpr ⟨hx, h⟩

theorem set_insert_ne_nil (s : List Int) (x : Int) : set_insert s x ≠ [] := by
  intro h
  have : x ∈ set_insert s x := mem_set_insert.mpr (Or.inl rfl)
  rw [h] at this
  exact List.not_mem_nil _ this

theorem mem_set_erase {s : List Int} {x y : Int} : y ∈ set_erase s x ↔ (y ∈ s ∧ y ≠ x) := by
  simp only [set_erase, List.mem_filter, decide_eq_true_eq]

theorem nodup_set_erase {s : List Int} (h : s.Nodup) (x : Int) : (set_erase s x).Nodup :=
  h.filter _

theorem ne_nil_of_mem {s : List Int} {x : Int} (h : x ∈ s) : s ≠ [] := by
  rintro rfl
  exact List.not_mem_nil _ h

/-- The invariant after `AddEdge(a, b)` records a non-tree edge of level 0. -/
theorem Abs.add_nontree {V : View} {E : List (Int × Int)} (hA : Abs V (Par.normal E))
    {a b : Int} (ha : 0 ≤ a ∧ a < V.n) (hb : 0 ≤ b ∧ b < V.n) (hne : a ≠ b)
    (hnp : present E a b = false) (hsame : SameT (V.tours 0) a b)
    {ma fa mb fb : Bool} {xa xb : Int}
    (hda : V.dat 0 (a, a) = some (ma, fa, xa)) (hdb : V.dat 0 (b, b) = some (mb, fb, xb)) :
    Abs (((((View.setAdj { V with lvN := LevelMap.set (LevelMap.set V.lvN (a, b) 0) (b, a) 0 }
      0 a (set_insert (V.adj 0 a) b)).setAdj 0 b (set_insert (V.adj 0 b) a)).setDat 0 (a, a)
        (ma, true, xa)).setDat 0 (b, b) (mb, true, xb))) (Par.normal ((a, b) :: E)) := by
  have hL := hA.pos_L
  have hE : (Par.normal E).E = E := rfl
  obtain ⟨hTab, hNab⟩ := hA.absent_T (a := a) (b := b) hnp
  have hTba : V.lvT.find (b, a) = none := (hA.symT a b).symm.trans hTab
  have hNba : V.lvN.find (b, a) = none := (hA.symN a b).symm.trans hNab
  have hnab : ((a, b) : Int × Int) ≠ (b, a) := fun h => hne (Prod.mk.inj h).1
  have hfind : ∀ k, LevelMap.find (LevelMap.set (LevelMap.set V.lvN (a, b) 0) (b, a) 0) k =
      if k = (b, a) then some 0 else if k = (a, b) then some 0 else LevelMap.find V.lvN k :=
    fun k => by rw [LevelMap.find_set, LevelMap.find_set]
  -- the new adjacency sets
  have hadj : ∀ l x, (((((View.setAdj
      { V with lvN := LevelMap.set (LevelMap.set V.lvN (a, b) 0) (b, a) 0 }
      0 a (set_insert (V.adj 0 a) b)).setAdj 0 b (set_insert (V.adj 0 b) a)).setDat 0 (a, a)
        (ma, true, xa)).setDat 0 (b, b) (mb, true, xb))).adj l x =
      if l = 0 ∧ x = b then set_insert (V.adj 0 b) a
      else if l = 0 ∧ x = a then set_insert (V.adj 0 a) b else V.adj l x := fun l x => rfl
  have hdat : ∀ l k, (((((View.setAdj
      { V with lvN := LevelMap.set (LevelMap.set V.lvN (a, b) 0) (b, a) 0 }
      0 a (set_insert (V.adj 0 a) b)).setAdj 0 b (set_insert (V.adj 0 b) a)).setDat 0 (a, a)
        (ma, true, xa)).setDat 0 (b, b) (mb, true, xb))).dat l k =
      if l = 0 ∧ k = (b, b) then some (mb, true, xb)
      else if l = 0 ∧ k = (a, a) then some (ma, true, xa) else V.dat l k := fun l k => rfl
  refine
    { n_nonneg := hA.n_nonneg, mx_len := hA.mx_len, mx_nonneg := hA.mx_nonneg,
      keysT := hA.keysT,
      keysN := LevelMap.nodup_set (LevelMap.nodup_set hA.keysN _ _) _ _,
      symT := hA.symT, symN := ?_, excl := ?_, rngT := hA.rngT, rngN := ?_,
      pres := ?_, beyond := hA.beyond, et := hA.et, nodup := hA.nodup, verts := hA.verts,
      reg := hA.reg, size := hA.size,
      psize := ?_, sep0 := ?_, dat_iff := ?_, dself := ?_, dedge := ?_,
      adj_sound := ?_, adj_compl := ?_, adj_out := ?_,
      adj_nodup := ?_, conn := ?_, cnt1 := hA.cnt1, cnt2 := hA.cnt2,
      rfact := fun _ _ h => Option.noConfusion h,
      pefact := fun _ _ _ h => Option.noConfusion h }
  · -- symN
    intro x y
    simp only [View.setDat, View.setAdj]
    rw [hfind, hfind]
    simp only [Prod.mk.injEq]
    by_cases h1 : x = b ∧ y = a
    · simp [h1]
    · by_cases h2 : x = a ∧ y = b
      · simp [h2]
      · have h3 : ¬ (y = b ∧ x = a) := fun h => h2 ⟨h.2, h.1⟩
        have h4 : ¬ (y = a ∧ x = b) := fun h => h1 ⟨h.2, h.1⟩
        rw [if_neg h1, if_neg h2, if_neg h3, if_neg h4]
        exact hA.symN x y
  · -- excl
    intro k hk
    simp only [View.setDat, View.setAdj] at hk ⊢
    rw [hfind]
    by_cases h1 : k = (b, a)
    · rw [h1, hTba] at hk; exact absurd hk (by simp)
    · by_cases h2 : k = (a, b)
      · rw [h2, hTab] at hk; exact absurd hk (by simp)
      · rw [if_neg h1, if_neg h2]
        exact hA.excl k hk
  · -- rngN
    intro x y lv hlv
    simp only [View.setDat, View.setAdj] at hlv ⊢
    rw [hfind] at hlv
    by_cases h1 : (x, y) = (b, a)
    · rw [if_pos h1] at hlv
      obtain ⟨rfl, rfl⟩ := Prod.mk.inj h1
      have : lv = 0 := (Option.some.inj hlv).symm
      subst this
      exact ⟨fun h => hne h.symm, hb.1, hb.2, ha.1, ha.2, le_refl _, hA.mx_nonneg⟩
    · rw [if_neg h1] at hlv
      by_cases h2 : (x, y) = (a, b)
      · rw [if_pos h2] at hlv
        obtain ⟨rfl, rfl⟩ := Prod.mk.inj h2
        have : lv = 0 := (Option.some.inj hlv).symm
        subst this
        exact ⟨hne, ha.1, ha.2, hb.1, hb.2, le_refl _, hA.mx_nonneg⟩
      · rw [if_neg h2] at hlv
        exact hA.rngN x y lv hlv
  · -- pres
    intro x y
    simp only [View.setDat, View.setAdj, Par.normal]
    rw [present_cons, hfind]
    have := hA.pres x y
    rw [hE] at this
    by_cases h1 : (x, y) = (b, a)
    · simp [h1]
    · by_cases h2 : (x, y) = (a, b)
      · simp [h2]
      · rw [if_neg h1, if_neg h2, this]
        simp [h1, h2]
  · -- psize
    intro u v κ h
    exact Option.noConfusion h
  · -- sep0
    intro u v κ h
    exact Option.noConfusion h
  · -- dat_iff
    intro l k
    rw [hdat]
    have := hA.dat_iff l k
    by_cases h1 : l = 0 ∧ k = (b, b)
    · rw [if_pos h1]
      obtain ⟨rfl, rfl⟩ := h1
      rw [hdb] at this
      simpa using this
    · rw [if_neg h1]
      by_cases h2 : l = 0 ∧ k = (a, a)
      · rw [if_pos h2]
        obtain ⟨rfl, rfl⟩ := h2
        rw [hda] at this
        simpa using this
      · rw [if_neg h2]
        exact this
  · -- dself
    intro l x m f z hd
    rw [hdat] at hd
    rw [hadj]
    simp only [Par.normal]
    by_cases h1 : l = 0 ∧ x = b
    · have h1' : l = 0 ∧ ((x, x) : Int × Int) = (b, b) := ⟨h1.1, by rw [h1.2]⟩
      rw [if_pos h1'] at hd
      rw [if_pos h1]
      simp only [Option.some.injEq, Prod.mk.injEq] at hd
      obtain ⟨rfl, rfl, rfl⟩ := hd
      exact ⟨(hA.dself 0 b mb fb xb hdb).1, fun _ => rfl,
        fun _ => Or.inl (set_insert_ne_nil _ _)⟩
    · have h1' : ¬ (l = 0 ∧ ((x, x) : Int × Int) = (b, b)) :=
        fun h => h1 ⟨h.1, (Prod.mk.inj h.2).1⟩
      rw [if_neg h1'] at hd
      rw [if_neg h1]
      by_cases h2 : l = 0 ∧ x = a
      · have h2' : l = 0 ∧ ((x, x) : Int × Int) = (a, a) := ⟨h2.1, by rw [h2.2]⟩
        rw [if_pos h2'] at hd
        rw [if_pos h2]
        simp only [Option.some.injEq, Prod.mk.injEq] at hd
        obtain ⟨rfl, rfl, rfl⟩ := hd
        exact ⟨(hA.dself 0 a ma fa xa hda).1, fun _ => rfl,
          fun _ => Or.inl (set_insert_ne_nil _ _)⟩
      · have h2' : ¬ (l = 0 ∧ ((x, x) : Int × Int) = (a, a)) :=
          fun h => h2 ⟨h.1, (Prod.mk.inj h.2).1⟩
        rw [if_neg h2'] at hd
        rw [if_neg h2]
        exact hA.dself l x m f z hd
  · -- dedge
    intro l x y m f z hxy hd
    rw [hdat] at hd
    have h1 : ¬ (l = 0 ∧ ((x, y) : Int × Int) = (b, b)) :=
      fun h => hxy ((Prod.mk.inj h.2).1.trans (Prod.mk.inj h.2).2.symm)
    have h2 : ¬ (l = 0 ∧ ((x, y) : Int × Int) = (a, a)) :=
      fun h => hxy ((Prod.mk.inj h.2).1.trans (Prod.mk.inj h.2).2.symm)
    rw [if_neg h1, if_neg h2] at hd
    exact hA.dedge l x y m f z hxy hd
  · -- adj_sound
    intro l x y hy
    rw [hadj] at hy
    simp only [View.setDat, View.setAdj]
    rw [hfind]
    by_cases h1 : l = 0 ∧ x = b
    · rw [if_pos h1] at hy
      obtain ⟨rfl, rfl⟩ := h1
      rcases mem_set_insert.mp hy with rfl | hy
      · rw [if_pos rfl]; rfl
      · have := hA.adj_sound 0 x y hy
        have hk1 : ((x, y) : Int × Int) ≠ (x, a) := by
          intro h
          rw [h, hNba] at this
          exact Option.noConfusion this
        have hk2 : ((x, y) : Int × Int) ≠ (a, x) := fun h => hne (Prod.mk.inj h).1.symm
        rw [if_neg hk1, if_neg hk2]
        exact this
    · rw [if_neg h1] at hy
      by_cases h2 : l = 0 ∧ x = a
      · rw [if_pos h2] at hy
        obtain ⟨rfl, rfl⟩ := h2
        rcases mem_set_insert.mp hy with rfl | hy
        · rw [if_neg hnab, if_pos rfl]; rfl
        · have := hA.adj_sound 0 x y hy
          have hk2 : ((x, y) : Int × Int) ≠ (x, b) := by
            intro h
            rw [h, hNab] at this
            exact Option.noConfusion this
          have hk1 : ((x, y) : Int × Int) ≠ (b, x) := fun h => hne (Prod.mk.inj h).1
          rw [if_neg hk1, if_neg hk2]
          exact this
      · rw [if_neg h2] at hy
        have := hA.adj_sound l x y hy
        have hk1 : ((x, y) : Int × Int) ≠ (b, a) := by
          intro h
          rw [h, hNba] at this
          exact Option.noConfusion this
        have hk2 : ((x, y) : Int × Int) ≠ (a, b) := by
          intro h
          rw [h, hNab] at this
          exact Option.noConfusion this
        rw [if_neg hk1, if_neg hk2]
        exact this
  · -- adj_compl
    intro l x y hlv
    simp only [View.setDat, View.setAdj] at hlv
    rw [hfind] at hlv
    left
    rw [hadj]
    by_cases hk1 : (x, y) = (b, a)
    · rw [if_pos hk1] at hlv
      obtain ⟨rfl, rfl⟩ := Prod.mk.inj hk1
      have hl : l = 0 := by
        have := Option.some.inj hlv
        omega
      rw [if_pos ⟨hl, rfl⟩]
      exact mem_set_insert.mpr (Or.inl rfl)
    · rw [if_neg hk1] at hlv
      by_cases hk2 : (x, y) = (a, b)
      · rw [if_pos hk2] at hlv
        obtain ⟨rfl, rfl⟩ := Prod.mk.inj hk2
        have hl : l = 0 := by
          have := Option.some.inj hlv
          omega
        rw [if_neg (fun h => hne h.2), if_pos ⟨hl, rfl⟩]
        exact mem_set_insert.mpr (Or.inl rfl)
      · rw [if_neg hk2] at hlv
        rcases hA.adj_compl l x y hlv with h | h | h
        · by_cases h1 : l = 0 ∧ x = b
          · rw [if_pos h1]
            obtain ⟨rfl, rfl⟩ := h1
            exact mem_set_insert.mpr (Or.inr h)
          · rw [if_neg h1]
            by_cases h2 : l = 0 ∧ x = a
            · rw [if_pos h2]
              obtain ⟨rfl, rfl⟩ := h2
              exact mem_set_insert.mpr (Or.inr h)
            · rw [if_neg h2]
              exact h
        · exact False.elim h
        · exact False.elim h
  · -- adj_out
    intro x y h
    exact False.elim h
  · -- adj_nodup
    intro l x
    rw [hadj]
    by_cases h1 : l = 0 ∧ x = b
    · rw [if_pos h1]
      exact nodup_set_insert (hA.adj_nodup 0 b) a
    · rw [if_neg h1]
      by_cases h2 : l = 0 ∧ x = a
      · rw [if_pos h2]
        exact nodup_set_insert (hA.adj_nodup 0 a) b
      · rw [if_neg h2]
        exact hA.adj_nodup l x
  · -- conn
    intro x y l hlv
    simp only [View.setDat, View.setAdj] at hlv
    rw [hfind] at hlv
    left
    show SameT (V.tours l) x y
    by_cases hk1 : (x, y) = (b, a)
    · rw [if_pos hk1] at hlv
      obtain ⟨rfl, rfl⟩ := Prod.mk.inj hk1
      have hl : l = 0 := by
        have := Option.some.inj hlv
        omega
      subst hl
      exact hsame.symm_same
    · rw [if_neg hk1] at hlv
      by_cases hk2 : (x, y) = (a, b)
      · rw [if_pos hk2] at hlv
        obtain ⟨rfl, rfl⟩ := Prod.mk.inj hk2
        have hl : l = 0 := by
          have := Option.some.inj hlv
          omega
        subst hl
        exact hsame
      · rw [if_neg hk2] at hlv
        rcases hA.conn x y l hlv with h | ⟨u, v, κ, h, -⟩
        · exact h
        · exact Option.noConfusion h

/-- The representation invariant reads the heap and the forests only. -/
theorem Rep.of_fields {G G1 : DynamicGraph} {tss : List (List Tree)} {D : Set Nat}
    (hR : Rep G tss D) (hh : G1.heap = G.heap)
    (ht : G1.spanning_trees = G.spanning_trees) : Rep G1 tss D :=
  { wf := by rw [hh]; exact hR.wf,
    len := by rw [ht]; exact hR.len,
    flevel := by rw [ht]; exact hR.flevel,
    shape := by rw [ht, hh]; exact hR.shape,
    cons := by rw [hh]; exact hR.cons,
    sep := hR.sep }

theorem perm_one {α : Type} {ts : List α} {x : α} (hx : x ∈ ts) :
    ∃ rest, ts.Perm (x :: rest) := by
  obtain ⟨s, t, rfl⟩ := List.append_of_mem hx
  exact ⟨s ++ t, List.perm_middle⟩

theorem perm_two {α : Type} {ts : List α} {x y : α} (hx : x ∈ ts) (hy : y ∈ ts)
    (hne : x ≠ y) : ∃ rest, ts.Perm (x :: y :: rest) := by
  obtain ⟨r1, h1⟩ := perm_one hx
  have hy1 : y ∈ r1 := by
    have := h1.mem_iff.mp hy
    rcases List.mem_cons.mp this with h | h
    · exact absurd h.symm hne
    · exact h
  obtain ⟨r2, h2⟩ := perm_one hy1
  exact ⟨r2, h1.trans (List.Perm.cons x h2)⟩

theorem cast_zero_int : ((0 : Nat) : Int) = 0 := rfl

theorem validOp_add {n : Nat} {E : List (Int × Int)} {u v : Int}
    (h : validOp n E (.add u v) = true) :
    (0 ≤ u ∧ u < n) ∧ (0 ≤ v ∧ v < n) ∧ u ≠ v ∧ present E u v = false := by
  simp only [validOp, Bool.and_eq_true, decide_eq_true_eq, Bool.not_eq_true'] at h
  obtain ⟨⟨⟨⟨⟨h1, h2⟩, h3⟩, h4⟩, h5⟩, h6⟩ := h
  exact ⟨⟨h1, h2⟩, ⟨h3, h4⟩, h5, h6⟩

theorem validOp_remove {n : Nat} {E : List (Int × Int)} {u v : Int}
    (h : validOp n E (.remove u v) = true) :
    (0 ≤ u ∧ u < n) ∧ (0 ≤ v ∧ v < n) ∧ u ≠ v ∧ present E u v = true := by
  simp only [validOp, Bool.and_eq_true, decide_eq_true_eq] at h
  obtain ⟨⟨⟨⟨⟨h1, h2⟩, h3⟩, h4⟩, h5⟩, h6⟩ := h
  exact ⟨⟨h1, h2⟩, ⟨h3, h4⟩, h5, h6⟩

/-- The tree of forest `l` that carries a vertex. -/
theorem Rep.tree_of_vertex {G : DynamicGraph} {tss : List (List Tree)} {D : Set Nat}
    (hR : Rep G tss D) {P : Par} (hA : Abs (viewOf G tss) P) {l : Nat}
    (hl : l < G.spanning_trees.length) {a : Int} (ha : 0 ≤ a ∧ a < G.n_) :
    ∃ t, t ∈ treesAt tss l ∧ (a, a) ∈ tourKeys G.heap t :=
  mem_view_keys.mp ((hA.verts l hl a).mpr ha)

/-- Method `AddEdge` on an absent edge between distinct vertices in range keeps the
invariant and writes nothing to the output. -/
theorem AddEdge_inv {G : DynamicGraph} {n : Nat} {E : List (Int × Int)} (hI : Inv G n E)
    {u v : Int} (hv : validOp n E (.add u v) = true) :
    ∃ G1, AddEdge G u v = some G1 ∧ Inv G1 n ((u, v) :: E) ∧ G1.cout = G.cout := by
  obtain ⟨hn, tss, hR, hA⟩ := hI
  obtain ⟨hu, hv', hne, hnp⟩ := validOp_add hv
  rw [← hn] at hu hv'
  have hL : 0 < G.spanning_trees.length := hA.pos_L
  obtain ⟨tA, htA, hkA⟩ := hR.tree_of_vertex hA hL hu
  obtain ⟨tB, htB, hkB⟩ := hR.tree_of_vertex hA hL hv'
  obtain ⟨c, hconn, hc⟩ := hR.connectedAt_spec (l := 0) ((hA.verts 0 hL u).mpr hu)
    ((hA.verts 0 hL v).mpr hv')
  rw [cast_zero_int] at hconn
  cases c with
  | false =>
    -- the edge joins two trees
    have hns : ¬ SameT ((viewOf G tss).tours 0) u v := fun h => by
      have := hc.mpr h
      exact Bool.noConfusion this
    have hAB : tA ≠ tB := by
      rintro rfl
      exact hns ⟨_, mem_view_tours.mpr ⟨tA, htA, rfl⟩, hkA, hkB⟩
    obtain ⟨rest, hperm⟩ := perm_two htA htB hAB
    obtain ⟨hTab, -⟩ := hA.absent_T (a := u) (b := v) hnp
    have hTba : G.spanning_edges_levels.find (v, u) = none :=
      (hA.symT u v).symm.trans hTab
    have hkab : (u, v) ∉ ((viewOf G tss).tours 0).flatten := by
      intro h
      obtain ⟨⟨lv, h1, -⟩, -⟩ := (hA.reg 0 hL u v hne).mp h
      rw [show (viewOf G tss).lvT.find (u, v) = none from hTab] at h1
      exact Option.noConfusion h1
    have hkba : (v, u) ∉ ((viewOf G tss).tours 0).flatten := by
      intro h
      obtain ⟨⟨lv, h1, -⟩, -⟩ := (hA.reg 0 hL v u (fun h => hne h.symm)).mp h
      rw [show (viewOf G tss).lvT.find (v, u) = none from hTba] at h1
      exact Option.noConfusion h1
    have hR2 : Rep { G with components := G.components - 1,
                            spanning_edges_levels :=
                              (G.spanning_edges_levels.set (u, v) 0).set (v, u) 0 } tss ∅ :=
      hR.of_fields rfl rfl
    obtain ⟨G1, T, A, B, hadd, hR1, hrA, hrB, hV1, hcout⟩ :=
      hR2.addEdgeAt_spec (l := 0) hperm (fun _ _ h => h) 0 hkA hkB hne hkab hkba
    rw [cast_zero_int] at hadd
    refine ⟨G1, ?_, ⟨?_, tss.set 0 (T :: rest), hR1, ?_⟩, hcout⟩
    · simp only [AddEdge, hconn, Option.some_bind, Bool.false_eq_true, if_false]
      exact hadd
    · have : G1.n_ = G.n_ := congrArg View.n hV1
      rw [this, hn]
    · rw [hV1]
      exact Abs.add_tree hA hu hv' hne hnp (hperm.map (tourKeys G.heap)) hrA hrB
  | true =>
    have hsame : SameT ((viewOf G tss).tours 0) u v := hc.mp rfl
    -- the two adjacency sets
    have hR2 : Rep { G with not_spanning_edges_levels :=
        (G.not_spanning_edges_levels.set (u, v) 0).set (v, u) 0 } tss ∅ :=
      hR.of_fields rfl rfl
    obtain ⟨G3, h3, hR3, hV3, hh3, hc3⟩ := hR2.adjInsert_rep (l := 0) hL u v
    have hL3 : 0 < G3.spanning_trees.length := by
      have := congrArg View.L hV3
      simp only [viewOf, View.setAdj] at this
      omega
    obtain ⟨G4, h4, hR4, hV4, hh4, hc4⟩ := hR3.adjInsert_rep (l := 0) hL3 v u
    have hheap4 : G4.heap = G.heap := hh4.trans hh3
    have hkA4 : (u, u) ∈ tourKeys G4.heap tA := by rw [hheap4]; exact hkA
    have hkB4 : (v, v) ∈ tourKeys G4.heap tB := by rw [hheap4]; exact hkB
    obtain ⟨pu, ndu, hsu, hpu, hgu, hku⟩ := hR4.selfNode_spec htA hkA4
    obtain ⟨pv, ndv, hsv, hpv, hgv, hkv⟩ := hR4.selfNode_spec htB hkB4
    obtain ⟨h5, hr5, hR5, hV5, -, hd5⟩ := hR4.raise_adjacent_rep htA hpu hgu
    have hpuv : pv ≠ pu := by
      rintro rfl
      rw [hgu] at hgv
      have := Option.some.inj hgv
      rw [this, hkv] at hku
      exact hne (Prod.mk.inj hku).1.symm
    obtain ⟨ndv5, hgv5, hk5, hm5, -, hx5⟩ := data_some (hd5 pv hpuv) hgv
    obtain ⟨h6, hr6, hR6, hV6, -, -⟩ := hR5.raise_adjacent_rep htB hpv hgv5
    refine ⟨{ G4 with heap := h6 }, ?_, ⟨?_, tss, hR6, ?_⟩, ?_⟩
    · simp only [cast_zero_int] at h3 h4 hsu hsv
      simp only [AddEdge, hconn, Option.some_bind, if_true, h3, h4, hsu, hsv, hr5, hr6]
    · have h1 : G4.n_ = G3.n_ := congrArg View.n hV4
      have h2 : G3.n_ = G.n_ := congrArg View.n hV3
      show G4.n_ = n
      rw [h1, h2, hn]
    · rw [hV6, hV5, hV4, hV3, hk5, hm5, hx5, hku, hkv]
      have hdu := hR4.dat_node (l := 0) (mem_nodesOf.mpr ⟨tA, htA, hpu⟩) hgu
      have hdv := hR4.dat_node (l := 0) (mem_nodesOf.mpr ⟨tB, htB, hpv⟩) hgv
      rw [hV4, hV3, hku] at hdu
      rw [hV4, hV3, hkv] at hdv
      have e1 : (View.setAdj (viewOf { G with not_spanning_edges_levels :=
          (G.not_spanning_edges_levels.set (u, v) 0).set (v, u) 0 } tss) 0 u
          (set_insert ((viewOf { G with not_spanning_edges_levels :=
          (G.not_spanning_edges_levels.set (u, v) 0).set (v, u) 0 } tss).adj 0 u) v)).adj 0 v =
          (viewOf G tss).adj 0 v := by
        simp only [View.setAdj]
        rw [if_neg (fun h => hne h.2.symm)]
        rfl
      rw [e1]
      exact Abs.add_nontree hA hu hv' hne hnp hsame hdu hdv
    · show G4.cout = G.cout
      rw [hc4, hc3]

/-- The invariant depends on its parameters only up to equivalence. -/
theorem Abs.mono_par {V : View} {P Q : Par} (hA : Abs V P)
    (hE : ∀ a b, present Q.E a b = present P.E a b)
    (hW : ∀ k l, Q.W k l ↔ P.W k l) (hpe : Q.pe = P.pe) (hsep : Q.sep = P.sep)
    (hr : Q.r = P.r) (hY : ∀ k, Q.Y k ↔ P.Y k) (hZ : ∀ l a, P.Z l a → Q.Z l a)
    (hdc : Q.dc = P.dc) (hdk : Q.dk = P.dk) : Abs V Q :=
  { hA with
    pres := fun a b => by rw [hE]; exact hA.pres a b
    reg := fun l hl a b hne => by rw [hW]; exact hA.reg l hl a b hne
    psize := fun u v κ h => hA.psize u v κ (hpe ▸ h)
    sep0 := fun u v κ h hs => hA.sep0 u v κ (hpe ▸ h) (hsep ▸ hs)
    dself := fun l a m f x hd =>
      ⟨(hA.dself l a m f x hd).1, (hA.dself l a m f x hd).2.1,
        fun hf => ((hA.dself l a m f x hd).2.2 hf).imp id (hZ l a)⟩
    adj_compl := fun l a b h =>
      (hA.adj_compl l a b h).imp id (Or.imp (hY _).mpr (hY _).mpr)
    adj_out := fun a b h => hA.adj_out a b ((hY _).mp h)
    conn := fun a b l h => by rw [hpe]; exact hA.conn a b l h
    cnt1 := by rw [hdc]; exact hA.cnt1
    cnt2 := by rw [hdk]; exact hA.cnt2
    rfact := fun a b h => by
      rw [hr] at h
      obtain ⟨h1, h2, h3⟩ := hA.rfact a b h
      exact ⟨(hY _).mpr h1, h2, fun u v κ hp => h3 u v κ (hpe ▸ hp)⟩
    pefact := fun u v κ h => hA.pefact u v κ (hpe ▸ h) }

theorem present_filter (E : List (Int × Int)) (a b x y : Int) :
    present (E.filter (fun e => decide (e ≠ (a, b)) && decide (e ≠ (b, a)))) x y = true ↔
      (present E x y = true ∧ (x, y) ≠ (a, b) ∧ (x, y) ≠ (b, a)) := by
  simp only [present, Bool.or_eq_true, List.contains_iff_exists_mem_beq, beq_iff_eq,
    exists_eq_right', List.mem_filter, Bool.and_eq_true, decide_eq_true_eq, ne_eq,
    Prod.mk.injEq]
  constructor
  · rintro (⟨h1, h2, h3⟩ | ⟨h1, h2, h3⟩)
    · exact ⟨Or.inl h1, h2, h3⟩
    · exact ⟨Or.inr h1, fun h => h3 ⟨h.2, h.1⟩, fun h => h2 ⟨h.2, h.1⟩⟩
  · rintro ⟨h1 | h1, h2, h3⟩
    · exact Or.inl ⟨h1, h2, h3⟩
    · exact Or.inr ⟨h1, fun h => h3 ⟨h.2, h.1⟩, fun h => h2 ⟨h.2, h.1⟩⟩

/-- Membership in the adjacency sets after both directions of an edge are erased. -/
theorem mem_adj_erase2 (V : View) (l : Nat) {a b : Int} (hne : a ≠ b) (l1 : Nat) (c y : Int) :
    y ∈ ((V.setAdj l a (set_erase (V.adj l a) b)).setAdj l b (set_erase (V.adj l b) a)).adj l1 c
      ↔ (y ∈ V.adj l1 c ∧ ¬ (l1 = l ∧ ((c = a ∧ y = b) ∨ (c = b ∧ y = a)))) := by
  have hadj : ((V.setAdj l a (set_erase (V.adj l a) b)).setAdj l b
      (set_erase (V.adj l b) a)).adj l1 c =
      if l1 = l ∧ c = b then set_erase (V.adj l b) a
      else if l1 = l ∧ c = a then set_erase (V.adj l a) b else V.adj l1 c := rfl
  rw [hadj]
  by_cases h1 : l1 = l ∧ c = b
  · obtain ⟨rfl, rfl⟩ := h1
    rw [if_pos ⟨rfl, rfl⟩, mem_set_erase]
    constructor
    · rintro ⟨h2, h3⟩
      refine ⟨h2, ?_⟩
      rintro ⟨-, (⟨h4, -⟩ | ⟨-, h4⟩)⟩
      · exact hne h4.symm
      · exact h3 h4
    · rintro ⟨h2, h3⟩
      exact ⟨h2, fun h4 => h3 ⟨rfl, Or.inr ⟨rfl, h4⟩⟩⟩
  · rw [if_neg h1]
    by_cases h2 : l1 = l ∧ c = a
    · obtain ⟨rfl, rfl⟩ := h2
      rw [if_pos ⟨rfl, rfl⟩, mem_set_erase]
      constructor
      · rintro ⟨h2, h3⟩
        refine ⟨h2, ?_⟩
        rintro ⟨-, (⟨-, h4⟩ | ⟨h4, -⟩)⟩
        · exact h3 h4
        · exact hne h4
      · rintro ⟨h2, h3⟩
        exact ⟨h2, fun h4 => h3 ⟨rfl, Or.inl ⟨rfl, h4⟩⟩⟩
    · rw [if_neg h2]
      constructor
      · intro h3
        refine ⟨h3, ?_⟩
        rintro ⟨h4, (⟨h5, -⟩ | ⟨h5, -⟩)⟩
        · exact h2 ⟨h4, h5⟩
        · exact h1 ⟨h4, h5⟩
      · exact fun h3 => h3.1

/-- Both directions of a recorded non-tree edge are taken out of the adjacency sets of its
level: the edge becomes pending and the flags of its endpoints may be stale. -/
theorem Abs.adj_erase {V : View} {P : Par} (hA : Abs V P) {l : Nat} {a b : Int}
    (hlv : V.lvN.find (a, b) = some (l : Int)) :
    Abs ((V.setAdj l a (set_erase (V.adj l a) b)).setAdj l b (set_erase (V.adj l b) a))
      { P with Y := fun k => P.Y k ∨ k = (a, b),
               Z := fun l1 c => P.Z l1 c ∨ (l1 = l ∧ (c = a ∨ c = b)) } := by
  have hne : a ≠ b := (hA.rngN a b _ hlv).1
  have hmem := mem_adj_erase2 V l hne
  have hsub : ∀ l1 c, ((V.setAdj l a (set_erase (V.adj l a) b)).setAdj l b
      (set_erase (V.adj l b) a)).adj l1 c ≠ [] → V.adj l1 c ≠ [] := by
    intro l1 c h
    obtain ⟨y, hy⟩ := List.exists_mem_of_ne_nil _ h
    exact ne_nil_of_mem ((hmem l1 c y).mp hy).1
  have hgone : ∀ l1, b ∉ ((V.setAdj l a (set_erase (V.adj l a) b)).setAdj l b
      (set_erase (V.adj l b) a)).adj l1 a ∧
      a ∉ ((V.setAdj l a (set_erase (V.adj l a) b)).setAdj l b
      (set_erase (V.adj l b) a)).adj l1 b := by
    intro l1
    constructor
    · intro h
      obtain ⟨h1, h2⟩ := (hmem l1 a b).mp h
      have := hA.adj_sound l1 a b h1
      rw [hlv] at this
      have h3 : l1 = l := by
        have := Option.some.inj this
        omega
      exact h2 ⟨h3, Or.inl ⟨rfl, rfl⟩⟩
    · intro h
      obtain ⟨h1, h2⟩ := (hmem l1 b a).mp h
      have := hA.adj_sound l1 b a h1
      rw [hA.symN b a, hlv] at this
      have h3 : l1 = l := by
        have := Option.some.inj this
        omega
      exact h2 ⟨h3, Or.inr ⟨rfl, rfl⟩⟩
  exact { hA with
    dself := fun l1 c m f x hd => by
      obtain ⟨h1, h2, h3⟩ := hA.dself l1 c m f x hd
      refine ⟨h1, fun h => h2 (hsub l1 c h), fun hf => ?_⟩
      by_cases h4 : l1 = l ∧ (c = a ∨ c = b)
      · exact Or.inr (Or.inr h4)
      · rcases h3 hf with h5 | h5
        · left
          obtain ⟨y, hy⟩ := List.exists_mem_of_ne_nil _ h5
          refine ne_nil_of_mem ((hmem l1 c y).mpr ⟨hy, ?_⟩)
          rintro ⟨h6, (⟨h7, -⟩ | ⟨h7, -⟩)⟩
          · exact h4 ⟨h6, Or.inl h7⟩
          · exact h4 ⟨h6, Or.inr h7⟩
        · exact Or.inr (Or.inl h5)
    adj_sound := fun l1 c y h => hA.adj_sound l1 c y ((hmem l1 c y).mp h).1
    adj_compl := fun l1 c d h => by
      by_cases h1 : (c, d) = (a, b)
      · exact Or.inr (Or.inl (Or.inr h1))
      · by_cases h2 : (d, c) = (a, b)
        · exact Or.inr (Or.inr (Or.inr h2))
        · rcases hA.adj_compl l1 c d h with h3 | h3 | h3
          · left
            refine (hmem l1 c d).mpr ⟨h3, ?_⟩
            rintro ⟨-, (⟨h4, h5⟩ | ⟨h4, h5⟩)⟩
            · exact h1 (by rw [h4, h5])
            · exact h2 (by rw [h4, h5])
          · exact Or.inr (Or.inl (Or.inl h3))
          · exact Or.inr (Or.inr (Or.inl h3))
    adj_out := fun c d h l1 => by
      rcases h with h | h
      · obtain ⟨h1, h2⟩ := hA.adj_out c d h l1
        exact ⟨fun h3 => h1 ((hmem l1 c d).mp h3).1, fun h3 => h2 ((hmem l1 d c).mp h3).1⟩
      · obtain ⟨rfl, rfl⟩ := Prod.mk.inj h
        exact hgone l1
    adj_nodup := fun l1 c => by
      have hadj : ((V.setAdj l a (set_erase (V.adj l a) b)).setAdj l b
          (set_erase (V.adj l b) a)).adj l1 c =
          if l1 = l ∧ c = b then set_erase (V.adj l b) a
          else if l1 = l ∧ c = a then set_erase (V.adj l a) b else V.adj l1 c := rfl
      rw [hadj]
      split
      · exact nodup_set_erase (hA.adj_nodup _ _) _
      · split
        · exact nodup_set_erase (hA.adj_nodup _ _) _
        · exact hA.adj_nodup _ _
    rfact := fun c d h => by
      obtain ⟨h1, h2, h3⟩ := hA.rfact c d h
      exact ⟨Or.inl h1, h2, h3⟩ }

/-- The block `if (adjacent_edges[a].empty()) flag(a) = false` settles the flag of `a`. -/
theorem Abs.clear {V : View} {P : Par} (hA : Abs V P) {l : Nat} {a : Int} {m f : Bool} {x : Int}
    (hd : V.dat l (a, a) = some (m, f, x)) :
    Abs (if V.adj l a = [] then V.setDat l (a, a) (m, false, x) else V)
      { P with Z := fun l1 c => P.Z l1 c ∧ ¬ (l1 = l ∧ c = a) } := by
  by_cases he : V.adj l a = []
  · rw [if_pos he]
    have hdat : ∀ l1 k, (V.setDat l (a, a) (m, false, x)).dat l1 k =
        if l1 = l ∧ k = (a, a) then some (m, false, x) else V.dat l1 k := fun _ _ => rfl
    exact { hA with
      dat_iff := fun l1 k => by
        show _ ↔ k ∈ (V.tours l1).flatten
        rw [hdat, ← hA.dat_iff]
        by_cases h : l1 = l ∧ k = (a, a)
        · obtain ⟨rfl, rfl⟩ := h
          rw [if_pos ⟨rfl, rfl⟩, hd]
          exact ⟨fun _ => rfl, fun _ => rfl⟩
        · rw [if_neg h]
      dself := fun l1 c m1 f1 x1 h => by
        rw [hdat] at h
        by_cases h1 : l1 = l ∧ c = a
        · obtain ⟨rfl, rfl⟩ := h1
          rw [if_pos ⟨rfl, rfl⟩] at h
          obtain ⟨rfl, rfl, rfl⟩ := Prod.mk.inj (Option.some.inj h) |>.imp id Prod.mk.inj
            |> fun ⟨h1, h2, h3⟩ => (⟨h1, h2, h3⟩ : m = m1 ∧ false = f1 ∧ x = x1)
          refine ⟨(hA.dself l1 c m f x hd).1, fun h2 => absurd he h2, fun h2 => ?_⟩
          exact absurd h2 (by simp)
        · rw [if_neg (fun h2 => h1 ⟨h2.1, (Prod.mk.inj h2.2).1⟩)] at h
          obtain ⟨h2, h3, h4⟩ := hA.dself l1 c m1 f1 x1 h
          exact ⟨h2, h3, fun hf => (h4 hf).imp id (fun hz => ⟨hz, h1⟩)⟩
      dedge := fun l1 c d m1 f1 x1 hcd h => by
        rw [hdat, if_neg (fun h2 => hcd ((Prod.mk.inj h2.2).1.trans (Prod.mk.inj h2.2).2.symm))]
          at h
        exact hA.dedge l1 c d m1 f1 x1 hcd h }
  · rw [if_neg he]
    exact { hA with
      dself := fun l1 c m1 f1 x1 h => by
        obtain ⟨h2, h3, h4⟩ := hA.dself l1 c m1 f1 x1 h
        refine ⟨h2, h3, fun hf => ?_⟩
        by_cases h1 : l1 = l ∧ c = a
        · obtain ⟨rfl, rfl⟩ := h1
          exact Or.inl he
        · exact (h4 hf).imp id (fun hz => ⟨hz, h1⟩) }

/-- A pending non-tree edge is dropped from the level map and from the edge set. -/
theorem Abs.lvN_erase {V : View} {P : Par} (hA : Abs V P) {a b : Int} (hY : P.Y (a, b))
    (hlv : (V.lvN.find (a, b)).isSome = true) (hr : P.r = none) :
    Abs { V with lvN := (V.lvN.erase (a, b)).erase (b, a) }
      { P with E := P.E.filter (fun e => decide (e ≠ (a, b)) && decide (e ≠ (b, a))),
               Y := fun k => P.Y k ∧ k ≠ (a, b) ∧ k ≠ (b, a) } := by
  have hfind : ∀ k, LevelMap.find ((V.lvN.erase (a, b)).erase (b, a)) k =
      if k = (b, a) then none else if k = (a, b) then none else V.lvN.find k := by
    intro k
    rw [LevelMap.find_erase, LevelMap.find_erase]
  have hkeep : ∀ k lv, LevelMap.find ((V.lvN.erase (a, b)).erase (b, a)) k = some lv →
      V.lvN.find k = some lv ∧ k ≠ (a, b) ∧ k ≠ (b, a) := by
    intro k lv h
    rw [hfind] at h
    by_cases h1 : k = (b, a)
    · rw [if_pos h1] at h; exact Option.noConfusion h
    · rw [if_neg h1] at h
      by_cases h2 : k = (a, b)
      · rw [if_pos h2] at h; exact Option.noConfusion h
      · rw [if_neg h2] at h
        exact ⟨h, h2, h1⟩
  have hT : V.lvT.find (a, b) = none := by
    cases h1 : V.lvT.find (a, b) with
    | none => rfl
    | some lv =>
      have := hA.excl (a, b) (by rw [h1]; rfl)
      rw [this] at hlv
      exact Bool.noConfusion hlv
  have hT1 : V.lvT.find (b, a) = none := (hA.symT b a).trans hT
  exact { hA with
    keysN := LevelMap.nodup_erase (LevelMap.nodup_erase hA.keysN _) _
    symN := fun c d => by
      show LevelMap.find ((V.lvN.erase (a, b)).erase (b, a)) (c, d) =
        LevelMap.find ((V.lvN.erase (a, b)).erase (b, a)) (d, c)
      rw [hfind, hfind, hA.symN c d]
      by_cases h1 : (c, d) = (b, a)
      · obtain ⟨rfl, rfl⟩ := Prod.mk.inj h1
        simp
      · by_cases h2 : (c, d) = (a, b)
        · obtain ⟨rfl, rfl⟩ := Prod.mk.inj h2
          simp
        · have h3 : (d, c) ≠ (a, b) := fun h => h1 (by
            obtain ⟨rfl, rfl⟩ := Prod.mk.inj h; rfl)
          have h4 : (d, c) ≠ (b, a) := fun h => h2 (by
            obtain ⟨rfl, rfl⟩ := Prod.mk.inj h; rfl)
          rw [if_neg h1, if_neg h2, if_neg h4, if_neg h3]
    excl := fun k h => by
      show LevelMap.find ((V.lvN.erase (a, b)).erase (b, a)) k = none
      rw [hfind, hA.excl k h]
      simp
    rngN := fun c d lv h => hA.rngN c d lv (hkeep _ _ h).1
    pres := fun c d => by
      show present (P.E.filter _) c d = true ↔
        ((V.lvT.find (c, d)).isSome = true ∨
          (LevelMap.find ((V.lvN.erase (a, b)).erase (b, a)) (c, d)).isSome = true)
      rw [present_filter, hA.pres c d, hfind]
      by_cases h1 : (c, d) = (b, a)
      · rw [if_pos h1, h1, hT1]
        simp
      · by_cases h2 : (c, d) = (a, b)
        · rw [if_neg h1, if_pos h2, h2, hT]
          simp
        · rw [if_neg h1, if_neg h2]
          simp [h1, h2]
    adj_sound := fun l c d h => by
      show LevelMap.find ((V.lvN.erase (a, b)).erase (b, a)) (c, d) = some (l : Int)
      rw [hfind]
      have h0 := hA.adj_out a b hY l
      by_cases h1 : (c, d) = (b, a)
      · obtain ⟨rfl, rfl⟩ := Prod.mk.inj h1
        exact absurd h h0.2
      · by_cases h2 : (c, d) = (a, b)
        · obtain ⟨rfl, rfl⟩ := Prod.mk.inj h2
          exact absurd h h0.1
        · rw [if_neg h1, if_neg h2]
          exact hA.adj_sound l c d h
    adj_compl := fun l c d h => by
      obtain ⟨h1, h2, h3⟩ := hkeep _ _ h
      rcases hA.adj_compl l c d h1 with h4 | h4 | h4
      · exact Or.inl h4
      · exact Or.inr (Or.inl ⟨h4, h2, h3⟩)
      · refine Or.inr (Or.inr ⟨h4, fun h5 => h3 ?_, fun h5 => h2 ?_⟩)
        · obtain ⟨rfl, rfl⟩ := Prod.mk.inj h5; rfl
        · obtain ⟨rfl, rfl⟩ := Prod.mk.inj h5; rfl
    adj_out := fun c d h => hA.adj_out c d h.1
    conn := fun c d l h => hA.conn c d l (hkeep _ _ h).1
    rfact := fun c d h => by
      have h1 : P.r = some (c, d) := h
      rw [hr] at h1
      exact Option.noConfusion h1 }

theorem View.clr_eq (V : View) (l : Nat) (a : Int) {m f : Bool} {x : Int}
    (hd : V.dat l (a, a) = some (m, f, x)) :
    (if V.adj l a = [] then V.setDat l (a, a) (m, false, x) else V) = V.clr l a := by
  by_cases he : V.adj l a = []
  · rw [if_pos he]
    apply View.ext <;> try rfl
    funext l1 k
    show (if l1 = l ∧ k = (a, a) then some (m, false, x) else V.dat l1 k) =
      if l1 = l ∧ k = (a, a) ∧ V.adj l a = [] then
        (V.dat l1 k).map (fun d => (d.1, false, d.2.2)) else V.dat l1 k
    by_cases h : l1 = l ∧ k = (a, a)
    · obtain ⟨rfl, rfl⟩ := h
      rw [if_pos ⟨rfl, rfl⟩, if_pos ⟨rfl, rfl, he⟩, hd]
      rfl
    · rw [if_neg h, if_neg (fun h1 => h ⟨h1.1, h1.2.1⟩)]
  · rw [if_neg he]
    apply View.ext <;> try rfl
    funext l1 k
    show V.dat l1 k = if l1 = l ∧ k = (a, a) ∧ V.adj l a = [] then
        (V.dat l1 k).map (fun d => (d.1, false, d.2.2)) else V.dat l1 k
    rw [if_neg (fun h1 => he h1.2.2)]

theorem View.raise_eq (V : View) (l : Nat) (a : Int) {m f : Bool} {x : Int}
    (hd : V.dat l (a, a) = some (m, f, x)) :
    V.setDat l (a, a) (m, true, x) = V.raise l a := by
  apply View.ext <;> try rfl
  funext l1 k
  show (if l1 = l ∧ k = (a, a) then some (m, true, x) else V.dat l1 k) =
    if l1 = l ∧ k = (a, a) then (V.dat l1 k).map (fun d => (d.1, true, d.2.2)) else V.dat l1 k
  by_cases h : l1 = l ∧ k = (a, a)
  · obtain ⟨rfl, rfl⟩ := h
    rw [if_pos ⟨rfl, rfl⟩, if_pos ⟨rfl, rfl⟩, hd]
    rfl
  · rw [if_neg h, if_neg h]

theorem View.unmin_eq (V : View) (l : Nat) (k : Int × Int) {m f : Bool} {x : Int}
    (hd : V.dat l k = some (m, f, x)) :
    V.setDat l k (false, f, x) = V.unmin l k := by
  apply View.ext <;> try rfl
  funext l1 k1
  show (if l1 = l ∧ k1 = k then some (false, f, x) else V.dat l1 k1) =
    if l1 = l ∧ k1 = k then (V.dat l1 k1).map (fun d => (false, d.2.1, d.2.2)) else V.dat l1 k1
  by_cases h : l1 = l ∧ k1 = k
  · obtain ⟨rfl, rfl⟩ := h
    rw [if_pos ⟨rfl, rfl⟩, if_pos ⟨rfl, rfl⟩, hd]
    rfl
  · rw [if_neg h, if_neg h]

theorem View.erase2_eq (V : View) (l : Nat) {a b : Int} (hne : a ≠ b) :
    (V.setAdj l a (set_erase (V.adj l a) b)).setAdj l b
      (set_erase ((V.setAdj l a (set_erase (V.adj l a) b)).adj l b) a) = V.erase2 l a b := by
  have e : (V.setAdj l a (set_erase (V.adj l a) b)).adj l b = V.adj l b := by
    show (if l = l ∧ b = a then _ else V.adj l b) = _
    rw [if_neg (fun h => hne h.2.symm)]
  rw [e]
  rfl

theorem View.insert2_eq (V : View) (l : Nat) {a b : Int} (hne : a ≠ b) :
    (V.setAdj l a (set_insert (V.adj l a) b)).setAdj l b
      (set_insert ((V.setAdj l a (set_insert (V.adj l a) b)).adj l b) a) = V.insert2 l a b := by
  have e : (V.setAdj l a (set_insert (V.adj l a) b)).adj l b = V.adj l b := by
    show (if l = l ∧ b = a then _ else V.adj l b) = _
    rw [if_neg (fun h => hne h.2.symm)]
  rw [e]
  rfl

/-- Both directions of a recorded non-tree edge leave the adjacency sets. -/
theorem Abs.erase2 {V : View} {P : Par} (hA : Abs V P) {l : Nat} {a b : Int}
    (hlv : V.lvN.find (a, b) = some (l : Int)) :
    Abs (V.erase2 l a b)
      { P with Y := fun k => P.Y k ∨ k = (a, b),
               Z := fun l1 c => P.Z l1 c ∨ (l1 = l ∧ (c = a ∨ c = b)) } :=
  hA.adj_erase hlv

/-- The flag of `a` is settled by the block that clears it over an empty adjacency set. -/
theorem Abs.clr {V : View} {P : Par} (hA : Abs V P) {l : Nat} (hl : l < V.L) {a : Int}
    (ha : 0 ≤ a ∧ a < V.n) :
    Abs (V.clr l a) { P with Z := fun l1 c => P.Z l1 c ∧ ¬ (l1 = l ∧ c = a) } := by
  have h1 := (hA.dat_iff l (a, a)).mpr ((hA.verts l hl a).mpr ha)
  cases hd : V.dat l (a, a) with
  | none => rw [hd] at h1; exact Bool.noConfusion h1
  | some d =>
    obtain ⟨m, f, x⟩ := d
    rw [← View.clr_eq V l a hd]
    exact hA.clear hd

theorem mem_insert2 (V : View) (l : Nat) {a b : Int} (hne : a ≠ b) (l1 : Nat) (c y : Int) :
    y ∈ (V.insert2 l a b).adj l1 c ↔
      (y ∈ V.adj l1 c ∨ (l1 = l ∧ ((c = a ∧ y = b) ∨ (c = b ∧ y = a)))) := by
  show y ∈ (if l1 = l ∧ c = b then set_insert (V.adj l b) a
      else if l1 = l ∧ c = a then set_insert (V.adj l a) b else V.adj l1 c) ↔ _
  by_cases h1 : l1 = l ∧ c = b
  · obtain ⟨rfl, rfl⟩ := h1
    rw [if_pos ⟨rfl, rfl⟩, mem_set_insert]
    constructor
    · rintro (h | h)
      · exact Or.inr ⟨rfl, Or.inr ⟨rfl, h⟩⟩
      · exact Or.inl h
    · rintro (h | ⟨-, (⟨h, -⟩ | ⟨-, h⟩)⟩)
      · exact Or.inr h
      · exact absurd h.symm hne
      · exact Or.inl h
  · rw [if_neg h1]
    by_cases h2 : l1 = l ∧ c = a
    · obtain ⟨rfl, rfl⟩ := h2
      rw [if_pos ⟨rfl, rfl⟩, mem_set_insert]
      constructor
      · rintro (h | h)
        · exact Or.inr ⟨rfl, Or.inl ⟨rfl, h⟩⟩
        · exact Or.inl h
      · rintro (h | ⟨-, (⟨-, h⟩ | ⟨h, -⟩)⟩)
        · exact Or.inr h
        · exact Or.inl h
        · exact absurd h hne
    · rw [if_neg h2]
      constructor
      · exact Or.inl
      · rintro (h | ⟨h3, (⟨h4, -⟩ | ⟨h4, -⟩)⟩)
        · exact h
        · exact absurd ⟨h3, h4⟩ h2
        · exact absurd ⟨h3, h4⟩ h1

theorem raise2_dat (V : View) (l : Nat) (a b : Int) (l1 : Nat) (k : Int × Int) :
    (((V.insert2 l a b).raise l a).raise l b).dat l1 k =
      if l1 = l ∧ k = (b, b) then
        (if l1 = l ∧ k = (a, a) then (V.dat l1 k).map (fun d => (d.1, true, d.2.2))
          else V.dat l1 k).map (fun d => (d.1, true, d.2.2))
      else if l1 = l ∧ k = (a, a) then (V.dat l1 k).map (fun d => (d.1, true, d.2.2))
      else V.dat l1 k := rfl

/-- A pending non-tree edge enters the adjacency sets of its recorded level and raises the
flags of its endpoints. -/
theorem Abs.adj_insert {V : View} {P : Par} (hA : Abs V P) {l : Nat} {a b : Int}
    (hlv : V.lvN.find (a, b) = some (l : Int))
    (hr : ∀ x y, P.r = some (x, y) → (x, y) ≠ (a, b) ∧ (x, y) ≠ (b, a)) :
    Abs (((V.insert2 l a b).raise l a).raise l b)
      { P with Y := fun k => P.Y k ∧ k ≠ (a, b) ∧ k ≠ (b, a) } := by
  have hne : a ≠ b := (hA.rngN a b _ hlv).1
  have hmem := mem_insert2 V l hne
  have hdat := raise2_dat V l a b
  have hadj : ∀ l1 c, (((V.insert2 l a b).raise l a).raise l b).adj l1 c =
      (V.insert2 l a b).adj l1 c := fun _ _ => rfl
  have hsome : ∀ l1 k, ((((V.insert2 l a b).raise l a).raise l b).dat l1 k).isSome =
      (V.dat l1 k).isSome := by
    intro l1 k
    rw [hdat]
    split
    · split <;> simp
    · split <;> simp
  exact { hA with
    dat_iff := fun l1 k => by
      rw [hsome]
      exact hA.dat_iff l1 k
    dself := fun l1 c m f x hd => by
      rw [hdat] at hd
      by_cases h1 : l1 = l ∧ c = b
      · obtain ⟨rfl, rfl⟩ := h1
        rw [if_pos ⟨rfl, rfl⟩, if_neg (fun h => hne (Prod.mk.inj h.2).1.symm)] at hd
        cases hd0 : V.dat l1 (c, c) with
        | none => rw [hd0] at hd; exact Option.noConfusion hd
        | some d =>
          obtain ⟨m0, f0, x0⟩ := d
          rw [hd0] at hd
          have h2 := Option.some.inj hd
          simp only [Prod.mk.injEq] at h2
          obtain ⟨rfl, rfl, rfl⟩ := h2
          refine ⟨(hA.dself l1 c m0 f0 x0 hd0).1, fun _ => rfl, fun _ => Or.inl ?_⟩
          exact ne_nil_of_mem ((hmem l1 c a).mpr (Or.inr ⟨rfl, Or.inr ⟨rfl, rfl⟩⟩))
      · rw [if_neg (fun h => h1 ⟨h.1, (Prod.mk.inj h.2).1⟩)] at hd
        by_cases h2 : l1 = l ∧ c = a
        · obtain ⟨rfl, rfl⟩ := h2
          rw [if_pos ⟨rfl, rfl⟩] at hd
          cases hd0 : V.dat l1 (c, c) with
          | none => rw [hd0] at hd; exact Option.noConfusion hd
          | some d =>
            obtain ⟨m0, f0, x0⟩ := d
            rw [hd0] at hd
            have h2 := Option.some.inj hd
            simp only [Prod.mk.injEq] at h2
            obtain ⟨rfl, rfl, rfl⟩ := h2
            refine ⟨(hA.dself l1 c m0 f0 x0 hd0).1, fun _ => rfl, fun _ => Or.inl ?_⟩
            exact ne_nil_of_mem ((hmem l1 c b).mpr (Or.inr ⟨rfl, Or.inl ⟨rfl, rfl⟩⟩))
        · rw [if_neg (fun h => h2 ⟨h.1, (Prod.mk.inj h.2).1⟩)] at hd
          obtain ⟨h3, h4, h5⟩ := hA.dself l1 c m f x hd
          refine ⟨h3, fun h => h4 ?_, fun hf => (h5 hf).imp (fun h => ?_) id⟩
          · obtain ⟨y, hy⟩ := List.exists_mem_of_ne_nil _ h
            rcases (hmem l1 c y).mp hy with h6 | ⟨h6, (⟨h7, -⟩ | ⟨h7, -⟩)⟩
            · exact ne_nil_of_mem h6
            · exact absurd ⟨h6, h7⟩ h2
            · exact absurd ⟨h6, h7⟩ h1
          · obtain ⟨y, hy⟩ := List.exists_mem_of_ne_nil _ h
            exact ne_nil_of_mem ((hmem l1 c y).mpr (Or.inl hy))
    dedge := fun l1 c d m f x hcd hd => by
      rw [hdat, if_neg (fun h => hcd ((Prod.mk.inj h.2).1.trans (Prod.mk.inj h.2).2.symm)),
        if_neg (fun h => hcd ((Prod.mk.inj h.2).1.trans (Prod.mk.inj h.2).2.symm))] at hd
      exact hA.dedge l1 c d m f x hcd hd
    adj_sound := fun l1 c y h => by
      rcases (hmem l1 c y).mp h with h1 | ⟨rfl, (⟨rfl, rfl⟩ | ⟨rfl, rfl⟩)⟩
      · exact hA.adj_sound l1 c y h1
      · exact hlv
      · exact (hA.symN _ _).trans hlv
    adj_compl := fun l1 c d h0 => by
      have h : V.lvN.find (c, d) = some (l1 : Int) := h0
      rcases hA.adj_compl l1 c d h with h1 | h1 | h1
      · exact Or.inl ((hmem l1 c d).mpr (Or.inl h1))
      · by_cases h2 : (c, d) = (a, b)
        · obtain ⟨rfl, rfl⟩ := Prod.mk.inj h2
          rw [hlv] at h
          have h3 : l = l1 := by have := Option.some.inj h; omega
          exact Or.inl ((hmem l1 c d).mpr (Or.inr ⟨h3.symm, Or.inl ⟨rfl, rfl⟩⟩))
        · by_cases h3 : (c, d) = (b, a)
          · obtain ⟨rfl, rfl⟩ := Prod.mk.inj h3
            rw [hA.symN, hlv] at h
            have h4 : l = l1 := by have := Option.some.inj h; omega
            exact Or.inl ((hmem l1 c d).mpr (Or.inr ⟨h4.symm, Or.inr ⟨rfl, rfl⟩⟩))
          · exact Or.inr (Or.inl ⟨h1, h2, h3⟩)
      · by_cases h2 : (d, c) = (a, b)
        · obtain ⟨rfl, rfl⟩ := Prod.mk.inj h2
          rw [hA.symN, hlv] at h
          have h3 : l = l1 := by have := Option.some.inj h; omega
          exact Or.inl ((hmem l1 c d).mpr (Or.inr ⟨h3.symm, Or.inr ⟨rfl, rfl⟩⟩))
        · by_cases h3 : (d, c) = (b, a)
          · obtain ⟨rfl, rfl⟩ := Prod.mk.inj h3
            rw [hlv] at h
            have h4 : l = l1 := by have := Option.some.inj h; omega
            exact Or.inl ((hmem l1 c d).mpr (Or.inr ⟨h4.symm, Or.inl ⟨rfl, rfl⟩⟩))
          · exact Or.inr (Or.inr ⟨h1, h2, h3⟩)
    adj_out := fun c d h l1 => by
      obtain ⟨h1, h2, h3⟩ := h
      obtain ⟨h4, h5⟩ := hA.adj_out c d h1 l1
      constructor
      · intro h6
        rcases (hmem l1 c d).mp h6 with h7 | ⟨-, (⟨rfl, rfl⟩ | ⟨rfl, rfl⟩)⟩
        · exact h4 h7
        · exact h2 rfl
        · exact h3 rfl
      · intro h6
        rcases (hmem l1 d c).mp h6 with h7 | ⟨-, (⟨rfl, rfl⟩ | ⟨rfl, rfl⟩)⟩
        · exact h5 h7
        · exact h3 rfl
        · exact h2 rfl
    adj_nodup := fun l1 c => by
      show (if l1 = l ∧ c = b then set_insert (V.adj l b) a
        else if l1 = l ∧ c = a then set_insert (V.adj l a) b else V.adj l1 c).Nodup
      split
      · exact nodup_set_insert (hA.adj_nodup _ _) _
      · split
        · exact nodup_set_insert (hA.adj_nodup _ _) _
        · exact hA.adj_nodup _ _
    rfact := fun c d h => by
      obtain ⟨h1, h2, h3⟩ := hA.rfact c d h
      exact ⟨⟨h1, (hr c d h).1, (hr c d h).2⟩, h2, h3⟩ }

theorem cut_apart {S U : List (Int × Int)} {rest : List (List (Int × Int))}
    (hnd : ((S :: U :: rest).flatten).Nodup) {k : Int × Int} (h1 : k ∈ S) (h2 : k ∈ U) :
    False := by
  simp only [List.flatten_cons] at hnd
  exact (List.nodup_append.mp hnd).2.2 h1 (List.mem_append_left _ h2)

theorem size_mono {l : Nat} {n : Int} {s1 s2 : List (Int × Int)}
    (h : selfCount s1 ≤ selfCount s2) (h2 : 2 ^ l * (selfCount s2 : Int) ≤ n) :
    2 ^ l * (selfCount s1 : Int) ≤ n := by
  refine le_trans (mul_le_mul_of_nonneg_left ?_ (by positivity)) h2
  exact_mod_cast h

theorem Abs.level_in {V : View} {P : Par} (hA : Abs V P) {l : Nat} (h : (l : Int) ≤ V.mx) :
    l < V.L := by
  have := hA.mx_len
  omega

/-- The removal of a recorded tree edge begins: nothing is cut yet. -/
theorem Abs.enter_cut {V : View} {E : List (Int × Int)} (hA : Abs V (Par.normal E))
    {u v cl : Int} (hlv : V.lvT.find (u, v) = some cl) :
    Abs V (Par.cutting E u v cl cl) := by
  obtain ⟨hne, -, -, -, -, hcl0, hcl1⟩ := hA.rngT u v cl hlv
  have hlv1 : V.lvT.find (v, u) = some cl := (hA.symT v u).trans hlv
  exact { hA with
    reg := fun l hl a b hab => by
      rw [hA.reg l hl a b hab]
      constructor
      · rintro ⟨⟨lv, h1, h2⟩, -⟩
        refine ⟨⟨lv, h1, h2⟩, ?_⟩
        rintro (h | h)
        · obtain ⟨rfl, rfl⟩ := Prod.mk.inj h
          rw [hlv] at h1
          rw [Option.some.inj h1]
          exact h2
        · obtain ⟨rfl, rfl⟩ := Prod.mk.inj h
          rw [hlv1] at h1
          rw [Option.some.inj h1]
          exact h2
      · exact fun h => ⟨h.1, trivial⟩
    psize := fun u1 v1 κ h l s1 s2 hl hs1 hs2 hu hv hvn => by
      simp only [Par.cutting, Option.some.injEq, Prod.mk.injEq] at h
      obtain ⟨rfl, rfl, rfl⟩ := h
      exfalso
      have hL : l < V.L := hA.level_in (le_trans hl hcl1)
      have h1 : (u, v) ∈ (V.tours l).flatten :=
        (hA.reg l hL u v hne).mpr ⟨⟨cl, hlv, hl⟩, trivial⟩
      obtain ⟨s, hs, hk⟩ := List.mem_flatten.mp h1
      obtain ⟨h2, h3⟩ := (hA.et l s hs).self_mem u v hk
      have := tour_unique (hA.nodup l) hs hs1 h2 hu
      rw [this] at h3
      exact hvn h3
    sep0 := fun u1 v1 κ _ hs => by
      simp only [Par.cutting, decide_eq_true_eq] at hs
      omega
    conn := fun a b l h => Or.inl (by
      rcases hA.conn a b l h with h1 | ⟨u1, v1, κ, h1, -⟩
      · exact h1
      · exact Option.noConfusion h1)
    cnt1 := by
      have := hA.cnt1
      simp only [Par.cutting, Par.normal] at this ⊢
      rw [if_neg (by omega)]
      exact this
    rfact := fun _ _ h => Option.noConfusion h
    pefact := fun u1 v1 κ h => by
      simp only [Par.cutting, Option.some.injEq, Prod.mk.injEq] at h
      obtain ⟨rfl, rfl, rfl⟩ := h
      refine ⟨hne, by omega, hcl1, ?_⟩
      rw [hlv]; rfl }

/-- One step of the loop that cuts the edge out of the forests: level `l`. -/
theorem Abs.cut_step {V : View} {E : List (Int × Int)} {u v cl : Int} {l : Nat}
    (hA : Abs V (Par.cutting E u v cl l)) (hlc : (l : Int) ≤ cl)
    {s S U : List (Int × Int)} {rest : List (List (Int × Int))}
    (hp : (V.tours l).Perm (s :: rest)) (hs : s.IsRotated ((u, v) :: S ++ (v, u) :: U)) :
    Abs (V.cut l u v S U rest) (Par.cutting E u v cl ((l : Int) - 1)) := by
  obtain ⟨hne, -, hcl1, -⟩ := hA.pefact u v cl rfl
  have hl : l < V.L := hA.level_in (le_trans hlc hcl1)
  have hsm : s ∈ V.tours l := hp.mem_iff.mpr (List.mem_cons_self _ _)
  have hrest : ∀ s1 ∈ rest, s1 ∈ V.tours l := fun s1 h =>
    hp.mem_iff.mpr (List.mem_cons_of_mem _ h)
  have hnd := hA.nodup l
  have hsnd : s.Nodup := (List.nodup_flatten.mp hnd).1 s hsm
  obtain ⟨hetS, hetU, hvS, huU⟩ := (hA.et l s hsm).cut hsnd u v S U hne hs
  have htours : ∀ l1, (V.cut l u v S U rest).tours l1 =
      if l1 = l then S :: U :: rest else V.tours l1 := fun _ => rfl
  have hdat : ∀ l1 k, (V.cut l u v S U rest).dat l1 k =
      if l1 = l then (if k = (u, v) ∨ k = (v, u) then none else V.dat l k)
      else V.dat l1 k := fun _ _ => rfl
  have hmem := cut_mem hp hs hnd
  have hnd1 := cut_nodup hp hs hnd
  have hcnt := cut_selfCount hne hs
  have hSm : S ∈ S :: U :: rest := List.mem_cons_self _ _
  have hUm : U ∈ S :: U :: rest := List.mem_cons_of_mem _ (List.mem_cons_self _ _)
  have huv : SameT (V.tours l) u v := by
    have h1 : (u, v) ∈ s := hs.mem_iff.mpr (List.mem_cons_self _ _)
    obtain ⟨h2, h3⟩ := (hA.et l s hsm).self_mem u v h1
    exact ⟨s, hsm, h2, h3⟩
  exact { hA with
    beyond := fun l1 h1 => by
      have h2 : V.L ≤ l1 := h1
      rw [htours, if_neg (show ¬ (l1 = l) by omega)]
      exact hA.beyond l1 h1
    et := fun l1 s1 h1 => by
      rw [htours] at h1
      by_cases h2 : l1 = l
      · rw [if_pos h2] at h1
        rcases List.mem_cons.mp h1 with rfl | h1
        · exact hetS
        · rcases List.mem_cons.mp h1 with rfl | h1
          · exact hetU
          · exact hA.et l s1 (hrest s1 h1)
      · rw [if_neg h2] at h1
        exact hA.et l1 s1 h1
    nodup := fun l1 => by
      rw [htours]
      by_cases h2 : l1 = l
      · rw [if_pos h2]; exact hnd1
      · rw [if_neg h2]; exact hA.nodup l1
    verts := fun l1 hl1 a => by
      rw [htours]
      by_cases h2 : l1 = l
      · subst h2
        rw [if_pos rfl, hmem, hA.verts l1 hl a]
        constructor
        · exact fun h => h.1
        · exact fun h => ⟨h,
            fun h1 => hne ((Prod.mk.inj h1).1.symm.trans (Prod.mk.inj h1).2),
            fun h1 => hne ((Prod.mk.inj h1).2.symm.trans (Prod.mk.inj h1).1)⟩
      · rw [if_neg h2]; exact hA.verts l1 hl1 a
    reg := fun l1 hl1 a b hab => by
      rw [htours]
      by_cases h2 : l1 = l
      · subst h2
        rw [if_pos rfl, hmem, hA.reg l1 hl a b hab]
        constructor
        · rintro ⟨⟨h3, -⟩, h4, h5⟩
          refine ⟨h3, ?_⟩
          rintro (h | h)
          · exact absurd h h4
          · exact absurd h h5
        · rintro ⟨h3, h4⟩
          refine ⟨⟨h3, fun _ => le_refl _⟩, fun h => ?_, fun h => ?_⟩
          · have := h4 (Or.inl h); omega
          · have := h4 (Or.inr h); omega
      · rw [if_neg h2, hA.reg l1 hl1 a b hab]
        constructor
        · rintro ⟨h3, h4⟩
          refine ⟨h3, fun h => ?_⟩
          have := h4 h
          have : (l1 : Int) ≠ (l : Int) := fun h5 => h2 (by exact_mod_cast h5)
          omega
        · rintro ⟨h3, h4⟩
          refine ⟨h3, fun h => ?_⟩
          have := h4 h
          omega
    size := fun l1 s1 h1 => by
      rw [htours] at h1
      by_cases h2 : l1 = l
      · subst h2
        rw [if_pos rfl] at h1
        have hsz := hA.size l1 s hsm
        rcases List.mem_cons.mp h1 with rfl | h1
        · exact size_mono (by omega) hsz
        · rcases List.mem_cons.mp h1 with rfl | h1
          · exact size_mono (by omega) hsz
          · exact hA.size l1 s1 (hrest s1 h1)
      · rw [if_neg h2] at h1
        exact hA.size l1 s1 h1
    psize := fun u1 v1 κ h l1 s1 s2 hl1 hs1 hs2 hu hv hvn => by
      simp only [Par.cutting, Option.some.injEq, Prod.mk.injEq] at h
      obtain ⟨rfl, rfl, rfl⟩ := h
      rw [htours] at hs1 hs2
      by_cases h2 : l1 = l
      · subst h2
        rw [if_pos rfl] at hs1 hs2
        have e1 : s1 = U := tour_unique hnd1 hs1 hUm hu huU
        have e2 : s2 = S := tour_unique hnd1 hs2 hSm hv hvS
        rw [e1, e2]
        have hsz := hA.size l1 s hsm
        rw [hcnt] at hsz
        push_cast at hsz
        rw [add_comm]
        exact hsz
      · rw [if_neg h2] at hs1 hs2
        exact hA.psize u v cl rfl l1 s1 s2 hl1 hs1 hs2 hu hv hvn
    sep0 := fun u1 v1 κ h hsep => by
      simp only [Par.cutting, Option.some.injEq, Prod.mk.injEq] at h
      obtain ⟨rfl, rfl, rfl⟩ := h
      simp only [Par.cutting, decide_eq_true_eq] at hsep
      have h0 : l = 0 := by omega
      subst h0
      rw [htours, if_pos rfl]
      rintro ⟨s1, hs1, h1, h2⟩
      have e1 : s1 = U := tour_unique hnd1 hs1 hUm h1 huU
      rw [e1] at h2
      exact cut_apart hnd1 hvS h2
    dat_iff := fun l1 k => by
      rw [hdat, htours]
      by_cases h2 : l1 = l
      · subst h2
        rw [if_pos rfl, if_pos rfl, hmem, ← hA.dat_iff]
        by_cases h3 : k = (u, v) ∨ k = (v, u)
        · rw [if_pos h3]
          constructor
          · exact fun h => Bool.noConfusion h
          · rintro ⟨-, h4, h5⟩
            rcases h3 with h3 | h3
            · exact absurd h3 h4
            · exact absurd h3 h5
        · rw [if_neg h3]
          exact ⟨fun h => ⟨h, fun h4 => h3 (Or.inl h4), fun h4 => h3 (Or.inr h4)⟩,
            fun h => h.1⟩
      · rw [if_neg h2, if_neg h2]
        exact hA.dat_iff l1 k
    dself := fun l1 a m f x hd => by
      rw [hdat] at hd
      by_cases h2 : l1 = l
      · subst h2
        rw [if_pos rfl, if_neg] at hd
        · exact hA.dself l1 a m f x hd
        · rintro (h | h)
          · exact hne ((Prod.mk.inj h).1.symm.trans (Prod.mk.inj h).2)
          · exact hne ((Prod.mk.inj h).2.symm.trans (Prod.mk.inj h).1)
      · rw [if_neg h2] at hd
        exact hA.dself l1 a m f x hd
    dedge := fun l1 a b m f x hab hd => by
      rw [hdat] at hd
      by_cases h2 : l1 = l
      · subst h2
        rw [if_pos rfl] at hd
        by_cases h3 : (a, b) = (u, v) ∨ (a, b) = (v, u)
        · rw [if_pos h3] at hd
          exact Option.noConfusion hd
        · rw [if_neg h3] at hd
          exact hA.dedge l1 a b m f x hab hd
      · rw [if_neg h2] at hd
        exact hA.dedge l1 a b m f x hab hd
    conn := fun a b l1 h => by
      have hold := hA.conn a b l1 h
      by_cases h2 : l1 = l
      · subst h2
        have hsame : SameT (V.tours l1) a b := by
          rcases hold with h1 | ⟨u1, v1, κ, h1, -, h3⟩
          · exact h1
          · simp only [Par.cutting, Option.some.injEq, Prod.mk.injEq] at h1
            obtain ⟨rfl, rfl, rfl⟩ := h1
            rcases h3 with ⟨h4, h5⟩ | ⟨h4, h5⟩
            · exact (h4.trans_same hnd huv).trans_same hnd h5
            · exact (h4.trans_same hnd huv.symm_same).trans_same hnd h5
        unfold Joined
        rw [htours, if_pos rfl]
        rcases cut_split hp hs hne hsame with h1 | ⟨h1, h3⟩ | ⟨h1, h3⟩
        · exact Or.inl h1
        · exact Or.inr ⟨u, v, cl, rfl, hlc, Or.inr ⟨⟨S, hSm, h1, hvS⟩, ⟨U, hUm, huU, h3⟩⟩⟩
        · exact Or.inr ⟨u, v, cl, rfl, hlc, Or.inl ⟨⟨U, hUm, h1, huU⟩, ⟨S, hSm, hvS, h3⟩⟩⟩
      · unfold Joined
        rw [htours, if_neg h2]
        exact hold
    cnt1 := by
      have h1 := hA.cnt1
      simp only [Par.cutting] at h1 ⊢
      rw [if_neg (by omega)] at h1
      rw [htours]
      by_cases h0 : l = 0
      · subst h0
        rw [if_pos rfl, if_pos (show ((0 : Nat) : Int) - 1 < 0 by omega)]
        have := hp.length_eq
        simp only [List.length_cons] at this ⊢
        show V.comps + 1 = _
        push_cast
        rw [this] at h1
        push_cast at h1
        omega
      · rw [if_neg (show ¬ (0 = l) from fun h => h0 h.symm),
          if_neg (show ¬ ((l : Int) - 1 < 0) by omega)]
        exact h1
    rfact := fun _ _ h => Option.noConfusion h }

/-- A tree edge registered at level `l + 1` is registered at level `l`, when the levels
allowed to it are closed downwards. -/
theorem Abs.sub_of_W {V : View} {P : Par} (hA : Abs V P) {l : Nat} (hl : l + 1 < V.L)
    (hW : ∀ k, P.W k (l + 1) → P.W k l) :
    ∀ a b, a ≠ b → (a, b) ∈ (V.tours (l + 1)).flatten → (a, b) ∈ (V.tours l).flatten := by
  intro a b hab h
  obtain ⟨⟨lv, h1, h2⟩, h3⟩ := (hA.reg (l + 1) hl a b hab).mp h
  refine (hA.reg l (by omega) a b hab).mpr ⟨⟨lv, h1, ?_⟩, hW _ h3⟩
  push_cast at h2
  omega

/-- Vertices on one tour of level `l + 1` are on one tour of level `l`. -/
theorem Abs.nest_step {V : View} {P : Par} (hA : Abs V P) {l : Nat} (hl : l + 1 < V.L)
    (hsub : ∀ a b, a ≠ b → (a, b) ∈ (V.tours (l + 1)).flatten → (a, b) ∈ (V.tours l).flatten)
    {a b : Int} (h : SameT (V.tours (l + 1)) a b) : SameT (V.tours l) a b := by
  obtain ⟨s, hs, ha, hb⟩ := h
  have hpath := (hA.et _ s hs).connected a b ha hb
  have ha0 : (a, a) ∈ (V.tours l).flatten :=
    (hA.verts l (by omega) a).mpr ((hA.verts (l + 1) hl a).mp (List.mem_flatten.mpr ⟨s, hs, ha⟩))
  clear hb
  induction hpath with
  | refl => exact SameT.refl_same ha0
  | @tail x y _ hxy ih =>
    by_cases hxy1 : x = y
    · rw [← hxy1]; exact ih
    · have h1 := hsub x y hxy1 (List.mem_flatten.mpr ⟨s, hs, hxy⟩)
      exact ih.trans_same (hA.nodup l) (sameT_of_key (hA.et l) h1)

/-- Vertices on one tour of level `l` are on one tour of level 0. -/
theorem Abs.nest {V : View} {P : Par} (hA : Abs V P) :
    ∀ (l : Nat), l < V.L →
      (∀ l1, l1 < l → ∀ a b, a ≠ b → (a, b) ∈ (V.tours (l1 + 1)).flatten →
        (a, b) ∈ (V.tours l1).flatten) →
      ∀ {a b : Int}, SameT (V.tours l) a b → SameT (V.tours 0) a b
  | 0, _, _, _, _, h => h
  | l + 1, hl, hsub, _, _, h =>
    hA.nest l (by omega) (fun l1 h1 => hsub l1 (by omega))
      (hA.nest_step hl (hsub l (by omega)) h)

/-- Vertices on one tour of level `l` are on one tour of every level below. -/
theorem Abs.nest_to {V : View} {P : Par} (hA : Abs V P) {k : Nat} :
    ∀ (l : Nat), l < V.L → k ≤ l →
      (∀ l1, k ≤ l1 → l1 < l → ∀ a b, a ≠ b → (a, b) ∈ (V.tours (l1 + 1)).flatten →
        (a, b) ∈ (V.tours l1).flatten) →
      ∀ {a b : Int}, SameT (V.tours l) a b → SameT (V.tours k) a b
  | 0, _, hk, _, _, _, h => by
    have : k = 0 := by omega
    subst this; exact h
  | l + 1, hl, hk, hsub, _, _, h => by
    by_cases hkl : k = l + 1
    · subst hkl; exact h
    · exact hA.nest_to l (by omega) (by omega) (fun l1 h1 h2 => hsub l1 h1 (by omega))
        (hA.nest_step hl (hsub l (by omega) (by omega)) h)

/-- The endpoints of a tree edge of level exactly `l` lie on different tours of level
`l + 1`: the tours are trees. -/
theorem Abs.promote_apart {V : View} {P : Par} (hA : Abs V P) {l : Nat} (hl : l + 1 < V.L)
    (hsub : ∀ a b, a ≠ b → (a, b) ∈ (V.tours (l + 1)).flatten → (a, b) ∈ (V.tours l).flatten)
    {a b : Int} (hab : a ≠ b) (hlv : V.lvT.find (a, b) = some (l : Int))
    (hk : (a, b) ∈ (V.tours l).flatten) : ¬ SameT (V.tours (l + 1)) a b := by
  intro hsame
  obtain ⟨s, hs, hks⟩ := List.mem_flatten.mp hk
  obtain ⟨s1, hs1, ha1, hb1⟩ := hsame
  have hpath := (hA.et _ s1 hs1).connected a b ha1 hb1
  have has : (a, a) ∈ s := ((hA.et l s hs).self_mem a b hks).1
  have hnot : ∀ c d, (c, d) = (a, b) ∨ (c, d) = (b, a) → c ≠ d →
      (c, d) ∉ (V.tours (l + 1)).flatten := by
    intro c d hcd hne h
    obtain ⟨⟨lv, h1, h2⟩, -⟩ := (hA.reg (l + 1) hl c d hne).mp h
    have h3 : V.lvT.find (c, d) = some (l : Int) := by
      rcases hcd with h4 | h4
      · rw [h4]; exact hlv
      · rw [h4, hA.symT b a]; exact hlv
    rw [h3] at h1
    have := Option.some.inj h1
    push_cast at h2
    omega
  refine (hA.et l s hs).acyclic ((List.nodup_flatten.mp (hA.nodup l)).1 s hs) hks hab
    (R := fun x y => (x, y) ∈ s1) ?_ hpath
  intro x y hxy
  have hx1 : (x, x) ∈ s1 := ((hA.et _ s1 hs1).self_mem x y hxy).1
  have hxa : SameT (V.tours l) x a := hA.nest_step hl hsub ⟨s1, hs1, hx1, ha1⟩
  have hxs : (x, x) ∈ s := by
    obtain ⟨s2, hs2, h1, h2⟩ := hxa
    rw [tour_unique (hA.nodup l) hs hs2 has h2]
    exact h1
  by_cases hne : x = y
  · subst hne
    refine ⟨hxs, fun h => hab ?_, fun h => hab ?_⟩
    · exact (Prod.mk.inj h).1.symm.trans (Prod.mk.inj h).2
    · exact (Prod.mk.inj h).2.symm.trans (Prod.mk.inj h).1
  · have h1 : (x, y) ∈ (V.tours (l + 1)).flatten := List.mem_flatten.mpr ⟨s1, hs1, hxy⟩
    have h2 := hsub x y hne h1
    obtain ⟨s2, hs2, h3⟩ := List.mem_flatten.mp h2
    have h4 := ((hA.et l s2 hs2).self_mem x y h3).1
    rw [tour_unique (hA.nodup l) hs2 hs h4 hxs] at h3
    exact ⟨h3, fun h => hnot x y (Or.inl h) hne h1, fun h => hnot x y (Or.inr h) hne h1⟩

theorem flatten_singletons {α β : Type} (f : α → β) (xs : List α) :
    (xs.map (fun i => [f i])).flatten = xs.map f := by
  induction xs with
  | nil => rfl
  | cons x xs ih => simp only [List.map_cons, List.flatten_cons, ih, List.singleton_append]

theorem mem_fresh_level {n : Int} (k : Int × Int) :
    k ∈ ((List.range n.toNat).map (fun (i : Nat) => [((i : Int), (i : Int))])).flatten ↔
      (k.1 = k.2 ∧ 0 ≤ k.1 ∧ k.1 < n) := by
  rw [flatten_singletons (fun (i : Nat) => ((i : Int), (i : Int)))]
  simp only [List.mem_map, List.mem_range]
  constructor
  · rintro ⟨i, hi, rfl⟩
    refine ⟨rfl, by omega, ?_⟩
    show (i : Int) < n
    omega
  · rintro ⟨h1, h2, h3⟩
    refine ⟨k.1.toNat, by omega, ?_⟩
    obtain ⟨x, y⟩ := k
    simp only at h1 h2 h3
    subst h1
    rw [Int.toNat_of_nonneg h2]

theorem nodup_fresh_level (n : Int) :
    (((List.range n.toNat).map (fun (i : Nat) => [((i : Int), (i : Int))])).flatten).Nodup := by
  rw [flatten_singletons (fun (i : Nat) => ((i : Int), (i : Int)))]
  refine List.Nodup.map ?_ (List.nodup_range _)
  intro i j h
  have := (Prod.mk.inj h).1
  exact_mod_cast this

theorem selfCount_single (i : Int) : selfCount [(i, i)] = 1 := by
  simp [selfCount]

/-- Method `build` adds a forest of single vertices above the others. -/
theorem Abs.build_level {V : View} {P : Par} (hA : Abs V P) (hsz : (2 : Int) ^ V.L ≤ V.n) :
    Abs (View.build { V with mx := V.mx + 1 }) P := by
  have hL := hA.pos_L
  have hmx := hA.mx_len
  have htours : ∀ l, (View.build { V with mx := V.mx + 1 }).tours l =
      if l = V.L then (List.range V.n.toNat).map (fun (i : Nat) => [((i : Int), (i : Int))])
      else V.tours l := fun _ => rfl
  have hdat : ∀ l k, (View.build { V with mx := V.mx + 1 }).dat l k =
      if l = V.L then
        (if k.1 = k.2 ∧ 0 ≤ k.1 ∧ k.1 < V.n then some (false, false, -1) else none)
      else V.dat l k := fun _ _ => rfl
  have hadj : ∀ l a, (View.build { V with mx := V.mx + 1 }).adj l a =
      if l = V.L then [] else V.adj l a := fun _ _ => rfl
  have hlvN : ∀ a b (l : Nat), V.lvN.find (a, b) = some (l : Int) → l ≠ V.L := by
    intro a b l h
    have := (hA.rngN a b _ h).2.2.2.2.2.2
    omega
  exact { hA with
    mx_len := by
      show ((V.L + 1 : Nat) : Int) = V.mx + 1 + 1
      push_cast; omega
    mx_nonneg := by
      show 0 ≤ V.mx + 1
      have := hA.mx_nonneg; omega
    rngT := fun a b lv h => by
      obtain ⟨h1, h2, h3, h4, h5, h6, h7⟩ := hA.rngT a b lv h
      exact ⟨h1, h2, h3, h4, h5, h6, by show lv ≤ V.mx + 1; omega⟩
    rngN := fun a b lv h => by
      obtain ⟨h1, h2, h3, h4, h5, h6, h7⟩ := hA.rngN a b lv h
      exact ⟨h1, h2, h3, h4, h5, h6, by show lv ≤ V.mx + 1; omega⟩
    beyond := fun l h => by
      have h1 : V.L + 1 ≤ l := h
      rw [htours, if_neg (show ¬ (l = V.L) by omega)]
      exact hA.beyond l (by omega)
    et := fun l s h => by
      rw [htours] at h
      by_cases hl : l = V.L
      · rw [if_pos hl] at h
        obtain ⟨i, -, rfl⟩ := List.mem_map.mp h
        exact ET.single _
      · rw [if_neg hl] at h
        exact hA.et l s h
    nodup := fun l => by
      rw [htours]
      by_cases hl : l = V.L
      · rw [if_pos hl]; exact nodup_fresh_level _
      · rw [if_neg hl]; exact hA.nodup l
    verts := fun l h a => by
      have h1 : l < V.L + 1 := h
      rw [htours]
      show _ ↔ (0 ≤ a ∧ a < V.n)
      by_cases hl : l = V.L
      · rw [if_pos hl, mem_fresh_level]
        exact ⟨fun h => h.2, fun h => ⟨rfl, h⟩⟩
      · rw [if_neg hl]
        exact hA.verts l (by omega) a
    reg := fun l h a b hab => by
      have h1 : l < V.L + 1 := h
      rw [htours]
      show _ ↔ ((∃ lv, V.lvT.find (a, b) = some lv ∧ (l : Int) ≤ lv) ∧ P.W (a, b) l)
      by_cases hl : l = V.L
      · rw [if_pos hl, mem_fresh_level]
        constructor
        · exact fun h2 => absurd h2.1 hab
        · rintro ⟨⟨lv, h2, h3⟩, -⟩
          have := (hA.rngT a b lv h2).2.2.2.2.2.2
          omega
      · rw [if_neg hl]
        exact hA.reg l (by omega) a b hab
    size := fun l s h => by
      rw [htours] at h
      show 2 ^ l * (selfCount s : Int) ≤ V.n
      by_cases hl : l = V.L
      · rw [if_pos hl] at h
        obtain ⟨i, -, rfl⟩ := List.mem_map.mp h
        rw [selfCount_single, hl]
        simpa using hsz
      · rw [if_neg hl] at h
        exact hA.size l s h
    psize := fun u v κ h l s1 s2 hl hs1 hs2 => by
      have h1 := (hA.pefact u v κ h).2.2.1
      rw [htours, if_neg (show ¬ (l = V.L) by omega)] at hs1 hs2
      exact hA.psize u v κ h l s1 s2 hl hs1 hs2
    sep0 := fun u v κ h hs => by
      rw [htours, if_neg (show ¬ (0 = V.L) by omega)]
      exact hA.sep0 u v κ h hs
    dat_iff := fun l k => by
      rw [hdat, htours]
      by_cases hl : l = V.L
      · rw [if_pos hl, if_pos hl, mem_fresh_level]
        by_cases hk : k.1 = k.2 ∧ 0 ≤ k.1 ∧ k.1 < V.n
        · rw [if_pos hk]
          exact ⟨fun _ => hk, fun _ => rfl⟩
        · rw [if_neg hk]
          exact ⟨fun h => Bool.noConfusion h, fun h => absurd h hk⟩
      · rw [if_neg hl, if_neg hl]
        exact hA.dat_iff l k
    dself := fun l a m f x hd => by
      rw [hdat] at hd
      rw [hadj]
      by_cases hl : l = V.L
      · rw [if_pos hl] at hd ⊢
        split at hd
        · simp only [Option.some.injEq, Prod.mk.injEq] at hd
          obtain ⟨rfl, rfl, -⟩ := hd
          exact ⟨rfl, fun h => absurd rfl h, fun h => Bool.noConfusion h⟩
        · exact Option.noConfusion hd
      · rw [if_neg hl] at hd ⊢
        exact hA.dself l a m f x hd
    dedge := fun l a b m f x hab hd => by
      rw [hdat] at hd
      by_cases hl : l = V.L
      · rw [if_pos hl, if_neg (fun h => hab h.1)] at hd
        exact Option.noConfusion hd
      · rw [if_neg hl] at hd
        exact hA.dedge l a b m f x hab hd
    adj_sound := fun l a b h => by
      rw [hadj] at h
      by_cases hl : l = V.L
      · rw [if_pos hl] at h
        exact absurd h (List.not_mem_nil _)
      · rw [if_neg hl] at h
        exact hA.adj_sound l a b h
    adj_compl := fun l a b h => by
      rw [hadj, if_neg (hlvN a b l h)]
      exact hA.adj_compl l a b h
    adj_out := fun a b h l => by
      rw [hadj, hadj]
      by_cases hl : l = V.L
      · rw [if_pos hl, if_pos hl]
        exact ⟨List.not_mem_nil _, List.not_mem_nil _⟩
      · rw [if_neg hl, if_neg hl]
        exact hA.adj_out a b h l
    adj_nodup := fun l a => by
      rw [hadj]
      by_cases hl : l = V.L
      · rw [if_pos hl]; exact List.nodup_nil
      · rw [if_neg hl]; exact hA.adj_nodup l a
    conn := fun a b l h => by
      have := hA.conn a b l h
      unfold Joined at this ⊢
      rw [htours, if_neg (hlvN a b l h)]
      exact this
    cnt1 := by
      rw [htours, if_neg (show ¬ (0 = V.L) by omega)]
      exact hA.cnt1
    rfact := fun a b h => by
      rw [htours, if_neg (show ¬ (0 = V.L) by omega)]
      exact hA.rfact a b h
    pefact := fun u v κ h => by
      obtain ⟨h1, h2, h3, h4⟩ := hA.pefact u v κ h
      exact ⟨h1, h2, by show κ ≤ V.mx + 1; omega, h4⟩ }

theorem cast_succ_int (l : Nat) : ((l + 1 : Nat) : Int) = (l : Int) + 1 := by
  push_cast; rfl

/-- A tree edge of level `l` on the smaller tree is promoted to level `l + 1`. -/
theorem Abs.promote_tree {V : View} {E : List (Int × Int)} {u v : Int} {r : Option (Int × Int)}
    {l : Nat} (hA : Abs V (Par.search E u v l r)) (hl : l + 1 < V.L) {a b : Int} (hab : a < b)
    {f : Bool} {x : Int} (hd : V.dat l (a, b) = some (true, f, x))
    {s1 : List (Int × Int)} (hs1 : s1 ∈ V.tours l) (hk : (a, b) ∈ s1)
    (hT1 : 2 ^ (l + 1) * (selfCount s1 : Int) ≤ V.n)
    {sA sB A B : List (Int × Int)} {rest : List (List (Int × Int))}
    (hp : (V.tours (l + 1)).Perm (sA :: sB :: rest))
    (hrA : sA.IsRotated ((a, a) :: A)) (hrB : sB.IsRotated ((b, b) :: B)) :
    Abs { (V.unmin l (a, b)).link (l + 1) a b ((l : Int) + 1) A B rest with
          lvT := (V.lvT.set (a, b) ((l : Int) + 1)).set (b, a) ((l : Int) + 1) }
      (Par.search E u v l r) := by
  have hne : a ≠ b := ne_of_lt hab
  have hnba : ¬ b < a := not_lt_of_lt hab
  have hl0 : l < V.L := by omega
  obtain ⟨hf, hm, hx⟩ := hA.dedge l a b true f x hne hd
  have hlv : V.lvT.find (a, b) = some (l : Int) := (hm.mp rfl).2
  have hlv1 : V.lvT.find (b, a) = some (l : Int) := (hA.symT b a).trans hlv
  have hkf : (a, b) ∈ (V.tours l).flatten := List.mem_flatten.mpr ⟨s1, hs1, hk⟩
  have hsub := hA.sub_of_W hl (fun _ h => h)
  have hkab : (a, b) ∉ (V.tours (l + 1)).flatten := by
    intro h
    obtain ⟨⟨lv, h1, h2⟩, -⟩ := (hA.reg (l + 1) hl a b hne).mp h
    rw [hlv] at h1
    have := Option.some.inj h1
    push_cast at h2
    omega
  have hkba : (b, a) ∉ (V.tours (l + 1)).flatten := by
    intro h
    obtain ⟨⟨lv, h1, h2⟩, -⟩ := (hA.reg (l + 1) hl b a (fun h => hne h.symm)).mp h
    rw [hlv1] at h1
    have := Option.some.inj h1
    push_cast at h2
    omega
  have hfind : ∀ k, LevelMap.find ((V.lvT.set (a, b) ((l : Int) + 1)).set (b, a)
      ((l : Int) + 1)) k =
      if k = (b, a) then some ((l : Int) + 1) else if k = (a, b) then some ((l : Int) + 1)
      else LevelMap.find V.lvT k :=
    fun k => by rw [LevelMap.find_set, LevelMap.find_set]
  have hsome : ∀ k, (LevelMap.find ((V.lvT.set (a, b) ((l : Int) + 1)).set (b, a)
      ((l : Int) + 1)) k).isSome = (V.lvT.find k).isSome := by
    intro k
    rw [hfind]
    by_cases h1 : k = (b, a)
    · rw [if_pos h1, h1, hlv1]; rfl
    · by_cases h2 : k = (a, b)
      · rw [if_neg h1, if_pos h2, h2, hlv]; rfl
      · rw [if_neg h1, if_neg h2]
  have htours : ∀ l1, ((V.unmin l (a, b)).link (l + 1) a b ((l : Int) + 1) A B rest).tours l1 =
      if l1 = l + 1 then ((a, a) :: A ++ (a, b) :: ((b, b) :: B ++ [(b, a)])) :: rest
      else V.tours l1 := fun _ => rfl
  have hdat : ∀ l1 k, ((V.unmin l (a, b)).link (l + 1) a b ((l : Int) + 1) A B rest).dat l1 k =
      if l1 = l + 1 then
        (if k = (b, a) then some (false, false, (l : Int) + 1)
         else if k = (a, b) then some (true, false, (l : Int) + 1) else V.dat (l + 1) k)
      else if l1 = l ∧ k = (a, b) then some (false, f, x) else V.dat l1 k := by
    intro l1 k
    simp only [View.link, View.setLevel, View.unmin, cast_succ_int, decide_True, hab, hnba,
      decide_False, Bool.and_false, Bool.and_true, Bool.true_and]
    by_cases h1 : l1 = l + 1
    · rw [if_pos h1, if_pos h1]
      have : ¬ (l + 1 = l ∧ k = (a, b)) := fun h => by omega
      rw [if_neg this]
    · rw [if_neg h1, if_neg h1]
      by_cases h2 : l1 = l ∧ k = (a, b)
      · obtain ⟨rfl, rfl⟩ := h2
        rw [if_pos ⟨rfl, rfl⟩, if_pos ⟨rfl, rfl⟩, hd]
        rfl
      · rw [if_neg h2, if_neg h2]
  have hkeys := link_mem hp hrA hrB
  have hsAm : sA ∈ V.tours (l + 1) := hp.mem_iff.mpr (List.mem_cons_self _ _)
  have hsBm : sB ∈ V.tours (l + 1) :=
    hp.mem_iff.mpr (List.mem_cons_of_mem _ (List.mem_cons_self _ _))
  have hrestm : ∀ s ∈ rest, s ∈ V.tours (l + 1) := fun s hs =>
    hp.mem_iff.mpr (List.mem_cons_of_mem _ (List.mem_cons_of_mem _ hs))
  have hnd1 := link_nodup hp hrA hrB (hA.nodup (l + 1)) hne hkab hkba
  obtain ⟨has1, hbs1⟩ := (hA.et l s1 hs1).self_mem a b hk
  have hin : ∀ c, SameT (V.tours (l + 1)) c a ∨ SameT (V.tours (l + 1)) c b → (c, c) ∈ s1 := by
    intro c hc
    rcases hc with hc | hc
    · obtain ⟨s2, hs2, h1, h2⟩ := hA.nest_step hl hsub hc
      rw [tour_unique (hA.nodup l) hs1 hs2 has1 h2]
      exact h1
    · obtain ⟨s2, hs2, h1, h2⟩ := hA.nest_step hl hsub hc
      rw [tour_unique (hA.nodup l) hs1 hs2 hbs1 h2]
      exact h1
  exact { hA with
    keysT := LevelMap.nodup_set (LevelMap.nodup_set hA.keysT _ _) _ _
    symT := fun c d => by
      show LevelMap.find ((V.lvT.set (a, b) ((l : Int) + 1)).set (b, a) ((l : Int) + 1)) (c, d) =
        LevelMap.find ((V.lvT.set (a, b) ((l : Int) + 1)).set (b, a) ((l : Int) + 1)) (d, c)
      rw [hfind, hfind]
      simp only [Prod.mk.injEq]
      by_cases h1 : c = b ∧ d = a
      · simp [h1]
      · by_cases h2 : c = a ∧ d = b
        · simp [h2]
        · have h3 : ¬ (d = b ∧ c = a) := fun h => h2 ⟨h.2, h.1⟩
          have h4 : ¬ (d = a ∧ c = b) := fun h => h1 ⟨h.2, h.1⟩
          rw [if_neg h1, if_neg h2, if_neg h3, if_neg h4]
          exact hA.symT c d
    excl := fun k hk1 => by
      have h1 : (LevelMap.find ((V.lvT.set (a, b) ((l : Int) + 1)).set (b, a)
        ((l : Int) + 1)) k).isSome = true := hk1
      rw [hsome] at h1
      exact hA.excl k h1
    rngT := fun c d lv h => by
      have h0 : LevelMap.find ((V.lvT.set (a, b) ((l : Int) + 1)).set (b, a)
        ((l : Int) + 1)) (c, d) = some lv := h
      have hmx := hA.mx_len
      rw [hfind] at h0
      by_cases h1 : (c, d) = (b, a)
      · rw [if_pos h1] at h0
        obtain ⟨rfl, rfl⟩ := Prod.mk.inj h1
        obtain ⟨h2, h3, h4, h5, h6, h7, h8⟩ := hA.rngT c d _ hlv1
        have := Option.some.inj h0
        exact ⟨h2, h3, h4, h5, h6, by omega, by show lv ≤ V.mx; omega⟩
      · rw [if_neg h1] at h0
        by_cases h2 : (c, d) = (a, b)
        · rw [if_pos h2] at h0
          obtain ⟨rfl, rfl⟩ := Prod.mk.inj h2
          obtain ⟨h2, h3, h4, h5, h6, h7, h8⟩ := hA.rngT c d _ hlv
          have := Option.some.inj h0
          exact ⟨h2, h3, h4, h5, h6, by omega, by show lv ≤ V.mx; omega⟩
        · rw [if_neg h2] at h0
          exact hA.rngT c d lv h0
    pres := fun c d => by
      show present E c d = true ↔
        ((LevelMap.find ((V.lvT.set (a, b) ((l : Int) + 1)).set (b, a)
          ((l : Int) + 1)) (c, d)).isSome = true ∨ (V.lvN.find (c, d)).isSome = true)
      rw [hsome]
      exact hA.pres c d
    beyond := fun l1 h => by
      have h1 : V.L ≤ l1 := h
      rw [htours, if_neg (show ¬ (l1 = l + 1) by omega)]
      exact hA.beyond l1 h
    et := fun l1 s h => by
      rw [htours] at h
      by_cases h1 : l1 = l + 1
      · rw [if_pos h1] at h
        rcases List.mem_cons.mp h with rfl | h
        · exact link_tour_et (hA.et _ sA hsAm) (hA.et _ sB hsBm) hrA hrB
        · exact hA.et _ s (hrestm s h)
      · rw [if_neg h1] at h
        exact hA.et l1 s h
    nodup := fun l1 => by
      rw [htours]
      by_cases h1 : l1 = l + 1
      · rw [if_pos h1]; exact hnd1
      · rw [if_neg h1]; exact hA.nodup l1
    verts := fun l1 h c => by
      rw [htours]
      by_cases h1 : l1 = l + 1
      · rw [if_pos h1, hkeys]
        show _ ↔ (0 ≤ c ∧ c < V.n)
        rw [← hA.verts (l + 1) hl c]
        constructor
        · rintro (h2 | h2 | h2)
          · exact h2
          · exact absurd ((Prod.mk.inj h2).1.symm.trans (Prod.mk.inj h2).2) hne
          · exact absurd ((Prod.mk.inj h2).2.symm.trans (Prod.mk.inj h2).1) hne
        · exact Or.inl
      · rw [if_neg h1]; exact hA.verts l1 h c
    reg := fun l1 h c d hcd => by
      have h0 : l1 < V.L := h
      rw [htours]
      show _ ↔ ((∃ lv, LevelMap.find ((V.lvT.set (a, b) ((l : Int) + 1)).set (b, a)
        ((l : Int) + 1)) (c, d) = some lv ∧ (l1 : Int) ≤ lv) ∧ ((c, d) ≠ (u, v) ∧ (c, d) ≠ (v, u)))
      rw [hfind]
      have hold := hA.reg l1 h0 c d hcd
      have hW := ((hA.reg l hl0 a b hne).mp hkf).2
      have hW1 : (b, a) ≠ (u, v) ∧ (b, a) ≠ (v, u) :=
        ⟨fun h1 => hW.2 (by obtain ⟨rfl, rfl⟩ := Prod.mk.inj h1; rfl),
         fun h1 => hW.1 (by obtain ⟨rfl, rfl⟩ := Prod.mk.inj h1; rfl)⟩
      by_cases h1 : (c, d) = (b, a)
      · rw [if_pos h1]
        by_cases h2 : l1 = l + 1
        · rw [if_pos h2, hkeys, h1]
          exact ⟨fun _ => ⟨⟨_, rfl, by rw [h2]; push_cast; omega⟩, hW1⟩, fun _ => Or.inr (Or.inr rfl)⟩
        · rw [if_neg h2, hold, h1, hlv1]
          constructor
          · rintro ⟨⟨lv, h3, h4⟩, h5⟩
            have := Option.some.inj h3
            exact ⟨⟨_, rfl, by omega⟩, h5⟩
          · rintro ⟨⟨lv, h3, h4⟩, h5⟩
            have := Option.some.inj h3
            refine ⟨⟨_, rfl, ?_⟩, h5⟩
            have : (l1 : Int) ≠ (l : Int) + 1 := fun h6 => h2 (by omega)
            omega
      · rw [if_neg h1]
        by_cases h3 : (c, d) = (a, b)
        · rw [if_pos h3]
          by_cases h2 : l1 = l + 1
          · rw [if_pos h2, hkeys, h3]
            exact ⟨fun _ => ⟨⟨_, rfl, by rw [h2]; push_cast; omega⟩, hW⟩, fun _ => Or.inr (Or.inl rfl)⟩
          · rw [if_neg h2, hold, h3, hlv]
            constructor
            · rintro ⟨⟨lv, h3, h4⟩, h5⟩
              have := Option.some.inj h3
              exact ⟨⟨_, rfl, by omega⟩, h5⟩
            · rintro ⟨⟨lv, h3, h4⟩, h5⟩
              have := Option.some.inj h3
              refine ⟨⟨_, rfl, ?_⟩, h5⟩
              have : (l1 : Int) ≠ (l : Int) + 1 := fun h6 => h2 (by omega)
              omega
        · rw [if_neg h3]
          by_cases h2 : l1 = l + 1
          · rw [if_pos h2, hkeys, ← h2, hold]
            constructor
            · rintro (h4 | h4 | h4)
              · exact h4
              · exact absurd h4 h3
              · exact absurd h4 h1
            · exact Or.inl
          · rw [if_neg h2]
            exact hold
    size := fun l1 s h => by
      rw [htours] at h
      show 2 ^ l1 * (selfCount s : Int) ≤ V.n
      by_cases h1 : l1 = l + 1
      · rw [if_pos h1] at h
        rcases List.mem_cons.mp h with rfl | h
        · rw [h1]
          refine size_mono (selfCount_le_subset ((List.nodup_flatten.mp hnd1).1 _
            (List.mem_cons_self _ _)) ?_) hT1
          intro c hc
          simp only [List.cons_append, List.mem_cons, List.mem_append, Prod.mk.injEq,
            List.mem_singleton, List.not_mem_nil, or_false] at hc
          rcases hc with ⟨h2, -⟩ | h2 | ⟨h2, h3⟩ | ⟨h2, -⟩ | h2 | ⟨h2, h3⟩
          · rw [h2]; exact has1
          · exact hin c (Or.inl ⟨sA, hsAm, hrA.mem_iff.mpr (List.mem_cons_of_mem _ h2),
              hrA.mem_iff.mpr (List.mem_cons_self _ _)⟩)
          · exact absurd (h2.symm.trans h3) hne
          · rw [h2]; exact hbs1
          · exact hin c (Or.inr ⟨sB, hsBm, hrB.mem_iff.mpr (List.mem_cons_of_mem _ h2),
              hrB.mem_iff.mpr (List.mem_cons_self _ _)⟩)
          · exact absurd (h3.symm.trans h2) hne
        · rw [h1]
          exact hA.size (l + 1) s (hrestm s h)
      · rw [if_neg h1] at h
        exact hA.size l1 s h
    psize := fun u1 v1 κ h l1 s2 s3 hl1 hs2 hs3 => by
      have h0 := h
      simp only [Par.search, Option.some.injEq, Prod.mk.injEq] at h0
      obtain ⟨-, -, rfl⟩ := h0
      rw [htours, if_neg (show ¬ (l1 = l + 1) by omega)] at hs2 hs3
      exact hA.psize u1 v1 _ h l1 s2 s3 hl1 hs2 hs3
    sep0 := fun u1 v1 κ h hs => by
      rw [htours, if_neg (show ¬ (0 = l + 1) by omega)]
      exact hA.sep0 u1 v1 κ h hs
    dat_iff := fun l1 k => by
      rw [hdat, htours]
      by_cases h1 : l1 = l + 1
      · rw [if_pos h1, if_pos h1, hkeys]
        by_cases h2 : k = (b, a)
        · rw [if_pos h2]
          exact ⟨fun _ => Or.inr (Or.inr h2), fun _ => rfl⟩
        · rw [if_neg h2]
          by_cases h3 : k = (a, b)
          · rw [if_pos h3]
            exact ⟨fun _ => Or.inr (Or.inl h3), fun _ => rfl⟩
          · rw [if_neg h3, hA.dat_iff]
            constructor
            · exact Or.inl
            · rintro (h4 | h4 | h4)
              · exact h4
              · exact absurd h4 h3
              · exact absurd h4 h2
      · rw [if_neg h1, if_neg h1]
        by_cases h2 : l1 = l ∧ k = (a, b)
        · rw [if_pos h2, h2.1, h2.2]
          exact ⟨fun _ => hkf, fun _ => rfl⟩
        · rw [if_neg h2]
          exact hA.dat_iff l1 k
    dself := fun l1 c m1 f1 x1 h => by
      rw [hdat] at h
      have hx1 : ((c, c) : Int × Int) ≠ (b, a) :=
        fun h => hne ((Prod.mk.inj h).2.symm.trans (Prod.mk.inj h).1)
      have hx2 : ((c, c) : Int × Int) ≠ (a, b) :=
        fun h => hne ((Prod.mk.inj h).1.symm.trans (Prod.mk.inj h).2)
      have h1 : V.dat l1 (c, c) = some (m1, f1, x1) := by
        by_cases h2 : l1 = l + 1
        · rw [if_pos h2, if_neg hx1, if_neg hx2] at h
          rw [h2]; exact h
        · rw [if_neg h2, if_neg (fun h3 => hx2 h3.2)] at h
          exact h
      exact hA.dself l1 c m1 f1 x1 h1
    dedge := fun l1 c d m1 f1 x1 hcd h => by
      rw [hdat] at h
      show f1 = false ∧ (m1 = true ↔ (c < d ∧ LevelMap.find ((V.lvT.set (a, b)
        ((l : Int) + 1)).set (b, a) ((l : Int) + 1)) (c, d) = some (l1 : Int))) ∧
        (m1 = true → x1 = (l1 : Int))
      rw [hfind]
      by_cases h1 : l1 = l + 1
      · rw [if_pos h1] at h
        by_cases h2 : (c, d) = (b, a)
        · rw [if_pos h2] at h
          obtain ⟨rfl, rfl⟩ := Prod.mk.inj h2
          simp only [Option.some.injEq, Prod.mk.injEq] at h
          obtain ⟨rfl, rfl, rfl⟩ := h
          simp [hnba]
        · rw [if_neg h2] at h
          by_cases h3 : (c, d) = (a, b)
          · rw [if_pos h3] at h
            obtain ⟨rfl, rfl⟩ := Prod.mk.inj h3
            simp only [Option.some.injEq, Prod.mk.injEq] at h
            obtain ⟨rfl, rfl, rfl⟩ := h
            rw [if_neg h2, if_pos rfl, h1]
            simp [hab]
          · rw [if_neg h3] at h
            rw [if_neg h2, if_neg h3, h1]
            exact hA.dedge (l + 1) c d m1 f1 x1 hcd h
      · rw [if_neg h1] at h
        by_cases h2 : (c, d) = (b, a)
        · obtain ⟨rfl, rfl⟩ := Prod.mk.inj h2
          rw [if_neg (fun h3 => hne (Prod.mk.inj h3.2).1.symm)] at h
          obtain ⟨h4, h5, h6⟩ := hA.dedge l1 c d m1 f1 x1 hcd h
          refine ⟨h4, ?_, h6⟩
          rw [if_pos rfl]
          constructor
          · exact fun h7 => absurd (h5.mp h7).1 hnba
          · exact fun h7 => absurd h7.1 hnba
        · by_cases h3 : (c, d) = (a, b)
          · obtain ⟨rfl, rfl⟩ := Prod.mk.inj h3
            rw [if_neg h2, if_pos rfl]
            by_cases h7 : l1 = l
            · rw [if_pos ⟨h7, rfl⟩] at h
              simp only [Option.some.injEq, Prod.mk.injEq] at h
              obtain ⟨rfl, rfl, rfl⟩ := h
              refine ⟨hf, ?_, fun h8 => Bool.noConfusion h8⟩
              constructor
              · exact fun h8 => Bool.noConfusion h8
              · rintro ⟨-, h8⟩
                have := Option.some.inj h8
                omega
            · rw [if_neg (fun h8 => h7 h8.1)] at h
              obtain ⟨h4, h5, h6⟩ := hA.dedge l1 c d m1 f1 x1 hcd h
              refine ⟨h4, ?_, h6⟩
              constructor
              · intro h8
                have h9 := (h5.mp h8).2
                rw [hlv] at h9
                have := Option.some.inj h9
                omega
              · rintro ⟨-, h8⟩
                have := Option.some.inj h8
                omega
          · rw [if_neg (fun h4 => h3 h4.2)] at h
            rw [if_neg h2, if_neg h3]
            exact hA.dedge l1 c d m1 f1 x1 hcd h
    conn := fun c d l1 h => by
      have hold := hA.conn c d l1 h
      unfold Joined at hold ⊢
      rw [htours]
      by_cases h1 : l1 = l + 1
      · rw [if_pos h1]
        rcases hold with h2 | ⟨u1, v1, κ, h2, h3, -⟩
        · rw [h1] at h2
          exact Or.inl (link_same hp hrA hrB h2)
        · simp only [Par.search, Option.some.injEq, Prod.mk.injEq] at h2
          obtain ⟨-, -, rfl⟩ := h2
          omega
      · rw [if_neg h1]
        exact hold
    cnt1 := by
      rw [htours, if_neg (show ¬ (0 = l + 1) by omega)]
      exact hA.cnt1
    cnt2 := by
      have h0 := hA.cnt2
      have h1 := LevelMap.length_set hA.keysT (a, b) ((l : Int) + 1)
      have h2 := LevelMap.length_set (LevelMap.nodup_set hA.keysT (a, b) ((l : Int) + 1))
        (b, a) ((l : Int) + 1)
      have e : LevelMap.find (LevelMap.set V.lvT (a, b) ((l : Int) + 1)) (b, a) =
          some (l : Int) := by
        rw [LevelMap.find_set, if_neg (fun h => hne (Prod.mk.inj h).1.symm)]
        exact hlv1
      rw [e] at h2
      rw [hlv] at h1
      simp only [Option.isSome_some, if_true] at h1 h2
      show 2 * (V.n - V.comps) + _ = ((LevelMap.set (LevelMap.set V.lvT (a, b) ((l : Int) + 1))
        (b, a) ((l : Int) + 1)).length : Int)
      have h3 : (LevelMap.set (LevelMap.set V.lvT (a, b) ((l : Int) + 1)) (b, a)
        ((l : Int) + 1)).length = V.lvT.length := by omega
      rw [h3]
      exact h0
    rfact := fun c d h => by
      obtain ⟨h1, h2, h3⟩ := hA.rfact c d h
      refine ⟨h1, ?_, h3⟩
      rw [htours, if_neg (show ¬ (0 = l + 1) by omega)]
      exact h2
    pefact := fun u1 v1 κ h => by
      obtain ⟨h1, h2, h3, h4⟩ := hA.pefact u1 v1 κ h
      refine ⟨h1, h2, h3, ?_⟩
      show (LevelMap.find ((V.lvT.set (a, b) ((l : Int) + 1)).set (b, a)
        ((l : Int) + 1)) (u1, v1)).isSome = true
      rw [hsome]
      exact h4 }

/-- A pending non-tree edge of level `l` is recorded at level `l + 1`. -/
theorem Abs.lvN_raise {V : View} {P : Par} (hA : Abs V P) {l : Nat} {a b : Int}
    (hlv : V.lvN.find (a, b) = some (l : Int)) (hY : P.Y (a, b)) (hl : l + 1 < V.L)
    (hs : SameT (V.tours (l + 1)) a b)
    (hr : ∀ x y, P.r = some (x, y) → (x, y) ≠ (a, b) ∧ (x, y) ≠ (b, a)) :
    Abs { V with lvN := (V.lvN.set (a, b) ((l : Int) + 1)).set (b, a) ((l : Int) + 1) } P := by
  have hne : a ≠ b := (hA.rngN a b _ hlv).1
  have hlv1 : V.lvN.find (b, a) = some (l : Int) := (hA.symN b a).trans hlv
  have hfind : ∀ k, LevelMap.find ((V.lvN.set (a, b) ((l : Int) + 1)).set (b, a)
      ((l : Int) + 1)) k =
      if k = (b, a) then some ((l : Int) + 1) else if k = (a, b) then some ((l : Int) + 1)
      else LevelMap.find V.lvN k :=
    fun k => by rw [LevelMap.find_set, LevelMap.find_set]
  have hsome : ∀ k, (LevelMap.find ((V.lvN.set (a, b) ((l : Int) + 1)).set (b, a)
      ((l : Int) + 1)) k).isSome = (V.lvN.find k).isSome := by
    intro k
    rw [hfind]
    by_cases h1 : k = (b, a)
    · rw [if_pos h1, h1, hlv1]; rfl
    · by_cases h2 : k = (a, b)
      · rw [if_neg h1, if_pos h2, h2, hlv]; rfl
      · rw [if_neg h1, if_neg h2]
  have hout := hA.adj_out a b hY
  have hmx := hA.mx_len
  exact { hA with
    keysN := LevelMap.nodup_set (LevelMap.nodup_set hA.keysN _ _) _ _
    symN := fun c d => by
      show LevelMap.find ((V.lvN.set (a, b) ((l : Int) + 1)).set (b, a) ((l : Int) + 1)) (c, d) =
        LevelMap.find ((V.lvN.set (a, b) ((l : Int) + 1)).set (b, a) ((l : Int) + 1)) (d, c)
      rw [hfind, hfind]
      simp only [Prod.mk.injEq]
      by_cases h1 : c = b ∧ d = a
      · simp [h1]
      · by_cases h2 : c = a ∧ d = b
        · simp [h2]
        · have h3 : ¬ (d = b ∧ c = a) := fun h => h2 ⟨h.2, h.1⟩
          have h4 : ¬ (d = a ∧ c = b) := fun h => h1 ⟨h.2, h.1⟩
          rw [if_neg h1, if_neg h2, if_neg h3, if_neg h4]
          exact hA.symN c d
    excl := fun k hk => by
      have h1 := hA.excl k hk
      show LevelMap.find ((V.lvN.set (a, b) ((l : Int) + 1)).set (b, a) ((l : Int) + 1)) k = none
      have h2 := hsome k
      rw [h1] at h2
      cases h3 : LevelMap.find ((V.lvN.set (a, b) ((l : Int) + 1)).set (b, a) ((l : Int) + 1)) k
      · rfl
      · rw [h3] at h2; exact Bool.noConfusion h2
    rngN := fun c d lv h => by
      have h0 : LevelMap.find ((V.lvN.set (a, b) ((l : Int) + 1)).set (b, a)
        ((l : Int) + 1)) (c, d) = some lv := h
      rw [hfind] at h0
      by_cases h1 : (c, d) = (b, a)
      · rw [if_pos h1] at h0
        obtain ⟨rfl, rfl⟩ := Prod.mk.inj h1
        obtain ⟨h2, h3, h4, h5, h6, h7, h8⟩ := hA.rngN c d _ hlv1
        have := Option.some.inj h0
        exact ⟨h2, h3, h4, h5, h6, by omega, by show lv ≤ V.mx; omega⟩
      · rw [if_neg h1] at h0
        by_cases h2 : (c, d) = (a, b)
        · rw [if_pos h2] at h0
          obtain ⟨rfl, rfl⟩ := Prod.mk.inj h2
          obtain ⟨h2, h3, h4, h5, h6, h7, h8⟩ := hA.rngN c d _ hlv
          have := Option.some.inj h0
          exact ⟨h2, h3, h4, h5, h6, by omega, by show lv ≤ V.mx; omega⟩
        · rw [if_neg h2] at h0
          exact hA.rngN c d lv h0
    pres := fun c d => by
      show present P.E c d = true ↔ ((V.lvT.find (c, d)).isSome = true ∨
        (LevelMap.find ((V.lvN.set (a, b) ((l : Int) + 1)).set (b, a)
          ((l : Int) + 1)) (c, d)).isSome = true)
      rw [hsome]
      exact hA.pres c d
    adj_sound := fun l1 c d h => by
      show LevelMap.find ((V.lvN.set (a, b) ((l : Int) + 1)).set (b, a) ((l : Int) + 1)) (c, d) =
        some (l1 : Int)
      rw [hfind]
      by_cases h1 : (c, d) = (b, a)
      · obtain ⟨rfl, rfl⟩ := Prod.mk.inj h1
        exact absurd h (hout l1).2
      · by_cases h2 : (c, d) = (a, b)
        · obtain ⟨rfl, rfl⟩ := Prod.mk.inj h2
          exact absurd h (hout l1).1
        · rw [if_neg h1, if_neg h2]
          exact hA.adj_sound l1 c d h
    adj_compl := fun l1 c d h => by
      have h0 : LevelMap.find ((V.lvN.set (a, b) ((l : Int) + 1)).set (b, a)
        ((l : Int) + 1)) (c, d) = some (l1 : Int) := h
      rw [hfind] at h0
      by_cases h1 : (c, d) = (b, a)
      · obtain ⟨rfl, rfl⟩ := Prod.mk.inj h1
        exact Or.inr (Or.inr hY)
      · by_cases h2 : (c, d) = (a, b)
        · obtain ⟨rfl, rfl⟩ := Prod.mk.inj h2
          exact Or.inr (Or.inl hY)
        · rw [if_neg h1, if_neg h2] at h0
          exact hA.adj_compl l1 c d h0
    conn := fun c d l1 h => by
      have h0 : LevelMap.find ((V.lvN.set (a, b) ((l : Int) + 1)).set (b, a)
        ((l : Int) + 1)) (c, d) = some (l1 : Int) := h
      rw [hfind] at h0
      by_cases h1 : (c, d) = (b, a)
      · rw [if_pos h1] at h0
        obtain ⟨rfl, rfl⟩ := Prod.mk.inj h1
        have h2 : l1 = l + 1 := by have := Option.some.inj h0; omega
        rw [h2]
        exact Or.inl hs.symm_same
      · by_cases h2 : (c, d) = (a, b)
        · rw [if_neg h1, if_pos h2] at h0
          obtain ⟨rfl, rfl⟩ := Prod.mk.inj h2
          have h2 : l1 = l + 1 := by have := Option.some.inj h0; omega
          rw [h2]
          exact Or.inl hs
        · rw [if_neg h1, if_neg h2] at h0
          exact hA.conn c d l1 h0
    rfact := fun c d h => by
      obtain ⟨h1, h2, h3⟩ := hA.rfact c d h
      refine ⟨h1, h2, fun u v κ hp => ?_⟩
      show LevelMap.find ((V.lvN.set (a, b) ((l : Int) + 1)).set (b, a) ((l : Int) + 1)) (c, d) =
        some κ
      rw [hfind, if_neg (hr c d h).2, if_neg (hr c d h).1]
      exact h3 u v κ hp }

/-- The search settles on a pending edge as the replacement. -/
theorem Abs.set_r {V : View} {P : Par} (hA : Abs V P) {x y : Int} (hY : P.Y (x, y))
    (h0 : ¬ SameT (V.tours 0) x y)
    (hlv : ∀ u v κ, P.pe = some (u, v, κ) → V.lvN.find (x, y) = some κ) :
    Abs V { P with r := some (x, y) } :=
  { hA with
    rfact := fun c d h => by
      have h1 : some (x, y) = some (c, d) := h
      obtain ⟨rfl, rfl⟩ := Prod.mk.inj (Option.some.inj h1)
      exact ⟨hY, h0, hlv⟩ }

/-- After `IncreaseLevel` no tree edge of the smaller tree is left at level `κ`, so its
vertices lie on one tour of level `κ + 1`. -/
theorem Abs.up1 {V : View} {E : List (Int × Int)} {u v : Int} {κ : Nat}
    {r : Option (Int × Int)} (hA : Abs V (Par.search E u v κ r)) {s1 : List (Int × Int)}
    (hs1 : s1 ∈ V.tours κ) (hdone : ∀ k ∈ s1, NoMin V κ k) : Up1 V κ s1 := by
  have hκ : κ < V.L := hA.level_in (hA.pefact u v κ rfl).2.2.1
  have hup : ∀ x y, x ≠ y → (x, y) ∈ s1 → κ + 1 < V.L ∧ SameT (V.tours (κ + 1)) x y := by
    intro x y hxy hk
    have hkf : (x, y) ∈ (V.tours κ).flatten := List.mem_flatten.mpr ⟨s1, hs1, hk⟩
    obtain ⟨⟨lv, h1, h2⟩, hW⟩ := (hA.reg κ hκ x y hxy).mp hkf
    have hlv : lv ≠ (κ : Int) := by
      rintro rfl
      rcases lt_or_gt_of_ne hxy with h3 | h3
      · cases hd : V.dat κ (x, y) with
        | none =>
          have := (hA.dat_iff κ (x, y)).mpr hkf
          rw [hd] at this
          exact Bool.noConfusion this
        | some d =>
          obtain ⟨m, f, z⟩ := d
          have h4 := ((hA.dedge κ x y m f z hxy hd).2.1).mpr ⟨h3, h1⟩
          rw [hdone (x, y) hk m f z hd] at h4
          exact Bool.noConfusion h4
      · have hk1 := (hA.et κ s1 hs1).rev_mem x y hk
        have hkf1 : (y, x) ∈ (V.tours κ).flatten := List.mem_flatten.mpr ⟨s1, hs1, hk1⟩
        cases hd : V.dat κ (y, x) with
        | none =>
          have := (hA.dat_iff κ (y, x)).mpr hkf1
          rw [hd] at this
          exact Bool.noConfusion this
        | some d =>
          obtain ⟨m, f, z⟩ := d
          have h4 := ((hA.dedge κ y x m f z (fun h => hxy h.symm) hd).2.1).mpr
            ⟨h3, (hA.symT y x).trans h1⟩
          rw [hdone (y, x) hk1 m f z hd] at h4
          exact Bool.noConfusion h4
    have hmx := (hA.rngT x y lv h1).2.2.2.2.2.2
    have hL := hA.mx_len
    have hκ1 : κ + 1 < V.L := by omega
    refine ⟨hκ1, sameT_of_key (hA.et (κ + 1)) ((hA.reg (κ + 1) hκ1 x y hxy).mpr
      ⟨⟨lv, h1, ?_⟩, hW⟩)⟩
    push_cast
    omega
  intro a b ha hb hab
  have hpath := (hA.et κ s1 hs1).connected a b ha hb
  have key : a = b ∨ (κ + 1 < V.L ∧ SameT (V.tours (κ + 1)) a b) := by
    clear hb hab
    induction hpath with
    | refl => exact Or.inl rfl
    | @tail x y _ hxy ih =>
      by_cases hxy1 : x = y
      · rw [← hxy1]; exact ih
      · obtain ⟨h1, h2⟩ := hup x y hxy1 hxy
        rcases ih with rfl | ⟨-, h3⟩
        · exact Or.inr ⟨h1, h2⟩
        · exact Or.inr ⟨h1, h3.trans_same (hA.nodup (κ + 1)) h2⟩
  rcases key with h | h
  · exact absurd h hab
  · exact h

/-- The view after the body of the second loop of `BruteforceAdjacentEdges`, in the order
of the statements and in the order of the argument. -/
theorem View.promote_eq (V : View) (κ : Nat) (a b : Int) (N : LevelMap) :
    View.clr { (((V.erase2 κ a b).insert2 (κ + 1) a b).raise (κ + 1) a).raise (κ + 1) b with
      lvN := N } κ b =
    (((View.insert2 { (V.erase2 κ a b).clr κ b with lvN := N } (κ + 1) a b).raise
      (κ + 1) a).raise (κ + 1) b) := by
  have h0 : ¬ (κ = κ + 1) := by omega
  have h1 : ¬ (κ + 1 = κ) := by omega
  apply View.ext <;> try rfl
  funext l k
  simp only [View.clr, View.raise, View.insert2, View.erase2]
  by_cases hl : l = κ
  · subst hl
    simp only [h0, false_and, if_false, true_and]
  · by_cases hl1 : l = κ + 1
    · subst hl1
      simp only [h1, false_and, if_false, true_and]
    · simp only [hl, hl1, false_and, if_false]

theorem ite_or {α : Type} (c : Prop) [Decidable c] (x y : α) :
    (if c then y else x) = x ∨ (if c then y else x) = y := by
  by_cases h : c
  · rw [if_pos h]; exact Or.inr rfl
  · rw [if_neg h]; exact Or.inl rfl

theorem noAdj_mono {V V1 : View} {κ : Nat}
    (h : ∀ k, V1.dat κ k = V.dat κ k ∨
      V1.dat κ k = (V.dat κ k).map (fun d => (d.1, false, d.2.2))) :
    ∀ k, NoAdj V κ k → NoAdj V1 κ k := by
  intro k hk m f x hd
  rcases h k with h1 | h1
  · rw [h1] at hd
    exact hk m f x hd
  · rw [h1] at hd
    cases hd0 : V.dat κ k with
    | none => rw [hd0] at hd; exact Option.noConfusion hd
    | some d =>
      rw [hd0] at hd
      simp only [Option.map_some', Option.some.injEq, Prod.mk.injEq] at hd
      exact hd.2.1.symm

theorem clr_dat (V : View) (l : Nat) (a : Int) (κ : Nat) (k : Int × Int) :
    (V.clr l a).dat κ k = V.dat κ k ∨
      (V.clr l a).dat κ k = (V.dat κ k).map (fun d => (d.1, false, d.2.2)) := by
  by_cases h : κ = l ∧ k = (a, a) ∧ V.adj l a = []
  · right
    show (if κ = l ∧ k = (a, a) ∧ V.adj l a = [] then
      (V.dat κ k).map (fun d => (d.1, false, d.2.2)) else V.dat κ k) = _
    rw [if_pos h]
  · left
    show (if κ = l ∧ k = (a, a) ∧ V.adj l a = [] then
      (V.dat κ k).map (fun d => (d.1, false, d.2.2)) else V.dat κ k) = _
    rw [if_neg h]

/-- Clearing an adjacency flag is a step of the search. -/
theorem StepB.clr_step (κ : Nat) (V : View) (l : Nat) (a : Int) : StepB κ V (V.clr l a) :=
  ⟨rfl, rfl, rfl, noAdj_mono (clr_dat V l a κ)⟩

theorem StepB.of_dat {κ : Nat} {V V1 : View} (ht : V1.tours = V.tours) (hL : V1.L = V.L)
    (hn : V1.n = V.n) (hd : ∀ k, V1.dat κ k = V.dat κ k) : StepB κ V V1 :=
  ⟨ht, hL, hn, noAdj_mono (fun k => Or.inl (hd k))⟩

theorem mem_erase2 (V : View) (l : Nat) {a b : Int} (hne : a ≠ b) (l1 : Nat) (c y : Int) :
    y ∈ (V.erase2 l a b).adj l1 c ↔
      (y ∈ V.adj l1 c ∧ ¬ (l1 = l ∧ ((c = a ∧ y = b) ∨ (c = b ∧ y = a)))) :=
  mem_adj_erase2 V l hne l1 c y

/-- Vertices on one tour of level `l` are on one tour of level 0, when the levels allowed
to tree edges are closed downwards. -/
theorem Abs.nest_zero {V : View} {P : Par} (hA : Abs V P) (hW : ∀ k l, P.W k (l + 1) → P.W k l)
    {l : Nat} (hl : l < V.L) {a b : Int} (h : SameT (V.tours l) a b) :
    SameT (V.tours 0) a b :=
  hA.nest l hl (fun l1 h1 => hA.sub_of_W (by omega) (hW · l1)) h

/-- A neighbour of level `κ` that is connected to the vertex in forest 0 lies on the same
tour of level `κ`: it is not across the edge under removal. -/
theorem Abs.adj_inside {V : View} {P : Par} (hA : Abs V P)
    (hW : ∀ k l, P.W k (l + 1) → P.W k l) {u v : Int} {κ : Nat}
    (hpe : P.pe = some (u, v, (κ : Int))) (hsep : P.sep = true) {a b : Int}
    (hb : b ∈ V.adj κ a) (h0 : SameT (V.tours 0) b a) : SameT (V.tours κ) a b := by
  have hκ : κ < V.L := hA.level_in (hA.pefact u v κ hpe).2.2.1
  have hnd0 := hA.nodup 0
  rcases hA.conn a b κ (hA.adj_sound κ a b hb) with h | ⟨u1, v1, κ1, h1, -, h2⟩
  · exact h
  · exfalso
    rw [hpe] at h1
    simp only [Option.some.injEq, Prod.mk.injEq] at h1
    obtain ⟨rfl, rfl, rfl⟩ := h1
    apply hA.sep0 u v κ hpe hsep
    rcases h2 with ⟨h3, h4⟩ | ⟨h3, h4⟩
    · have h5 := hA.nest_zero hW hκ h3
      have h6 := hA.nest_zero hW hκ h4
      exact (h5.symm_same.trans_same hnd0 h0.symm_same).trans_same hnd0 h6.symm_same
    · have h5 := hA.nest_zero hW hκ h3
      have h6 := hA.nest_zero hW hκ h4
      exact (h6.trans_same hnd0 h0).trans_same hnd0 h5

theorem Up1.step {κ : Nat} {V V1 : View} {s : List (Int × Int)} (h : Up1 V κ s)
    (hS : StepB κ V V1) : Up1 V1 κ s := by
  intro a b ha hb hab
  obtain ⟨h1, h2⟩ := h a b ha hb hab
  rw [hS.1, hS.2.1]
  exact ⟨h1, h2⟩

theorem candidate_none : candidate (-1, -1) = none := by
  simp [candidate]

theorem candidate_some {a b : Int} (ha : 0 ≤ a) : candidate (a, b) = some (a, b) := by
  have : (a, b) ≠ ((-1 : Int), (-1 : Int)) := by
    intro h
    have := (Prod.mk.inj h).1
    omega
  simp [candidate, this]

/-- The search found nothing at level `κ` and goes one level down. -/
theorem Abs.descend {V : View} {E : List (Int × Int)} {u v : Int} {κ : Nat}
    (hA : Abs V (Par.search E u v κ none)) {s1 : List (Int × Int)} (hs1 : s1 ∈ V.tours κ)
    (huv : (u, u) ∈ s1 ∨ (v, v) ∈ s1) (hdone : ∀ a, (a, a) ∈ s1 → V.adj κ a = []) :
    Abs V (Par.search E u v ((κ : Int) - 1) none) := by
  have hin : ∀ a c, SameT (V.tours κ) a c → (c, c) ∈ s1 → (a, a) ∈ s1 := by
    intro a c h hc
    obtain ⟨s2, hs2, h1, h2⟩ := h
    rw [tour_unique (hA.nodup κ) hs1 hs2 hc h2]
    exact h1
  have hadj : ∀ a b, V.lvN.find (a, b) = some (κ : Int) → b ∈ V.adj κ a := by
    intro a b h
    rcases hA.adj_compl κ a b h with h1 | h1 | h1
    · exact h1
    · exact Option.noConfusion h1
    · exact Option.noConfusion h1
  have hno : ∀ a b, V.lvN.find (a, b) = some (κ : Int) → SameT (V.tours κ) a b := by
    intro a b h
    have hab := hadj a b h
    have hba := hadj b a ((hA.symN b a).trans h)
    have hempty : ∀ c, (c, c) ∈ s1 → c ≠ a ∧ c ≠ b := by
      intro c hc
      have := hdone c hc
      constructor
      · rintro rfl; rw [this] at hab; exact List.not_mem_nil _ hab
      · rintro rfl; rw [this] at hba; exact List.not_mem_nil _ hba
    rcases hA.conn a b κ h with h1 | ⟨u1, v1, κ1, h1, -, h2⟩
    · exact h1
    · exfalso
      simp only [Par.search, Option.some.injEq, Prod.mk.injEq] at h1
      obtain ⟨rfl, rfl, rfl⟩ := h1
      rcases h2 with ⟨h3, h4⟩ | ⟨h3, h4⟩
      · rcases huv with h5 | h5
        · exact (hempty a (hin a u h3 h5)).1 rfl
        · exact (hempty b (hin b v h4.symm_same h5)).2 rfl
      · rcases huv with h5 | h5
        · exact (hempty b (hin b u h4.symm_same h5)).2 rfl
        · exact (hempty a (hin a v h3 h5)).1 rfl
  exact { hA with
    psize := fun u1 v1 κ1 h l s2 s3 hl => by
      simp only [Par.search, Option.some.injEq, Prod.mk.injEq] at h
      obtain ⟨rfl, rfl, rfl⟩ := h
      exact hA.psize u v κ rfl l s2 s3 (by omega)
    sep0 := fun u1 v1 κ1 h hs => by
      simp only [Par.search, Option.some.injEq, Prod.mk.injEq] at h
      obtain ⟨rfl, rfl, rfl⟩ := h
      exact hA.sep0 u v κ rfl rfl
    conn := fun a b l h => by
      rcases hA.conn a b l h with h1 | ⟨u1, v1, κ1, h1, h2, h3⟩
      · exact Or.inl h1
      · simp only [Par.search, Option.some.injEq, Prod.mk.injEq] at h1
        obtain ⟨rfl, rfl, rfl⟩ := h1
        by_cases hl : l = κ
        · subst hl
          exact Or.inl (hno a b h)
        · exact Or.inr ⟨u, v, _, rfl, by omega, h3⟩
    rfact := fun _ _ h => Option.noConfusion h
    pefact := fun u1 v1 κ1 h => by
      simp only [Par.search, Option.some.injEq, Prod.mk.injEq] at h
      obtain ⟨rfl, rfl, rfl⟩ := h
      obtain ⟨h1, h2, h3, h4⟩ := hA.pefact u v κ rfl
      exact ⟨h1, by omega, by omega, h4⟩ }

/-- The replacement edge found at level `κ` becomes a tree edge of level `κ`. -/
theorem Abs.move_maps {V : View} {E : List (Int × Int)} {u v : Int} {κ : Nat} {x y : Int}
    (hA : Abs V (Par.search E u v κ (some (x, y)))) :
    Abs { V with lvT := (V.lvT.set (x, y) κ).set (y, x) κ,
                 lvN := (V.lvN.erase (x, y)).erase (y, x) }
      (Par.linking E u v x y κ) := by
  obtain ⟨-, h0, hlvN⟩ := hA.rfact x y rfl
  have hN : V.lvN.find (x, y) = some (κ : Int) := hlvN u v κ rfl
  have hN1 : V.lvN.find (y, x) = some (κ : Int) := (hA.symN y x).trans hN
  obtain ⟨hxy, hx0, hx1, hy0, hy1, hκ0, hκ1⟩ := hA.rngN x y _ hN
  have hT : V.lvT.find (x, y) = none := by
    cases h1 : V.lvT.find (x, y) with
    | none => rfl
    | some lv =>
      have := hA.excl (x, y) (by rw [h1]; rfl)
      rw [this] at hN
      exact Option.noConfusion hN
  have hT1 : V.lvT.find (y, x) = none := (hA.symT y x).trans hT
  have hfT : ∀ k, LevelMap.find ((V.lvT.set (x, y) κ).set (y, x) κ) k =
      if k = (y, x) then some (κ : Int) else if k = (x, y) then some (κ : Int)
      else V.lvT.find k :=
    fun k => by rw [LevelMap.find_set, LevelMap.find_set]
  have hfN : ∀ k, LevelMap.find ((V.lvN.erase (x, y)).erase (y, x)) k =
      if k = (y, x) then none else if k = (x, y) then none else V.lvN.find k :=
    fun k => by rw [LevelMap.find_erase, LevelMap.find_erase]
  have hkeep : ∀ k lv, LevelMap.find ((V.lvN.erase (x, y)).erase (y, x)) k = some lv →
      V.lvN.find k = some lv ∧ k ≠ (x, y) ∧ k ≠ (y, x) := by
    intro k lv h
    rw [hfN] at h
    by_cases h1 : k = (y, x)
    · rw [if_pos h1] at h; exact Option.noConfusion h
    · rw [if_neg h1] at h
      by_cases h2 : k = (x, y)
      · rw [if_pos h2] at h; exact Option.noConfusion h
      · rw [if_neg h2] at h
        exact ⟨h, h2, h1⟩
  have hout := hA.adj_out x y rfl
  have hswap : ∀ {c d : Int}, (c, d) ≠ (x, y) → (c, d) ≠ (y, x) →
      (d, c) ≠ (x, y) ∧ (d, c) ≠ (y, x) := by
    intro c d h1 h2
    exact ⟨fun h => h2 (by obtain ⟨rfl, rfl⟩ := Prod.mk.inj h; rfl),
      fun h => h1 (by obtain ⟨rfl, rfl⟩ := Prod.mk.inj h; rfl)⟩
  exact { hA with
    keysT := LevelMap.nodup_set (LevelMap.nodup_set hA.keysT _ _) _ _
    keysN := LevelMap.nodup_erase (LevelMap.nodup_erase hA.keysN _) _
    symT := fun c d => by
      show LevelMap.find ((V.lvT.set (x, y) κ).set (y, x) κ) (c, d) =
        LevelMap.find ((V.lvT.set (x, y) κ).set (y, x) κ) (d, c)
      rw [hfT, hfT]
      by_cases h1 : (c, d) = (y, x)
      · obtain ⟨rfl, rfl⟩ := Prod.mk.inj h1
        simp
      · by_cases h2 : (c, d) = (x, y)
        · obtain ⟨rfl, rfl⟩ := Prod.mk.inj h2
          simp
        · obtain ⟨h3, h4⟩ := hswap h2 h1
          rw [if_neg h1, if_neg h2, if_neg h4, if_neg h3]
          exact hA.symT c d
    symN := fun c d => by
      show LevelMap.find ((V.lvN.erase (x, y)).erase (y, x)) (c, d) =
        LevelMap.find ((V.lvN.erase (x, y)).erase (y, x)) (d, c)
      rw [hfN, hfN]
      by_cases h1 : (c, d) = (y, x)
      · obtain ⟨rfl, rfl⟩ := Prod.mk.inj h1
        simp
      · by_cases h2 : (c, d) = (x, y)
        · obtain ⟨rfl, rfl⟩ := Prod.mk.inj h2
          simp
        · obtain ⟨h3, h4⟩ := hswap h2 h1
          rw [if_neg h1, if_neg h2, if_neg h4, if_neg h3]
          exact hA.symN c d
    excl := fun k hk => by
      have hk1 : (LevelMap.find ((V.lvT.set (x, y) κ).set (y, x) κ) k).isSome = true := hk
      show LevelMap.find ((V.lvN.erase (x, y)).erase (y, x)) k = none
      rw [hfN]
      rw [hfT] at hk1
      by_cases h1 : k = (y, x)
      · rw [if_pos h1]
      · by_cases h2 : k = (x, y)
        · rw [if_neg h1, if_pos h2]
        · rw [if_neg h1, if_neg h2] at hk1 ⊢
          exact hA.excl k hk1
    rngT := fun c d lv h => by
      have h1 : LevelMap.find ((V.lvT.set (x, y) κ).set (y, x) κ) (c, d) = some lv := h
      rw [hfT] at h1
      by_cases h2 : (c, d) = (y, x)
      · rw [if_pos h2] at h1
        obtain ⟨rfl, rfl⟩ := Prod.mk.inj h2
        have := Option.some.inj h1
        exact ⟨fun h => hxy h.symm, hy0, hy1, hx0, hx1, by omega, by show lv ≤ V.mx; omega⟩
      · rw [if_neg h2] at h1
        by_cases h3 : (c, d) = (x, y)
        · rw [if_pos h3] at h1
          obtain ⟨rfl, rfl⟩ := Prod.mk.inj h3
          have := Option.some.inj h1
          exact ⟨hxy, hx0, hx1, hy0, hy1, by omega, by show lv ≤ V.mx; omega⟩
        · rw [if_neg h3] at h1
          exact hA.rngT c d lv h1
    rngN := fun c d lv h => hA.rngN c d lv (hkeep _ _ h).1
    pres := fun c d => by
      show present E c d = true ↔
        ((LevelMap.find ((V.lvT.set (x, y) κ).set (y, x) κ) (c, d)).isSome = true ∨
         (LevelMap.find ((V.lvN.erase (x, y)).erase (y, x)) (c, d)).isSome = true)
      rw [hfT, hfN]
      have hold := hA.pres c d
      by_cases h1 : (c, d) = (y, x)
      · rw [if_pos h1, if_pos h1]
        have h3 : (V.lvN.find (c, d)).isSome = true := by rw [h1, hN1]; rfl
        exact ⟨fun _ => Or.inl rfl, fun _ => hold.mpr (Or.inr h3)⟩
      · by_cases h2 : (c, d) = (x, y)
        · rw [if_neg h1, if_pos h2, if_neg h1, if_pos h2]
          have h3 : (V.lvN.find (c, d)).isSome = true := by rw [h2, hN]; rfl
          exact ⟨fun _ => Or.inl rfl, fun _ => hold.mpr (Or.inr h3)⟩
        · rw [if_neg h1, if_neg h2, if_neg h1, if_neg h2]
          exact hold
    reg := fun l hl c d hcd => by
      show (c, d) ∈ (V.tours l).flatten ↔
        ((∃ lv, LevelMap.find ((V.lvT.set (x, y) κ).set (y, x) κ) (c, d) = some lv ∧
          (l : Int) ≤ lv) ∧
         (((c, d) ≠ (u, v) ∧ (c, d) ≠ (v, u)) ∧
          (((c, d) = (x, y) ∨ (c, d) = (y, x)) → (κ : Int) < (l : Int))))
      rw [hfT]
      have hold := hA.reg l hl c d hcd
      by_cases h1 : (c, d) = (y, x)
      · rw [if_pos h1, hold, h1, hT1]
        constructor
        · rintro ⟨⟨lv, h2, -⟩, -⟩
          exact Option.noConfusion h2
        · rintro ⟨⟨lv, h2, h3⟩, -, h4⟩
          have := Option.some.inj h2
          have := h4 (Or.inr rfl)
          omega
      · by_cases h2 : (c, d) = (x, y)
        · rw [if_neg h1, if_pos h2, hold, h2, hT]
          constructor
          · rintro ⟨⟨lv, h2, -⟩, -⟩
            exact Option.noConfusion h2
          · rintro ⟨⟨lv, h2, h3⟩, -, h4⟩
            have := Option.some.inj h2
            have := h4 (Or.inl rfl)
            omega
        · rw [if_neg h1, if_neg h2, hold]
          constructor
          · rintro ⟨h3, h4⟩
            refine ⟨h3, h4, ?_⟩
            rintro (h5 | h5)
            · exact absurd h5 h2
            · exact absurd h5 h1
          · rintro ⟨h3, h4, -⟩
            exact ⟨h3, h4⟩
    dedge := fun l c d m f z hcd hd => by
      show f = false ∧ (m = true ↔ (c < d ∧
        LevelMap.find ((V.lvT.set (x, y) κ).set (y, x) κ) (c, d) = some (l : Int))) ∧
        (m = true → z = (l : Int))
      have hold := hA.dedge l c d m f z hcd hd
      have hk : (c, d) ∈ (V.tours l).flatten := (hA.dat_iff l (c, d)).mp (by
        have : (V.dat l (c, d)).isSome = true := by
          have hd1 : V.dat l (c, d) = some (m, f, z) := hd
          rw [hd1]; rfl
        exact this)
      have hl : l < V.L := by
        by_contra hc
        rw [hA.beyond l (by omega)] at hk
        exact List.not_mem_nil _ hk
      obtain ⟨⟨lv, h1, -⟩, -⟩ := (hA.reg l hl c d hcd).mp hk
      have h2 : (c, d) ≠ (y, x) := by
        intro h; rw [h, hT1] at h1; exact Option.noConfusion h1
      have h3 : (c, d) ≠ (x, y) := by
        intro h; rw [h, hT] at h1; exact Option.noConfusion h1
      rw [hfT, if_neg h2, if_neg h3]
      exact hold
    adj_sound := fun l c d h => by
      show LevelMap.find ((V.lvN.erase (x, y)).erase (y, x)) (c, d) = some (l : Int)
      rw [hfN]
      by_cases h1 : (c, d) = (y, x)
      · obtain ⟨rfl, rfl⟩ := Prod.mk.inj h1
        exact absurd h (hout l).2
      · by_cases h2 : (c, d) = (x, y)
        · obtain ⟨rfl, rfl⟩ := Prod.mk.inj h2
          exact absurd h (hout l).1
        · rw [if_neg h1, if_neg h2]
          exact hA.adj_sound l c d h
    adj_compl := fun l c d h => by
      obtain ⟨h1, h2, h3⟩ := hkeep _ _ h
      rcases hA.adj_compl l c d h1 with h4 | h4 | h4
      · exact Or.inl h4
      · exact absurd (Option.some.inj h4).symm h2
      · have := (Option.some.inj h4).symm
        exact absurd this (hswap h2 h3).1
    adj_out := fun _ _ h => h.elim
    conn := fun c d l h => hA.conn c d l (hkeep _ _ h).1
    sep0 := fun u1 v1 κ1 h _ => hA.sep0 u1 v1 κ1 h rfl
    cnt1 := by
      have := hA.cnt1
      show V.comps + (if (0 : Int) ≤ (κ : Int) then 1 else 0) = _
      rw [if_pos (by omega)]
      exact this
    cnt2 := by
      have h0 := hA.cnt2
      have h1 := LevelMap.length_set hA.keysT (x, y) (κ : Int)
      have h2 := LevelMap.length_set (LevelMap.nodup_set hA.keysT (x, y) (κ : Int)) (y, x)
        (κ : Int)
      have e : LevelMap.find (LevelMap.set V.lvT (x, y) (κ : Int)) (y, x) = none := by
        rw [LevelMap.find_set, if_neg (fun h => hxy (Prod.mk.inj h).1.symm)]
        exact hT1
      rw [e] at h2
      rw [hT] at h1
      simp only [Option.isSome_none, Bool.false_eq_true, if_false, add_zero] at h1 h2
      show 2 * (V.n - V.comps) + 2 =
        ((LevelMap.set (LevelMap.set V.lvT (x, y) (κ : Int)) (y, x) (κ : Int)).length : Int)
      rw [h2, h1]
      have h3 : 2 * (V.n - V.comps) + 0 = (V.lvT.length : Int) := h0
      push_cast
      omega
    rfact := fun _ _ h => Option.noConfusion h
    pefact := fun u1 v1 κ1 h => by
      obtain ⟨h1, h2, h3, h4⟩ := hA.pefact u1 v1 κ1 h
      refine ⟨h1, h2, h3, ?_⟩
      show (LevelMap.find ((V.lvT.set (x, y) κ).set (y, x) κ) (u1, v1)).isSome = true
      rw [hfT]
      split
      · rfl
      · split
        · rfl
        · exact h4 }

/-- One step of the loop that links the replacement edge into the forests: level `k`. -/
theorem Abs.link_down {V : View} {E : List (Int × Int)} {u v x y κ : Int} {k : Nat}
    (hA : Abs V (Par.linking E u v x y k))
    (hre : (x, y) ≠ (u, v) ∧ (x, y) ≠ (v, u)) (hlv : V.lvT.find (x, y) = some κ)
    (hkκ : (k : Int) ≤ κ)
    (hsplit : (SameT (V.tours k) x u ∧ SameT (V.tours k) v y) ∨
      (SameT (V.tours k) x v ∧ SameT (V.tours k) u y))
    {sA sB A B : List (Int × Int)} {rest : List (List (Int × Int))}
    (hp : (V.tours k).Perm (sA :: sB :: rest))
    (hrA : sA.IsRotated ((x, x) :: A)) (hrB : sB.IsRotated ((y, y) :: B)) :
    Abs (V.link k x y κ A B rest) (Par.linking E u v x y ((k : Int) - 1)) := by
  obtain ⟨hxy, -, -, -, -, -, hκmx⟩ := hA.rngT x y κ hlv
  have hlv1 : V.lvT.find (y, x) = some κ := (hA.symT y x).trans hlv
  have hl : k < V.L := hA.level_in (le_trans hkκ hκmx)
  have hre1 : (y, x) ≠ (u, v) ∧ (y, x) ≠ (v, u) :=
    ⟨fun h => hre.2 (by obtain ⟨rfl, rfl⟩ := Prod.mk.inj h; rfl),
     fun h => hre.1 (by obtain ⟨rfl, rfl⟩ := Prod.mk.inj h; rfl)⟩
  have hkab : (x, y) ∉ (V.tours k).flatten := by
    intro h
    have := ((hA.reg k hl x y hxy).mp h).2.2 (Or.inl rfl)
    omega
  have hkba : (y, x) ∉ (V.tours k).flatten := by
    intro h
    have := ((hA.reg k hl y x (fun h => hxy h.symm)).mp h).2.2 (Or.inr rfl)
    omega
  have htours : ∀ l1, (V.link k x y κ A B rest).tours l1 =
      if l1 = k then ((x, x) :: A ++ (x, y) :: ((y, y) :: B ++ [(y, x)])) :: rest
      else V.tours l1 := fun _ => rfl
  have hdat : ∀ l1 key, (V.link k x y κ A B rest).dat l1 key =
      if l1 = k then
        (if key = (y, x) then some (decide ((k : Int) = κ) && decide (y < x), false, κ)
         else if key = (x, y) then some (decide ((k : Int) = κ) && decide (x < y), false, κ)
         else V.dat k key)
      else V.dat l1 key := fun _ _ => rfl
  have hkeys := link_mem hp hrA hrB
  have hsAm : sA ∈ V.tours k := hp.mem_iff.mpr (List.mem_cons_self _ _)
  have hsBm : sB ∈ V.tours k :=
    hp.mem_iff.mpr (List.mem_cons_of_mem _ (List.mem_cons_self _ _))
  have hrestm : ∀ s ∈ rest, s ∈ V.tours k := fun s hs =>
    hp.mem_iff.mpr (List.mem_cons_of_mem _ (List.mem_cons_of_mem _ hs))
  have hnd := hA.nodup k
  have hnd1 := link_nodup hp hrA hrB hnd hxy hkab hkba
  have hndp : ((sA :: sB :: rest).flatten).Nodup := hp.flatten.nodup_iff.mp hnd
  have hxA : (x, x) ∈ sA := hrA.mem_iff.mpr (List.mem_cons_self _ _)
  have hyB : (y, y) ∈ sB := hrB.mem_iff.mpr (List.mem_cons_self _ _)
  have hinA : ∀ c, SameT (V.tours k) x c → (c, c) ∈ sA := by
    intro c h
    obtain ⟨s2, hs2, h1, h2⟩ := h
    rw [tour_unique hnd hsAm hs2 hxA h1]
    exact h2
  have hinB : ∀ c, SameT (V.tours k) c y → (c, c) ∈ sB := by
    intro c h
    obtain ⟨s2, hs2, h1, h2⟩ := h
    rw [tour_unique hnd hsBm hs2 hyB h2]
    exact h1
  have hsum : 2 ^ k * ((selfCount sA : Int) + (selfCount sB : Int)) ≤ V.n := by
    rcases hsplit with ⟨h1, h2⟩ | ⟨h1, h2⟩
    · exact hA.psize u v k rfl k sA sB (le_refl _) hsAm hsBm (hinA u h1) (hinB v h2)
        (fun h => cut_apart hndp h (hinB v h2))
    · have := hA.psize u v k rfl k sB sA (le_refl _) hsBm hsAm (hinB u h2) (hinA v h1)
        (fun h => cut_apart hndp (hinA v h1) h)
      rw [add_comm]
      exact this
  have hjoin : SameT (((x, x) :: A ++ (x, y) :: ((y, y) :: B ++ [(y, x)])) :: rest) u v := by
    rcases hsplit with ⟨h1, h2⟩ | ⟨h1, h2⟩
    · exact link_join hp hrA hrB (hinA u h1) (hinB v h2)
    · exact (link_join hp hrA hrB (hinA v h1) (hinB u h2)).symm_same
  exact { hA with
    beyond := fun l1 h => by
      have h1 : V.L ≤ l1 := h
      rw [htours, if_neg (show ¬ (l1 = k) by omega)]
      exact hA.beyond l1 h
    et := fun l1 s h => by
      rw [htours] at h
      by_cases h1 : l1 = k
      · rw [if_pos h1] at h
        rcases List.mem_cons.mp h with rfl | h
        · exact link_tour_et (hA.et _ sA hsAm) (hA.et _ sB hsBm) hrA hrB
        · exact hA.et _ s (hrestm s h)
      · rw [if_neg h1] at h
        exact hA.et l1 s h
    nodup := fun l1 => by
      rw [htours]
      by_cases h1 : l1 = k
      · rw [if_pos h1]; exact hnd1
      · rw [if_neg h1]; exact hA.nodup l1
    verts := fun l1 h c => by
      rw [htours]
      by_cases h1 : l1 = k
      · rw [if_pos h1, hkeys]
        show _ ↔ (0 ≤ c ∧ c < V.n)
        rw [← hA.verts k hl c]
        constructor
        · rintro (h2 | h2 | h2)
          · exact h2
          · exact absurd ((Prod.mk.inj h2).1.symm.trans (Prod.mk.inj h2).2) hxy
          · exact absurd ((Prod.mk.inj h2).2.symm.trans (Prod.mk.inj h2).1) hxy
        · exact Or.inl
      · rw [if_neg h1]; exact hA.verts l1 h c
    reg := fun l1 h c d hcd => by
      have h0 : l1 < V.L := h
      rw [htours]
      show _ ↔ ((∃ lv, V.lvT.find (c, d) = some lv ∧ (l1 : Int) ≤ lv) ∧
        (((c, d) ≠ (u, v) ∧ (c, d) ≠ (v, u)) ∧
          (((c, d) = (x, y) ∨ (c, d) = (y, x)) → (k : Int) - 1 < (l1 : Int))))
      have hold := hA.reg l1 h0 c d hcd
      by_cases h1 : l1 = k
      · subst h1
        rw [if_pos rfl, hkeys, hold]
        constructor
        · rintro (⟨h2, h3, h4⟩ | h2 | h2)
          · exact ⟨h2, h3, fun _ => by omega⟩
          · rw [h2]
            exact ⟨⟨κ, hlv, hkκ⟩, hre, fun _ => by omega⟩
          · rw [h2]
            exact ⟨⟨κ, hlv1, hkκ⟩, hre1, fun _ => by omega⟩
        · rintro ⟨h2, h3, h4⟩
          by_cases h5 : (c, d) = (x, y)
          · exact Or.inr (Or.inl h5)
          · by_cases h6 : (c, d) = (y, x)
            · exact Or.inr (Or.inr h6)
            · refine Or.inl ⟨h2, h3, ?_⟩
              rintro (h7 | h7)
              · exact absurd h7 h5
              · exact absurd h7 h6
      · rw [if_neg h1, hold]
        have h2 : (l1 : Int) ≠ (k : Int) := fun h3 => h1 (by exact_mod_cast h3)
        constructor
        · rintro ⟨h3, h4, h5⟩
          exact ⟨h3, h4, fun h6 => by have := h5 h6; omega⟩
        · rintro ⟨h3, h4, h5⟩
          exact ⟨h3, h4, fun h6 => by have := h5 h6; omega⟩
    size := fun l1 s h => by
      rw [htours] at h
      show 2 ^ l1 * (selfCount s : Int) ≤ V.n
      by_cases h1 : l1 = k
      · subst h1
        rw [if_pos rfl] at h
        rcases List.mem_cons.mp h with rfl | h
        · rw [link_selfCount hxy hrA hrB]
          push_cast
          exact hsum
        · exact hA.size l1 s (hrestm s h)
      · rw [if_neg h1] at h
        exact hA.size l1 s h
    psize := fun u1 v1 κ1 h l1 s2 s3 hl1 hs2 hs3 => by
      simp only [Par.linking, Option.some.injEq, Prod.mk.injEq] at h
      obtain ⟨rfl, rfl, rfl⟩ := h
      rw [htours, if_neg (show ¬ (l1 = k) by omega)] at hs2 hs3
      exact hA.psize u v k rfl l1 s2 s3 (by omega) hs2 hs3
    sep0 := fun u1 v1 κ1 h hs => by
      simp only [Par.linking, decide_eq_true_eq] at hs
      rw [htours, if_neg (show ¬ (0 = k) by omega)]
      exact hA.sep0 u v k rfl (by simp only [Par.linking, decide_eq_true_eq]; omega) |>
        fun h1 => by
          simp only [Par.linking, Option.some.injEq, Prod.mk.injEq] at h
          obtain ⟨rfl, rfl, -⟩ := h
          exact h1
    dat_iff := fun l1 key => by
      rw [hdat, htours]
      by_cases h1 : l1 = k
      · rw [if_pos h1, if_pos h1, hkeys]
        by_cases h2 : key = (y, x)
        · rw [if_pos h2]
          exact ⟨fun _ => Or.inr (Or.inr h2), fun _ => rfl⟩
        · rw [if_neg h2]
          by_cases h3 : key = (x, y)
          · rw [if_pos h3]
            exact ⟨fun _ => Or.inr (Or.inl h3), fun _ => rfl⟩
          · rw [if_neg h3, hA.dat_iff]
            constructor
            · exact Or.inl
            · rintro (h4 | h4 | h4)
              · exact h4
              · exact absurd h4 h3
              · exact absurd h4 h2
      · rw [if_neg h1, if_neg h1]
        exact hA.dat_iff l1 key
    dself := fun l1 c m1 f1 x1 h => by
      rw [hdat] at h
      have hx1 : ((c, c) : Int × Int) ≠ (y, x) :=
        fun h => hxy ((Prod.mk.inj h).2.symm.trans (Prod.mk.inj h).1)
      have hx2 : ((c, c) : Int × Int) ≠ (x, y) :=
        fun h => hxy ((Prod.mk.inj h).1.symm.trans (Prod.mk.inj h).2)
      have h1 : V.dat l1 (c, c) = some (m1, f1, x1) := by
        by_cases h2 : l1 = k
        · rw [if_pos h2, if_neg hx1, if_neg hx2] at h
          rw [h2]; exact h
        · rw [if_neg h2] at h
          exact h
      exact hA.dself l1 c m1 f1 x1 h1
    dedge := fun l1 c d m1 f1 x1 hcd h => by
      rw [hdat] at h
      show f1 = false ∧ (m1 = true ↔ (c < d ∧ V.lvT.find (c, d) = some (l1 : Int))) ∧
        (m1 = true → x1 = (l1 : Int))
      by_cases h1 : l1 = k
      · subst h1
        rw [if_pos rfl] at h
        by_cases h2 : (c, d) = (y, x)
        · rw [if_pos h2] at h
          obtain ⟨rfl, rfl⟩ := Prod.mk.inj h2
          simp only [Option.some.injEq, Prod.mk.injEq] at h
          obtain ⟨rfl, rfl, rfl⟩ := h
          rw [hlv1]
          simp only [Bool.and_eq_true, decide_eq_true_eq, Option.some.injEq, true_and]
          omega
        · rw [if_neg h2] at h
          by_cases h3 : (c, d) = (x, y)
          · rw [if_pos h3] at h
            obtain ⟨rfl, rfl⟩ := Prod.mk.inj h3
            simp only [Option.some.injEq, Prod.mk.injEq] at h
            obtain ⟨rfl, rfl, rfl⟩ := h
            rw [hlv]
            simp only [Bool.and_eq_true, decide_eq_true_eq, Option.some.injEq, true_and]
            omega
          · rw [if_neg h3] at h
            exact hA.dedge l1 c d m1 f1 x1 hcd h
      · rw [if_neg h1] at h
        exact hA.dedge l1 c d m1 f1 x1 hcd h
    conn := fun c d l1 h => by
      have hold := hA.conn c d l1 h
      unfold Joined at hold ⊢
      rw [htours]
      by_cases h1 : l1 = k
      · subst h1
        rw [if_pos rfl]
        left
        rcases hold with h2 | ⟨u1, v1, κ1, h2, h3, h4⟩
        · exact link_same hp hrA hrB h2
        · simp only [Par.linking, Option.some.injEq, Prod.mk.injEq] at h2
          obtain ⟨rfl, rfl, rfl⟩ := h2
          rcases h4 with ⟨h5, h6⟩ | ⟨h5, h6⟩
          · exact ((link_same hp hrA hrB h5).trans_same hnd1 hjoin).trans_same hnd1
              (link_same hp hrA hrB h6)
          · exact ((link_same hp hrA hrB h5).trans_same hnd1 hjoin.symm_same).trans_same hnd1
              (link_same hp hrA hrB h6)
      · rw [if_neg h1]
        rcases hold with h2 | ⟨u1, v1, κ1, h2, h3, h4⟩
        · exact Or.inl h2
        · simp only [Par.linking, Option.some.injEq, Prod.mk.injEq] at h2
          obtain ⟨rfl, rfl, rfl⟩ := h2
          refine Or.inr ⟨u, v, _, rfl, ?_, h4⟩
          have : (l1 : Int) ≠ (k : Int) := fun h3 => h1 (by exact_mod_cast h3)
          omega
    cnt1 := by
      have h1 := hA.cnt1
      show V.comps + _ = _
      simp only [Par.linking] at h1 ⊢
      rw [if_pos (show (0 : Int) ≤ (k : Int) by omega)] at h1
      rw [htours]
      by_cases h0 : k = 0
      · subst h0
        rw [if_pos rfl, if_neg (show ¬ ((0 : Int) ≤ ((0 : Nat) : Int) - 1) by omega)]
        have := hp.length_eq
        simp only [List.length_cons] at this ⊢
        rw [this] at h1
        push_cast at h1 ⊢
        omega
      · rw [if_neg (show ¬ (0 = k) from fun h => h0 h.symm),
          if_pos (show (0 : Int) ≤ (k : Int) - 1 by omega)]
        exact h1
    rfact := fun _ _ h => Option.noConfusion h
    pefact := fun u1 v1 κ1 h => by
      simp only [Par.linking, Option.some.injEq, Prod.mk.injEq] at h
      obtain ⟨rfl, rfl, rfl⟩ := h
      obtain ⟨h1, h2, h3, h4⟩ := hA.pefact u v k rfl
      have h5 : (k : Int) - 1 ≤ V.mx := by omega
      exact ⟨h1, by omega, h5, h4⟩ }

/-- The end of a removal of a tree edge: the edge leaves the tree-edge map, and the
component counter grows when no replacement was linked. -/
theorem Abs.finish {V : View} {P : Par} {u v : Int} (hA : Abs V P)
    (hW : ∀ key l, P.W key l ↔ (key ≠ (u, v) ∧ key ≠ (v, u)))
    (hpe : P.pe = some (u, v, -1)) (hY : ∀ k, ¬ P.Y k) (hZ : ∀ l a, ¬ P.Z l a)
    (hdk : P.dk = 2 - 2 * P.dc) {c : Int} (hc : c = V.comps + P.dc) :
    Abs { V with lvT := (V.lvT.erase (u, v)).erase (v, u), comps := c }
      (Par.normal (P.E.filter (fun e => decide (e ≠ (u, v)) && decide (e ≠ (v, u))))) := by
  subst hc
  obtain ⟨huv, -, -, hsome⟩ := hA.pefact u v (-1) hpe
  have hsome1 : (V.lvT.find (v, u)).isSome = true := by rw [← hA.symT u v]; exact hsome
  have hfind : ∀ k, LevelMap.find ((V.lvT.erase (u, v)).erase (v, u)) k =
      if k = (v, u) then none else if k = (u, v) then none else V.lvT.find k := by
    intro k
    rw [LevelMap.find_erase, LevelMap.find_erase]
  have hkeep : ∀ k lv, LevelMap.find ((V.lvT.erase (u, v)).erase (v, u)) k = some lv →
      V.lvT.find k = some lv ∧ k ≠ (u, v) ∧ k ≠ (v, u) := by
    intro k lv h
    rw [hfind] at h
    by_cases h1 : k = (v, u)
    · rw [if_pos h1] at h; exact Option.noConfusion h
    · rw [if_neg h1] at h
      by_cases h2 : k = (u, v)
      · rw [if_pos h2] at h; exact Option.noConfusion h
      · rw [if_neg h2] at h
        exact ⟨h, h2, h1⟩
  have hN : V.lvN.find (u, v) = none := hA.excl (u, v) hsome
  have hN1 : V.lvN.find (v, u) = none := hA.excl (v, u) hsome1
  have hne : ((v, u) : Int × Int) ≠ (u, v) := fun h => huv (Prod.mk.inj h).2
  exact { hA with
    keysT := LevelMap.nodup_erase (LevelMap.nodup_erase hA.keysT _) _
    symT := fun c d => by
      show LevelMap.find ((V.lvT.erase (u, v)).erase (v, u)) (c, d) =
        LevelMap.find ((V.lvT.erase (u, v)).erase (v, u)) (d, c)
      rw [hfind, hfind, hA.symT c d]
      by_cases h1 : (c, d) = (v, u)
      · obtain ⟨rfl, rfl⟩ := Prod.mk.inj h1
        simp
      · by_cases h2 : (c, d) = (u, v)
        · obtain ⟨rfl, rfl⟩ := Prod.mk.inj h2
          simp
        · have h3 : (d, c) ≠ (u, v) := fun h => h1 (by
            obtain ⟨rfl, rfl⟩ := Prod.mk.inj h; rfl)
          have h4 : (d, c) ≠ (v, u) := fun h => h2 (by
            obtain ⟨rfl, rfl⟩ := Prod.mk.inj h; rfl)
          rw [if_neg h1, if_neg h2, if_neg h4, if_neg h3]
    excl := fun k h => by
      have h0 : (LevelMap.find ((V.lvT.erase (u, v)).erase (v, u)) k).isSome = true := h
      cases h1 : LevelMap.find ((V.lvT.erase (u, v)).erase (v, u)) k with
      | none => rw [h1] at h0; exact Bool.noConfusion h0
      | some lv =>
        exact hA.excl k (by rw [(hkeep k lv h1).1]; rfl)
    rngT := fun c d lv h => hA.rngT c d lv (hkeep _ _ h).1
    pres := fun c d => by
      show present (P.E.filter _) c d = true ↔
        ((LevelMap.find ((V.lvT.erase (u, v)).erase (v, u)) (c, d)).isSome = true ∨
          (V.lvN.find (c, d)).isSome = true)
      rw [present_filter, hA.pres c d, hfind]
      by_cases h1 : (c, d) = (v, u)
      · rw [if_pos h1, h1, hN1]
        simp
      · by_cases h2 : (c, d) = (u, v)
        · rw [if_neg h1, if_pos h2, h2, hN]
          simp
        · rw [if_neg h1, if_neg h2]
          simp [h1, h2]
    reg := fun l hl c d hcd => by
      have h0 : l < V.L := hl
      show (c, d) ∈ (V.tours l).flatten ↔
        ((∃ lv, LevelMap.find ((V.lvT.erase (u, v)).erase (v, u)) (c, d) = some lv ∧
          (l : Int) ≤ lv) ∧ True)
      rw [hA.reg l h0 c d hcd, hW, hfind]
      constructor
      · rintro ⟨h1, h2, h3⟩
        rw [if_neg h3, if_neg h2]
        exact ⟨h1, trivial⟩
      · rintro ⟨⟨lv, h1, h2⟩, -⟩
        by_cases h3 : (c, d) = (v, u)
        · rw [if_pos h3] at h1; exact Option.noConfusion h1
        · rw [if_neg h3] at h1
          by_cases h4 : (c, d) = (u, v)
          · rw [if_pos h4] at h1; exact Option.noConfusion h1
          · rw [if_neg h4] at h1
            exact ⟨⟨lv, h1, h2⟩, h4, h3⟩
    psize := fun _ _ _ h => Option.noConfusion h
    sep0 := fun _ _ _ h => Option.noConfusion h
    dself := fun l a m f x h =>
      ⟨(hA.dself l a m f x h).1, (hA.dself l a m f x h).2.1,
        fun hf => ((hA.dself l a m f x h).2.2 hf).imp id (fun hz => hZ l a hz)⟩
    dedge := fun l c d m f x hcd h => by
      have h0 : V.dat l (c, d) = some (m, f, x) := h
      obtain ⟨h1, h2, h3⟩ := hA.dedge l c d m f x hcd h0
      refine ⟨h1, ?_, h3⟩
      show m = true ↔ (c < d ∧
        LevelMap.find ((V.lvT.erase (u, v)).erase (v, u)) (c, d) = some (l : Int))
      have hmem : (c, d) ∈ (V.tours l).flatten := (hA.dat_iff l (c, d)).mp (by rw [h0]; rfl)
      have hl : l < V.L := by
        by_contra hl
        rw [hA.beyond l (by omega)] at hmem
        exact absurd hmem (List.not_mem_nil _)
      obtain ⟨-, hw⟩ := (hA.reg l hl c d hcd).mp hmem
      rw [hW] at hw
      rw [hfind, if_neg hw.2, if_neg hw.1]
      exact h2
    adj_compl := fun l a b h => by
      rcases hA.adj_compl l a b h with h1 | h1 | h1
      · exact Or.inl h1
      · exact absurd h1 (hY _)
      · exact absurd h1 (hY _)
    adj_out := fun _ _ h => False.elim h
    conn := fun a b l h => by
      rcases hA.conn a b l h with h1 | ⟨u1, v1, κ1, h1, h2, -⟩
      · exact Or.inl h1
      · rw [hpe] at h1
        simp only [Option.some.injEq, Prod.mk.injEq] at h1
        obtain ⟨-, -, rfl⟩ := h1
        omega
    cnt1 := by
      show V.comps + P.dc + 0 = ((V.tours 0).length : Int)
      rw [add_zero]
      exact hA.cnt1
    cnt2 := by
      show 2 * (V.n - (V.comps + P.dc)) + 0 =
        (((V.lvT.erase (u, v)).erase (v, u)).length : Int)
      have h1 := LevelMap.length_erase hA.keysT (u, v)
      have h2 := LevelMap.length_erase (LevelMap.nodup_erase hA.keysT (u, v)) (v, u)
      rw [hsome, if_pos rfl] at h1
      rw [LevelMap.find_erase, if_neg hne, hsome1, if_pos rfl] at h2
      have h3 := hA.cnt2
      have h4 : (V.lvT.length : Int) = (((V.lvT.erase (u, v)).erase (v, u)).length : Int) + 2 := by
        have : V.lvT.length = ((V.lvT.erase (u, v)).erase (v, u)).length + 2 := by omega
        exact_mod_cast this
      omega
    rfact := fun _ _ h => Option.noConfusion h
    pefact := fun _ _ _ h => Option.noConfusion h }

/-- The invariant holds once the constructor has built forest 0 over an empty structure. -/
theorem Abs.init {V : View} (hL : V.L = 0) (hmx : V.mx = 0) (hn : 0 ≤ V.n)
    (hc : V.comps = V.n) (hT : V.lvT = []) (hN : V.lvN = [])
    (htr : ∀ l, V.tours l = []) (had : ∀ l a, V.adj l a = [])
    (hdt : ∀ l k, V.dat l k = none) :
    Abs V.build (Par.normal []) := by
  have htours : ∀ l, V.build.tours l =
      if l = V.L then (List.range V.n.toNat).map (fun (i : Nat) => [((i : Int), (i : Int))])
      else V.tours l := fun _ => rfl
  have hdat : ∀ l k, V.build.dat l k =
      if l = V.L then
        (if k.1 = k.2 ∧ 0 ≤ k.1 ∧ k.1 < V.n then some (false, false, -1) else none)
      else V.dat l k := fun _ _ => rfl
  have hadj : ∀ l a, V.build.adj l a = if l = V.L then [] else V.adj l a := fun _ _ => rfl
  have hfT : ∀ k, V.build.lvT.find k = none := fun k => by
    show V.lvT.find k = none
    rw [hT]; rfl
  have hfN : ∀ k, V.build.lvN.find k = none := fun k => by
    show V.lvN.find k = none
    rw [hN]; rfl
  have hLb : V.build.L = 1 := by
    show V.L + 1 = 1
    rw [hL]
  exact
    { n_nonneg := hn
      mx_len := by
        show ((V.L + 1 : Nat) : Int) = V.mx + 1
        rw [hL, hmx]; rfl
      mx_nonneg := by
        show 0 ≤ V.mx
        rw [hmx]
      keysT := by
        show (V.lvT.map Prod.fst).Nodup
        rw [hT]; exact List.nodup_nil
      keysN := by
        show (V.lvN.map Prod.fst).Nodup
        rw [hN]; exact List.nodup_nil
      symT := fun a b => by rw [hfT, hfT]
      symN := fun a b => by rw [hfN, hfN]
      excl := fun k _ => hfN k
      rngT := fun a b lv h => by rw [hfT] at h; exact Option.noConfusion h
      rngN := fun a b lv h => by rw [hfN] at h; exact Option.noConfusion h
      pres := fun a b => by
        rw [hfT, hfN]
        simp [present, Par.normal]
      beyond := fun l h => by
        rw [hLb] at h
        rw [htours, if_neg (show ¬ (l = V.L) by omega)]
        exact htr l
      et := fun l s h => by
        rw [htours] at h
        by_cases hl : l = V.L
        · rw [if_pos hl] at h
          obtain ⟨i, -, rfl⟩ := List.mem_map.mp h
          exact ET.single _
        · rw [if_neg hl, htr] at h
          exact absurd h (List.not_mem_nil _)
      nodup := fun l => by
        rw [htours]
        by_cases hl : l = V.L
        · rw [if_pos hl]; exact nodup_fresh_level _
        · rw [if_neg hl, htr]; exact List.nodup_nil
      verts := fun l h a => by
        rw [hLb] at h
        rw [htours, if_pos (show l = V.L by omega), mem_fresh_level]
        show _ ↔ (0 ≤ a ∧ a < V.n)
        exact ⟨fun h => h.2, fun h => ⟨rfl, h⟩⟩
      reg := fun l h a b hab => by
        rw [hLb] at h
        rw [htours, if_pos (show l = V.L by omega), mem_fresh_level]
        constructor
        · exact fun h2 => absurd h2.1 hab
        · rintro ⟨⟨lv, h2, -⟩, -⟩
          rw [hfT] at h2
          exact Option.noConfusion h2
      size := fun l s h => by
        rw [htours] at h
        show 2 ^ l * (selfCount s : Int) ≤ V.n
        by_cases hl : l = V.L
        · rw [if_pos hl] at h
          obtain ⟨i, hi, rfl⟩ := List.mem_map.mp h
          have hi1 := List.mem_range.mp hi
          rw [selfCount_single, hl, hL]
          simp only [pow_zero, Nat.cast_one, mul_one]
          omega
        · rw [if_neg hl, htr] at h
          exact absurd h (List.not_mem_nil _)
      psize := fun _ _ _ h => Option.noConfusion h
      sep0 := fun _ _ _ h => Option.noConfusion h
      dat_iff := fun l k => by
        rw [hdat, htours]
        by_cases hl : l = V.L
        · rw [if_pos hl, if_pos hl, mem_fresh_level]
          by_cases hk : k.1 = k.2 ∧ 0 ≤ k.1 ∧ k.1 < V.n
          · rw [if_pos hk]
            exact ⟨fun _ => hk, fun _ => rfl⟩
          · rw [if_neg hk]
            exact ⟨fun h => Bool.noConfusion h, fun h => absurd h hk⟩
        · rw [if_neg hl, if_neg hl, hdt, htr]
          exact ⟨fun h => Bool.noConfusion h, fun h => absurd h (List.not_mem_nil _)⟩
      dself := fun l a m f x hd => by
        rw [hdat] at hd
        rw [hadj]
        by_cases hl : l = V.L
        · rw [if_pos hl] at hd ⊢
          split at hd
          · simp only [Option.some.injEq, Prod.mk.injEq] at hd
            obtain ⟨rfl, rfl, -⟩ := hd
            exact ⟨rfl, fun h => absurd rfl h, fun h => Bool.noConfusion h⟩
          · exact Option.noConfusion hd
        · rw [if_neg hl, hdt] at hd
          exact Option.noConfusion hd
      dedge := fun l a b m f x hab hd => by
        rw [hdat] at hd
        by_cases hl : l = V.L
        · rw [if_pos hl, if_neg (fun h => hab h.1)] at hd
          exact Option.noConfusion hd
        · rw [if_neg hl, hdt] at hd
          exact Option.noConfusion hd
      adj_sound := fun l a b h => by
        rw [hadj] at h
        by_cases hl : l = V.L
        · rw [if_pos hl] at h
          exact absurd h (List.not_mem_nil _)
        · rw [if_neg hl, had] at h
          exact absurd h (List.not_mem_nil _)
      adj_compl := fun l a b h => by rw [hfN] at h; exact Option.noConfusion h
      adj_out := fun _ _ h => False.elim h
      adj_nodup := fun l a => by
        rw [hadj]
        by_cases hl : l = V.L
        · rw [if_pos hl]; exact List.nodup_nil
        · rw [if_neg hl, had]; exact List.nodup_nil
      conn := fun a b l h => by rw [hfN] at h; exact Option.noConfusion h
      cnt1 := by
        show V.comps + 0 = ((V.build.tours 0).length : Int)
        rw [htours, if_pos hL.symm, List.length_map, List.length_range, hc]
        simp only [add_zero]
        omega
      cnt2 := by
        show 2 * (V.n - V.comps) + 0 = (V.lvT.length : Int)
        rw [hT, hc]
        simp
      rfact := fun _ _ h => Option.noConfusion h
      pefact := fun _ _ _ h => Option.noConfusion h }

/-- The smaller of the two tours left by the edge under removal fits under the size bound
of the next level. -/
theorem Abs.half {V : View} {P : Par} (hA : Abs V P) {u v : Int} {κ : Nat}
    (hpe : P.pe = some (u, v, (κ : Int))) {s1 s2 : List (Int × Int)}
    (hs1 : s1 ∈ V.tours κ) (hs2 : s2 ∈ V.tours κ) (hu : (u, u) ∈ s1) (hv : (v, v) ∈ s2)
    (hnv : (v, v) ∉ s1) :
    (s1.length ≤ s2.length → 2 ^ (κ + 1) * (selfCount s1 : Int) ≤ V.n) ∧
    (s2.length ≤ s1.length → 2 ^ (κ + 1) * (selfCount s2 : Int) ≤ V.n) := by
  have h := hA.psize u v κ hpe κ s1 s2 (le_refl _) hs1 hs2 hu hv hnv
  have hnd := List.nodup_flatten.mp (hA.nodup κ)
  have e1 := (hA.et κ s1 hs1).length (hnd.1 s1 hs1)
  have e2 := (hA.et κ s2 hs2).length (hnd.1 s2 hs2)
  have hp : (0 : Int) ≤ 2 ^ κ := by positivity
  rw [pow_succ]
  constructor
  · intro hle
    have h1 : (selfCount s1 : Int) ≤ (selfCount s2 : Int) := by
      have : selfCount s1 ≤ selfCount s2 := by omega
      exact_mod_cast this
    calc 2 ^ κ * 2 * (selfCount s1 : Int)
        = 2 ^ κ * ((selfCount s1 : Int) + (selfCount s1 : Int)) := by ring
      _ ≤ 2 ^ κ * ((selfCount s1 : Int) + (selfCount s2 : Int)) :=
          mul_le_mul_of_nonneg_left (by omega) hp
      _ ≤ V.n := h
  · intro hle
    have h1 : (selfCount s2 : Int) ≤ (selfCount s1 : Int) := by
      have : selfCount s2 ≤ selfCount s1 := by omega
      exact_mod_cast this
    calc 2 ^ κ * 2 * (selfCount s2 : Int)
        = 2 ^ κ * ((selfCount s2 : Int) + (selfCount s2 : Int)) := by ring
      _ ≤ 2 ^ κ * ((selfCount s1 : Int) + (selfCount s2 : Int)) :=
          mul_le_mul_of_nonneg_left (by omega) hp
      _ ≤ V.n := h

/-- While the search runs, the endpoints of the edge under removal are apart at every
level down from the level of the search. -/
theorem Abs.apart {V : View} {E : List (Int × Int)} {u v : Int} {κ : Nat}
    {r : Option (Int × Int)} (hA : Abs V (Par.search E u v κ r)) {l : Nat} (hl : l ≤ κ) :
    ¬ SameT (V.tours l) u v := by
  have hκ : κ < V.L := hA.level_in (hA.pefact u v κ rfl).2.2.1
  intro h
  exact hA.sep0 u v κ rfl rfl (hA.nest_zero (fun _ _ h => h) (by omega) h)

/-- The replacement edge found at level `κ` is not the edge under removal, and at every
level down from `κ` it joins the two tours left by that edge. -/
theorem Abs.found {V : View} {E : List (Int × Int)} {u v : Int} {κ : Nat} {x y : Int}
    (hA : Abs V (Par.search E u v κ (some (x, y)))) :
    ((x, y) ≠ (u, v) ∧ (x, y) ≠ (v, u)) ∧
    ∀ l, l ≤ κ → ¬ SameT (V.tours l) u v ∧
      ((SameT (V.tours l) x u ∧ SameT (V.tours l) v y) ∨
       (SameT (V.tours l) x v ∧ SameT (V.tours l) u y)) := by
  obtain ⟨huv, -, hκmx, hsome⟩ := hA.pefact u v κ rfl
  have hκ : κ < V.L := hA.level_in hκmx
  obtain ⟨-, h0, hlv⟩ := hA.rfact x y rfl
  have hlvN := hlv u v κ rfl
  have hN : V.lvN.find (u, v) = none := hA.excl (u, v) hsome
  have hN1 : V.lvN.find (v, u) = none := (hA.symN v u).trans hN
  have hdown : ∀ l, l ≤ κ → ∀ {a b : Int}, SameT (V.tours κ) a b → SameT (V.tours l) a b :=
    fun l hl a b h =>
      hA.nest_to κ hκ hl (fun l1 _ h2 => hA.sub_of_W (by omega) (fun _ h => h)) h
  refine ⟨⟨fun h => ?_, fun h => ?_⟩, fun l hl => ⟨hA.apart hl, ?_⟩⟩
  · rw [h, hN] at hlvN
    exact Option.noConfusion hlvN
  · rw [h, hN1] at hlvN
    exact Option.noConfusion hlvN
  · rcases hA.conn x y κ hlvN with h1 | ⟨u1, v1, κ1, h1, -, h2⟩
    · exact absurd (hA.nest_zero (fun _ _ h => h) hκ h1) h0
    · simp only [Par.search, Option.some.injEq, Prod.mk.injEq] at h1
      obtain ⟨rfl, rfl, -⟩ := h1
      rcases h2 with ⟨h3, h4⟩ | ⟨h3, h4⟩
      · exact Or.inl ⟨hdown l hl h3, hdown l hl h4⟩
      · exact Or.inr ⟨hdown l hl h3, hdown l hl h4⟩

/-- Vertices whose nodes carry no adjacency flag have empty adjacency sets. -/
theorem Abs.done_adj {V : View} {P : Par} (hA : Abs V P) {κ : Nat} {s1 : List (Int × Int)}
    (hs1 : s1 ∈ V.tours κ) (hdone : ∀ k ∈ s1, NoAdj V κ k) :
    ∀ a, (a, a) ∈ s1 → V.adj κ a = [] := by
  intro a ha
  have h1 : (V.dat κ (a, a)).isSome = true :=
    (hA.dat_iff κ (a, a)).mpr (List.mem_flatten.mpr ⟨s1, hs1, ha⟩)
  obtain ⟨⟨m, f, x⟩, hd⟩ := Option.isSome_iff_exists.mp h1
  have hf := hdone _ ha m f x hd
  by_contra hne
  have := (hA.dself κ a m f x hd).2.1 hne
  rw [hf] at this
  exact Bool.noConfusion this

theorem keyOf_of_get {h : Heap} {p : Nat} {nd : Node} (hg : h.get p = some nd) :
    keyOf h p = nd.key := by
  simp only [keyOf, hg]

/-- Both `erase` statements of an edge on the adjacency sets of forest `l`. -/
theorem Rep.erase2_rep {G : DynamicGraph} {tss : List (List Tree)} {D : Set Nat}
    (hR : Rep G tss D) {l : Nat} (hl : l < G.spanning_trees.length) {a b : Int} (hne : a ≠ b) :
    ∃ G1 G2, G.adjErase (l : Int) a b = some G1 ∧ G1.adjErase (l : Int) b a = some G2 ∧
      Rep G2 tss D ∧ viewOf G2 tss = (viewOf G tss).erase2 l a b ∧ G2.heap = G.heap := by
  obtain ⟨G1, h1, hR1, hV1, hh1, -⟩ := hR.adjErase_rep hl a b
  have e : G1.spanning_trees.length = G.spanning_trees.length := congrArg View.L hV1
  obtain ⟨G2, h2, hR2, hV2, hh2, -⟩ := hR1.adjErase_rep (e ▸ hl) b a
  refine ⟨G1, G2, h1, h2, hR2, ?_, hh2.trans hh1⟩
  rw [hV2, hV1]
  exact View.erase2_eq _ l hne

/-- Both `insert` statements of an edge on the adjacency sets of forest `l`. -/
theorem Rep.insert2_rep {G : DynamicGraph} {tss : List (List Tree)} {D : Set Nat}
    (hR : Rep G tss D) {l : Nat} (hl : l < G.spanning_trees.length) {a b : Int} (hne : a ≠ b) :
    ∃ G1 G2, G.adjInsert (l : Int) a b = some G1 ∧ G1.adjInsert (l : Int) b a = some G2 ∧
      Rep G2 tss D ∧ viewOf G2 tss = (viewOf G tss).insert2 l a b ∧ G2.heap = G.heap := by
  obtain ⟨G1, h1, hR1, hV1, hh1, -⟩ := hR.adjInsert_rep hl a b
  have e : G1.spanning_trees.length = G.spanning_trees.length := congrArg View.L hV1
  obtain ⟨G2, h2, hR2, hV2, hh2, -⟩ := hR1.adjInsert_rep (e ▸ hl) b a
  refine ⟨G1, G2, h1, h2, hR2, ?_, hh2.trans hh1⟩
  rw [hV2, hV1]
  exact View.insert2_eq _ l hne

/-- The block that clears the adjacency flag of `a` over an empty adjacency set. -/
theorem Rep.clr_rep {G : DynamicGraph} {tss : List (List Tree)} {D : Set Nat}
    (hR : Rep G tss D) {l : Nat} {a : Int}
    (ha : (a, a) ∈ ((viewOf G tss).tours l).flatten) (up : Bool) :
    ∃ G1 p, G.clearIfEmpty (l : Int) a up = some G1 ∧ p ∈ nodesOf (treesAt tss l) ∧
      keyOf G.heap p = (a, a) ∧ Rep G1 tss (if up = true then D else D ∪ {p}) ∧
      viewOf G1 tss = (viewOf G tss).clr l a := by
  obtain ⟨t, ht, hk⟩ := mem_view_keys.mp ha
  obtain ⟨G1, p, nd, h1, hp, hg, hkey, hR1, hV1, -, -, -⟩ := hR.clearIfEmpty_rep ht hk up
  have hpn : p ∈ nodesOf (treesAt tss l) := mem_nodesOf.mpr ⟨t, ht, hp⟩
  have hd := hR.dat_node hpn hg
  rw [hkey] at hd
  refine ⟨G1, p, h1, hpn, (keyOf_of_get hg).trans hkey, hR1, ?_⟩
  rw [hV1]
  exact View.clr_eq _ l a hd

/-- The lookup of the node of `a` in forest `l` and the block that raises its adjacency
flag. -/
theorem Rep.raise_rep {G : DynamicGraph} {tss : List (List Tree)} {D : Set Nat}
    (hR : Rep G tss D) {l : Nat} {a : Int}
    (ha : (a, a) ∈ ((viewOf G tss).tours l).flatten) :
    ∃ p h1, G.selfNode (l : Int) a = some (G, some p) ∧
      raise_adjacent G.heap (some p) = some h1 ∧ Rep { G with heap := h1 } tss D ∧
      viewOf { G with heap := h1 } tss = (viewOf G tss).raise l a := by
  obtain ⟨t, ht, hk⟩ := mem_view_keys.mp ha
  obtain ⟨p, nd, hs, hp, hg, hkey⟩ := hR.selfNode_spec ht hk
  obtain ⟨h1, hr, hR1, hV1, -, -⟩ := hR.raise_adjacent_rep ht hp hg
  have hd := hR.dat_node (mem_nodesOf.mpr ⟨t, ht, hp⟩) hg
  rw [hkey] at hd hV1
  refine ⟨p, h1, hs, hr, hR1, ?_⟩
  rw [hV1]
  exact View.raise_eq _ l a hd

theorem Tree.Sub.mem {s t : Tree} (h : Tree.Sub s t) {p : Nat} (hp : p ∈ s.toList) :
    p ∈ t.toList := by
  induction h with
  | refl => exact hp
  | left _ ih =>
    simp only [Tree.toList, List.mem_append, List.mem_cons]
    exact Or.inl ih
  | right _ ih =>
    simp only [Tree.toList, List.mem_append, List.mem_cons]
    exact Or.inr (Or.inr ih)

theorem Tree.Sub.shape {h : Heap} {s t : Tree} (hs : Tree.Sub s t) (ht : ShapeU h t) :
    ShapeU h s := by
  induction hs with
  | refl => exact ht
  | left _ ih =>
    obtain ⟨nd, -, -, -, -, hl, -, -, -⟩ := ht
    exact ih hl
  | right _ ih =>
    obtain ⟨nd, -, -, -, -, -, hr, -, -⟩ := ht
    exact ih hr

theorem Tree.Sub.nodup {s t : Tree} (hs : Tree.Sub s t) (ht : t.toList.Nodup) :
    s.toList.Nodup := by
  induction hs with
  | refl => exact ht
  | left _ ih =>
    simp only [Tree.toList] at ht
    exact ih (List.nodup_append.mp ht).1
  | right _ ih =>
    simp only [Tree.toList] at ht
    exact ih (List.nodup_cons.mp (List.nodup_append.mp ht).2.1).2

theorem Tree.Sub.of_node {l r t : Tree} {p : Nat} (h : Tree.Sub (.node l p r) t) :
    Tree.Sub l t ∧ Tree.Sub r t := by
  generalize hs : Tree.node l p r = s at h
  induction h with
  | refl => subst hs; exact ⟨.left (.refl l), .right (.refl r)⟩
  | left _ ih => exact ⟨.left ih.1, .left ih.2⟩
  | right _ ih => exact ⟨.right ih.1, .right ih.2⟩

/-- A subtree whose aggregate `size_of_min_level` is clear holds no node with
`is_min_level`. -/
theorem agg_false_min {h : Heap} : ∀ (s : Tree), ShapeU h s → (∀ p ∈ s.toList, Cons h p) →
    get_size_min_level h s.root = some false →
    ∀ p ∈ s.toList, ∃ nd, h.get p = some nd ∧ nd.is_min_level = false
  | .nil, _, _, _, p, hp => by simp [Tree.toList] at hp
  | .node l q r, hs, hc, hagg, p, hp => by
    obtain ⟨nd, hg, hl, hr, -, hsl, hsr, -, -⟩ := hs
    obtain ⟨nd1, ml, mr, al, ar, hg1, hml, hmr, -, -, hm, -⟩ :=
      hc q (by simp [Tree.toList])
    rw [hg] at hg1
    obtain rfl := Option.some.inj hg1
    simp only [Tree.root, get_size_min_level, hg, Option.map_some', Option.some.injEq] at hagg
    rw [hagg] at hm
    have h1 : ml = false ∧ mr = false ∧ nd.is_min_level = false := by
      revert hm
      cases ml <;> cases mr <;> cases nd.is_min_level <;> simp
    obtain ⟨rfl, rfl, h2⟩ := h1
    simp only [Tree.toList, List.mem_append, List.mem_cons] at hp
    rcases hp with hp | rfl | hp
    · exact agg_false_min l hsl (fun x hx => hc x (by simp [Tree.toList, hx]))
        (by rw [← hl]; exact hml) p hp
    · exact ⟨nd, hg, h2⟩
    · exact agg_false_min r hsr (fun x hx => hc x (by simp [Tree.toList, hx]))
        (by rw [← hr]; exact hmr) p hp

/-- A subtree whose aggregate `size_of_adjacent` is clear holds no node with
`is_has_adjacent`. -/
theorem agg_false_adj {h : Heap} : ∀ (s : Tree), ShapeU h s → (∀ p ∈ s.toList, Cons h p) →
    get_size_adjacent h s.root = some false →
    ∀ p ∈ s.toList, ∃ nd, h.get p = some nd ∧ nd.is_has_adjacent = false
  | .nil, _, _, _, p, hp => by simp [Tree.toList] at hp
  | .node l q r, hs, hc, hagg, p, hp => by
    obtain ⟨nd, hg, hl, hr, -, hsl, hsr, -, -⟩ := hs
    obtain ⟨nd1, ml, mr, al, ar, hg1, -, -, hal, har, -, hm⟩ :=
      hc q (by simp [Tree.toList])
    rw [hg] at hg1
    obtain rfl := Option.some.inj hg1
    simp only [Tree.root, get_size_adjacent, hg, Option.map_some', Option.some.injEq] at hagg
    rw [hagg] at hm
    have h1 : al = false ∧ ar = false ∧ nd.is_has_adjacent = false := by
      revert hm
      cases al <;> cases ar <;> cases nd.is_has_adjacent <;> simp
    obtain ⟨rfl, rfl, h2⟩ := h1
    simp only [Tree.toList, List.mem_append, List.mem_cons] at hp
    rcases hp with hp | rfl | hp
    · exact agg_false_adj l hsl (fun x hx => hc x (by simp [Tree.toList, hx]))
        (by rw [← hl]; exact hal) p hp
    · exact ⟨nd, hg, h2⟩
    · exact agg_false_adj r hsr (fun x hx => hc x (by simp [Tree.toList, hx]))
        (by rw [← hr]; exact har) p hp

/-- Keys of the nodes of a treap of level `κ` are read off the view. -/
theorem keyOf_of_view {G G1 : DynamicGraph} {tss tss1 : List (List Tree)} {κ : Nat}
    (ht : treesAt tss1 κ = treesAt tss κ)
    (hV : (viewOf G1 tss1).tours κ = (viewOf G tss).tours κ) {t : Tree}
    (hm : t ∈ treesAt tss κ) {p : Nat} (hp : p ∈ t.toList) :
    keyOf G1.heap p = keyOf G.heap p := by
  have h1 : (treesAt tss κ).map (tourKeys G1.heap) = (treesAt tss κ).map (tourKeys G.heap) := by
    have := hV
    simp only [viewOf, ht] at this
    exact this
  have h2 := List.map_inj_left.mp h1 t hm
  simp only [tourKeys] at h2
  exact List.map_inj_left.mp h2 p hp

theorem selfCount_pos {s : List (Int × Int)} {c : Int} (h : (c, c) ∈ s) : 1 ≤ selfCount s := by
  have : (c, c) ∈ s.filter (fun k => decide (k.1 = k.2)) :=
    List.mem_filter.mpr ⟨h, by simp⟩
  rw [selfCount]
  exact List.length_pos_of_mem this

theorem View.build_unmin (V : View) (κ : Nat) (k : Int × Int) (m : Int) (h : κ ≠ V.L) :
    View.build { V.unmin κ k with mx := m } = (View.build { V with mx := m }).unmin κ k := by
  apply View.ext <;> try rfl
  funext l k1
  simp only [View.build, View.unmin]
  by_cases h1 : l = V.L
  · have h2 : ¬ (l = κ ∧ k1 = k) := fun h2 => h (h2.1.symm.trans h1)
    simp only [if_pos h1, if_neg h2]
  · simp only [if_neg h1]

theorem StepI.refl_step (κ : Nat) (V : View) : StepI κ V V := ⟨rfl, rfl, fun _ h => h⟩

theorem StepI.trans_step {κ : Nat} {V V1 V2 : View} (h1 : StepI κ V V1) (h2 : StepI κ V1 V2) :
    StepI κ V V2 :=
  ⟨h2.1.trans h1.1, h2.2.1.trans h1.2.1, fun k h => h2.2.2 k (h1.2.2 k h)⟩

theorem StepB.refl_stepB (κ : Nat) (V : View) : StepB κ V V := ⟨rfl, rfl, rfl, fun _ h => h⟩

theorem StepB.trans_stepB {κ : Nat} {V V1 V2 : View} (h1 : StepB κ V V1) (h2 : StepB κ V1 V2) :
    StepB κ V V2 :=
  ⟨h2.1.trans h1.1, h2.2.1.trans h1.2.1, h2.2.2.1.trans h1.2.2.1,
    fun k h => h2.2.2.2 k (h1.2.2.2 k h)⟩

theorem int_eq_cast {x : Int} (h : 0 ≤ x) : x = ((x.toNat : Nat) : Int) := (Int.toNat_of_nonneg h).symm

/-- Method `RemoveEdge` on a recorded non-tree edge keeps the invariant. -/
theorem RemoveEdge_nontree {G : DynamicGraph} {n : Nat} {E : List (Int × Int)}
    (hI : Inv G n E) {u v : Int} (hv : validOp n E (.remove u v) = true)
    (hN : (G.not_spanning_edges_levels.find (u, v)).isSome = true) :
    ∃ G1, RemoveEdge G u v = some G1 ∧ Inv G1 n (stepEdges E (.remove u v)) := by
  obtain ⟨hn, tss, hR, hA⟩ := hI
  obtain ⟨hu, hv', hne, -⟩ := validOp_remove hv
  rw [← hn] at hu hv'
  cases hlv0 : G.not_spanning_edges_levels.find (u, v) with
  | none => rw [hlv0] at hN; exact Bool.noConfusion hN
  | some lv =>
    obtain ⟨-, -, -, -, -, hlv1, hlv2⟩ := hA.rngN u v lv hlv0
    obtain ⟨l, rfl⟩ : ∃ l : Nat, lv = (l : Int) := ⟨lv.toNat, int_eq_cast hlv1⟩
    have hl : l < G.spanning_trees.length := hA.level_in hlv2
    have hR1 : Rep { G with not_spanning_edges_levels :=
        (G.not_spanning_edges_levels.erase (u, v)).erase (v, u) } tss ∅ := hR.of_fields rfl rfl
    obtain ⟨G2, G3, h2, h3, hR3, hV3, -⟩ := hR1.erase2_rep (l := l) hl hne
    have hu3 : (u, u) ∈ ((viewOf G3 tss).tours l).flatten := by
      rw [hV3]; exact (hA.verts l hl u).mpr hu
    obtain ⟨G4, p4, h4, -, -, hR4, hV4⟩ := hR3.clr_rep hu3 true
    rw [if_pos rfl] at hR4
    have hv4 : (v, v) ∈ ((viewOf G4 tss).tours l).flatten := by
      rw [hV4, hV3]; exact (hA.verts l hl v).mpr hv'
    obtain ⟨G5, p5, h5, -, -, hR5, hV5⟩ := hR4.clr_rep hv4 true
    rw [if_pos rfl] at hR5
    refine ⟨G5, ?_, ?_, tss, hR5, ?_⟩
    · have hc : G.not_spanning_edges_levels.count (u, v) ≠ 0 :=
        (LevelMap.count_ne_zero _ _).mpr hN
      simp only [RemoveEdge, hc, ne_eq, not_false_eq_true, if_true, LevelMap.at_present hlv0,
        h2, h3, h4, Option.some_bind]
      exact h5
    · have e : G5.n_ = G.n_ := by
        have := congrArg View.n hV5
        rw [hV4, hV3] at this
        exact this
      rw [e, hn]
    · rw [hV5, hV4, hV3]
      have A1 := hA.erase2 (show (viewOf G tss).lvN.find (u, v) = some (l : Int) from hlv0)
      have A2 := A1.clr (l := l) hl hu
      have A3 := A2.clr (l := l) hl hv'
      have A4 := A3.lvN_erase (a := u) (b := v) (Or.inr rfl) hN rfl
      refine A4.mono_par (fun _ _ => rfl) (fun _ _ => Iff.rfl) rfl rfl rfl ?_ ?_ rfl rfl
      · intro k
        constructor
        · exact fun h => h.elim
        · rintro ⟨(h | h), h1, -⟩
          · exact h
          · exact h1 h
      · rintro l1 c ⟨⟨(h | ⟨h1, (h2 | h2)⟩), h3⟩, h4⟩
        · exact h
        · exact h3 ⟨h1, h2⟩
        · exact h4 ⟨h1, h2⟩

/-- One call `spanning_trees[l]->delete_edge(u, v)` of the loop of `RemoveEdge`. -/
theorem cut_level {E : List (Int × Int)} {u v cl : Int} {G : DynamicGraph}
    {tss : List (List Tree)} (hR : Rep G tss ∅) {l : Nat}
    (hA : Abs (viewOf G tss) (Par.cutting E u v cl l)) (hlc : (l : Int) ≤ cl)
    (hlv : G.spanning_edges_levels.find (u, v) = some cl) :
    ∃ G1 tss1, G.deleteEdgeAt (l : Int) u v = some G1 ∧ Rep G1 tss1 ∅ ∧
      Abs (viewOf G1 tss1) (Par.cutting E u v cl ((l : Int) - 1)) ∧ G1.n_ = G.n_ ∧
      G1.spanning_edges_levels = G.spanning_edges_levels := by
  obtain ⟨hne, -, hcl1, -⟩ := hA.pefact u v cl rfl
  have hl : l < (viewOf G tss).L := hA.level_in (le_trans hlc hcl1)
  have h1 : (u, v) ∈ ((viewOf G tss).tours l).flatten :=
    (hA.reg l hl u v hne).mpr ⟨⟨cl, hlv, hlc⟩, fun _ => le_refl _⟩
  obtain ⟨t, ht, hk⟩ := mem_view_keys.mp h1
  have hk1 : (v, u) ∈ tourKeys G.heap t :=
    (hA.et l _ (mem_view_tours.mpr ⟨t, ht, rfl⟩)).rev_mem u v hk
  obtain ⟨rest, hperm⟩ := perm_one ht
  obtain ⟨G1, tV, tU, S, U, hdel, hR1, hrot, hV1, -⟩ :=
    hR.deleteEdgeAt_spec hperm (fun _ _ h => h) hne hk hk1
  refine ⟨G1, _, hdel, hR1, ?_, congrArg View.n hV1, congrArg View.lvT hV1⟩
  rw [hV1]
  exact hA.cut_step hlc (hperm.map (tourKeys G.heap)) hrot

/-- The loop `for (lvl = k; lvl >= 0; --lvl) spanning_trees[lvl]->delete_edge(u, v)`. -/
theorem delete_edge_down_spec {E : List (Int × Int)} {u v cl : Int} :
    ∀ (k : Nat) (G : DynamicGraph) (tss : List (List Tree)), Rep G tss ∅ →
      Abs (viewOf G tss) (Par.cutting E u v cl k) → (k : Int) ≤ cl →
      G.spanning_edges_levels.find (u, v) = some cl →
      ∃ G1 tss1, delete_edge_down u v k G = some G1 ∧ Rep G1 tss1 ∅ ∧
        Abs (viewOf G1 tss1) (Par.cutting E u v cl (-1)) ∧ G1.n_ = G.n_ ∧
        G1.spanning_edges_levels = G.spanning_edges_levels
  | 0, G, tss, hR, hA, hk, hlv => by
    obtain ⟨G1, tss1, h1, hR1, hA1, hn1, hm1⟩ := cut_level hR hA hk hlv
    refine ⟨G1, tss1, ?_, hR1, hA1, hn1, hm1⟩
    simp only [delete_edge_down]
    exact h1
  | k + 1, G, tss, hR, hA, hk, hlv => by
    obtain ⟨G1, tss1, h1, hR1, hA1, hn1, hm1⟩ := cut_level hR hA hk hlv
    have e : ((k + 1 : Nat) : Int) - 1 = (k : Int) := by push_cast; ring
    rw [e] at hA1
    have e1 : ((k + 1 : Nat) : Int) = (k : Int) + 1 := by push_cast; rfl
    rw [e1] at h1
    obtain ⟨G2, tss2, h2, hR2, hA2, hn2, hm2⟩ :=
      delete_edge_down_spec k G1 tss1 hR1 hA1 (by omega) (by rw [hm1]; exact hlv)
    refine ⟨G2, tss2, ?_, hR2, hA2, hn2.trans hn1, hm2.trans hm1⟩
    simp only [delete_edge_down, h1, Option.some_bind]
    exact h2

/-- The forest of level `κ + 1` exists after the block of `IncreaseLevel` that may build
it. -/
theorem prepare_level {E : List (Int × Int)} {u v : Int} {κ : Nat} {G : DynamicGraph}
    {tss : List (List Tree)} {D : Set Nat} (hR : Rep G tss D) (hD : ∀ p ∈ D, p < G.heap.next)
    (V : View) (k : Int × Int) (hV : viewOf G tss = V.unmin κ k)
    (hA : Abs V (Par.search E u v κ none))
    (hsz : (2 : Int) ^ (κ + 1) ≤ V.n) :
    ∃ G2 tss2 Vb,
      (if (κ : Int) + 1 = (G.spanning_trees.length : Int) then
        DynamicGraph.build { G with mx_level := max G.mx_level ((κ : Int) + 1) } ((κ : Int) + 1)
       else { G with mx_level := max G.mx_level ((κ : Int) + 1) }) = G2 ∧
      Rep G2 tss2 D ∧ viewOf G2 tss2 = Vb.unmin κ k ∧ Abs Vb (Par.search E u v κ none) ∧
      κ + 1 < Vb.L ∧ treesAt tss2 κ = treesAt tss κ ∧ Vb.tours κ = V.tours κ ∧ Vb.n = V.n ∧
      (∀ k1, Vb.dat κ k1 = V.dat κ k1) ∧ Vb.lvT = V.lvT := by
  have hκ : (κ : Int) ≤ V.mx := (hA.pefact u v κ rfl).2.2.1
  have hmx := hA.mx_len
  have hL : G.spanning_trees.length = V.L := congrArg View.L hV
  have hmxG : G.mx_level = V.mx := congrArg View.mx hV
  by_cases hb : (κ : Int) + 1 = (G.spanning_trees.length : Int)
  · rw [if_pos hb]
    have hmax : max G.mx_level ((κ : Int) + 1) = V.mx + 1 := by
      rw [hmxG, hL] at *
      have : (κ : Int) = V.mx := by omega
      rw [this]
      exact max_eq_right (by omega)
    have hR1 : Rep { G with mx_level := max G.mx_level ((κ : Int) + 1) } tss D :=
      hR.of_fields rfl rfl
    obtain ⟨ts, hRb, hVb, -, -⟩ := hR1.build_rep hD
    have hκL : κ ≠ V.L := by
      have := hA.level_in hκ
      omega
    have e1 : viewOf { G with mx_level := max G.mx_level ((κ : Int) + 1) } tss =
        { V.unmin κ k with mx := V.mx + 1 } := by
      have : viewOf { G with mx_level := max G.mx_level ((κ : Int) + 1) } tss =
          { viewOf G tss with mx := max G.mx_level ((κ : Int) + 1) } := rfl
      rw [this, hV, hmax]
    rw [e1, View.build_unmin V κ k _ hκL] at hVb
    refine ⟨_, tss ++ [ts], View.build { V with mx := V.mx + 1 }, ?_, hRb, hVb,
      hA.build_level (by rw [← hL]; have : κ + 1 = G.spanning_trees.length := by omega
                         rw [← this]; exact hsz), ?_, ?_, ?_, rfl, ?_, rfl⟩
    · rw [hb]
    · show κ + 1 < V.L + 1
      omega
    · rw [treesAt_append, if_neg]
      rw [hR.len, hL]
      exact hκL
    · show (if κ = V.L then _ else V.tours κ) = V.tours κ
      rw [if_neg hκL]
    · intro k1
      show (if κ = V.L then _ else V.dat κ k1) = V.dat κ k1
      rw [if_neg hκL]
  · rw [if_neg hb]
    have hκL := hA.level_in hκ
    have hmax : max G.mx_level ((κ : Int) + 1) = G.mx_level := by
      rw [hmxG, hL] at *
      exact max_eq_left (by omega)
    rw [hmax]
    refine ⟨_, tss, V, rfl, hR.of_fields rfl rfl, hV, hA, ?_, rfl, rfl, rfl, fun _ => rfl, rfl⟩
    rw [hL] at hb
    have : (κ : Int) + 1 ≠ (V.L : Int) := hb
    omega

/-- The block of `IncreaseLevel` that moves the tree edge of a flagged node one level
up. -/
theorem promote_tree_edge_spec {E : List (Int × Int)} {u v : Int} {κ : Nat} {G : DynamicGraph}
    {tss : List (List Tree)} {D : Set Nat} (hR : Rep G tss D) {t0 : Tree}
    (ht0 : t0 ∈ treesAt tss κ) (hDt : ∀ q ∈ D, q ∈ t0.toList) {p : Nat} (hp : p ∈ t0.toList)
    {nd : Node} (hg : G.heap.get p = some nd) (hmin : nd.is_min_level = true)
    (hA : Abs (viewOf G tss) (Par.search E u v κ none))
    (hT1 : 2 ^ (κ + 1) * (selfCount (tourKeys G.heap t0) : Int) ≤ G.n_) :
    ∃ G4 tss4, promote_tree_edge G p nd = some G4 ∧ Rep G4 tss4 (D ∪ {p}) ∧
      treesAt tss4 κ = treesAt tss κ ∧ Abs (viewOf G4 tss4) (Par.search E u v κ none) ∧
      StepI κ (viewOf G tss) (viewOf G4 tss4) ∧ NoMin (viewOf G4 tss4) κ nd.key := by
  have hpn : p ∈ nodesOf (treesAt tss κ) := mem_nodesOf.mpr ⟨t0, ht0, hp⟩
  have hdat := hR.dat_node hpn hg
  rw [hmin] at hdat
  obtain ⟨a, b, hkey⟩ : ∃ a b, nd.key = (a, b) := ⟨nd.key.1, nd.key.2, rfl⟩
  rw [hkey] at hdat
  have hab0 : a ≠ b := by
    rintro rfl
    have := (hA.dself κ a true _ _ hdat).1
    exact Bool.noConfusion this
  obtain ⟨hf, hm, hx⟩ := hA.dedge κ a b true _ _ hab0 hdat
  obtain ⟨hab, hlv⟩ := hm.mp rfl
  have hlev : nd.level = κ := hx rfl
  have hk : (a, b) ∈ tourKeys G.heap t0 :=
    mem_tourKeys.mpr ⟨p, hp, by rw [keyOf_of_get hg, hkey]⟩
  have hs1 : tourKeys G.heap t0 ∈ (viewOf G tss).tours κ := mem_view_tours.mpr ⟨t0, ht0, rfl⟩
  obtain ⟨-, ha0, ha1, hb0, hb1, -, -⟩ := hA.rngT a b _ hlv
  -- the flag is cleared
  obtain ⟨hR1, hV1⟩ := @Rep.write_flags G tss D hR κ p hpn nd
    { nd with is_min_level := false } hg rfl rfl rfl rfl
  have hV1a : viewOf { G with heap := G.heap.set p { nd with is_min_level := false } } tss =
      (viewOf G tss).unmin κ (a, b) := by
    rw [hV1, hkey]
    exact View.unmin_eq _ κ (a, b) hdat
  have hset : set_is_min_level G.heap p false =
      some (G.heap.set p { nd with is_min_level := false }) := by
    simp only [set_is_min_level, hg, Option.map_some']
  have hnx : (G.heap.set p { nd with is_min_level := false }).next = G.heap.next := rfl
  obtain ⟨h1, hh1⟩ : ∃ h1, h1 = G.heap.set p { nd with is_min_level := false } := ⟨_, rfl⟩
  rw [← hh1] at hR1 hV1a hset hnx
  have hsz : (2 : Int) ^ (κ + 1) ≤ (viewOf G tss).n := by
    have h1 := selfCount_pos ((hA.et κ _ hs1).self_mem a b hk).1
    refine le_trans ?_ hT1
    have h2 : (1 : Int) ≤ (selfCount (tourKeys G.heap t0) : Int) := by exact_mod_cast h1
    have h3 : (0 : Int) ≤ 2 ^ (κ + 1) := by positivity
    nlinarith
  have hD1 : ∀ q ∈ D ∪ {p}, q < h1.next := by
    intro q hq
    rw [hnx]
    have hq1 : q ∈ t0.toList := by
      rcases hq with hq | hq
      · exact hDt q hq
      · rw [Set.mem_singleton_iff.mp hq]; exact hp
    exact hR.node_lt (mem_nodesOf.mpr ⟨t0, ht0, hq1⟩)
  obtain ⟨G2, tss2, Vb, hG2, hR2, hV2, hAb, hκ1, htr2, hbt, hbn, hbd, hbl⟩ :=
    prepare_level hR1 hD1 (viewOf G tss) (a, b) hV1a hA hsz
  have hV2t : (viewOf G2 tss2).tours = Vb.tours := by rw [hV2]; rfl
  have hlvb : Vb.lvT.find (a, b) = some (κ : Int) := by rw [hbl]; exact hlv
  have hkfb : (a, b) ∈ (Vb.tours κ).flatten := by
    rw [hbt]; exact List.mem_flatten.mpr ⟨_, hs1, hk⟩
  have hapart := hAb.promote_apart hκ1 (hAb.sub_of_W hκ1 (fun _ h => h)) hab0 hlvb hkfb
  have hva : (a, a) ∈ ((viewOf G2 tss2).tours (κ + 1)).flatten := by
    rw [hV2t]; exact (hAb.verts (κ + 1) hκ1 a).mpr ⟨ha0, by rw [hbn]; exact ha1⟩
  have hvb : (b, b) ∈ ((viewOf G2 tss2).tours (κ + 1)).flatten := by
    rw [hV2t]; exact (hAb.verts (κ + 1) hκ1 b).mpr ⟨hb0, by rw [hbn]; exact hb1⟩
  obtain ⟨tA, htA, hkA⟩ := mem_view_keys.mp hva
  obtain ⟨tB, htB, hkB⟩ := mem_view_keys.mp hvb
  have hAB : tA ≠ tB := by
    rintro rfl
    apply hapart
    rw [← hV2t]
    exact ⟨_, mem_view_tours.mpr ⟨tA, htA, rfl⟩, hkA, hkB⟩
  obtain ⟨rest, hperm⟩ := perm_two htA htB hAB
  have hnot : ∀ c d, (c, d) = (a, b) ∨ (c, d) = (b, a) →
      (c, d) ∉ ((viewOf G2 tss2).tours (κ + 1)).flatten := by
    intro c d hcd h
    rw [hV2t] at h
    have hne : c ≠ d := by
      rcases hcd with h1 | h1
      · obtain ⟨rfl, rfl⟩ := Prod.mk.inj h1; exact hab0
      · obtain ⟨rfl, rfl⟩ := Prod.mk.inj h1; exact fun h2 => hab0 h2.symm
    obtain ⟨⟨lv, h1, h2⟩, -⟩ := (hAb.reg (κ + 1) hκ1 c d hne).mp h
    have h3 : Vb.lvT.find (c, d) = some (κ : Int) := by
      rcases hcd with h4 | h4
      · rw [h4]; exact hlvb
      · rw [h4, hAb.symT b a]; exact hlvb
    rw [h3] at h1
    have := Option.some.inj h1
    push_cast at h2
    omega
  have hD2 : ∀ q ∈ nodesOf (treesAt tss2 (κ + 1)), q ∉ D ∪ {p} := by
    intro q hq hqD
    have hq1 : q ∈ t0.toList := by
      rcases hqD with hq | hq
      · exact hDt q hq
      · rw [Set.mem_singleton_iff.mp hq]; exact hp
    have hq2 : q ∈ nodesOf (treesAt tss2 κ) := by
      rw [htr2]; exact mem_nodesOf.mpr ⟨t0, ht0, hq1⟩
    exact hR2.sep (κ + 1) κ q (by omega) hq hq2
  obtain ⟨G3, T, A, B, hadd, hR3, hrA, hrB, hV3, -⟩ :=
    hR2.addEdgeAt_spec (l := κ + 1) hperm hD2 ((κ : Int) + 1) hkA hkB hab0
      (hnot a b (Or.inl rfl)) (hnot b a (Or.inr rfl))
  rw [cast_succ_int] at hadd
  have hl3 : G3.spanning_edges_levels = (viewOf G tss).lvT := by
    have := congrArg View.lvT hV3
    rw [hV2] at this
    exact this.trans hbl
  have e1 : G3.spanning_edges_levels.incr (a, b) =
      G3.spanning_edges_levels.set (a, b) ((κ : Int) + 1) :=
    LevelMap.incr_some (by rw [hl3]; exact hlv)
  have e2 : (G3.spanning_edges_levels.set (a, b) ((κ : Int) + 1)).incr (b, a) =
      (G3.spanning_edges_levels.set (a, b) ((κ : Int) + 1)).set (b, a) ((κ : Int) + 1) := by
    apply LevelMap.incr_some
    rw [LevelMap.find_set, if_neg (fun h => hab0 (Prod.mk.inj h).1.symm), hl3,
      (hA.symT b a)]
    exact hlv
  have hR4 : Rep { G3 with spanning_edges_levels :=
      (G3.spanning_edges_levels.set (a, b) ((κ : Int) + 1)).set (b, a) ((κ : Int) + 1) }
      (tss2.set (κ + 1) (T :: rest)) (D ∪ {p}) := hR3.of_fields rfl rfl
  have hV4 : viewOf { G3 with spanning_edges_levels :=
      (G3.spanning_edges_levels.set (a, b) ((κ : Int) + 1)).set (b, a) ((κ : Int) + 1) }
      (tss2.set (κ + 1) (T :: rest)) =
      { (Vb.unmin κ (a, b)).link (κ + 1) a b ((κ : Int) + 1) A B
          (rest.map (tourKeys G2.heap)) with
        lvT := (Vb.lvT.set (a, b) ((κ : Int) + 1)).set (b, a) ((κ : Int) + 1) } := by
    have : viewOf { G3 with spanning_edges_levels :=
        (G3.spanning_edges_levels.set (a, b) ((κ : Int) + 1)).set (b, a) ((κ : Int) + 1) }
        (tss2.set (κ + 1) (T :: rest)) =
        { viewOf G3 (tss2.set (κ + 1) (T :: rest)) with
          lvT := (G3.spanning_edges_levels.set (a, b) ((κ : Int) + 1)).set (b, a)
            ((κ : Int) + 1) } := rfl
    rw [this, hV3, hV2, hl3, hbl]
  have hdb : Vb.dat κ (a, b) = some (true, nd.is_has_adjacent, nd.level) := by
    rw [hbd]; exact hdat
  have hpermV : (Vb.tours (κ + 1)).Perm
      (tourKeys G2.heap tA :: tourKeys G2.heap tB :: rest.map (tourKeys G2.heap)) := by
    rw [← hV2t]
    exact hperm.map (tourKeys G2.heap)
  have hA4 := hAb.promote_tree hκ1 hab hdb (by rw [hbt]; exact hs1) hk
    (by rw [hbn]; exact hT1) hpermV hrA hrB
  have hdk : ∀ k, ({ (Vb.unmin κ (a, b)).link (κ + 1) a b ((κ : Int) + 1) A B
          (rest.map (tourKeys G2.heap)) with
        lvT := (Vb.lvT.set (a, b) ((κ : Int) + 1)).set (b, a) ((κ : Int) + 1) } : View).dat κ k =
      if k = (a, b) then (Vb.dat κ k).map (fun d => (false, d.2.1, d.2.2)) else Vb.dat κ k := by
    intro k
    simp [View.link, View.setLevel, View.unmin]
  refine ⟨_, _, ?_, hR4, ?_, ?_, ?_, ?_⟩
  · simp only [promote_tree_edge, hset, Option.some_bind, hlev, hkey]
    rw [hG2, hadd]
    simp only [Option.some_bind, e1, e2]
  · have hL2 : G2.spanning_trees.length = Vb.L := congrArg View.L hV2
    rw [treesAt_set _ _ (by rw [hR2.len, hL2]; exact hκ1), if_neg (by omega)]
    exact htr2
  · rw [hV4]; exact hA4
  · rw [hV4]
    refine ⟨?_, hbn, ?_⟩
    · show (if κ = κ + 1 then _ else Vb.tours κ) = _
      rw [if_neg (by omega)]
      exact hbt
    · intro k hk1 m f x hd
      rw [hdk] at hd
      by_cases h1 : k = (a, b)
      · rw [if_pos h1, h1, hdb] at hd
        simp only [Option.map_some', Option.some.injEq, Prod.mk.injEq] at hd
        exact hd.1.symm
      · rw [if_neg h1, hbd] at hd
        exact hk1 m f x hd
  · rw [hV4, hkey]
    intro m f x hd
    rw [hdk, if_pos rfl, hdb] at hd
    simp only [Option.map_some', Option.some.injEq, Prod.mk.injEq] at hd
    exact hd.1.symm

theorem IncreaseLevel_none (f : Nat) (G : DynamicGraph) : IncreaseLevel f G none = some G := by
  cases f <;> rfl

theorem nodup_node {l r : Tree} {p : Nat} (h : (Tree.node l p r).toList.Nodup) :
    p ∉ l.toList ∧ p ∉ r.toList := by
  simp only [Tree.toList] at h
  have h1 := List.nodup_append.mp h
  refine ⟨fun hp => h1.2.2 hp (List.mem_cons_self _ _), ?_⟩
  exact (List.nodup_cons.mp h1.2.1).1

theorem noMin_of_node {G : DynamicGraph} {tss : List (List Tree)} {D : Set Nat}
    (hR : Rep G tss D) {κ : Nat} {q : Nat} (hq : q ∈ nodesOf (treesAt tss κ)) {nd : Node}
    (hg : G.heap.get q = some nd) (hm : nd.is_min_level = false) :
    NoMin (viewOf G tss) κ (keyOf G.heap q) := by
  have hd := hR.dat_node hq hg
  rw [keyOf_of_get hg]
  intro m f x hd1
  rw [hd] at hd1
  simp only [Option.some.injEq, Prod.mk.injEq] at hd1
  rw [← hd1.1, hm]

/-- Method `IncreaseLevel` on a subtree of the smaller tree: every tree edge of level `κ`
under it moves to level `κ + 1`. -/
theorem IncreaseLevel_spec {E : List (Int × Int)} {u v : Int} {κ : Nat} {t0 : Tree} :
    ∀ (s : Tree) (f : Nat) (G : DynamicGraph) (tss : List (List Tree)) (D : Set Nat),
      s.size ≤ f → Tree.Sub s t0 → Rep G tss D → t0 ∈ treesAt tss κ →
      (∀ p ∈ s.toList, p ∉ D) → (∀ p ∈ D, p ∈ t0.toList) →
      Abs (viewOf G tss) (Par.search E u v κ none) →
      2 ^ (κ + 1) * (selfCount (tourKeys G.heap t0) : Int) ≤ G.n_ →
      ∃ G1 tss1, IncreaseLevel f G s.root = some G1 ∧ Rep G1 tss1 D ∧
        treesAt tss1 κ = treesAt tss κ ∧ Abs (viewOf G1 tss1) (Par.search E u v κ none) ∧
        StepI κ (viewOf G tss) (viewOf G1 tss1) ∧
        (∀ p ∈ s.toList, NoMin (viewOf G1 tss1) κ (keyOf G.heap p))
  | .nil, f, G, tss, D, _, _, hR, _, _, _, hA, _ =>
    ⟨G, tss, IncreaseLevel_none f G, hR, rfl, hA, StepI.refl_step _ _,
      fun p hp => by simp [Tree.toList] at hp⟩
  | .node l p r, 0, _, _, _, hf, _, _, _, _, _, _, _ => by
    simp [Tree.size] at hf
  | .node l p r, f + 1, G, tss, D, hf, hsub, hR, ht0, hsD, hDt, hA, hT1 => by
    obtain ⟨F, hF⟩ := hR.forest_of_tree ht0
    have hshape0 : ShapeU G.heap t0 := ((hR.shape κ F hF).shape t0 ht0).1
    have hnd0 : t0.toList.Nodup := (hR.shape κ F hF).nodup_one ht0
    obtain ⟨nd, hg, hl, hr, -, -, -, -, -⟩ := hsub.shape hshape0
    have hp0 : p ∈ t0.toList := hsub.mem (by simp [Tree.toList])
    obtain ⟨hpl, hpr⟩ := nodup_node (hsub.nodup hnd0)
    obtain ⟨hsubl, hsubr⟩ := hsub.of_node
    have hsz : l.size ≤ f ∧ r.size ≤ f := by
      simp only [Tree.size] at hf
      omega
    have hmem : ∀ q, q ∈ l.toList ∨ q ∈ r.toList → q ∈ (Tree.node l p r).toList := by
      intro q hq
      simp only [Tree.toList, List.mem_append, List.mem_cons]
      rcases hq with hq | hq
      · exact Or.inl hq
      · exact Or.inr (Or.inr hq)
    by_cases hagg : nd.size_of_min_level = true
    swap
    · refine ⟨G, tss, ?_, hR, rfl, hA, StepI.refl_step _ _, ?_⟩
      · show IncreaseLevel (f + 1) G (some p) = _
        simp only [IncreaseLevel, hg, hagg, if_false, Bool.false_eq_true]
      · intro q hq
        have hagg1 : nd.size_of_min_level = false := by
          cases h : nd.size_of_min_level
          · rfl
          · exact absurd h hagg
        obtain ⟨ndq, hgq, hmq⟩ := agg_false_min (.node l p r) (hsub.shape hshape0)
          (fun x hx => hR.cons κ x (mem_nodesOf.mpr ⟨t0, ht0, hsub.mem hx⟩) (hsD x hx))
          (by simp only [Tree.root, get_size_min_level, hg, Option.map_some', hagg1]) q hq
        exact noMin_of_node hR (mem_nodesOf.mpr ⟨t0, ht0, hsub.mem hq⟩) hgq hmq
    · have hstep : ∃ G4 tss4,
          (if nd.is_min_level = true then promote_tree_edge G p nd else some G) = some G4 ∧
          Rep G4 tss4 (D ∪ {p}) ∧ treesAt tss4 κ = treesAt tss κ ∧
          Abs (viewOf G4 tss4) (Par.search E u v κ none) ∧
          StepI κ (viewOf G tss) (viewOf G4 tss4) ∧ NoMin (viewOf G4 tss4) κ (keyOf G.heap p) := by
        rw [keyOf_of_get hg]
        by_cases hmin : nd.is_min_level = true
        · rw [if_pos hmin]
          exact promote_tree_edge_spec hR ht0 hDt hp0 hg hmin hA hT1
        · rw [if_neg hmin]
          refine ⟨G, tss, rfl, hR.mono Set.subset_union_left, rfl, hA, StepI.refl_step _ _, ?_⟩
          have hmin1 : nd.is_min_level = false := by
            cases h : nd.is_min_level
            · rfl
            · exact absurd h hmin
          have := noMin_of_node hR (mem_nodesOf.mpr ⟨t0, ht0, hp0⟩) hg hmin1
          rw [keyOf_of_get hg] at this
          exact this
      obtain ⟨G4, tss4, h4, hR4, htr4, hA4, hS4, hN4⟩ := hstep
      have hD1 : ∀ q ∈ D ∪ {p}, q ∈ t0.toList := by
        intro q hq
        rcases hq with hq | hq
        · exact hDt q hq
        · rw [Set.mem_singleton_iff.mp hq]; exact hp0
      -- left child
      have ht4 : t0 ∈ treesAt tss4 κ := by rw [htr4]; exact ht0
      have hkeys4 : ∀ q ∈ t0.toList, keyOf G4.heap q = keyOf G.heap q :=
        fun q hq => keyOf_of_view htr4 hS4.1 ht0 hq
      have htk4 : tourKeys G4.heap t0 = tourKeys G.heap t0 := List.map_congr_left hkeys4
      have hn4 : G4.n_ = G.n_ := hS4.2.1
      obtain ⟨F4, hF4⟩ := hR4.forest_of_tree ht4
      obtain ⟨nd1, hg1, hl1, -, -, -, -, -, -⟩ :=
        hsub.shape ((hR4.shape κ F4 hF4).shape t0 ht4).1
      obtain ⟨G5, tss5, h5, hR5, htr5, hA5, hS5, hN5⟩ :=
        IncreaseLevel_spec l f G4 tss4 (D ∪ {p}) hsz.1 hsubl hR4 ht4
          (by
            intro q hq hqD
            rcases hqD with hqD | hqD
            · exact hsD q (hmem q (Or.inl hq)) hqD
            · rw [Set.mem_singleton_iff.mp hqD] at hq; exact hpl hq)
          hD1 hA4 (by rw [htk4, hn4]; exact hT1)
      -- right child
      have ht5 : t0 ∈ treesAt tss5 κ := by rw [htr5]; exact ht4
      have hkeys5 : ∀ q ∈ t0.toList, keyOf G5.heap q = keyOf G4.heap q :=
        fun q hq => keyOf_of_view htr5 hS5.1 ht4 hq
      have htk5 : tourKeys G5.heap t0 = tourKeys G4.heap t0 := List.map_congr_left hkeys5
      have hn5 : G5.n_ = G4.n_ := hS5.2.1
      obtain ⟨F5, hF5⟩ := hR5.forest_of_tree ht5
      obtain ⟨nd2, hg2, -, hr2, -, -, -, -, -⟩ :=
        hsub.shape ((hR5.shape κ F5 hF5).shape t0 ht5).1
      obtain ⟨G6, tss6, h6, hR6, htr6, hA6, hS6, hN6⟩ :=
        IncreaseLevel_spec r f G5 tss5 (D ∪ {p}) hsz.2 hsubr hR5 ht5
          (by
            intro q hq hqD
            rcases hqD with hqD | hqD
            · exact hsD q (hmem q (Or.inr hq)) hqD
            · rw [Set.mem_singleton_iff.mp hqD] at hq; exact hpr hq)
          hD1 hA5 (by rw [htk5, hn5, htk4, hn4]; exact hT1)
      -- the aggregates of the node
      have ht6 : t0 ∈ treesAt tss6 κ := by rw [htr6]; exact ht5
      obtain ⟨h2, hup, -, hR7, hV7, -⟩ := hR6.update_up_rep ht6 hp0
      refine ⟨{ G6 with heap := h2 }, tss6, ?_, hR7.mono ?_, htr6.trans (htr5.trans htr4),
        by rw [hV7]; exact hA6, by rw [hV7]; exact (hS4.trans_step hS5).trans_step hS6, ?_⟩
      · show IncreaseLevel (f + 1) G (some p) = _
        simp only [IncreaseLevel, hg, hagg, if_true, h4, Option.some_bind, hg1, hl1,
          h5, hg2, hr2, h6, hup]
      · rintro q ⟨hq1 | hq1, hq2⟩
        · exact hq1
        · exact absurd hq1 hq2
      · intro q hq
        rw [hV7]
        simp only [Tree.toList, List.mem_append, List.mem_cons] at hq
        rcases hq with hq | rfl | hq
        · have := hN5 q hq
          rw [hkeys4 q (hsubl.mem hq)] at this
          exact hS6.2.2 _ this
        · exact (hS5.trans_step hS6).2.2 _ hN4
        · have := hN6 q hq
          rw [hkeys5 q (hsubr.mem hq), hkeys4 q (hsubr.mem hq)] at this
          exact this

/-- The block of the first loop of `BruteforceAdjacentEdges` that takes `{a, b}` as the
replacement edge. -/
theorem take_candidate_spec {E : List (Int × Int)} {u v : Int} {κ : Nat} {G : DynamicGraph}
    {tss : List (List Tree)} {D : Set Nat} (hR : Rep G tss D)
    (hA : Abs (viewOf G tss) (Par.search E u v κ none)) {a b : Int}
    (hb : b ∈ (viewOf G tss).adj κ a) (h0 : ¬ SameT ((viewOf G tss).tours 0) b a) :
    ∃ G1 p, take_candidate κ a b G = some G1 ∧ p ∈ nodesOf (treesAt tss κ) ∧
      keyOf G.heap p = (a, a) ∧ Rep G1 tss (D ∪ {p}) ∧
      Abs (viewOf G1 tss) (Par.search E u v κ (some (a, b))) ∧
      StepB κ (viewOf G tss) (viewOf G1 tss) ∧
      (∀ x, x ∈ (viewOf G1 tss).adj κ a ↔ (x ∈ (viewOf G tss).adj κ a ∧ x ≠ b)) := by
  have hlv := hA.adj_sound κ a b hb
  obtain ⟨hne, ha0, ha1, hb0, hb1, -, hκ⟩ := hA.rngN a b _ hlv
  have hl : κ < (viewOf G tss).L := hA.level_in hκ
  obtain ⟨G2, G3, h2, h3, hR3, hV3, hh3⟩ := hR.erase2_rep (l := κ) hl hne
  have ha3 : (a, a) ∈ ((viewOf G3 tss).tours κ).flatten := by
    rw [hV3]; exact (hA.verts κ hl a).mpr ⟨ha0, ha1⟩
  obtain ⟨G4, p, h4, hp, hkp, hR4, hV4⟩ := hR3.clr_rep ha3 false
  rw [if_neg (by simp)] at hR4
  rw [hh3] at hkp
  have hb4 : (b, b) ∈ ((viewOf G4 tss).tours κ).flatten := by
    rw [hV4, hV3]; exact (hA.verts κ hl b).mpr ⟨hb0, hb1⟩
  obtain ⟨G5, p5, h5, -, -, hR5, hV5⟩ := hR4.clr_rep hb4 true
  rw [if_pos rfl] at hR5
  have A1 := hA.erase2 hlv
  have A2 := A1.clr (l := κ) hl ⟨ha0, ha1⟩
  have A3 := A2.clr (l := κ) hl ⟨hb0, hb1⟩
  have A4 := A3.set_r (x := a) (y := b) (Or.inr rfl) (fun h => h0 h.symm_same)
    (fun u1 v1 κ1 hp => by
      have hp1 : some (u, v, (κ : Int)) = some (u1, v1, κ1) := hp
      simp only [Option.some.injEq, Prod.mk.injEq] at hp1
      rw [← hp1.2.2]
      exact hlv)
  refine ⟨G5, p, ?_, hp, hkp, hR5, ?_, ?_, ?_⟩
  · simp only [take_candidate, h2, h3, h4, Option.some_bind]
    exact h5
  · rw [hV5, hV4, hV3]
    refine A4.mono_par (Q := Par.search E u v κ (some (a, b))) (fun _ _ => rfl)
      (fun _ _ => Iff.rfl) rfl rfl rfl ?_ ?_ rfl rfl
    · intro k
      constructor
      · intro h
        exact Or.inr (Option.some.inj h).symm
      · rintro (h | h)
        · exact Option.noConfusion h
        · exact congrArg some h.symm
    · rintro l1 c ⟨⟨(h | ⟨h1, (h2 | h2)⟩), h3⟩, h4⟩
      · exact h
      · exact h3 ⟨h1, h2⟩
      · exact h4 ⟨h1, h2⟩
  · rw [hV5, hV4, hV3]
    exact ((@StepB.of_dat κ (viewOf G tss) ((viewOf G tss).erase2 κ a b) rfl rfl rfl
      (fun _ => rfl)).trans_stepB (StepB.clr_step κ _ κ a)).trans_stepB (StepB.clr_step κ _ κ b)
  · intro x
    rw [hV5, hV4, hV3]
    show x ∈ ((viewOf G tss).erase2 κ a b).adj κ a ↔ _
    rw [mem_erase2 _ _ hne]
    constructor
    · rintro ⟨h6, h7⟩
      exact ⟨h6, fun h8 => h7 ⟨rfl, Or.inl ⟨rfl, h8⟩⟩⟩
    · rintro ⟨h6, h7⟩
      refine ⟨h6, ?_⟩
      rintro ⟨-, (⟨-, h8⟩ | ⟨h8, -⟩)⟩
      · exact h7 h8
      · exact hne h8

/-- The body of the second loop of `BruteforceAdjacentEdges`: a non-tree edge inside the
smaller tree moves one level up. -/
theorem promote_nontree_edge_spec {E : List (Int × Int)} {u v : Int} {κ : Nat}
    {r : Option (Int × Int)} {G : DynamicGraph} {tss : List (List Tree)} {D : Set Nat}
    (hR : Rep G tss D) {a b : Int}
    (hA : Abs (viewOf G tss) { Par.search E u v κ r with Z := fun l c => l = κ ∧ c = a })
    (hb : b ∈ (viewOf G tss).adj κ a) (hκ1 : κ + 1 < (viewOf G tss).L)
    (hs : SameT ((viewOf G tss).tours (κ + 1)) a b)
    (hr : ∀ x y, r = some (x, y) → (x, y) ≠ (a, b) ∧ (x, y) ≠ (b, a)) :
    ∃ G1, promote_nontree_edge κ a b G = some G1 ∧ Rep G1 tss D ∧
      Abs (viewOf G1 tss) { Par.search E u v κ r with Z := fun l c => l = κ ∧ c = a } ∧
      StepB κ (viewOf G tss) (viewOf G1 tss) ∧
      (∀ x, x ∈ (viewOf G1 tss).adj κ a ↔ (x ∈ (viewOf G tss).adj κ a ∧ x ≠ b)) := by
  have hlv := hA.adj_sound κ a b hb
  have hlv1 : G.not_spanning_edges_levels.find (b, a) = some (κ : Int) :=
    (hA.symN b a).trans hlv
  obtain ⟨hne, ha0, ha1, hb0, hb1, -, hκ⟩ := hA.rngN a b _ hlv
  have hl : κ < (viewOf G tss).L := by omega
  have hmxl := hA.mx_len
  have hmax : max G.mx_level ((κ : Int) + 1) = G.mx_level := by
    apply max_eq_left
    have : ((viewOf G tss).L : Int) = G.mx_level + 1 := hmxl
    omega
  have hG1 : ({ G with mx_level := max G.mx_level ((κ : Int) + 1) } : DynamicGraph) = G := by
    rw [hmax]
  have hnb : ¬ ((κ : Int) + 1 = (G.spanning_trees.length : Int)) := by
    have : κ + 1 < G.spanning_trees.length := hκ1
    omega
  obtain ⟨G3, G4, h3, h4, hR4, hV4, -⟩ := hR.erase2_rep (l := κ) hl hne
  have hL4 : κ + 1 < G4.spanning_trees.length := by
    have : G4.spanning_trees.length = G.spanning_trees.length := congrArg View.L hV4
    rw [this]; exact hκ1
  obtain ⟨G5, G6, h5, h6, hR6, hV6, -⟩ := hR4.insert2_rep (l := κ + 1) hL4 hne
  have hva : ∀ c, 0 ≤ c ∧ c < (viewOf G tss).n →
      (c, c) ∈ ((viewOf G tss).tours (κ + 1)).flatten :=
    fun c hc => (hA.verts (κ + 1) hκ1 c).mpr hc
  have ha6 : (a, a) ∈ ((viewOf G6 tss).tours (κ + 1)).flatten := by
    rw [hV6, hV4]; exact hva a ⟨ha0, ha1⟩
  obtain ⟨pa, h1, h7, h8, hR8, hV8⟩ := hR6.raise_rep ha6
  have hb8 : (b, b) ∈ ((viewOf { G6 with heap := h1 } tss).tours (κ + 1)).flatten := by
    rw [hV8, hV6, hV4]; exact hva b ⟨hb0, hb1⟩
  obtain ⟨pb, h2, h9, h10, hR10, hV10⟩ := hR8.raise_rep hb8
  have hN6 : G6.not_spanning_edges_levels = G.not_spanning_edges_levels := by
    have := congrArg View.lvN hV6
    rw [hV4] at this
    exact this
  have e1 : G6.not_spanning_edges_levels.incr (a, b) =
      G.not_spanning_edges_levels.set (a, b) ((κ : Int) + 1) := by
    rw [hN6]
    exact LevelMap.incr_some hlv
  have e2 : (G.not_spanning_edges_levels.set (a, b) ((κ : Int) + 1)).incr (b, a) =
      (G.not_spanning_edges_levels.set (a, b) ((κ : Int) + 1)).set (b, a) ((κ : Int) + 1) := by
    apply LevelMap.incr_some
    rw [LevelMap.find_set, if_neg (fun h => hne (Prod.mk.inj h).1.symm)]
    exact hlv1
  obtain ⟨N, hN⟩ : ∃ N, N = (G.not_spanning_edges_levels.set (a, b) ((κ : Int) + 1)).set (b, a)
      ((κ : Int) + 1) := ⟨_, rfl⟩
  rw [← hN] at e2
  have hR11 : Rep { G6 with heap := h2, not_spanning_edges_levels := N } tss D :=
    hR10.of_fields rfl rfl
  have hV11 : viewOf { G6 with heap := h2, not_spanning_edges_levels := N } tss =
      { ((((viewOf G tss).erase2 κ a b).insert2 (κ + 1) a b).raise (κ + 1) a).raise
        (κ + 1) b with lvN := N } := by
    have : viewOf { G6 with heap := h2, not_spanning_edges_levels := N } tss =
        { viewOf { ({ G6 with heap := h1 } : DynamicGraph) with heap := h2 } tss with
          lvN := N } := rfl
    rw [this, hV10, hV8, hV6, hV4]
  have hb11 : (b, b) ∈ ((viewOf { G6 with heap := h2, not_spanning_edges_levels := N }
      tss).tours κ).flatten := by
    rw [hV11]; exact (hA.verts κ hl b).mpr ⟨hb0, hb1⟩
  obtain ⟨G12, p12, h12, -, -, hR12, hV12⟩ := hR11.clr_rep hb11 true
  rw [if_pos rfl] at hR12
  rw [hV11, View.promote_eq] at hV12
  subst hN
  -- the invariant, step by step
  have A1 := hA.erase2 hlv
  have A2 := A1.clr (l := κ) hl ⟨hb0, hb1⟩
  have A3 := A2.lvN_raise (l := κ) (a := a) (b := b) hlv (Or.inr rfl) hκ1 hs
    (fun x y h => hr x y h)
  have hlv3 : LevelMap.find ((G.not_spanning_edges_levels.set (a, b) ((κ : Int) + 1)).set (b, a)
      ((κ : Int) + 1)) (a, b) = some (((κ + 1 : Nat)) : Int) := by
    rw [LevelMap.find_set, if_neg (fun h => hne (Prod.mk.inj h).1), LevelMap.find_set,
      if_pos rfl, cast_succ_int]
  have A4 := A3.adj_insert (l := κ + 1) (a := a) (b := b) hlv3 (fun x y h => hr x y h)
  rw [cast_succ_int] at h5 h6 h7 h9
  refine ⟨G12, ?_, hR12, ?_, ?_, ?_⟩
  · simp only [promote_nontree_edge, hG1, if_neg hnb, h3, h4, h5, h6, h7, h8, h9, h10,
      Option.some_bind, e1, e2]
    exact h12
  · rw [hV12]
    refine A4.mono_par (fun _ _ => rfl) (fun _ _ => Iff.rfl) rfl rfl rfl ?_ ?_ rfl rfl
    · intro k
      constructor
      · intro h
        refine ⟨Or.inl h, ?_, ?_⟩
        · rintro rfl; exact (hr a b h).1 rfl
        · rintro rfl; exact (hr b a h).2 rfl
      · rintro ⟨(h | h), h1, -⟩
        · exact h
        · exact absurd h h1
    · rintro l1 c ⟨(h | ⟨h1, (h2 | h2)⟩), h3⟩
      · exact h
      · exact ⟨h1, h2⟩
      · exact absurd ⟨h1, h2⟩ h3
  · rw [hV12]
    refine ⟨rfl, rfl, rfl, noAdj_mono (fun k => ?_)⟩
    have h0 : ¬ (κ = κ + 1) := by omega
    simp only [View.clr, View.raise, View.insert2, View.erase2, h0, false_and, if_false,
      true_and]
    exact ite_or _ _ _
  · intro x
    rw [hV12]
    have h0 : ¬ (κ = κ + 1) := by omega
    show x ∈ (if κ = κ + 1 ∧ a = b then _ else if κ = κ + 1 ∧ a = a then _
      else ((viewOf G tss).erase2 κ a b).adj κ a) ↔ _
    rw [if_neg (fun h => h0 h.1), if_neg (fun h => h0 h.1), mem_erase2 _ _ hne]
    constructor
    · rintro ⟨h6, h7⟩
      exact ⟨h6, fun h8 => h7 ⟨rfl, Or.inl ⟨rfl, h8⟩⟩⟩
    · rintro ⟨h6, h7⟩
      refine ⟨h6, ?_⟩
      rintro ⟨-, (⟨-, h8⟩ | ⟨h8, -⟩)⟩
      · exact h7 h8
      · exact hne h8

/-- The first loop of `BruteforceAdjacentEdges`: the neighbours connected to `a` in forest 0
are collected, up to the first one that is not. -/
theorem scan_adjacent_spec {G : DynamicGraph} {tss : List (List Tree)} {D : Set Nat}
    (hR : Rep G tss D) (κ : Int) {a : Int}
    (ha : (a, a) ∈ ((viewOf G tss).tours 0).flatten) :
    ∀ (xs td : List Int), (∀ x ∈ xs, (x, x) ∈ ((viewOf G tss).tours 0).flatten) →
      (scan_adjacent κ a xs G td = some (G, td ++ xs, (-1, -1)) ∧
        ∀ x ∈ xs, SameT ((viewOf G tss).tours 0) x a) ∨
      (∃ pre b suf, xs = pre ++ b :: suf ∧ (∀ x ∈ pre, SameT ((viewOf G tss).tours 0) x a) ∧
        ¬ SameT ((viewOf G tss).tours 0) b a ∧
        scan_adjacent κ a xs G td =
          (take_candidate κ a b G).bind (fun G5 => some (G5, td ++ pre, (a, b))))
  | [], td, _ => Or.inl ⟨by simp [scan_adjacent], fun x hx => absurd hx (List.not_mem_nil _)⟩
  | x :: xs, td, hxs => by
    obtain ⟨c, hconn, hc⟩ := hR.connectedAt_spec (l := 0) (hxs x (List.mem_cons_self _ _)) ha
    rw [cast_zero_int] at hconn
    cases c with
    | true =>
      have hx : SameT ((viewOf G tss).tours 0) x a := hc.mp rfl
      rcases scan_adjacent_spec hR κ ha xs (td ++ [x])
        (fun y hy => hxs y (List.mem_cons_of_mem _ hy)) with ⟨h1, h2⟩ | ⟨pre, b, suf, h1, h2, h3, h4⟩
      · left
        refine ⟨?_, ?_⟩
        · simp only [scan_adjacent, hconn, Option.some_bind, if_true, h1, List.append_assoc,
            List.singleton_append]
        · intro y hy
          rcases List.mem_cons.mp hy with rfl | hy
          · exact hx
          · exact h2 y hy
      · right
        refine ⟨x :: pre, b, suf, by rw [h1]; rfl, ?_, h3, ?_⟩
        · intro y hy
          rcases List.mem_cons.mp hy with rfl | hy
          · exact hx
          · exact h2 y hy
        · simp only [scan_adjacent, hconn, Option.some_bind, if_true, h4, List.append_assoc,
            List.singleton_append]
    | false =>
      right
      refine ⟨[], x, xs, rfl, fun y hy => absurd hy (List.not_mem_nil _), ?_, ?_⟩
      · intro h
        have := hc.mpr h
        exact Bool.noConfusion this
      · simp only [scan_adjacent, hconn, Option.some_bind, Bool.false_eq_true, if_false,
          List.append_nil]

/-- The second loop of `BruteforceAdjacentEdges`: the collected edges move one level up. -/
theorem promote_adjacent_spec {E : List (Int × Int)} {u v : Int} {κ : Nat}
    {r : Option (Int × Int)} {a : Int} {s1 : List (Int × Int)} {tss : List (List Tree)}
    {D : Set Nat} :
    ∀ (todo : List Int) (G : DynamicGraph), Rep G tss D →
      Abs (viewOf G tss) { Par.search E u v κ r with Z := fun l c => l = κ ∧ c = a } →
      todo.Nodup → (∀ x ∈ todo, x ∈ (viewOf G tss).adj κ a) →
      (∀ x ∈ todo, SameT ((viewOf G tss).tours 0) x a) →
      Up1 (viewOf G tss) κ s1 → s1 ∈ (viewOf G tss).tours κ → (a, a) ∈ s1 →
      ∃ G1, promote_adjacent κ a todo G = some G1 ∧ Rep G1 tss D ∧
        Abs (viewOf G1 tss) { Par.search E u v κ r with Z := fun l c => l = κ ∧ c = a } ∧
        StepB κ (viewOf G tss) (viewOf G1 tss) ∧
        (∀ x, x ∈ (viewOf G1 tss).adj κ a ↔ (x ∈ (viewOf G tss).adj κ a ∧ x ∉ todo))
  | [], G, hR, hA, _, _, _, _, _, _ =>
    ⟨G, rfl, hR, hA, StepB.refl_stepB _ _, fun x => by simp⟩
  | b :: rest, G, hR, hA, hnd, hin, h0, hU, hs1, ha1 => by
    have hb := hin b (List.mem_cons_self _ _)
    have hb0 := h0 b (List.mem_cons_self _ _)
    have hne : a ≠ b := (hA.rngN a b _ (hA.adj_sound κ a b hb)).1
    have hin1 : SameT ((viewOf G tss).tours κ) a b :=
      hA.adj_inside (fun _ _ h => h) (u := u) (v := v) rfl rfl hb hb0
    have hb1 : (b, b) ∈ s1 := by
      obtain ⟨s2, hs2, h1, h2⟩ := hin1
      rw [tour_unique (hA.nodup κ) hs1 hs2 ha1 h1]
      exact h2
    obtain ⟨hκ1, hup⟩ := hU a b ha1 hb1 hne
    have hr : ∀ x y, r = some (x, y) → (x, y) ≠ (a, b) ∧ (x, y) ≠ (b, a) := by
      intro x y h
      have h1 := (hA.rfact x y h).2.1
      constructor
      · rintro h2
        obtain ⟨rfl, rfl⟩ := Prod.mk.inj h2
        exact h1 hb0.symm_same
      · rintro h2
        obtain ⟨rfl, rfl⟩ := Prod.mk.inj h2
        exact h1 hb0
    obtain ⟨G1, h1, hR1, hA1, hS1, hadj1⟩ := promote_nontree_edge_spec hR hA hb hκ1 hup hr
    have hnd1 := List.nodup_cons.mp hnd
    obtain ⟨G2, h2, hR2, hA2, hS2, hadj2⟩ := promote_adjacent_spec rest G1 hR1 hA1 hnd1.2
      (fun x hx => (hadj1 x).mpr ⟨hin x (List.mem_cons_of_mem _ hx),
        fun h => hnd1.1 (h ▸ hx)⟩)
      (fun x hx => by rw [hS1.1]; exact h0 x (List.mem_cons_of_mem _ hx))
      (hU.step hS1) (by rw [hS1.1]; exact hs1) ha1
    refine ⟨G2, ?_, hR2, hA2, hS1.trans_stepB hS2, ?_⟩
    · simp only [promote_adjacent, h1, Option.some_bind]
      exact h2
    · intro x
      rw [hadj2, hadj1]
      simp only [List.mem_cons, not_or]
      constructor
      · rintro ⟨⟨h3, h4⟩, h5⟩
        exact ⟨h3, h4, h5⟩
      · rintro ⟨h3, h4, h5⟩
        exact ⟨⟨h3, h4⟩, h5⟩

theorem Rep.same_node {G : DynamicGraph} {tss : List (List Tree)} {D : Set Nat}
    (hR : Rep G tss D) {κ : Nat} {p q : Nat} (hp : p ∈ nodesOf (treesAt tss κ))
    (hq : q ∈ nodesOf (treesAt tss κ)) (hk : keyOf G.heap p = keyOf G.heap q) : p = q := by
  obtain ⟨F, hF⟩ := hR.forest_of_node hp
  exact (hR.shape κ F hF).key_inj hp hq hk

theorem Abs.widen {V : View} {E : List (Int × Int)} {u v : Int} {κ : Nat}
    {r : Option (Int × Int)} (hA : Abs V (Par.search E u v κ r)) (a : Int) :
    Abs V { Par.search E u v κ r with Z := fun l c => l = κ ∧ c = a } :=
  hA.mono_par (fun _ _ => rfl) (fun _ _ => Iff.rfl) rfl rfl rfl (fun _ => Iff.rfl)
    (fun _ _ h => h.elim) rfl rfl

theorem Abs.settle {V : View} {E : List (Int × Int)} {u v : Int} {κ : Nat}
    {r : Option (Int × Int)} {a : Int}
    (hA : Abs V { Par.search E u v κ r with Z := fun l c => l = κ ∧ c = a })
    (ha : 0 ≤ a ∧ a < V.n) : Abs (V.clr κ a) (Par.search E u v κ r) := by
  have hl : κ < V.L := hA.level_in (hA.pefact u v κ rfl).2.2.1
  exact (hA.clr hl ha).mono_par (fun _ _ => rfl) (fun _ _ => Iff.rfl) rfl rfl rfl
    (fun _ => Iff.rfl) (fun _ _ h => h.2 h.1) rfl rfl

theorem noAdj_clr {V : View} {κ : Nat} {a : Int} (h : V.adj κ a = []) :
    NoAdj (V.clr κ a) κ (a, a) := by
  intro m f x hd
  have hd1 : (if κ = κ ∧ (a, a) = (a, a) ∧ V.adj κ a = [] then
      (V.dat κ (a, a)).map (fun d => (d.1, false, d.2.2)) else V.dat κ (a, a)) =
      some (m, f, x) := hd
  rw [if_pos ⟨rfl, rfl, h⟩] at hd1
  cases hd0 : V.dat κ (a, a) with
  | none => rw [hd0] at hd1; exact Option.noConfusion hd1
  | some d =>
    rw [hd0] at hd1
    simp only [Option.map_some', Option.some.injEq, Prod.mk.injEq] at hd1
    exact hd1.2.1.symm

/-- The block of `BruteforceAdjacentEdges` that visits a vertex with non-tree edges of
level `κ`. -/
theorem visit_adjacent_spec {E : List (Int × Int)} {u v : Int} {κ : Nat} {G : DynamicGraph}
    {tss : List (List Tree)} {D : Set Nat} (hR : Rep G tss D) {t0 : Tree}
    (ht0 : t0 ∈ treesAt tss κ) {p : Nat} (hp : p ∈ t0.toList) {nd : Node}
    (hg : G.heap.get p = some nd) (hf : nd.is_has_adjacent = true)
    (hA : Abs (viewOf G tss) (Par.search E u v κ none))
    (hU : Up1 (viewOf G tss) κ (tourKeys G.heap t0)) :
    ∃ G3 res, visit_adjacent G nd κ = some (G3, res) ∧ Rep G3 tss (D ∪ {p}) ∧
      Abs (viewOf G3 tss) (Par.search E u v κ (candidate res)) ∧
      StepB κ (viewOf G tss) (viewOf G3 tss) ∧
      (res = (-1, -1) → NoAdj (viewOf G3 tss) κ (keyOf G.heap p)) := by
  have hpn : p ∈ nodesOf (treesAt tss κ) := mem_nodesOf.mpr ⟨t0, ht0, hp⟩
  have hdat := hR.dat_node hpn hg
  rw [hf] at hdat
  obtain ⟨a, b, hkey⟩ : ∃ a b, nd.key = (a, b) := ⟨nd.key.1, nd.key.2, rfl⟩
  rw [hkey] at hdat
  have hab : a = b := by
    by_contra hne
    have := (hA.dedge κ a b _ true _ hne hdat).1
    exact Bool.noConfusion this
  subst hab
  have hkp : keyOf G.heap p = (a, a) := (keyOf_of_get hg).trans hkey
  have hka : (a, a) ∈ tourKeys G.heap t0 := mem_tourKeys.mpr ⟨p, hp, hkp⟩
  have hs1 : tourKeys G.heap t0 ∈ (viewOf G tss).tours κ := mem_view_tours.mpr ⟨t0, ht0, rfl⟩
  have hl : κ < (viewOf G tss).L := hA.level_in (hA.pefact u v κ rfl).2.2.1
  have har : 0 ≤ a ∧ a < (viewOf G tss).n :=
    (hA.verts κ hl a).mp (List.mem_flatten.mpr ⟨_, hs1, hka⟩)
  have ha0 : (a, a) ∈ ((viewOf G tss).tours 0).flatten := (hA.verts 0 hA.pos_L a).mpr har
  obtain ⟨F, hF⟩ := hR.forest_of_tree ht0
  have hforest : G.forest (κ : Int) = some F := by rw [forest_cast]; exact hF
  have hxs : F.adjacent_edges a = (viewOf G tss).adj κ a := (viewOf_adj hF a).symm
  have hx0 : ∀ x ∈ (viewOf G tss).adj κ a, (x, x) ∈ ((viewOf G tss).tours 0).flatten := by
    intro x hx
    obtain ⟨-, -, -, h1, h2, -, -⟩ := hA.rngN a x _ (hA.adj_sound κ a x hx)
    exact (hA.verts 0 hA.pos_L x).mpr ⟨h1, h2⟩
  have hnodup := hA.adj_nodup κ a
  have hsame : ∀ {G2 : DynamicGraph} {D2 : Set Nat}, Rep G2 tss D2 →
      (viewOf G2 tss).tours = (viewOf G tss).tours → ∀ q, q ∈ nodesOf (treesAt tss κ) →
      keyOf G2.heap q = (a, a) → q = p := by
    intro G2 D2 hR2 ht q hq hk
    refine hR2.same_node hq hpn ?_
    rw [hk, keyOf_of_view rfl (congrFun ht κ) ht0 hp]
    exact hkp.symm
  rcases scan_adjacent_spec hR κ ha0 ((viewOf G tss).adj κ a) [] hx0 with
    ⟨hscan, hall⟩ | ⟨pre, b, suf, hsplit, hpre, hnb, hscan⟩
  · obtain ⟨G2, h2, hR2, hA2, hS2, hadj2⟩ := promote_adjacent_spec (r := none)
      ((viewOf G tss).adj κ a) G hR (hA.widen a) hnodup (fun x hx => hx) hall hU hs1 hka
    have hempty : (viewOf G2 tss).adj κ a = [] := by
      apply List.eq_nil_iff_forall_not_mem.mpr
      intro x hx
      exact ((hadj2 x).mp hx).2 ((hadj2 x).mp hx).1
    have ha2 : (a, a) ∈ ((viewOf G2 tss).tours κ).flatten := by
      rw [hS2.1]; exact List.mem_flatten.mpr ⟨_, hs1, hka⟩
    obtain ⟨G3, q, h3, hq, hkq, hR3, hV3⟩ := hR2.clr_rep ha2 false
    rw [if_neg (by simp)] at hR3
    have hqp : q = p := hsame hR2 hS2.1 q hq hkq
    rw [hqp] at hR3
    refine ⟨G3, (-1, -1), ?_, hR3, ?_, ?_, ?_⟩
    · simp only [visit_adjacent, hkey, hforest, Option.some_bind, hxs, hscan, List.nil_append,
        h2, h3]
    · rw [hV3, candidate_none]
      exact hA2.settle (by rw [hS2.2.2.1]; exact har)
    · rw [hV3]
      exact hS2.trans_stepB (StepB.clr_step κ _ κ a)
    · intro _
      rw [hV3, hkp]
      exact noAdj_clr hempty
  · have hb : b ∈ (viewOf G tss).adj κ a := by
      rw [hsplit]; exact List.mem_append_right _ (List.mem_cons_self _ _)
    obtain ⟨G5, q5, h5, hq5, hk5, hR5, hA5, hS5, hadj5⟩ := take_candidate_spec hR hA hb hnb
    have hq5p : q5 = p := hsame hR rfl q5 hq5 hk5
    rw [hq5p] at hR5
    rw [hsplit] at hnodup
    have hndpre : pre.Nodup := (List.nodup_append.mp hnodup).1
    have hbpre : b ∉ pre := fun h =>
      (List.nodup_append.mp hnodup).2.2 h (List.mem_cons_self _ _)
    obtain ⟨G2, h2, hR2, hA2, hS2, hadj2⟩ := promote_adjacent_spec (r := some (a, b))
      pre G5 hR5 (hA5.widen a) hndpre
      (fun x hx => (hadj5 x).mpr ⟨by rw [hsplit]; exact List.mem_append_left _ hx,
        fun h => hbpre (h ▸ hx)⟩)
      (fun x hx => by rw [hS5.1]; exact hpre x hx)
      (hU.step hS5) (by rw [hS5.1]; exact hs1) hka
    have hS52 := hS5.trans_stepB hS2
    have ha2 : (a, a) ∈ ((viewOf G2 tss).tours κ).flatten := by
      rw [hS52.1]; exact List.mem_flatten.mpr ⟨_, hs1, hka⟩
    obtain ⟨G3, q, h3, hq, hkq, hR3, hV3⟩ := hR2.clr_rep ha2 false
    rw [if_neg (by simp)] at hR3
    have hqp : q = p := hsame hR2 hS52.1 q hq hkq
    rw [hqp] at hR3
    refine ⟨G3, (a, b), ?_, hR3.mono ?_, ?_, ?_, ?_⟩
    · simp only [visit_adjacent, hkey, hforest, Option.some_bind, hxs, hscan, List.nil_append,
        h5, h2, h3]
    · rintro x (hx | hx)
      · exact hx
      · exact Or.inr hx
    · rw [hV3, candidate_some har.1]
      exact hA2.settle (by rw [hS52.2.2.1]; exact har)
    · rw [hV3]
      exact hS52.trans_stepB (StepB.clr_step κ _ κ a)
    · intro h
      have := (Prod.mk.inj h).1
      have := har.1
      omega

theorem Bruteforce_none (f : Nat) (G : DynamicGraph) (res : Int × Int) (κ : Int) :
    BruteforceAdjacentEdges f G none res κ = some (G, res) := by
  cases f <;> rfl

theorem noAdj_of_node {G : DynamicGraph} {tss : List (List Tree)} {D : Set Nat}
    (hR : Rep G tss D) {κ : Nat} {q : Nat} (hq : q ∈ nodesOf (treesAt tss κ)) {nd : Node}
    (hg : G.heap.get q = some nd) (hm : nd.is_has_adjacent = false) :
    NoAdj (viewOf G tss) κ (keyOf G.heap q) := by
  have hd := hR.dat_node hq hg
  rw [keyOf_of_get hg]
  intro m f x hd1
  rw [hd] at hd1
  simp only [Option.some.injEq, Prod.mk.injEq] at hd1
  rw [← hd1.2.1, hm]

/-- Method `BruteforceAdjacentEdges` on a subtree of the smaller tree: either a replacement
edge is found, or no vertex under the subtree keeps a non-tree edge of level `κ`. -/
theorem Bruteforce_spec {E : List (Int × Int)} {u v : Int} {κ : Nat} {t0 : Tree}
    {tss : List (List Tree)} :
    ∀ (s : Tree) (f : Nat) (G : DynamicGraph) (D : Set Nat) (res : Int × Int),
      s.size ≤ f → Tree.Sub s t0 → Rep G tss D → t0 ∈ treesAt tss κ →
      (∀ p ∈ s.toList, p ∉ D) →
      Abs (viewOf G tss) (Par.search E u v κ (candidate res)) →
      Up1 (viewOf G tss) κ (tourKeys G.heap t0) →
      ∃ G1 res1, BruteforceAdjacentEdges f G s.root res κ = some (G1, res1) ∧ Rep G1 tss D ∧
        Abs (viewOf G1 tss) (Par.search E u v κ (candidate res1)) ∧
        StepB κ (viewOf G tss) (viewOf G1 tss) ∧ (res ≠ (-1, -1) → res1 = res) ∧
        (res1 = (-1, -1) → ∀ p ∈ s.toList, NoAdj (viewOf G1 tss) κ (keyOf G.heap p))
  | .nil, f, G, D, res, _, _, hR, _, _, hA, _ =>
    ⟨G, res, Bruteforce_none f G res κ, hR, hA, StepB.refl_stepB _ _, fun _ => rfl,
      fun _ p hp => by simp [Tree.toList] at hp⟩
  | .node l p r, 0, _, _, _, hf, _, _, _, _, _, _ => by
    simp [Tree.size] at hf
  | .node l p r, f + 1, G, D, res, hf, hsub, hR, ht0, hsD, hA, hU => by
    by_cases hres : res = (-1, -1)
    swap
    · refine ⟨G, res, ?_, hR, hA, StepB.refl_stepB _ _, fun _ => rfl,
        fun h => absurd h hres⟩
      show BruteforceAdjacentEdges (f + 1) G (some p) res κ = _
      simp only [BruteforceAdjacentEdges, ne_eq, hres, not_false_eq_true, if_true]
    subst hres
    rw [candidate_none] at hA
    obtain ⟨F, hF⟩ := hR.forest_of_tree ht0
    have hshape0 : ShapeU G.heap t0 := ((hR.shape κ F hF).shape t0 ht0).1
    have hnd0 : t0.toList.Nodup := (hR.shape κ F hF).nodup_one ht0
    obtain ⟨nd, hg, hl, hr, -, -, -, -, -⟩ := hsub.shape hshape0
    have hp0 : p ∈ t0.toList := hsub.mem (by simp [Tree.toList])
    obtain ⟨hpl, hpr⟩ := nodup_node (hsub.nodup hnd0)
    obtain ⟨hsubl, hsubr⟩ := hsub.of_node
    have hsz : l.size ≤ f ∧ r.size ≤ f := by
      simp only [Tree.size] at hf
      omega
    have hmem : ∀ q, q ∈ l.toList ∨ q ∈ r.toList → q ∈ (Tree.node l p r).toList := by
      intro q hq
      simp only [Tree.toList, List.mem_append, List.mem_cons]
      rcases hq with hq | hq
      · exact Or.inl hq
      · exact Or.inr (Or.inr hq)
    by_cases hagg : nd.size_of_adjacent = true
    swap
    · refine ⟨G, (-1, -1), ?_, hR, by rw [candidate_none]; exact hA, StepB.refl_stepB _ _,
        fun _ => rfl, ?_⟩
      · show BruteforceAdjacentEdges (f + 1) G (some p) (-1, -1) κ = _
        simp only [BruteforceAdjacentEdges, ne_eq, not_true_eq_false, if_false, hg, hagg,
          Bool.false_eq_true]
      · intro _ q hq
        have hagg1 : nd.size_of_adjacent = false := by
          cases h : nd.size_of_adjacent
          · rfl
          · exact absurd h hagg
        obtain ⟨ndq, hgq, hmq⟩ := agg_false_adj (.node l p r) (hsub.shape hshape0)
          (fun x hx => hR.cons κ x (mem_nodesOf.mpr ⟨t0, ht0, hsub.mem hx⟩) (hsD x hx))
          (by simp only [Tree.root, get_size_adjacent, hg, Option.map_some', hagg1]) q hq
        exact noAdj_of_node hR (mem_nodesOf.mpr ⟨t0, ht0, hsub.mem hq⟩) hgq hmq
    · have hstep : ∃ G4 res2,
          (if nd.is_has_adjacent = true then visit_adjacent G nd κ else some (G, (-1, -1))) =
            some (G4, res2) ∧
          Rep G4 tss (D ∪ {p}) ∧ Abs (viewOf G4 tss) (Par.search E u v κ (candidate res2)) ∧
          StepB κ (viewOf G tss) (viewOf G4 tss) ∧
          (res2 = (-1, -1) → NoAdj (viewOf G4 tss) κ (keyOf G.heap p)) := by
        by_cases hflag : nd.is_has_adjacent = true
        · rw [if_pos hflag]
          exact visit_adjacent_spec hR ht0 hp0 hg hflag hA hU
        · rw [if_neg hflag]
          refine ⟨G, (-1, -1), rfl, hR.mono Set.subset_union_left,
            by rw [candidate_none]; exact hA, StepB.refl_stepB _ _, fun _ => ?_⟩
          have hflag1 : nd.is_has_adjacent = false := by
            cases h : nd.is_has_adjacent
            · rfl
            · exact absurd h hflag
          exact noAdj_of_node hR (mem_nodesOf.mpr ⟨t0, ht0, hp0⟩) hg hflag1
      obtain ⟨G4, res2, h4, hR4, hA4, hS4, hN4⟩ := hstep
      have hkeys4 : ∀ q ∈ t0.toList, keyOf G4.heap q = keyOf G.heap q :=
        fun q hq => keyOf_of_view rfl (congrFun hS4.1 κ) ht0 hq
      have htk4 : tourKeys G4.heap t0 = tourKeys G.heap t0 := List.map_congr_left hkeys4
      obtain ⟨F4, hF4⟩ := hR4.forest_of_tree ht0
      obtain ⟨nd1, hg1, hl1, -, -, -, -, -, -⟩ :=
        hsub.shape ((hR4.shape κ F4 hF4).shape t0 ht0).1
      obtain ⟨G5, res3, h5, hR5, hA5, hS5, hK5, hN5⟩ :=
        Bruteforce_spec l f G4 (D ∪ {p}) res2 hsz.1 hsubl hR4 ht0
          (by
            intro q hq hqD
            rcases hqD with hqD | hqD
            · exact hsD q (hmem q (Or.inl hq)) hqD
            · rw [Set.mem_singleton_iff.mp hqD] at hq; exact hpl hq)
          hA4 (by rw [htk4]; exact hU.step hS4)
      have hS45 := hS4.trans_stepB hS5
      have hkeys5 : ∀ q ∈ t0.toList, keyOf G5.heap q = keyOf G.heap q :=
        fun q hq => keyOf_of_view rfl (congrFun hS45.1 κ) ht0 hq
      have htk5 : tourKeys G5.heap t0 = tourKeys G.heap t0 := List.map_congr_left hkeys5
      obtain ⟨F5, hF5⟩ := hR5.forest_of_tree ht0
      obtain ⟨nd2, hg2, -, hr2, -, -, -, -, -⟩ :=
        hsub.shape ((hR5.shape κ F5 hF5).shape t0 ht0).1
      obtain ⟨G6, res4, h6, hR6, hA6, hS6, hK6, hN6⟩ :=
        Bruteforce_spec r f G5 (D ∪ {p}) res3 hsz.2 hsubr hR5 ht0
          (by
            intro q hq hqD
            rcases hqD with hqD | hqD
            · exact hsD q (hmem q (Or.inr hq)) hqD
            · rw [Set.mem_singleton_iff.mp hqD] at hq; exact hpr hq)
          hA5 (by rw [htk5]; exact hU.step hS45)
      obtain ⟨h2, hup, -, hR7, hV7, -⟩ := hR6.update_up_rep ht0 hp0
      refine ⟨{ G6 with heap := h2 }, res4, ?_, hR7.mono ?_, by rw [hV7]; exact hA6,
        by rw [hV7]; exact hS45.trans_stepB hS6, fun h => absurd rfl h, ?_⟩
      · show BruteforceAdjacentEdges (f + 1) G (some p) (-1, -1) κ = _
        simp only [BruteforceAdjacentEdges, ne_eq, not_true_eq_false, if_false, hg, hagg,
          if_true, h4, Option.some_bind, hg1, hl1, h5, hg2, hr2, h6, hup]
      · rintro q ⟨hq1 | hq1, hq2⟩
        · exact hq1
        · exact absurd hq1 hq2
      · intro h4e q hq
        have h3e : res3 = (-1, -1) := by
          by_contra hc
          exact hc ((hK6 hc).symm.trans h4e)
        have h2e : res2 = (-1, -1) := by
          by_contra hc
          exact hc ((hK5 hc).symm.trans h3e)
        rw [hV7]
        simp only [Tree.toList, List.mem_append, List.mem_cons] at hq
        rcases hq with hq | rfl | hq
        · have := hN5 h3e q hq
          rw [hkeys4 q (hsubl.mem hq)] at this
          exact hS6.2.2.2 _ this
        · exact (hS5.trans_stepB hS6).2.2.2 _ (hN4 h2e)
        · have := hN6 h4e q hq
          rw [hkeys5 q (hsubr.mem hq)] at this
          exact this

/-- The constructor establishes the invariant with no edges. -/
theorem Inv_new (out : Nat → Int) (n : Nat) : Inv (DynamicGraph.new out (n : Int)) n [] := by
  obtain ⟨G0, hG0⟩ : ∃ G0 : DynamicGraph, G0 =
      { mx_level := 0, n_ := (n : Int), components := (n : Int), spanning_trees := [],
        spanning_edges_levels := [], not_spanning_edges_levels := [],
        heap := Heap.empty, gen := { out := out, drawn := 0 }, cout := [] } := ⟨_, rfl⟩
  have hnew : DynamicGraph.new out (n : Int) = G0.build ((G0.spanning_trees.length : Nat) : Int) := by
    rw [hG0]; rfl
  have hR0 : Rep G0 [] ∅ := by
    subst hG0
    exact
      { wf := fun p _ => rfl
        len := rfl
        flevel := fun l F h => by simp at h
        shape := fun l F h => by simp at h
        cons := fun l p h => by simp [nodesOf, treesAt] at h
        sep := fun l1 l2 p _ h => by simp [nodesOf, treesAt] at h }
  obtain ⟨ts, hR1, hV1, -, -⟩ := hR0.build_rep (fun p hp => False.elim hp)
  rw [hnew]
  refine ⟨?_, [] ++ [ts], hR1, ?_⟩
  · have := congrArg View.n hV1
    simp only [viewOf, View.build] at this
    rw [this, hG0]
  · rw [hV1]
    subst hG0
    exact Abs.init rfl rfl (Int.natCast_nonneg n) rfl rfl rfl (fun _ => rfl)
      (fun _ _ => rfl) (fun _ _ => rfl)

/-- One call `spanning_trees[k]->add_edge(x, y, level)` of the loop that links the
replacement edge. -/
theorem link_level {E : List (Int × Int)} {u v x y κ : Int} {G : DynamicGraph}
    {tss : List (List Tree)} (hR : Rep G tss ∅) {k : Nat}
    (hA : Abs (viewOf G tss) (Par.linking E u v x y k))
    (hre : (x, y) ≠ (u, v) ∧ (x, y) ≠ (v, u))
    (hlv : G.spanning_edges_levels.find (x, y) = some κ) (hkκ : (k : Int) ≤ κ)
    (hns : ¬ SameT ((viewOf G tss).tours k) u v)
    (hsplit : (SameT ((viewOf G tss).tours k) x u ∧ SameT ((viewOf G tss).tours k) v y) ∨
      (SameT ((viewOf G tss).tours k) x v ∧ SameT ((viewOf G tss).tours k) u y)) :
    ∃ G1 tss1, G.addEdgeAt (k : Int) x y κ = some G1 ∧ Rep G1 tss1 ∅ ∧
      Abs (viewOf G1 tss1) (Par.linking E u v x y ((k : Int) - 1)) ∧ G1.n_ = G.n_ ∧
      G1.spanning_edges_levels = G.spanning_edges_levels ∧
      ∀ l, l ≠ k → (viewOf G1 tss1).tours l = (viewOf G tss).tours l := by
  obtain ⟨hxy, hx0, hx1, hy0, hy1, -, hκmx⟩ := hA.rngT x y κ hlv
  have hl : k < (viewOf G tss).L := hA.level_in (le_trans hkκ hκmx)
  have hnd := hA.nodup k
  obtain ⟨tA, htA, hkA⟩ := hR.tree_of_vertex hA hl ⟨hx0, hx1⟩
  obtain ⟨tB, htB, hkB⟩ := hR.tree_of_vertex hA hl ⟨hy0, hy1⟩
  have hnxy : ¬ SameT ((viewOf G tss).tours k) x y := by
    intro h
    rcases hsplit with ⟨h1, h2⟩ | ⟨h1, h2⟩
    · exact hns ((h1.symm_same.trans_same hnd h).trans_same hnd h2.symm_same)
    · exact hns ((h2.trans_same hnd h.symm_same).trans_same hnd h1)
  have hAB : tA ≠ tB := by
    rintro rfl
    exact hnxy ⟨_, mem_view_tours.mpr ⟨tA, htA, rfl⟩, hkA, hkB⟩
  obtain ⟨rest, hperm⟩ := perm_two htA htB hAB
  have hkab : (x, y) ∉ ((viewOf G tss).tours k).flatten := by
    intro h
    have := ((hA.reg k hl x y hxy).mp h).2.2 (Or.inl rfl)
    omega
  have hkba : (y, x) ∉ ((viewOf G tss).tours k).flatten := by
    intro h
    have := ((hA.reg k hl y x (fun h => hxy h.symm)).mp h).2.2 (Or.inr rfl)
    omega
  obtain ⟨G1, T, A, B, hadd, hR1, hrA, hrB, hV1, -⟩ :=
    hR.addEdgeAt_spec hperm (fun _ _ h => h) κ hkA hkB hxy hkab hkba
  refine ⟨G1, _, hadd, hR1, ?_, congrArg View.n hV1, congrArg View.lvT hV1, ?_⟩
  · rw [hV1]
    exact hA.link_down hre hlv hkκ hsplit (hperm.map (tourKeys G.heap)) hrA hrB
  · intro l hne
    rw [hV1]
    show (if l = k then _ else (viewOf G tss).tours l) = _
    rw [if_neg hne]

/-- The loop `for (lvl = k; lvl >= 0; --lvl) spanning_trees[lvl]->add_edge(x, y, level)`. -/
theorem add_edge_down_spec {E : List (Int × Int)} {u v x y κ : Int} :
    ∀ (k : Nat) (G : DynamicGraph) (tss : List (List Tree)), Rep G tss ∅ →
      Abs (viewOf G tss) (Par.linking E u v x y k) →
      ((x, y) ≠ (u, v) ∧ (x, y) ≠ (v, u)) →
      G.spanning_edges_levels.find (x, y) = some κ → (k : Int) ≤ κ →
      (∀ l, l ≤ k → ¬ SameT ((viewOf G tss).tours l) u v ∧
        ((SameT ((viewOf G tss).tours l) x u ∧ SameT ((viewOf G tss).tours l) v y) ∨
         (SameT ((viewOf G tss).tours l) x v ∧ SameT ((viewOf G tss).tours l) u y))) →
      ∃ G1 tss1, add_edge_down x y κ k G = some G1 ∧ Rep G1 tss1 ∅ ∧
        Abs (viewOf G1 tss1) (Par.linking E u v x y (-1)) ∧ G1.n_ = G.n_
  | 0, G, tss, hR, hA, hre, hlv, hk, hs => by
    obtain ⟨G1, tss1, h1, hR1, hA1, hn1, -, -⟩ :=
      link_level hR hA hre hlv hk (hs 0 (le_refl _)).1 (hs 0 (le_refl _)).2
    refine ⟨G1, tss1, ?_, hR1, hA1, hn1⟩
    simp only [add_edge_down]
    exact h1
  | k + 1, G, tss, hR, hA, hre, hlv, hk, hs => by
    obtain ⟨G1, tss1, h1, hR1, hA1, hn1, hm1, ht1⟩ :=
      link_level hR hA hre hlv hk (hs (k + 1) (le_refl _)).1 (hs (k + 1) (le_refl _)).2
    have e : ((k + 1 : Nat) : Int) - 1 = (k : Int) := by push_cast; ring
    rw [e] at hA1
    have e1 : ((k + 1 : Nat) : Int) = (k : Int) + 1 := by push_cast; rfl
    rw [e1] at h1
    obtain ⟨G2, tss2, h2, hR2, hA2, hn2⟩ :=
      add_edge_down_spec k G1 tss1 hR1 hA1 hre (by rw [hm1]; exact hlv) (by omega)
        (fun l hl => by
          rw [ht1 l (by omega)]
          exact hs l (by omega))
    refine ⟨G2, tss2, ?_, hR2, hA2, hn2.trans hn1⟩
    simp only [add_edge_down, h1, Option.some_bind]
    exact h2

/-- The work of `FindNewEdge` at one level, on the tree `t1` of an endpoint: promote its
tree edges of this level, then scan its adjacency sets for a replacement. -/
theorem search_level {E : List (Int × Int)} {u v : Int} {κ : Nat} {G : DynamicGraph}
    {tss : List (List Tree)} (hR : Rep G tss ∅)
    (hA : Abs (viewOf G tss) (Par.search E u v κ none)) {t1 : Tree}
    (ht1 : t1 ∈ treesAt tss κ)
    (huv : (u, u) ∈ tourKeys G.heap t1 ∨ (v, v) ∈ tourKeys G.heap t1)
    (hT1 : 2 ^ (κ + 1) * (selfCount (tourKeys G.heap t1) : Int) ≤ G.n_) :
    ∃ G3 G4 tss4 res, IncreaseLevel (G.heap.next + 1) G t1.root = some G3 ∧
      BruteforceAdjacentEdges (G3.heap.next + 1) G3 t1.root (-1, -1) κ = some (G4, res) ∧
      Rep G4 tss4 ∅ ∧ G4.n_ = G.n_ ∧
      Abs (viewOf G4 tss4) (Par.search E u v κ (candidate res)) ∧
      (res = (-1, -1) → Abs (viewOf G4 tss4) (Par.search E u v ((κ : Int) - 1) none)) := by
  obtain ⟨F, hF⟩ := hR.forest_of_tree ht1
  have hs := hR.shape κ F hF
  have hsz : t1.size ≤ G.heap.next :=
    ShapeU.size_le_next hR.wf (hs.shape t1 ht1).1 (hs.nodup_one ht1)
  obtain ⟨G3, tss3, hI, hR3, ht3, hA3, hSI, hNM⟩ :=
    IncreaseLevel_spec t1 (G.heap.next + 1) G tss ∅ (by omega) (Tree.Sub.refl t1) hR ht1
      (fun _ _ h => h) (fun p hp => False.elim hp) hA hT1
  have ht1' : t1 ∈ treesAt tss3 κ := by rw [ht3]; exact ht1
  have hkey3 : ∀ p ∈ t1.toList, keyOf G3.heap p = keyOf G.heap p :=
    fun p hp => keyOf_of_view ht3 hSI.1 ht1 hp
  have hU : Up1 (viewOf G3 tss3) κ (tourKeys G3.heap t1) :=
    hA3.up1 (mem_view_tours.mpr ⟨t1, ht1', rfl⟩) (fun k hk => by
      obtain ⟨p, hp, rfl⟩ := mem_tourKeys.mp hk
      rw [hkey3 p hp]
      exact hNM p hp)
  obtain ⟨F3, hF3⟩ := hR3.forest_of_tree ht1'
  have hs3 := hR3.shape κ F3 hF3
  have hsz3 : t1.size ≤ G3.heap.next :=
    ShapeU.size_le_next hR3.wf (hs3.shape t1 ht1').1 (hs3.nodup_one ht1')
  obtain ⟨G4, res, hB, hR4, hA4, hSB, -, hNA⟩ :=
    Bruteforce_spec t1 (G3.heap.next + 1) G3 ∅ (-1, -1) (by omega) (Tree.Sub.refl t1) hR3 ht1'
      (fun _ _ h => h) (by rw [candidate_none]; exact hA3) hU
  refine ⟨G3, G4, tss3, res, hI, hB, hR4, ?_, hA4, ?_⟩
  · have h1 : G4.n_ = G3.n_ := hSB.2.2.1
    have h2 : G3.n_ = G.n_ := hSI.2.1
    rw [h1, h2]
  · intro hres
    have hA4' : Abs (viewOf G4 tss3) (Par.search E u v κ none) := by
      rw [hres, candidate_none] at hA4; exact hA4
    have hkey4 : ∀ p ∈ t1.toList, keyOf G4.heap p = keyOf G3.heap p :=
      fun p hp => keyOf_of_view rfl (congrFun hSB.1 κ) ht1' hp
    have hs1 : tourKeys G4.heap t1 ∈ (viewOf G4 tss3).tours κ :=
      mem_view_tours.mpr ⟨t1, ht1', rfl⟩
    have hkeys : tourKeys G4.heap t1 = tourKeys G.heap t1 := by
      simp only [tourKeys]
      exact List.map_congr_left (fun p hp => (hkey4 p hp).trans (hkey3 p hp))
    refine hA4'.descend hs1 (by rw [hkeys]; exact huv) (hA4'.done_adj hs1 (fun k hk => ?_))
    obtain ⟨p, hp, rfl⟩ := mem_tourKeys.mp hk
    rw [hkey4 p hp]
    exact hNA hres p hp

theorem tourKeys_length (h : Heap) (t : Tree) : (tourKeys h t).length = t.size := by
  simp only [tourKeys, List.length_map, Tree.length_toList]

/-- One call of `FindNewEdge` at level `κ`, up to the test of the result of the scan. -/
theorem FindNewEdge_unfold {E : List (Int × Int)} {u v : Int} {κ : Nat} {G : DynamicGraph}
    {tss : List (List Tree)} (hR : Rep G tss ∅)
    (hA : Abs (viewOf G tss) (Par.search E u v κ none)) (f : Nat) :
    ∃ G4 tss4 res, Rep G4 tss4 ∅ ∧ G4.n_ = G.n_ ∧
      Abs (viewOf G4 tss4) (Par.search E u v κ (candidate res)) ∧
      (res = (-1, -1) → Abs (viewOf G4 tss4) (Par.search E u v ((κ : Int) - 1) none)) ∧
      FindNewEdge (f + 1) G u v (κ : Int) false =
        if res = (-1, -1) then
          if (κ : Int) = 0 then some (G4, false)
          else FindNewEdge f G4 u v ((κ : Int) - 1) false
        else
          (if 0 ≤ (κ : Int) then
            add_edge_down res.1 res.2 (κ : Int) (κ : Int).toNat
              { G4 with
                spanning_edges_levels :=
                  (G4.spanning_edges_levels.set res (κ : Int)).set (res.2, res.1) (κ : Int),
                not_spanning_edges_levels :=
                  (G4.not_spanning_edges_levels.erase res).erase (res.2, res.1) }
           else some
              { G4 with
                spanning_edges_levels :=
                  (G4.spanning_edges_levels.set res (κ : Int)).set (res.2, res.1) (κ : Int),
                not_spanning_edges_levels :=
                  (G4.not_spanning_edges_levels.erase res).erase (res.2, res.1) }).bind
            fun G6 => some (G6, true) := by
  obtain ⟨huv, -, hκmx, hsome⟩ := hA.pefact u v κ rfl
  have hκ : κ < (viewOf G tss).L := hA.level_in hκmx
  obtain ⟨cl, hcl⟩ := Option.isSome_iff_exists.mp hsome
  obtain ⟨-, hu0, hu1, hv0, hv1, -, -⟩ := hA.rngT u v cl hcl
  obtain ⟨tu, htu, hku⟩ := hR.tree_of_vertex hA hκ ⟨hu0, hu1⟩
  obtain ⟨tv, htv, hkv⟩ := hR.tree_of_vertex hA hκ ⟨hv0, hv1⟩
  have hns : ¬ SameT ((viewOf G tss).tours κ) u v := hA.apart (le_refl _)
  have hnv : (v, v) ∉ tourKeys G.heap tu := fun h =>
    hns ⟨_, mem_view_tours.mpr ⟨tu, htu, rfl⟩, hku, h⟩
  obtain ⟨pu, ndu, hsu, hpu, -, -⟩ := hR.selfNode_spec htu hku
  obtain ⟨pv, ndv, hsv, hpv, -, -⟩ := hR.selfNode_spec htv hkv
  obtain ⟨F, hF⟩ := hR.forest_of_tree htu
  have hs := hR.shape κ F hF
  have hszu : tu.size ≤ G.heap.next :=
    ShapeU.size_le_next hR.wf (hs.shape tu htu).1 (hs.nodup_one htu)
  have hszv : tv.size ≤ G.heap.next :=
    ShapeU.size_le_next hR.wf (hs.shape tv htv).1 (hs.nodup_one htv)
  have hlu : lift (G.heap.next + 1) G.heap (some pu) = some tu.root :=
    lift_spec (hs.shape tu htu).1 (hs.shape tu htu).2 hpu (by omega)
  have hlv : lift (G.heap.next + 1) G.heap (some pv) = some tv.root :=
    lift_spec (hs.shape tv htv).1 (hs.shape tv htv).2 hpv (by omega)
  have hgu := (hs.shape tu htu).1.size_root
  have hgv := (hs.shape tv htv).1.size_root
  have hhalf := hA.half rfl (mem_view_tours.mpr ⟨tu, htu, rfl⟩)
    (mem_view_tours.mpr ⟨tv, htv, rfl⟩) hku hkv hnv
  rw [tourKeys_length, tourKeys_length] at hhalf
  by_cases hgt : (tu.size : Int) > (tv.size : Int)
  · obtain ⟨G3, G4, tss4, res, hI, hB, hR4, hn4, hA4, hD4⟩ :=
      search_level hR hA htv (Or.inr hkv) (hhalf.2 (by omega))
    refine ⟨G4, tss4, res, hR4, hn4, hA4, hD4, ?_⟩
    simp only [FindNewEdge, Bool.false_eq_true, if_false, hsu, hsv, hlu, hlv, hgu, hgv,
      Option.some_bind, if_pos hgt, hI, hB]
  · obtain ⟨G3, G4, tss4, res, hI, hB, hR4, hn4, hA4, hD4⟩ :=
      search_level hR hA htu (Or.inl hku) (hhalf.1 (by omega))
    refine ⟨G4, tss4, res, hR4, hn4, hA4, hD4, ?_⟩
    simp only [FindNewEdge, Bool.false_eq_true, if_false, hsu, hsv, hlu, hlv, hgu, hgv,
      Option.some_bind, if_neg hgt, hI, hB]

/-- Method `FindNewEdge`, entered at level `κ` with `okay = false`: it returns; with
`okay = true` a replacement edge is linked into every forest from its level down, and with
`okay = false` the search has passed level 0 without finding one. -/
theorem FindNewEdge_spec {E : List (Int × Int)} {u v : Int} :
    ∀ (κ f : Nat) (G : DynamicGraph) (tss : List (List Tree)), κ + 1 ≤ f → Rep G tss ∅ →
      Abs (viewOf G tss) (Par.search E u v κ none) →
      ∃ G1 tss1 ok, FindNewEdge f G u v (κ : Int) false = some (G1, ok) ∧ Rep G1 tss1 ∅ ∧
        G1.n_ = G.n_ ∧
        (ok = true → ∃ x y, Abs (viewOf G1 tss1) (Par.linking E u v x y (-1))) ∧
        (ok = false → Abs (viewOf G1 tss1) (Par.search E u v (-1) none))
  | κ, 0, _, _, hf, _, _ => by omega
  | κ, f + 1, G, tss, hf, hR, hA => by
    obtain ⟨G4, tss4, res, hR4, hn4, hA4, hD4, heq⟩ := FindNewEdge_unfold hR hA f
    rw [heq]
    by_cases hres : res = (-1, -1)
    · rw [if_pos hres]
      cases κ with
      | zero =>
        rw [if_pos (show ((0 : Nat) : Int) = 0 from rfl)]
        exact ⟨G4, tss4, false, rfl, hR4, hn4, fun h => Bool.noConfusion h,
          fun _ => hD4 hres⟩
      | succ k =>
        have e : ((k + 1 : Nat) : Int) - 1 = (k : Int) := by push_cast; ring
        rw [if_neg (show ¬ (((k + 1 : Nat) : Int) = 0) by omega), e]
        have hD := hD4 hres
        rw [e] at hD
        obtain ⟨G1, tss1, ok, h1, hR1, hn1, ht, hfl⟩ :=
          FindNewEdge_spec k f G4 tss4 (by omega) hR4 hD
        exact ⟨G1, tss1, ok, h1, hR1, hn1.trans hn4, ht, hfl⟩
    · rw [if_neg hres, if_pos (Int.natCast_nonneg κ), Int.toNat_ofNat]
      obtain ⟨x, y⟩ := res
      have hc : candidate (x, y) = some (x, y) := by simp only [candidate, if_neg hres]
      rw [hc] at hA4
      obtain ⟨hre, hsp⟩ := hA4.found
      have hA5 := hA4.move_maps
      have hR5 : Rep { G4 with
          spanning_edges_levels :=
            (G4.spanning_edges_levels.set (x, y) (κ : Int)).set (y, x) (κ : Int),
          not_spanning_edges_levels :=
            (G4.not_spanning_edges_levels.erase (x, y)).erase (y, x) } tss4 ∅ :=
        hR4.of_fields rfl rfl
      have hfind : LevelMap.find
          ((G4.spanning_edges_levels.set (x, y) (κ : Int)).set (y, x) (κ : Int)) (x, y) =
          some (κ : Int) := by
        rw [LevelMap.find_set, LevelMap.find_set, if_pos rfl]
        simp
      obtain ⟨G6, tss6, h6, hR6, hA6, hn6⟩ :=
        add_edge_down_spec κ _ tss4 hR5 hA5 hre hfind (le_refl _) hsp
      refine ⟨G6, tss6, true, ?_, hR6, hn6.trans hn4, fun _ => ⟨x, y, hA6⟩,
        fun h => Bool.noConfusion h⟩
      show (add_edge_down x y (κ : Int) κ _).bind _ = _
      rw [h6]
      rfl

/-- Method `RemoveEdge` on a recorded tree edge keeps the invariant. -/
theorem RemoveEdge_tree {G : DynamicGraph} {n : Nat} {E : List (Int × Int)}
    (hI : Inv G n E) {u v : Int}
    (hN : G.not_spanning_edges_levels.find (u, v) = none)
    (hT : (G.spanning_edges_levels.find (u, v)).isSome = true) :
    ∃ G1, RemoveEdge G u v = some G1 ∧ Inv G1 n (stepEdges E (.remove u v)) := by
  obtain ⟨hn, tss, hR, hA⟩ := hI
  obtain ⟨cl, hlv0⟩ := Option.isSome_iff_exists.mp hT
  obtain ⟨-, -, -, -, -, hcl0, -⟩ := hA.rngT u v cl hlv0
  obtain ⟨k, rfl⟩ : ∃ k : Nat, cl = (k : Int) := ⟨cl.toNat, int_eq_cast hcl0⟩
  have hcN : ¬ (G.not_spanning_edges_levels.count (u, v) ≠ 0) := by
    rw [LevelMap.count_ne_zero, hN]
    exact fun h => Bool.noConfusion h
  have hcT : G.spanning_edges_levels.count (u, v) ≠ 0 := (LevelMap.count_ne_zero _ _).mpr hT
  obtain ⟨G2, tss2, h2, hR2, hA2, hn2, -⟩ :=
    delete_edge_down_spec k G tss hR (hA.enter_cut hlv0) (le_refl _) hlv0
  have hA2s : Abs (viewOf G2 tss2) (Par.search E u v k none) := by
    refine hA2.mono_par (fun _ _ => rfl) (fun key l => ?_) rfl rfl rfl
      (fun _ => ⟨fun h => Option.noConfusion h, fun h => h.elim⟩) (fun _ _ h => h) rfl rfl
    constructor
    · rintro ⟨h1, h2⟩ (h3 | h3)
      · exact absurd h3 h1
      · exact absurd h3 h2
    · intro h
      refine ⟨fun h1 => ?_, fun h1 => ?_⟩
      · have := h (Or.inl h1); omega
      · have := h (Or.inr h1); omega
  obtain ⟨G3, tss3, ok, h3, hR3, hn3, hok, hno⟩ :=
    FindNewEdge_spec k (k + 1) G2 tss2 (le_refl _) hR2 hA2s
  have hcomp : RemoveEdge G u v =
      if ok = false then
        some { G3 with
          spanning_edges_levels := (G3.spanning_edges_levels.erase (u, v)).erase (v, u),
          components := G3.components + 1 }
      else
        some { G3 with
          spanning_edges_levels := (G3.spanning_edges_levels.erase (u, v)).erase (v, u) } := by
    simp only [RemoveEdge, if_neg hcN, if_pos hcT, LevelMap.at_present hlv0,
      if_pos (Int.natCast_nonneg k), Int.toNat_ofNat]
    show (delete_edge_down u v k G).bind _ = _
    rw [h2, Option.some_bind, h3, Option.some_bind]
  rw [hcomp]
  cases ok with
  | false =>
    rw [if_pos rfl]
    refine ⟨_, rfl, ?_, tss3, hR3.of_fields rfl rfl, ?_⟩
    · show G3.n_ = n
      rw [hn3, hn2, hn]
    · exact Abs.finish (hno rfl) (fun _ _ => Iff.rfl) rfl (fun _ h => Option.noConfusion h)
        (fun _ _ h => h) rfl rfl
  | true =>
    rw [if_neg (fun h => Bool.noConfusion h)]
    obtain ⟨x, y, hA3⟩ := hok rfl
    refine ⟨_, rfl, ?_, tss3, hR3.of_fields rfl rfl, ?_⟩
    · show G3.n_ = n
      rw [hn3, hn2, hn]
    · refine Abs.finish hA3 (fun key l => ?_) rfl (fun _ h => h) (fun _ _ h => h) rfl ?_
      · constructor
        · exact fun h => h.1
        · exact fun h => ⟨h, fun _ => by omega⟩
      · show G3.components = G3.components + (if (0 : Int) ≤ -1 then 1 else 0)
        simp

/-- Method `RemoveEdge` on a present edge keeps the invariant. -/
theorem RemoveEdge_inv {G : DynamicGraph} {n : Nat} {E : List (Int × Int)}
    (hI : Inv G n E) {u v : Int} (hv : validOp n E (.remove u v) = true) :
    ∃ G1, RemoveEdge G u v = some G1 ∧ Inv G1 n (stepEdges E (.remove u v)) := by
  cases hN : G.not_spanning_edges_levels.find (u, v) with
  | some lv => exact RemoveEdge_nontree hI hv (by rw [hN]; rfl)
  | none =>
    obtain ⟨-, -, -, hp⟩ := validOp_remove hv
    obtain ⟨hn, tss, hR, hA⟩ := hI
    rcases (hA.pres u v).mp hp with h | h
    · exact RemoveEdge_tree ⟨hn, tss, hR, hA⟩ hN h
    · have h1 : (G.not_spanning_edges_levels.find (u, v)).isSome = true := h
      rw [hN] at h1
      exact Bool.noConfusion h1

/-- Every valid script runs to the end, and the invariant holds after it. -/
theorem runOps_inv : ∀ (ops : List Op) (G : DynamicGraph) (n : Nat) (E : List (Int × Int)),
    Inv G n E → validFrom n E ops = true →
    ∃ G1, runOps ops G = some G1 ∧ Inv G1 n (edgesFrom E ops)
  | [], G, _, _, hI, _ => ⟨G, rfl, hI⟩
  | op :: rest, G, n, E, hI, hv => by
    simp only [validFrom, Bool.and_eq_true] at hv
    obtain ⟨h1, h2⟩ := hv
    have hstep : ∃ G1, applyOp G op = some G1 ∧ Inv G1 n (stepEdges E op) := by
      cases op with
      | add u v =>
        obtain ⟨G1, h, hI1, -⟩ := AddEdge_inv hI h1
        exact ⟨G1, h, hI1⟩
      | remove u v => exact RemoveEdge_inv hI h1
    obtain ⟨G1, hG1, hI1⟩ := hstep
    obtain ⟨G2, hG2, hI2⟩ := runOps_inv rest G1 n _ hI1 h2
    refine ⟨G2, ?_, hI2⟩
    simp only [runOps, hG1, Option.some_bind]
    exact hG2

/-- Every valid script on a fresh graph runs to the end, and the invariant holds after
it. -/
theorem reach_inv (out : Nat → Int) (n : Nat) (ops : List Op)
    (hv : validFrom n [] ops = true) :
    ∃ G, runOps ops (DynamicGraph.new out (n : Int)) = some G ∧ Inv G n (edgesFrom [] ops) :=
  runOps_inv ops _ n [] (Inv_new out n) hv

/-- The endpoints of a present edge are on one tour of forest 0. -/
theorem Abs.present_same {V : View} {E : List (Int × Int)} (hA : Abs V (Par.normal E))
    {a b : Int} (h : present E a b = true) : SameT (V.tours 0) a b := by
  rcases (hA.pres a b).mp h with h1 | h1
  · obtain ⟨lv, hlv⟩ := Option.isSome_iff_exists.mp h1
    obtain ⟨hab, -, -, -, -, h0, -⟩ := hA.rngT a b lv hlv
    exact sameT_of_key (hA.et 0) ((hA.reg 0 hA.pos_L a b hab).mpr ⟨⟨lv, hlv, h0⟩, trivial⟩)
  · obtain ⟨lv, hlv⟩ := Option.isSome_iff_exists.mp h1
    obtain ⟨-, -, -, -, -, h0, hmx⟩ := hA.rngN a b lv hlv
    obtain ⟨l, rfl⟩ : ∃ l : Nat, lv = (l : Int) := ⟨lv.toNat, int_eq_cast h0⟩
    rcases hA.conn a b l hlv with h2 | ⟨_, _, _, h2, -⟩
    · exact hA.nest_zero (fun _ _ h => h) (hA.level_in hmx) h2
    · exact Option.noConfusion h2

/-- Vertices on one tour of forest 0 are joined by a chain of present edges. -/
theorem Abs.same_chain {V : View} {E : List (Int × Int)} (hA : Abs V (Par.normal E))
    {a b : Int} (h : SameT (V.tours 0) a b) :
    Relation.ReflTransGen (fun x y => x ≠ y ∧ present E x y = true) a b := by
  obtain ⟨s, hs, ha, hb⟩ := h
  have hpath := (hA.et 0 s hs).connected a b ha hb
  clear hb
  induction hpath with
  | refl => exact Relation.ReflTransGen.refl
  | @tail x y _ hxy ih =>
    by_cases hne : x = y
    · rw [← hne]; exact ih
    · refine Relation.ReflTransGen.tail ih ⟨hne, ?_⟩
      obtain ⟨⟨lv, hlv, -⟩, -⟩ :=
        (hA.reg 0 hA.pos_L x y hne).mp (List.mem_flatten.mpr ⟨s, hs, hxy⟩)
      exact (hA.pres x y).mpr (Or.inl (by rw [hlv]; rfl))

/-- Two vertices are joined in the graph of the present edges exactly when they are on one
tour of forest 0. -/
theorem Abs.reachable_iff {V : View} {E : List (Int × Int)} (hA : Abs V (Par.normal E))
    {n : Nat} (hn : V.n = (n : Int)) (a b : Fin n) :
    (edgeGraph n E).Reachable a b ↔
      SameT (V.tours 0) ((a : Nat) : Int) ((b : Nat) : Int) := by
  have hin : ∀ c : Fin n, (((c : Nat) : Int), ((c : Nat) : Int)) ∈ (V.tours 0).flatten :=
    fun c => (hA.verts 0 hA.pos_L _).mpr ⟨Int.natCast_nonneg _, by rw [hn]; exact_mod_cast c.2⟩
  constructor
  · intro h
    rw [SimpleGraph.reachable_iff_reflTransGen] at h
    induction h with
    | refl => exact SameT.refl_same (hin a)
    | @tail x y _ hxy ih =>
      exact ih.trans_same (hA.nodup 0) (hA.present_same hxy.2)
  · intro h
    have hchain := hA.same_chain h
    have key : ∀ z, Relation.ReflTransGen (fun x y => x ≠ y ∧ present E x y = true)
        ((a : Nat) : Int) z → ∃ c : Fin n, ((c : Nat) : Int) = z ∧
          (edgeGraph n E).Reachable a c := by
      intro z hz
      induction hz with
      | refl => exact ⟨a, rfl, SimpleGraph.Reachable.refl _⟩
      | @tail x y _ hxy ih =>
        obtain ⟨c, rfl, hc⟩ := ih
        have hy := (hA.verts 0 hA.pos_L y).mp (hA.present_same hxy.2).mem_right
        rw [hn] at hy
        refine ⟨⟨y.toNat, by omega⟩, Int.toNat_of_nonneg hy.1, hc.trans ?_⟩
        refine SimpleGraph.Adj.reachable ⟨fun h => hxy.1 ?_, ?_⟩
        · rw [h]
          exact (Int.toNat_of_nonneg hy.1)
        · show present E ((c : Nat) : Int) ((y.toNat : Nat) : Int) = true
          rw [Int.toNat_of_nonneg hy.1]
          exact hxy.2
    obtain ⟨c, hc, hr⟩ := key _ hchain
    have : c = b := Fin.ext (by exact_mod_cast hc)
    rw [← this]
    exact hr

/-- The tours of one forest are pairwise different lists. -/
theorem Abs.tours_nodup {V : View} {P : Par} (hA : Abs V P) (l : Nat) : (V.tours l).Nodup := by
  have hpw := (List.nodup_flatten.mp (hA.nodup l)).2
  refine List.Pairwise.imp_of_mem (fun {s t} hs _ hd heq => ?_) hpw
  obtain ⟨k, hk⟩ := List.exists_mem_of_ne_nil s (hA.et l s hs).ne_nil
  exact hd hk (heq ▸ hk)

/-- The counter `components` is the number of connected components of the graph of the
present edges. -/
theorem Abs.comps_card {V : View} {E : List (Int × Int)} (hA : Abs V (Par.normal E))
    {n : Nat} (hn : V.n = (n : Int)) :
    V.comps = (Nat.card (edgeGraph n E).ConnectedComponent : Int) := by
  have hc := hA.cnt1
  have hnd := hA.tours_nodup 0
  have hex : ∀ a : Fin n, ∃ s : { s // s ∈ (V.tours 0).toFinset },
      (((a : Nat) : Int), ((a : Nat) : Int)) ∈ s.1 := by
    intro a
    have h1 := (hA.verts 0 hA.pos_L ((a : Nat) : Int)).mpr
      ⟨Int.natCast_nonneg _, by rw [hn]; exact_mod_cast a.2⟩
    obtain ⟨s, hs, ha⟩ := List.mem_flatten.mp h1
    exact ⟨⟨s, List.mem_toFinset.mpr hs⟩, ha⟩
  choose f hf using hex
  have hf_iff : ∀ a b, f a = f b ↔ (edgeGraph n E).Reachable a b := by
    intro a b
    rw [hA.reachable_iff hn]
    constructor
    · intro h
      exact ⟨(f a).1, List.mem_toFinset.mp (f a).2, hf a, by rw [h]; exact hf b⟩
    · rintro ⟨s, hs, ha, hb⟩
      apply Subtype.ext
      have h1 := tour_unique (hA.nodup 0) (List.mem_toFinset.mp (f a).2) hs (hf a) ha
      have h2 := tour_unique (hA.nodup 0) (List.mem_toFinset.mp (f b).2) hs (hf b) hb
      rw [h1, h2]
  obtain ⟨g, hg⟩ : ∃ g : (edgeGraph n E).ConnectedComponent →
      { s // s ∈ (V.tours 0).toFinset },
      ∀ a, g ((edgeGraph n E).connectedComponentMk a) = f a :=
    ⟨SimpleGraph.ConnectedComponent.lift f (fun a b p _ => (hf_iff a b).mpr ⟨p⟩),
      fun _ => rfl⟩
  have hbij : Function.Bijective g := by
    constructor
    · intro c d
      refine SimpleGraph.ConnectedComponent.ind₂ (fun a b h => ?_) c d
      rw [hg, hg] at h
      exact SimpleGraph.ConnectedComponent.sound ((hf_iff a b).mp h)
    · rintro ⟨s, hs⟩
      have hs1 := List.mem_toFinset.mp hs
      obtain ⟨k, hk⟩ := List.exists_mem_of_ne_nil s (hA.et 0 s hs1).ne_nil
      obtain ⟨x, y⟩ := k
      have hx := ((hA.et 0 s hs1).self_mem x y hk).1
      have hrange := (hA.verts 0 hA.pos_L x).mp (List.mem_flatten.mpr ⟨s, hs1, hx⟩)
      rw [hn] at hrange
      refine ⟨(edgeGraph n E).connectedComponentMk ⟨x.toNat, by omega⟩, ?_⟩
      rw [hg]
      apply Subtype.ext
      refine tour_unique (hA.nodup 0) (List.mem_toFinset.mp (f _).2) hs1 (hf _) ?_
      show (((x.toNat : Nat) : Int), ((x.toNat : Nat) : Int)) ∈ s
      rw [Int.toNat_of_nonneg hrange.1]
      exact hx
  have hcard := Nat.card_eq_of_bijective g hbij
  rw [hcard, Nat.card_eq_fintype_card, Fintype.card_coe, List.toFinset_card_of_nodup hnd]
  have h0 : V.comps + 0 = ((V.tours 0).length : Int) := hc
  omega

/-- Only pairs of distinct vertices in range are recorded as present. -/
theorem Abs.present_range {V : View} {P : Par} (hA : Abs V P) {a b : Int}
    (h : present P.E a b = true) : a ≠ b ∧ (0 ≤ a ∧ a < V.n) ∧ (0 ≤ b ∧ b < V.n) := by
  rcases (hA.pres a b).mp h with h1 | h1
  · obtain ⟨lv, hlv⟩ := Option.isSome_iff_exists.mp h1
    obtain ⟨h2, h3, h4, h5, h6, -, -⟩ := hA.rngT a b lv hlv
    exact ⟨h2, ⟨h3, h4⟩, ⟨h5, h6⟩⟩
  · obtain ⟨lv, hlv⟩ := Option.isSome_iff_exists.mp h1
    obtain ⟨h2, h3, h4, h5, h6, -, -⟩ := hA.rngN a b lv hlv
    exact ⟨h2, ⟨h3, h4⟩, ⟨h5, h6⟩⟩

/-- Method `RemoveEdge` on a pair that is not a present edge takes its last branch: it
writes the message and changes nothing else. -/
theorem RemoveEdge_absent {G : DynamicGraph} {n : Nat} {E : List (Int × Int)}
    (hI : Inv G n E) {u v : Int} (h : present E u v = false) :
    RemoveEdge G u v = some { G with cout := G.cout ++ ["impossible\n"] } := by
  obtain ⟨-, tss, -, hA⟩ := hI
  obtain ⟨hT, hN⟩ := hA.absent_T (a := u) (b := v) h
  have hT1 : G.spanning_edges_levels.find (u, v) = none := hT
  have hN1 : G.not_spanning_edges_levels.find (u, v) = none := hN
  have hcN : ¬ (G.not_spanning_edges_levels.count (u, v) ≠ 0) := by
    rw [LevelMap.count_ne_zero, hN1]
    exact fun h => Bool.noConfusion h
  have hcT : ¬ (G.spanning_edges_levels.count (u, v) ≠ 0) := by
    rw [LevelMap.count_ne_zero, hT1]
    exact fun h => Bool.noConfusion h
  simp only [RemoveEdge, if_neg hcN, if_neg hcT]

/-- Method `IsConnected` on two vertices outside the range answers `true` and leaves a
null entry in the node registry of forest 0. -/
theorem IsConnected_outside {G : DynamicGraph} {n : Nat} {E : List (Int × Int)}
    (hI : Inv G n E) {u v : Int} (hu : ¬ (0 ≤ u ∧ u < (n : Int)))
    (hv : ¬ (0 ≤ v ∧ v < (n : Int))) :
    ∃ G1 F F1, IsConnected G u v = some (G1, true) ∧ G.spanning_trees[0]? = some F ∧
      G1.spanning_trees[0]? = some F1 ∧ F.map_edges (u, u) = none ∧
      F1.map_edges (u, u) = some none := by
  obtain ⟨hn, tss, hR, hA⟩ := hI
  have hL : 0 < G.spanning_trees.length := hA.pos_L
  have hF : G.spanning_trees[0]? = some G.spanning_trees[0] := List.getElem?_eq_getElem hL
  obtain ⟨F, hFe⟩ : ∃ F, F = G.spanning_trees[0] := ⟨_, rfl⟩
  rw [← hFe] at hF
  have hs := hR.shape 0 F hF
  have hnone : ∀ a : Int, ¬ (0 ≤ a ∧ a < (n : Int)) → F.map_edges (a, a) = none := by
    intro a ha
    cases hm : F.map_edges (a, a) with
    | none => rfl
    | some p =>
      cases p with
      | none => exact absurd hm (hs.nonull _)
      | some q =>
        have h1 : (a, a) ∈ ((viewOf G tss).tours 0).flatten := hs.mem_keys.mpr ⟨q, hm⟩
        have h2 := (hA.verts 0 hL a).mp h1
        rw [show (viewOf G tss).n = (n : Int) from hn] at h2
        exact absurd h2 ha
  have hmu := hnone u hu
  have hmv := hnone v hv
  have hfor : G.forest 0 = some F := by
    have := forest_cast G 0
    rw [hF] at this
    exact this
  by_cases huv : v = u
  · subst huv
    obtain ⟨m2, hm2⟩ : ∃ m2 : EdgeMap, m2 = fun q => if q = (v, v) then some none
        else F.map_edges q := ⟨_, rfl⟩
    refine ⟨G.setForest 0 { F with map_edges := m2 }, F, { F with map_edges := m2 },
      ?_, hF, ?_, hmu, ?_⟩
    · simp only [IsConnected, DynamicGraph.connectedAt, hfor, Option.some_bind, is_connected,
        EdgeMap.at, hmu, if_true, lift, decide_True, hm2]
    · simp only [DynamicGraph.setForest, Int.toNat_zero, List.getElem?_set, hL, if_true]
    · show m2 (v, v) = some none
      rw [hm2]
      simp only [if_true]
  · have hne : ((v, v) : Int × Int) ≠ (u, u) := fun h => huv (Prod.mk.inj h).1
    have hne1 : ((u, u) : Int × Int) ≠ (v, v) := fun h => hne h.symm
    obtain ⟨m2, hm2⟩ : ∃ m2 : EdgeMap, m2 = fun q => if q = (v, v) then some none
        else if q = (u, u) then some none else F.map_edges q := ⟨_, rfl⟩
    refine ⟨G.setForest 0 { F with map_edges := m2 }, F, { F with map_edges := m2 },
      ?_, hF, ?_, hmu, ?_⟩
    · simp only [IsConnected, DynamicGraph.connectedAt, hfor, Option.some_bind, is_connected,
        EdgeMap.at, hmu, hmv, if_neg hne, lift, decide_True, hm2]
    · simp only [DynamicGraph.setForest, Int.toNat_zero, List.getElem?_set, hL, if_true]
    · show m2 (u, u) = some none
      rw [hm2]
      simp only [if_neg hne1, if_true]

/-- Method `AddEdge(u, u)` on a vertex in range is not rejected: it records the pair
`(u, u)` as a non-tree edge of level 0. -/
theorem AddEdge_loop {G : DynamicGraph} {n : Nat} {E : List (Int × Int)} (hI : Inv G n E)
    {u : Int} (hu : 0 ≤ u ∧ u < (n : Int)) :
    ∃ G1, AddEdge G u u = some G1 ∧ G1.not_spanning_edges_levels.find (u, u) = some 0 ∧
      G.not_spanning_edges_levels.find (u, u) = none := by
  obtain ⟨hn, tss, hR, hA⟩ := hI
  rw [← hn] at hu
  have hL : 0 < G.spanning_trees.length := hA.pos_L
  have hmem : (u, u) ∈ ((viewOf G tss).tours 0).flatten := (hA.verts 0 hL u).mpr hu
  obtain ⟨tA, htA, hkA⟩ := hR.tree_of_vertex hA hL hu
  obtain ⟨c, hconn, hc⟩ := hR.connectedAt_spec (l := 0) hmem hmem
  rw [cast_zero_int] at hconn
  have hct : c = true := hc.mpr (SameT.refl_same hmem)
  subst hct
  have hold : G.not_spanning_edges_levels.find (u, u) = none := by
    cases h1 : G.not_spanning_edges_levels.find (u, u) with
    | none => rfl
    | some lv => exact absurd rfl (hA.rngN u u lv h1).1
  have hR2 : Rep { G with not_spanning_edges_levels :=
      (G.not_spanning_edges_levels.set (u, u) 0).set (u, u) 0 } tss ∅ :=
    hR.of_fields rfl rfl
  obtain ⟨G3, h3, hR3, hV3, hh3, -⟩ := hR2.adjInsert_rep (l := 0) hL u u
  have hL3 : 0 < G3.spanning_trees.length := by
    have := congrArg View.L hV3
    simp only [viewOf, View.setAdj] at this
    omega
  obtain ⟨G4, h4, hR4, hV4, hh4, -⟩ := hR3.adjInsert_rep (l := 0) hL3 u u
  have hheap4 : G4.heap = G.heap := hh4.trans hh3
  have hkA4 : (u, u) ∈ tourKeys G4.heap tA := by rw [hheap4]; exact hkA
  obtain ⟨pu, ndu, hsu, hpu, hgu, -⟩ := hR4.selfNode_spec htA hkA4
  obtain ⟨h5, hr5, hR5, -, -, -⟩ := hR4.raise_adjacent_rep htA hpu hgu
  obtain ⟨F5, hF5⟩ := hR5.forest_of_tree htA
  obtain ⟨nd5, hg5⟩ := (hR5.shape 0 F5 hF5).live (mem_nodesOf.mpr ⟨tA, htA, hpu⟩)
  obtain ⟨h6, hr6, -, -, -, -⟩ := hR5.raise_adjacent_rep htA hpu hg5
  refine ⟨{ G4 with heap := h6 }, ?_, ?_, hold⟩
  · simp only [cast_zero_int] at h3 h4 hsu
    simp only [AddEdge, hconn, Option.some_bind, if_true, h3, h4, hsu, hr5, hr6]
  · have e4 : G4.not_spanning_edges_levels = G3.not_spanning_edges_levels :=
      congrArg View.lvN hV4
    have e3 : G3.not_spanning_edges_levels =
        (G.not_spanning_edges_levels.set (u, u) 0).set (u, u) 0 := congrArg View.lvN hV3
    show G4.not_spanning_edges_levels.find (u, u) = some 0
    rw [e4, e3, LevelMap.find_set, if_pos rfl]

/-- Every prefix of a valid script is a valid script. -/
theorem validFrom_take : ∀ (ops : List Op) (n : Nat) (E : List (Int × Int)) (k : Nat),
    validFrom n E ops = true → validFrom n E (ops.take k) = true
  | [], _, _, _, _ => by simp [validFrom]
  | _ :: _, _, _, 0, _ => rfl
  | op :: rest, n, E, k + 1, h => by
    simp only [List.take_succ_cons, validFrom, Bool.and_eq_true] at h ⊢
    exact ⟨h.1, validFrom_take rest n _ k h.2⟩

/-- After each operation of a valid script on a fresh graph the run has succeeded and the
invariant holds. -/
theorem reach_prefix (out : Nat → Int) (n : Nat) (ops : List Op)
    (hv : validFrom n [] ops = true) (k : Nat) :
    ∃ G, runOps (ops.take k) (DynamicGraph.new out (n : Int)) = some G ∧
      Inv G n (edgesFrom [] (ops.take k)) :=
  reach_inv out n _ (validFrom_take ops n [] k hv)

/-- The level counter is at most the binary logarithm of the number of vertices. -/
theorem Abs.mx_le_log {V : View} {P : Par} (hA : Abs V P) {n : Nat} (hn : V.n = (n : Int))
    (h1 : 1 ≤ n) : V.mx ≤ ((Nat.log 2 n : Nat) : Int) := by
  obtain ⟨l, hl⟩ : ∃ l : Nat, V.mx = (l : Int) := ⟨V.mx.toNat, int_eq_cast hA.mx_nonneg⟩
  have hlL : l < V.L := hA.level_in (le_of_eq hl.symm)
  have h0 : ((0 : Int), (0 : Int)) ∈ (V.tours l).flatten :=
    (hA.verts l hlL 0).mpr ⟨le_refl _, by rw [hn]; exact_mod_cast h1⟩
  obtain ⟨s, hs, h0s⟩ := List.mem_flatten.mp h0
  have hsz := hA.size l s hs
  have hpos : (1 : Int) ≤ (selfCount s : Int) := by exact_mod_cast selfCount_pos h0s
  have hp : (0 : Int) ≤ 2 ^ l := by positivity
  have h2 : (2 : Int) ^ l ≤ (n : Int) := by
    calc (2 : Int) ^ l = 2 ^ l * 1 := by ring
      _ ≤ 2 ^ l * (selfCount s : Int) := mul_le_mul_of_nonneg_left hpos hp
      _ ≤ V.n := hsz
      _ = n := hn
  have h3 : 2 ^ l ≤ n := by exact_mod_cast h2
  have h4 : l ≤ Nat.log 2 n := Nat.le_log_of_pow_le (by norm_num) h3
  rw [hl]
  exact_mod_cast h4

theorem LevelMap.find_of_mem : ∀ (m : LevelMap), (m.map Prod.fst).Nodup →
    ∀ (k : Int × Int) (lv : Int), (k, lv) ∈ m → LevelMap.find m k = some lv
  | [], _, _, _, h => absurd h (List.not_mem_nil _)
  | (k1, v) :: rest, hnd, k, lv, h => by
    simp only [List.map_cons, List.nodup_cons] at hnd
    rw [LevelMap.find_cons]
    rcases List.mem_cons.mp h with h1 | h1
    · obtain ⟨rfl, rfl⟩ := Prod.mk.inj h1
      rw [if_pos rfl]
    · have hne : k1 ≠ k := by
        rintro rfl
        exact hnd.1 (List.mem_map_of_mem Prod.fst h1)
      rw [if_neg hne]
      exact LevelMap.find_of_mem rest hnd.2 k lv h1

theorem foldl_max_le (B : Int) : ∀ (m : LevelMap) (acc : Int), acc ≤ B →
    (∀ e ∈ m, e.2 ≤ B) → m.foldl (fun acc e => max acc e.2) acc ≤ B
  | [], _, h, _ => h
  | e :: rest, acc, h, hm => by
    simp only [List.foldl_cons]
    exact foldl_max_le B rest _ (max_le h (hm e (List.mem_cons_self _ _)))
      (fun e1 he1 => hm e1 (List.mem_cons_of_mem _ he1))

theorem LevelMap.maxValue_le {m : LevelMap} (hnd : (m.map Prod.fst).Nodup) {B : Int}
    (h0 : 0 ≤ B) (h : ∀ k lv, LevelMap.find m k = some lv → lv ≤ B) :
    LevelMap.maxValue m ≤ B :=
  foldl_max_le B m 0 h0 (fun e he => h e.1 e.2 (LevelMap.find_of_mem m hnd e.1 e.2 he))

/-- The graph with edges `{0,2}` and `{1,2}` on three vertices has one component. -/
theorem path_graph_card :
    Nat.card (edgeGraph 3 [(0, 2), (1, 2)]).ConnectedComponent = 1 ∧
    (edgeGraph 3 [(0, 2), (1, 2)]).Reachable 0 1 := by
  have h02 : (edgeGraph 3 [(0, 2), (1, 2)]).Adj 0 2 := ⟨by decide, by decide⟩
  have h12 : (edgeGraph 3 [(0, 2), (1, 2)]).Adj 1 2 := ⟨by decide, by decide⟩
  have hall : ∀ a : Fin 3, (edgeGraph 3 [(0, 2), (1, 2)]).Reachable a 2 := by
    intro a
    fin_cases a
    · exact h02.reachable
    · exact h12.reachable
    · exact SimpleGraph.Reachable.refl _
  refine ⟨?_, (hall 0).trans (hall 1).symm⟩
  have hsub : Subsingleton (edgeGraph 3 [(0, 2), (1, 2)]).ConnectedComponent :=
    ⟨fun c d => SimpleGraph.ConnectedComponent.ind₂
      (fun a b => SimpleGraph.ConnectedComponent.sound ((hall a).trans (hall b).symm)) c d⟩
  have hne : Nonempty (edgeGraph 3 [(0, 2), (1, 2)]).ConnectedComponent :=
    ⟨(edgeGraph 3 [(0, 2), (1, 2)]).connectedComponentMk 0⟩
  exact Nat.card_eq_one_iff_unique.mpr ⟨hsub, hne⟩

/-- The graph with the one edge `{0,2}` on three vertices has two components, and vertex 1
is alone in its component. -/
theorem one_edge_card :
    Nat.card (edgeGraph 3 [(0, 2)]).ConnectedComponent = 2 ∧
    ¬ (edgeGraph 3 [(0, 2)]).Reachable 0 1 := by
  have h02 : (edgeGraph 3 [(0, 2)]).Adj 0 2 := ⟨by decide, by decide⟩
  have hadj : ∀ a b : Fin 3, (edgeGraph 3 [(0, 2)]).Adj a b →
      decide (a = 1) = decide (b = 1) := by
    intro a b h
    have h2 := h.2
    fin_cases a <;> fin_cases b <;> first | rfl | (exact absurd h2 (by decide))
  have hreach : ∀ a b : Fin 3, (edgeGraph 3 [(0, 2)]).Reachable a b →
      decide (a = 1) = decide (b = 1) := by
    intro a b h
    rw [SimpleGraph.reachable_iff_reflTransGen] at h
    induction h with
    | refl => rfl
    | @tail x y _ hxy ih => exact ih.trans (hadj x y hxy)
  have hconv : ∀ a b : Fin 3, decide (a = 1) = decide (b = 1) →
      (edgeGraph 3 [(0, 2)]).Reachable a b := by
    intro a b h
    fin_cases a <;> fin_cases b <;>
      first
        | exact SimpleGraph.Reachable.refl _
        | exact h02.reachable
        | exact h02.reachable.symm
        | exact absurd h (by decide)
  refine ⟨?_, fun h => absurd (hreach 0 1 h) (by decide)⟩
  obtain ⟨g, hg⟩ : ∃ g : (edgeGraph 3 [(0, 2)]).ConnectedComponent → Bool,
      ∀ a, g ((edgeGraph 3 [(0, 2)]).connectedComponentMk a) = decide (a = 1) :=
    ⟨SimpleGraph.ConnectedComponent.lift (fun a => decide (a = 1))
      (fun a b p _ => hreach a b ⟨p⟩), fun _ => rfl⟩
  have hbij : Function.Bijective g := by
    constructor
    · intro c d
      refine SimpleGraph.ConnectedComponent.ind₂ (fun a b h => ?_) c d
      rw [hg, hg] at h
      exact SimpleGraph.ConnectedComponent.sound (hconv a b h)
    · intro b
      cases b with
      | false => exact ⟨(edgeGraph 3 [(0, 2)]).connectedComponentMk 0, by rw [hg]; rfl⟩
      | true => exact ⟨(edgeGraph 3 [(0, 2)]).connectedComponentMk 1, by rw [hg]; rfl⟩
  rw [Nat.card_eq_of_bijective g hbij, Nat.card_eq_fintype_card, Fintype.card_bool]

set_option maxRecDepth 100000 in
/-- C8, the claim fails: on four vertices, after `AddEdge(0,1)`, `AddEdge(1,2)`,
`AddEdge(2,3)`, `RemoveEdge(1,2)`, `RemoveEdge(0,1)` (a valid script) `GetMax()` is 1 although
the only edge left, `{2,3}`, has level 0. -/
theorem getMax_exceeds_present_levels :
    validFrom 4 [] [.add 0 1, .add 1 2, .add 2 3, .remove 1 2, .remove 0 1] = true ∧
    (runOps [.add 0 1, .add 1 2, .add 2 3, .remove 1 2, .remove 0 1]
      (DynamicGraph.new (fun _ => 0) 4)).map (fun G => (GetMax G, maxStoredLevel G))
      = some (1, 0) ∧
    (runOps [.add 0 1, .add 1 2, .add 2 3, .remove 1 2, .remove 0 1]
      (DynamicGraph.new (fun _ => 0) 4)).map (fun G => G.spanning_edges_levels)
      = some [((3, 2), 0), ((2, 3), 0)] ∧
    (runOps [.add 0 1, .add 1 2, .add 2 3, .remove 1 2, .remove 0 1]
      (DynamicGraph.new (fun _ => 0) 4)).map (fun G => G.not_spanning_edges_levels)
      = some [] := by
  refine ⟨by decide!, by decide!, by decide!, by decide!⟩

set_option maxRecDepth 100000 in
/-- C5, the claim fails: on a fresh graph of three vertices `AddEdge(0, 0)` returns
normally and records the self-loop as a non-tree edge of level 0: a key in
`not_spanning_edges_levels` and an entry in the adjacency set of vertex 0. -/
theorem addEdge_self_loop_mutates :
    (AddEdge (DynamicGraph.new (fun _ => 0) 3) 0 0).map
      (fun G => G.not_spanning_edges_levels) = some [((0, 0), 0)] ∧
    (AddEdge (DynamicGraph.new (fun _ => 0) 3) 0 0).map
      (fun G => G.spanning_trees.map (fun F => F.adjacent_edges 0)) = some [[0]] ∧
    (DynamicGraph.new (fun _ => 0) 3).not_spanning_edges_levels = [] ∧
    (DynamicGraph.new (fun _ => 0) 3).spanning_trees.map (fun F => F.adjacent_edges 0) = [[]] := by
  refine ⟨by decide!, by decide!, by decide!, by decide!⟩

set_option maxRecDepth 100000 in
/-- C6, the claim fails: on a fresh graph of three vertices `IsConnected(5, 7)` returns
the ordinary answer `true` and leaves null entries for `(5,5)` and `(7,7)` in the node
registry of forest 0, where there were none. -/
theorem isConnected_out_of_range_answers :
    (IsConnected (DynamicGraph.new (fun _ => 0) 3) 5 7).map (fun r => r.2) = some true ∧
    (IsConnected (DynamicGraph.new (fun _ => 0) 3) 5 7).map
      (fun r => r.1.spanning_trees.map (fun F => (F.map_edges (5, 5), F.map_edges (7, 7))))
      = some [(some none, some none)] ∧
    (DynamicGraph.new (fun _ => 0) 3).spanning_trees.map
      (fun F => (F.map_edges (5, 5), F.map_edges (7, 7))) = [(none, none)] := by
  refine ⟨by decide!, by decide!, by decide!⟩

/-- C1: for every number of vertices `n`, every stream `out` of node priorities and every
valid script on a fresh `DynamicGraph(n)` (vertices in range, `u ≠ v`, `AddEdge` only on
an absent edge, `RemoveEdge` only on a present edge), after each operation (after the first
`k` operations, for every `k`) the run has returned and `GetComponentsNumber()` is the
number of connected components of the graph on `n` vertices whose edges are the edges
added and not yet removed. -/
theorem components_number_correct (out : Nat → Int) (n : Nat) (ops : List Op)
    (hv : validFrom n [] ops = true) (k : Nat) :
    ∃ G, runOps (ops.take k) (DynamicGraph.new out (n : Int)) = some G ∧
      GetComponentsNumber G =
        ((Nat.card (edgeGraph n (edgesFrom [] (ops.take k))).ConnectedComponent : Nat) : Int) := by
  obtain ⟨G, hrun, hn, tss, hR, hA⟩ := reach_prefix out n ops hv k
  exact ⟨G, hrun, hA.comps_card hn⟩

theorem components_number_correct_witness :
    validFrom 3 [] [.add 0 1, .add 1 2] = true ∧
    ∃ G, runOps ([Op.add 0 1, Op.add 1 2].take 1)
        (DynamicGraph.new (fun _ => 0) ((3 : Nat) : Int)) = some G ∧
      GetComponentsNumber G =
        ((Nat.card (edgeGraph 3
          (edgesFrom [] ([Op.add 0 1, Op.add 1 2].take 1))).ConnectedComponent : Nat) : Int) :=
  ⟨by decide, components_number_correct (fun _ => 0) 3 [.add 0 1, .add 1 2] (by decide) 1⟩

/-- C2: for every valid script on a fresh `DynamicGraph(n)` and every pair of vertices
`u`, `v` in range, `IsConnected(u, v)` returns, and it returns `true` exactly when `u` and
`v` are joined by a chain of present edges, that is, lie in one connected component of the
graph of the present edges. -/
theorem isConnected_correct (out : Nat → Int) (n : Nat) (ops : List Op)
    (hv : validFrom n [] ops = true) (u v : Fin n) :
    ∃ G G1 c, runOps ops (DynamicGraph.new out (n : Int)) = some G ∧
      IsConnected G ((u : Nat) : Int) ((v : Nat) : Int) = some (G1, c) ∧
      (c = true ↔ (edgeGraph n (edgesFrom [] ops)).Reachable u v) := by
  obtain ⟨G, hrun, hn, tss, hR, hA⟩ := reach_inv out n ops hv
  have hL : 0 < G.spanning_trees.length := hA.pos_L
  have hin : ∀ c : Fin n,
      (((c : Nat) : Int), ((c : Nat) : Int)) ∈ ((viewOf G tss).tours 0).flatten :=
    fun c => (hA.verts 0 hL _).mpr
      ⟨Int.natCast_nonneg _, by rw [show (viewOf G tss).n = (n : Int) from hn]; exact_mod_cast c.2⟩
  obtain ⟨c, hconn, hc⟩ := hR.connectedAt_spec (l := 0) (hin u) (hin v)
  rw [cast_zero_int] at hconn
  exact ⟨G, G, c, hrun, hconn, hc.trans (hA.reachable_iff hn u v).symm⟩

theorem isConnected_correct_witness :
    validFrom 3 [] [.add 0 1, .add 1 2] = true ∧
    ∃ G G1 c, runOps [Op.add 0 1, Op.add 1 2]
        (DynamicGraph.new (fun _ => 0) ((3 : Nat) : Int)) = some G ∧
      IsConnected G (((0 : Fin 3) : Nat) : Int) (((2 : Fin 3) : Nat) : Int) = some (G1, c) ∧
      (c = true ↔ (edgeGraph 3 (edgesFrom [] [Op.add 0 1, Op.add 1 2])).Reachable 0 2) :=
  ⟨by decide, isConnected_correct (fun _ => 0) 3 [.add 0 1, .add 1 2] (by decide) 0 2⟩

/-- C3: for every `n ≥ 1` and every valid script on a fresh `DynamicGraph(n)`, after each
operation `GetMax()` (the field `mx_level`) is at most `⌊log₂ n⌋`; no tree edge and no
non-tree edge is recorded at a level above `⌊log₂ n⌋`, and at most `⌊log₂ n⌋ + 1` forests
have been built. -/
theorem getMax_le_log (out : Nat → Int) (n : Nat) (ops : List Op) (hn1 : 1 ≤ n)
    (hv : validFrom n [] ops = true) (k : Nat) :
    ∃ G, runOps (ops.take k) (DynamicGraph.new out (n : Int)) = some G ∧
      GetMax G ≤ ((Nat.log 2 n : Nat) : Int) ∧
      (∀ e lv, G.spanning_edges_levels.find e = some lv → lv ≤ ((Nat.log 2 n : Nat) : Int)) ∧
      (∀ e lv, G.not_spanning_edges_levels.find e = some lv →
        lv ≤ ((Nat.log 2 n : Nat) : Int)) ∧
      G.spanning_trees.length ≤ Nat.log 2 n + 1 := by
  obtain ⟨G, hrun, hn, tss, hR, hA⟩ := reach_prefix out n ops hv k
  have hmx : G.mx_level ≤ ((Nat.log 2 n : Nat) : Int) := hA.mx_le_log hn hn1
  refine ⟨G, hrun, hmx, fun e lv h => ?_, fun e lv h => ?_, ?_⟩
  · obtain ⟨a, b⟩ := e
    exact le_trans (hA.rngT a b lv h).2.2.2.2.2.2 hmx
  · obtain ⟨a, b⟩ := e
    exact le_trans (hA.rngN a b lv h).2.2.2.2.2.2 hmx
  · have h1 : ((G.spanning_trees.length : Nat) : Int) = G.mx_level + 1 := hA.mx_len
    omega

theorem getMax_le_log_witness :
    1 ≤ 3 ∧ validFrom 3 [] [.add 0 1, .add 1 2] = true ∧
    ∃ G, runOps ([Op.add 0 1, Op.add 1 2].take 2)
        (DynamicGraph.new (fun _ => 0) ((3 : Nat) : Int)) = some G ∧
      GetMax G ≤ ((Nat.log 2 3 : Nat) : Int) ∧
      (∀ e lv, G.spanning_edges_levels.find e = some lv → lv ≤ ((Nat.log 2 3 : Nat) : Int)) ∧
      (∀ e lv, G.not_spanning_edges_levels.find e = some lv →
        lv ≤ ((Nat.log 2 3 : Nat) : Int)) ∧
      G.spanning_trees.length ≤ Nat.log 2 3 + 1 :=
  ⟨by decide, by decide,
    getMax_le_log (fun _ => 0) 3 [.add 0 1, .add 1 2] (by decide) (by decide) 2⟩

/-- C4: in every state reached by a valid script, for vertices `u ≠ v` in range whose edge
is not present, `RemoveEdge(u, v)` returns the state it was called on with only the message
`impossible` appended to the output: `components`, `mx_level`, both level maps, every
forest (registry, adjacency sets) and the heap of tree nodes are unchanged. -/
theorem removeEdge_absent_unchanged (out : Nat → Int) (n : Nat) (ops : List Op)
    (hv : validFrom n [] ops = true) (u v : Int) (_hu : 0 ≤ u ∧ u < (n : Int))
    (_hw : 0 ≤ v ∧ v < (n : Int)) (_hne : u ≠ v)
    (habs : present (edgesFrom [] ops) u v = false) :
    ∃ G, runOps ops (DynamicGraph.new out (n : Int)) = some G ∧
      RemoveEdge G u v = some { G with cout := G.cout ++ ["impossible\n"] } := by
  obtain ⟨G, hrun, hI⟩ := reach_inv out n ops hv
  exact ⟨G, hrun, RemoveEdge_absent hI habs⟩

theorem removeEdge_absent_unchanged_witness :
    validFrom 3 [] [.add 0 1, .add 1 2] = true ∧ (0 ≤ (0 : Int) ∧ (0 : Int) < ((3 : Nat) : Int)) ∧
    (0 ≤ (2 : Int) ∧ (2 : Int) < ((3 : Nat) : Int)) ∧ (0 : Int) ≠ 2 ∧
    present (edgesFrom [] [Op.add 0 1, Op.add 1 2]) 0 2 = false ∧
    ∃ G, runOps [Op.add 0 1, Op.add 1 2]
        (DynamicGraph.new (fun _ => 0) ((3 : Nat) : Int)) = some G ∧
      RemoveEdge G 0 2 = some { G with cout := G.cout ++ ["impossible\n"] } :=
  ⟨by decide, by decide, by decide, by decide, by decide,
    removeEdge_absent_unchanged (fun _ => 0) 3 [.add 0 1, .add 1 2] (by decide) 0 2
      (by decide) (by decide) (by decide) (by decide)⟩

/-- C5, amended: in every state reached by a valid script and for every vertex `u` in
range, `RemoveEdge(u, u)` changes nothing but the output, to which it appends `impossible`;
`AddEdge(u, u)` is not rejected: it returns and records `(u, u)`, which was no key before,
as a non-tree edge of level 0 in `not_spanning_edges_levels`. -/
theorem self_loop_behaviour (out : Nat → Int) (n : Nat) (ops : List Op)
    (hv : validFrom n [] ops = true) (u : Int) (hu : 0 ≤ u ∧ u < (n : Int)) :
    ∃ G, runOps ops (DynamicGraph.new out (n : Int)) = some G ∧
      RemoveEdge G u u = some { G with cout := G.cout ++ ["impossible\n"] } ∧
      ∃ G1, AddEdge G u u = some G1 ∧ G1.not_spanning_edges_levels.find (u, u) = some 0 ∧
        G.not_spanning_edges_levels.find (u, u) = none := by
  obtain ⟨G, hrun, hI⟩ := reach_inv out n ops hv
  refine ⟨G, hrun, RemoveEdge_absent hI ?_, AddEdge_loop hI hu⟩
  obtain ⟨-, tss, -, hA⟩ := hI
  cases hp : present (edgesFrom [] ops) u u with
  | false => rfl
  | true => exact absurd rfl (hA.present_range hp).1

theorem self_loop_behaviour_witness :
    validFrom 3 [] [.add 0 1, .add 1 2] = true ∧ (0 ≤ (1 : Int) ∧ (1 : Int) < ((3 : Nat) : Int)) ∧
    ∃ G, runOps [Op.add 0 1, Op.add 1 2]
        (DynamicGraph.new (fun _ => 0) ((3 : Nat) : Int)) = some G ∧
      RemoveEdge G 1 1 = some { G with cout := G.cout ++ ["impossible\n"] } ∧
      ∃ G1, AddEdge G 1 1 = some G1 ∧ G1.not_spanning_edges_levels.find (1, 1) = some 0 ∧
        G.not_spanning_edges_levels.find (1, 1) = none :=
  ⟨by decide, by decide,
    self_loop_behaviour (fun _ => 0) 3 [.add 0 1, .add 1 2] (by decide) 1 (by decide)⟩

/-- C6, amended: no call reports a vertex out of range. In every state reached by a valid
script, `RemoveEdge` with a vertex argument outside `[0, n)` changes nothing but the
output, to which it appends `impossible`; `IsConnected(u, v)` with both arguments outside
`[0, n)` returns the ordinary answer `true` and leaves a null entry for `(u, u)`, which
was no key before, in the node registry of forest 0. -/
theorem out_of_range_behaviour (out : Nat → Int) (n : Nat) (ops : List Op)
    (hv : validFrom n [] ops = true) (u v : Int) (hu : ¬ (0 ≤ u ∧ u < (n : Int))) :
    ∃ G, runOps ops (DynamicGraph.new out (n : Int)) = some G ∧
      RemoveEdge G u v = some { G with cout := G.cout ++ ["impossible\n"] } ∧
      RemoveEdge G v u = some { G with cout := G.cout ++ ["impossible\n"] } ∧
      (¬ (0 ≤ v ∧ v < (n : Int)) →
        ∃ G1 F F1, IsConnected G u v = some (G1, true) ∧ G.spanning_trees[0]? = some F ∧
          G1.spanning_trees[0]? = some F1 ∧ F.map_edges (u, u) = none ∧
          F1.map_edges (u, u) = some none) := by
  obtain ⟨G, hrun, hI⟩ := reach_inv out n ops hv
  refine ⟨G, hrun, RemoveEdge_absent hI ?_, RemoveEdge_absent hI ?_,
    fun hw => IsConnected_outside hI hu hw⟩
  · obtain ⟨hn, tss, -, hA⟩ := hI
    cases hp : present (edgesFrom [] ops) u v with
    | false => rfl
    | true =>
      have := (hA.present_range hp).2.1
      rw [show (viewOf G tss).n = (n : Int) from hn] at this
      exact absurd this hu
  · obtain ⟨hn, tss, -, hA⟩ := hI
    cases hp : present (edgesFrom [] ops) v u with
    | false => rfl
    | true =>
      have := (hA.present_range hp).2.2
      rw [show (viewOf G tss).n = (n : Int) from hn] at this
      exact absurd this hu

theorem out_of_range_behaviour_witness :
    validFrom 3 [] [.add 0 1, .add 1 2] = true ∧ ¬ (0 ≤ (5 : Int) ∧ (5 : Int) < ((3 : Nat) : Int)) ∧
    ∃ G, runOps [Op.add 0 1, Op.add 1 2]
        (DynamicGraph.new (fun _ => 0) ((3 : Nat) : Int)) = some G ∧
      RemoveEdge G 5 7 = some { G with cout := G.cout ++ ["impossible\n"] } ∧
      RemoveEdge G 7 5 = some { G with cout := G.cout ++ ["impossible\n"] } ∧
      (¬ (0 ≤ (7 : Int) ∧ (7 : Int) < ((3 : Nat) : Int)) →
        ∃ G1 F F1, IsConnected G 5 7 = some (G1, true) ∧ G.spanning_trees[0]? = some F ∧
          G1.spanning_trees[0]? = some F1 ∧ F.map_edges (5, 5) = none ∧
          F1.map_edges (5, 5) = some none) :=
  ⟨by decide, by decide,
    out_of_range_behaviour (fun _ => 0) 3 [.add 0 1, .add 1 2] (by decide) 5 7 (by decide)⟩

/-- C7: for every stream `out` of node priorities, on `DynamicGraph(3)` after
`AddEdge(0,1)`, `AddEdge(1,2)`, `AddEdge(0,2)`, `RemoveEdge(0,1)` the call
`IsConnected(0,1)` returns `true` and `GetComponentsNumber()` returns 1; after a further
`RemoveEdge(1,2)`, `IsConnected(0,1)` returns `false` and `GetComponentsNumber()`
returns 2. -/
theorem triangle_scenario (out : Nat → Int) :
    ∃ G G1 G2 G3,
      runOps [.add 0 1, .add 1 2, .add 0 2, .remove 0 1]
        (DynamicGraph.new out ((3 : Nat) : Int)) = some G ∧
      IsConnected G 0 1 = some (G1, true) ∧ GetComponentsNumber G1 = 1 ∧
      RemoveEdge G1 1 2 = some G2 ∧
      IsConnected G2 0 1 = some (G3, false) ∧ GetComponentsNumber G3 = 2 := by
  obtain ⟨G, hrun, hI⟩ :=
    reach_inv out 3 [.add 0 1, .add 1 2, .add 0 2, .remove 0 1] (by decide)
  have hE : edgesFrom [] [Op.add 0 1, Op.add 1 2, Op.add 0 2, Op.remove 0 1] =
      [(0, 2), (1, 2)] := by decide
  rw [hE] at hI
  obtain ⟨G2, hrem, hI2⟩ := RemoveEdge_inv (u := 1) (v := 2) hI (by decide)
  have hE2 : stepEdges [(0, 2), (1, 2)] (Op.remove 1 2) = [(0, 2)] := by decide
  rw [hE2] at hI2
  obtain ⟨hn, tss, hR, hA⟩ := hI
  obtain ⟨hn2, tss2, hR2, hA2⟩ := hI2
  have hin : ∀ c : Fin 3,
      (((c : Nat) : Int), ((c : Nat) : Int)) ∈ ((viewOf G tss).tours 0).flatten :=
    fun c => (hA.verts 0 hA.pos_L _).mpr
      ⟨Int.natCast_nonneg _, by rw [show (viewOf G tss).n = ((3 : Nat) : Int) from hn]; exact_mod_cast c.2⟩
  have hin2 : ∀ c : Fin 3,
      (((c : Nat) : Int), ((c : Nat) : Int)) ∈ ((viewOf G2 tss2).tours 0).flatten :=
    fun c => (hA2.verts 0 hA2.pos_L _).mpr
      ⟨Int.natCast_nonneg _, by rw [show (viewOf G2 tss2).n = ((3 : Nat) : Int) from hn2]; exact_mod_cast c.2⟩
  obtain ⟨c, hconn, hc⟩ := hR.connectedAt_spec (l := 0) (hin 0) (hin 1)
  obtain ⟨c2, hconn2, hc2⟩ := hR2.connectedAt_spec (l := 0) (hin2 0) (hin2 1)
  have hct : c = true := (hc.trans (hA.reachable_iff hn 0 1).symm).mpr path_graph_card.2
  have hcf : c2 = false := by
    cases c2 with
    | false => rfl
    | true =>
      exact absurd ((hc2.trans (hA2.reachable_iff hn2 0 1).symm).mp rfl) one_edge_card.2
  subst hct hcf
  refine ⟨G, G, G2, G2, hrun, hconn, ?_, hrem, hconn2, ?_⟩
  · have h1 := hA.comps_card hn
    rw [path_graph_card.1] at h1
    exact h1
  · have h1 := hA2.comps_card hn2
    rw [one_edge_card.1] at h1
    exact h1

/-- C9: for every valid script on a fresh `DynamicGraph(n)`, after each operation
`components = n - (number of tree edges)`, where the number of tree edges is half the
number of keys of `spanning_edges_levels`: the keys are pairwise different, each is
stored with its reverse, and their number is even. -/
theorem components_tree_edges (out : Nat → Int) (n : Nat) (ops : List Op)
    (hv : validFrom n [] ops = true) (k : Nat) :
    ∃ G, runOps (ops.take k) (DynamicGraph.new out (n : Int)) = some G ∧
      (G.spanning_edges_levels.map Prod.fst).Nodup ∧
      (∀ a b, G.spanning_edges_levels.find (a, b) = G.spanning_edges_levels.find (b, a)) ∧
      2 ∣ G.spanning_edges_levels.length ∧
      G.components = (n : Int) - ((G.spanning_edges_levels.length / 2 : Nat) : Int) := by
  obtain ⟨G, hrun, hn, tss, hR, hA⟩ := reach_prefix out n ops hv k
  have h2 : 2 * ((n : Int) - G.components) + 0 = (G.spanning_edges_levels.length : Int) := by
    have := hA.cnt2
    rw [show (viewOf G tss).n = (n : Int) from hn] at this
    exact this
  refine ⟨G, hrun, hA.keysT, hA.symT, ?_, ?_⟩
  · omega
  · omega

theorem components_tree_edges_witness :
    validFrom 3 [] [.add 0 1, .add 1 2] = true ∧
    ∃ G, runOps ([Op.add 0 1, Op.add 1 2].take 2)
        (DynamicGraph.new (fun _ => 0) ((3 : Nat) : Int)) = some G ∧
      (G.spanning_edges_levels.map Prod.fst).Nodup ∧
      (∀ a b, G.spanning_edges_levels.find (a, b) = G.spanning_edges_levels.find (b, a)) ∧
      2 ∣ G.spanning_edges_levels.length ∧
      G.components = ((3 : Nat) : Int) - ((G.spanning_edges_levels.length / 2 : Nat) : Int) :=
  ⟨by decide, components_tree_edges (fun _ => 0) 3 [.add 0 1, .add 1 2] (by decide) 2⟩

/-- C10: for every valid script on a fresh `DynamicGraph(n)`, after each operation and for
every pair `u ≠ v`: if the edge is present, then `(u, v)` and `(v, u)` are keys, with one
value, of exactly one of `spanning_edges_levels` and `not_spanning_edges_levels` and of
neither orientation in the other; if it is absent, neither orientation is a key of either
map; so on a present edge one of the two tests of `RemoveEdge` succeeds and its branch
`impossible` is not reached. -/
theorem edge_classification (out : Nat → Int) (n : Nat) (ops : List Op)
    (hv : validFrom n [] ops = true) (k : Nat) (u v : Int) (_hne : u ≠ v) :
    ∃ G, runOps (ops.take k) (DynamicGraph.new out (n : Int)) = some G ∧
      (present (edgesFrom [] (ops.take k)) u v = true →
        ((∃ lv, G.spanning_edges_levels.find (u, v) = some lv ∧
            G.spanning_edges_levels.find (v, u) = some lv) ∧
          G.not_spanning_edges_levels.find (u, v) = none ∧
          G.not_spanning_edges_levels.find (v, u) = none) ∨
        ((∃ lv, G.not_spanning_edges_levels.find (u, v) = some lv ∧
            G.not_spanning_edges_levels.find (v, u) = some lv) ∧
          G.spanning_edges_levels.find (u, v) = none ∧
          G.spanning_edges_levels.find (v, u) = none)) ∧
      (present (edgesFrom [] (ops.take k)) u v = false →
        G.spanning_edges_levels.find (u, v) = none ∧
        G.spanning_edges_levels.find (v, u) = none ∧
        G.not_spanning_edges_levels.find (u, v) = none ∧
        G.not_spanning_edges_levels.find (v, u) = none) ∧
      (present (edgesFrom [] (ops.take k)) u v = true →
        (G.not_spanning_edges_levels.count (u, v) ≠ 0 ∨
          G.spanning_edges_levels.count (u, v) ≠ 0) ∧
        ∃ G1, RemoveEdge G u v = some G1) := by
  obtain ⟨G, hrun, hI⟩ := reach_prefix out n ops hv k
  obtain ⟨hn, tss, hR, hA⟩ := hI
  have hsT : G.spanning_edges_levels.find (v, u) = G.spanning_edges_levels.find (u, v) :=
    hA.symT v u
  have hsN : G.not_spanning_edges_levels.find (v, u) =
      G.not_spanning_edges_levels.find (u, v) := hA.symN v u
  refine ⟨G, hrun, fun hp => ?_, fun hp => ?_, fun hp => ⟨?_, ?_⟩⟩
  · rcases (hA.pres u v).mp hp with h | h
    · obtain ⟨lv, hlv⟩ := Option.isSome_iff_exists.mp h
      have hN : G.not_spanning_edges_levels.find (u, v) = none := hA.excl (u, v) h
      exact Or.inl ⟨⟨lv, hlv, hsT.trans hlv⟩, hN, hsN.trans hN⟩
    · obtain ⟨lv, hlv⟩ := Option.isSome_iff_exists.mp h
      have hT : G.spanning_edges_levels.find (u, v) = none := by
        cases h1 : G.spanning_edges_levels.find (u, v) with
        | none => rfl
        | some x =>
          have h2 : G.not_spanning_edges_levels.find (u, v) = none :=
            hA.excl (u, v) (by
              show (G.spanning_edges_levels.find (u, v)).isSome = true
              rw [h1]; rfl)
          exact Option.noConfusion (hlv.symm.trans h2)
      exact Or.inr ⟨⟨lv, hlv, hsN.trans hlv⟩, hT, hsT.trans hT⟩
  · obtain ⟨hT, hN⟩ := hA.absent_T (a := u) (b := v) hp
    exact ⟨hT, hsT.trans hT, hN, hsN.trans hN⟩
  · rcases (hA.pres u v).mp hp with h | h
    · exact Or.inr ((LevelMap.count_ne_zero _ _).mpr h)
    · exact Or.inl ((LevelMap.count_ne_zero _ _).mpr h)
  · obtain ⟨hne, hu, hw⟩ := hA.present_range hp
    rw [show (viewOf G tss).n = (n : Int) from hn] at hu hw
    have hvalid : validOp n (edgesFrom [] (ops.take k)) (.remove u v) = true := by
      simp only [validOp, Bool.and_eq_true, decide_eq_true_eq]
      exact ⟨⟨⟨⟨⟨hu.1, hu.2⟩, hw.1⟩, hw.2⟩, hne⟩, hp⟩
    obtain ⟨G1, h1, -⟩ := RemoveEdge_inv ⟨hn, tss, hR, hA⟩ hvalid
    exact ⟨G1, h1⟩

theorem edge_classification_witness :
    validFrom 3 [] [.add 0 1, .add 1 2] = true ∧ (0 : Int) ≠ 1 ∧
    ∃ G, runOps ([Op.add 0 1, Op.add 1 2].take 2)
        (DynamicGraph.new (fun _ => 0) ((3 : Nat) : Int)) = some G ∧
      (present (edgesFrom [] ([Op.add 0 1, Op.add 1 2].take 2)) 0 1 = true →
        ((∃ lv, G.spanning_edges_levels.find (0, 1) = some lv ∧
            G.spanning_edges_levels.find (1, 0) = some lv) ∧
          G.not_spanning_edges_levels.find (0, 1) = none ∧
          G.not_spanning_edges_levels.find (1, 0) = none) ∨
        ((∃ lv, G.not_spanning_edges_levels.find (0, 1) = some lv ∧
            G.not_spanning_edges_levels.find (1, 0) = some lv) ∧
          G.spanning_edges_levels.find (0, 1) = none ∧
          G.spanning_edges_levels.find (1, 0) = none)) ∧
      (present (edgesFrom [] ([Op.add 0 1, Op.add 1 2].take 2)) 0 1 = false →
        G.spanning_edges_levels.find (0, 1) = none ∧
        G.spanning_edges_levels.find (1, 0) = none ∧
        G.not_spanning_edges_levels.find (0, 1) = none ∧
        G.not_spanning_edges_levels.find (1, 0) = none) ∧
      (present (edgesFrom [] ([Op.add 0 1, Op.add 1 2].take 2)) 0 1 = true →
        (G.not_spanning_edges_levels.count (0, 1) ≠ 0 ∨
          G.spanning_edges_levels.count (0, 1) ≠ 0) ∧
        ∃ G1, RemoveEdge G 0 1 = some G1) :=
  ⟨by decide, by decide,
    edge_classification (fun _ => 0) 3 [.add 0 1, .add 1 2] (by decide) 2 0 1 (by decide)⟩

theorem SkelEq.refl_skel (h : Heap) : SkelEq h h := ⟨rfl, fun _ => rfl⟩

theorem SkelEq.symm_skel {a b : Heap} (h1 : SkelEq a b) : SkelEq b a :=
  ⟨h1.1.symm, fun p => (h1.2 p).symm⟩

theorem SkelEq.trans_skel {a b c : Heap} (h1 : SkelEq a b) (h2 : SkelEq b c) : SkelEq a c :=
  ⟨h2.1.trans h1.1, fun p => (h2.2 p).trans (h1.2 p)⟩

theorem skel_fields {nd nd1 : Node} (he : nd1.skel = nd.skel) :
    nd1.key = nd.key ∧ nd1.priority = nd.priority ∧ nd1.level = nd.level ∧
    nd1.left = nd.left ∧ nd1.right = nd.right ∧ nd1.parent = nd.parent ∧
    nd1.size = nd.size := by
  simp only [Node.skel, Prod.mk.injEq] at he
  exact he

theorem SkelEq.live_skel {h h1 : Heap} (hs : SkelEq h h1) {p : Nat} {nd : Node}
    (hg : h.get p = some nd) : ∃ nd1, h1.get p = some nd1 ∧ nd1.skel = nd.skel := by
  have := hs.2 p
  rw [hg] at this
  cases hq : h1.get p with
  | none => rw [hq] at this; simp at this
  | some nd1 =>
    rw [hq] at this
    simp only [Option.map_some', Option.some.injEq] at this
    exact ⟨nd1, rfl, this⟩

theorem SkelEq.none_skel {h h1 : Heap} (hs : SkelEq h h1) {p : Nat}
    (hg : h.get p = none) : h1.get p = none := by
  have := hs.2 p
  rw [hg] at this
  cases hq : h1.get p with
  | none => rfl
  | some nd1 => rw [hq] at this; simp at this

theorem SkelEq.set_skel {h h1 : Heap} (hs : SkelEq h h1) (p : Nat) {nd nd1 : Node}
    (he : nd1.skel = nd.skel) : SkelEq (h.set p nd) (h1.set p nd1) := by
  refine ⟨hs.1, fun q => ?_⟩
  simp only [Heap.get_set]
  split
  · simp only [Option.map_some', he]
  · exact hs.2 q

theorem SkelEq.toLinks {h h1 : Heap} (hs : SkelEq h h1) : LinksEq h h1 := by
  refine ⟨hs.1, fun p => ?_⟩
  cases hg : h.get p with
  | none => rw [hs.none_skel hg]
  | some nd =>
    obtain ⟨nd1, hg1, he⟩ := hs.live_skel hg
    obtain ⟨-, -, -, e1, e2, e3, e4⟩ := skel_fields he
    rw [hg1]
    simp only [Option.map_some', Node.links, e1, e2, e3, e4]

theorem get_size_skel {h h1 : Heap} (hs : SkelEq h h1) (o : Option Nat) :
    get_size h1 o = get_size h o := by
  cases o with
  | none => rfl
  | some c =>
    simp only [get_size]
    cases hg : h.get c with
    | none => rw [hs.none_skel hg]
    | some nd =>
      obtain ⟨nd1, hg1, he⟩ := hs.live_skel hg
      rw [hg1]
      simp only [Option.map_some', (skel_fields he).2.2.2.2.2.2]

theorem get_size_live {h : Heap} {o : Option Nat} {s : Int} (hs : get_size h o = some s) :
    ∀ c, o = some c → ∃ nd, h.get c = some nd := by
  rintro c rfl
  simp only [get_size] at hs
  cases hg : h.get c with
  | none => rw [hg] at hs; simp at hs
  | some nd => exact ⟨nd, rfl⟩

theorem set_parent_skel {h h1 a : Heap} (hs : SkelEq h h1) {o par : Option Nat}
    (hp : set_parent h o par = some a) : ∃ a1, set_parent h1 o par = some a1 ∧ SkelEq a a1 := by
  cases o with
  | none =>
    simp only [set_parent, Option.some.injEq] at hp ⊢
    subst hp
    exact ⟨h1, rfl, hs⟩
  | some c =>
    cases hg : h.get c with
    | none => simp [set_parent, hg] at hp
    | some nd =>
      obtain ⟨nd1, hg1, he⟩ := hs.live_skel hg
      rw [set_parent_some hg] at hp
      rw [set_parent_some hg1]
      simp only [Option.some.injEq] at hp
      subst hp
      refine ⟨_, rfl, hs.set_skel c ?_⟩
      obtain ⟨e1, e2, e3, e4, e5, -, e7⟩ := skel_fields he
      simp only [Node.skel, e1, e2, e3, e4, e5, e7]

/-- What a successful refresh of a node has read and written. -/
theorem update_both_inv {h a : Heap} {x : Nat} (hu : update_both h (some x) = some a) :
    ∃ nd sl sr ml mr al ar, h.get x = some nd ∧
      get_size h nd.left = some sl ∧ get_size h nd.right = some sr ∧
      a = h.set x { nd with
        size := sl + sr + 1,
        size_of_min_level := (ml || mr || nd.is_min_level),
        size_of_adjacent := (al || ar || nd.is_has_adjacent) } := by
  cases hg : h.get x with
  | none => simp [update_both, update_size, hg] at hu
  | some nd =>
    cases hsl : get_size h nd.left with
    | none => simp [update_both, update_size, hg, hsl] at hu
    | some sl =>
      cases hsr : get_size h nd.right with
      | none => simp [update_both, update_size, hg, hsl, hsr] at hu
      | some sr =>
        obtain ⟨⟨ml, hml⟩, ⟨al, hal⟩⟩ := get_agg_live (h := h) (o := nd.left) (get_size_live hsl)
        obtain ⟨⟨mr, hmr⟩, ⟨ar, har⟩⟩ := get_agg_live (h := h) (o := nd.right) (get_size_live hsr)
        rw [update_both_some hg hsl hsr hml hmr hal har] at hu
        exact ⟨nd, sl, sr, ml, mr, al, ar, rfl, hsl, hsr, (Option.some.inj hu).symm⟩

theorem update_both_skel {h h1 a : Heap} (hs : SkelEq h h1) {o : Option Nat}
    (hu : update_both h o = some a) : ∃ a1, update_both h1 o = some a1 ∧ SkelEq a a1 := by
  cases o with
  | none =>
    simp only [update_both, update_size, update_size_flag, Option.some_bind,
      Option.some.injEq] at hu ⊢
    subst hu
    exact ⟨h1, rfl, hs⟩
  | some x =>
    obtain ⟨nd, sl, sr, ml, mr, al, ar, hg, hsl, hsr, rfl⟩ := update_both_inv hu
    obtain ⟨nd1, hg1, he⟩ := hs.live_skel hg
    obtain ⟨e1, e2, e3, e4, e5, e6, e7⟩ := skel_fields he
    have hsl1 : get_size h1 nd1.left = some sl := by rw [e4, get_size_skel hs]; exact hsl
    have hsr1 : get_size h1 nd1.right = some sr := by rw [e5, get_size_skel hs]; exact hsr
    obtain ⟨⟨ml1, hml⟩, ⟨al1, hal⟩⟩ :=
      get_agg_live (h := h1) (o := nd1.left) (get_size_live hsl1)
    obtain ⟨⟨mr1, hmr⟩, ⟨ar1, har⟩⟩ :=
      get_agg_live (h := h1) (o := nd1.right) (get_size_live hsr1)
    refine ⟨_, update_both_some hg1 hsl1 hsr1 hml hmr hal har, hs.set_skel x ?_⟩
    simp only [Node.skel, e1, e2, e3, e4, e5, e6]

/-- Composition of simulated steps. -/
theorem sim_bind {β : Type} {o o1 : Option Heap} {k k1 : Heap → Option β} {res : β}
    (P : β → β → Prop)
    (h1 : ∀ a, o = some a → ∃ a1, o1 = some a1 ∧ SkelEq a a1)
    (h2 : ∀ a a1, SkelEq a a1 → ∀ b, k a = some b → ∃ b1, k1 a1 = some b1 ∧ P b b1)
    (hr : o.bind k = some res) : ∃ b1, o1.bind k1 = some b1 ∧ P res b1 := by
  cases ho : o with
  | none => rw [ho] at hr; simp at hr
  | some a =>
    rw [ho, Option.some_bind] at hr
    obtain ⟨a1, ho1, hs⟩ := h1 a ho
    rw [ho1, Option.some_bind]
    exact h2 a a1 hs res hr

/-- Function `split` reads and writes no flag that it branches on: on two heaps that agree
but for the flags it returns the same pointers and heaps that agree but for the flags. -/
theorem split_skel : ∀ (f : Nat) (h h1 : Heap) (root : Option Nat) (key : Int)
    (res : Heap × Option Nat × Option Nat),
    SkelEq h h1 → split f h root key = some res →
    ∃ res1, split f h1 root key = some res1 ∧ res1.2 = res.2 ∧ SkelEq res.1 res1.1
  | f, h, h1, none, key, res, hs, hsp => by
    have e : ∀ hh : Heap, split f hh none key = some (hh, none, none) := by
      intro hh; cases f <;> rfl
    rw [e] at hsp
    rw [e]
    cases Option.some.inj hsp
    exact ⟨_, rfl, rfl, hs⟩
  | 0, h, h1, some x, key, res, _, hsp => by simp [split] at hsp
  | f + 1, h, h1, some x, key, res, hs, hsp => by
    cases hg : h.get x with
    | none => simp [split, hg] at hsp
    | some nd =>
      obtain ⟨nd1, hg1, he⟩ := hs.live_skel hg
      obtain ⟨-, -, -, e4, e5, -, -⟩ := skel_fields he
      cases hsl : get_size h nd.left with
      | none => simp [split, hg, hsl] at hsp
      | some sl =>
        have hsl1 : get_size h1 nd.left = some sl := by rw [get_size_skel hs]; exact hsl
        by_cases hk : sl ≥ key
        · cases hrec : split f h nd.left key with
          | none => simp [split, hg, hsl, if_pos hk, hrec] at hsp
          | some r0 =>
            obtain ⟨b, left, rl⟩ := r0
            obtain ⟨⟨b1, left1, rl1⟩, hrec1, heq, hsb⟩ :=
              split_skel f h h1 nd.left key _ hs hrec
            simp only [Prod.mk.injEq] at heq
            obtain ⟨rfl, rfl⟩ := heq
            cases hgb : b.get x with
            | none => simp [split, hg, hsl, if_pos hk, hrec, hgb] at hsp
            | some ndb =>
              obtain ⟨ndb1, hgb1, heb⟩ := (show SkelEq b b1 from hsb).live_skel hgb
              obtain ⟨f1, f2, f3, -, f5, f6, f7⟩ := skel_fields heb
              simp only [split, hg, hsl, if_pos hk, hrec, hgb] at hsp
              simp only [split, hg1, e4, hsl1, if_pos hk, hrec1, hgb1]
              have hset : SkelEq (b.set x { ndb with left := rl1 })
                  (b1.set x { ndb1 with left := rl1 }) :=
                (show SkelEq b b1 from hsb).set_skel x (by
                  simp only [Node.skel, f1, f2, f3, f5, f6, f7])
              refine sim_bind (fun r r1 => r1.2 = r.2 ∧ SkelEq r.1 r1.1)
                (fun a ha => set_parent_skel hset ha) (fun a a1 hs2 r hr => ?_) hsp
              refine sim_bind (fun r r1 => r1.2 = r.2 ∧ SkelEq r.1 r1.1)
                (fun a ha => set_parent_skel hs2 ha) (fun a a1 hs3 r hr => ?_) hr
              refine sim_bind (fun r r1 => r1.2 = r.2 ∧ SkelEq r.1 r1.1)
                (fun a ha => update_both_skel hs3 ha) (fun a a1 hs4 r hr => ?_) hr
              refine sim_bind (fun r r1 => r1.2 = r.2 ∧ SkelEq r.1 r1.1)
                (fun a ha => update_both_skel hs4 ha) (fun a a1 hs5 r hr => ?_) hr
              cases Option.some.inj hr
              exact ⟨_, rfl, rfl, hs5⟩
        · cases hrec : split f h nd.right (key - sl - 1) with
          | none => simp [split, hg, hsl, if_neg hk, hrec] at hsp
          | some r0 =>
            obtain ⟨b, rr, right⟩ := r0
            obtain ⟨⟨b1, rr1, right1⟩, hrec1, heq, hsb⟩ :=
              split_skel f h h1 nd.right (key - sl - 1) _ hs hrec
            simp only [Prod.mk.injEq] at heq
            obtain ⟨rfl, rfl⟩ := heq
            cases hgb : b.get x with
            | none => simp [split, hg, hsl, if_neg hk, hrec, hgb] at hsp
            | some ndb =>
              obtain ⟨ndb1, hgb1, heb⟩ := (show SkelEq b b1 from hsb).live_skel hgb
              obtain ⟨f1, f2, f3, f4, -, f6, f7⟩ := skel_fields heb
              simp only [split, hg, hsl, if_neg hk, hrec, hgb] at hsp
              simp only [split, hg1, e4, e5, hsl1, if_neg hk, hrec1, hgb1]
              have hset : SkelEq (b.set x { ndb with right := rr1 })
                  (b1.set x { ndb1 with right := rr1 }) :=
                (show SkelEq b b1 from hsb).set_skel x (by
                  simp only [Node.skel, f1, f2, f3, f4, f6, f7])
              refine sim_bind (fun r r1 => r1.2 = r.2 ∧ SkelEq r.1 r1.1)
                (fun a ha => set_parent_skel hset ha) (fun a a1 hs2 r hr => ?_) hsp
              refine sim_bind (fun r r1 => r1.2 = r.2 ∧ SkelEq r.1 r1.1)
                (fun a ha => set_parent_skel hs2 ha) (fun a a1 hs3 r hr => ?_) hr
              refine sim_bind (fun r r1 => r1.2 = r.2 ∧ SkelEq r.1 r1.1)
                (fun a ha => update_both_skel hs3 ha) (fun a a1 hs4 r hr => ?_) hr
              refine sim_bind (fun r r1 => r1.2 = r.2 ∧ SkelEq r.1 r1.1)
                (fun a ha => update_both_skel hs4 ha) (fun a a1 hs5 r hr => ?_) hr
              cases Option.some.inj hr
              exact ⟨_, rfl, rfl, hs5⟩

theorem merge_fix_skel {h h1 a : Heap} (hs : SkelEq h h1) {x : Nat}
    (hm : merge_fix h x = some a) : ∃ a1, merge_fix h1 x = some a1 ∧ SkelEq a a1 := by
  cases hg : h.get x with
  | none => simp [merge_fix, hg] at hm
  | some nd =>
    obtain ⟨nd1, hg1, he⟩ := hs.live_skel hg
    obtain ⟨-, -, -, e4, -, -, -⟩ := skel_fields he
    simp only [merge_fix, hg] at hm
    simp only [merge_fix, hg1, e4]
    refine sim_bind SkelEq (fun a ha => set_parent_skel hs ha) (fun b b1 hs2 r hr => ?_) hm
    cases hgb : b.get x with
    | none => simp [hgb] at hr
    | some ndb =>
      obtain ⟨ndb1, hgb1, heb⟩ := hs2.live_skel hgb
      obtain ⟨-, -, -, -, f5, -, -⟩ := skel_fields heb
      simp only [hgb] at hr
      simp only [hgb1, f5]
      exact sim_bind SkelEq (fun a ha => set_parent_skel hs2 ha)
        (fun c c1 hs3 r hr => update_both_skel hs3 hr) hr

theorem merge_left_nil (f : Nat) (h : Heap) (right : Option Nat) :
    merge f h none right =
      (set_parent h right none).bind fun h1 =>
      (update_both h1 right).bind fun h2 => some (h2, right) := by
  cases f <;> rfl

theorem merge_right_nil (f : Nat) (h : Heap) (l : Nat) :
    merge f h (some l) none =
      (set_parent h (some l) none).bind fun h1 =>
      (update_both h1 (some l)).bind fun h2 => some (h2, some l) := by
  cases f <;> rfl

/-- Function `merge` branches on priorities and null tests only: on two heaps that agree
but for the flags it returns the same root and heaps that agree but for the flags. -/
theorem merge_skel : ∀ (f : Nat) (h h1 : Heap) (l r : Option Nat) (res : Heap × Option Nat),
    SkelEq h h1 → merge f h l r = some res →
    ∃ res1, merge f h1 l r = some res1 ∧ res1.2 = res.2 ∧ SkelEq res.1 res1.1
  | f, h, h1, none, right, res, hs, hm => by
    rw [merge_left_nil] at hm
    rw [merge_left_nil]
    refine sim_bind (fun r r1 => r1.2 = r.2 ∧ SkelEq r.1 r1.1)
      (fun a ha => set_parent_skel hs ha) (fun a a1 hs2 r hr => ?_) hm
    refine sim_bind (fun r r1 => r1.2 = r.2 ∧ SkelEq r.1 r1.1)
      (fun a ha => update_both_skel hs2 ha) (fun a a1 hs3 r hr => ?_) hr
    cases Option.some.inj hr
    exact ⟨_, rfl, rfl, hs3⟩
  | f, h, h1, some l, none, res, hs, hm => by
    rw [merge_right_nil] at hm
    rw [merge_right_nil]
    refine sim_bind (fun r r1 => r1.2 = r.2 ∧ SkelEq r.1 r1.1)
      (fun a ha => set_parent_skel hs ha) (fun a a1 hs2 r hr => ?_) hm
    refine sim_bind (fun r r1 => r1.2 = r.2 ∧ SkelEq r.1 r1.1)
      (fun a ha => update_both_skel hs2 ha) (fun a a1 hs3 r hr => ?_) hr
    cases Option.some.inj hr
    exact ⟨_, rfl, rfl, hs3⟩
  | 0, h, h1, some l, some r, res, _, hm => by simp [merge] at hm
  | f + 1, h, h1, some l, some r, res, hs, hm => by
    cases hgl : h.get l with
    | none => simp [merge, hgl] at hm
    | some nl =>
      cases hgr : h.get r with
      | none => simp [merge, hgl, hgr] at hm
      | some nr =>
        obtain ⟨nl1, hgl1, hel⟩ := hs.live_skel hgl
        obtain ⟨nr1, hgr1, her⟩ := hs.live_skel hgr
        obtain ⟨-, pl, -, -, rl5, -, -⟩ := skel_fields hel
        obtain ⟨-, pr, -, lr4, -, -, -⟩ := skel_fields her
        by_cases hp : nl.priority < nr.priority
        · cases hrec : merge f h nl.right (some r) with
          | none => simp [merge, hgl, hgr, if_pos hp, hrec] at hm
          | some r0 =>
            obtain ⟨b, root⟩ := r0
            obtain ⟨⟨b1, root1⟩, hrec1, heq, hsb⟩ :=
              merge_skel f h h1 nl.right (some r) _ hs hrec
            have heq1 : root1 = root := heq
            subst heq1
            cases hgb : b.get l with
            | none => simp [merge, hgl, hgr, if_pos hp, hrec, hgb] at hm
            | some ndb =>
              obtain ⟨ndb1, hgb1, heb⟩ := (show SkelEq b b1 from hsb).live_skel hgb
              obtain ⟨f1, f2, f3, f4, -, f6, f7⟩ := skel_fields heb
              simp only [merge, hgl, hgr, if_pos hp, hrec, hgb] at hm
              simp only [merge, hgl1, hgr1, pl, pr, rl5, if_pos hp, hrec1, hgb1]
              have hset : SkelEq (b.set l { ndb with right := root1 })
                  (b1.set l { ndb1 with right := root1 }) :=
                (show SkelEq b b1 from hsb).set_skel l (by
                  simp only [Node.skel, f1, f2, f3, f4, f6, f7])
              refine sim_bind (fun r r1 => r1.2 = r.2 ∧ SkelEq r.1 r1.1)
                (fun a ha => merge_fix_skel hset ha) (fun a a1 hs2 r hr => ?_) hm
              cases Option.some.inj hr
              exact ⟨_, rfl, rfl, hs2⟩
        · cases hrec : merge f h (some l) nr.left with
          | none => simp [merge, hgl, hgr, if_neg hp, hrec] at hm
          | some r0 =>
            obtain ⟨b, root⟩ := r0
            obtain ⟨⟨b1, root1⟩, hrec1, heq, hsb⟩ :=
              merge_skel f h h1 (some l) nr.left _ hs hrec
            have heq1 : root1 = root := heq
            subst heq1
            cases hgb : b.get r with
            | none => simp [merge, hgl, hgr, if_neg hp, hrec, hgb] at hm
            | some ndb =>
              obtain ⟨ndb1, hgb1, heb⟩ := (show SkelEq b b1 from hsb).live_skel hgb
              obtain ⟨f1, f2, f3, -, f5, f6, f7⟩ := skel_fields heb
              simp only [merge, hgl, hgr, if_neg hp, hrec, hgb] at hm
              simp only [merge, hgl1, hgr1, pl, pr, lr4, if_neg hp, hrec1, hgb1]
              have hset : SkelEq (b.set r { ndb with left := root1 })
                  (b1.set r { ndb1 with left := root1 }) :=
                (show SkelEq b b1 from hsb).set_skel r (by
                  simp only [Node.skel, f1, f2, f3, f5, f6, f7])
              refine sim_bind (fun r r1 => r1.2 = r.2 ∧ SkelEq r.1 r1.1)
                (fun a ha => merge_fix_skel hset ha) (fun a a1 hs2 r hr => ?_) hm
              cases Option.some.inj hr
              exact ⟨_, rfl, rfl, hs2⟩

theorem prioOf_dataEq {h h1 : Heap} (hd : DataEq h h1) (p : Nat) : prioOf h1 p = prioOf h p := by
  have := hd.2 p
  simp only [prioOf]
  cases h1p : h1.get p with
  | none =>
    rw [h1p] at this
    cases hp : h.get p with
    | none => rfl
    | some nd => rw [hp] at this; simp at this
  | some nd1 =>
    rw [h1p] at this
    cases hp : h.get p with
    | none => rw [hp] at this; simp at this
    | some nd =>
      rw [hp] at this
      simp only [Option.map_some', Option.some.injEq, Node.data, Prod.mk.injEq] at this
      exact this.2.1

theorem MinHeapOrd.congr_ord {h h1 : Heap} (he : ∀ p, prioOf h1 p = prioOf h p) :
    ∀ {t : Tree}, MinHeapOrd h t → MinHeapOrd h1 t
  | .nil, _ => trivial
  | .node _ _ _, ho =>
    ⟨fun c hc => by rw [he, he]; exact ho.1 c hc, MinHeapOrd.congr_ord he ho.2.1,
      MinHeapOrd.congr_ord he ho.2.2⟩

/-- Function `merge` concatenates the in-order sequences of two treaps and keeps the heap
order with the least priority on top. -/
theorem merge_ord : ∀ (f : Nat) (tl tr : Tree) (h : Heap),
    ShapeU h tl → ShapeU h tr → (tl.toList ++ tr.toList).Nodup →
    (∀ p ∈ tl.toList, tl.root ≠ some p → Cons h p) →
    (∀ p ∈ tr.toList, tr.root ≠ some p → Cons h p) →
    tl.size + tr.size ≤ f → MinHeapOrd h tl → MinHeapOrd h tr →
    ∃ h1 t, merge f h tl.root tr.root = some (h1, t.root) ∧ ShapeU h1 t ∧
      t.toList = tl.toList ++ tr.toList ∧ (∀ p ∈ t.toList, Cons h1 p) ∧ DataEq h h1 ∧
      (∀ p, p ∉ tl.toList ++ tr.toList → h1.get p = h.get p) ∧
      (∀ x, t.root = some x → (tl.root = some x ∨ tr.root = some x) ∧ ∃ nd1,
        h1.get x = some nd1 ∧
        (nd1.parent = none ∨ ∃ nd, h.get x = some nd ∧ nd1.parent = nd.parent)) ∧
      MinHeapOrd h1 t
  | f, .nil, tr, h, _, hsr, hnd, _, hcr, _, _, hor => by
    simp only [Tree.toList, List.nil_append] at hnd
    obtain ⟨h2, he, hS, hP, hC, hD, hF⟩ := merge_base hsr hnd hcr
    refine ⟨h2, tr, ?_, hS, by simp [Tree.toList], hC, hD, ?_, ?_,
      MinHeapOrd.congr_ord (fun p => prioOf_dataEq hD p) hor⟩
    · show merge f h none tr.root = _
      rw [merge]; exact he
    · intro p hp; exact hF p (by simpa [Tree.toList] using hp)
    · intro x hx
      obtain ⟨nd, hg, hp⟩ := hP x hx
      exact ⟨Or.inr hx, nd, hg, Or.inl hp⟩
  | f, .node A l B, .nil, h, hsl, _, hnd, hcl, _, _, hol, _ => by
    simp only [Tree.toList, List.append_nil] at hnd
    have hnd' : (Tree.node A l B).toList.Nodup := by simpa [Tree.toList] using hnd
    obtain ⟨h2, he, hS, hP, hC, hD, hF⟩ := merge_base hsl hnd' hcl
    refine ⟨h2, .node A l B, ?_, hS, by simp [Tree.toList], hC, hD, ?_, ?_,
      MinHeapOrd.congr_ord (fun p => prioOf_dataEq hD p) hol⟩
    · show merge f h (some l) none = _
      rw [merge]; exact he
    · intro p hp; exact hF p (by simpa [Tree.toList] using hp)
    · intro x hx
      obtain ⟨nd, hg, hp⟩ := hP x hx
      exact ⟨Or.inl hx, nd, hg, Or.inl hp⟩
  | 0, .node A l B, .node C r D, h, _, _, _, _, _, hf, _, _ => by
    simp [Tree.size] at hf
  | f + 1, .node A l B, .node C r D, h, hsl, hsr, hnd, hcl, hcr, hf, hol, hor => by
    have hsl0 := hsl
    have hsr0 := hsr
    obtain ⟨nl, hgl, hll, hlr, hlsz, hsA, hsB, hpA, hpB⟩ := hsl
    obtain ⟨nr, hgr, hrl, hrr, hrsz, hsC, hsD, hpC, hpD⟩ := hsr
    simp only [Tree.toList] at hnd hcl hcr
    have hn1 := List.nodup_append.mp hnd
    have hn2 := List.nodup_append.mp hn1.1
    have hn3 := List.nodup_cons.mp hn2.2.1
    have hn4 := List.nodup_append.mp hn1.2.1
    have hn5 := List.nodup_cons.mp hn4.2.1
    have dLR : ∀ q, q ∈ A.toList ++ l :: B.toList → q ∉ C.toList ++ r :: D.toList :=
      fun q h1 h2 => hn1.2.2 h1 h2
    have hlA : l ∉ A.toList := fun hm => hn2.2.2 hm (List.mem_cons_self _ _)
    have hlB : l ∉ B.toList := hn3.1
    have hrC : r ∉ C.toList := fun hm => hn4.2.2 hm (List.mem_cons_self _ _)
    have hrD : r ∉ D.toList := hn5.1
    have dAB : ∀ q, q ∈ A.toList → q ∉ B.toList := fun q h1 h2 => hn2.2.2 h1 (by simp [h2])
    have dCD : ∀ q, q ∈ C.toList → q ∉ D.toList := fun q h1 h2 => hn4.2.2 h1 (by simp [h2])
    have hf' : B.size + (Tree.node C r D).size ≤ f ∧ (Tree.node A l B).size + C.size ≤ f := by
      simp only [Tree.size] at hf ⊢; omega
    have cA : ∀ q ∈ A.toList, Cons h q := fun q hq =>
      hcl q (by simp [hq]) (fun he => hlA (by
        simp only [Tree.root, Option.some.injEq] at he; rw [he]; exact hq))
    have cB : ∀ q ∈ B.toList, Cons h q := fun q hq =>
      hcl q (by simp [hq]) (fun he => hlB (by
        simp only [Tree.root, Option.some.injEq] at he; rw [he]; exact hq))
    have cC : ∀ q ∈ C.toList, Cons h q := fun q hq =>
      hcr q (by simp [hq]) (fun he => hrC (by
        simp only [Tree.root, Option.some.injEq] at he; rw [he]; exact hq))
    have cD : ∀ q ∈ D.toList, Cons h q := fun q hq =>
      hcr q (by simp [hq]) (fun he => hrD (by
        simp only [Tree.root, Option.some.injEq] at he; rw [he]; exact hq))
    by_cases hpr : nl.priority < nr.priority
    · -- the left root stays on top
      have hndR : (B.toList ++ (Tree.node C r D).toList).Nodup := by
        simp only [Tree.toList]
        refine List.nodup_append.mpr ⟨hn3.2, hn1.2.1, ?_⟩
        intro q h1 h2
        exact dLR q (by simp [h1]) h2
      obtain ⟨h1, t1, hm, hS1, hL1, hC1, hD1, hF1, hroot1, hO1⟩ :=
        merge_ord f B (.node C r D) h hsB hsr0 hndR (fun q hq _ => cB q hq)
          (by simpa [Tree.toList] using hcr) hf'.1 hol.2.2 hor
      have nmL : ∀ q, q ∈ A.toList ++ l :: B.toList → q ∉ B.toList →
          q ∉ B.toList ++ (Tree.node C r D).toList := by
        intro q hq hqB hm
        rcases List.mem_append.mp hm with hm | hm
        · exact hqB hm
        · exact dLR q hq (by simpa [Tree.toList] using hm)
      have hl1 : l ∉ B.toList ++ (Tree.node C r D).toList := nmL l (by simp) hlB
      have hg1 : h1.get l = some nl := by rw [hF1 l hl1]; exact hgl
      have hlt1 : l ∉ t1.toList := by rw [hL1]; exact hl1
      have e2 : ∀ q, q ≠ l → (h1.set l { nl with right := t1.root }).get q = h1.get q :=
        fun q hq => Heap.get_set_ne _ _ hq
      have hA2 : ShapeU (h1.set l { nl with right := t1.root }) A := by
        apply ShapeU.frame_shape hn2.1 _ hsA
        intro q hq
        rw [e2 q (by rintro rfl; exact hlA hq), hF1 q (nmL q (by simp [hq]) (dAB q hq))]
      have hndt : t1.toList.Nodup := by rw [hL1]; exact hndR
      have hT2 : ShapeU (h1.set l { nl with right := t1.root }) t1 :=
        ShapeU.frame_shape hndt (fun q hq => e2 q (by rintro rfl; exact hlt1 hq)) hS1
      have hndN : (Tree.node A l t1).toList.Nodup := by
        simp only [Tree.toList, hL1]
        simpa [Tree.toList, List.append_assoc] using hnd
      have cA2 : ∀ q ∈ A.toList, Cons (h1.set l { nl with right := t1.root }) q := fun q hq =>
        Cons.frame_tree hsA (fun c hc => by
          rw [e2 c (by rintro rfl; exact hlA hc), hF1 c (nmL c (by simp [hc]) (dAB c hc))])
          hq (cA q hq)
      have cT2 : ∀ q ∈ t1.toList, Cons (h1.set l { nl with right := t1.root }) q := fun q hq =>
        Cons.frame_tree hS1 (fun c hc => cview_of_eq (e2 c (by rintro rfl; exact hlt1 hc)))
          hq (hC1 q hq)
      have hgs : (h1.set l { nl with right := t1.root }).get l =
          some { nl with right := t1.root } := Heap.get_set_self _ _ _
      obtain ⟨h3, nd3, hmf, hS3, hC3, hD3, hF3, hg3, hp3⟩ :=
        merge_fix_spec (A := A) (B := t1) hgs hll rfl hA2 hT2 hndN cA2 cT2
      have dSet : DataEq h1 (h1.set l { nl with right := t1.root }) :=
        DataEq.set_data hg1 rfl
      have dAll : DataEq h h3 := (hD1.trans_data dSet).trans_data hD3
      have hpl : prioOf h l = nl.priority := by simp only [prioOf, hgl]
      have hpr0 : prioOf h r = nr.priority := by simp only [prioOf, hgr]
      have hOrd : MinHeapOrd h3 (.node A l t1) := by
        refine ⟨fun c hc => ?_, MinHeapOrd.congr_ord (fun p => prioOf_dataEq dAll p) hol.2.1,
          MinHeapOrd.congr_ord (fun p => prioOf_dataEq
            (dSet.trans_data hD3) p) hO1⟩
        rw [prioOf_dataEq dAll, prioOf_dataEq dAll]
        rcases hc with hc | hc
        · exact hol.1 c (Or.inl hc)
        · rcases (hroot1 c hc).1 with h5 | h5
          · exact hol.1 c (Or.inr h5)
          · simp only [Tree.root, Option.some.injEq] at h5
            subst h5
            rw [hpl, hpr0]
            exact le_of_lt hpr
      refine ⟨h3, .node A l t1, ?_, hS3, ?_, hC3, ?_, ?_, ?_, hOrd⟩
      · show merge (f + 1) h (some l) (some r) = some (h3, some l)
        simp only [merge, hgl, hgr, if_pos hpr]
        rw [hlr, show some r = (Tree.node C r D).root from rfl, hm]
        simp only [hg1, hmf, Option.bind]
      · simp only [Tree.toList, hL1, List.append_assoc, List.cons_append]
      · have d2 : DataEq h1 (h1.set l { nl with right := t1.root }) := DataEq.set_data hg1 rfl
        exact (hD1.trans_data d2).trans_data hD3
      · intro q hq
        have hq' : q ∉ (Tree.node A l t1).toList := by
          simp only [Tree.toList, hL1]
          simpa [Tree.toList, List.append_assoc] using hq
        have hql : q ≠ l := by rintro rfl; exact hq (by simp [Tree.toList])
        rw [hF3 q hq', e2 q hql, hF1 q]
        simp only [Tree.toList, List.mem_append, List.mem_cons, not_or] at hq ⊢
        exact ⟨hq.1.2.2, hq.2⟩
      · intro x hx
        simp only [Tree.root, Option.some.injEq] at hx
        subst hx
        exact ⟨Or.inl rfl, nd3, hg3, Or.inr ⟨nl, hgl, hp3⟩⟩
    · -- the right root stays on top
      have hndL : ((Tree.node A l B).toList ++ C.toList).Nodup := by
        simp only [Tree.toList]
        refine List.nodup_append.mpr ⟨hn1.1, hn4.1, ?_⟩
        intro q h1 h2
        exact dLR q h1 (by simp [h2])
      obtain ⟨h1, t1, hm, hS1, hL1, hC1, hD1, hF1, hroot1, hO1⟩ :=
        merge_ord f (.node A l B) C h hsl0 hsC hndL
          (by simpa [Tree.toList] using hcl) (fun q hq _ => cC q hq) hf'.2 hol hor.2.1
      have nmR : ∀ q, q ∈ C.toList ++ r :: D.toList → q ∉ C.toList →
          q ∉ (Tree.node A l B).toList ++ C.toList := by
        intro q hq hqC hm
        rcases List.mem_append.mp hm with hm | hm
        · exact dLR q (by simpa [Tree.toList] using hm) hq
        · exact hqC hm
      have hr1 : r ∉ (Tree.node A l B).toList ++ C.toList := nmR r (by simp) hrC
      have hg1 : h1.get r = some nr := by rw [hF1 r hr1]; exact hgr
      have hrt1 : r ∉ t1.toList := by rw [hL1]; exact hr1
      have e2 : ∀ q, q ≠ r → (h1.set r { nr with left := t1.root }).get q = h1.get q :=
        fun q hq => Heap.get_set_ne _ _ hq
      have hD2 : ShapeU (h1.set r { nr with left := t1.root }) D := by
        apply ShapeU.frame_shape hn5.2 _ hsD
        intro q hq
        rw [e2 q (by rintro rfl; exact hrD hq),
          hF1 q (nmR q (by simp [hq]) (fun hm => dCD q hm hq))]
      have hndt : t1.toList.Nodup := by rw [hL1]; exact hndL
      have hT2 : ShapeU (h1.set r { nr with left := t1.root }) t1 :=
        ShapeU.frame_shape hndt (fun q hq => e2 q (by rintro rfl; exact hrt1 hq)) hS1
      have hndN : (Tree.node t1 r D).toList.Nodup := by
        simp only [Tree.toList, hL1]
        simpa [Tree.toList, List.append_assoc] using hnd
      have cD2 : ∀ q ∈ D.toList, Cons (h1.set r { nr with left := t1.root }) q := fun q hq =>
        Cons.frame_tree hsD (fun c hc => by
          rw [e2 c (by rintro rfl; exact hrD hc),
            hF1 c (nmR c (by simp [hc]) (fun hm => dCD c hm hc))])
          hq (cD q hq)
      have cT2 : ∀ q ∈ t1.toList, Cons (h1.set r { nr with left := t1.root }) q := fun q hq =>
        Cons.frame_tree hS1 (fun c hc => cview_of_eq (e2 c (by rintro rfl; exact hrt1 hc)))
          hq (hC1 q hq)
      have hgs : (h1.set r { nr with left := t1.root }).get r =
          some { nr with left := t1.root } := Heap.get_set_self _ _ _
      obtain ⟨h3, nd3, hmf, hS3, hC3, hD3, hF3, hg3, hp3⟩ :=
        merge_fix_spec (A := t1) (B := D) hgs rfl hrr hT2 hD2 hndN cT2 cD2
      have dSet : DataEq h1 (h1.set r { nr with left := t1.root }) :=
        DataEq.set_data hg1 rfl
      have dAll : DataEq h h3 := (hD1.trans_data dSet).trans_data hD3
      have hpl : prioOf h l = nl.priority := by simp only [prioOf, hgl]
      have hpr0 : prioOf h r = nr.priority := by simp only [prioOf, hgr]
      have hOrd : MinHeapOrd h3 (.node t1 r D) := by
        refine ⟨fun c hc => ?_, MinHeapOrd.congr_ord (fun p => prioOf_dataEq
            (dSet.trans_data hD3) p) hO1,
          MinHeapOrd.congr_ord (fun p => prioOf_dataEq dAll p) hor.2.2⟩
        rw [prioOf_dataEq dAll, prioOf_dataEq dAll]
        rcases hc with hc | hc
        · rcases (hroot1 c hc).1 with h5 | h5
          · simp only [Tree.root, Option.some.injEq] at h5
            subst h5
            rw [hpl, hpr0]
            exact not_lt.mp hpr
          · exact hor.1 c (Or.inl h5)
        · exact hor.1 c (Or.inr hc)
      refine ⟨h3, .node t1 r D, ?_, hS3, ?_, hC3, ?_, ?_, ?_, hOrd⟩
      · show merge (f + 1) h (some l) (some r) = some (h3, some r)
        simp only [merge, hgl, hgr, if_neg hpr]
        rw [hrl, show some l = (Tree.node A l B).root from rfl, hm]
        simp only [hg1, hmf, Option.bind]
      · simp only [Tree.toList, hL1, List.append_assoc, List.cons_append]
      · have d2 : DataEq h1 (h1.set r { nr with left := t1.root }) := DataEq.set_data hg1 rfl
        exact (hD1.trans_data d2).trans_data hD3
      · intro q hq
        have hq' : q ∉ (Tree.node t1 r D).toList := by
          simp only [Tree.toList, hL1]
          simpa [Tree.toList, List.append_assoc] using hq
        have hqr : q ≠ r := by rintro rfl; exact hq (by simp [Tree.toList])
        rw [hF3 q hq', e2 q hqr, hF1 q]
        simp only [Tree.toList, List.mem_append, List.mem_cons, not_or] at hq ⊢
        exact ⟨hq.1, hq.2.1⟩
      · intro x hx
        simp only [Tree.root, Option.some.injEq] at hx
        subst hx
        exact ⟨Or.inr rfl, nd3, hg3, Or.inr ⟨nr, hgr, hp3⟩⟩

theorem Heap.get_unflag (h : Heap) (p : Nat) :
    h.unflag.get p = (h.get p).map (fun nd =>
      { nd with size_of_min_level := false, size_of_adjacent := false,
                is_min_level := false, is_has_adjacent := false }) := rfl

theorem skel_unflag (h : Heap) : SkelEq h h.unflag := by
  refine ⟨rfl, fun p => ?_⟩
  rw [Heap.get_unflag]
  cases h.get p with
  | none => rfl
  | some nd => rfl

theorem agg_unflag (h : Heap) {o : Option Nat} (hl : ∀ c, o = some c → ∃ nd, h.get c = some nd) :
    get_size_min_level h.unflag o = some false ∧ get_size_adjacent h.unflag o = some false := by
  cases o with
  | none => exact ⟨rfl, rfl⟩
  | some c =>
    obtain ⟨nd, hg⟩ := hl c rfl
    simp only [get_size_min_level, get_size_adjacent, Heap.get_unflag, hg, Option.map_some',
      and_self]

/-- With every flag cleared, every node of a treap has consistent aggregates. -/
theorem cons_unflag {h : Heap} {t : Tree} (hs : ShapeU h t) :
    ∀ p ∈ t.toList, Cons h.unflag p := by
  intro p hp
  obtain ⟨nd, hg⟩ := hs.live_shape p hp
  have hk := hs.kids p hp nd hg
  have hL := agg_unflag h (o := nd.left) (fun c hc => hs.live_shape c (hk.1 c hc))
  have hR := agg_unflag h (o := nd.right) (fun c hc => hs.live_shape c (hk.2 c hc))
  refine ⟨{ nd with size_of_min_level := false, size_of_adjacent := false,
                    is_min_level := false, is_has_adjacent := false },
    false, false, false, false, by rw [Heap.get_unflag, hg]; rfl, hL.1, hR.1, hL.2,
    hR.2, rfl, rfl⟩

theorem prioOf_skel {h h1 : Heap} (hs : SkelEq h h1) (p : Nat) : prioOf h1 p = prioOf h p := by
  simp only [prioOf]
  cases hg : h.get p with
  | none => rw [hs.none_skel hg]
  | some nd =>
    obtain ⟨nd1, hg1, he⟩ := hs.live_skel hg
    rw [hg1]
    exact (skel_fields he).2.1

/-- Which root `merge` returns for two non-null arguments. -/
theorem merge_root {f : Nat} {h h1 : Heap} {l r : Nat} {x : Option Nat} {nl nr : Node}
    (hgl : h.get l = some nl) (hgr : h.get r = some nr)
    (hm : merge f h (some l) (some r) = some (h1, x)) :
    x = if nl.priority < nr.priority then some l else some r := by
  cases f with
  | zero => simp [merge] at hm
  | succ f =>
    by_cases hp : nl.priority < nr.priority
    · rw [if_pos hp]
      simp only [merge, hgl, hgr, if_pos hp] at hm
      cases hrec : merge f h nl.right (some r) with
      | none => simp [hrec] at hm
      | some r0 =>
        obtain ⟨b, root⟩ := r0
        simp only [hrec] at hm
        cases hgb : b.get l with
        | none => simp [hgb] at hm
        | some ndb =>
          simp only [hgb] at hm
          cases hfix : merge_fix (b.set l { ndb with right := root }) l with
          | none => simp [hfix] at hm
          | some c =>
            simp only [hfix, Option.some_bind, Option.some.injEq, Prod.mk.injEq] at hm
            exact hm.2.symm
    · rw [if_neg hp]
      simp only [merge, hgl, hgr, if_neg hp] at hm
      cases hrec : merge f h (some l) nr.left with
      | none => simp [hrec] at hm
      | some r0 =>
        obtain ⟨b, root⟩ := r0
        simp only [hrec] at hm
        cases hgb : b.get r with
        | none => simp [hgb] at hm
        | some ndb =>
          simp only [hgb] at hm
          cases hfix : merge_fix (b.set r { ndb with left := root }) r with
          | none => simp [hfix] at hm
          | some c =>
            simp only [hfix, Option.some_bind, Option.some.injEq, Prod.mk.injEq] at hm
            exact hm.2.symm

/-- Function `split` on a treap with whatever flags. -/
theorem split_plain {h : Heap} {t : Tree} {f : Nat} (key : Int) (hs : ShapeU h t)
    (hnd : t.toList.Nodup) (hpar : ParentIs h t.root none) (hf : t.size ≤ f) :
    ∃ h1 tl tr, split f h t.root key = some (h1, tl.root, tr.root) ∧
      ShapeU h1 tl ∧ ShapeU h1 tr ∧
      tl.toList = t.toList.take key.toNat ∧ tr.toList = t.toList.drop key.toNat ∧
      ParentIs h1 tl.root none ∧ ParentIs h1 tr.root none := by
  have hs0 := skel_unflag h
  have hS0 : ShapeU h.unflag t := ShapeU.shape_of_linksEq hs0.toLinks hs
  have hP0 : ParentIs h.unflag t.root none := ParentIs.parent_of_linksEq hs0.toLinks hpar
  obtain ⟨a, tl, tr, hsp, hS1, hS2, hL1, hL2, -, -, -, hpar1⟩ :=
    split_spec t f h.unflag key hS0 hnd (cons_unflag hs) hf
  obtain ⟨⟨a1, l1, r1⟩, hsp1, heq, hsa⟩ := split_skel f h.unflag h t.root key _ hs0.symm_skel hsp
  simp only [Prod.mk.injEq] at heq
  obtain ⟨rfl, rfl⟩ := heq
  have hsa1 : SkelEq a a1 := hsa
  have hPl : ParentIs a tl.root none := fun x hx => by
    obtain ⟨nd, hg, hp⟩ := hpar1 none hP0 x (Or.inl hx)
    exact ⟨nd, hg, hp.elim id id⟩
  have hPr : ParentIs a tr.root none := fun x hx => by
    obtain ⟨nd, hg, hp⟩ := hpar1 none hP0 x (Or.inr hx)
    exact ⟨nd, hg, hp.elim id id⟩
  refine ⟨a1, tl, tr, hsp1, ShapeU.shape_of_linksEq hsa1.toLinks hS1,
    ShapeU.shape_of_linksEq hsa1.toLinks hS2, hL1, hL2,
    ParentIs.parent_of_linksEq hsa1.toLinks hPl, ParentIs.parent_of_linksEq hsa1.toLinks hPr⟩

/-- Function `merge` on two treaps with whatever flags. -/
theorem merge_plain {h : Heap} {tl tr : Tree} {f : Nat} (hsl : ShapeU h tl) (hsr : ShapeU h tr)
    (hnd : (tl.toList ++ tr.toList).Nodup) (hf : tl.size + tr.size ≤ f) :
    ∃ h1 t, merge f h tl.root tr.root = some (h1, t.root) ∧ ShapeU h1 t ∧
      t.toList = tl.toList ++ tr.toList ∧ (∀ p, prioOf h1 p = prioOf h p) ∧
      (MinHeapOrd h tl → MinHeapOrd h tr → MinHeapOrd h1 t) := by
  have hs0 := skel_unflag h
  have hS0l : ShapeU h.unflag tl := ShapeU.shape_of_linksEq hs0.toLinks hsl
  have hS0r : ShapeU h.unflag tr := ShapeU.shape_of_linksEq hs0.toLinks hsr
  have back : ∀ (a : Heap) (t : Tree), merge f h.unflag tl.root tr.root = some (a, t.root) →
      ShapeU a t → DataEq h.unflag a →
      ∃ a1, merge f h tl.root tr.root = some (a1, t.root) ∧ ShapeU a1 t ∧
        (∀ p, prioOf a1 p = prioOf h p) ∧ (∀ p, prioOf a1 p = prioOf a p) := by
    intro a t hm hS hD
    obtain ⟨⟨a1, x⟩, hm1, heq, hsa⟩ := merge_skel f h.unflag h tl.root tr.root _ hs0.symm_skel hm
    have heq1 : x = t.root := heq
    have hsa1 : SkelEq a a1 := hsa
    subst heq1
    refine ⟨a1, hm1, ShapeU.shape_of_linksEq hsa1.toLinks hS, fun p => ?_,
      fun p => prioOf_skel hsa1 p⟩
    rw [prioOf_skel hsa1 p, prioOf_dataEq hD p, prioOf_skel hs0 p]
  by_cases ho : MinHeapOrd h tl ∧ MinHeapOrd h tr
  · obtain ⟨a, t, hm, hS, hL, -, hD, -, -, hO⟩ :=
      merge_ord f tl tr h.unflag hS0l hS0r hnd (fun p hp _ => cons_unflag hsl p hp)
        (fun p hp _ => cons_unflag hsr p hp) hf
        (MinHeapOrd.congr_ord (fun p => prioOf_skel hs0 p) ho.1)
        (MinHeapOrd.congr_ord (fun p => prioOf_skel hs0 p) ho.2)
    obtain ⟨a1, hm1, hS1, hp1, hp2⟩ := back a t hm hS hD
    exact ⟨a1, t, hm1, hS1, hL, hp1, fun _ _ => MinHeapOrd.congr_ord hp2 hO⟩
  · obtain ⟨a, t, hm, hS, hL, -, hD, -, -⟩ :=
      merge_spec f tl tr h.unflag hS0l hS0r hnd (fun p hp _ => cons_unflag hsl p hp)
        (fun p hp _ => cons_unflag hsr p hp) hf
    obtain ⟨a1, hm1, hS1, hp1, -⟩ := back a t hm hS hD
    exact ⟨a1, t, hm1, hS1, hL, hp1, fun x y => absurd ⟨x, y⟩ ho⟩

theorem exHeapPair_shape :
    ShapeU exHeapPair (Tree.node Tree.nil 0 (Tree.node Tree.nil 1 Tree.nil)) := by
  refine ⟨exNode (0, 0) 2 1 none (some 1) none, rfl, rfl, rfl, rfl, trivial, ?_, ?_, ?_⟩
  · exact ⟨exNode (1, 1) 1 2 none none (some 0), rfl, rfl, rfl, rfl, trivial, trivial,
      fun x hx => Option.noConfusion hx, fun x hx => Option.noConfusion hx⟩
  · exact fun x hx => Option.noConfusion hx
  · intro x hx
    cases Option.some.inj hx
    exact ⟨_, rfl, rfl⟩

theorem exHeapLR_shape0 : ShapeU exHeapLR (Tree.node Tree.nil 0 Tree.nil) :=
  ⟨exNode (0, 0) 1 1 none none none, rfl, rfl, rfl, rfl, trivial, trivial,
    fun x hx => Option.noConfusion hx, fun x hx => Option.noConfusion hx⟩

theorem exHeapLR_shape1 : ShapeU exHeapLR (Tree.node Tree.nil 1 Tree.nil) :=
  ⟨exNode (1, 1) 1 2 none none none, rfl, rfl, rfl, rfl, trivial, trivial,
    fun x hx => Option.noConfusion hx, fun x hx => Option.noConfusion hx⟩

theorem MinHeapOrd.single_min (h : Heap) (p : Nat) : MinHeapOrd h (Tree.node Tree.nil p Tree.nil) :=
  ⟨fun c hc => hc.elim (fun e => Option.noConfusion e) (fun e => Option.noConfusion e),
    trivial, trivial⟩

theorem MaxHeapOrd.single_max (h : Heap) (p : Nat) :
    MaxHeapOrd h (Tree.node Tree.nil p Tree.nil) :=
  ⟨fun c hc => hc.elim (fun e => Option.noConfusion e) (fun e => Option.noConfusion e),
    trivial, trivial⟩

/-- C11: for every treap `t` held in the heap (child links, parent links and size fields
those of `t`, the nodes pairwise distinct) whose root has a null parent, and every `k`,
`split(t, k)` returns (with fuel at least the size of `t`) two roots of treaps `L` and `R`
such that the in-order sequence of `L` is the first `k` nodes of that of `t`, the in-order
sequence of `R` is the rest, and the roots of `L` and `R`, when non-null, have a null
parent. -/
theorem split_sequence (h : Heap) (t : Tree) (f k : Nat) (hs : ShapeU h t)
    (hnd : t.toList.Nodup) (hpar : ParentIs h t.root none) (hf : t.size ≤ f) :
    ∃ h1 tl tr, split f h t.root (k : Int) = some (h1, tl.root, tr.root) ∧
      ShapeU h1 tl ∧ ShapeU h1 tr ∧
      tl.toList = t.toList.take k ∧ tr.toList = t.toList.drop k ∧
      ParentIs h1 tl.root none ∧ ParentIs h1 tr.root none := by
  obtain ⟨h1, tl, tr, hsp, hS1, hS2, hL1, hL2, hP1, hP2⟩ :=
    split_plain (k : Int) hs hnd hpar hf
  rw [Int.toNat_ofNat] at hL1 hL2
  exact ⟨h1, tl, tr, hsp, hS1, hS2, hL1, hL2, hP1, hP2⟩

theorem split_sequence_witness :
    ShapeU exHeapPair (Tree.node Tree.nil 0 (Tree.node Tree.nil 1 Tree.nil)) ∧
    ∃ h1 tl tr, split 2 exHeapPair (Tree.node Tree.nil 0 (Tree.node Tree.nil 1 Tree.nil)).root
        ((1 : Nat) : Int) = some (h1, tl.root, tr.root) ∧
      ShapeU h1 tl ∧ ShapeU h1 tr ∧
      tl.toList = (Tree.node Tree.nil 0 (Tree.node Tree.nil 1 Tree.nil)).toList.take 1 ∧
      tr.toList = (Tree.node Tree.nil 0 (Tree.node Tree.nil 1 Tree.nil)).toList.drop 1 ∧
      ParentIs h1 tl.root none ∧ ParentIs h1 tr.root none :=
  ⟨exHeapPair_shape,
    split_sequence exHeapPair (Tree.node Tree.nil 0 (Tree.node Tree.nil 1 Tree.nil)) 2 1
      exHeapPair_shape (by decide)
      (fun x hx => by cases Option.some.inj hx; exact ⟨_, rfl, rfl⟩) (by decide)⟩

/-- C12: for every two treaps `L` and `R` held in the heap with correct size fields and no
node in common, `merge(L, R)` returns (with fuel at least the two sizes together) the root
of a treap whose in-order node sequence is that of `L` followed by that of `R`, and whose
root size field, as read by `get_size`, is `size(L) + size(R)`. -/
theorem merge_sequence (h : Heap) (tl tr : Tree) (f : Nat) (hsl : ShapeU h tl)
    (hsr : ShapeU h tr) (hnd : (tl.toList ++ tr.toList).Nodup) (hf : tl.size + tr.size ≤ f) :
    ∃ h1 t, merge f h tl.root tr.root = some (h1, t.root) ∧ ShapeU h1 t ∧
      t.toList = tl.toList ++ tr.toList ∧
      get_size h1 t.root = some ((tl.size + tr.size : Nat) : Int) := by
  obtain ⟨h1, t, hm, hS, hL, -, -⟩ := merge_plain hsl hsr hnd hf
  refine ⟨h1, t, hm, hS, hL, ?_⟩
  rw [hS.size_root, ← Tree.length_toList t, hL, List.length_append, Tree.length_toList,
    Tree.length_toList]

theorem merge_sequence_witness :
    ShapeU exHeapLR (Tree.node Tree.nil 0 Tree.nil) ∧
    ShapeU exHeapLR (Tree.node Tree.nil 1 Tree.nil) ∧
    ∃ h1 t, merge 2 exHeapLR (Tree.node Tree.nil 0 Tree.nil).root
        (Tree.node Tree.nil 1 Tree.nil).root = some (h1, t.root) ∧ ShapeU h1 t ∧
      t.toList = (Tree.node Tree.nil 0 Tree.nil).toList ++ (Tree.node Tree.nil 1 Tree.nil).toList ∧
      get_size h1 t.root = some (((Tree.node Tree.nil 0 Tree.nil).size +
        (Tree.node Tree.nil 1 Tree.nil).size : Nat) : Int) :=
  ⟨exHeapLR_shape0, exHeapLR_shape1,
    merge_sequence exHeapLR (Tree.node Tree.nil 0 Tree.nil) (Tree.node Tree.nil 1 Tree.nil) 2
      exHeapLR_shape0 exHeapLR_shape1 (by decide) (by decide)⟩

/-- C13, as the code has it: for every two non-empty treaps `L` and `R` with no node in
common, the root of `merge(L, R)` is the root of `L` when its priority is strictly lower
than that of the root of `R`, and the root of `R` otherwise; no priority changes, and the
order in which every parent has a priority at most that of each child is preserved when
both inputs satisfy it. -/
theorem merge_root_priority (h : Heap) (tl tr : Tree) (f xl xr : Nat)
    (hl : tl.root = some xl) (hr : tr.root = some xr) (hsl : ShapeU h tl)
    (hsr : ShapeU h tr) (hnd : (tl.toList ++ tr.toList).Nodup) (hf : tl.size + tr.size ≤ f) :
    ∃ h1 t, merge f h tl.root tr.root = some (h1, t.root) ∧ ShapeU h1 t ∧
      t.toList = tl.toList ++ tr.toList ∧
      t.root = (if prioOf h xl < prioOf h xr then some xl else some xr) ∧
      (∀ p, prioOf h1 p = prioOf h p) ∧
      (MinHeapOrd h tl → MinHeapOrd h tr → MinHeapOrd h1 t) := by
  obtain ⟨h1, t, hm, hS, hL, hp, hO⟩ := merge_plain hsl hsr hnd hf
  refine ⟨h1, t, hm, hS, hL, ?_, hp, hO⟩
  obtain ⟨nl, hgl⟩ := hsl.live_shape xl (Tree.root_mem hl)
  obtain ⟨nr, hgr⟩ := hsr.live_shape xr (Tree.root_mem hr)
  rw [hl, hr] at hm
  have h1 := merge_root hgl hgr hm
  simpa only [prioOf, hgl, hgr] using h1

theorem merge_root_priority_witness :
    ShapeU exHeapLR (Tree.node Tree.nil 0 Tree.nil) ∧
    ShapeU exHeapLR (Tree.node Tree.nil 1 Tree.nil) ∧
    ∃ h1 t, merge 2 exHeapLR (Tree.node Tree.nil 0 Tree.nil).root
        (Tree.node Tree.nil 1 Tree.nil).root = some (h1, t.root) ∧ ShapeU h1 t ∧
      t.toList = (Tree.node Tree.nil 0 Tree.nil).toList ++ (Tree.node Tree.nil 1 Tree.nil).toList ∧
      t.root = (if prioOf exHeapLR 0 < prioOf exHeapLR 1 then some 0 else some 1) ∧
      (∀ p, prioOf h1 p = prioOf exHeapLR p) ∧
      (MinHeapOrd exHeapLR (Tree.node Tree.nil 0 Tree.nil) →
        MinHeapOrd exHeapLR (Tree.node Tree.nil 1 Tree.nil) → MinHeapOrd h1 t) :=
  ⟨exHeapLR_shape0, exHeapLR_shape1,
    merge_root_priority exHeapLR (Tree.node Tree.nil 0 Tree.nil)
      (Tree.node Tree.nil 1 Tree.nil) 2 0 1 rfl rfl exHeapLR_shape0 exHeapLR_shape1
      (by decide) (by decide)⟩

/-- C13, the claim fails: merging the one-node treap of priority 1 with the one-node
treap of priority 2 (both in heap order either way) makes the node of priority 1, the LOWER
one, the root, with the node of priority 2 as its right child, so the result has a parent
whose priority is below that of its child. -/
theorem merge_root_is_lower_priority :
    prioOf exHeapLR 0 = 1 ∧ prioOf exHeapLR 1 = 2 ∧
    MaxHeapOrd exHeapLR (Tree.node Tree.nil 0 Tree.nil) ∧
    MaxHeapOrd exHeapLR (Tree.node Tree.nil 1 Tree.nil) ∧
    ∃ h1, merge 2 exHeapLR (some 0) (some 1) = some (h1, some 0) ∧
      ShapeU h1 (Tree.node Tree.nil 0 (Tree.node Tree.nil 1 Tree.nil)) ∧
      prioOf h1 0 = 1 ∧ prioOf h1 1 = 2 ∧
      ¬ MaxHeapOrd h1 (Tree.node Tree.nil 0 (Tree.node Tree.nil 1 Tree.nil)) := by
  refine ⟨by decide, by decide, MaxHeapOrd.single_max _ _, MaxHeapOrd.single_max _ _, ?_⟩
  have e0 : (merge 2 exHeapLR (some 0) (some 1)).map (fun r => r.2) = some (some 0) := by
    decide!
  have e1 : ((merge 2 exHeapLR (some 0) (some 1)).bind (fun r => r.1.get 0)).map
      (fun nd => (nd.left, nd.right, nd.size, nd.priority)) = some (none, some 1, 2, 1) := by
    decide!
  have e2 : ((merge 2 exHeapLR (some 0) (some 1)).bind (fun r => r.1.get 1)).map
      (fun nd => (nd.left, nd.right, nd.size, nd.parent, nd.priority)) =
      some (none, none, 1, some 0, 2) := by
    decide!
  cases hm : merge 2 exHeapLR (some 0) (some 1) with
  | none => rw [hm] at e0; exact Option.noConfusion e0
  | some r =>
    obtain ⟨h1, x⟩ := r
    rw [hm] at e0 e1 e2
    simp only [Option.map_some', Option.some.injEq, Option.some_bind] at e0 e1 e2
    subst e0
    cases hg0 : h1.get 0 with
    | none => rw [hg0] at e1; exact Option.noConfusion e1
    | some n0 =>
      cases hg1 : h1.get 1 with
      | none => rw [hg1] at e2; exact Option.noConfusion e2
      | some n1 =>
        rw [hg0] at e1
        rw [hg1] at e2
        simp only [Option.map_some', Option.some.injEq, Prod.mk.injEq] at e1 e2
        obtain ⟨a1, a2, a3, a4⟩ := e1
        obtain ⟨b1, b2, b3, b4, b5⟩ := e2
        have p0 : prioOf h1 0 = 1 := by simp only [prioOf, hg0, a4]
        have p1 : prioOf h1 1 = 2 := by simp only [prioOf, hg1, b5]
        refine ⟨h1, rfl, ?_, p0, p1, ?_⟩
        · refine ⟨n0, hg0, a1, a2, a3, trivial, ?_, fun x hx => Option.noConfusion hx, ?_⟩
          · exact ⟨n1, hg1, b1, b2, b3, trivial, trivial, fun x hx => Option.noConfusion hx,
              fun x hx => Option.noConfusion hx⟩
          · intro x hx
            cases Option.some.inj hx
            exact ⟨n1, hg1, b4⟩
        · intro hM
          have := hM.1 1 (Or.inr rfl)
          rw [p0, p1] at this
          exact absurd this (by decide)

/-- A forest of the list is one of the levels of the view. -/
theorem level_lt_of_forest {G : DynamicGraph} (tss : List (List Tree)) {l : Nat}
    {F : DynamicForest} (hF : G.spanning_trees[l]? = some F) : l < (viewOf G tss).L := by
  show l < G.spanning_trees.length
  by_contra hc
  rw [List.getElem?_eq_none (by omega)] at hF
  exact Option.noConfusion hF

theorem view_adj_eq {G : DynamicGraph} {tss : List (List Tree)} {l : Nat}
    {F : DynamicForest} (hF : G.spanning_trees[l]? = some F) (a : Int) :
    (viewOf G tss).adj l a = F.adjacent_edges a := by
  simp only [viewOf, hF]

/-- The node registered under a key of forest `l`, with the flags the view shows. -/
theorem Rep.registered {G : DynamicGraph} {tss : List (List Tree)} {D : Set Nat}
    (hR : Rep G tss D) {l : Nat} {F : DynamicForest} (hF : G.spanning_trees[l]? = some F)
    {k : Int × Int} {p : Nat} (hm : F.map_edges k = some (some p)) :
    p ∈ nodesOf (treesAt tss l) ∧ ∃ nd, G.heap.get p = some nd ∧ nd.key = k ∧
      (viewOf G tss).dat l k = some (nd.is_min_level, nd.is_has_adjacent, nd.level) := by
  have hs := hR.shape l F hF
  obtain ⟨hp, hk⟩ := (hs.reg k p).mp hm
  obtain ⟨nd, hg⟩ := hs.live hp
  have hkey : nd.key = k := by rw [← keyOf_eq hg]; exact hk
  refine ⟨hp, nd, hg, hkey, ?_⟩
  rw [← hkey]
  exact hR.dat_node hp hg

/-- The node registered under a key that lies on a tour of level `l`. -/
theorem Rep.registered_of_mem {G : DynamicGraph} {tss : List (List Tree)} {D : Set Nat}
    (hR : Rep G tss D) {l : Nat} {k : Int × Int}
    (hk : k ∈ ((viewOf G tss).tours l).flatten) :
    ∃ F p nd, G.spanning_trees[l]? = some F ∧ F.map_edges k = some (some p) ∧
      G.heap.get p = some nd ∧ nd.key = k ∧
      (viewOf G tss).dat l k = some (nd.is_min_level, nd.is_has_adjacent, nd.level) := by
  obtain ⟨t, ht, hkt⟩ := mem_view_keys.mp hk
  obtain ⟨F, p, nd, hF, hm, -, hg, hkey⟩ := hR.lookup ht hkt
  obtain ⟨-, nd1, hg1, -, hd⟩ := hR.registered hF hm
  rw [hg] at hg1
  cases Option.some.inj hg1
  exact ⟨F, p, nd, hF, hm, hg, hkey, hd⟩

/-- C17: for every valid script on a fresh `DynamicGraph(n)`, after each operation, for
every key `(u, v)` of `spanning_edges_levels` with level `lv` and every forest level `l`
with `0 ≤ l ≤ lv`, the call `spanning_trees[l]->is_connected(u, v)` returns `true` and
leaves the state as it was; in particular at `l = 0`. -/
theorem tree_edge_connected (out : Nat → Int) (n : Nat) (ops : List Op)
    (hv : validFrom n [] ops = true) (k : Nat) :
    ∃ G, runOps (ops.take k) (DynamicGraph.new out (n : Int)) = some G ∧
      ∀ (u v lv : Int) (l : Nat), G.spanning_edges_levels.find (u, v) = some lv →
        (l : Int) ≤ lv → G.connectedAt (l : Int) u v = some (G, true) := by
  obtain ⟨G, hrun, hn, tss, hR, hA⟩ := reach_prefix out n ops hv k
  refine ⟨G, hrun, fun u v lv l hf hl => ?_⟩
  have hrng := hA.rngT u v lv hf
  have hL : l < (viewOf G tss).L := by
    have := hA.mx_len
    have := hrng.2.2.2.2.2.2
    omega
  have hmem : (u, v) ∈ ((viewOf G tss).tours l).flatten :=
    (hA.reg l hL u v hrng.1).mpr ⟨⟨lv, hf, hl⟩, trivial⟩
  have hsame : SameT ((viewOf G tss).tours l) u v := sameT_of_key (hA.et l) hmem
  obtain ⟨s, hs, hu, hv1⟩ := hsame
  obtain ⟨c, hc, hiff⟩ := hR.connectedAt_spec (l := l)
    (List.mem_flatten.mpr ⟨s, hs, hu⟩) (List.mem_flatten.mpr ⟨s, hs, hv1⟩)
  have hct : c = true := hiff.mpr ⟨s, hs, hu, hv1⟩
  rw [hct] at hc
  exact hc

theorem tree_edge_connected_witness :
    validFrom 3 [] [.add 0 1, .add 1 2] = true ∧
    ∃ G, runOps ([Op.add 0 1, Op.add 1 2].take 2)
        (DynamicGraph.new (fun _ => 0) ((3 : Nat) : Int)) = some G ∧
      ∀ (u v lv : Int) (l : Nat), G.spanning_edges_levels.find (u, v) = some lv →
        (l : Int) ≤ lv → G.connectedAt (l : Int) u v = some (G, true) :=
  ⟨by decide, tree_edge_connected (fun _ => 0) 3 [.add 0 1, .add 1 2] (by decide) 2⟩

/-- C18: for every valid script on a fresh `DynamicGraph(n)`, after each operation, for
every vertex `v` in range and every existing forest level `l`, the self-node of `v` is
registered in `spanning_trees[l]`, and its flag `is_has_adjacent` is true if and only if
`spanning_trees[l]->adjacent_edges[v]` is non-empty. -/
theorem adjacent_flag_matches (out : Nat → Int) (n : Nat) (ops : List Op)
    (hv : validFrom n [] ops = true) (k : Nat) :
    ∃ G, runOps (ops.take k) (DynamicGraph.new out (n : Int)) = some G ∧
      ∀ (l : Nat) (F : DynamicForest) (v : Int), G.spanning_trees[l]? = some F →
        0 ≤ v → v < (n : Int) →
        ∃ p nd, F.map_edges (v, v) = some (some p) ∧ G.heap.get p = some nd ∧
          nd.key = (v, v) ∧ (nd.is_has_adjacent = true ↔ F.adjacent_edges v ≠ []) := by
  obtain ⟨G, hrun, hn, tss, hR, hA⟩ := reach_prefix out n ops hv k
  refine ⟨G, hrun, fun l F v hF h0 h1 => ?_⟩
  have hL := level_lt_of_forest tss hF
  have hmem : (v, v) ∈ ((viewOf G tss).tours l).flatten :=
    (hA.verts l hL v).mpr ⟨h0, by rw [show (viewOf G tss).n = (n : Int) from hn]; exact h1⟩
  obtain ⟨F1, p, nd, hF1, hm, hg, hkey, hd⟩ := hR.registered_of_mem hmem
  rw [hF] at hF1
  cases Option.some.inj hF1
  obtain ⟨-, h2, h3⟩ := hA.dself l v _ _ _ hd
  rw [view_adj_eq hF] at h2 h3
  exact ⟨p, nd, hm, hg, hkey, fun h => (h3 h).elim id (fun hz => hz.elim), h2⟩

theorem adjacent_flag_matches_witness :
    validFrom 3 [] [.add 0 1, .add 1 2] = true ∧
    ∃ G, runOps ([Op.add 0 1, Op.add 1 2].take 2)
        (DynamicGraph.new (fun _ => 0) ((3 : Nat) : Int)) = some G ∧
      ∀ (l : Nat) (F : DynamicForest) (v : Int), G.spanning_trees[l]? = some F →
        0 ≤ v → v < ((3 : Nat) : Int) →
        ∃ p nd, F.map_edges (v, v) = some (some p) ∧ G.heap.get p = some nd ∧
          nd.key = (v, v) ∧ (nd.is_has_adjacent = true ↔ F.adjacent_edges v ≠ []) :=
  ⟨by decide, adjacent_flag_matches (fun _ => 0) 3 [.add 0 1, .add 1 2] (by decide) 2⟩

/-- C19: for every valid script on a fresh `DynamicGraph(n)`, after each operation, for
every edge-node with key `(a, b)`, `a ≠ b`, registered in forest `spanning_trees[l]`:
`is_min_level` is true if and only if `a < b` and `(a, b)` is a key of
`spanning_edges_levels` with level `l`. Consequently, for every recorded tree edge, written
with `a < b` and of level `lv`, the node registered under `(a, b)` in forest `lv` carries
the flag, and a node registered under `(a, b)` or `(b, a)` in any forest that carries the
flag is that node: its key is `(a, b)` and its forest is forest `lv`. -/
theorem min_level_flag_matches (out : Nat → Int) (n : Nat) (ops : List Op)
    (hv : validFrom n [] ops = true) (k : Nat) :
    ∃ G, runOps (ops.take k) (DynamicGraph.new out (n : Int)) = some G ∧
      (∀ (l : Nat) (F : DynamicForest) (a b : Int) (p : Nat),
        G.spanning_trees[l]? = some F → a ≠ b → F.map_edges (a, b) = some (some p) →
        ∃ nd, G.heap.get p = some nd ∧ nd.key = (a, b) ∧
          (nd.is_min_level = true ↔
            (a < b ∧ G.spanning_edges_levels.find (a, b) = some (l : Int)))) ∧
      (∀ (a b lv : Int), a < b → G.spanning_edges_levels.find (a, b) = some lv →
        (∃ (l : Nat) (F : DynamicForest) (p : Nat) (nd : Node), (l : Int) = lv ∧
          G.spanning_trees[l]? = some F ∧ F.map_edges (a, b) = some (some p) ∧
          G.heap.get p = some nd ∧ nd.is_min_level = true) ∧
        (∀ (l : Nat) (F : DynamicForest) (x y : Int) (p : Nat) (nd : Node),
          G.spanning_trees[l]? = some F → ((x, y) = (a, b) ∨ (x, y) = (b, a)) →
          F.map_edges (x, y) = some (some p) → G.heap.get p = some nd →
          nd.is_min_level = true → (x, y) = (a, b) ∧ (l : Int) = lv)) := by
  obtain ⟨G, hrun, hn, tss, hR, hA⟩ := reach_prefix out n ops hv k
  have key : ∀ (l : Nat) (F : DynamicForest) (a b : Int) (p : Nat),
      G.spanning_trees[l]? = some F → a ≠ b → F.map_edges (a, b) = some (some p) →
      ∃ nd, G.heap.get p = some nd ∧ nd.key = (a, b) ∧
        (nd.is_min_level = true ↔
          (a < b ∧ G.spanning_edges_levels.find (a, b) = some (l : Int))) := by
    intro l F a b p hF hne hm
    obtain ⟨-, nd, hg, hkey, hd⟩ := hR.registered hF hm
    exact ⟨nd, hg, hkey, (hA.dedge l a b _ _ _ hne hd).2.1⟩
  refine ⟨G, hrun, key, fun a b lv hlt hf => ⟨?_, ?_⟩⟩
  · have hrng := hA.rngT a b lv hf
    have hl0 : ((lv.toNat : Nat) : Int) = lv := Int.toNat_of_nonneg hrng.2.2.2.2.2.1
    have hL : lv.toNat < (viewOf G tss).L := by
      have := hA.mx_len
      have := hrng.2.2.2.2.2.2
      omega
    have hmem : (a, b) ∈ ((viewOf G tss).tours lv.toNat).flatten :=
      (hA.reg lv.toNat hL a b hrng.1).mpr ⟨⟨lv, hf, by omega⟩, trivial⟩
    obtain ⟨F, p, nd, hF, hm, hg, hkey, hd⟩ := hR.registered_of_mem hmem
    refine ⟨lv.toNat, F, p, nd, hl0, hF, hm, hg, ?_⟩
    exact (hA.dedge lv.toNat a b _ _ _ hrng.1 hd).2.1.mpr ⟨hlt, by rw [hl0]; exact hf⟩
  · intro l F x y p nd hF hxy hm hg hflag
    have hne : x ≠ y := by
      rcases hxy with h | h
      · cases h; exact ne_of_lt hlt
      · cases h; exact (ne_of_lt hlt).symm
    obtain ⟨nd1, hg1, -, hiff⟩ := key l F x y p hF hne hm
    rw [hg] at hg1
    cases Option.some.inj hg1
    obtain ⟨h1, h2⟩ := hiff.mp hflag
    rcases hxy with h | h
    · cases h
      rw [hf] at h2
      exact ⟨rfl, (Option.some.inj h2).symm⟩
    · cases h
      exact absurd h1 (by omega)

theorem min_level_flag_matches_witness :
    validFrom 3 [] [.add 0 1, .add 1 2] = true ∧
    ∃ G, runOps ([Op.add 0 1, Op.add 1 2].take 2)
        (DynamicGraph.new (fun _ => 0) ((3 : Nat) : Int)) = some G ∧
      (∀ (l : Nat) (F : DynamicForest) (a b : Int) (p : Nat),
        G.spanning_trees[l]? = some F → a ≠ b → F.map_edges (a, b) = some (some p) →
        ∃ nd, G.heap.get p = some nd ∧ nd.key = (a, b) ∧
          (nd.is_min_level = true ↔
            (a < b ∧ G.spanning_edges_levels.find (a, b) = some (l : Int)))) ∧
      (∀ (a b lv : Int), a < b → G.spanning_edges_levels.find (a, b) = some lv →
        (∃ (l : Nat) (F : DynamicForest) (p : Nat) (nd : Node), (l : Int) = lv ∧
          G.spanning_trees[l]? = some F ∧ F.map_edges (a, b) = some (some p) ∧
          G.heap.get p = some nd ∧ nd.is_min_level = true) ∧
        (∀ (l : Nat) (F : DynamicForest) (x y : Int) (p : Nat) (nd : Node),
          G.spanning_trees[l]? = some F → ((x, y) = (a, b) ∨ (x, y) = (b, a)) →
          F.map_edges (x, y) = some (some p) → G.heap.get p = some nd →
          nd.is_min_level = true → (x, y) = (a, b) ∧ (l : Int) = lv)) :=
  ⟨by decide, min_level_flag_matches (fun _ => 0) 3 [.add 0 1, .add 1 2] (by decide) 2⟩

/-- C20: for every valid script on a fresh `DynamicGraph(n)`, after each operation, every
node `x` registered in any forest satisfies
`x.size_of_min_level = agg(x.left) OR agg(x.right) OR x.is_min_level` and
`x.size_of_adjacent = agg(x.left) OR agg(x.right) OR x.is_has_adjacent`, where `agg` of a
child is its aggregate as read by `get_size_min_level` or `get_size_adjacent`, false for a
null child. -/
theorem aggregates_consistent (out : Nat → Int) (n : Nat) (ops : List Op)
    (hv : validFrom n [] ops = true) (k : Nat) :
    ∃ G, runOps (ops.take k) (DynamicGraph.new out (n : Int)) = some G ∧
      ∀ (l : Nat) (F : DynamicForest) (key : Int × Int) (p : Nat),
        G.spanning_trees[l]? = some F → F.map_edges key = some (some p) →
        ∃ nd ml mr al ar, G.heap.get p = some nd ∧
          get_size_min_level G.heap nd.left = some ml ∧
          get_size_min_level G.heap nd.right = some mr ∧
          get_size_adjacent G.heap nd.left = some al ∧
          get_size_adjacent G.heap nd.right = some ar ∧
          get_size_min_level G.heap none = some false ∧
          get_size_adjacent G.heap none = some false ∧
          nd.size_of_min_level = (ml || mr || nd.is_min_level) ∧
          nd.size_of_adjacent = (al || ar || nd.is_has_adjacent) := by
  obtain ⟨G, hrun, hn, tss, hR, hA⟩ := reach_prefix out n ops hv k
  refine ⟨G, hrun, fun l F key p hF hm => ?_⟩
  obtain ⟨hp, -⟩ := hR.registered hF hm
  obtain ⟨nd, ml, mr, al, ar, hg, h1, h2, h3, h4, h5, h6⟩ :=
    hR.cons l p hp (Set.not_mem_empty p)
  exact ⟨nd, ml, mr, al, ar, hg, h1, h2, h3, h4, rfl, rfl, h5, h6⟩

theorem aggregates_consistent_witness :
    validFrom 3 [] [.add 0 1, .add 1 2] = true ∧
    ∃ G, runOps ([Op.add 0 1, Op.add 1 2].take 2)
        (DynamicGraph.new (fun _ => 0) ((3 : Nat) : Int)) = some G ∧
      ∀ (l : Nat) (F : DynamicForest) (key : Int × Int) (p : Nat),
        G.spanning_trees[l]? = some F → F.map_edges key = some (some p) →
        ∃ nd ml mr al ar, G.heap.get p = some nd ∧
          get_size_min_level G.heap nd.left = some ml ∧
          get_size_min_level G.heap nd.right = some mr ∧
          get_size_adjacent G.heap nd.left = some al ∧
          get_size_adjacent G.heap nd.right = some ar ∧
          get_size_min_level G.heap none = some false ∧
          get_size_adjacent G.heap none = some false ∧
          nd.size_of_min_level = (ml || mr || nd.is_min_level) ∧
          nd.size_of_adjacent = (al || ar || nd.is_has_adjacent) :=
  ⟨by decide, aggregates_consistent (fun _ => 0) 3 [.add 0 1, .add 1 2] (by decide) 2⟩

/-- Function `is_connected` on two registered vertices of a forest: the registry is left as
it was and the answer compares the roots of the two treaps. -/
theorem is_connected_frep {h : Heap} {F : DynamicForest} {ts : List Tree} (hw : h.WF)
    (hr : FRep h F.map_edges ts) {tA tB : Tree} (htA : tA ∈ ts) (htB : tB ∈ ts)
    {a b : Int} {pa pb : Nat} (hma : F.map_edges (a, a) = some (some pa))
    (hpa : pa ∈ tA.toList) (hmb : F.map_edges (b, b) = some (some pb))
    (hpb : pb ∈ tB.toList) :
    is_connected h F a b = some (F, decide (tA.root = tB.root)) := by
  have hs := hr.toShape
  have hla := lift_spec (hs.shape tA htA).1 (hs.shape tA htA).2 hpa
    (f := h.next + 1)
    (by have := (hs.shape tA htA).1.size_le_next hw (hs.nodup_one htA); omega)
  have hlb := lift_spec (hs.shape tB htB).1 (hs.shape tB htB).2 hpb
    (f := h.next + 1)
    (by have := (hs.shape tB htB).1.size_le_next hw (hs.nodup_one htB); omega)
  simp only [is_connected, EdgeMap.at_some hma, EdgeMap.at_some hmb, hla, hlb]

/-- Two treaps of a forest with one root are one treap. -/
theorem FRep.root_inj {h : Heap} {m : EdgeMap} {ts : List Tree} (hr : FRep h m ts)
    {tA tB : Tree} (htA : tA ∈ ts) (htB : tB ∈ ts) {p : Nat} (hp : p ∈ tA.toList)
    (hroot : tA.root = tB.root) : tA = tB := by
  obtain ⟨ra, hra⟩ := Tree.root_of_mem hp
  exact hr.toShape.same_tree htA htB (Tree.root_mem hra) (Tree.root_mem (hroot ▸ hra))

theorem exHeapLR_wf : exHeapLR.WF := by
  intro p hp
  have h2 : 2 ≤ p := hp
  simp only [exHeapLR, Heap.get]
  rw [if_neg (by omega), if_neg (by omega)]

theorem exHeapLR_cons (p : Nat) (hp : p = 0 ∨ p = 1) : Cons exHeapLR p := by
  rcases hp with rfl | rfl
  · exact ⟨_, false, false, false, false, rfl, rfl, rfl, rfl, rfl, rfl, rfl⟩
  · exact ⟨_, false, false, false, false, rfl, rfl, rfl, rfl, rfl, rfl, rfl⟩

theorem exForestLR_frep :
    FRep exHeapLR exForestLR.map_edges
      [Tree.node Tree.nil 0 Tree.nil, Tree.node Tree.nil 1 Tree.nil] := by
  refine ⟨?_, by decide, ?_, ?_⟩
  · intro t ht
    simp only [List.mem_cons, List.mem_singleton, List.not_mem_nil, or_false] at ht
    rcases ht with rfl | rfl
    · exact ⟨exHeapLR_shape0, fun x hx => by cases Option.some.inj hx; exact ⟨_, rfl, rfl⟩,
        fun p hp => exHeapLR_cons p (Or.inl (by simpa [Tree.toList] using hp))⟩
    · exact ⟨exHeapLR_shape1, fun x hx => by cases Option.some.inj hx; exact ⟨_, rfl, rfl⟩,
        fun p hp => exHeapLR_cons p (Or.inr (by simpa [Tree.toList] using hp))⟩
  · intro k p
    simp only [exForestLR, List.flatMap_cons, List.flatMap_nil, Tree.toList, List.nil_append,
      List.append_nil, List.singleton_append, List.mem_cons, List.mem_singleton,
      List.not_mem_nil, or_false]
    constructor
    · intro hm
      split_ifs at hm with h1 h2
      · cases Option.some.inj (Option.some.inj hm); exact ⟨Or.inl rfl, h1.symm⟩
      · cases Option.some.inj (Option.some.inj hm); exact ⟨Or.inr rfl, h2.symm⟩
    · rintro ⟨rfl | rfl, rfl⟩
      · rfl
      · rfl
  · intro k hk
    simp only [exForestLR] at hk
    split_ifs at hk <;> exact Option.noConfusion (Option.some.inj hk)

theorem exHeapTour_wf : exHeapTour.WF := by
  intro p hp
  have h2 : 4 ≤ p := hp
  simp only [exHeapTour, Heap.get]
  rw [if_neg (by omega), if_neg (by omega), if_neg (by omega), if_neg (by omega)]

theorem exHeapTour_shape : ShapeU exHeapTour exTreeTour := by
  refine ⟨_, rfl, rfl, rfl, rfl, trivial, ?_, fun x hx => Option.noConfusion hx,
    fun x hx => by cases Option.some.inj hx; exact ⟨_, rfl, rfl⟩⟩
  refine ⟨_, rfl, rfl, rfl, rfl, trivial, ?_, fun x hx => Option.noConfusion hx,
    fun x hx => by cases Option.some.inj hx; exact ⟨_, rfl, rfl⟩⟩
  refine ⟨_, rfl, rfl, rfl, rfl, trivial, ?_, fun x hx => Option.noConfusion hx,
    fun x hx => by cases Option.some.inj hx; exact ⟨_, rfl, rfl⟩⟩
  exact ⟨_, rfl, rfl, rfl, rfl, trivial, trivial, fun x hx => Option.noConfusion hx,
    fun x hx => Option.noConfusion hx⟩

theorem exForestTour_frep : FRep exHeapTour exForestTour.map_edges [exTreeTour] := by
  refine ⟨?_, by decide, ?_, ?_⟩
  · intro t ht
    simp only [List.mem_singleton] at ht
    subst ht
    refine ⟨exHeapTour_shape, fun x hx => by cases Option.some.inj hx; exact ⟨_, rfl, rfl⟩, ?_⟩
    intro p hp
    have hp1 : p = 0 ∨ p = 2 ∨ p = 1 ∨ p = 3 := by
      simpa [exTreeTour, Tree.toList] using hp
    rcases hp1 with rfl | rfl | rfl | rfl
    · exact ⟨_, false, false, false, false, rfl, rfl, rfl, rfl, rfl, rfl, rfl⟩
    · exact ⟨_, false, false, false, false, rfl, rfl, rfl, rfl, rfl, rfl, rfl⟩
    · exact ⟨_, false, false, false, false, rfl, rfl, rfl, rfl, rfl, rfl, rfl⟩
    · exact ⟨_, false, false, false, false, rfl, rfl, rfl, rfl, rfl, rfl, rfl⟩
  · intro k p
    have hl : [exTreeTour].flatMap Tree.toList = [0, 2, 1, 3] := rfl
    rw [hl]
    simp only [exForestTour, List.mem_cons, List.mem_singleton, List.not_mem_nil, or_false]
    constructor
    · intro hm
      split_ifs at hm with h1 h2 h3 h4
      · cases Option.some.inj (Option.some.inj hm); exact ⟨Or.inl rfl, h1.symm⟩
      · cases Option.some.inj (Option.some.inj hm); exact ⟨Or.inr (Or.inl rfl), h2.symm⟩
      · cases Option.some.inj (Option.some.inj hm)
        exact ⟨Or.inr (Or.inr (Or.inl rfl)), h3.symm⟩
      · cases Option.some.inj (Option.some.inj hm)
        exact ⟨Or.inr (Or.inr (Or.inr rfl)), h4.symm⟩
    · rintro ⟨rfl | rfl | rfl | rfl, rfl⟩
      · rfl
      · rfl
      · rfl
      · rfl
  · intro k hk
    simp only [exForestTour] at hk
    split_ifs at hk <;> exact Option.noConfusion (Option.some.inj hk)

theorem exTour_et : ET (tourKeys exHeapTour exTreeTour) :=
  ET.link 0 1 [] [] (ET.single 0) (ET.single 1)

theorem keyOf_of_some_data {h : Heap} {q : Nat} {k : Int × Int} {a b : Int} {c d : Bool}
    (hd : (h.get q).map Node.data = some (k, a, b, c, d)) : keyOf h q = k := by
  simp only [keyOf]
  cases hg : h.get q with
  | none => rw [hg] at hd; exact Option.noConfusion hd
  | some nd =>
    rw [hg] at hd
    simp only [Option.map_some', Option.some.injEq, Node.data, Prod.mk.injEq] at hd
    exact hd.1

/-- In a forest of Euler tours no edge-node joins vertices of two different treaps. -/
theorem FRep.edge_unregistered {h : Heap} {m : EdgeMap} {tA tB : Tree} {rest : List Tree}
    (hr : FRep h m (tA :: tB :: rest))
    (het : ∀ t ∈ tA :: tB :: rest, ET (tourKeys h t)) {uu vv : Int} {pu pv : Nat}
    (hmu : m (uu, uu) = some (some pu)) (hpu : pu ∈ tA.toList)
    (hmv : m (vv, vv) = some (some pv)) (hpv : pv ∈ tB.toList) :
    m (uu, vv) = none := by
  have hs := hr.toShape
  cases hm : m (uu, vv) with
  | none => rfl
  | some x =>
    exfalso
    cases x with
    | none => exact hs.nonull _ hm
    | some p =>
      obtain ⟨t, ht, hpt, hk⟩ := hs.reg_mem hm
      have hkey : (uu, vv) ∈ tourKeys h t := mem_tourKeys.mpr ⟨p, hpt, hk⟩
      obtain ⟨h1, h2⟩ := (het t ht).self_mem uu vv hkey
      obtain ⟨p1, hm1, hp1⟩ := hs.key_reg ht h1
      obtain ⟨p2, hm2, hp2⟩ := hs.key_reg ht h2
      rw [hmu] at hm1
      rw [hmv] at hm2
      cases Option.some.inj (Option.some.inj hm1)
      cases Option.some.inj (Option.some.inj hm2)
      have e1 : tA = t := hs.same_tree (by simp) ht hpu hp1
      have e2 : tB = t := hs.same_tree (by simp) ht hpv hp2
      subst e1
      subst e2
      have hnd := hr.nodup
      rw [flatMap_cons2] at hnd
      exact (List.nodup_append.mp hnd).2.2 hpu (List.mem_append_left _ hpu)

/-- C14: for every well-formed forest (heap cells below `next`, registry and treaps as in
`FRep`, every treap an Euler tour) in which the self-node of `u` lies in the treap `A` and
the self-node of `v` in another treap `B`, `add_edge(u, v, lvl)` returns, and afterwards
the forest holds, beside the treaps other than `A` and `B`, one treap whose in-order
sequence is `rot(A, i) ++ [node(u,v)] ++ rot(B, j) ++ [node(v,u)]`, where `i` and `j` are
the indices of the two self-nodes, `rot(X, k) = drop k X ++ take k X`, each rotation starts
with the self-node, and `node(u,v)`, `node(v,u)` are two new nodes with these keys; both
are registered in `map_edges`, no other entry of `map_edges` changes, the nodes of `A` and
`B` keep their keys and no node outside `A` and `B` is written. -/
theorem add_edge_tour (h : Heap) (g : Gen) (F : DynamicForest) (ts : List Tree)
    (tA tB : Tree) (rest : List Tree) (uu vv lvl : Int) (pu pv : Nat)
    (hw : h.WF) (hr : FRep h F.map_edges ts) (het : ∀ t ∈ ts, ET (tourKeys h t))
    (hperm : ts.Perm (tA :: tB :: rest))
    (hmu : F.map_edges (uu, uu) = some (some pu)) (hpu : pu ∈ tA.toList)
    (hmv : F.map_edges (vv, vv) = some (some pv)) (hpv : pv ∈ tB.toList) :
    ∃ h1 g1 F1 T, add_edge h g F uu vv lvl = some (h1, g1, F1) ∧
      FRep h1 F1.map_edges (T :: rest) ∧
      T.toList = rot tA.toList (tA.toList.indexOf pu) ++ [h.next] ++
        rot tB.toList (tB.toList.indexOf pv) ++ [h.next + 1] ∧
      (rot tA.toList (tA.toList.indexOf pu)).head? = some pu ∧
      (rot tB.toList (tB.toList.indexOf pv)).head? = some pv ∧
      keyOf h1 h.next = (uu, vv) ∧ keyOf h1 (h.next + 1) = (vv, uu) ∧
      F1.map_edges (uu, vv) = some (some h.next) ∧
      F1.map_edges (vv, uu) = some (some (h.next + 1)) ∧
      (∀ k, k ≠ (uu, vv) → k ≠ (vv, uu) → F1.map_edges k = F.map_edges k) ∧
      (∀ q, q ∈ tA.toList ∨ q ∈ tB.toList → keyOf h1 q = keyOf h q) ∧
      (∀ q, q < h.next → q ∉ tA.toList → q ∉ tB.toList → h1.get q = h.get q) := by
  have hr1 := hr.perm hperm
  have het1 : ∀ t ∈ tA :: tB :: rest, ET (tourKeys h t) :=
    fun t ht => het t (hperm.mem_iff.mpr ht)
  have hne : uu ≠ vv := by
    rintro rfl
    rw [hmu] at hmv
    cases Option.some.inj (Option.some.inj hmv)
    have hnd := hr1.nodup
    rw [flatMap_cons2] at hnd
    exact (List.nodup_append.mp hnd).2.2 hpu (List.mem_append_left _ hpv)
  have huv : F.map_edges (uu, vv) = none := hr1.edge_unregistered het1 hmu hpu hmv hpv
  have hvu : F.map_edges (vv, uu) = none := by
    have hr2 : FRep h F.map_edges (tB :: tA :: rest) := hr1.perm (List.Perm.swap _ _ _)
    exact hr2.edge_unregistered
      (fun t ht => het1 t ((List.Perm.swap _ _ _).mem_iff.mp ht)) hmv hpv hmu hpu
  obtain ⟨h7, T, hadd, hrep, hT, -, -, hdata, hframe, hd1, hd2⟩ :=
    @add_edge_spec h g F tA tB rest uu vv lvl pu pv hw hr1 hmu hpu hmv hpv hne huv hvu
  have hlt : ∀ q, q ∈ tA.toList ∨ q ∈ tB.toList → q < h.next := by
    intro q hq
    have hq1 : q ∈ nodesOf (tA :: tB :: rest) := by
      rcases hq with hq | hq
      · exact mem_nodesOf.mpr ⟨tA, by simp, hq⟩
      · exact mem_nodesOf.mpr ⟨tB, by simp, hq⟩
    obtain ⟨nd, hg⟩ := hr1.toShape.live hq1
    exact hw.lt hg
  refine ⟨h7, _, _, T, hadd, hrep, ?_, ?_, ?_, keyOf_of_some_data hd1, keyOf_of_some_data hd2,
    ?_, ?_, ?_, fun q hq => keyOf_of_data (hdata q (hlt q hq)), hframe⟩
  · rw [hT]; simp
  · rw [rot_indexOf hpu]; rfl
  · rw [rot_indexOf hpv]; rfl
  · show ((F.map_edges.set (uu, vv) (some h.next)).set (vv, uu) (some (h.next + 1))) (uu, vv) = _
    simp only [EdgeMap.set]
    rw [if_neg (by simp only [Prod.mk.injEq, not_and]; exact fun e => absurd e hne), if_pos trivial]
  · show ((F.map_edges.set (uu, vv) (some h.next)).set (vv, uu) (some (h.next + 1))) (vv, uu) = _
    simp only [EdgeMap.set]
    rw [if_pos trivial]
  · intro k hk1 hk2
    show ((F.map_edges.set (uu, vv) (some h.next)).set (vv, uu) (some (h.next + 1))) k = _
    simp only [EdgeMap.set]
    rw [if_neg hk2, if_neg hk1]

theorem add_edge_tour_witness :
    exHeapLR.WF ∧
    FRep exHeapLR exForestLR.map_edges
      [Tree.node Tree.nil 0 Tree.nil, Tree.node Tree.nil 1 Tree.nil] ∧
    ∃ h1 g1 F1 T, add_edge exHeapLR { out := fun _ => 0, drawn := 0 } exForestLR 0 1 0 =
        some (h1, g1, F1) ∧
      FRep h1 F1.map_edges (T :: []) ∧
      T.toList = rot (Tree.node Tree.nil 0 Tree.nil).toList
          ((Tree.node Tree.nil 0 Tree.nil).toList.indexOf 0) ++ [exHeapLR.next] ++
        rot (Tree.node Tree.nil 1 Tree.nil).toList
          ((Tree.node Tree.nil 1 Tree.nil).toList.indexOf 1) ++ [exHeapLR.next + 1] ∧
      (rot (Tree.node Tree.nil 0 Tree.nil).toList
        ((Tree.node Tree.nil 0 Tree.nil).toList.indexOf 0)).head? = some 0 ∧
      (rot (Tree.node Tree.nil 1 Tree.nil).toList
        ((Tree.node Tree.nil 1 Tree.nil).toList.indexOf 1)).head? = some 1 ∧
      keyOf h1 exHeapLR.next = (0, 1) ∧ keyOf h1 (exHeapLR.next + 1) = (1, 0) ∧
      F1.map_edges (0, 1) = some (some exHeapLR.next) ∧
      F1.map_edges (1, 0) = some (some (exHeapLR.next + 1)) ∧
      (∀ k, k ≠ (0, 1) → k ≠ (1, 0) → F1.map_edges k = exForestLR.map_edges k) ∧
      (∀ q, q ∈ (Tree.node Tree.nil 0 Tree.nil).toList ∨
        q ∈ (Tree.node Tree.nil 1 Tree.nil).toList → keyOf h1 q = keyOf exHeapLR q) ∧
      (∀ q, q < exHeapLR.next → q ∉ (Tree.node Tree.nil 0 Tree.nil).toList →
        q ∉ (Tree.node Tree.nil 1 Tree.nil).toList → h1.get q = exHeapLR.get q) :=
  ⟨exHeapLR_wf, exForestLR_frep,
    add_edge_tour exHeapLR { out := fun _ => 0, drawn := 0 } exForestLR
      [Tree.node Tree.nil 0 Tree.nil, Tree.node Tree.nil 1 Tree.nil]
      (Tree.node Tree.nil 0 Tree.nil) (Tree.node Tree.nil 1 Tree.nil) [] 0 1 0 0 1
      exHeapLR_wf exForestLR_frep
      (fun t ht => by
        simp only [List.mem_cons, List.mem_singleton, List.not_mem_nil, or_false] at ht
        rcases ht with rfl | rfl
        · exact ET.single 0
        · exact ET.single 1)
      (List.Perm.refl _) rfl (by decide) rfl (by decide)⟩

/-- C15: for every well-formed forest (heap cells below `next`, registry and treaps as in
`FRep`) with a treap that is an Euler tour and holds the two nodes of the tree edge
`{u, v}`, whose in-order sequence read cyclically from the node `(u, v)` is
`[node(u,v)] ++ V ++ [node(v,u)] ++ U`: `delete_edge(u, v)` returns, and afterwards the
forest holds, beside the other treaps, two separate treaps whose in-order sequences are
exactly `V` and `U`; the self-node of `v` is registered and lies in `V`, the self-node of
`u` is registered and lies in `U`; both edge-nodes are gone from `map_edges` and from the
heap, and `is_connected(u, v)` returns `false`. -/
theorem delete_edge_tour (h : Heap) (F : DynamicForest) (ts : List Tree) (t : Tree)
    (rest : List Tree) (uu vv : Int) (puv pvu : Nat) (V U : List Nat)
    (hw : h.WF) (hr : FRep h F.map_edges ts) (hperm : ts.Perm (t :: rest))
    (het : ET (tourKeys h t)) (hne : uu ≠ vv)
    (hm1 : F.map_edges (uu, vv) = some (some puv))
    (hm2 : F.map_edges (vv, uu) = some (some pvu)) (hp1 : puv ∈ t.toList)
    (hcyc : rot t.toList (t.toList.indexOf puv) = puv :: (V ++ pvu :: U)) :
    ∃ h1 F1 tV tU, delete_edge h F uu vv = some (h1, F1) ∧
      FRep h1 F1.map_edges (tV :: tU :: rest) ∧ tV.toList = V ∧ tU.toList = U ∧
      (∃ pv, F1.map_edges (vv, vv) = some (some pv) ∧ pv ∈ V) ∧
      (∃ pu, F1.map_edges (uu, uu) = some (some pu) ∧ pu ∈ U) ∧
      F1.map_edges (uu, vv) = none ∧ F1.map_edges (vv, uu) = none ∧
      h1.get puv = none ∧ h1.get pvu = none ∧
      is_connected h1 F1 uu vv = some (F1, false) := by
  have hr1 := hr.perm hperm
  have hs1 := hr1.toShape
  have hp2 : pvu ∈ t.toList := by
    rw [← mem_rot (k := t.toList.indexOf puv), hcyc]
    simp
  obtain ⟨h6, tV, tU, hdel, hrep, hrot, hw6, -, -, -, hfree1, hfree2⟩ :=
    delete_edge_spec hw hr1 hm1 hm2 hp1 hp2 hne
  have hndt : t.toList.Nodup := hs1.nodup_one (by simp)
  have hndr : (rot t.toList (t.toList.indexOf puv)).Nodup :=
    (rot_perm _ _).nodup_iff.mpr hndt
  have heq : tV.toList ++ pvu :: tU.toList = V ++ pvu :: U := by
    have := hrot.symm.trans hcyc
    exact (List.cons.inj this).2
  have hndVU : (tV.toList ++ pvu :: tU.toList).Nodup := by
    rw [hrot] at hndr
    exact (List.nodup_cons.mp hndr).2
  obtain ⟨hV, hU⟩ := split_unique hndVU heq
  -- the two sides as key sequences
  have hk1 : keyOf h puv = (uu, vv) := ((hr1.reg _ _).mp hm1).2
  have hk2 : keyOf h pvu = (vv, uu) := ((hr1.reg _ _).mp hm2).2
  have hrk : (tourKeys h t).IsRotated
      ((uu, vv) :: V.map (keyOf h) ++ (vv, uu) :: U.map (keyOf h)) := by
    have h1 := (rot_isRotated t.toList (t.toList.indexOf puv)).map (keyOf h)
    rw [hcyc] at h1
    simpa only [tourKeys, List.map_cons, List.map_append, hk1, hk2, List.cons_append] using h1
  have hndk : (tourKeys h t).Nodup := by
    have := hs1.keys_nodup
    simp only [List.map_cons, List.flatten_cons] at this
    exact (List.nodup_append.mp this).1
  obtain ⟨-, -, hvV, huU⟩ := het.cut hndk uu vv _ _ hne hrk
  obtain ⟨pv, hpvV, hkv⟩ := List.mem_map.mp hvV
  obtain ⟨pu, hpuU, hku⟩ := List.mem_map.mp huU
  have hmemV : ∀ q, q ∈ V → q ∈ t.toList := fun q hq => by
    rw [← mem_rot (k := t.toList.indexOf puv), hcyc]
    simp [hq]
  have hmemU : ∀ q, q ∈ U → q ∈ t.toList := fun q hq => by
    rw [← mem_rot (k := t.toList.indexOf puv), hcyc]
    simp [hq]
  have hmv : F.map_edges (vv, vv) = some (some pv) :=
    (hr1.reg _ _).mpr ⟨List.mem_flatMap.mpr ⟨t, by simp, hmemV pv hpvV⟩, hkv⟩
  have hmu : F.map_edges (uu, uu) = some (some pu) :=
    (hr1.reg _ _).mpr ⟨List.mem_flatMap.mpr ⟨t, by simp, hmemU pu hpuU⟩, hku⟩
  have hn1 : (vv, vv) ≠ (uu, vv) := by
    simp only [ne_eq, Prod.mk.injEq, and_true]; exact fun e => hne e.symm
  have hn2 : (vv, vv) ≠ (vv, uu) := by
    simp only [ne_eq, Prod.mk.injEq, true_and]; exact fun e => hne e.symm
  have hn3 : (uu, uu) ≠ (uu, vv) := by
    simp only [ne_eq, Prod.mk.injEq, true_and]; exact hne
  have hn4 : (uu, uu) ≠ (vv, uu) := by
    simp only [ne_eq, Prod.mk.injEq, and_true]; exact hne
  have hn5 : (uu, vv) ≠ (vv, uu) := by
    simp only [ne_eq, Prod.mk.injEq, not_and]; exact fun e => absurd e hne
  have hmv1 : ((F.map_edges.erase (uu, vv)).erase (vv, uu)) (vv, vv) = some (some pv) := by
    simp only [EdgeMap.erase]
    rw [if_neg hn2, if_neg hn1]; exact hmv
  have hmu1 : ((F.map_edges.erase (uu, vv)).erase (vv, uu)) (uu, uu) = some (some pu) := by
    simp only [EdgeMap.erase]
    rw [if_neg hn4, if_neg hn3]; exact hmu
  have hpuU1 : pu ∈ tU.toList := by rw [hU]; exact hpuU
  have hpvV1 : pv ∈ tV.toList := by rw [hV]; exact hpvV
  have hconn := @is_connected_frep h6
    { F with map_edges := (F.map_edges.erase (uu, vv)).erase (vv, uu) } (tV :: tU :: rest)
    hw6 hrep tU tV (by simp) (by simp) uu vv pu pv hmu1 hpuU1 hmv1 hpvV1
  have hroot : tU.root ≠ tV.root := by
    intro hroot
    have e := @FRep.root_inj _ _ _ hrep tU tV (by simp) (by simp) pu hpuU1 hroot
    have hnd := hrep.nodup
    rw [flatMap_cons2] at hnd
    have h2 : pu ∈ tV.toList := e ▸ hpuU1
    exact (List.nodup_append.mp hnd).2.2 h2 (List.mem_append_left _ hpuU1)
  rw [decide_eq_false hroot] at hconn
  refine ⟨h6, _, tV, tU, hdel, hrep, hV, hU, ⟨pv, hmv1, hpvV⟩, ⟨pu, hmu1, hpuU⟩, ?_, ?_,
    hfree1, hfree2, hconn⟩
  · show ((F.map_edges.erase (uu, vv)).erase (vv, uu)) (uu, vv) = none
    simp only [EdgeMap.erase]
    rw [if_neg hn5, if_pos trivial]
  · show ((F.map_edges.erase (uu, vv)).erase (vv, uu)) (vv, uu) = none
    simp only [EdgeMap.erase]
    rw [if_pos trivial]

theorem delete_edge_tour_witness :
    exHeapTour.WF ∧ FRep exHeapTour exForestTour.map_edges [exTreeTour] ∧
    ET (tourKeys exHeapTour exTreeTour) ∧
    rot exTreeTour.toList (exTreeTour.toList.indexOf 2) = 2 :: ([1] ++ 3 :: [0]) ∧
    ∃ h1 F1 tV tU, delete_edge exHeapTour exForestTour 0 1 = some (h1, F1) ∧
      FRep h1 F1.map_edges (tV :: tU :: []) ∧ tV.toList = [1] ∧ tU.toList = [0] ∧
      (∃ pv, F1.map_edges (1, 1) = some (some pv) ∧ pv ∈ [1]) ∧
      (∃ pu, F1.map_edges (0, 0) = some (some pu) ∧ pu ∈ [0]) ∧
      F1.map_edges (0, 1) = none ∧ F1.map_edges (1, 0) = none ∧
      h1.get 2 = none ∧ h1.get 3 = none ∧
      is_connected h1 F1 0 1 = some (F1, false) :=
  ⟨exHeapTour_wf, exForestTour_frep, exTour_et, by decide,
    delete_edge_tour exHeapTour exForestTour [exTreeTour] exTreeTour [] 0 1 2 3 [1] [0]
      exHeapTour_wf exForestTour_frep (List.Perm.refl _) exTour_et (by decide) rfl rfl
      (by decide) (by decide)⟩

theorem adjAt_view (G : DynamicGraph) (tss : List (List Tree)) (l : Nat) (a : Int) :
    G.adjAt (l : Int) a = (viewOf G tss).adj l a := by
  unfold DynamicGraph.adjAt
  rw [forest_cast]
  cases h : G.spanning_trees[l]? <;> simp only [viewOf, h]

/-- The adjacency sets after a write to forest `l`. -/
theorem adj_setForest (G : DynamicGraph) (tss : List (List Tree)) {l : Nat}
    {F F1 : DynamicForest} (hF : G.spanning_trees[l]? = some F) (l1 : Nat) (x : Int) :
    (viewOf (G.setForest (l : Int) F1) tss).adj l1 x =
      if l1 = l then F1.adjacent_edges x else (viewOf G tss).adj l1 x := by
  have hl : l < G.spanning_trees.length := by
    by_contra hc
    rw [List.getElem?_eq_none (by omega)] at hF
    exact Option.noConfusion hF
  simp only [viewOf, DynamicGraph.setForest, Int.toNat_ofNat, List.getElem?_set]
  by_cases h : l = l1
  · subst h
    simp only [if_true, hl]
  · rw [if_neg h, if_neg (fun e => h e.symm)]

theorem adjErase_adj {G G1 : DynamicGraph} (tss : List (List Tree)) {l : Nat} {a b : Int}
    (h : G.adjErase (l : Int) a b = some G1) (l1 : Nat) (x : Int) :
    (viewOf G1 tss).adj l1 x =
      if l1 = l ∧ x = a then set_erase ((viewOf G tss).adj l a) b
      else (viewOf G tss).adj l1 x := by
  simp only [DynamicGraph.adjErase, forest_cast] at h
  cases hF : G.spanning_trees[l]? with
  | none => rw [hF] at h; exact Option.noConfusion h
  | some F =>
    rw [hF, Option.some_bind] at h
    cases Option.some.inj h
    rw [adj_setForest G tss hF]
    by_cases h1 : l1 = l
    · subst h1
      rw [if_pos rfl]
      simp only [adj_erase, true_and, viewOf_adj hF]
    · rw [if_neg h1, if_neg (fun e => h1 e.1)]

theorem adjInsert_adj {G G1 : DynamicGraph} (tss : List (List Tree)) {l : Nat} {a b : Int}
    (h : G.adjInsert (l : Int) a b = some G1) (l1 : Nat) (x : Int) :
    (viewOf G1 tss).adj l1 x =
      if l1 = l ∧ x = a then set_insert ((viewOf G tss).adj l a) b
      else (viewOf G tss).adj l1 x := by
  simp only [DynamicGraph.adjInsert, forest_cast] at h
  cases hF : G.spanning_trees[l]? with
  | none => rw [hF] at h; exact Option.noConfusion h
  | some F =>
    rw [hF, Option.some_bind] at h
    cases Option.some.inj h
    rw [adj_setForest G tss hF]
    by_cases h1 : l1 = l
    · subst h1
      rw [if_pos rfl]
      simp only [adj_insert, true_and, viewOf_adj hF]
    · rw [if_neg h1, if_neg (fun e => h1 e.1)]

theorem selfNode_adj {G G1 : DynamicGraph} (tss : List (List Tree)) {l : Nat} {a : Int}
    {p : Option Nat} (h : G.selfNode (l : Int) a = some (G1, p)) (l1 : Nat) (x : Int) :
    (viewOf G1 tss).adj l1 x = (viewOf G tss).adj l1 x := by
  simp only [DynamicGraph.selfNode, forest_cast] at h
  cases hF : G.spanning_trees[l]? with
  | none => rw [hF] at h; exact Option.noConfusion h
  | some F =>
    rw [hF, Option.some_bind] at h
    have h1 := (Prod.mk.inj (Option.some.inj h)).1
    rw [← h1, adj_setForest G tss hF]
    by_cases h2 : l1 = l
    · subst h2
      rw [if_pos rfl, viewOf_adj hF]
    · rw [if_neg h2]

theorem heap_adj (G : DynamicGraph) (tss : List (List Tree)) (h1 : Heap) :
    (viewOf { G with heap := h1 } tss).adj = (viewOf G tss).adj := rfl

theorem clearIfEmpty_adj {G G1 : DynamicGraph} (tss : List (List Tree)) {l : Nat} {a : Int}
    {up : Bool} (h : G.clearIfEmpty (l : Int) a up = some G1) (l1 : Nat) (x : Int) :
    (viewOf G1 tss).adj l1 x = (viewOf G tss).adj l1 x := by
  simp only [DynamicGraph.clearIfEmpty, forest_cast] at h
  cases hF : G.spanning_trees[l]? with
  | none => rw [hF] at h; exact Option.noConfusion h
  | some F =>
    rw [hF, Option.some_bind] at h
    by_cases he : (F.adjacent_edges a).isEmpty = true
    · rw [if_pos he] at h
      cases hs : G.selfNode (l : Int) a with
      | none => rw [hs] at h; exact Option.noConfusion h
      | some r =>
        obtain ⟨G2, p⟩ := r
        rw [hs, Option.some_bind] at h
        have h2 := selfNode_adj tss hs l1 x
        cases p with
        | none => exact Option.noConfusion h
        | some q =>
          simp only at h
          cases hset : set_is_has_adjacent G2.heap q false with
          | none => rw [hset] at h; exact Option.noConfusion h
          | some h3 =>
            rw [hset, Option.some_bind] at h
            cases up with
            | false =>
              simp only [Bool.false_eq_true, if_false] at h
              cases Option.some.inj h
              exact h2
            | true =>
              simp only [if_true] at h
              cases hu : update_up (h3.next + 1) h3 (some q) with
              | none => rw [hu] at h; exact Option.noConfusion h
              | some h4 =>
                rw [hu, Option.some_bind] at h
                cases Option.some.inj h
                exact h2
    · rw [if_neg he] at h
      cases Option.some.inj h
      rfl

/-- Method `build` adds no adjacency. -/
theorem build_adj (G : DynamicGraph) (tss : List (List Tree)) (level : Int) (l1 : Nat)
    (x : Int) : (viewOf (G.build level) tss).adj l1 x = (viewOf G tss).adj l1 x := by
  simp only [DynamicGraph.build]
  by_cases h : level = (G.spanning_trees.length : Int)
  · rw [if_pos h]
    simp only [viewOf, DynamicForest.new]
    by_cases h1 : l1 < G.spanning_trees.length
    · rw [List.getElem?_append_left h1]
    · rw [List.getElem?_eq_none (l := G.spanning_trees) (by omega)]
      by_cases h2 : l1 = G.spanning_trees.length
      · subst h2
        simp
      · rw [List.getElem?_eq_none (by simp; omega)]
  · rw [if_neg h]

theorem CandKeep.refl_keep (S : Int → Int → Prop) (κ : Nat) (V : View) : CandKeep S κ V V :=
  fun _ _ _ => Iff.rfl

theorem CandKeep.trans_keep {S : Int → Int → Prop} {κ : Nat} {V V1 V2 : View}
    (h1 : CandKeep S κ V V1) (h2 : CandKeep S κ V1 V2) : CandKeep S κ V V2 :=
  fun x y hs => (h2 x y hs).trans (h1 x y hs)

theorem CandKeep.of_adj {S : Int → Int → Prop} {κ : Nat} {V V1 : View}
    (h : ∀ x, V1.adj κ x = V.adj κ x) : CandKeep S κ V V1 :=
  fun x y _ => by rw [h x]

/-- Both `erase` statements of an edge between related vertices keep the other pairs. -/
theorem erase2_keep {S : Int → Int → Prop} {κ : Nat} {a b : Int} (hab : S a b) (hba : S b a)
    {G G1 G2 : DynamicGraph} (tss : List (List Tree))
    (h1 : G.adjErase (κ : Int) a b = some G1) (h2 : G1.adjErase (κ : Int) b a = some G2) :
    CandKeep S κ (viewOf G tss) (viewOf G2 tss) := by
  intro x y hs
  rw [adjErase_adj tss h2 κ x]
  by_cases hx : x = b
  · subst hx
    rw [if_pos ⟨rfl, rfl⟩, mem_set_erase, adjErase_adj tss h1 κ x]
    by_cases hxa : x = a
    · subst hxa
      rw [if_pos ⟨rfl, rfl⟩, mem_set_erase]
      constructor
      · exact fun h => h.1.1
      · intro h
        have hy : y ≠ x := fun e => hs (e ▸ hab)
        exact ⟨⟨h, hy⟩, hy⟩
    · rw [if_neg (fun e => hxa e.2)]
      constructor
      · exact fun h => h.1
      · exact fun h => ⟨h, fun e => hs (e ▸ hab)⟩
  · rw [if_neg (fun e => hx e.2), adjErase_adj tss h1 κ x]
    by_cases hxa : x = a
    · subst hxa
      rw [if_pos ⟨rfl, rfl⟩, mem_set_erase]
      constructor
      · exact fun h => h.1
      · exact fun h => ⟨h, fun e => hs (e ▸ hba)⟩
    · rw [if_neg (fun e => hxa e.2)]

/-- The body of the second loop of `BruteforceAdjacentEdges` on an edge between related
vertices keeps the other pairs of level `κ`. -/
theorem promote_nontree_edge_keep {S : Int → Int → Prop} {κ : Nat} {a b : Int} (hab : S a b)
    (hba : S b a) {G G1 : DynamicGraph} (tss : List (List Tree))
    (h : promote_nontree_edge (κ : Int) a b G = some G1) :
    CandKeep S κ (viewOf G tss) (viewOf G1 tss) := by
  have e : (κ : Int) + 1 = ((κ + 1 : Nat) : Int) := by push_cast; rfl
  simp only [promote_nontree_edge, e] at h
  obtain ⟨G2, hG2⟩ : ∃ G2 : DynamicGraph, G2 =
      (if ((κ + 1 : Nat) : Int) =
          (({ G with mx_level := max G.mx_level ((κ + 1 : Nat) : Int) } :
            DynamicGraph).spanning_trees.length : Int)
        then ({ G with mx_level := max G.mx_level ((κ + 1 : Nat) : Int) } : DynamicGraph).build
          ((κ + 1 : Nat) : Int)
        else { G with mx_level := max G.mx_level ((κ + 1 : Nat) : Int) }) := ⟨_, rfl⟩
  rw [← hG2] at h
  have hadj2 : ∀ l x, (viewOf G2 tss).adj l x = (viewOf G tss).adj l x := by
    intro l x
    rw [hG2]
    split
    · rw [build_adj]; rfl
    · rfl
  cases h3 : G2.adjErase (κ : Int) a b with
  | none => rw [h3] at h; exact Option.noConfusion h
  | some G3 =>
  rw [h3, Option.some_bind] at h
  cases h4 : G3.adjErase (κ : Int) b a with
  | none => rw [h4] at h; exact Option.noConfusion h
  | some G4 =>
  rw [h4, Option.some_bind] at h
  cases h5 : G4.adjInsert ((κ + 1 : Nat) : Int) a b with
  | none => rw [h5] at h; exact Option.noConfusion h
  | some G5 =>
  rw [h5, Option.some_bind] at h
  cases h6 : G5.adjInsert ((κ + 1 : Nat) : Int) b a with
  | none => rw [h6] at h; exact Option.noConfusion h
  | some G6 =>
  rw [h6, Option.some_bind] at h
  cases h7 : G6.selfNode ((κ + 1 : Nat) : Int) a with
  | none => rw [h7] at h; exact Option.noConfusion h
  | some r7 =>
  obtain ⟨G7, ffu⟩ := r7
  rw [h7, Option.some_bind] at h
  simp only at h
  cases h8 : raise_adjacent G7.heap ffu with
  | none => rw [h8] at h; exact Option.noConfusion h
  | some hp1 =>
  rw [h8, Option.some_bind] at h
  cases h9 : ({ G7 with heap := hp1 } : DynamicGraph).selfNode ((κ + 1 : Nat) : Int) b with
  | none => rw [h9] at h; exact Option.noConfusion h
  | some r9 =>
  obtain ⟨G9, ffto⟩ := r9
  rw [h9, Option.some_bind] at h
  simp only at h
  cases h10 : raise_adjacent G9.heap ffto with
  | none => rw [h10] at h; exact Option.noConfusion h
  | some hp2 =>
  rw [h10, Option.some_bind] at h
  have k1 : CandKeep S κ (viewOf G2 tss) (viewOf G4 tss) := erase2_keep hab hba tss h3 h4
  have k0 : CandKeep S κ (viewOf G tss) (viewOf G2 tss) := CandKeep.of_adj (hadj2 κ)
  have hne : ¬ (κ = κ + 1) := by omega
  have k2 : ∀ x, (viewOf G1 tss).adj κ x = (viewOf G4 tss).adj κ x := by
    intro x
    rw [clearIfEmpty_adj tss h κ x]
    show (viewOf G9 tss).adj κ x = _
    rw [selfNode_adj tss h9 κ x]
    show (viewOf G7 tss).adj κ x = _
    rw [selfNode_adj tss h7 κ x, adjInsert_adj tss h6 κ x, if_neg (fun e => hne e.1),
      adjInsert_adj tss h5 κ x, if_neg (fun e => hne e.1)]
  exact (k0.trans_keep k1).trans_keep (CandKeep.of_adj k2)

/-- The second loop of `BruteforceAdjacentEdges` over neighbours related to `a` keeps the
other pairs of level `κ`. -/
theorem promote_adjacent_keep {S : Int → Int → Prop} {κ : Nat} {a : Int}
    (tss : List (List Tree)) :
    ∀ (todo : List Int) (G G1 : DynamicGraph), (∀ b ∈ todo, S a b ∧ S b a) →
      promote_adjacent (κ : Int) a todo G = some G1 →
      CandKeep S κ (viewOf G tss) (viewOf G1 tss)
  | [], G, G1, _, h => by
    simp only [promote_adjacent] at h
    cases Option.some.inj h
    exact CandKeep.refl_keep _ _ _
  | b :: rest, G, G1, hS, h => by
    simp only [promote_adjacent] at h
    cases h1 : promote_nontree_edge (κ : Int) a b G with
    | none => rw [h1] at h; exact Option.noConfusion h
    | some G2 =>
      rw [h1, Option.some_bind] at h
      have hb := hS b (List.mem_cons_self _ _)
      exact (promote_nontree_edge_keep hb.1 hb.2 tss h1).trans_keep
        (promote_adjacent_keep tss rest G2 G1
          (fun c hc => hS c (List.mem_cons_of_mem _ hc)) h)

/-- The block of `BruteforceAdjacentEdges` that visits a vertex: either it finds nothing,
the vertex had no replacement edge and the replacement edges of the other vertices stay; or
it returns a replacement edge of the vertex. -/
theorem visit_adjacent_first {E : List (Int × Int)} {u v : Int} {κ : Nat} {G : DynamicGraph}
    {tss : List (List Tree)} {D : Set Nat} (hR : Rep G tss D) {t0 : Tree}
    (ht0 : t0 ∈ treesAt tss κ) {p : Nat} (hp : p ∈ t0.toList) {nd : Node}
    (hg : G.heap.get p = some nd) (hf : nd.is_has_adjacent = true)
    (hA : Abs (viewOf G tss) (Par.search E u v κ none))
    {G3 : DynamicGraph} {res : Int × Int} (hv : visit_adjacent G nd κ = some (G3, res)) :
    ∃ a, keyOf G.heap p = (a, a) ∧ 0 ≤ a ∧
      ((res = (-1, -1) ∧
          CandKeep (SameT ((viewOf G tss).tours 0)) κ (viewOf G tss) (viewOf G3 tss) ∧
          ¬ CandV (viewOf G tss) κ a) ∨
        (res.1 = a ∧ res.2 ∈ (viewOf G tss).adj κ a ∧
          ¬ SameT ((viewOf G tss).tours 0) res.2 a)) := by
  have hpn : p ∈ nodesOf (treesAt tss κ) := mem_nodesOf.mpr ⟨t0, ht0, hp⟩
  have hdat := hR.dat_node hpn hg
  rw [hf] at hdat
  obtain ⟨a, b, hkey⟩ : ∃ a b, nd.key = (a, b) := ⟨nd.key.1, nd.key.2, rfl⟩
  rw [hkey] at hdat
  have hab : a = b := by
    by_contra hne
    have := (hA.dedge κ a b _ true _ hne hdat).1
    exact Bool.noConfusion this
  subst hab
  have hkp : keyOf G.heap p = (a, a) := (keyOf_of_get hg).trans hkey
  have hka : (a, a) ∈ tourKeys G.heap t0 := mem_tourKeys.mpr ⟨p, hp, hkp⟩
  have hs1 : tourKeys G.heap t0 ∈ (viewOf G tss).tours κ := mem_view_tours.mpr ⟨t0, ht0, rfl⟩
  have hl : κ < (viewOf G tss).L := hA.level_in (hA.pefact u v κ rfl).2.2.1
  have har : 0 ≤ a ∧ a < (viewOf G tss).n :=
    (hA.verts κ hl a).mp (List.mem_flatten.mpr ⟨_, hs1, hka⟩)
  have ha0 : (a, a) ∈ ((viewOf G tss).tours 0).flatten := (hA.verts 0 hA.pos_L a).mpr har
  obtain ⟨F, hF⟩ := hR.forest_of_tree ht0
  have hforest : G.forest (κ : Int) = some F := by rw [forest_cast]; exact hF
  have hxs : F.adjacent_edges a = (viewOf G tss).adj κ a := (viewOf_adj hF a).symm
  have hx0 : ∀ x ∈ (viewOf G tss).adj κ a, (x, x) ∈ ((viewOf G tss).tours 0).flatten := by
    intro x hx
    obtain ⟨-, -, -, h1, h2, -, -⟩ := hA.rngN a x _ (hA.adj_sound κ a x hx)
    exact (hA.verts 0 hA.pos_L x).mpr ⟨h1, h2⟩
  refine ⟨a, hkp, har.1, ?_⟩
  rcases scan_adjacent_spec hR κ ha0 ((viewOf G tss).adj κ a) [] hx0 with
    ⟨hscan, hall⟩ | ⟨pre, b, suf, hsplit, hpre, hnb, hscan⟩
  · left
    simp only [visit_adjacent, hkey, hforest, Option.some_bind, hxs, hscan,
      List.nil_append] at hv
    cases h2 : promote_adjacent (κ : Int) a ((viewOf G tss).adj κ a) G with
    | none => rw [h2] at hv; exact Option.noConfusion hv
    | some G2 =>
      rw [h2, Option.some_bind] at hv
      cases h3 : G2.clearIfEmpty (κ : Int) a false with
      | none => rw [h3] at hv; exact Option.noConfusion hv
      | some G4 =>
        rw [h3, Option.some_bind] at hv
        obtain ⟨e1, e2⟩ := Prod.mk.inj (Option.some.inj hv)
        subst e1
        refine ⟨e2.symm, ?_, ?_⟩
        · exact (promote_adjacent_keep tss _ G G2
            (fun x hx => ⟨(hall x hx).symm_same, hall x hx⟩) h2).trans_keep
            (CandKeep.of_adj (fun x => clearIfEmpty_adj tss h3 κ x))
        · rintro ⟨x, hx, hnx⟩
          exact hnx (hall x hx)
  · right
    have hb : b ∈ (viewOf G tss).adj κ a := by
      rw [hsplit]; exact List.mem_append_right _ (List.mem_cons_self _ _)
    simp only [visit_adjacent, hkey, hforest, Option.some_bind, hxs, hscan,
      List.nil_append] at hv
    cases h5 : take_candidate (κ : Int) a b G with
    | none => rw [h5] at hv; exact Option.noConfusion hv
    | some G5 =>
      rw [h5, Option.some_bind, Option.some_bind] at hv
      cases h2 : promote_adjacent (κ : Int) a pre G5 with
      | none => rw [h2] at hv; exact Option.noConfusion hv
      | some G2 =>
        rw [h2, Option.some_bind] at hv
        cases h3 : G2.clearIfEmpty (κ : Int) a false with
        | none => rw [h3] at hv; exact Option.noConfusion hv
        | some G4 =>
          rw [h3, Option.some_bind] at hv
          obtain ⟨-, e2⟩ := Prod.mk.inj (Option.some.inj hv)
          rw [← e2]
          exact ⟨rfl, hb, hnb⟩

theorem Tree.mem_preList {q : Nat} : ∀ {t : Tree}, q ∈ t.preList ↔ q ∈ t.toList
  | .nil => by simp [Tree.preList, Tree.toList]
  | .node l p r => by
    simp only [Tree.preList, Tree.toList, List.mem_cons, List.mem_append,
      Tree.mem_preList (t := l), Tree.mem_preList (t := r)]
    constructor
    · rintro (h | h | h)
      · exact Or.inr (Or.inl h)
      · exact Or.inl h
      · exact Or.inr (Or.inr h)
    · rintro (h | h | h)
      · exact Or.inr (Or.inl h)
      · exact Or.inl h
      · exact Or.inr (Or.inr h)

/-- A node without the adjacency flag is not the self-node of a vertex with a replacement
edge. -/
theorem no_cand_of_flag {G : DynamicGraph} {tss : List (List Tree)} {D : Set Nat} {P : Par}
    (hR : Rep G tss D) (hA : Abs (viewOf G tss) P) {κ : Nat} {q : Nat}
    (hq : q ∈ nodesOf (treesAt tss κ)) {nd : Node} (hg : G.heap.get q = some nd)
    (hm : nd.is_has_adjacent = false) (a : Int) (hk : keyOf G.heap q = (a, a)) :
    ¬ CandV (viewOf G tss) κ a := by
  rintro ⟨b, hb, -⟩
  have hd := hR.dat_node hq hg
  rw [← keyOf_of_get hg, hk, hm] at hd
  have := (hA.dself κ a _ _ _ hd).2.1 (List.ne_nil_of_mem hb)
  exact Bool.noConfusion this

theorem CandV.of_keep {V V1 : View} {κ : Nat} (ht : V1.tours = V.tours)
    (hk : CandKeep (SameT (V.tours 0)) κ V V1) (a : Int) : CandV V1 κ a ↔ CandV V κ a := by
  constructor
  · rintro ⟨b, hb, hn⟩
    rw [ht] at hn
    exact ⟨b, (hk a b hn).mp hb, hn⟩
  · rintro ⟨b, hb, hn⟩
    exact ⟨b, (hk a b hn).mpr hb, by rw [ht]; exact hn⟩

/-- Method `BruteforceAdjacentEdges` on a subtree of the smaller tree, entered without a
result: either it returns without one, no node of the subtree was the self-node of a vertex
with a replacement edge and the replacement edges of all vertices stay; or the result is a
replacement edge of the first node of the subtree, in the order node, left subtree, right
subtree, that is the self-node of a vertex with a replacement edge. -/
theorem Bruteforce_first {E : List (Int × Int)} {u v : Int} {κ : Nat} {t0 : Tree}
    {tss : List (List Tree)} :
    ∀ (s : Tree) (f : Nat) (G : DynamicGraph) (D : Set Nat),
      s.size ≤ f → Tree.Sub s t0 → Rep G tss D → t0 ∈ treesAt tss κ →
      (∀ p ∈ s.toList, p ∉ D) →
      Abs (viewOf G tss) (Par.search E u v κ none) →
      Up1 (viewOf G tss) κ (tourKeys G.heap t0) →
      ∀ G1 res1, BruteforceAdjacentEdges f G s.root (-1, -1) κ = some (G1, res1) →
        (res1 = (-1, -1) ∧
          CandKeep (SameT ((viewOf G tss).tours 0)) κ (viewOf G tss) (viewOf G1 tss) ∧
          ∀ q ∈ s.preList, ∀ a, keyOf G.heap q = (a, a) → ¬ CandV (viewOf G tss) κ a) ∨
        (∃ pre q suf, s.preList = pre ++ q :: suf ∧
          (∀ x ∈ pre, ∀ a, keyOf G.heap x = (a, a) → ¬ CandV (viewOf G tss) κ a) ∧
          keyOf G.heap q = (res1.1, res1.1) ∧ 0 ≤ res1.1 ∧
          res1.2 ∈ (viewOf G tss).adj κ res1.1 ∧
          ¬ SameT ((viewOf G tss).tours 0) res1.2 res1.1)
  | .nil, f, G, D, _, _, _, _, _, _, _, G1, res1, hB => by
    left
    rw [Tree.root, Bruteforce_none] at hB
    obtain ⟨e1, e2⟩ := Prod.mk.inj (Option.some.inj hB)
    subst e1
    exact ⟨e2.symm, CandKeep.refl_keep _ _ _, fun q hq => by simp [Tree.preList] at hq⟩
  | .node l p r, 0, _, _, hf, _, _, _, _, _, _, _, _, _ => by
    simp [Tree.size] at hf
  | .node l p r, f + 1, G, D, hf, hsub, hR, ht0, hsD, hA, hU, G1, res1, hB => by
    obtain ⟨F, hF⟩ := hR.forest_of_tree ht0
    have hshape0 : ShapeU G.heap t0 := ((hR.shape κ F hF).shape t0 ht0).1
    have hnd0 : t0.toList.Nodup := (hR.shape κ F hF).nodup_one ht0
    obtain ⟨nd, hg, hl, hr, -, -, -, -, -⟩ := hsub.shape hshape0
    have hp0 : p ∈ t0.toList := hsub.mem (by simp [Tree.toList])
    obtain ⟨hpl, hpr⟩ := nodup_node (hsub.nodup hnd0)
    obtain ⟨hsubl, hsubr⟩ := hsub.of_node
    have hsz : l.size ≤ f ∧ r.size ≤ f := by
      simp only [Tree.size] at hf
      omega
    have hmem : ∀ q, q ∈ l.toList ∨ q ∈ r.toList → q ∈ (Tree.node l p r).toList := by
      intro q hq
      simp only [Tree.toList, List.mem_append, List.mem_cons]
      rcases hq with hq | hq
      · exact Or.inl hq
      · exact Or.inr (Or.inr hq)
    by_cases hagg : nd.size_of_adjacent = true
    swap
    · left
      have hB1 : BruteforceAdjacentEdges (f + 1) G (some p) (-1, -1) κ = some (G, (-1, -1)) := by
        simp only [BruteforceAdjacentEdges, ne_eq, not_true_eq_false, if_false, hg, hagg,
          Bool.false_eq_true]
      obtain ⟨e1, e2⟩ := Prod.mk.inj (Option.some.inj (hB1.symm.trans hB))
      subst e1
      refine ⟨e2.symm, CandKeep.refl_keep _ _ _, fun q hq a hk => ?_⟩
      have hq1 : q ∈ (Tree.node l p r).toList := Tree.mem_preList.mp hq
      have hagg1 : nd.size_of_adjacent = false := by
        cases h : nd.size_of_adjacent
        · rfl
        · exact absurd h hagg
      obtain ⟨ndq, hgq, hmq⟩ := agg_false_adj (.node l p r) (hsub.shape hshape0)
        (fun x hx => hR.cons κ x (mem_nodesOf.mpr ⟨t0, ht0, hsub.mem hx⟩) (hsD x hx))
        (by simp only [Tree.root, get_size_adjacent, hg, Option.map_some', hagg1]) q hq1
      exact no_cand_of_flag hR hA (mem_nodesOf.mpr ⟨t0, ht0, hsub.mem hq1⟩) hgq hmq a hk
    · have hstep : ∃ G4 res2,
          (if nd.is_has_adjacent = true then visit_adjacent G nd κ else some (G, (-1, -1))) =
            some (G4, res2) ∧
          Rep G4 tss (D ∪ {p}) ∧ Abs (viewOf G4 tss) (Par.search E u v κ (candidate res2)) ∧
          StepB κ (viewOf G tss) (viewOf G4 tss) ∧
          ((res2 = (-1, -1) ∧
              CandKeep (SameT ((viewOf G tss).tours 0)) κ (viewOf G tss) (viewOf G4 tss) ∧
              ∀ a, keyOf G.heap p = (a, a) → ¬ CandV (viewOf G tss) κ a) ∨
            (keyOf G.heap p = (res2.1, res2.1) ∧ 0 ≤ res2.1 ∧
              res2.2 ∈ (viewOf G tss).adj κ res2.1 ∧
              ¬ SameT ((viewOf G tss).tours 0) res2.2 res2.1)) := by
        by_cases hflag : nd.is_has_adjacent = true
        · rw [if_pos hflag]
          obtain ⟨G4, res2, h4, hR4, hA4, hS4, -⟩ :=
            visit_adjacent_spec hR ht0 hp0 hg hflag hA hU
          obtain ⟨a, hka, ha0, hc⟩ := visit_adjacent_first hR ht0 hp0 hg hflag hA h4
          refine ⟨G4, res2, h4, hR4, hA4, hS4, ?_⟩
          rcases hc with ⟨h1, h2, h3⟩ | ⟨h1, h2, h3⟩
          · left
            refine ⟨h1, h2, fun a1 hk1 => ?_⟩
            rw [hka] at hk1
            rw [← (Prod.mk.inj hk1).1]
            exact h3
          · right
            rw [h1]
            exact ⟨hka, ha0, h2, h3⟩
        · rw [if_neg hflag]
          have hflag1 : nd.is_has_adjacent = false := by
            cases h : nd.is_has_adjacent
            · rfl
            · exact absurd h hflag
          refine ⟨G, (-1, -1), rfl, hR.mono Set.subset_union_left,
            by rw [candidate_none]; exact hA, StepB.refl_stepB _ _, Or.inl ⟨rfl,
              CandKeep.refl_keep _ _ _, fun a hk => ?_⟩⟩
          exact no_cand_of_flag hR hA (mem_nodesOf.mpr ⟨t0, ht0, hp0⟩) hg hflag1 a hk
      obtain ⟨G4, res2, h4, hR4, hA4, hS4, hC4⟩ := hstep
      have hkeys4 : ∀ q ∈ t0.toList, keyOf G4.heap q = keyOf G.heap q :=
        fun q hq => keyOf_of_view rfl (congrFun hS4.1 κ) ht0 hq
      have htk4 : tourKeys G4.heap t0 = tourKeys G.heap t0 := List.map_congr_left hkeys4
      obtain ⟨F4, hF4⟩ := hR4.forest_of_tree ht0
      obtain ⟨nd1, hg1, hl1, -, -, -, -, -, -⟩ :=
        hsub.shape ((hR4.shape κ F4 hF4).shape t0 ht0).1
      have hD4 : ∀ q ∈ l.toList, q ∉ D ∪ {p} := by
        intro q hq hqD
        rcases hqD with hqD | hqD
        · exact hsD q (hmem q (Or.inl hq)) hqD
        · rw [Set.mem_singleton_iff.mp hqD] at hq; exact hpl hq
      have hU4 : Up1 (viewOf G4 tss) κ (tourKeys G4.heap t0) := by
        rw [htk4]; exact hU.step hS4
      obtain ⟨G5, res3, h5, hR5, hA5, hS5, hK5, -⟩ :=
        Bruteforce_spec l f G4 (D ∪ {p}) res2 hsz.1 hsubl hR4 ht0 hD4 hA4 hU4
      have hS45 := hS4.trans_stepB hS5
      have hkeys5 : ∀ q ∈ t0.toList, keyOf G5.heap q = keyOf G.heap q :=
        fun q hq => keyOf_of_view rfl (congrFun hS45.1 κ) ht0 hq
      have htk5 : tourKeys G5.heap t0 = tourKeys G.heap t0 := List.map_congr_left hkeys5
      obtain ⟨F5, hF5⟩ := hR5.forest_of_tree ht0
      obtain ⟨nd2, hg2, -, hr2, -, -, -, -, -⟩ :=
        hsub.shape ((hR5.shape κ F5 hF5).shape t0 ht0).1
      have hD5 : ∀ q ∈ r.toList, q ∉ D ∪ {p} := by
        intro q hq hqD
        rcases hqD with hqD | hqD
        · exact hsD q (hmem q (Or.inr hq)) hqD
        · rw [Set.mem_singleton_iff.mp hqD] at hq; exact hpr hq
      have hU5 : Up1 (viewOf G5 tss) κ (tourKeys G5.heap t0) := by
        rw [htk5]; exact hU.step hS45
      obtain ⟨G6, res4, h6, hR6, hA6, hS6, hK6, -⟩ :=
        Bruteforce_spec r f G5 (D ∪ {p}) res3 hsz.2 hsubr hR5 ht0 hD5 hA5 hU5
      obtain ⟨h2, hup, -, hR7, hV7, -⟩ := hR6.update_up_rep ht0 hp0
      have hB1 : BruteforceAdjacentEdges (f + 1) G (some p) (-1, -1) κ =
          some ({ G6 with heap := h2 }, res4) := by
        simp only [BruteforceAdjacentEdges, ne_eq, not_true_eq_false, if_false, hg, hagg,
          if_true, h4, Option.some_bind, hg1, hl1, h5, hg2, hr2, h6, hup]
      obtain ⟨e1, e2⟩ := Prod.mk.inj (Option.some.inj (hB1.symm.trans hB))
      subst e1
      subst e2
      rw [hV7]
      rcases hC4 with ⟨e2, hk4, hn4⟩ | ⟨hq4, h04, hb4, hs4⟩
      · -- nothing at the node itself
        subst e2
        rw [candidate_none] at hA4
        have ht4 : (viewOf G4 tss).tours = (viewOf G tss).tours := hS4.1
        have hcand4 : ∀ a, CandV (viewOf G4 tss) κ a ↔ CandV (viewOf G tss) κ a :=
          fun a => CandV.of_keep ht4 hk4 a
        rcases Bruteforce_first l f G4 (D ∪ {p}) hsz.1 hsubl hR4 ht0 hD4 hA4 hU4 G5 res3 h5
          with ⟨e3, hk5, hn5⟩ | ⟨pre, q, suf, hsplit, hpre, hq5, h05, hb5, hs5⟩
        · -- nothing in the left subtree
          subst e3
          rw [candidate_none] at hA5
          rw [ht4] at hk5
          have hk45 := hk4.trans_keep hk5
          have ht5 : (viewOf G5 tss).tours = (viewOf G tss).tours := hS45.1
          have hcand5 : ∀ a, CandV (viewOf G5 tss) κ a ↔ CandV (viewOf G tss) κ a :=
            fun a => CandV.of_keep ht5 hk45 a
          rcases Bruteforce_first r f G5 (D ∪ {p}) hsz.2 hsubr hR5 ht0 hD5 hA5 hU5 G6 res4 h6
            with ⟨e4, hk6, hn6⟩ | ⟨pre, q, suf, hsplit, hpre, hq6, h06, hb6, hs6⟩
          · left
            rw [ht5] at hk6
            refine ⟨e4, hk45.trans_keep hk6, fun q hq a hk => ?_⟩
            simp only [Tree.preList, List.mem_cons, List.mem_append] at hq
            rcases hq with rfl | hq | hq
            · exact hn4 a hk
            · have hq0 : q ∈ t0.toList := hsubl.mem (Tree.mem_preList.mp hq)
              exact fun hc => hn5 q hq a ((hkeys4 q hq0).trans hk) ((hcand4 a).mpr hc)
            · have hq0 : q ∈ t0.toList := hsubr.mem (Tree.mem_preList.mp hq)
              exact fun hc => hn6 q hq a ((hkeys5 q hq0).trans hk) ((hcand5 a).mpr hc)
          · right
            have hq0 : q ∈ t0.toList :=
              hsubr.mem (Tree.mem_preList.mp (by rw [hsplit]; simp))
            refine ⟨p :: (l.preList ++ pre), q, suf, ?_, ?_, (hkeys5 q hq0).symm.trans hq6,
              h06, ?_, by rw [← ht5]; exact hs6⟩
            · simp only [Tree.preList, hsplit, List.cons_append, List.append_assoc]
            · intro x hx a hk
              simp only [List.mem_cons, List.mem_append] at hx
              rcases hx with rfl | hx | hx
              · exact hn4 a hk
              · have hx0 : x ∈ t0.toList := hsubl.mem (Tree.mem_preList.mp hx)
                exact fun hc => hn5 x hx a ((hkeys4 x hx0).trans hk) ((hcand4 a).mpr hc)
              · have hx0 : x ∈ t0.toList :=
                  hsubr.mem (Tree.mem_preList.mp (by rw [hsplit]; simp [hx]))
                exact fun hc => hpre x hx a ((hkeys5 x hx0).trans hk) ((hcand5 a).mpr hc)
            · rw [ht5] at hs6
              exact (hk45 _ _ hs6).mp hb6
        · -- found in the left subtree
          right
          have hne3 : res3 ≠ (-1, -1) := by
            intro h
            have := (Prod.mk.inj h).1
            omega
          have e4 : res4 = res3 := hK6 hne3
          rw [e4]
          have hq0 : q ∈ t0.toList :=
            hsubl.mem (Tree.mem_preList.mp (by rw [hsplit]; simp))
          refine ⟨p :: pre, q, suf ++ r.preList, ?_, ?_, (hkeys4 q hq0).symm.trans hq5, h05,
            ?_, by rw [← ht4]; exact hs5⟩
          · simp only [Tree.preList, hsplit, List.cons_append, List.append_assoc]
          · intro x hx a hk
            simp only [List.mem_cons] at hx
            rcases hx with rfl | hx
            · exact hn4 a hk
            · have hx0 : x ∈ t0.toList :=
                hsubl.mem (Tree.mem_preList.mp (by rw [hsplit]; simp [hx]))
              exact fun hc => hpre x hx a ((hkeys4 x hx0).trans hk) ((hcand4 a).mpr hc)
          · rw [ht4] at hs5
            exact (hk4 _ _ hs5).mp hb5
      · -- found at the node itself
        right
        have hne2 : res2 ≠ (-1, -1) := by
          intro h
          have := (Prod.mk.inj h).1
          omega
        have e3 : res3 = res2 := hK5 hne2
        have e4 : res4 = res2 := by
          rw [← e3]
          exact hK6 (by rw [e3]; exact hne2)
        rw [e4]
        exact ⟨[], p, l.preList ++ r.preList, rfl, fun x hx => absurd hx (List.not_mem_nil _),
          hq4, h04, hb4, hs4⟩

theorem preorderOf_shape {h : Heap} : ∀ (t : Tree) (f : Nat), ShapeU h t → t.size ≤ f →
    preorderOf f h t.root = t.preList
  | .nil, f, _, _ => by cases f <;> rfl
  | .node l p r, 0, _, hf => by simp [Tree.size] at hf
  | .node l p r, f + 1, hs, hf => by
    obtain ⟨nd, hg, hl, hr, -, hsl, hsr, -, -⟩ := hs
    have hsz : l.size ≤ f ∧ r.size ≤ f := by
      simp only [Tree.size] at hf
      omega
    show preorderOf (f + 1) h (some p) = p :: (l.preList ++ r.preList)
    simp only [preorderOf, hg, hl, hr]
    rw [preorderOf_shape l f hsl hsz.1, preorderOf_shape r f hsr hsz.2]

theorem inorderOf_shape {h : Heap} : ∀ (t : Tree) (f : Nat), ShapeU h t → t.size ≤ f →
    inorderOf f h t.root = t.toList
  | .nil, f, _, _ => by cases f <;> rfl
  | .node l p r, 0, _, hf => by simp [Tree.size] at hf
  | .node l p r, f + 1, hs, hf => by
    obtain ⟨nd, hg, hl, hr, -, hsl, hsr, -, -⟩ := hs
    have hsz : l.size ≤ f ∧ r.size ≤ f := by
      simp only [Tree.size] at hf
      omega
    show inorderOf (f + 1) h (some p) = l.toList ++ p :: r.toList
    simp only [inorderOf, hg, hl, hr]
    rw [inorderOf_shape l f hsl hsz.1, inorderOf_shape r f hsr hsz.2]

/-- The test `replaces` on a neighbour of level `κ` says that the two ends lie on different
tours of forest 0. -/
theorem replaces_iff {G : DynamicGraph} {tss : List (List Tree)} {D : Set Nat} {P : Par}
    (hR : Rep G tss D) (hA : Abs (viewOf G tss) P) {κ : Nat} {a b : Int}
    (hb : b ∈ (viewOf G tss).adj κ a) :
    G.replaces a b = true ↔ ¬ SameT ((viewOf G tss).tours 0) b a := by
  obtain ⟨-, h1, h2, h3, h4, -, -⟩ := hA.rngN a b _ (hA.adj_sound κ a b hb)
  have ha0 : (a, a) ∈ ((viewOf G tss).tours 0).flatten := (hA.verts 0 hA.pos_L a).mpr ⟨h1, h2⟩
  have hb0 : (b, b) ∈ ((viewOf G tss).tours 0).flatten := (hA.verts 0 hA.pos_L b).mpr ⟨h3, h4⟩
  obtain ⟨c, hconn, hc⟩ := hR.connectedAt_spec (l := 0) hb0 ha0
  rw [cast_zero_int] at hconn
  simp only [DynamicGraph.replaces, hconn]
  rw [← hc]
  cases c <;> simp

/-- The executable test `candidateNode` is the property of being the self-node of a vertex
with a replacement edge. -/
theorem candidateNode_iff {G : DynamicGraph} {tss : List (List Tree)} {D : Set Nat} {P : Par}
    (hR : Rep G tss D) (hA : Abs (viewOf G tss) P) (κ : Nat) (q : Nat) :
    G.candidateNode (κ : Int) q = true ↔
      ∃ a, keyOf G.heap q = (a, a) ∧ CandV (viewOf G tss) κ a := by
  simp only [DynamicGraph.candidateNode, Bool.and_eq_true, decide_eq_true_eq, List.any_eq_true,
    adjAt_view G tss]
  constructor
  · rintro ⟨hk, b, hb, hr⟩
    refine ⟨(keyOf G.heap q).1, Prod.ext rfl hk.symm, b, hb, (replaces_iff hR hA hb).mp hr⟩
  · rintro ⟨a, hk, b, hb, hn⟩
    rw [hk]
    exact ⟨rfl, b, hb, (replaces_iff hR hA hb).mpr hn⟩

theorem candidateNode_false {G : DynamicGraph} {tss : List (List Tree)} {D : Set Nat}
    {P : Par} (hR : Rep G tss D) (hA : Abs (viewOf G tss) P) (κ : Nat) (q : Nat)
    (h : ∀ a, keyOf G.heap q = (a, a) → ¬ CandV (viewOf G tss) κ a) :
    G.candidateNode (κ : Int) q = false := by
  cases hc : G.candidateNode (κ : Int) q with
  | false => rfl
  | true =>
    obtain ⟨a, hk, hcand⟩ := (candidateNode_iff hR hA κ q).mp hc
    exact absurd hcand (h a hk)

/-- The state in which `FindNewEdge` calls `BruteforceAdjacentEdges` at one level. -/
theorem search_level_entry {E : List (Int × Int)} {u v : Int} {κ : Nat} {G : DynamicGraph}
    {tss : List (List Tree)} (hR : Rep G tss ∅)
    (hA : Abs (viewOf G tss) (Par.search E u v κ none)) {t1 : Tree}
    (ht1 : t1 ∈ treesAt tss κ)
    (hT1 : 2 ^ (κ + 1) * (selfCount (tourKeys G.heap t1) : Int) ≤ G.n_) :
    ∃ G3 tss3, IncreaseLevel (G.heap.next + 1) G t1.root = some G3 ∧ Rep G3 tss3 ∅ ∧
      t1 ∈ treesAt tss3 κ ∧ Abs (viewOf G3 tss3) (Par.search E u v κ none) ∧
      Up1 (viewOf G3 tss3) κ (tourKeys G3.heap t1) := by
  obtain ⟨F, hF⟩ := hR.forest_of_tree ht1
  have hs := hR.shape κ F hF
  have hsz : t1.size ≤ G.heap.next :=
    ShapeU.size_le_next hR.wf (hs.shape t1 ht1).1 (hs.nodup_one ht1)
  obtain ⟨G3, tss3, hI, hR3, ht3, hA3, hSI, hNM⟩ :=
    IncreaseLevel_spec t1 (G.heap.next + 1) G tss ∅ (by omega) (Tree.Sub.refl t1) hR ht1
      (fun _ _ h => h) (fun p hp => False.elim hp) hA hT1
  have ht1' : t1 ∈ treesAt tss3 κ := by rw [ht3]; exact ht1
  have hkey3 : ∀ p ∈ t1.toList, keyOf G3.heap p = keyOf G.heap p :=
    fun p hp => keyOf_of_view ht3 hSI.1 ht1 hp
  have hU : Up1 (viewOf G3 tss3) κ (tourKeys G3.heap t1) :=
    hA3.up1 (mem_view_tours.mpr ⟨t1, ht1', rfl⟩) (fun k hk => by
      obtain ⟨p, hp, rfl⟩ := mem_tourKeys.mp hk
      rw [hkey3 p hp]
      exact hNM p hp)
  exact ⟨G3, tss3, hI, hR3, ht1', hA3, hU⟩

/-- The part of `FindNewEdge` before the call of `BruteforceAdjacentEdges`, and the call. -/
theorem searchEntry_spec {E : List (Int × Int)} {u v : Int} {κ : Nat} {G : DynamicGraph}
    {tss : List (List Tree)} (hR : Rep G tss ∅)
    (hA : Abs (viewOf G tss) (Par.search E u v κ none)) :
    ∃ G3 tss3 t1, searchEntry G u v (κ : Int) = some (G3, t1.root) ∧ Rep G3 tss3 ∅ ∧
      t1 ∈ treesAt tss3 κ ∧ Abs (viewOf G3 tss3) (Par.search E u v κ none) ∧
      Up1 (viewOf G3 tss3) κ (tourKeys G3.heap t1) ∧
      ∃ G4 tss4 res,
        BruteforceAdjacentEdges (G3.heap.next + 1) G3 t1.root (-1, -1) κ = some (G4, res) ∧
        Rep G4 tss4 ∅ ∧
        (res = (-1, -1) → Abs (viewOf G4 tss4) (Par.search E u v ((κ : Int) - 1) none)) := by
  obtain ⟨huv, -, hκmx, hsome⟩ := hA.pefact u v κ rfl
  have hκ : κ < (viewOf G tss).L := hA.level_in hκmx
  obtain ⟨cl, hcl⟩ := Option.isSome_iff_exists.mp hsome
  obtain ⟨-, hu0, hu1, hv0, hv1, -, -⟩ := hA.rngT u v cl hcl
  obtain ⟨tu, htu, hku⟩ := hR.tree_of_vertex hA hκ ⟨hu0, hu1⟩
  obtain ⟨tv, htv, hkv⟩ := hR.tree_of_vertex hA hκ ⟨hv0, hv1⟩
  have hns : ¬ SameT ((viewOf G tss).tours κ) u v := hA.apart (le_refl _)
  have hnv : (v, v) ∉ tourKeys G.heap tu := fun h =>
    hns ⟨_, mem_view_tours.mpr ⟨tu, htu, rfl⟩, hku, h⟩
  obtain ⟨pu, ndu, hsu, hpu, -, -⟩ := hR.selfNode_spec htu hku
  obtain ⟨pv, ndv, hsv, hpv, -, -⟩ := hR.selfNode_spec htv hkv
  obtain ⟨F, hF⟩ := hR.forest_of_tree htu
  have hs := hR.shape κ F hF
  have hszu : tu.size ≤ G.heap.next :=
    ShapeU.size_le_next hR.wf (hs.shape tu htu).1 (hs.nodup_one htu)
  have hszv : tv.size ≤ G.heap.next :=
    ShapeU.size_le_next hR.wf (hs.shape tv htv).1 (hs.nodup_one htv)
  have hlu : lift (G.heap.next + 1) G.heap (some pu) = some tu.root :=
    lift_spec (hs.shape tu htu).1 (hs.shape tu htu).2 hpu (by omega)
  have hlv : lift (G.heap.next + 1) G.heap (some pv) = some tv.root :=
    lift_spec (hs.shape tv htv).1 (hs.shape tv htv).2 hpv (by omega)
  have hgu := (hs.shape tu htu).1.size_root
  have hgv := (hs.shape tv htv).1.size_root
  have hhalf := hA.half rfl (mem_view_tours.mpr ⟨tu, htu, rfl⟩)
    (mem_view_tours.mpr ⟨tv, htv, rfl⟩) hku hkv hnv
  rw [tourKeys_length, tourKeys_length] at hhalf
  by_cases hgt : (tu.size : Int) > (tv.size : Int)
  · obtain ⟨G3, tss3, hI, hR3, ht3, hA3, hU3⟩ :=
      search_level_entry hR hA htv (hhalf.2 (by omega))
    obtain ⟨G3', G4, tss4, res, hI', hB, hR4, -, -, hD4⟩ :=
      search_level hR hA htv (Or.inr hkv) (hhalf.2 (by omega))
    cases Option.some.inj (hI.symm.trans hI')
    refine ⟨G3, tss3, tv, ?_, hR3, ht3, hA3, hU3, G4, tss4, res, hB, hR4, hD4⟩
    simp only [searchEntry, hsu, hsv, hlu, hlv, hgu, hgv, Option.some_bind, if_pos hgt, hI]
  · obtain ⟨G3, tss3, hI, hR3, ht3, hA3, hU3⟩ :=
      search_level_entry hR hA htu (hhalf.1 (by omega))
    obtain ⟨G3', G4, tss4, res, hI', hB, hR4, -, -, hD4⟩ :=
      search_level hR hA htu (Or.inl hku) (hhalf.1 (by omega))
    cases Option.some.inj (hI.symm.trans hI')
    refine ⟨G3, tss3, tu, ?_, hR3, ht3, hA3, hU3, G4, tss4, res, hB, hR4, hD4⟩
    simp only [searchEntry, hsu, hsv, hlu, hlv, hgu, hgv, Option.some_bind, if_neg hgt, hI]

/-- Function `searchEntry` is the part of `FindNewEdge` before the call of
`BruteforceAdjacentEdges`. -/
theorem FindNewEdge_entry (f : Nat) (G : DynamicGraph) (u_ v_ level : Int) :
    FindNewEdge (f + 1) G u_ v_ level false =
      (searchEntry G u_ v_ level).bind fun (G3, root) =>
      (BruteforceAdjacentEdges (G3.heap.next + 1) G3 root (-1, -1) level).bind
        fun (G4, result) =>
      if result = (-1, -1) then
        if level = 0 then some (G4, false)
        else FindNewEdge f G4 u_ v_ (level - 1) false
      else
        let G5 := { G4 with
          spanning_edges_levels :=
            (G4.spanning_edges_levels.set result level).set (result.2, result.1) level,
          not_spanning_edges_levels :=
            (G4.not_spanning_edges_levels.erase result).erase (result.2, result.1) }
        (if 0 ≤ level then add_edge_down result.1 result.2 level level.toNat G5
          else some G5).bind fun G6 => some (G6, true) := by
  simp only [FindNewEdge, searchEntry, Bool.false_eq_true, if_false, Option.bind_assoc,
    Option.some_bind]

/-- Every call of `BruteforceAdjacentEdges` made by `FindNewEdge` is made in a state of the
search invariant, on the root of a tree of the level searched. -/
theorem searchCalls_ind {E : List (Int × Int)} {u v : Int}
    (P : DynamicGraph × Option Nat × Int → Prop)
    (hP : ∀ (κ : Nat) (G3 : DynamicGraph) (tss3 : List (List Tree)) (t1 : Tree),
      Rep G3 tss3 ∅ → t1 ∈ treesAt tss3 κ →
      Abs (viewOf G3 tss3) (Par.search E u v κ none) →
      Up1 (viewOf G3 tss3) κ (tourKeys G3.heap t1) → P (G3, t1.root, (κ : Int))) :
    ∀ (f κ : Nat) (G : DynamicGraph) (tss : List (List Tree)), Rep G tss ∅ →
      Abs (viewOf G tss) (Par.search E u v κ none) →
      ∀ c ∈ searchCalls f G u v (κ : Int), P c
  | 0, _, _, _, _, _, c, hc => by simp [searchCalls] at hc
  | f + 1, κ, G, tss, hR, hA, c, hc => by
    obtain ⟨G3, tss3, t1, hent, hR3, ht3, hA3, hU3, G4, tss4, res, hB, hR4, hD4⟩ :=
      searchEntry_spec hR hA
    simp only [searchCalls, hent, hB, List.mem_cons] at hc
    rcases hc with rfl | hc
    · exact hP κ G3 tss3 t1 hR3 ht3 hA3 hU3
    · by_cases hres : res = (-1, -1)
      · rw [if_pos hres] at hc
        cases κ with
        | zero =>
          rw [if_pos (show ((0 : Nat) : Int) = 0 from rfl)] at hc
          exact absurd hc (List.not_mem_nil _)
        | succ k =>
          have e : ((k + 1 : Nat) : Int) - 1 = (k : Int) := by push_cast; ring
          rw [if_neg (show ¬ (((k + 1 : Nat) : Int) = 0) by omega), e] at hc
          have hD := hD4 hres
          rw [e] at hD
          exact searchCalls_ind P hP f k G4 tss4 hR4 hD c hc
      · rw [if_neg hres] at hc
        exact absurd hc (List.not_mem_nil _)

theorem validFrom_append : ∀ (ops : List Op) (n : Nat) (E : List (Int × Int)) (op : Op),
    validFrom n E (ops ++ [op]) = true →
    validFrom n E ops = true ∧ validOp n (edgesFrom E ops) op = true
  | [], n, E, op, h => by
    simp only [List.nil_append, validFrom, Bool.and_true] at h
    exact ⟨rfl, h⟩
  | o :: rest, n, E, op, h => by
    simp only [List.cons_append, validFrom, Bool.and_eq_true] at h ⊢
    obtain ⟨h1, h2⟩ := validFrom_append rest n _ op h.2
    exact ⟨⟨h.1, h1⟩, h2⟩

/-- The calls of `BruteforceAdjacentEdges` made by `RemoveEdge` on a present edge are made
in states of the search invariant. -/
theorem removeSearches_ind {G : DynamicGraph} {n : Nat} {E : List (Int × Int)}
    (hI : Inv G n E) {u v : Int} (hv : validOp n E (.remove u v) = true)
    (P : DynamicGraph × Option Nat × Int → Prop)
    (hP : ∀ (κ : Nat) (G3 : DynamicGraph) (tss3 : List (List Tree)) (t1 : Tree),
      Rep G3 tss3 ∅ → t1 ∈ treesAt tss3 κ →
      Abs (viewOf G3 tss3) (Par.search E u v κ none) →
      Up1 (viewOf G3 tss3) κ (tourKeys G3.heap t1) → P (G3, t1.root, (κ : Int))) :
    ∀ c ∈ removeSearches G u v, P c := by
  intro c hc
  by_cases hcN : G.not_spanning_edges_levels.count (u, v) ≠ 0
  · simp only [removeSearches, if_pos hcN] at hc
    exact absurd hc (List.not_mem_nil _)
  · have hN : G.not_spanning_edges_levels.find (u, v) = none := by
      cases h : G.not_spanning_edges_levels.find (u, v) with
      | none => rfl
      | some lv =>
        exact absurd ((LevelMap.count_ne_zero _ _).mpr (by rw [h]; rfl)) hcN
    obtain ⟨-, -, -, hp⟩ := validOp_remove hv
    obtain ⟨hn, tss, hR, hA⟩ := hI
    have hT : (G.spanning_edges_levels.find (u, v)).isSome = true := by
      rcases (hA.pres u v).mp hp with h | h
      · exact h
      · have h1 : (G.not_spanning_edges_levels.find (u, v)).isSome = true := h
        rw [hN] at h1
        exact Bool.noConfusion h1
    obtain ⟨cl, hlv0⟩ := Option.isSome_iff_exists.mp hT
    obtain ⟨-, -, -, -, -, hcl0, -⟩ := hA.rngT u v cl hlv0
    obtain ⟨k, rfl⟩ : ∃ k : Nat, cl = (k : Int) := ⟨cl.toNat, int_eq_cast hcl0⟩
    have hcT : G.spanning_edges_levels.count (u, v) ≠ 0 :=
      (LevelMap.count_ne_zero _ _).mpr hT
    obtain ⟨G2, tss2, h2, hR2, hA2, hn2, -⟩ :=
      delete_edge_down_spec k G tss hR (hA.enter_cut hlv0) (le_refl _) hlv0
    have hA2s : Abs (viewOf G2 tss2) (Par.search E u v k none) := by
      refine hA2.mono_par (fun _ _ => rfl) (fun key l => ?_) rfl rfl rfl
        (fun _ => ⟨fun h => Option.noConfusion h, fun h => h.elim⟩) (fun _ _ h => h) rfl rfl
      constructor
      · rintro ⟨h1, h2⟩ (h3 | h3)
        · exact absurd h3 h1
        · exact absurd h3 h2
      · intro h
        refine ⟨fun h1 => ?_, fun h1 => ?_⟩
        · have := h (Or.inl h1); omega
        · have := h (Or.inr h1); omega
    have hcalls : removeSearches G u v = searchCalls (k + 1) G2 u v (k : Int) := by
      simp only [removeSearches, if_neg hcN, if_pos hcT, LevelMap.at_present hlv0,
        if_pos (Int.natCast_nonneg k), Int.toNat_ofNat]
      show (match delete_edge_down u v k G with
        | none => []
        | some G2 => searchCalls (k + 1) G2 u v (k : Int)) = _
      rw [h2]
    rw [hcalls] at hc
    exact searchCalls_ind P hP (k + 1) k G2 tss2 hR2 hA2s c hc

/-- C16, as the code has it: for every valid script on a fresh `DynamicGraph(n)` followed
by a valid `RemoveEdge(u, v)`, every call `BruteforceAdjacentEdges(root, result, level)`
made by `FindNewEdge` returns, and, writing the nodes of the treap under `root` in the
order node, left subtree, right subtree: either no replacement edge is returned and no
node is the self-node of a vertex with a non-tree edge of this level whose other end is
not connected to it in forest 0; or the returned edge `(a, b)` is such an edge of the first
node in that order that is the self-node of a vertex with such an edge. -/
theorem search_first_preorder (out : Nat → Int) (n : Nat) (ops : List Op) (u v : Int)
    (hv : validFrom n [] (ops ++ [.remove u v]) = true) :
    ∃ G, runOps ops (DynamicGraph.new out (n : Int)) = some G ∧
      ∀ G3 root level, (G3, root, level) ∈ removeSearches G u v →
        ∃ G4 res,
          BruteforceAdjacentEdges (G3.heap.next + 1) G3 root (-1, -1) level = some (G4, res) ∧
          ((res = (-1, -1) ∧
              ∀ q ∈ preorderOf (G3.heap.next + 1) G3.heap root,
                G3.candidateNode level q = false) ∨
            (res ≠ (-1, -1) ∧ ∃ pre q suf,
              preorderOf (G3.heap.next + 1) G3.heap root = pre ++ q :: suf ∧
              (∀ x ∈ pre, G3.candidateNode level x = false) ∧
              keyOf G3.heap q = (res.1, res.1) ∧ res.2 ∈ G3.adjAt level res.1 ∧
              G3.replaces res.1 res.2 = true)) := by
  obtain ⟨hv1, hv2⟩ := validFrom_append ops n [] (.remove u v) hv
  obtain ⟨G, hrun, hI⟩ := reach_inv out n ops hv1
  refine ⟨G, hrun, fun G3 root level hc => ?_⟩
  refine removeSearches_ind hI hv2
    (fun c => ∃ G4 res,
      BruteforceAdjacentEdges (c.1.heap.next + 1) c.1 c.2.1 (-1, -1) c.2.2 = some (G4, res) ∧
      ((res = (-1, -1) ∧
          ∀ q ∈ preorderOf (c.1.heap.next + 1) c.1.heap c.2.1,
            c.1.candidateNode c.2.2 q = false) ∨
        (res ≠ (-1, -1) ∧ ∃ pre q suf,
          preorderOf (c.1.heap.next + 1) c.1.heap c.2.1 = pre ++ q :: suf ∧
          (∀ x ∈ pre, c.1.candidateNode c.2.2 x = false) ∧
          keyOf c.1.heap q = (res.1, res.1) ∧ res.2 ∈ c.1.adjAt c.2.2 res.1 ∧
          c.1.replaces res.1 res.2 = true))) ?_ (G3, root, level) hc
  intro κ G3 tss3 t1 hR3 ht1 hA3 hU3
  obtain ⟨F3, hF3⟩ := hR3.forest_of_tree ht1
  have hs3 := hR3.shape κ F3 hF3
  have hshape : ShapeU G3.heap t1 := (hs3.shape t1 ht1).1
  have hsz3 : t1.size ≤ G3.heap.next :=
    ShapeU.size_le_next hR3.wf hshape (hs3.nodup_one ht1)
  obtain ⟨G4, res, hB, -, -, -, -, -⟩ :=
    Bruteforce_spec t1 (G3.heap.next + 1) G3 ∅ (-1, -1) (by omega) (Tree.Sub.refl t1) hR3 ht1
      (fun _ _ h => h) (by rw [candidate_none]; exact hA3) hU3
  have hpre : preorderOf (G3.heap.next + 1) G3.heap t1.root = t1.preList :=
    preorderOf_shape t1 _ hshape (by omega)
  refine ⟨G4, res, hB, ?_⟩
  show (res = (-1, -1) ∧ ∀ q ∈ preorderOf (G3.heap.next + 1) G3.heap t1.root,
      G3.candidateNode (κ : Int) q = false) ∨
    (res ≠ (-1, -1) ∧ ∃ pre q suf,
      preorderOf (G3.heap.next + 1) G3.heap t1.root = pre ++ q :: suf ∧
      (∀ x ∈ pre, G3.candidateNode (κ : Int) x = false) ∧
      keyOf G3.heap q = (res.1, res.1) ∧ res.2 ∈ G3.adjAt (κ : Int) res.1 ∧
      G3.replaces res.1 res.2 = true)
  rw [hpre]
  rcases Bruteforce_first t1 (G3.heap.next + 1) G3 ∅ (by omega) (Tree.Sub.refl t1) hR3 ht1
      (fun _ _ h => h) hA3 hU3 G4 res hB with
    ⟨e, -, hno⟩ | ⟨pre, q, suf, hsplit, hno, hq, h0, hb, hs⟩
  · left
    exact ⟨e, fun q hq => candidateNode_false hR3 hA3 κ q (hno q hq)⟩
  · right
    refine ⟨?_, pre, q, suf, hsplit,
      fun x hx => candidateNode_false hR3 hA3 κ x (hno x hx), hq, ?_, ?_⟩
    · intro h
      have := (Prod.mk.inj h).1
      omega
    · rw [adjAt_view G3 tss3]; exact hb
    · exact (replaces_iff hR3 hA3 hb).mpr hs

theorem search_first_preorder_witness :
    validFrom 4 [] (exScript ++ [.remove 1 2]) = true ∧
    ∃ G, runOps exScript (DynamicGraph.new exPriorities ((4 : Nat) : Int)) = some G ∧
      ∀ G3 root level, (G3, root, level) ∈ removeSearches G 1 2 →
        ∃ G4 res,
          BruteforceAdjacentEdges (G3.heap.next + 1) G3 root (-1, -1) level = some (G4, res) ∧
          ((res = (-1, -1) ∧
              ∀ q ∈ preorderOf (G3.heap.next + 1) G3.heap root,
                G3.candidateNode level q = false) ∨
            (res ≠ (-1, -1) ∧ ∃ pre q suf,
              preorderOf (G3.heap.next + 1) G3.heap root = pre ++ q :: suf ∧
              (∀ x ∈ pre, G3.candidateNode level x = false) ∧
              keyOf G3.heap q = (res.1, res.1) ∧ res.2 ∈ G3.adjAt level res.1 ∧
              G3.replaces res.1 res.2 = true)) :=
  ⟨by decide, search_first_preorder exPriorities 4 exScript 1 2 (by decide)⟩

/-- C16, the claim fails: on four vertices, after the tree edges `{0,1}`, `{2,3}`,
`{1,2}` and the non-tree edges `{0,3}`, `{1,3}`, with the `i`-th node drawn given priority
`i`, `RemoveEdge(1, 2)` makes one call of `BruteforceAdjacentEdges`, at level 0, on the
treap whose sequence (in-order) is `(1,1) (1,0) (0,0) (0,1)`. The self-nodes of the
vertices 1 and 0 both have a replacement edge, and the self-node of vertex 1 comes first in
sequence order, yet the edge returned is `(0, 3)`, incident to vertex 0, whose self-node is
the root of the treap. -/
theorem search_returns_root_candidate :
    validFrom 4 [] (exScript ++ [.remove 1 2]) = true ∧
    (runOps exScript (DynamicGraph.new exPriorities ((4 : Nat) : Int))).map
      (fun G => (removeSearches G 1 2).map (fun c => c.2.2)) = some [0] ∧
    (runOps exScript (DynamicGraph.new exPriorities ((4 : Nat) : Int))).map
      (fun G => (removeSearches G 1 2).map (fun c =>
        (inorderOf (c.1.heap.next + 1) c.1.heap c.2.1).map (keyOf c.1.heap))) =
      some [[(1, 1), (1, 0), (0, 0), (0, 1)]] ∧
    (runOps exScript (DynamicGraph.new exPriorities ((4 : Nat) : Int))).map
      (fun G => (removeSearches G 1 2).map (fun c =>
        (inorderOf (c.1.heap.next + 1) c.1.heap c.2.1).map (c.1.candidateNode c.2.2))) =
      some [[true, false, true, false]] ∧
    (runOps exScript (DynamicGraph.new exPriorities ((4 : Nat) : Int))).map
      (fun G => (removeSearches G 1 2).map (fun c =>
        (preorderOf (c.1.heap.next + 1) c.1.heap c.2.1).map (keyOf c.1.heap))) =
      some [[(0, 0), (1, 1), (1, 0), (0, 1)]] ∧
    (runOps exScript (DynamicGraph.new exPriorities ((4 : Nat) : Int))).map
      (fun G => (removeSearches G 1 2).map (fun c =>
        (BruteforceAdjacentEdges (c.1.heap.next + 1) c.1 c.2.1 (-1, -1) c.2.2).map
          (fun r => r.2))) = some [some (0, 3)] := by
  refine ⟨by decide, ?_, ?_, ?_, ?_, ?_⟩
  · decide!
  · decide!
  · decide!
  · decide!
  · decide!

theorem ShapeU.toC {h : Heap} : ∀ {t : Tree}, ShapeU h t → ShapeC h t
  | .nil, _ => trivial
  | .node _ _ _, hs => by
    obtain ⟨nd, hg, hl, hr, hsz, hsl, hsr, -, -⟩ := hs
    exact ⟨nd, hg, hl, hr, hsz, hsl.toC, hsr.toC⟩

theorem ShapeC.kids_c {h : Heap} : ∀ {t : Tree}, ShapeC h t → ∀ p ∈ t.toList, ∀ nd,
    h.get p = some nd → ∀ c, (nd.left = some c ∨ nd.right = some c) → c ∈ t.toList
  | .nil, _, p, hp, _, _, _, _ => by simp [Tree.toList] at hp
  | .node l x r, hs, p, hp, nd, hg, c, hc => by
    obtain ⟨nd0, hg0, hl0, hr0, -, hsl, hsr⟩ := hs
    simp only [Tree.toList, List.mem_append, List.mem_cons] at hp ⊢
    rcases hp with hp | hp | hp
    · exact Or.inl (ShapeC.kids_c hsl p hp nd hg c hc)
    · subst hp
      rw [hg0] at hg
      cases Option.some.inj hg
      rcases hc with hc | hc
      · exact Or.inl (Tree.root_mem (hl0.symm.trans hc))
      · exact Or.inr (Or.inr (Tree.root_mem (hr0.symm.trans hc)))
    · exact Or.inr (Or.inr (ShapeC.kids_c hsr p hp nd hg c hc))

/-- In a treap with structural parent links every node but the root is the left or right
child of its parent, a node of the treap. -/
theorem ShapeU.parent_linked {h : Heap} : ∀ {t : Tree}, ShapeU h t → ∀ p ∈ t.toList,
    t.root ≠ some p → ∃ nd q nq, h.get p = some nd ∧ nd.parent = some q ∧ q ∈ t.toList ∧
      h.get q = some nq ∧ (nq.left = some p ∨ nq.right = some p)
  | .nil, _, p, hp, _ => by simp [Tree.toList] at hp
  | .node l x r, hs, p, hp, hne => by
    obtain ⟨nd0, hg0, hl0, hr0, -, hsl, hsr, hpl, hpr⟩ := hs
    have hx : x ∈ (Tree.node l x r).toList := by simp [Tree.toList]
    simp only [Tree.toList, List.mem_append, List.mem_cons] at hp
    rcases hp with hp | hp | hp
    · by_cases hroot : l.root = some p
      · obtain ⟨nd, hg, hpar⟩ := hpl p hroot
        exact ⟨nd, x, nd0, hg, hpar, hx, hg0, Or.inl (hl0.trans hroot)⟩
      · obtain ⟨nd, q, nq, hg, hpar, hq, hgq, hc⟩ := ShapeU.parent_linked hsl p hp hroot
        refine ⟨nd, q, nq, hg, hpar, ?_, hgq, hc⟩
        simp only [Tree.toList, List.mem_append, List.mem_cons]
        exact Or.inl hq
    · exact absurd (by rw [hp]; rfl) hne
    · by_cases hroot : r.root = some p
      · obtain ⟨nd, hg, hpar⟩ := hpr p hroot
        exact ⟨nd, x, nd0, hg, hpar, hx, hg0, Or.inr (hr0.trans hroot)⟩
      · obtain ⟨nd, q, nq, hg, hpar, hq, hgq, hc⟩ := ShapeU.parent_linked hsr p hp hroot
        refine ⟨nd, q, nq, hg, hpar, ?_, hgq, hc⟩
        simp only [Tree.toList, List.mem_append, List.mem_cons]
        exact Or.inr (Or.inr hq)

/-- No node of a treap has the root as a child. -/
theorem ShapeC.kids_not_root {h : Heap} {t : Tree} (hs : ShapeC h t) (hnd : t.toList.Nodup)
    {q : Nat} (hq : q ∈ t.toList) {nq : Node} (hg : h.get q = some nq) {c : Nat}
    (hc : nq.left = some c ∨ nq.right = some c) : t.root ≠ some c := by
  cases t with
  | nil => simp [Tree.toList] at hq
  | node l x r =>
    intro hroot
    have hcx : c = x := (Option.some.inj hroot).symm
    subst hcx
    obtain ⟨hxl, hxr⟩ := nodup_node hnd
    obtain ⟨nd0, hg0, hl0, hr0, -, hsl, hsr⟩ := hs
    simp only [Tree.toList, List.mem_append, List.mem_cons] at hq
    rcases hq with hq | hq | hq
    · exact hxl (hsl.kids_c q hq nq hg c hc)
    · subst hq
      rw [hg0] at hg
      cases Option.some.inj hg
      rcases hc with hc | hc
      · exact hxl (Tree.root_mem (hl0.symm.trans hc))
      · exact hxr (Tree.root_mem (hr0.symm.trans hc))
    · exact hxr (hsr.kids_c q hq nq hg c hc)

/-- Child links and sizes of a treap together with consistent parent links below the root
give the full shape. -/
theorem ShapeC.toU {h : Heap} : ∀ {t : Tree}, ShapeC h t → t.toList.Nodup →
    (∀ p ∈ t.toList, t.root ≠ some p → ∃ nd q nq, h.get p = some nd ∧ nd.parent = some q ∧
      q ∈ t.toList ∧ h.get q = some nq ∧ (nq.left = some p ∨ nq.right = some p)) →
    ShapeU h t
  | .nil, _, _, _ => trivial
  | .node l x r, hs, hnd, hpl => by
    obtain ⟨hxl, hxr⟩ := nodup_node hnd
    have hndl : l.toList.Nodup := by
      simp only [Tree.toList] at hnd
      exact (List.nodup_append.mp hnd).1
    have hndr : r.toList.Nodup := by
      simp only [Tree.toList] at hnd
      exact (List.nodup_cons.mp (List.nodup_append.mp hnd).2.1).2
    have hdis : ∀ p, p ∈ l.toList → p ∉ r.toList := by
      intro p h1 h2
      simp only [Tree.toList] at hnd
      exact (List.nodup_append.mp hnd).2.2 h1 (List.mem_cons_of_mem _ h2)
    have hs0 := hs
    obtain ⟨nd0, hg0, hl0, hr0, hsz, hsl, hsr⟩ := hs
    -- the parent of a node below the root, with the place of the parent
    have hpar : ∀ p, p ∈ l.toList ∨ p ∈ r.toList → ∃ nd q nq, h.get p = some nd ∧
        nd.parent = some q ∧ h.get q = some nq ∧ (nq.left = some p ∨ nq.right = some p) ∧
        (q ∈ l.toList ∨ q = x ∨ q ∈ r.toList) := by
      intro p hp
      have hp1 : p ∈ (Tree.node l x r).toList := by
        simp only [Tree.toList, List.mem_append, List.mem_cons]
        rcases hp with hp | hp
        · exact Or.inl hp
        · exact Or.inr (Or.inr hp)
      have hpx : (Tree.node l x r).root ≠ some p := by
        intro e
        have e1 : x = p := Option.some.inj e
        subst e1
        rcases hp with hp | hp
        · exact hxl hp
        · exact hxr hp
      obtain ⟨nd, q, nq, hg, hpq, hq, hgq, hc⟩ := hpl p hp1 hpx
      simp only [Tree.toList, List.mem_append, List.mem_cons] at hq
      exact ⟨nd, q, nq, hg, hpq, hgq, hc, hq⟩
    refine ⟨nd0, hg0, hl0, hr0, hsz, ?_, ?_, ?_, ?_⟩
    · refine ShapeC.toU hsl hndl (fun p hp hroot => ?_)
      obtain ⟨nd, q, nq, hg, hpq, hgq, hc, hq⟩ := hpar p (Or.inl hp)
      refine ⟨nd, q, nq, hg, hpq, ?_, hgq, hc⟩
      rcases hq with hq | hq | hq
      · exact hq
      · subst hq
        rw [hg0] at hgq
        cases Option.some.inj hgq
        rcases hc with hc | hc
        · exact absurd (hl0.symm.trans hc) hroot
        · exact absurd (Tree.root_mem (hr0.symm.trans hc)) (hdis p hp)
      · exact absurd (hsr.kids_c q hq nq hgq p hc) (hdis p hp)
    · refine ShapeC.toU hsr hndr (fun p hp hroot => ?_)
      obtain ⟨nd, q, nq, hg, hpq, hgq, hc, hq⟩ := hpar p (Or.inr hp)
      refine ⟨nd, q, nq, hg, hpq, ?_, hgq, hc⟩
      rcases hq with hq | hq | hq
      · exact absurd hp (hdis p (hsl.kids_c q hq nq hgq p hc))
      · subst hq
        rw [hg0] at hgq
        cases Option.some.inj hgq
        rcases hc with hc | hc
        · exact absurd hp (hdis p (Tree.root_mem (hl0.symm.trans hc)))
        · exact absurd (hr0.symm.trans hc) hroot
      · exact hq
    · intro c hroot
      have hcl : c ∈ l.toList := Tree.root_mem hroot
      obtain ⟨nd, q, nq, hg, hpq, hgq, hc, hq⟩ := hpar c (Or.inl hcl)
      refine ⟨nd, hg, ?_⟩
      rcases hq with hq | hq | hq
      · exact absurd hroot (hsl.kids_not_root hndl hq hgq hc)
      · rw [hpq, hq]
      · exact absurd (hsr.kids_c q hq nq hgq c hc) (hdis c hcl)
    · intro c hroot
      have hcr : c ∈ r.toList := Tree.root_mem hroot
      obtain ⟨nd, q, nq, hg, hpq, hgq, hc, hq⟩ := hpar c (Or.inr hcr)
      refine ⟨nd, hg, ?_⟩
      rcases hq with hq | hq | hq
      · exact absurd hcr (hdis c (hsl.kids_c q hq nq hgq c hc))
      · rw [hpq, hq]
      · exact absurd hroot (hsr.kids_not_root hndr hq hgq hc)

/-- The full shape with a parentless root is the shape of child links and sizes together
with consistent parent links. -/
theorem shapeU_iff_linked {h : Heap} {t : Tree} (hnd : t.toList.Nodup) :
    (ShapeU h t ∧ ParentIs h t.root none) ↔ (ShapeC h t ∧ ParentLinked h t) := by
  constructor
  · rintro ⟨hs, hp⟩
    exact ⟨hs.toC, hp, hs.parent_linked⟩
  · rintro ⟨hs, hp, hl⟩
    exact ⟨hs.toU hnd hl, hp⟩

/-- Function `merge` on two treaps with parentless roots: the root of the result has a null
parent. -/
theorem merge_parents {h : Heap} {tl tr : Tree} {f : Nat} (hsl : ShapeU h tl)
    (hsr : ShapeU h tr) (hpl : ParentIs h tl.root none) (hpr : ParentIs h tr.root none)
    (hnd : (tl.toList ++ tr.toList).Nodup) (hf : tl.size + tr.size ≤ f) :
    ∃ h1 t, merge f h tl.root tr.root = some (h1, t.root) ∧ ShapeU h1 t ∧
      t.toList = tl.toList ++ tr.toList ∧ ParentIs h1 t.root none := by
  have hs0 := skel_unflag h
  have hS0l : ShapeU h.unflag tl := ShapeU.shape_of_linksEq hs0.toLinks hsl
  have hS0r : ShapeU h.unflag tr := ShapeU.shape_of_linksEq hs0.toLinks hsr
  have hP0l : ParentIs h.unflag tl.root none := ParentIs.parent_of_linksEq hs0.toLinks hpl
  have hP0r : ParentIs h.unflag tr.root none := ParentIs.parent_of_linksEq hs0.toLinks hpr
  obtain ⟨a, t, hm, hS, hL, -, -, -, hroot⟩ :=
    merge_spec f tl tr h.unflag hS0l hS0r hnd (fun p hp _ => cons_unflag hsl p hp)
      (fun p hp _ => cons_unflag hsr p hp) hf
  obtain ⟨⟨a1, x⟩, hm1, heq, hsa⟩ := merge_skel f h.unflag h tl.root tr.root _ hs0.symm_skel hm
  have heq1 : x = t.root := heq
  have hsa1 : SkelEq a a1 := hsa
  subst heq1
  have hPa : ParentIs a t.root none := by
    intro y hy
    obtain ⟨hor, nd1, hg1, hp1⟩ := hroot y hy
    refine ⟨nd1, hg1, ?_⟩
    rcases hp1 with hp1 | ⟨nd, hg, hp1⟩
    · exact hp1
    · rcases hor with hor | hor
      · obtain ⟨nd2, hg2, hp2⟩ := hP0l y hor
        rw [hg] at hg2
        cases Option.some.inj hg2
        rw [hp1, hp2]
      · obtain ⟨nd2, hg2, hp2⟩ := hP0r y hor
        rw [hg] at hg2
        cases Option.some.inj hg2
        rw [hp1, hp2]
  exact ⟨a1, t, hm1, ShapeU.shape_of_linksEq hsa1.toLinks hS, hL,
    ParentIs.parent_of_linksEq hsa1.toLinks hPa⟩

/-- C21: `split` and `merge` preserve parent-link consistency. For every treap `t` held in
the heap (child links and size fields those of `t`, nodes pairwise distinct) whose root has
a null parent and in which the parent of every other node `p` is a node with
`parent.left == p` or `parent.right == p`, and every `key`, `split(t, key)` returns two
treaps that hold the nodes of `t` and have the same property; for every two such treaps `L`
and `R` with no node in common, `merge(L, R)` returns a treap of their nodes with the same
property; and for every valid script on a fresh `DynamicGraph(n)`, after each operation,
the nodes registered in each forest are the nodes of a family of treaps that all have the
property. -/
theorem parent_links_preserved (h : Heap) (t : Tree) (f : Nat) (key : Int)
    (hs : ShapeC h t) (hnd : t.toList.Nodup) (hpl : ParentLinked h t) (hf : t.size ≤ f)
    (h2 : Heap) (L R : Tree) (g : Nat) (hsL : ShapeC h2 L) (hsR : ShapeC h2 R)
    (hndLR : (L.toList ++ R.toList).Nodup) (hpL : ParentLinked h2 L)
    (hpR : ParentLinked h2 R) (hg : L.size + R.size ≤ g)
    (out : Nat → Int) (n : Nat) (ops : List Op) (hv : validFrom n [] ops = true) (k : Nat) :
    (∃ h1 tl tr, split f h t.root key = some (h1, tl.root, tr.root) ∧
      tl.toList ++ tr.toList = t.toList ∧
      ShapeC h1 tl ∧ ParentLinked h1 tl ∧ ShapeC h1 tr ∧ ParentLinked h1 tr) ∧
    (∃ h1 T, merge g h2 L.root R.root = some (h1, T.root) ∧
      T.toList = L.toList ++ R.toList ∧ ShapeC h1 T ∧ ParentLinked h1 T) ∧
    (∃ G, runOps (ops.take k) (DynamicGraph.new out (n : Int)) = some G ∧
      ∀ (l : Nat) (F : DynamicForest), G.spanning_trees[l]? = some F →
        ∃ ts : List Tree,
          (∀ p, (∃ key, F.map_edges key = some (some p)) ↔ ∃ t ∈ ts, p ∈ t.toList) ∧
          ∀ t ∈ ts, t.toList.Nodup ∧ ShapeC G.heap t ∧ ParentLinked G.heap t) := by
  refine ⟨?_, ?_, ?_⟩
  · obtain ⟨hU, hP⟩ := (shapeU_iff_linked hnd).mpr ⟨hs, hpl⟩
    obtain ⟨h1, tl, tr, hsp, hS1, hS2, hL1, hL2, hP1, hP2⟩ := split_plain key hU hnd hP hf
    have hn1 : tl.toList.Nodup := by rw [hL1]; exact hnd.sublist (List.take_sublist _ _)
    have hn2 : tr.toList.Nodup := by rw [hL2]; exact hnd.sublist (List.drop_sublist _ _)
    obtain ⟨c1, p1⟩ := (shapeU_iff_linked hn1).mp ⟨hS1, hP1⟩
    obtain ⟨c2, p2⟩ := (shapeU_iff_linked hn2).mp ⟨hS2, hP2⟩
    exact ⟨h1, tl, tr, hsp, by rw [hL1, hL2, List.take_append_drop], c1, p1, c2, p2⟩
  · have hnL : L.toList.Nodup := (List.nodup_append.mp hndLR).1
    have hnR : R.toList.Nodup := (List.nodup_append.mp hndLR).2.1
    obtain ⟨hUL, hPL⟩ := (shapeU_iff_linked hnL).mpr ⟨hsL, hpL⟩
    obtain ⟨hUR, hPR⟩ := (shapeU_iff_linked hnR).mpr ⟨hsR, hpR⟩
    obtain ⟨h1, T, hm, hS, hL, hP⟩ := merge_parents hUL hUR hPL hPR hndLR hg
    have hnT : T.toList.Nodup := by rw [hL]; exact hndLR
    obtain ⟨c, p⟩ := (shapeU_iff_linked hnT).mp ⟨hS, hP⟩
    exact ⟨h1, T, hm, hL, c, p⟩
  · obtain ⟨G, hrun, hn, tss, hR, hA⟩ := reach_prefix out n ops hv k
    refine ⟨G, hrun, fun l F hF => ?_⟩
    have hsh := hR.shape l F hF
    refine ⟨treesAt tss l, fun p => ?_, fun t ht => ?_⟩
    · constructor
      · rintro ⟨key, hm⟩
        obtain ⟨t, ht, hpt, -⟩ := hsh.reg_mem hm
        exact ⟨t, ht, hpt⟩
      · rintro ⟨t, ht, hpt⟩
        exact ⟨keyOf G.heap p, (hsh.reg _ p).mpr ⟨List.mem_flatMap.mpr ⟨t, ht, hpt⟩, rfl⟩⟩
    · have hndt := hsh.nodup_one ht
      obtain ⟨c, p⟩ := (shapeU_iff_linked hndt).mp (hsh.shape t ht)
      exact ⟨hndt, c, p⟩

theorem parent_links_preserved_witness :
    (ShapeC exHeapPair (Tree.node Tree.nil 0 (Tree.node Tree.nil 1 Tree.nil)) ∧
      ParentLinked exHeapPair (Tree.node Tree.nil 0 (Tree.node Tree.nil 1 Tree.nil))) ∧
    (ShapeC exHeapLR (Tree.node Tree.nil 0 Tree.nil) ∧
      ParentLinked exHeapLR (Tree.node Tree.nil 0 Tree.nil)) ∧
    (ShapeC exHeapLR (Tree.node Tree.nil 1 Tree.nil) ∧
      ParentLinked exHeapLR (Tree.node Tree.nil 1 Tree.nil)) ∧
    validFrom 4 [] exScript = true ∧
    (∃ h1 tl tr, split 2 exHeapPair (Tree.node Tree.nil 0 (Tree.node Tree.nil 1 Tree.nil)).root
        1 = some (h1, tl.root, tr.root) ∧
      tl.toList ++ tr.toList = (Tree.node Tree.nil 0 (Tree.node Tree.nil 1 Tree.nil)).toList ∧
      ShapeC h1 tl ∧ ParentLinked h1 tl ∧ ShapeC h1 tr ∧ ParentLinked h1 tr) ∧
    (∃ h1 T, merge 2 exHeapLR (Tree.node Tree.nil 0 Tree.nil).root
        (Tree.node Tree.nil 1 Tree.nil).root = some (h1, T.root) ∧
      T.toList = (Tree.node Tree.nil 0 Tree.nil).toList ++
        (Tree.node Tree.nil 1 Tree.nil).toList ∧ ShapeC h1 T ∧ ParentLinked h1 T) ∧
    (∃ G, runOps (exScript.take 5) (DynamicGraph.new exPriorities ((4 : Nat) : Int)) =
        some G ∧
      ∀ (l : Nat) (F : DynamicForest), G.spanning_trees[l]? = some F →
        ∃ ts : List Tree,
          (∀ p, (∃ key, F.map_edges key = some (some p)) ↔ ∃ t ∈ ts, p ∈ t.toList) ∧
          ∀ t ∈ ts, t.toList.Nodup ∧ ShapeC G.heap t ∧ ParentLinked G.heap t) :=
  have a1 := (shapeU_iff_linked (h := exHeapPair)
    (t := Tree.node Tree.nil 0 (Tree.node Tree.nil 1 Tree.nil)) (by decide)).mp
    ⟨exHeapPair_shape, fun x hx => by cases Option.some.inj hx; exact ⟨_, rfl, rfl⟩⟩
  have a2 := (shapeU_iff_linked (h := exHeapLR) (t := Tree.node Tree.nil 0 Tree.nil)
    (by decide)).mp
    ⟨exHeapLR_shape0, fun x hx => by cases Option.some.inj hx; exact ⟨_, rfl, rfl⟩⟩
  have a3 := (shapeU_iff_linked (h := exHeapLR) (t := Tree.node Tree.nil 1 Tree.nil)
    (by decide)).mp
    ⟨exHeapLR_shape1, fun x hx => by cases Option.some.inj hx; exact ⟨_, rfl, rfl⟩⟩
  ⟨a1, a2, a3, by decide,
    parent_links_preserved exHeapPair (Tree.node Tree.nil 0 (Tree.node Tree.nil 1 Tree.nil)) 2 1
      a1.1 (by decide) a1.2 (by decide) exHeapLR (Tree.node Tree.nil 0 Tree.nil)
      (Tree.node Tree.nil 1 Tree.nil) 2 a2.1 a3.1 (by decide) a2.2 a3.2 (by decide)
      exPriorities 4 exScript (by decide) 5⟩

/-- C22: for every valid script on a fresh `DynamicGraph(n)`, after each operation, for
every key `(u, v)` of `not_spanning_edges_levels` with level `lv`: `lv` is not negative,
`v` is in `spanning_trees[lv]->adjacent_edges[u]`, `u` is in
`spanning_trees[lv]->adjacent_edges[v]`, and `spanning_trees[lv]->is_connected(u, v)`
returns `true` and leaves the state as it was. -/
theorem nontree_edge_recorded (out : Nat → Int) (n : Nat) (ops : List Op)
    (hv : validFrom n [] ops = true) (k : Nat) :
    ∃ G, runOps (ops.take k) (DynamicGraph.new out (n : Int)) = some G ∧
      ∀ (u v lv : Int), G.not_spanning_edges_levels.find (u, v) = some lv →
        0 ≤ lv ∧ v ∈ G.adjAt lv u ∧ u ∈ G.adjAt lv v ∧
        G.connectedAt lv u v = some (G, true) := by
  obtain ⟨G, hrun, hn, tss, hR, hA⟩ := reach_prefix out n ops hv k
  refine ⟨G, hrun, fun u v lv hf => ?_⟩
  obtain ⟨-, -, -, -, -, hlv0, -⟩ := hA.rngN u v lv hf
  obtain ⟨l, rfl⟩ : ∃ l : Nat, lv = (l : Int) := ⟨lv.toNat, int_eq_cast hlv0⟩
  have hf2 : G.not_spanning_edges_levels.find (v, u) = some (l : Int) :=
    (hA.symN v u).trans hf
  have h1 : v ∈ (viewOf G tss).adj l u := by
    rcases hA.adj_compl l u v hf with h | h | h
    · exact h
    · exact h.elim
    · exact h.elim
  have h2 : u ∈ (viewOf G tss).adj l v := by
    rcases hA.adj_compl l v u hf2 with h | h | h
    · exact h
    · exact h.elim
    · exact h.elim
  have hsame : SameT ((viewOf G tss).tours l) u v := by
    rcases hA.conn u v l hf with h | ⟨a, b, κ, hpe, -⟩
    · exact h
    · exact Option.noConfusion hpe
  obtain ⟨s, hs, hu, hv1⟩ := hsame
  obtain ⟨c, hc, hiff⟩ := hR.connectedAt_spec (l := l)
    (List.mem_flatten.mpr ⟨s, hs, hu⟩) (List.mem_flatten.mpr ⟨s, hs, hv1⟩)
  have hct : c = true := hiff.mpr ⟨s, hs, hu, hv1⟩
  rw [hct] at hc
  exact ⟨hlv0, by rw [adjAt_view G tss]; exact h1, by rw [adjAt_view G tss]; exact h2, hc⟩

theorem nontree_edge_recorded_witness :
    validFrom 4 [] exScript = true ∧
    ∃ G, runOps (exScript.take 5) (DynamicGraph.new exPriorities ((4 : Nat) : Int)) = some G ∧
      ∀ (u v lv : Int), G.not_spanning_edges_levels.find (u, v) = some lv →
        0 ≤ lv ∧ v ∈ G.adjAt lv u ∧ u ∈ G.adjAt lv v ∧
        G.connectedAt lv u v = some (G, true) :=
  ⟨by decide, nontree_edge_recorded exPriorities 4 exScript (by decide) 5⟩

theorem build_mx (G : DynamicGraph) (level : Int) : (G.build level).mx_level = G.mx_level := by
  unfold DynamicGraph.build
  split <;> rfl

theorem connectedAt_mx {G G1 : DynamicGraph} {l a b : Int} {c : Bool}
    (h : G.connectedAt l a b = some (G1, c)) : G1.mx_level = G.mx_level := by
  simp only [DynamicGraph.connectedAt] at h
  obtain ⟨F, -, h⟩ := Option.bind_eq_some.mp h
  obtain ⟨⟨F1, c1⟩, -, h⟩ := Option.bind_eq_some.mp h
  cases Option.some.inj h
  rfl

theorem addEdgeAt_mx {G G1 : DynamicGraph} {l a b lv : Int}
    (h : G.addEdgeAt l a b lv = some G1) : G1.mx_level = G.mx_level := by
  simp only [DynamicGraph.addEdgeAt] at h
  obtain ⟨F, -, h⟩ := Option.bind_eq_some.mp h
  obtain ⟨⟨h1, g1, F1⟩, -, h⟩ := Option.bind_eq_some.mp h
  cases Option.some.inj h
  rfl

theorem deleteEdgeAt_mx {G G1 : DynamicGraph} {l a b : Int}
    (h : G.deleteEdgeAt l a b = some G1) : G1.mx_level = G.mx_level := by
  simp only [DynamicGraph.deleteEdgeAt] at h
  obtain ⟨F, -, h⟩ := Option.bind_eq_some.mp h
  obtain ⟨⟨h1, F1⟩, -, h⟩ := Option.bind_eq_some.mp h
  cases Option.some.inj h
  rfl

theorem selfNode_mx {G G1 : DynamicGraph} {l a : Int} {p : Option Nat}
    (h : G.selfNode l a = some (G1, p)) : G1.mx_level = G.mx_level := by
  simp only [DynamicGraph.selfNode] at h
  obtain ⟨F, -, h⟩ := Option.bind_eq_some.mp h
  cases Option.some.inj h
  rfl

theorem adjInsert_mx {G G1 : DynamicGraph} {l a b : Int}
    (h : G.adjInsert l a b = some G1) : G1.mx_level = G.mx_level := by
  simp only [DynamicGraph.adjInsert] at h
  obtain ⟨F, -, h⟩ := Option.bind_eq_some.mp h
  cases Option.some.inj h
  rfl

theorem adjErase_mx {G G1 : DynamicGraph} {l a b : Int}
    (h : G.adjErase l a b = some G1) : G1.mx_level = G.mx_level := by
  simp only [DynamicGraph.adjErase] at h
  obtain ⟨F, -, h⟩ := Option.bind_eq_some.mp h
  cases Option.some.inj h
  rfl

theorem clearIfEmpty_mx {G G1 : DynamicGraph} {l a : Int} {up : Bool}
    (h : G.clearIfEmpty l a up = some G1) : G1.mx_level = G.mx_level := by
  simp only [DynamicGraph.clearIfEmpty] at h
  obtain ⟨F, -, h⟩ := Option.bind_eq_some.mp h
  split at h
  · obtain ⟨⟨G2, p⟩, hs, h⟩ := Option.bind_eq_some.mp h
    have e := selfNode_mx hs
    cases p with
    | none => exact Option.noConfusion h
    | some q =>
      simp only at h
      obtain ⟨h1, -, h⟩ := Option.bind_eq_some.mp h
      split at h
      · obtain ⟨h2, -, h⟩ := Option.bind_eq_some.mp h
        cases Option.some.inj h
        exact e
      · cases Option.some.inj h
        exact e
  · cases Option.some.inj h
    rfl

/-- Method `AddEdge` leaves `mx_level` as it was. -/
theorem AddEdge_mx {G G1 : DynamicGraph} {u v : Int} (h : AddEdge G u v = some G1) :
    G1.mx_level = G.mx_level := by
  simp only [AddEdge] at h
  obtain ⟨⟨G0, c⟩, hc, h⟩ := Option.bind_eq_some.mp h
  have e0 := connectedAt_mx hc
  split at h
  · obtain ⟨G3, h3, h⟩ := Option.bind_eq_some.mp h
    obtain ⟨G4, h4, h⟩ := Option.bind_eq_some.mp h
    obtain ⟨⟨G5, uu⟩, h5, h⟩ := Option.bind_eq_some.mp h
    obtain ⟨⟨G6, vv⟩, h6, h⟩ := Option.bind_eq_some.mp h
    obtain ⟨h1, -, h⟩ := Option.bind_eq_some.mp h
    obtain ⟨h2, -, h⟩ := Option.bind_eq_some.mp h
    cases Option.some.inj h
    show G6.mx_level = _
    rw [selfNode_mx h6, selfNode_mx h5, adjInsert_mx h4, adjInsert_mx h3]
    exact e0
  · rw [addEdgeAt_mx h]
    exact e0

theorem promote_tree_edge_mx {G G1 : DynamicGraph} {r : Nat} {nd : Node}
    (h : promote_tree_edge G r nd = some G1) : G.mx_level ≤ G1.mx_level := by
  simp only [promote_tree_edge] at h
  obtain ⟨h1, -, h⟩ := Option.bind_eq_some.mp h
  obtain ⟨G3, h3, h⟩ := Option.bind_eq_some.mp h
  cases Option.some.inj h
  show G.mx_level ≤ G3.mx_level
  rw [addEdgeAt_mx h3]
  split
  · rw [build_mx]
    exact le_max_left _ _
  · exact le_max_left _ _

theorem IncreaseLevel_mx : ∀ (f : Nat) (G G1 : DynamicGraph) (root : Option Nat),
    IncreaseLevel f G root = some G1 → G.mx_level ≤ G1.mx_level
  | f, G, G1, none, h => by
    have e : IncreaseLevel f G none = some G := by cases f <;> rfl
    rw [e] at h
    cases Option.some.inj h
    exact le_refl _
  | 0, G, G1, some r, h => by
    simp [IncreaseLevel] at h
  | f + 1, G, G1, some r, h => by
    simp only [IncreaseLevel] at h
    split at h
    · exact Option.noConfusion h
    · next nd hg =>
      split at h
      · obtain ⟨G4, h4, h⟩ := Option.bind_eq_some.mp h
        obtain ⟨nd1, -, h⟩ := Option.bind_eq_some.mp h
        obtain ⟨G5, h5, h⟩ := Option.bind_eq_some.mp h
        obtain ⟨nd2, -, h⟩ := Option.bind_eq_some.mp h
        obtain ⟨G6, h6, h⟩ := Option.bind_eq_some.mp h
        obtain ⟨h2, -, h⟩ := Option.bind_eq_some.mp h
        cases Option.some.inj h
        show G.mx_level ≤ G6.mx_level
        have e4 : G.mx_level ≤ G4.mx_level := by
          split at h4
          · exact promote_tree_edge_mx h4
          · cases Option.some.inj h4
            exact le_refl _
        exact (e4.trans (IncreaseLevel_mx f G4 G5 _ h5)).trans (IncreaseLevel_mx f G5 G6 _ h6)
      · cases Option.some.inj h
        exact le_refl _

theorem take_candidate_mx {G G1 : DynamicGraph} {level a b : Int}
    (h : take_candidate level a b G = some G1) : G1.mx_level = G.mx_level := by
  simp only [take_candidate] at h
  obtain ⟨G2, h2, h⟩ := Option.bind_eq_some.mp h
  obtain ⟨G3, h3, h⟩ := Option.bind_eq_some.mp h
  obtain ⟨G4, h4, h⟩ := Option.bind_eq_some.mp h
  rw [clearIfEmpty_mx h, clearIfEmpty_mx h4, adjErase_mx h3, adjErase_mx h2]

theorem scan_adjacent_mx {level a : Int} : ∀ (xs : List Int) (G G1 : DynamicGraph)
    (td td1 : List Int) (res : Int × Int),
    scan_adjacent level a xs G td = some (G1, td1, res) → G1.mx_level = G.mx_level
  | [], G, G1, td, td1, res, h => by
    simp only [scan_adjacent] at h
    cases Option.some.inj h
    rfl
  | x :: xs, G, G1, td, td1, res, h => by
    simp only [scan_adjacent] at h
    obtain ⟨⟨G2, c⟩, hc, h⟩ := Option.bind_eq_some.mp h
    have e := connectedAt_mx hc
    split at h
    · rw [scan_adjacent_mx xs G2 G1 _ _ _ h]
      exact e
    · obtain ⟨G5, h5, h⟩ := Option.bind_eq_some.mp h
      cases Option.some.inj h
      rw [take_candidate_mx h5]
      exact e

theorem promote_nontree_edge_mx {G G1 : DynamicGraph} {level a b : Int}
    (h : promote_nontree_edge level a b G = some G1) : G.mx_level ≤ G1.mx_level := by
  simp only [promote_nontree_edge] at h
  obtain ⟨G3, h3, h⟩ := Option.bind_eq_some.mp h
  obtain ⟨G4, h4, h⟩ := Option.bind_eq_some.mp h
  obtain ⟨G5, h5, h⟩ := Option.bind_eq_some.mp h
  obtain ⟨G6, h6, h⟩ := Option.bind_eq_some.mp h
  obtain ⟨⟨G7, ffu⟩, h7, h⟩ := Option.bind_eq_some.mp h
  obtain ⟨hp1, -, h⟩ := Option.bind_eq_some.mp h
  obtain ⟨⟨G9, ffto⟩, h9, h⟩ := Option.bind_eq_some.mp h
  obtain ⟨hp2, -, h⟩ := Option.bind_eq_some.mp h
  rw [clearIfEmpty_mx h]
  show G.mx_level ≤ G9.mx_level
  rw [selfNode_mx h9]
  show G.mx_level ≤ G7.mx_level
  rw [selfNode_mx h7, adjInsert_mx h6, adjInsert_mx h5, adjErase_mx h4, adjErase_mx h3]
  split
  · rw [build_mx]
    exact le_max_left _ _
  · exact le_max_left _ _

theorem promote_adjacent_mx {level a : Int} : ∀ (todo : List Int) (G G1 : DynamicGraph),
    promote_adjacent level a todo G = some G1 → G.mx_level ≤ G1.mx_level
  | [], G, G1, h => by
    simp only [promote_adjacent] at h
    cases Option.some.inj h
    exact le_refl _
  | b :: rest, G, G1, h => by
    simp only [promote_adjacent] at h
    obtain ⟨G2, h2, h⟩ := Option.bind_eq_some.mp h
    exact (promote_nontree_edge_mx h2).trans (promote_adjacent_mx rest G2 G1 h)

theorem visit_adjacent_mx {G G1 : DynamicGraph} {nd : Node} {level : Int} {res : Int × Int}
    (h : visit_adjacent G nd level = some (G1, res)) : G.mx_level ≤ G1.mx_level := by
  simp only [visit_adjacent] at h
  obtain ⟨F, -, h⟩ := Option.bind_eq_some.mp h
  obtain ⟨⟨G2, td, r1⟩, h2, h⟩ := Option.bind_eq_some.mp h
  obtain ⟨G3, h3, h⟩ := Option.bind_eq_some.mp h
  obtain ⟨G4, h4, h⟩ := Option.bind_eq_some.mp h
  cases Option.some.inj h
  rw [clearIfEmpty_mx h4]
  have e := scan_adjacent_mx _ _ _ _ _ _ h2
  rw [← e]
  exact promote_adjacent_mx _ _ _ h3

theorem Bruteforce_mx : ∀ (f : Nat) (G G1 : DynamicGraph) (root : Option Nat)
    (res res1 : Int × Int) (level : Int),
    BruteforceAdjacentEdges f G root res level = some (G1, res1) → G.mx_level ≤ G1.mx_level
  | f, G, G1, none, res, res1, level, h => by
    rw [Bruteforce_none] at h
    cases Option.some.inj h
    exact le_refl _
  | 0, G, G1, some r, res, res1, level, h => by
    simp [BruteforceAdjacentEdges] at h
  | f + 1, G, G1, some r, res, res1, level, h => by
    simp only [BruteforceAdjacentEdges] at h
    split at h
    · cases Option.some.inj h
      exact le_refl _
    · split at h
      · exact Option.noConfusion h
      · next nd hg =>
        split at h
        · obtain ⟨⟨G4, r2⟩, h4, h⟩ := Option.bind_eq_some.mp h
          obtain ⟨nd1, -, h⟩ := Option.bind_eq_some.mp h
          obtain ⟨⟨G5, r3⟩, h5, h⟩ := Option.bind_eq_some.mp h
          obtain ⟨nd2, -, h⟩ := Option.bind_eq_some.mp h
          obtain ⟨⟨G6, r4⟩, h6, h⟩ := Option.bind_eq_some.mp h
          obtain ⟨h2, -, h⟩ := Option.bind_eq_some.mp h
          cases Option.some.inj h
          show G.mx_level ≤ G6.mx_level
          have e4 : G.mx_level ≤ G4.mx_level := by
            split at h4
            · exact visit_adjacent_mx h4
            · cases Option.some.inj h4
              exact le_refl _
          exact (e4.trans (Bruteforce_mx f G4 G5 _ _ _ _ h5)).trans
            (Bruteforce_mx f G5 G6 _ _ _ _ h6)
        · cases Option.some.inj h
          exact le_refl _

theorem add_edge_down_mx {a b level : Int} : ∀ (k : Nat) (G G1 : DynamicGraph),
    add_edge_down a b level k G = some G1 → G1.mx_level = G.mx_level
  | 0, G, G1, h => by
    simp only [add_edge_down] at h
    exact addEdgeAt_mx h
  | k + 1, G, G1, h => by
    simp only [add_edge_down] at h
    obtain ⟨G2, h2, h⟩ := Option.bind_eq_some.mp h
    rw [add_edge_down_mx k G2 G1 h, addEdgeAt_mx h2]

theorem delete_edge_down_mx {a b : Int} : ∀ (k : Nat) (G G1 : DynamicGraph),
    delete_edge_down a b k G = some G1 → G1.mx_level = G.mx_level
  | 0, G, G1, h => by
    simp only [delete_edge_down] at h
    exact deleteEdgeAt_mx h
  | k + 1, G, G1, h => by
    simp only [delete_edge_down] at h
    obtain ⟨G2, h2, h⟩ := Option.bind_eq_some.mp h
    rw [delete_edge_down_mx k G2 G1 h, deleteEdgeAt_mx h2]

theorem FindNewEdge_mx : ∀ (f : Nat) (G G1 : DynamicGraph) (u v level : Int) (ok ok1 : Bool),
    FindNewEdge f G u v level ok = some (G1, ok1) → G.mx_level ≤ G1.mx_level
  | 0, G, G1, u, v, level, ok, ok1, h => by
    have e : FindNewEdge 0 G u v level ok = none := rfl
    rw [e] at h
    exact Option.noConfusion h
  | f + 1, G, G1, u, v, level, ok, ok1, h => by
    cases ok with
    | true =>
      simp only [FindNewEdge, if_true] at h
      cases Option.some.inj h
      exact le_refl _
    | false =>
      simp only [FindNewEdge, Bool.false_eq_true, if_false] at h
      obtain ⟨⟨G01, pu⟩, hs1, h⟩ := Option.bind_eq_some.mp h
      obtain ⟨⟨G2, pv⟩, hs2, h⟩ := Option.bind_eq_some.mp h
      obtain ⟨up, -, h⟩ := Option.bind_eq_some.mp h
      obtain ⟨vp, -, h⟩ := Option.bind_eq_some.mp h
      obtain ⟨su, -, h⟩ := Option.bind_eq_some.mp h
      obtain ⟨sv, -, h⟩ := Option.bind_eq_some.mp h
      obtain ⟨G3, h3, h⟩ := Option.bind_eq_some.mp h
      obtain ⟨⟨G4, res⟩, h4, h⟩ := Option.bind_eq_some.mp h
      have e2 : G2.mx_level = G.mx_level := by rw [selfNode_mx hs2, selfNode_mx hs1]
      have e4 : G.mx_level ≤ G4.mx_level := by
        rw [← e2]
        exact (IncreaseLevel_mx _ _ _ _ h3).trans (Bruteforce_mx _ _ _ _ _ _ _ h4)
      by_cases hres : res = (-1, -1)
      · simp only [if_pos hres] at h
        by_cases hl : level = 0
        · simp only [if_pos hl] at h
          cases Option.some.inj h
          exact e4
        · simp only [if_neg hl] at h
          exact e4.trans (FindNewEdge_mx f G4 G1 u v _ _ _ h)
      · simp only [if_neg hres] at h
        obtain ⟨G6, h6, h⟩ := Option.bind_eq_some.mp h
        cases Option.some.inj h
        by_cases hl : 0 ≤ level
        · simp only [if_pos hl] at h6
          rw [add_edge_down_mx _ _ _ h6]
          exact e4
        · simp only [if_neg hl] at h6
          cases Option.some.inj h6
          exact e4

/-- Method `RemoveEdge` does not lower `mx_level`. -/
theorem RemoveEdge_mx {G G1 : DynamicGraph} {u v : Int} (h : RemoveEdge G u v = some G1) :
    G.mx_level ≤ G1.mx_level := by
  simp only [RemoveEdge] at h
  split at h
  · obtain ⟨G2, h2, h⟩ := Option.bind_eq_some.mp h
    obtain ⟨G3, h3, h⟩ := Option.bind_eq_some.mp h
    obtain ⟨G4, h4, h⟩ := Option.bind_eq_some.mp h
    rw [clearIfEmpty_mx h, clearIfEmpty_mx h4, adjErase_mx h3, adjErase_mx h2]
  · split at h
    · obtain ⟨G2, h2, h⟩ := Option.bind_eq_some.mp h
      obtain ⟨⟨G3, ok⟩, h3, h⟩ := Option.bind_eq_some.mp h
      have e2 : G.mx_level = G2.mx_level := by
        split at h2
        · rw [delete_edge_down_mx _ _ _ h2]
        · cases Option.some.inj h2
          rfl
      have e3 := FindNewEdge_mx _ _ _ _ _ _ _ _ h3
      split at h
      · cases Option.some.inj h
        show G.mx_level ≤ G3.mx_level
        rw [e2]; exact e3
      · cases Option.some.inj h
        show G.mx_level ≤ G3.mx_level
        rw [e2]; exact e3
    · cases Option.some.inj h
      exact le_refl _

theorem applyOp_mx {G G1 : DynamicGraph} {op : Op} (h : applyOp G op = some G1) :
    G.mx_level ≤ G1.mx_level := by
  cases op with
  | add u v => exact le_of_eq (AddEdge_mx h).symm
  | remove u v => exact RemoveEdge_mx h

/-- No script lowers `mx_level`. -/
theorem runOps_mx : ∀ (ops : List Op) (G G1 : DynamicGraph), runOps ops G = some G1 →
    G.mx_level ≤ G1.mx_level
  | [], G, G1, h => by
    simp only [runOps] at h
    cases Option.some.inj h
    exact le_refl _
  | op :: rest, G, G1, h => by
    simp only [runOps] at h
    obtain ⟨G2, h2, h⟩ := Option.bind_eq_some.mp h
    exact (applyOp_mx h2).trans (runOps_mx rest G2 G1 h)

theorem runOps_append : ∀ (a b : List Op) (G : DynamicGraph),
    runOps (a ++ b) G = (runOps a G).bind (runOps b)
  | [], b, G => rfl
  | op :: rest, b, G => by
    show (applyOp G op).bind (runOps (rest ++ b)) =
      ((applyOp G op).bind (runOps rest)).bind (runOps b)
    cases applyOp G op with
    | none => rfl
    | some G2 => exact runOps_append rest b G2

/-- The run of a shorter prefix of a script is the first part of the run of a longer one. -/
theorem runOps_take_le (ops : List Op) (G Gk : DynamicGraph) {j k : Nat} (hjk : j ≤ k)
    (h : runOps (ops.take k) G = some Gk) :
    ∃ Gj, runOps (ops.take j) G = some Gj ∧ Gj.mx_level ≤ Gk.mx_level := by
  have e : ops.take k = ops.take j ++ (ops.take k).drop j := by
    have h1 : (ops.take k).take j = ops.take j := by
      rw [List.take_take, min_eq_left hjk]
    rw [← h1, List.take_append_drop]
  rw [e, runOps_append] at h
  obtain ⟨Gj, hj, h⟩ := Option.bind_eq_some.mp h
  exact ⟨Gj, hj, runOps_mx _ _ _ h⟩

/-- C8, amended: for every valid script on a fresh `DynamicGraph(n)`, `GetMax()` returns
`mx_level`, the highest level for which a forest has been built (the number of forests
minus one); it is an upper bound of the levels stored in `spanning_edges_levels` and
`not_spanning_edges_levels`, and so of their maximum, but need not be equal to it; and it
never decreases: the value after the first `j` operations is at most the value after the
first `k` operations whenever `j ≤ k`, and `IsConnected` leaves it as it is. -/
theorem getMax_upper_bound (out : Nat → Int) (n : Nat) (ops : List Op)
    (hv : validFrom n [] ops = true) :
    ∃ G, runOps ops (DynamicGraph.new out (n : Int)) = some G ∧
      ((G.spanning_trees.length : Nat) : Int) = GetMax G + 1 ∧
      (∀ e lv, G.spanning_edges_levels.find e = some lv → lv ≤ GetMax G) ∧
      (∀ e lv, G.not_spanning_edges_levels.find e = some lv → lv ≤ GetMax G) ∧
      maxStoredLevel G ≤ GetMax G ∧
      (∀ j k, j ≤ k → ∃ Gj Gk,
        runOps (ops.take j) (DynamicGraph.new out (n : Int)) = some Gj ∧
        runOps (ops.take k) (DynamicGraph.new out (n : Int)) = some Gk ∧
        GetMax Gj ≤ GetMax Gk ∧ GetMax Gk ≤ GetMax G) ∧
      (∀ u v G1 c, IsConnected G u v = some (G1, c) → GetMax G1 = GetMax G) := by
  obtain ⟨G, hrun, hn, tss, hR, hA⟩ := reach_inv out n ops hv
  have hT : ∀ e lv, G.spanning_edges_levels.find e = some lv → lv ≤ G.mx_level := by
    rintro ⟨a, b⟩ lv h
    exact (hA.rngT a b lv h).2.2.2.2.2.2
  have hN : ∀ e lv, G.not_spanning_edges_levels.find e = some lv → lv ≤ G.mx_level := by
    rintro ⟨a, b⟩ lv h
    exact (hA.rngN a b lv h).2.2.2.2.2.2
  refine ⟨G, hrun, hA.mx_len, hT, hN, ?_, ?_, ?_⟩
  · exact max_le (LevelMap.maxValue_le hA.keysT hA.mx_nonneg hT)
      (LevelMap.maxValue_le hA.keysN hA.mx_nonneg hN)
  · intro j k hjk
    obtain ⟨Gk, hk, -⟩ := reach_prefix out n ops hv k
    obtain ⟨Gj, hj, hle⟩ := runOps_take_le ops _ Gk hjk hk
    refine ⟨Gj, Gk, hj, hk, hle, ?_⟩
    have hfull : runOps (ops.take ops.length) (DynamicGraph.new out (n : Int)) = some G := by
      rw [List.take_length]; exact hrun
    by_cases hkl : k ≤ ops.length
    · obtain ⟨Gk1, hk1, hle1⟩ := runOps_take_le ops _ G hkl hfull
      rw [hk] at hk1
      cases Option.some.inj hk1
      exact hle1
    · have e : ops.take k = ops := List.take_of_length_le (by omega)
      rw [e, hrun] at hk
      cases Option.some.inj hk
      exact le_refl _
  · intro u v G1 c h
    exact connectedAt_mx h

theorem getMax_upper_bound_witness :
    validFrom 4 [] [.add 0 1, .add 1 2, .add 2 3, .remove 1 2, .remove 0 1] = true ∧
    ∃ G, runOps [Op.add 0 1, Op.add 1 2, Op.add 2 3, Op.remove 1 2, Op.remove 0 1]
        (DynamicGraph.new (fun _ => 0) ((4 : Nat) : Int)) = some G ∧
      ((G.spanning_trees.length : Nat) : Int) = GetMax G + 1 ∧
      (∀ e lv, G.spanning_edges_levels.find e = some lv → lv ≤ GetMax G) ∧
      (∀ e lv, G.not_spanning_edges_levels.find e = some lv → lv ≤ GetMax G) ∧
      maxStoredLevel G ≤ GetMax G ∧
      (∀ j k, j ≤ k → ∃ Gj Gk,
        runOps ([Op.add 0 1, Op.add 1 2, Op.add 2 3, Op.remove 1 2, Op.remove 0 1].take j)
          (DynamicGraph.new (fun _ => 0) ((4 : Nat) : Int)) = some Gj ∧
        runOps ([Op.add 0 1, Op.add 1 2, Op.add 2 3, Op.remove 1 2, Op.remove 0 1].take k)
          (DynamicGraph.new (fun _ => 0) ((4 : Nat) : Int)) = some Gk ∧
        GetMax Gj ≤ GetMax Gk ∧ GetMax Gk ≤ GetMax G) ∧
      (∀ u v G1 c, IsConnected G u v = some (G1, c) → GetMax G1 = GetMax G) :=
  ⟨by decide, getMax_upper_bound (fun _ => 0) 4
    [.add 0 1, .add 1 2, .add 2 3, .remove 1 2, .remove 0 1] (by decide)⟩

end DynConn
